import Mathlib

/-!
# Layout-animation mutation filter of react-native-reanimated

A shallow embedding of `LayoutAnimationsProxy.cpp`.  The C++ object graph of
`shared_ptr<Node>` is an arena: a pointer is a natural number, the heap maps
pointers to node records, pointer `0` is the null pointer.  The unordered maps
of the engine are total functions into `Option`.  Closures handed to
`scheduleOnUI` are queued as `UITask` values and run by `runUITask`.  The
animation manager is a parameter: its queries may depend on the calls that
were made to it so far, which the engine state logs.

Values of type `int` are integers of Lean.  The arithmetic of
`updateIndexForMutation` on child indices wraps around at 32 bits
(`wrapInt32`, `addInt32`), as the compiled code does.  A trigger count changes
by one per recorded start or end of an animation and is left unbounded.
Floating point geometry and opacity are abstracted to integers.

The header `LayoutAnimationsProxy.h` and `LayoutAnimationsUtils` are not among
the sources.  What is taken from the prose specification instead is marked
`Modelled from the spec`.
-/

namespace reanimated

abbrev Tag := Int
abbrev SurfaceId := Int
abbrev Ptr := Nat

/-- Kinds of `ShadowViewMutation` of the host renderer. -/
inductive MutationType where
  | Create | Delete | Insert | Remove | Update
  deriving DecidableEq, Repr

/-- States of a mutation node (`ExitingState`). -/
inductive ExitingState where
  | UNDEFINED | WAITING | ANIMATING | DEAD | MOVED | DELETED
  deriving DecidableEq, Repr

inductive LayoutAnimationType where
  | ENTERING | EXITING | LAYOUT
  deriving DecidableEq, Repr

/-- Frame of a view (`layoutMetrics.frame`), coordinates abstracted to integers. -/
structure LayoutMetrics where
  x : Int
  y : Int
  width : Int
  height : Int
  deriving DecidableEq, Repr

/-- The part of `ViewProps` the engine reads: opacity, nativeId, and the rest
of the property set as an uninterpreted value. -/
structure Props where
  opacity : Int
  nativeId : String
  other : Nat
  deriving DecidableEq, Repr

structure ShadowView where
  tag : Tag
  componentName : String
  surfaceId : SurfaceId
  props : Props
  layoutMetrics : LayoutMetrics
  deriving DecidableEq, Repr

/-- The default-constructed `ShadowView` of the host renderer. -/
def emptyView : ShadowView :=
  { tag := -1, componentName := "", surfaceId := -1,
    props := { opacity := 1, nativeId := "", other := 0 },
    layoutMetrics := { x := 0, y := 0, width := 0, height := 0 } }

structure ShadowViewMutation where
  type : MutationType
  parentTag : Tag
  oldChildShadowView : ShadowView
  newChildShadowView : ShadowView
  index : Int
  deriving DecidableEq, Repr

/-- Host constructor `ShadowViewMutation::DeleteMutation`. -/
def DeleteMutation (v : ShadowView) : ShadowViewMutation :=
  { type := .Delete, parentTag := -1, oldChildShadowView := v,
    newChildShadowView := emptyView, index := -1 }

/-- Host constructor `ShadowViewMutation::InsertMutation`. -/
def InsertMutation (parentTag : Tag) (v : ShadowView) (index : Int) : ShadowViewMutation :=
  { type := .Insert, parentTag := parentTag, oldChildShadowView := emptyView,
    newChildShadowView := v, index := index }

/-- Host constructor `ShadowViewMutation::UpdateMutation`. -/
def UpdateMutation (old new : ShadowView) (parentTag : Tag) : ShadowViewMutation :=
  { type := .Update, parentTag := parentTag, oldChildShadowView := old,
    newChildShadowView := new, index := -1 }

/-- Host constructor `ShadowViewMutation::RemoveMutation`. -/
def RemoveMutation (parentTag : Tag) (v : ShadowView) (index : Int) : ShadowViewMutation :=
  { type := .Remove, parentTag := parentTag, oldChildShadowView := v,
    newChildShadowView := emptyView, index := index }

/-- Host constructor `ShadowViewMutation::CreateMutation`. -/
def CreateMutation (v : ShadowView) : ShadowViewMutation :=
  { type := .Create, parentTag := -1, oldChildShadowView := emptyView,
    newChildShadowView := v, index := -1 }

abbrev ShadowViewMutationList := List ShadowViewMutation

/-- A `Node` or `MutationNode` of the arena.  `isMutation` is what
`isMutationMode()` answers; `mutation` and `state` are the extra members of a
`MutationNode`.  A plain `Node` has no such members: the record of a plain node
carries filler values there, and a statement that reads them is a statement
about the model only.  The code reaches them through
`static_pointer_cast<MutationNode>`, which is undefined behaviour on a plain
node. -/
structure Node where
  tag : Tag
  children : List Ptr
  unflattenedChildren : List Ptr
  parent : Ptr
  unflattenedParent : Ptr
  isMutation : Bool
  mutation : ShadowViewMutation
  state : ExitingState
  deriving DecidableEq, Repr

/-- What a plain `Node(tag)` holds: no children, null parents.  The fields
`mutation` and `state` are fillers (a plain node has neither member). -/
def plainNode (tag : Tag) : Node :=
  { tag := tag, children := [], unflattenedChildren := [], parent := 0,
    unflattenedParent := 0, isMutation := false,
    mutation := DeleteMutation emptyView, state := .UNDEFINED }

structure LayoutAnimation where
  finalView : ShadowView
  currentView : ShadowView
  parentTag : Tag
  opacity : Option Int
  count : Int
  deriving DecidableEq, Repr

/-- Interpolated frame written by the UI-side driver: each field is optional. -/
structure Frame where
  x : Option Int
  y : Option Int
  width : Option Int
  height : Option Int
  deriving DecidableEq, Repr

structure UpdateValues where
  newProps : Props
  frame : Frame
  deriving DecidableEq, Repr

/-- Calls the engine makes on the animation manager. -/
inductive ManagerCall where
  | startLayoutAnimation (tag : Tag) (type : LayoutAnimationType)
  | cancelLayoutAnimation (tag : Tag)
  | clearLayoutAnimationConfig (tag : Tag)
  | transferConfigFromNativeID (nativeId : Int) (tag : Tag)
  deriving DecidableEq, Repr

/-- The external collaborators, taken as parameters: the two queries of the
animation manager (which may depend on the calls made to it so far), the
recognizer of full-screen transition containers, which reads the component
name of the removed view, and the iteration order of the container
`deadNodes`.  That container is filled with the one-argument `insert` and is
visited by a range-for loop, so it is a set of shared pointers, visited in an
order of its own and not in the order of insertion: `deadKey` gives the place
of a node in that order. -/
structure Manager where
  hasLayoutAnimation : List ManagerCall → Tag → LayoutAnimationType → Bool
  shouldAnimateExiting : List ManagerCall → Tag → Bool → Bool
  isRNSScreen : String → Bool
  deadKey : Ptr → Nat := fun _ => 0

/-- Closures scheduled with `scheduleOnUI`. -/
inductive UITask where
  | entering (tag : Tag) (mutation : ShadowViewMutation) (opacity : Int)
  | exiting (tag : Tag) (mutation : ShadowViewMutation)
  | layout (tag : Tag) (mutation : ShadowViewMutation)
  | cancel (tag : Tag)
  deriving DecidableEq, Repr

/-- The mutable members of `LayoutAnimationsProxy`.  `deadNodes` lists the
elements of the set of queued dead nodes, each once, in the order of their
insertion; the order in which the set is visited is `visitOrder`. -/
structure State where
  heap : Ptr → Node
  next : Ptr
  nodeForTag : Tag → Option Ptr
  layoutAnimations : Tag → Option LayoutAnimation
  deadNodes : List Ptr
  updateMap : SurfaceId → List (Tag × UpdateValues)
  window : SurfaceId → Option (Int × Int)
  uiQueue : List UITask
  managerLog : List ManagerCall

/-- A freshly constructed engine. -/
def State.fresh : State :=
  { heap := fun _ => plainNode (-1), next := 1, nodeForTag := fun _ => none,
    layoutAnimations := fun _ => none, deadNodes := [], updateMap := fun _ => [],
    window := fun _ => none, uiQueue := [], managerLog := [] }

def State.node (s : State) (p : Ptr) : Node := s.heap p

def State.setNode (s : State) (p : Ptr) (n : Node) : State :=
  { s with heap := Function.update s.heap p n }

def State.modifyNode (s : State) (p : Ptr) (f : Node → Node) : State :=
  s.setNode p (f (s.node p))

/-- Result of `make_shared`: a new pointer holding `n`. -/
def State.alloc (s : State) (n : Node) : Ptr × State :=
  (s.next, { s with heap := Function.update s.heap s.next n, next := s.next + 1 })

def State.schedule (s : State) (t : UITask) : State :=
  { s with uiQueue := s.uiQueue ++ [t] }

def State.logCall (s : State) (c : ManagerCall) : State :=
  { s with managerLog := s.managerLog ++ [c] }

/-- The function `maybeCancelAnimation`. -/
def maybeCancelAnimation (s : State) (tag : Tag) : State :=
  match s.layoutAnimations tag with
  | none => s
  | some _ =>
    { s with layoutAnimations := Function.update s.layoutAnimations tag none,
             uiQueue := s.uiQueue ++ [UITask.cancel tag] }

/-- The function `createLayoutAnimation`; returns the state and the value left in
the `oldView` reference. -/
def createLayoutAnimation (s : State) (mutation : ShadowViewMutation)
    (oldView : ShadowView) (tag : Tag) : State × ShadowView :=
  let r : ShadowView × Int :=
    match s.layoutAnimations tag with
    | some la => (la.currentView, la.count + 1)
    | none => (oldView, 1)
  let finalView :=
    if mutation.type = .Remove then mutation.oldChildShadowView
    else mutation.newChildShadowView
  let la : LayoutAnimation :=
    { finalView := finalView, currentView := r.1, parentTag := mutation.parentTag,
      opacity := none, count := r.2 }
  ({ s with layoutAnimations := Function.update s.layoutAnimations tag (some la) }, r.1)

/-- The function `endLayoutAnimation`. -/
def endLayoutAnimation (s : State) (tag : Tag) (shouldRemove : Bool) :
    Option SurfaceId × State :=
  match s.layoutAnimations tag with
  | none => (none, s)
  | some la =>
    if la.count > 1 then
      let la1 : LayoutAnimation := { la with count := la.count - 1 }
      (none, { s with layoutAnimations := Function.update s.layoutAnimations tag (some la1) })
    else
      let surfaceId := la.finalView.surfaceId
      let erased := (s.updateMap surfaceId).filter (fun e => e.1 != tag)
      let s1 : State :=
        { s with
          layoutAnimations := Function.update s.layoutAnimations tag none,
          updateMap := Function.update s.updateMap surfaceId erased }
      if !shouldRemove then (none, s1)
      else
        match s1.nodeForTag tag with
        | none => (none, s1)
        | some p =>
          let s2 := s1.modifyNode p (fun n => { n with state := .DEAD })
          let dead := if p ∈ s2.deadNodes then s2.deadNodes else s2.deadNodes ++ [p]
          (some surfaceId, { s2 with deadNodes := dead })

/-- Value of an integer as a C++ `int`: two's complement wrap-around at 32 bits,
which is what the compiled code computes when a signed operation overflows. -/
def wrapInt32 (x : Int) : Int := (x + 2147483648) % 4294967296 - 2147483648

/-- The statement `a += b` on `int` values: the sum wraps around at 32 bits, and
adding 0 leaves `a` as it is. -/
def addInt32 (a b : Int) : Int := if b = 0 then a else wrapInt32 (a + b)

/-- The scan of `updateIndexForMutation` over the indices of the pending
children: returns the final `offset`.  The counters are `int` variables, so
`size += k - prevIndex - 1` and `offset++` wrap around at 32 bits (wrapping
after each operation or once after the sum gives the same value). -/
def updateIndexLoop (index : Int) : List Int → Int → Int → Int → Int
  | [], _, _, offset => offset
  | k :: ks, size, prevIndex, offset =>
    let size1 := wrapInt32 (size + (k - prevIndex - 1))
    if index < size1 then offset
    else updateIndexLoop index ks size1 k (wrapInt32 (offset + 1))

/-- Indices of the pending children of a node (`subNode->mutation.index` along
`parent->children`): the removed views that are still mounted. -/
def pendingIndices (s : State) (parent : Ptr) : List Int :=
  (s.node parent).children.map (fun c => (s.node c).mutation.index)

/-- The function `updateIndexForMutation`. -/
def updateIndexForMutation (s : State) (mutation : ShadowViewMutation) :
    ShadowViewMutation :=
  if mutation.index = -1 then mutation
  else
    match s.nodeForTag mutation.parentTag with
    | none => mutation
    | some parent =>
      let offset := updateIndexLoop mutation.index (pendingIndices s parent) 0 (-1) 0
      { mutation with index := addInt32 mutation.index offset }

/-- Modelled from the spec: `Node::removeChildFromUnflattenedTree` is declared in
`LayoutAnimationsUtils.h`, which is not among the sources.  "Detaches a child
and is idempotent": the last entry of a child list that carries the tag is
dropped, a list without the tag is left as it is. -/
def eraseLastWithTag (tagOf : Ptr → Tag) (tag : Tag) : List Ptr → List Ptr
  | [] => []
  | p :: ps =>
    if tagOf p = tag ∧ ∀ q ∈ ps, tagOf q ≠ tag then ps
    else p :: eraseLastWithTag tagOf tag ps

/-- Modelled from the spec: `Node::removeChildFromUnflattenedTree` (missing
`LayoutAnimationsUtils`): the child leaves the unflattened children of `self`
and the flattened children of its own flattened parent. -/
def removeChildFromUnflattenedTree (s : State) (self child : Ptr) : State :=
  let tag := (s.node child).tag
  let tagOf := fun q => (s.node q).tag
  let s1 := s.modifyNode self (fun n =>
    { n with unflattenedChildren := eraseLastWithTag tagOf tag n.unflattenedChildren })
  s1.modifyNode (s.node child).parent (fun n =>
    { n with children := eraseLastWithTag tagOf tag n.children })

/-- Modelled from the spec: the merge behind `Node::insertChildren` and
`Node::insertUnflattenedChildren` (missing `LayoutAnimationsUtils`): the new
nodes are merged into the ordered child sequence, "preserving index order";
on equal indices the new node goes first. -/
def mergeChildren (indexOf : Ptr → Int) : Nat → List Ptr → List Ptr → List Ptr
  | 0, a, b => a ++ b
  | _ + 1, [], b => b
  | _ + 1, a, [] => a
  | fuel + 1, x :: a, y :: b =>
    if indexOf x < indexOf y then x :: mergeChildren indexOf fuel a (y :: b)
    else y :: mergeChildren indexOf fuel (x :: a) b

/-- Modelled from the spec: `Node::insertChildren` (missing `LayoutAnimationsUtils`). -/
def insertChildren (s : State) (self : Ptr) (newChildren : List Ptr) : State :=
  s.modifyNode self (fun n =>
    let merged := mergeChildren (fun q => (s.node q).mutation.index)
      (n.children.length + newChildren.length) n.children newChildren
    { n with children := merged })

/-- Modelled from the spec: `Node::insertUnflattenedChildren` (missing
`LayoutAnimationsUtils`). -/
def insertUnflattenedChildren (s : State) (self : Ptr) (newChildren : List Ptr) : State :=
  s.modifyNode self (fun n =>
    let merged := mergeChildren (fun q => (s.node q).mutation.index)
      (n.unflattenedChildren.length + newChildren.length) n.unflattenedChildren newChildren
    { n with unflattenedChildren := merged })

/-- Modelled from the spec: `Node::applyMutationToIndices` (missing
`LayoutAnimationsUtils`) "adjusts a parent's bookkeeping when an insertion
changes sibling index": every pending child at or after the inserted
position moves one place up. -/
def applyMutationToIndices (s : State) (self : Ptr) (mutation : ShadowViewMutation) : State :=
  (s.node self).children.foldl (fun acc c =>
    if mutation.index ≤ (acc.node c).mutation.index then
      acc.modifyNode c (fun n =>
        { n with mutation := { n.mutation with index := n.mutation.index + 1 } })
    else acc) s

abbrev Work := State × ShadowViewMutationList

/-- The function `endAnimationsRecursively`.  `none` means the recursion budget ran out. -/
def endAnimationsRecursively : Nat → Ptr → Work → Option Work
  | 0, _, _ => none
  | fuel + 1, node, (s, mutations) =>
    let s1 := maybeCancelAnimation s (s.node node).tag
    let s2 := s1.modifyNode node (fun n => { n with state := .DELETED })
    let r := (s2.node node).unflattenedChildren.reverse.foldl
      (fun (acc : Option Work) subNode =>
        match acc with
        | none => none
        | some w =>
          if (w.1.node subNode).state ≠ .DELETED then
            endAnimationsRecursively fuel subNode w
          else some w)
      (some (s2, mutations))
    match r with
    | none => none
    | some (s3, mutations3) =>
      let n := s3.node node
      some ({ s3 with nodeForTag := Function.update s3.nodeForTag n.tag none },
            mutations3 ++ [n.mutation, DeleteMutation n.mutation.oldChildShadowView])

/-- The function `maybeDropAncestors`. -/
def maybeDropAncestors : Nat → Ptr → Ptr → Work → Option Work
  | 0, _, _, _ => none
  | fuel + 1, parent, child, (s, cleanupMutations) =>
    let s1 := removeChildFromUnflattenedTree s parent child
    let node := s1.node parent
    if !node.isMutation then some (s1, cleanupMutations)
    else if node.children.length = 0 ∧ node.state ≠ .ANIMATING then
      let s2 : State := { s1 with nodeForTag := Function.update s1.nodeForTag node.tag none }
      let s3 := maybeCancelAnimation s2 node.tag
      maybeDropAncestors fuel node.unflattenedParent parent
        (s3, cleanupMutations ++ [node.mutation, DeleteMutation node.mutation.oldChildShadowView])
    else some (s1, cleanupMutations)

/-- The copy `std::make_shared<Node>(*node)` of `startAnimationsRecursively`: a plain
node with the tag and the child lists of the moved node. -/
def replacementNode (n : Node) : Node :=
  { plainNode n.tag with children := n.children, unflattenedChildren := n.unflattenedChildren }

/-- The function `startExitingAnimation`: only schedules the closure. -/
def startExitingAnimation (s : State) (tag : Tag) (mutation : ShadowViewMutation) : State :=
  s.schedule (UITask.exiting tag mutation)

/-- Loop state of `startAnimationsRecursively`. -/
structure StartLoop where
  hasAnimatedChildren : Bool
  toBeRemoved : List Ptr
  s : State
  mutations : ShadowViewMutationList

/-- Body of the loop of `startAnimationsRecursively` over the unflattened children,
for the child `subNode`; `endRec` and `startRec` are the two recursive calls. -/
def startLoopStep (endRec : Ptr → Work → Option Work)
    (startRec : Ptr → Work → Option (Bool × Work))
    (shouldAnimate shouldRemoveSubviewsWithoutAnimations : Bool)
    (acc : Option StartLoop) (subNode : Ptr) : Option StartLoop :=
  match acc with
  | none => none
  | some l =>
    let st := (l.s.node subNode).state
    if st ≠ .UNDEFINED ∧ st ≠ .MOVED then
      if shouldAnimate ∧ st ≠ .DEAD then
        some { l with hasAnimatedChildren := true }
      else
        match endRec subNode (l.s, l.mutations) with
        | none => none
        | some (s1, m1) =>
          some { l with s := s1, mutations := m1, toBeRemoved := l.toBeRemoved ++ [subNode] }
    else
      match startRec subNode (l.s, l.mutations) with
      | none => none
      | some (true, s1, m1) =>
        some { l with s := s1, mutations := m1, hasAnimatedChildren := true }
      | some (false, s1, m1) =>
        let sub := s1.node subNode
        if sub.state = .MOVED then
          some { l with s := s1, mutations := m1 ++ [sub.mutation],
                        toBeRemoved := l.toBeRemoved ++ [subNode] }
        else if shouldRemoveSubviewsWithoutAnimations then
          let s2 := maybeCancelAnimation s1 sub.tag
          let s3 := s2.modifyNode subNode (fun x => { x with state := .DELETED })
          let s4 : State := { s3 with nodeForTag := Function.update s3.nodeForTag sub.tag none }
          let m2 := m1 ++ [sub.mutation, DeleteMutation sub.mutation.oldChildShadowView]
          some { l with s := s4, mutations := m2, toBeRemoved := l.toBeRemoved ++ [subNode] }
        else
          let s2 := s1.modifyNode subNode (fun x => { x with state := .WAITING })
          some { l with s := s2, mutations := m1 }

/-- The part of `startAnimationsRecursively` after the loop over the children: the
children to be removed are detached, a MOVED node is replaced by a plain node,
an exit animation is started or the configuration of the tag is cleared. -/
def startFinish (node : Ptr) (hasExitAnimation : Bool) (l : StartLoop) : Bool × Work :=
  let s1 := l.toBeRemoved.foldl
    (fun acc subNode => removeChildFromUnflattenedTree acc node subNode) l.s
  let n1 := s1.node node
  if n1.state = .MOVED then
    let a := s1.alloc (replacementNode n1)
    let s2 := n1.children.foldl
      (fun acc subNode => acc.modifyNode subNode (fun x => { x with parent := a.1 })) a.2
    let s3 := n1.unflattenedChildren.foldl
      (fun acc subNode =>
        acc.modifyNode subNode (fun x => { x with unflattenedParent := a.1 })) s2
    (false, { s3 with nodeForTag := Function.update s3.nodeForTag n1.tag (some a.1) },
      l.mutations)
  else
    let wantAnimateExit := hasExitAnimation || l.hasAnimatedChildren
    if hasExitAnimation then
      let s2 := s1.modifyNode node (fun x => { x with state := .ANIMATING })
      (wantAnimateExit, startExitingAnimation s2 n1.tag (s2.node node).mutation, l.mutations)
    else
      (wantAnimateExit, s1.logCall (ManagerCall.clearLayoutAnimationConfig n1.tag), l.mutations)

/-- The function `startAnimationsRecursively`.  `none` means the recursion budget
ran out. -/
def startAnimationsRecursively (mgr : Manager) :
    Nat → Ptr → Bool → Bool → Bool → Work → Option (Bool × Work)
  | 0, _, _, _, _, _ => none
  | fuel + 1, node, shouldRemoveSubviewsWithoutAnimations, shouldAnimate, isScreenPop,
      (s, mutations) =>
    let n0 := s.node node
    let isScreenPop := if mgr.isRNSScreen n0.mutation.oldChildShadowView.componentName
      then true else isScreenPop
    let shouldAnimate := !isScreenPop &&
      mgr.shouldAnimateExiting s.managerLog n0.tag shouldAnimate
    let hasExitAnimation := shouldAnimate &&
      mgr.hasLayoutAnimation s.managerLog n0.tag .EXITING
    let shouldRemoveSubviewsWithoutAnimations :=
      shouldRemoveSubviewsWithoutAnimations && (!hasExitAnimation || n0.state = .MOVED)
    let r := n0.unflattenedChildren.reverse.foldl
      (startLoopStep (endAnimationsRecursively fuel)
        (fun subNode w => startAnimationsRecursively mgr fuel subNode
          shouldRemoveSubviewsWithoutAnimations shouldAnimate isScreenPop w)
        shouldAnimate shouldRemoveSubviewsWithoutAnimations)
      (some { hasAnimatedChildren := false, toBeRemoved := [], s := s,
              mutations := mutations })
    match r with
    | none => none
    | some l => some (startFinish node hasExitAnimation l)

/-- Local variables of `parseRemoveMutations`. -/
structure ParseAcc where
  s : State
  deletedViews : List Tag
  movedViews : Tag → Option Tag
  childrenForTag : List (Tag × List Ptr)
  unflattenedChildrenForTag : List (Tag × List Ptr)
  mutationNodes : List Ptr

/-- The statement `childrenForTag[tag].push_back(node)` on a map kept as an association list. -/
def pushChild (tag : Tag) (node : Ptr) : List (Tag × List Ptr) → List (Tag × List Ptr)
  | [] => [(tag, [node])]
  | (k, l) :: rest =>
    if k = tag then (k, l ++ [node]) :: rest else (k, l) :: pushChild tag node rest

/-- Construction of the `MutationNode` in `parseRemoveMutations`: a fresh node, or
one that takes over the children of the node already known for the tag (whose
child vectors are left empty by the move) and re-parents them. -/
def makeMutationNode (s : State) (mutation : ShadowViewMutation) (node : Option Ptr) :
    Ptr × State :=
  match node with
  | none =>
    s.alloc { plainNode mutation.oldChildShadowView.tag with
              isMutation := true, mutation := mutation }
  | some p =>
    let old := s.node p
    let s0 := s.modifyNode p (fun n => { n with children := [], unflattenedChildren := [] })
    let fresh : Node := { plainNode old.tag with
      children := old.children, unflattenedChildren := old.unflattenedChildren,
      isMutation := true, mutation := mutation }
    let a := s0.alloc fresh
    let s1 := old.children.foldl
      (fun acc subNode => acc.modifyNode subNode (fun x => { x with parent := a.1 })) a.2
    let s2 := old.unflattenedChildren.foldl
      (fun acc subNode =>
        acc.modifyNode subNode (fun x => { x with unflattenedParent := a.1 })) s1
    (a.1, s2)

/-- Body of the reverse scan of `parseRemoveMutations` for a Remove mutation. -/
def parseRemove (a : ParseAcc) (mutation0 : ShadowViewMutation) : ParseAcc :=
  let mutation := updateIndexForMutation a.s mutation0
  let tag := mutation.oldChildShadowView.tag
  let parentTag := mutation.parentTag
  let unflattenedParentTag := parentTag
  let node := a.s.nodeForTag tag
  let parent := a.s.nodeForTag parentTag
  let unflattenedParent := a.s.nodeForTag unflattenedParentTag
  let mk := makeMutationNode a.s mutation node
  let mutationNode := mk.1
  let isMoved : Bool := !a.deletedViews.contains mutation.oldChildShadowView.tag
  let s1 := if isMoved then mk.2.modifyNode mutationNode (fun x => { x with state := .MOVED })
    else mk.2
  let movedViews := if isMoved
    then Function.update a.movedViews mutation.oldChildShadowView.tag (some (-1))
    else a.movedViews
  let s2 : State := { s1 with nodeForTag := Function.update s1.nodeForTag tag (some mutationNode) }
  let pr : Ptr × State :=
    match parent with
    | some p => (p, s2)
    | none =>
      let al := s2.alloc (plainNode parentTag)
      (al.1, { al.2 with nodeForTag := Function.update al.2.nodeForTag parentTag (some al.1) })
  let unflattenedParentPtr : Ptr :=
    match unflattenedParent with
    | some u => u
    | none => pr.1
  let s3 := pr.2.modifyNode mutationNode
    (fun x => { x with parent := pr.1, unflattenedParent := unflattenedParentPtr })
  { s := s3, deletedViews := a.deletedViews, movedViews := movedViews,
    childrenForTag := pushChild parentTag mutationNode a.childrenForTag,
    unflattenedChildrenForTag :=
      pushChild unflattenedParentTag mutationNode a.unflattenedChildrenForTag,
    mutationNodes := a.mutationNodes ++ [mutationNode] }

/-- Body of the reverse scan of `parseRemoveMutations` for one mutation.  The
lookup of a moved tag always finds a node, its Remove was scanned before. -/
def parseStep (a : ParseAcc) (mutation : ShadowViewMutation) : ParseAcc :=
  let a1 := if mutation.type = .Delete
    then { a with deletedViews := mutation.oldChildShadowView.tag :: a.deletedViews }
    else a
  let a2 := if mutation.type = .Remove then parseRemove a1 mutation else a1
  if mutation.type = .Update ∧ (a2.movedViews mutation.newChildShadowView.tag).isSome then
    match a2.s.nodeForTag mutation.newChildShadowView.tag with
    | none => a2
    | some p =>
      let s1 := a2.s.modifyNode p (fun x =>
        { x with mutation := { x.mutation with oldChildShadowView := mutation.oldChildShadowView } })
      { a2 with s := s1 }
  else a2

/-- Forward scan of `parseRemoveMutations` over the Insert mutations. -/
def resolveMovedViews (movedViews : Tag → Option Tag) (mutations : ShadowViewMutationList) :
    Tag → Option Tag :=
  mutations.foldl (fun mv mutation =>
    if mutation.type = .Insert ∧ (mv mutation.newChildShadowView.tag).isSome then
      Function.update mv mutation.newChildShadowView.tag (some mutation.parentTag)
    else mv) movedViews

/-- Loop of `parseRemoveMutations` over `childrenForTag`. -/
def attachChildren (s : State) (childrenForTag : List (Tag × List Ptr)) : State :=
  childrenForTag.foldl (fun acc e =>
    match acc.nodeForTag e.1 with
    | none => acc
    | some parent =>
      let s1 := insertChildren acc parent e.2
      e.2.foldl (fun acc2 child =>
        acc2.modifyNode child (fun x => { x with parent := parent })) s1) s

/-- Loop of `parseRemoveMutations` over `unflattenedChildrenForTag`. -/
def attachUnflattenedChildren (s : State) (childrenForTag : List (Tag × List Ptr)) : State :=
  childrenForTag.foldl (fun acc e =>
    match acc.nodeForTag e.1 with
    | none => acc
    | some parent =>
      let s1 := insertUnflattenedChildren acc parent e.2
      e.2.foldl (fun acc2 child =>
        acc2.modifyNode child (fun x => { x with unflattenedParent := parent })) s1) s

/-- Result of `parseRemoveMutations`: the engine state, the moved-views map and the roots. -/
structure Parsed where
  s : State
  movedViews : Tag → Option Tag
  roots : List Ptr
  mutationNodes : List Ptr

/-- The function `parseRemoveMutations`. -/
def parseRemoveMutations (s : State) (mutations : ShadowViewMutationList) : Parsed :=
  let init : ParseAcc :=
    { s := s, deletedViews := [], movedViews := fun _ => none, childrenForTag := [],
      unflattenedChildrenForTag := [], mutationNodes := [] }
  let a := mutations.reverse.foldl parseStep init
  let movedViews := resolveMovedViews a.movedViews mutations
  let s1 := attachChildren a.s a.childrenForTag
  let s2 := attachUnflattenedChildren s1 a.unflattenedChildrenForTag
  let roots := a.mutationNodes.filter
    (fun p => !(s2.node (s2.node p).unflattenedParent).isMutation)
  { s := s2, movedViews := movedViews, roots := roots, mutationNodes := a.mutationNodes }

/-- First loop of `handleRemovals`, over the roots from the last to the first. -/
def handleRoots (mgr : Manager) (fuel : Nat) (roots : List Ptr) (w : Work) : Option Work :=
  roots.reverse.foldl (fun (acc : Option Work) node =>
    match acc with
    | none => none
    | some w0 =>
      match startAnimationsRecursively mgr fuel node true true false w0 with
      | none => none
      | some (true, w1) => some w1
      | some (false, s1, m1) =>
        let n := s1.node node
        let m2 := m1 ++ [n.mutation]
        let s2 := removeChildFromUnflattenedTree s1 n.unflattenedParent node
        let n2 := s2.node node
        if n2.state ≠ .MOVED then
          let s3 := maybeCancelAnimation s2 n2.tag
          some ({ s3 with nodeForTag := Function.update s3.nodeForTag n2.tag none },
                m2 ++ [DeleteMutation n2.mutation.oldChildShadowView])
        else some (s2, m2)) (some w)

/-- The order in which the range-for loop of `handleRemovals` visits the set
`deadNodes`: by increasing `key`, nodes with the same key in the order of their
insertion. -/
def visitOrder (key : Ptr → Nat) (dead : List Ptr) : List Ptr :=
  dead.insertionSort (fun a b => key a ≤ key b)

/-- Second loop of `handleRemovals`, over the queued dead nodes in the order
`dead` in which the set is visited. -/
def handleDeadNodes (fuel : Nat) (dead : List Ptr) (w : Work) : Option Work :=
  dead.foldl (fun (acc : Option Work) node =>
    match acc with
    | none => none
    | some w0 =>
      if (w0.1.node node).state ≠ .DELETED then
        match endAnimationsRecursively fuel node w0 with
        | none => none
        | some w1 => maybeDropAncestors fuel (w1.1.node node).unflattenedParent node w1
      else some w0) (some w)

/-- The function `handleRemovals`. -/
def handleRemovals (mgr : Manager) (fuel : Nat) (roots : List Ptr) (w : Work) : Option Work :=
  match handleRoots mgr fuel roots w with
  | none => none
  | some w1 =>
    match handleDeadNodes fuel (visitOrder mgr.deadKey w1.1.deadNodes) w1 with
    | none => none
    | some (s2, m2) => some ({ s2 with deadNodes := [] }, m2)

/-- Outcome of the standard library function `stoi`. -/
inductive StoiResult where
  | value (n : Int)
  | invalidArgument
  | outOfRange
  deriving DecidableEq, Repr

/-- Standard library `std::stoi` in base 10: leading white space is skipped, an
optional sign and the longest run of digits are read, the rest is ignored. -/
def stoi (str : String) : StoiResult :=
  let cs := str.toList.dropWhile
    (fun c => c = ' ' ∨ c = '\t' ∨ c = '\n' ∨ c = '\r' ∨ c.toNat = 11 ∨ c.toNat = 12)
  let signed : Bool × List Char :=
    match cs with
    | '-' :: r => (true, r)
    | '+' :: r => (false, r)
    | r => (false, r)
  let ds := signed.2.takeWhile (fun c => c.isDigit)
  if ds = [] then .invalidArgument
  else
    let v : Int := ds.foldl (fun acc c => 10 * acc + ((c.toNat : Int) - 48)) 0
    let r := if signed.1 then -v else v
    if r < -2147483648 ∨ 2147483647 < r then .outOfRange else .value r

/-- The function `transferConfigFromNativeID`. -/
def transferConfigFromNativeID (s : State) (nativeIdString : String) (tag : Tag) : State :=
  if nativeIdString.isEmpty then s
  else
    match stoi nativeIdString with
    | .value nativeId => s.logCall (ManagerCall.transferConfigFromNativeID nativeId tag)
    | .invalidArgument => s
    | .outOfRange => s

/-- The function `cloneViewWithoutOpacity`: the host `cloneProps` with the raw
props `opacity: 0` overrides the opacity and keeps the rest. -/
def cloneViewWithoutOpacity (mutation : ShadowViewMutation) : ShadowView :=
  { mutation.newChildShadowView with
    props := { mutation.newChildShadowView.props with opacity := 0 } }

/-- The function `startEnteringAnimation`: only schedules the closure. -/
def startEnteringAnimation (s : State) (tag : Tag) (mutation : ShadowViewMutation) : State :=
  s.schedule (UITask.entering tag mutation mutation.newChildShadowView.props.opacity)

/-- The function `startLayoutAnimation`: only schedules the closure. -/
def startLayoutAnimation (s : State) (tag : Tag) (mutation : ShadowViewMutation) : State :=
  s.schedule (UITask.layout tag mutation)

/-- The function `updateOngoingAnimationTarget`; it is only called for a tracked tag. -/
def updateOngoingAnimationTarget (s : State) (tag : Tag) (mutation : ShadowViewMutation) :
    State :=
  match s.layoutAnimations tag with
  | none => s
  | some la =>
    let la1 : LayoutAnimation := { la with finalView := mutation.newChildShadowView }
    { s with layoutAnimations := Function.update s.layoutAnimations tag (some la1) }

/-- Modelled from the spec: `hasLayoutChanged` is declared in the missing
`LayoutAnimationsUtils.h`; "the geometry did not change" compares the frames
of the old and the new view. -/
def hasLayoutChanged (mutation : ShadowViewMutation) : Bool :=
  mutation.oldChildShadowView.layoutMetrics ≠ mutation.newChildShadowView.layoutMetrics

/-- The function `maybeUpdateWindowDimensions`; `RootComponentName` is "RootView". -/
def maybeUpdateWindowDimensions (s : State) (mutation : ShadowViewMutation)
    (surfaceId : SurfaceId) : State :=
  if mutation.type = .Update ∧ mutation.oldChildShadowView.componentName = "RootView" then
    let size := (mutation.newChildShadowView.layoutMetrics.width,
      mutation.newChildShadowView.layoutMetrics.height)
    { s with window := Function.update s.window surfaceId (some size) }
  else s

/-- Loop state of `handleUpdatesAndEnterings`. -/
structure UpdLoop where
  s : State
  filteredMutations : ShadowViewMutationList
  oldShadowViewsForReparentings : Tag → Option ShadowView

/-- Case `Insert` of `handleUpdatesAndEnterings`. -/
def handleInsert (mgr : Manager) (movedViews : Tag → Option Tag) (l : UpdLoop)
    (mutation0 : ShadowViewMutation) (tag : Tag) : UpdLoop :=
  let mutation := updateIndexForMutation l.s mutation0
  let parentTag := mutation.parentTag
  let s1 := match l.s.nodeForTag parentTag with
    | some p => applyMutationToIndices l.s p mutation
    | none => l.s
  match movedViews tag with
  | some newParent =>
    match s1.layoutAnimations tag with
    | none =>
      match l.oldShadowViewsForReparentings tag with
      | some v =>
        { l with s := s1, filteredMutations :=
            l.filteredMutations ++ [InsertMutation parentTag v mutation.index] }
      | none => { l with s := s1, filteredMutations := l.filteredMutations ++ [mutation] }
    | some la =>
      let la1 : LayoutAnimation := { la with parentTag := newParent }
      let s2 : State :=
        { s1 with layoutAnimations := Function.update s1.layoutAnimations tag (some la1) }
      { l with s := s2, filteredMutations :=
          l.filteredMutations ++ [InsertMutation parentTag la.currentView mutation.index] }
  | none =>
    let s2 := transferConfigFromNativeID s1 mutation.newChildShadowView.props.nativeId
      mutation.newChildShadowView.tag
    if !mgr.hasLayoutAnimation s2.managerLog tag .ENTERING then
      { l with s := s2, filteredMutations := l.filteredMutations ++ [mutation] }
    else
      let s3 := startEnteringAnimation s2 tag mutation
      let newView := cloneViewWithoutOpacity mutation
      { l with s := s3, filteredMutations := l.filteredMutations ++
          [mutation, UpdateMutation mutation.newChildShadowView newView parentTag] }

/-- Case `Update` of `handleUpdatesAndEnterings`. -/
def handleUpdate (mgr : Manager) (movedViews : Tag → Option Tag) (l : UpdLoop)
    (mutation : ShadowViewMutation) (tag : Tag) : UpdLoop :=
  let shouldAnimate := hasLayoutChanged mutation
  if !mgr.hasLayoutAnimation l.s.managerLog tag .LAYOUT ||
      (!shouldAnimate && !(l.s.layoutAnimations tag).isSome) then
    { l with filteredMutations := l.filteredMutations ++ [mutation] }
  else if !shouldAnimate then
    { l with s := updateOngoingAnimationTarget l.s tag mutation }
  else
    let old := Function.update l.oldShadowViewsForReparentings tag
      (some mutation.oldChildShadowView)
    let mutation1 : ShadowViewMutation :=
      match movedViews tag with
      | some newParent => { mutation with parentTag := newParent }
      | none => mutation
    let s1 := if mutation1.parentTag ≠ -1 then startLayoutAnimation l.s tag mutation1 else l.s
    { l with s := s1, oldShadowViewsForReparentings := old }

/-- Body of the loop of `handleUpdatesAndEnterings`. -/
def handleMutation (mgr : Manager) (movedViews : Tag → Option Tag) (surfaceId : SurfaceId)
    (l0 : UpdLoop) (mutation : ShadowViewMutation) : UpdLoop :=
  let l : UpdLoop := { l0 with s := maybeUpdateWindowDimensions l0.s mutation surfaceId }
  let tag := if mutation.type = .Create ∨ mutation.type = .Insert
    then mutation.newChildShadowView.tag else mutation.oldChildShadowView.tag
  match mutation.type with
  | .Create => { l with filteredMutations := l.filteredMutations ++ [mutation] }
  | .Insert => handleInsert mgr movedViews l mutation tag
  | .Update => handleUpdate mgr movedViews l mutation tag
  | .Remove => l
  | .Delete => l

/-- The function `handleUpdatesAndEnterings`. -/
def handleUpdatesAndEnterings (mgr : Manager) (movedViews : Tag → Option Tag)
    (surfaceId : SurfaceId) (mutations : ShadowViewMutationList) (w : Work) : Work :=
  let l := mutations.foldl (handleMutation mgr movedViews surfaceId)
    { s := w.1, filteredMutations := w.2, oldShadowViewsForReparentings := fun _ => none }
  (l.s, l.filteredMutations)

/-- Modelled from the spec: `updateLayoutMetrics` is declared in the missing
`LayoutAnimationsUtils.h`; the view takes "the driver's latest interpolated
props/geometry", each coordinate the frame carries replaces the old one. -/
def updateLayoutMetrics (lm : LayoutMetrics) (frame : Frame) : LayoutMetrics :=
  { x := frame.x.getD lm.x, y := frame.y.getD lm.y,
    width := frame.width.getD lm.width, height := frame.height.getD lm.height }

/-- The function `addOngoingAnimations`. -/
def addOngoingAnimations (surfaceId : SurfaceId) (w : Work) : Work :=
  let r := (w.1.updateMap surfaceId).foldl (fun (acc : Work) e =>
    match acc.1.layoutAnimations e.1 with
    | none => acc
    | some la =>
      let newView : ShadowView := { la.finalView with
        props := e.2.newProps,
        layoutMetrics := updateLayoutMetrics la.finalView.layoutMetrics e.2.frame }
      let la1 : LayoutAnimation := { la with currentView := newView }
      ({ acc.1 with layoutAnimations := Function.update acc.1.layoutAnimations e.1 (some la1) },
       acc.2 ++ [UpdateMutation la.currentView newView la.parentTag])) w
  ({ r.1 with updateMap := Function.update r.1.updateMap surfaceId [] }, r.2)

/-- The function `pullTransaction`: the new engine state and the filtered mutations
of the returned transaction.  `none` only when the recursion budget `fuel` is too small. -/
def pullTransaction (mgr : Manager) (fuel : Nat) (s : State) (surfaceId : SurfaceId)
    (mutations : ShadowViewMutationList) : Option Work :=
  let p := parseRemoveMutations s mutations
  match handleRemovals mgr fuel p.roots (p.s, []) with
  | none => none
  | some w =>
    some (addOngoingAnimations surfaceId
      (handleUpdatesAndEnterings mgr p.movedViews surfaceId mutations w))

/-- Modelled from the spec: the record `LayoutAnimation` is declared in
`LayoutAnimationsProxy.h`, which is not among the sources, and the closure of
`startEnteringAnimation` builds its entry without a count.  The count of
such an entry is the default of the member, "a reference count of overlapping
triggers" of an animation that was triggered once. -/
def defaultTriggerCount : Int := 1

/-- One closure scheduled on the UI context, run to its end. -/
def runUITask (s : State) : UITask → State
  | .entering tag mutation opacity =>
    let la : LayoutAnimation :=
      { finalView := mutation.newChildShadowView, currentView := mutation.newChildShadowView,
        parentTag := mutation.parentTag, opacity := some opacity,
        count := defaultTriggerCount }
    let s1 : State :=
      { s with layoutAnimations := Function.update s.layoutAnimations tag (some la) }
    s1.logCall (ManagerCall.startLayoutAnimation tag .ENTERING)
  | .exiting tag mutation =>
    let s1 := (createLayoutAnimation s mutation mutation.oldChildShadowView tag).1
    (s1.logCall (ManagerCall.startLayoutAnimation tag .EXITING)).logCall
      (ManagerCall.clearLayoutAnimationConfig tag)
  | .layout tag mutation =>
    let s1 := (createLayoutAnimation s mutation mutation.oldChildShadowView tag).1
    s1.logCall (ManagerCall.startLayoutAnimation tag .LAYOUT)
  | .cancel tag => s.logCall (ManagerCall.cancelLayoutAnimation tag)

/-- The UI context runs every closure scheduled so far, oldest first. -/
def runScheduled (s : State) : State :=
  s.uiQueue.foldl runUITask { s with uiQueue := [] }

/-- A view with the given tag: component "View" on surface 1. -/
def sampleView (tag : Tag) : ShadowView :=
  { emptyView with tag := tag, componentName := "View", surfaceId := 1 }

/-- A manager with no animation configured for any tag. -/
def noAnimations : Manager :=
  { hasLayoutAnimation := fun _ _ _ => false,
    shouldAnimateExiting := fun _ _ d => d,
    isRNSScreen := fun name => name = "RNSScreen" }

/-- A manager whose only configuration is an exit animation for tag `t`. -/
def exitingFor (t : Tag) : Manager :=
  { hasLayoutAnimation := fun _ tag kind => tag = t ∧ kind = .EXITING,
    shouldAnimateExiting := fun _ _ d => d,
    isRNSScreen := fun name => name = "RNSScreen" }

/-- The filtered mutations of a transaction. -/
def filtered (r : Option Work) : Option ShadowViewMutationList := r.map (fun w => w.2)

/-- Scenario of an exit animation: a first transaction, the scheduled closures run,
`endLayoutAnimation tag true`, then a transaction with an empty batch.  Returns
the first filtered batch, the answer of `endLayoutAnimation` and the second
filtered batch. -/
def exitScenario (mgr : Manager) (fuel : Nat) (surfaceId : SurfaceId) (tag : Tag)
    (batch : ShadowViewMutationList) :
    Option (ShadowViewMutationList × Option SurfaceId × ShadowViewMutationList) :=
  match pullTransaction mgr fuel State.fresh surfaceId batch with
  | none => none
  | some w1 =>
    let e := endLayoutAnimation (runScheduled w1.1) tag true
    match pullTransaction mgr fuel e.2 surfaceId [] with
    | none => none
    | some w2 => some (w1.2, e.1, w2.2)

/-- State of the engine after one transaction that removes and deletes the view
of tag 7 (child 1 of parent 1) while an exit animation is configured for it,
once the scheduled exit start has run: the view is pending under its parent
and its animation is tracked. -/
def pendingExitState : State :=
  match pullTransaction (exitingFor 7) 2 State.fresh 1
      [RemoveMutation 1 (sampleView 7) 1, DeleteMutation (sampleView 7)] with
  | some w => runScheduled w.1
  | none => State.fresh

/-- A chain of ancestors that pruning can drop: every ancestor is a mutation
node that is not ANIMATING, its only flattened child is the node below it
(whose flattened parent it is) and its unflattened parent is the next
ancestor of the chain, or `top` after the last one. -/
def PrunableChain (s : State) : Ptr → List Ptr → Ptr → Prop
  | _, [], _ => True
  | child, a :: rest, top =>
    (s.node a).isMutation = true ∧ (s.node a).state ≠ .ANIMATING ∧
    (s.node a).children = [child] ∧ (s.node child).parent = a ∧
    (s.node a).unflattenedParent = rest.headD top ∧
    PrunableChain s a rest top

/-- The mutations pruning emits for a chain of dropped ancestors: for each one its
withheld Remove followed by its Delete, from the nearest ancestor upwards. -/
def chainDeletes (s : State) : List Ptr → ShadowViewMutationList
  | [] => []
  | a :: rest =>
    (s.node a).mutation :: DeleteMutation (s.node a).mutation.oldChildShadowView ::
      chainDeletes s rest

/-- The second work state extends the first one: every node keeps everything but
possibly its state, a DELETED node stays DELETED, and mutations are only
appended. -/
def Finalizes (w w1 : Work) : Prop :=
  (∀ p, w1.1.node p = { w.1.node p with state := (w1.1.node p).state }) ∧
  (∀ p, (w.1.node p).state = .DELETED → (w1.1.node p).state = .DELETED) ∧
  ∃ X, w1.2 = w.2 ++ X


/-- A manager whose only configuration is an entering animation for tag `t`. -/
def enteringFor (t : Tag) : Manager :=
  { hasLayoutAnimation := fun _ tag kind => tag = t ∧ kind = .ENTERING,
    shouldAnimateExiting := fun _ _ d => d,
    isRNSScreen := fun name => name = "RNSScreen" }

/-- Removal of the nested views 5 > 6 > 7 from parent 1, each with its Delete. -/
def chainBatch : ShadowViewMutationList :=
  [RemoveMutation 6 (sampleView 7) 0, RemoveMutation 5 (sampleView 6) 0,
   RemoveMutation 1 (sampleView 5) 0, DeleteMutation (sampleView 5),
   DeleteMutation (sampleView 6), DeleteMutation (sampleView 7)]

/-- State of the engine after `chainBatch` was processed while only the innermost
view 7 has an exit animation, the exit start has run and `endLayoutAnimation 7
true` was requested: node 4 (tag 7) is DEAD and queued below the pending nodes
3 (tag 6) and 1 (tag 5); node 2 is the plain node of parent 1. -/
def deadLeafState : State :=
  match pullTransaction (exitingFor 7) 4 State.fresh 1 chainBatch with
  | some w => (endLayoutAnimation (runScheduled w.1) 7 true).2
  | none => State.fresh

/-- The state `deadLeafState` once `endAnimationsRecursively` has finalized the dead node 4. -/
def finalizedLeafWork : Work :=
  match endAnimationsRecursively 1 4 (deadLeafState, []) with
  | some w => w
  | none => (deadLeafState, [])

/-- Reachability along the unflattened children of the nodes of a heap. -/
inductive Reach (h : Ptr → Node) : Ptr → Ptr → Prop where
  | refl (p : Ptr) : Reach h p p
  | step {p c z : Ptr} : c ∈ (h p).unflattenedChildren → Reach h c z → Reach h p z

/-- The node at `z` is a mutation node whose recorded old view carries tag `t`. -/
def IsT (t : Tag) (h : Ptr → Node) (z : Ptr) : Prop :=
  (h z).isMutation = true ∧ (h z).mutation.oldChildShadowView.tag = t

/-- No node for tag `t` is reachable from `p`. -/
def Clean (t : Tag) (h : Ptr → Node) (p : Ptr) : Prop :=
  ∀ z, Reach h p z → ¬ IsT t h z

/-- The removal pass has settled the node: its state is neither UNDEFINED nor MOVED. -/
def Classified (st : ExitingState) : Prop := st ≠ .UNDEFINED ∧ st ≠ .MOVED

/-- Invariant of the removal pass with respect to a moved tag `t`, over the
allocated part of the heap: mutation nodes hold Remove mutations and their tag
is the tag of the removed view, the nodes of tag `t` are MOVED, children are
allocated mutation nodes, and below a settled node there is no node of tag `t`. -/
structure RemInv (t : Tag) (h : Ptr → Node) (n : Nat) : Prop where
  typ : ∀ p, p < n → (h p).isMutation = true → (h p).mutation.type = .Remove
  moved : ∀ p, p < n → IsT t h p → (h p).state = .MOVED
  tagOld : ∀ p, p < n → (h p).isMutation = true →
    (h p).tag = (h p).mutation.oldChildShadowView.tag
  kids : ∀ p, p < n → ∀ c ∈ (h p).unflattenedChildren, (h c).isMutation = true ∧ c < n
  clean : ∀ p, p < n → Classified (h p).state → Clean t h p

/-- The heap `h1` with `n1` allocated nodes extends the heap `h` with `n`
allocated nodes: the old nodes keep their kind, mutation and tag, and their
unflattened children can only have been dropped. -/
structure Ext (h : Ptr → Node) (n : Nat) (h1 : Ptr → Node) (n1 : Nat) : Prop where
  next : n ≤ n1
  shape : ∀ p, p < n → (h1 p).isMutation = (h p).isMutation ∧
    (h1 p).mutation = (h p).mutation ∧ (h1 p).tag = (h p).tag
  kids : ∀ p, p < n → (h1 p).unflattenedChildren.Sublist (h p).unflattenedChildren

/-- No mutation of the list is a Delete of a view with tag `t`. -/
def NoDel (t : Tag) (X : ShadowViewMutationList) : Prop :=
  ∀ m ∈ X, m.type = .Delete → m.oldChildShadowView.tag ≠ t

/-- What `endAnimationsRecursively` from `root` may do between two work states, as
long as the heap has the shape of `h0`: only states change, they change to
DELETED and only on nodes reachable from `root`, and every appended mutation
is the Remove or the Delete of a node reachable from `root`. -/
def Footprint (h0 : Ptr → Node) (root : Ptr) (w w1 : Work) : Prop :=
  (∀ p, w.1.heap p = { h0 p with state := (w.1.heap p).state }) →
  (∀ p, w1.1.heap p = { h0 p with state := (w1.1.heap p).state }) ∧
  w1.1.next = w.1.next ∧ w1.1.deadNodes = w.1.deadNodes ∧
  (∀ p, (w1.1.heap p).state ≠ (w.1.heap p).state →
    Reach h0 root p ∧ (w1.1.heap p).state = .DELETED) ∧
  ∃ X, w1.2 = w.2 ++ X ∧ ∀ m ∈ X, ∃ z, Reach h0 root z ∧
    (m = (h0 z).mutation ∨ m = DeleteMutation (h0 z).mutation.oldChildShadowView)

/-- The step from `s` to `s1` keeps the invariant of the removal pass for tag `t`,
extends the heap and leaves the queue of dead nodes alone. -/
def Keeps (t : Tag) (s s1 : State) : Prop :=
  RemInv t s1.heap s1.next ∧ Ext s.heap s.next s1.heap s1.next ∧ s1.deadNodes = s.deadNodes

/-- Condition on one node while the removals of a batch are parsed, with respect to
a tag `t` that the batch does not delete: a mutation node holds a Remove
mutation of the view with its tag and is MOVED when that tag is `t`; no node is
settled; the unflattened children are allocated mutation nodes. -/
def NodeOK (t : Tag) (isMut : Ptr → Bool) (n : Nat) (x : Node) : Prop :=
  (x.isMutation = true → x.mutation.type = .Remove ∧
    x.tag = x.mutation.oldChildShadowView.tag ∧
    (x.mutation.oldChildShadowView.tag = t → x.state = .MOVED)) ∧
  ¬ Classified x.state ∧
  ∀ c ∈ x.unflattenedChildren, c < n ∧ isMut c = true

/-- Every allocated node satisfies `NodeOK`. -/
def ParseInv (t : Tag) (h : Ptr → Node) (n : Nat) : Prop :=
  ∀ p, p < n → NodeOK t (fun c => (h c).isMutation) n (h p)

/-- The pointers of the list are allocated mutation nodes. -/
def ValidNodes (s : State) (l : List Ptr) : Prop :=
  ∀ c ∈ l, c < s.next ∧ (s.heap c).isMutation = true

/-- State part of the parse invariant: the heap invariant, a lookup table that
maps each tag to an allocated node with that tag, and an empty queue of dead
nodes. -/
def PS (t : Tag) (s : State) : Prop :=
  ParseInv t s.heap s.next ∧
  (∀ k p, s.nodeForTag k = some p → p < s.next ∧ (s.heap p).tag = k) ∧
  s.deadNodes = []

/-- The heap of `s1` extends the heap of `s`: allocated nodes keep kind and tag. -/
def Grows (s s1 : State) : Prop :=
  s.next ≤ s1.next ∧
  ∀ q, q < s.next → (s1.heap q).isMutation = (s.heap q).isMutation ∧
    (s1.heap q).tag = (s.heap q).tag

/-- Invariant of the reverse scan of `parseRemoveMutations` for a tag `t` without
Delete in the batch: the state invariant, valid pointers in the list of built
nodes and in the collected child lists, and `t` not recorded as deleted. -/
structure PInv (t : Tag) (a : ParseAcc) : Prop where
  ps : PS t a.s
  nodes : ValidNodes a.s a.mutationNodes
  lists : ∀ e ∈ a.unflattenedChildrenForTag, ValidNodes a.s e.2
  del : t ∉ a.deletedViews

/-- The unflattened subtree below `p` has fewer than `k` levels under `p`, so a
recursion with budget `k` that starts at `p` reaches the leaves. -/
def HtLe (h : Ptr → Node) : Nat → Ptr → Prop
  | 0, _ => False
  | k + 1, p => ∀ c ∈ (h p).unflattenedChildren, HtLe h k c

/-- All the pointers collected in the child lists of an association list. -/
def listed : List (Tag × List Ptr) → List Ptr
  | [] => []
  | e :: rest => e.2 ++ listed rest

/-- No node of the heap has an unflattened child. -/
def NoKids (s : State) : Prop := ∀ q, (s.heap q).unflattenedChildren = []

/-- Every unflattened child points back to the node that lists it. -/
def ParentOK (h : Ptr → Node) : Prop :=
  ∀ p c, c ∈ (h p).unflattenedChildren → (h c).unflattenedParent = p

/-- A path from the node `r` down the unflattened children, deepest node first. -/
inductive Path (h : Ptr → Node) (r : Ptr) : List Ptr → Prop
  | root : Path h r [r]
  | down {x c : Ptr} {l : List Ptr} :
    Path h r (x :: l) → c ∈ (h x).unflattenedChildren → Path h r (c :: x :: l)

/-- A node without its two child lists. -/
def strip (x : Node) : Node := { x with children := [], unflattenedChildren := [] }

/-- The two nodes differ at most in their child lists. -/
def Same (x y : Node) : Prop := strip x = strip y

/-- The two nodes differ at most in their flattened children. -/
def Agree (x y : Node) : Prop := Same x y ∧ x.unflattenedChildren = y.unflattenedChildren

/-- Concatenation of the mutations `f` gives for each pointer of the list. -/
def pairsOut (f : Ptr → ShadowViewMutationList) : List Ptr → ShadowViewMutationList
  | [] => []
  | c :: cs => f c ++ pairsOut f cs

/-- The withheld Remove of a node followed by its Delete. -/
def pairOf (h : Ptr → Node) (c : Ptr) : ShadowViewMutationList :=
  [(h c).mutation, DeleteMutation (h c).mutation.oldChildShadowView]

/-- What the removal of the whole subtree below `p` emits, with recursion budget
`k`: for each unflattened child, from the last to the first, the output of
its own subtree followed by its Remove and its Delete. -/
def outOf (h : Ptr → Node) : Nat → Ptr → ShadowViewMutationList
  | 0, _ => []
  | k + 1, p => pairsOut (fun c => outOf h k c ++ pairOf h c) (h p).unflattenedChildren.reverse

/-- Shape of a heap of removed subtrees none of which animates its exit: every
unflattened child points back to its parent, is not yet classified and has no
exit animation and is a mutation node, and no child is listed twice. -/
structure Shape10 (mgr : Manager) (h0 : Ptr → Node) : Prop where
  parentOK : ParentOK h0
  und : ∀ p c, c ∈ (h0 p).unflattenedChildren → (h0 c).state = .UNDEFINED
  noExit : ∀ p c, c ∈ (h0 p).unflattenedChildren →
    ∀ log, mgr.hasLayoutAnimation log (h0 c).tag .EXITING = false
  nodup : ∀ p, (h0 p).unflattenedChildren.Nodup
  kidsMut : ∀ p c, c ∈ (h0 p).unflattenedChildren → (h0 c).isMutation = true

/-- What `startAnimationsRecursively` on the pristine subtree below `p` leaves
behind: nodes outside the subtree keep everything but flattened children, `p`
keeps everything but its child lists, no tag enters the lookup table and the
tags of the nodes below `p` have left it. -/
def Post10 (h0 : Ptr → Node) (p : Ptr) (s s1 : State) : Prop :=
  (∀ z, ¬ Reach h0 p z → Agree (s1.heap z) (s.heap z)) ∧
  Same (s1.heap p) (s.heap p) ∧
  (∀ k, s.nodeForTag k = none → s1.nodeForTag k = none) ∧
  (∀ z, Reach h0 p z → z ≠ p → s1.nodeForTag (h0 z).tag = none)

/-- Specification of `startAnimationsRecursively` with budget `fuel` on pristine
subtrees without exit animation: it returns `false`, emits `outOf` and leaves
`Post10`. -/
def RecOK (mgr : Manager) (h0 : Ptr → Node) (fuel : Nat) : Prop :=
  ∀ (c : Ptr) (s : State) (m : ShadowViewMutationList) (b c0 : Bool),
    HtLe h0 fuel c → (h0 c).state = .UNDEFINED →
    (∀ log, mgr.hasLayoutAnimation log (h0 c).tag .EXITING = false) →
    (∀ z, Reach h0 c z → Agree (s.heap z) (h0 z)) →
    ∃ s1, startAnimationsRecursively mgr fuel c true b c0 (s, m)
        = some (false, s1, m ++ outOf h0 fuel c) ∧ Post10 h0 c s s1

/-- Invariant of the loop of `startAnimationsRecursively` over the children of `p`
once the children `done` are handled, from the state `s` and the mutations `m`
at the start of the loop; `g` is what is emitted for one child. -/
def Linv (h0 : Ptr → Node) (g : Ptr → ShadowViewMutationList) (s : State)
    (m : ShadowViewMutationList) (done : List Ptr) (l : StartLoop) : Prop :=
  l.hasAnimatedChildren = false ∧ l.toBeRemoved = done ∧
  l.mutations = m ++ pairsOut g done ∧
  (∀ z, (∀ d ∈ done, ¬ Reach h0 d z) → Agree (l.s.heap z) (s.heap z)) ∧
  (∀ k, s.nodeForTag k = none → l.s.nodeForTag k = none) ∧
  (∀ d ∈ done, ∀ z, Reach h0 d z → l.s.nodeForTag (h0 z).tag = none)

/-- A root of the removal pass over `h0`: an unclassified mutation node without
exit animation whose unflattened parent is a plain node. -/
def IsRoot (mgr : Manager) (h0 : Ptr → Node) (r : Ptr) : Prop :=
  (h0 r).isMutation = true ∧ (h0 r).state = .UNDEFINED ∧
  (∀ log, mgr.hasLayoutAnimation log (h0 r).tag .EXITING = false) ∧
  (h0 (h0 r).unflattenedParent).isMutation = false

/-- Invariant of the loop of `handleRemovals` over the roots once the roots
`done` are handled, from the mutations `m`: the mutation nodes outside the
handled subtrees are as in `h0` and the tags of the handled subtrees have
left the lookup table. -/
def Rinv (h0 : Ptr → Node) (g : Ptr → ShadowViewMutationList)
    (m : ShadowViewMutationList) (done : List Ptr) (w : Work) : Prop :=
  w.2 = m ++ pairsOut g done ∧
  (∀ z, (h0 z).isMutation = true → (∀ d ∈ done, ¬ Reach h0 d z) →
    Agree (w.1.heap z) (h0 z)) ∧
  (∀ d ∈ done, ∀ z, Reach h0 d z → w.1.nodeForTag (h0 z).tag = none)
/-- The two nodes have the same kind, mutation, state and tag. -/
def F4eq (x y : Node) : Prop :=
  x.isMutation = y.isMutation ∧ x.mutation = y.mutation ∧ x.state = y.state ∧ x.tag = y.tag

/-- The pointer `z` is collected under the key `k` of the association list. -/
def InList (k : Tag) (z : Ptr) (l : List (Tag × List Ptr)) : Prop :=
  ∃ e ∈ l, e.1 = k ∧ z ∈ e.2

/-- No node of the heap has a flattened child. -/
def NoFlat (s : State) : Prop := ∀ q, (s.heap q).children = []

/-- Invariant of the reverse scan of `parseRemoveMutations` over a batch that only
removes and deletes views, each view at most once; `scanned` are the mutations
handled so far. -/
structure SI (scanned : ShadowViewMutationList) (a : ParseAcc) : Prop where
  flat : NoFlat a.s
  kids : NoKids a.s
  nodes : ∀ m ∈ scanned, m.type = .Remove →
    ∃ z, a.s.nodeForTag m.oldChildShadowView.tag = some z ∧
      F4eq (a.s.heap z)
        { plainNode m.oldChildShadowView.tag with isMutation := true, mutation := m } ∧
      z ∈ a.mutationNodes ∧ (a.s.nodeForTag m.parentTag).isSome = true ∧
      InList m.parentTag z a.unflattenedChildrenForTag
  muts : ∀ z, z < a.s.next → (a.s.heap z).isMutation = true →
    ∃ m ∈ scanned, m.type = .Remove ∧ a.s.nodeForTag m.oldChildShadowView.tag = some z
  del : ∀ m ∈ scanned, m.type = .Delete → m.oldChildShadowView.tag ∈ a.deletedViews
  nd : a.mutationNodes.Nodup

/-- Condition on the mutation `m` met by the reverse scan after the mutations
`sc`: it is a Remove or a Delete, and a Remove is of a view deleted later,
not removed a second time, and not its own parent. -/
def StepOK (sc : ShadowViewMutationList) (m : ShadowViewMutation) : Prop :=
  (m.type = .Remove ∨ m.type = .Delete) ∧
  (m.type = .Remove →
    (∃ d ∈ sc, d.type = .Delete ∧ d.oldChildShadowView.tag = m.oldChildShadowView.tag) ∧
    (∀ m1 ∈ sc, m1.type = .Remove →
      m1.oldChildShadowView.tag ≠ m.oldChildShadowView.tag) ∧
    m.parentTag ≠ m.oldChildShadowView.tag)

/-- The condition `StepOK` along the reverse scan of `todo` after `sc`. -/
def ScanOK : ShadowViewMutationList → ShadowViewMutationList → Prop
  | _, [] => True
  | sc, m :: todo => StepOK sc m ∧ ScanOK (m :: sc) todo

/-- Every Remove of the batch is followed, later in the batch, by a Delete of the
same view, and by no second Remove of that view. -/
def LaterDeleted : ShadowViewMutationList → Prop
  | [] => True
  | m :: post =>
    (m.type = .Remove →
      (∃ d ∈ post, d.type = .Delete ∧
        d.oldChildShadowView.tag = m.oldChildShadowView.tag) ∧
      (∀ m1 ∈ post, m1.type = .Remove →
        m1.oldChildShadowView.tag ≠ m.oldChildShadowView.tag)) ∧
    LaterDeleted post

/-- A batch that removes and deletes whole subtrees none of whose views has an
exit animation: only Removes and Deletes, every removed view deleted later
and removed once, the removed views ranked below their parents (no view is
its own ancestor), and no exit animation configured for them. -/
structure SubtreeBatch (mgr : Manager) (rk : Tag → Nat) (batch : ShadowViewMutationList) :
    Prop where
  only : ∀ m ∈ batch, m.type = .Remove ∨ m.type = .Delete
  later : LaterDeleted batch
  tree : ∀ m ∈ batch, m.type = .Remove → rk m.parentTag < rk m.oldChildShadowView.tag
  noExit : ∀ m ∈ batch, m.type = .Remove →
    ∀ log, mgr.hasLayoutAnimation log m.oldChildShadowView.tag .EXITING = false

/-- The accumulator of `parseRemoveMutations` after its reverse scan. -/
def scanResult (s : State) (mutations : ShadowViewMutationList) : ParseAcc :=
  mutations.reverse.foldl parseStep
    { s := s, deletedViews := [], movedViews := fun _ => none, childrenForTag := [],
      unflattenedChildrenForTag := [], mutationNodes := [] }

/-- What the removal pass needs from the parse of a batch that removes whole
subtrees: the shape of the heap, the roots, a node under a root for every
Remove, the edge from the node of the parent, and ranks that grow downwards. -/
structure PFacts (mgr : Manager) (rk : Tag → Nat) (batch : ShadowViewMutationList)
    (P : Parsed) : Prop where
  shape : Shape10 mgr P.s.heap
  rootsNodup : P.roots.Nodup
  roots : ∀ r ∈ P.roots, IsRoot mgr P.s.heap r ∧ HtLe P.s.heap P.s.next r
  node : ∀ m ∈ batch, m.type = .Remove →
    ∃ z, P.s.nodeForTag m.oldChildShadowView.tag = some z ∧ (P.s.heap z).mutation = m ∧
      (P.s.heap z).tag = m.oldChildShadowView.tag ∧ ∃ r ∈ P.roots, Reach P.s.heap r z
  edge : ∀ m ∈ batch, m.type = .Remove → ∀ z,
    P.s.nodeForTag m.oldChildShadowView.tag = some z →
    ∃ q, P.s.nodeForTag m.parentTag = some q ∧ z ∈ (P.s.heap q).unflattenedChildren
  rank : ∀ q c, c ∈ (P.s.heap q).unflattenedChildren →
    rk (P.s.heap q).tag < rk (P.s.heap c).tag
  dead : P.s.deadNodes = []
  inv : ∃ t, RemInv t P.s.heap P.s.next ∧
    ∀ p ∈ P.roots, p < P.s.next ∧ (P.s.heap p).isMutation = true
/-- The list `x` occurs in `out` as a block of consecutive mutations. -/
def Seg (x out : ShadowViewMutationList) : Prop := ∃ A B, out = A ++ x ++ B

/-- The block `x` occurs in `out` before the block `y`. -/
def Before (x y out : ShadowViewMutationList) : Prop := ∃ A B C, out = A ++ x ++ B ++ y ++ C

/-- The view `a` is removed from below the view `b`: the batch removes `a` from
`b`, or from a view that it removes from below `b`. -/
inductive Below (batch : ShadowViewMutationList) : Tag → Tag → Prop
  | child (m : ShadowViewMutation) : m ∈ batch → m.type = .Remove →
    Below batch m.oldChildShadowView.tag m.parentTag
  | deeper (m : ShadowViewMutation) {a : Tag} : m ∈ batch → m.type = .Remove →
    Below batch a m.oldChildShadowView.tag → Below batch a m.parentTag

/-- The batch has a Remove of the tag `t` with no Delete of `t` at a later position. -/
def RemovedNotDeletedLater (batch : ShadowViewMutationList) (t : Tag) : Prop :=
  ∃ pre r post, batch = pre ++ r :: post ∧ r.type = .Remove ∧ r.oldChildShadowView.tag = t ∧
    ∀ d ∈ post, d.type = .Delete → d.oldChildShadowView.tag ≠ t

/-- The mutation `ins` is the last Insert of the tag `t` in the batch. -/
def LastInsert (batch : ShadowViewMutationList) (t : Tag) (ins : ShadowViewMutation) : Prop :=
  ∃ pre post, batch = pre ++ ins :: post ∧ ins.type = .Insert ∧ ins.newChildShadowView.tag = t ∧
    ∀ i ∈ post, i.type = .Insert → i.newChildShadowView.tag ≠ t

/-- The view that `addOngoingAnimations` builds for a tracked animation and the
values the driver reported: the final view with the reported props and frame. -/
def ongoingView (la : LayoutAnimation) (uv : UpdateValues) : ShadowView :=
  { la.finalView with
    props := uv.newProps,
    layoutMetrics := updateLayoutMetrics la.finalView.layoutMetrics uv.frame }

/-- The Update that `addOngoingAnimations` emits for an entry of the update table,
none when no animation is tracked for the tag of the entry. -/
def ongoingUpdate (animations : Tag → Option LayoutAnimation) (e : Tag × UpdateValues) :
    Option ShadowViewMutation :=
  (animations e.1).map (fun la => UpdateMutation la.currentView (ongoingView la e.2) la.parentTag)

/-- An engine that tracks an animation of view 7 under parent 1 and whose update
table of surface 1 holds one entry for tag 7: the frame moved to x = 10. -/
def ongoingState : State :=
  { State.fresh with
    layoutAnimations := fun t => if t = 7 then
      some { finalView := sampleView 7, currentView := sampleView 7, parentTag := 1,
             opacity := none, count := 1 } else none,
    updateMap := fun sid => if sid = 1 then
      [(7, { newProps := (sampleView 7).props,
             frame := { x := some 10, y := none, width := none, height := none } })] else [] }

/-- The two nodes differ at most in their flattened children and in their
flattened parent. -/
def Kept (x y : Node) : Prop :=
  x.tag = y.tag ∧ x.isMutation = y.isMutation ∧ x.mutation = y.mutation ∧ x.state = y.state ∧
  x.unflattenedParent = y.unflattenedParent ∧ x.unflattenedChildren = y.unflattenedChildren

/-- A forest of removed views as the parse of a batch leaves it in a fresh
engine: every unflattened child points back to its parent and is listed once;
the children of the nodes allocated below `n0` are allocated below `n0`, are
mutation nodes and are not yet classified (UNDEFINED) or MOVED. -/
structure Forest (h0 : Ptr → Node) (n0 : Nat) : Prop where
  parentOK : ParentOK h0
  nodup : ∀ p, (h0 p).unflattenedChildren.Nodup
  unsettled : ∀ p, p < n0 → ∀ c ∈ (h0 p).unflattenedChildren,
    (h0 c).state = .UNDEFINED ∨ (h0 c).state = .MOVED
  bound : ∀ p, p < n0 → ∀ c ∈ (h0 p).unflattenedChildren, c < n0
  kidsMut : ∀ p, p < n0 → ∀ c ∈ (h0 p).unflattenedChildren, (h0 c).isMutation = true

/-- The node `p` defers its removal: it is not MOVED and it is ANIMATING (in the
states `st`) or one of its unflattened children defers its removal. -/
inductive Defers (h0 : Ptr → Node) (st : Ptr → ExitingState) : Ptr → Prop where
  | self {p : Ptr} : (h0 p).state ≠ .MOVED → st p = .ANIMATING → Defers h0 st p
  | child {p c : Ptr} : (h0 p).state ≠ .MOVED → c ∈ (h0 p).unflattenedChildren →
      Defers h0 st c → Defers h0 st p

/-- The mutation `x` is the Remove held by a node strictly below `c`, or the
Delete of the view of such a node; under `quiet` only the Remove of a MOVED
node. -/
def EmittedBelow (h0 : Ptr → Node) (c : Ptr) (quiet : Prop) (x : ShadowViewMutation) : Prop :=
  ∃ z, Reach h0 c z ∧ z ≠ c ∧
    (x = (h0 z).mutation ∨ x = DeleteMutation (h0 z).mutation.oldChildShadowView) ∧
    (quiet → (h0 z).state = .MOVED ∧ x = (h0 z).mutation)

/-- What `startAnimationsRecursively` on the node `c` of a forest leaves behind,
from the state `s` and the mutations `m` to the answer `r`, the state `s1` and
the mutations `m1`; `sr` is the flag `shouldRemoveSubviewsWithoutAnimations`
of the call.  The call is quiet when `sr` is false or `c` is ANIMATING
afterwards. -/
structure PostG (mgr : Manager) (h0 : Ptr → Node) (n0 : Nat) (c : Ptr) (sr : Bool)
    (s : State) (m : ShadowViewMutationList) (r : Bool) (s1 : State)
    (m1 : ShadowViewMutationList) : Prop where
  frame : ∀ z, z < n0 → ¬ Reach h0 c z → Kept (s1.heap z) (s.heap z)
  next : s.next ≤ s1.next
  dead : s1.deadNodes = s.deadNodes
  self : (s1.heap c).tag = (h0 c).tag ∧ (s1.heap c).isMutation = (h0 c).isMutation ∧
    (s1.heap c).mutation = (h0 c).mutation ∧
    (s1.heap c).unflattenedParent = (h0 c).unflattenedParent
  state : (s1.heap c).state = (h0 c).state ∨
    ((h0 c).state ≠ .MOVED ∧ (s1.heap c).state = .ANIMATING)
  ret : r = true ↔ Defers h0 (fun z => (s1.heap z).state) c
  out : ∃ X, m1 = m ++ X ∧
    ∀ x ∈ X, EmittedBelow h0 c (sr = false ∨ (s1.heap c).state = .ANIMATING) x
  waiting : (sr = false ∨ (s1.heap c).state = .ANIMATING) →
    ∀ z, Reach h0 c z → z ≠ c → (h0 z).state ≠ .MOVED →
      ¬ Defers h0 (fun y => (s1.heap y).state) z → (s1.heap z).state = .WAITING
  config : ∀ z, Reach h0 c z → (s1.heap z).state = .ANIMATING →
    ∃ log, mgr.hasLayoutAnimation log (h0 z).tag .EXITING = true
  table : (sr = false ∨ (s1.heap c).state = .ANIMATING) →
    ∀ k, (∀ z, Reach h0 c z → (h0 z).state = .MOVED → (h0 z).tag ≠ k) →
      s1.nodeForTag k = s.nodeForTag k
  tableAll : ∀ k, (∀ z, Reach h0 c z → (h0 z).tag ≠ k) → s1.nodeForTag k = s.nodeForTag k

/-- The value of `hasExitAnimation` in `startAnimationsRecursively` for the node
`x`, with the manager log `log` and the flags `shouldAnimate` and `isScreenPop`
of the call. -/
def exitStarts (mgr : Manager) (log : List ManagerCall) (x : Node) (sa sp : Bool) : Bool :=
  (!(if mgr.isRNSScreen x.mutation.oldChildShadowView.componentName then true else sp) &&
    mgr.shouldAnimateExiting log x.tag sa) && mgr.hasLayoutAnimation log x.tag .EXITING

/-- Specification of `startAnimationsRecursively` with budget `fuel` on the
subtrees of a forest that are still as in `h0`: it returns and leaves `PostG`,
and a node that is not MOVED and has an exit animation to start is ANIMATING
afterwards. -/
def RecG (mgr : Manager) (h0 : Ptr → Node) (n0 : Nat) (fuel : Nat) : Prop :=
  ∀ (c : Ptr) (s : State) (m : ShadowViewMutationList) (sr sa sp : Bool),
    HtLe h0 fuel c → c < n0 → n0 ≤ s.next →
    ((h0 c).state = .UNDEFINED ∨ (h0 c).state = .MOVED) →
    (∀ z, Reach h0 c z → Kept (s.heap z) (h0 z)) →
    ∃ r s1 m1, startAnimationsRecursively mgr fuel c sr sa sp (s, m) = some (r, s1, m1) ∧
      PostG mgr h0 n0 c sr s m r s1 m1 ∧
      ((h0 c).state ≠ .MOVED → exitStarts mgr s.managerLog (h0 c) sa sp = true →
        (s1.heap c).state = .ANIMATING)

/-- Invariant of the loop of `startAnimationsRecursively` over the children of a
node of a forest once the children `done` are handled, from the state `s` and
the mutations `m` at the start of the loop; `quiet` says that the flag
`shouldRemoveSubviewsWithoutAnimations` of the loop is false. -/
structure LoopG (mgr : Manager) (h0 : Ptr → Node) (n0 : Nat) (quiet : Prop) (s : State)
    (m : ShadowViewMutationList) (done : List Ptr) (l : StartLoop) : Prop where
  frame : ∀ z, z < n0 → (∀ d ∈ done, ¬ Reach h0 d z) → Kept (l.s.heap z) (s.heap z)
  next : s.next ≤ l.s.next
  dead : l.s.deadNodes = s.deadNodes
  anim : l.hasAnimatedChildren = true ↔
    ∃ d ∈ done, Defers h0 (fun z => (l.s.heap z).state) d
  out : ∃ X, l.mutations = m ++ X ∧ ∀ x ∈ X, ∃ d ∈ done, ∃ z, Reach h0 d z ∧
    (x = (h0 z).mutation ∨ x = DeleteMutation (h0 z).mutation.oldChildShadowView) ∧
    (quiet → (h0 z).state = .MOVED ∧ x = (h0 z).mutation)
  waiting : quiet → ∀ d ∈ done, ∀ z, Reach h0 d z → (h0 z).state ≠ .MOVED →
    ¬ Defers h0 (fun y => (l.s.heap y).state) z → (l.s.heap z).state = .WAITING
  config : ∀ d ∈ done, ∀ z, Reach h0 d z → (l.s.heap z).state = .ANIMATING →
    ∃ log, mgr.hasLayoutAnimation log (h0 z).tag .EXITING = true
  table : quiet → ∀ k, (∀ d ∈ done, ∀ z, Reach h0 d z → (h0 z).state = .MOVED →
    (h0 z).tag ≠ k) → l.s.nodeForTag k = s.nodeForTag k
  tableAll : ∀ k, (∀ d ∈ done, ∀ z, Reach h0 d z → (h0 z).tag ≠ k) →
    l.s.nodeForTag k = s.nodeForTag k

/-- What one step of the loop of `startAnimationsRecursively` does on the child
`d` of a forest, from the loop state `l` to the loop state `l1`; `quiet` says
that the flag `shouldRemoveSubviewsWithoutAnimations` of the loop is false. -/
structure StepG (mgr : Manager) (h0 : Ptr → Node) (n0 : Nat) (quiet : Prop) (d : Ptr)
    (l l1 : StartLoop) : Prop where
  frame : ∀ z, z < n0 → ¬ Reach h0 d z → Kept (l1.s.heap z) (l.s.heap z)
  next : l.s.next ≤ l1.s.next
  dead : l1.s.deadNodes = l.s.deadNodes
  anim : l1.hasAnimatedChildren = true ↔
    (l.hasAnimatedChildren = true ∨ Defers h0 (fun z => (l1.s.heap z).state) d)
  out : ∃ X, l1.mutations = l.mutations ++ X ∧ ∀ x ∈ X, ∃ z, Reach h0 d z ∧
    (x = (h0 z).mutation ∨ x = DeleteMutation (h0 z).mutation.oldChildShadowView) ∧
    (quiet → (h0 z).state = .MOVED ∧ x = (h0 z).mutation)
  waiting : quiet → ∀ z, Reach h0 d z → (h0 z).state ≠ .MOVED →
    ¬ Defers h0 (fun y => (l1.s.heap y).state) z → (l1.s.heap z).state = .WAITING
  config : ∀ z, Reach h0 d z → (l1.s.heap z).state = .ANIMATING →
    ∃ log, mgr.hasLayoutAnimation log (h0 z).tag .EXITING = true
  table : quiet → ∀ k, (∀ z, Reach h0 d z → (h0 z).state = .MOVED → (h0 z).tag ≠ k) →
    l1.s.nodeForTag k = l.s.nodeForTag k
  tableAll : ∀ k, (∀ z, Reach h0 d z → (h0 z).tag ≠ k) → l1.s.nodeForTag k = l.s.nodeForTag k

/-- A manager with an exit animation configured for the tags 7 and 8. -/
def exitingNested : Manager :=
  { hasLayoutAnimation := fun _ tag kind => (tag = 7 ∨ tag = 8) ∧ kind = .EXITING,
    shouldAnimateExiting := fun _ _ d => d,
    isRNSScreen := fun name => name = "RNSScreen" }

/-- State of the engine after one transaction that removes and deletes the view
of tag 7 (child 0 of parent 1) together with its child of tag 8, an exit
animation being configured for both, once the scheduled exit starts have run
and both animations have ended, the one of `first` before the one of `second`:
the two nodes are DEAD and queued in that order. -/
def nestedDeadState (first second : Tag) : State :=
  match pullTransaction exitingNested 3 State.fresh 1
      [RemoveMutation 7 (sampleView 8) 0, RemoveMutation 1 (sampleView 7) 0,
       DeleteMutation (sampleView 8), DeleteMutation (sampleView 7)] with
  | some w =>
    (endLayoutAnimation (endLayoutAnimation (runScheduled w.1) first true).2 second true).2
  | none => State.fresh

/-- Number of Delete mutations of the tag `t` in a batch. -/
def deleteCount (t : Tag) (out : ShadowViewMutationList) : Nat :=
  out.countP (fun m => m.type = .Delete ∧ m.oldChildShadowView.tag = t)

/-- A batch that moves the view of tag 7 (child 0 of parent 1) and deletes its
child of tag 8. -/
def movedParentBatch : ShadowViewMutationList :=
  [RemoveMutation 7 (sampleView 8) 0, RemoveMutation 1 (sampleView 7) 0,
   DeleteMutation (sampleView 8)]

/-- A batch that removes and deletes the view of tag 7 (child 0 of parent 1)
and its child of tag 8. -/
def nestedExitBatch : ShadowViewMutationList :=
  [RemoveMutation 7 (sampleView 8) 0, RemoveMutation 1 (sampleView 7) 0,
   DeleteMutation (sampleView 8), DeleteMutation (sampleView 7)]

/-- A root of the removal pass over a forest: an allocated mutation node,
UNDEFINED or MOVED, of height below `fuel`, whose unflattened parent is a
plain node. -/
def RootG (h0 : Ptr → Node) (n0 : Nat) (fuel : Nat) (r : Ptr) : Prop :=
  r < n0 ∧ (h0 r).isMutation = true ∧
  ((h0 r).state = .UNDEFINED ∨ (h0 r).state = .MOVED) ∧ HtLe h0 fuel r ∧
  (h0 (h0 r).unflattenedParent).isMutation = false

/-- Invariant of the loop of `handleRemovals` over the roots of a forest once the
roots `done` are handled, from the state `s` and the mutations `m`: what was
emitted, and what holds below a root that is ANIMATING. -/
structure RootsG (mgr : Manager) (h0 : Ptr → Node) (n0 : Nat) (s : State)
    (m : ShadowViewMutationList) (done : List Ptr) (w : Work) : Prop where
  frame : ∀ z, z < n0 → (h0 z).isMutation = true → (∀ d ∈ done, ¬ Reach h0 d z) →
    Kept (w.1.heap z) (s.heap z)
  next : s.next ≤ w.1.next
  dead : w.1.deadNodes = s.deadNodes
  out : ∃ X, w.2 = m ++ X ∧ ∀ x ∈ X, ∃ r ∈ done, ∃ z, Reach h0 r z ∧
    (x = (h0 z).mutation ∨ x = DeleteMutation (h0 z).mutation.oldChildShadowView) ∧
    ((w.1.heap r).state = .ANIMATING → (h0 z).state = .MOVED ∧ x = (h0 z).mutation)
  waiting : ∀ r ∈ done, (w.1.heap r).state = .ANIMATING →
    ∀ z, Reach h0 r z → z ≠ r → (h0 z).state ≠ .MOVED →
      ¬ Defers h0 (fun y => (w.1.heap y).state) z → (w.1.heap z).state = .WAITING
  config : ∀ r ∈ done, ∀ z, Reach h0 r z → (w.1.heap z).state = .ANIMATING →
    ∃ log, mgr.hasLayoutAnimation log (h0 z).tag .EXITING = true
  table : ∀ k, (∀ r ∈ done, ∀ z, Reach h0 r z →
      (h0 z).tag ≠ k ∨ ((w.1.heap r).state = .ANIMATING ∧ (h0 z).state ≠ .MOVED)) →
    w.1.nodeForTag k = s.nodeForTag k
  exit : ∀ r ∈ done, (h0 r).state ≠ .MOVED →
    (∀ log, exitStarts mgr log (h0 r) true false = true) → (w.1.heap r).state = .ANIMATING
  emit : ∀ r ∈ done, ¬ Defers h0 (fun y => (w.1.heap y).state) r → (h0 r).mutation ∈ w.2

/-- Every allocated mutation node is registered in the lookup table under its own
tag, its tag is one of `tags`, and its mutation carries a view with that tag. -/
def Registered (s : State) (tags : List Tag) : Prop :=
  ∀ z, z < s.next → (s.heap z).isMutation = true →
    s.nodeForTag (s.heap z).tag = some z ∧ (s.heap z).tag ∈ tags ∧
    (s.heap z).mutation.oldChildShadowView.tag = (s.heap z).tag

/-- No two Removes of the batch remove the same tag. -/
def RemovedOnce (batch : ShadowViewMutationList) : Prop :=
  batch.Pairwise (fun x y => x.type = .Remove → y.type = .Remove →
    x.oldChildShadowView.tag ≠ y.oldChildShadowView.tag)

/-- Tag of a node with the index, the parent tag and the type of its mutation. -/
def nodeKey (s : State) (z : Ptr) : Tag × Int × Tag × MutationType :=
  ((s.heap z).tag, (s.heap z).mutation.index, (s.heap z).mutation.parentTag,
    (s.heap z).mutation.type)

/-- Tag of the view a mutation removes, with its index, its parent tag and its type. -/
def removeKey (m : ShadowViewMutation) : Tag × Int × Tag × MutationType :=
  (m.oldChildShadowView.tag, m.index, m.parentTag, m.type)
/-- A batch that removes and deletes two children of the view of tag 1: the view
of tag 7 at index 1, then the view of tag 6 at index 0. -/
def siblingBatch : ShadowViewMutationList :=
  [RemoveMutation 1 (sampleView 7) 1, RemoveMutation 1 (sampleView 6) 0,
   DeleteMutation (sampleView 7), DeleteMutation (sampleView 6)]

/-- Invariant of the reverse scan of `parseRemoveMutations` on a fresh engine,
after the mutations `sc` (a suffix of the batch) were scanned, for a batch in
which no tag is removed twice, every Delete follows the Remove of its view and
no Update precedes the Remove that moves its view: the built nodes carry the
scanned Removes in scan order, a built node is UNDEFINED exactly when a Delete
of its tag was scanned, and every built node is collected under the tag of its
parent. -/
structure ScanW (t : Tag) (sc : ShadowViewMutationList) (a : ParseAcc) : Prop where
  inv : PInv t a
  flat : NoFlat a.s
  kids : NoKids a.s
  reg : Registered a.s
    ((sc.filter (fun m => m.type = .Remove)).map (fun m => m.oldChildShadowView.tag))
  muts : a.mutationNodes.map (fun z => (a.s.heap z).mutation) =
    sc.reverse.filter (fun m => m.type = .Remove)
  all : ∀ z, z < a.s.next → (a.s.heap z).isMutation = true → z ∈ a.mutationNodes
  dels : ∀ x, x ∈ a.deletedViews ↔ ∃ d ∈ sc, d.type = .Delete ∧ d.oldChildShadowView.tag = x
  states : ∀ z ∈ a.mutationNodes,
    ((a.s.heap z).state = .UNDEFINED ∧
      ∃ d ∈ sc, d.type = .Delete ∧ d.oldChildShadowView.tag = (a.s.heap z).tag) ∨
    ((a.s.heap z).state = .MOVED ∧
      ∀ d ∈ sc, d.type = .Delete → d.oldChildShadowView.tag ≠ (a.s.heap z).tag)
  edges : ∀ z ∈ a.mutationNodes,
    InList (a.s.heap z).mutation.parentTag z a.unflattenedChildrenForTag ∧
    (a.s.nodeForTag (a.s.heap z).mutation.parentTag).isSome = true
  lists : a.childrenForTag = a.unflattenedChildrenForTag
  moved : ∀ x, (a.movedViews x).isSome = true → RemovedNotDeletedLater sc x
/-- Every Delete of the list `post` is the host Delete of the view of a Remove
that comes before it, in `pre` or earlier in `post`. -/
def DeletesAfterRemoves : ShadowViewMutationList → ShadowViewMutationList → Prop
  | _, [] => True
  | pre, d :: post =>
    (d.type = .Delete →
      ∃ r ∈ pre, r.type = .Remove ∧ d = DeleteMutation r.oldChildShadowView) ∧
    DeletesAfterRemoves (d :: pre) post

/-- No Update of the batch is followed by a Remove of the updated view that moves
it (a Remove with no Delete of the view after it). -/
def NoUpdateBeforeMove : ShadowViewMutationList → Prop
  | [] => True
  | u :: post =>
    (u.type = .Update → ¬ RemovedNotDeletedLater post u.newChildShadowView.tag) ∧
    NoUpdateBeforeMove post

/-- No two Deletes of the batch delete the same tag. -/
def DeletedOnce (batch : ShadowViewMutationList) : Prop :=
  batch.Pairwise (fun x y => x.type = .Delete → y.type = .Delete →
    x.oldChildShadowView.tag ≠ y.oldChildShadowView.tag)

/-- A well-formed batch: Updates keep the tag of their view, the parent relation
of the Removes is acyclic (the rank `rk` grows from a parent to the view
removed from it), no tag is removed twice or deleted twice, every Delete is the
host Delete of the view of an earlier Remove, and no Update precedes the
Remove that moves its view. -/
structure WellFormedBatch (rk : Tag → Nat) (batch : ShadowViewMutationList) : Prop where
  upd : ∀ m ∈ batch, m.type = .Update →
    m.oldChildShadowView.tag = m.newChildShadowView.tag
  tree : ∀ m ∈ batch, m.type = .Remove → rk m.parentTag < rk m.oldChildShadowView.tag
  once : RemovedOnce batch
  delOnce : DeletedOnce batch
  del : DeletesAfterRemoves [] batch
  moved : NoUpdateBeforeMove batch
/-- What the removal pass and the final count need from the parse of a
well-formed batch on a fresh engine: the forest, its roots, the built nodes
with their Removes in scan order, distinct tags, the states in terms of the
Deletes of the batch, flattened children that mirror the unflattened ones, and
every built node below a root. -/
structure ParsedW (batch : ShadowViewMutationList) (P : Parsed) : Prop where
  forest : Forest P.s.heap P.s.next
  dead : P.s.deadNodes = []
  roots : ∀ r ∈ P.roots, r < P.s.next ∧ (P.s.heap r).isMutation = true ∧
    ((P.s.heap r).state = .UNDEFINED ∨ (P.s.heap r).state = .MOVED) ∧
    HtLe P.s.heap P.s.next r ∧ (P.s.heap (P.s.heap r).unflattenedParent).isMutation = false
  rootsNodup : P.roots.Nodup
  rootsSub : ∀ r ∈ P.roots, r ∈ P.mutationNodes
  nodesNodup : P.mutationNodes.Nodup
  tags : ∀ z z1, z < P.s.next → z1 < P.s.next → (P.s.heap z).isMutation = true →
    (P.s.heap z1).isMutation = true → (P.s.heap z).tag = (P.s.heap z1).tag → z = z1
  old : ∀ z, z < P.s.next → (P.s.heap z).isMutation = true →
    (P.s.heap z).mutation.oldChildShadowView.tag = (P.s.heap z).tag
  muts : P.mutationNodes.map (fun z => (P.s.heap z).mutation) =
    batch.reverse.filter (fun m => m.type = .Remove)
  all : ∀ z, z < P.s.next → (P.s.heap z).isMutation = true → z ∈ P.mutationNodes
  valid : ∀ z ∈ P.mutationNodes, z < P.s.next ∧ (P.s.heap z).isMutation = true
  states : ∀ z ∈ P.mutationNodes,
    ((P.s.heap z).state = .UNDEFINED ∧
      ∃ d ∈ batch, d.type = .Delete ∧ d.oldChildShadowView.tag = (P.s.heap z).tag) ∨
    ((P.s.heap z).state = .MOVED ∧
      ∀ d ∈ batch, d.type = .Delete → d.oldChildShadowView.tag ≠ (P.s.heap z).tag)
  flat : ∀ p d, d ∈ (P.s.heap p).children →
    p < P.s.next ∧ d ∈ (P.s.heap p).unflattenedChildren ∧ (P.s.heap d).parent = p
  reach : ∀ z ∈ P.mutationNodes, ∃ r ∈ P.roots, Reach P.s.heap r z

/-- A digit below 16 as a stream prints it under `std::hex`, in lower case. -/
def hexDigit (d : Nat) : Char :=
  if d < 10 then Char.ofNat (48 + d) else Char.ofNat (87 + d)

/-- Digits of an unsigned value in base 16, most significant first and without
leading zeros; the budget bounds the number of digits. -/
def hexDigits : Nat → Nat → List Char
  | 0, _ => []
  | fuel + 1, n =>
    if n < 16 then [hexDigit n] else hexDigits fuel (n / 16) ++ [hexDigit (n % 16)]

/-- The insertion `stream << std::setfill('0') << std::setw(8) << std::hex << val`
of an `int`: under `std::hex` the value is converted to `unsigned int` (a
negative value wraps around modulo 2^32, which has at most eight digits), it
is printed in base 16 and padded on the left with the fill character up to
the width. -/
def streamHex8 (val : Int) : List Char :=
  let digits := hexDigits 8 (val % 4294967296).toNat
  List.replicate (8 - digits.length) '0' ++ digits

/-- Standard library `std::string::substr(pos, len)`; `none` stands for the
exception `std::out_of_range`, thrown when `pos` is beyond the end. -/
def substr (s : List Char) (pos len : Nat) : Option (List Char) :=
  if s.length < pos then none else some ((s.drop pos).take len)

/-- The function `intColorToHex`; `none` stands for an exception of `substr`. -/
def intColorToHex (val : Int) : Option String :=
  let invertedHexColor := streamHex8 val
  match substr invertedHexColor 2 6, substr invertedHexColor 0 2 with
  | some colour, some alpha => some (String.mk ('#' :: (colour ++ alpha)))
  | _, _ => none

/-- The `int` that holds the 32-bit pattern `u`: patterns from 2^31 on are negative. -/
def signed32 (u : Nat) : Int :=
  if u < 2147483648 then (u : Int) else (u : Int) - 4294967296

/-- The two lower-case hexadecimal digits of a byte. -/
def hexByte (b : Nat) : List Char := [hexDigit (b / 16), hexDigit (b % 16)]

/-- The 32-bit colour value with the bytes AA RR GG BB, alpha in the top byte. -/
def colourValue (aa rr gg bb : Nat) : Nat := aa * 16777216 + rr * 65536 + gg * 256 + bb

/-- Exactly `k` digits of `n` in base 16, most significant first. -/
def fixedDigits : Nat → Nat → List Char
  | 0, _ => []
  | k + 1, n => fixedDigits k (n / 16) ++ [hexDigit (n % 16)]
/-- What `obtainPropFromShadowNode` reads of the newest clone of a shadow node:
the frame of its layout metrics and, of its view props, the opacity, the
optional zIndex and the background colour. -/
structure ShadowNodeView where
  frame : LayoutMetrics
  opacity : Int
  zIndex : Option Int
  backgroundColor : Int
  deriving DecidableEq, Repr

/-- Standard library `std::to_string` of a floating point value, which prints six
decimals; the values are abstracted to integers. -/
def floatToString (v : Int) : String := toString v ++ ".000000"

/-- The message of the `std::runtime_error` of `obtainPropFromShadowNode`. -/
def notSupportedMessage (propName : String) : String :=
  "Getting property `" ++ propName ++ "` with function `getViewProp` is not supported"

/-- The function `obtainPropFromShadowNode` on the newest clone of the shadow
node; an error is the message of the exception thrown. -/
def obtainPropFromShadowNode (propName : String) (node : ShadowNodeView) :
    Except String String :=
  if propName = "width" ∨ propName = "height" ∨ propName = "top" ∨ propName = "left" then
    if propName = "width" then .ok (floatToString node.frame.width)
    else if propName = "height" then .ok (floatToString node.frame.height)
    else if propName = "top" then .ok (floatToString node.frame.y)
    else if propName = "left" then .ok (floatToString node.frame.x)
    else .error (notSupportedMessage propName)
  else if propName = "opacity" then .ok (floatToString node.opacity)
  else if propName = "zIndex" then
    match node.zIndex with
    | some z => .ok (toString z)
    | none => .error (notSupportedMessage propName)
  else if propName = "backgroundColor" then
    match intColorToHex node.backgroundColor with
    | some s => .ok s
    | none => .error "basic_string::substr"
  else .error (notSupportedMessage propName)
/-- A manager whose only configurations are a layout animation and an entering
animation for tag `t`. -/
def layoutAndEnteringFor (t : Tag) : Manager :=
  { hasLayoutAnimation := fun _ tag kind => tag = t ∧ (kind = .LAYOUT ∨ kind = .ENTERING),
    shouldAnimateExiting := fun _ _ d => d,
    isRNSScreen := fun name => name = "RNSScreen" }

/-- The view of tag `tag` moved to the abscissa `x`. -/
def shiftedView (tag : Tag) (x : Int) : ShadowView :=
  { sampleView tag with layoutMetrics := { x := x, y := 0, width := 0, height := 0 } }

/-- The trigger count of the animation tracked for a tag, if any. -/
def triggerCount (s : State) (tag : Tag) : Option Int :=
  (s.layoutAnimations tag).map (fun la => la.count)

/-- State of the engine with a layout animation of view 7 in flight: the view
moved while a layout animation is configured for it, and the scheduled start
has run. -/
def layoutStartedState : State :=
  match pullTransaction (layoutAndEnteringFor 7) 1 State.fresh 1
      [UpdateMutation (sampleView 7) (shiftedView 7 10) 1] with
  | some w => runScheduled w.1
  | none => State.fresh

/-- The effective parent tag of an Update: the moved-views entry of the tag when
the tag is moved, otherwise the parent tag of the mutation. -/
def effectiveParent (movedViews : Tag → Option Tag) (mutation : ShadowViewMutation) : Tag :=
  (movedViews mutation.oldChildShadowView.tag).getD mutation.parentTag
/-- The two nodes carry the same kind, mutation, tag and child lists: they differ
at most in their state and in their parent pointers. -/
def SameShape (x y : Node) : Prop :=
  x.isMutation = y.isMutation ∧ x.mutation = y.mutation ∧ x.tag = y.tag ∧
  x.children = y.children ∧ x.unflattenedChildren = y.unflattenedChildren
/-- The first node is the second one but for the old view of its mutation. -/
def SameButOld (x y : Node) : Prop :=
  x = { y with mutation :=
    { y.mutation with oldChildShadowView := x.mutation.oldChildShadowView } }

/-- Invariant of the reverse scan of `parseRemoveMutations` from the engine state
`s0`, after the mutations `sc` (a suffix of the batch) were scanned, for a batch
that removes no view from itself: the lookup table maps a tag to a mutation
node exactly when a scanned Remove targets the tag or the table of `s0` held a
mutation node for it; every built node is collected once, under the parent tag
of its mutation, and that tag is in the table. -/
structure ScanG (s0 : State) (sc : ShadowViewMutationList) (a : ParseAcc) : Prop where
  tabB : ∀ k p, a.s.nodeForTag k = some p → p < a.s.next
  tabM : ∀ k p, a.s.nodeForTag k = some p →
    ((a.s.heap p).isMutation = true ↔
      ((∃ m ∈ sc, m.type = .Remove ∧ m.oldChildShadowView.tag = k) ∨
        ∃ p0, s0.nodeForTag k = some p0 ∧ (s0.heap p0).isMutation = true))
  tabP : ∀ m ∈ sc, m.type = .Remove →
    (a.s.nodeForTag m.oldChildShadowView.tag).isSome = true
  tabS : ∀ k, (s0.nodeForTag k).isSome = true → (a.s.nodeForTag k).isSome = true
  nodes : ∀ z ∈ a.mutationNodes, z < a.s.next ∧ (a.s.heap z).isMutation = true ∧
    InList (a.s.heap z).mutation.parentTag z a.unflattenedChildrenForTag ∧
    (a.s.nodeForTag (a.s.heap z).mutation.parentTag).isSome = true
  parents : a.mutationNodes.map (fun z => (a.s.heap z).mutation.parentTag) =
    (sc.reverse.filter (fun m => m.type = .Remove)).map (fun m => m.parentTag)
  listsB : ∀ z ∈ listed a.unflattenedChildrenForTag, z < a.s.next
  listsN : (listed a.unflattenedChildrenForTag).Nodup

/-- The heap is well typed: what the engine handles as a `MutationNode` is one.
Every mutation node holds a Remove mutation, the unflattened children of the
nodes and the queued dead nodes are mutation nodes, and no mutation node lies
beyond the allocated part of the arena. -/
structure Typed (s : State) : Prop where
  typ : ∀ p, (s.heap p).isMutation = true → (s.heap p).mutation.type = .Remove
  kids : ∀ p, ∀ c ∈ (s.heap p).unflattenedChildren, (s.heap c).isMutation = true
  dead : ∀ d ∈ s.deadNodes, (s.heap d).isMutation = true
  unalloc : ∀ p, s.next ≤ p → (s.heap p).isMutation = false

/-- The state `s1` is reached from `s` by steps that keep the kind of every node
and the type of its mutation, allocate plain nodes or mutation nodes that hold
a Remove, queue no dead node and put no new pointer into a list of unflattened
children. -/
structure Grow (s s1 : State) : Prop where
  next : s.next ≤ s1.next
  dead : ∀ d ∈ s1.deadNodes, d ∈ s.deadNodes
  node : ∀ p, ((s1.heap p).isMutation = (s.heap p).isMutation ∧
      (s1.heap p).mutation.type = (s.heap p).mutation.type) ∨
    (s.next ≤ p ∧ p < s1.next ∧
      ((s1.heap p).isMutation = true → (s1.heap p).mutation.type = .Remove))
  kids : ∀ p c, c ∈ (s1.heap p).unflattenedChildren →
    ∃ q, c ∈ (s.heap q).unflattenedChildren

/-- A list of mutations made of single mutations that are not Deletes and of
pairs of a Remove followed by the host Delete of the removed view. -/
inductive Blocks : ShadowViewMutationList → Prop
  | nil : Blocks []
  | single {X : ShadowViewMutationList} {x : ShadowViewMutation} :
    Blocks X → x.type ≠ .Delete → Blocks (X ++ [x])
  | pair {X : ShadowViewMutationList} {r : ShadowViewMutation} :
    Blocks X → r.type = .Remove → Blocks (X ++ [r, DeleteMutation r.oldChildShadowView])

/-- Every Delete of the list comes immediately after a Remove, and it is the host
Delete of the view that this Remove carries (same tag, same old view). -/
def DeletesPaired (out : ShadowViewMutationList) : Prop :=
  ∀ A d B, out = A ++ d :: B → d.type = .Delete →
    ∃ A1 r, A = A1 ++ [r] ∧ r.type = .Remove ∧ d = DeleteMutation r.oldChildShadowView

/-- Between two work states of the removal pass, where `L` lists the nodes the step
is about to finalize: the state grows, and from a well-typed state in which
the nodes of `L` are mutation nodes only blocks are appended. -/
def TRel (L : List Ptr) (w w1 : Work) : Prop :=
  Grow w.1 w1.1 ∧
  (Typed w.1 → (∀ c ∈ L, (w.1.heap c).isMutation = true) →
    ∃ X, w1.2 = w.2 ++ X ∧ Blocks X)

/-- Only mutation nodes carry an exit state: a plain node is in the state a
`Node` is constructed with. -/
def Plain (s : State) : Prop :=
  ∀ p, (s.heap p).isMutation = false → (s.heap p).state = .UNDEFINED

/-- Every node of `s1` has the kind and the state it has in `s`, or is a
mutation node, or is in the initial state. -/
def Tame (s s1 : State) : Prop :=
  ∀ p, ((s1.heap p).isMutation = (s.heap p).isMutation ∧
      (s1.heap p).state = (s.heap p).state) ∨
    (s1.heap p).isMutation = true ∨ (s1.heap p).state = .UNDEFINED

/-- What a step of the removal pass guarantees of the states it writes, when the
heap is well typed and the nodes of `L` it is handed are mutation nodes. -/
def PRel (L : List Ptr) (w w1 : Work) : Prop :=
  Grow w.1 w1.1 ∧
    (Typed w.1 → (∀ c ∈ L, (w.1.heap c).isMutation = true) → Tame w.1 w1.1)

/-- State of the engine with a layout animation in flight on view 1, whose
lookup-table entry is the plain placeholder built for the parent of the
removed view 7. -/
def placeholderState : State :=
  match pullTransaction (layoutAndEnteringFor 1) 2 State.fresh 1
      [UpdateMutation (sampleView 1) (shiftedView 1 10) 0,
       RemoveMutation 1 (sampleView 7) 0, DeleteMutation (sampleView 7)] with
  | some w => runScheduled w.1
  | none => State.fresh

/-- State of the engine with a layout animation in flight on view 5, which was
moved from parent 1 to parent 2: its lookup-table entry is the plain node that
replaced the MOVED node. -/
def movedState : State :=
  match pullTransaction (layoutAndEnteringFor 5) 2 State.fresh 1
      [RemoveMutation 1 (sampleView 5) 0, InsertMutation 2 (sampleView 5) 0,
       UpdateMutation (sampleView 5) (shiftedView 5 10) 2] with
  | some w => runScheduled w.1
  | none => State.fresh

/-- Specification of the traversal of `endAnimationsRecursively` from `p`, read
on the heap before the call: the post-order of the nodes reached through
unflattened children that are not DELETED, the children taken from the last
to the first, `p` itself last. -/
def postOrderNodes (h : Ptr → Node) : Nat → Ptr → List Ptr
  | 0, _ => []
  | k + 1, p =>
    ((h p).unflattenedChildren.reverse.filter (fun c => (h c).state ≠ .DELETED)).flatMap
      (postOrderNodes h k) ++ [p]

/-- The withheld structural removal of each node of the list followed by its
Delete. -/
def removalPairs (h : Ptr → Node) (l : List Ptr) : ShadowViewMutationList :=
  l.flatMap (fun v => [(h v).mutation, DeleteMutation (h v).mutation.oldChildShadowView])

/-- The node `z` is reached from `p` through unflattened children that are not
DELETED. -/
inductive Live (h : Ptr → Node) : Ptr → Ptr → Prop where
  | refl (p : Ptr) : Live h p p
  | step {p c z : Ptr} : c ∈ (h p).unflattenedChildren → (h c).state ≠ .DELETED →
      Live h c z → Live h p z

/-- The state `s1` is `s` with the nodes of `V` finalized: they are DELETED, and
their tags are neither in the lookup table nor in the table of the animations
in flight; nothing else differs in the arena and in the two tables. -/
def EndPost (s s1 : State) (V : List Ptr) : Prop :=
  (∀ p, s1.heap p =
    { s.heap p with state := if p ∈ V then .DELETED else (s.heap p).state }) ∧
  (∀ t, s1.nodeForTag t =
    if t ∈ V.map (fun v => (s.heap v).tag) then none else s.nodeForTag t) ∧
  (∀ t, s1.layoutAnimations t =
    if t ∈ V.map (fun v => (s.heap v).tag) then none else s.layoutAnimations t)

/-- A view whose component is a full-screen transition container. -/
def screenView (tag : Tag) : ShadowView :=
  { sampleView tag with componentName := "RNSScreen" }

/-- State of the engine when the screen 7 is popped while the exit animation of
its child 8 is in flight: a first transaction removed view 8 with an exit
animation (pointer 1, ANIMATING), the scheduled start has run, and the parse of
the batch that removes and deletes the screen has built its node (pointer 3)
above pointer 1. -/
def screenPopState : State :=
  (parseRemoveMutations
    (match pullTransaction (exitingFor 8) 2 State.fresh 1
        [RemoveMutation 7 (sampleView 8) 0, DeleteMutation (sampleView 8)] with
      | some w => runScheduled w.1
      | none => State.fresh)
    [RemoveMutation 1 (screenView 7) 0, DeleteMutation (screenView 7)]).s

/-- The closures of the list only cancel animations. -/
def OnlyCancels (Q : List UITask) : Prop := ∀ q ∈ Q, ∃ tag, q = UITask.cancel tag

/-- How a step treats the tracked animations: it adds and changes none, and the
closures it schedules are exactly the cancellations of the animations it
erased from `layoutAnimations_`. -/
def Erases (s s1 : State) : Prop :=
  (∀ t, s1.layoutAnimations t = none ∨ s1.layoutAnimations t = s.layoutAnimations t) ∧
  ∃ Q, s1.uiQueue = s.uiQueue ++ Q ∧
    (∀ q ∈ Q, ∃ t, q = UITask.cancel t ∧ s.layoutAnimations t ≠ none ∧
      s1.layoutAnimations t = none) ∧
    ∀ t, s.layoutAnimations t ≠ none → s1.layoutAnimations t = none → UITask.cancel t ∈ Q

/-- What a step of the removal pass does under a screen pop: no node becomes
ANIMATING, an allocated node that was settled stays settled, a DELETED one
stays DELETED, the allocated nodes keep their mutation and their tag, the
scheduled closures are the cancellations of the animations the step erased,
and mutations are only appended. -/
def Screened (w w1 : Work) : Prop :=
  w.1.next ≤ w1.1.next ∧
  (∀ z, (w1.1.heap z).state = .ANIMATING → (w.1.heap z).state = .ANIMATING) ∧
  (∀ z, z < w.1.next → Classified (w.1.heap z).state → Classified (w1.1.heap z).state) ∧
  (∀ z, z < w.1.next → (w.1.heap z).state = .DELETED → (w1.1.heap z).state = .DELETED) ∧
  (∀ z, z < w.1.next → (w1.1.heap z).mutation = (w.1.heap z).mutation ∧
    (w1.1.heap z).tag = (w.1.heap z).tag) ∧
  Erases w.1 w1.1 ∧
  ∃ X, w1.2 = w.2 ++ X
/-- A step that writes no exit state: the allocated nodes keep their state,
their mutation and their tag, a node allocated by the step is in the initial
state, nothing is scheduled and the tracked animations stay. -/
def Still (s s1 : State) : Prop :=
  s.next ≤ s1.next ∧
  (∀ z, z < s.next → (s1.heap z).state = (s.heap z).state ∧
    (s1.heap z).mutation = (s.heap z).mutation ∧ (s1.heap z).tag = (s.heap z).tag) ∧
  (∀ z, s.next ≤ z → (s1.heap z).state = (s.heap z).state ∨
    (s1.heap z).state = .UNDEFINED) ∧
  s1.uiQueue = s.uiQueue ∧ s1.layoutAnimations = s.layoutAnimations

/-- What the removal of the node `c` emits when it is not deferred: its Remove,
followed by its Delete unless the node is MOVED. -/
def emitOf (h : Ptr → Node) (c : Ptr) : ShadowViewMutationList :=
  if (h c).state = .MOVED then [(h c).mutation]
  else [(h c).mutation, DeleteMutation (h c).mutation.oldChildShadowView]

/-- What the removal of the whole subtree below `p` emits when nothing is
deferred, with recursion budget `k`: for each unflattened child, from the
last to the first, the output of its own subtree followed by `emitOf`. -/
def outOfM (h : Ptr → Node) : Nat → Ptr → ShadowViewMutationList
  | 0, _ => []
  | k + 1, p => pairsOut (fun c => outOfM h k c ++ emitOf h c) (h p).unflattenedChildren.reverse

/-- What the removal pass without deferral needs from the parsed heap: it is a
forest, the manager has no exit animation, the mutation nodes have distinct
tags, and the flattened children of a node are some of its unflattened
children, each listed once, and point back to it. -/
structure QuietCtx (mgr : Manager) (h0 : Ptr → Node) (n0 : Nat) : Prop where
  forest : Forest h0 n0
  noExit : ∀ log tag, mgr.hasLayoutAnimation log tag .EXITING = false
  tags : ∀ z z1, z < n0 → z1 < n0 → (h0 z).isMutation = true → (h0 z1).isMutation = true →
    (h0 z).tag = (h0 z1).tag → z = z1
  flat : ∀ p d, d ∈ (h0 p).children →
    p < n0 ∧ d ∈ (h0 p).unflattenedChildren ∧ (h0 d).parent = p
  flatNodup : ∀ p, (h0 p).children.Nodup

/-- The flattened side of the state `s` against the parsed heap: allocated nodes
keep their tag and their flattened parent, the flattened children of a node
are some of those the parse gave it, and no animation is tracked. -/
structure FlatG (h0 : Ptr → Node) (n0 : Nat) (s : State) : Prop where
  kept : ∀ z, z < n0 → (s.heap z).tag = (h0 z).tag ∧ (s.heap z).parent = (h0 z).parent
  sub : ∀ p, (s.heap p).children.Sublist (h0 p).children
  idle : ∀ t, s.layoutAnimations t = none

/-- From `s` to `s1` no node gains a flattened child. -/
def Shrink (s s1 : State) : Prop := ∀ p, (s1.heap p).children.Sublist (s.heap p).children

/-- In `s1` no node strictly below `c` is a flattened child of any node. -/
def Gone (h0 : Ptr → Node) (c : Ptr) (s1 : State) : Prop :=
  ∀ p d, d ∈ (s1.heap p).children → Reach h0 c d → d = c
/-- Specification of `startAnimationsRecursively` with budget `fuel` when nothing
is deferred, on the subtrees of a forest that are still as in `h0`, called
with the flag `shouldRemoveSubviewsWithoutAnimations` set: it returns false,
emits `outOfM`, and no node strictly below the node stays a flattened child. -/
def QuietG (mgr : Manager) (h0 : Ptr → Node) (n0 : Nat) (fuel : Nat) : Prop :=
  ∀ c s m sa sp, HtLe h0 fuel c → c < n0 → n0 ≤ s.next →
    ((h0 c).state = .UNDEFINED ∨ (h0 c).state = .MOVED) →
    (∀ z, Reach h0 c z → Kept (s.heap z) (h0 z)) → FlatG h0 n0 s →
    ∃ s1, startAnimationsRecursively mgr fuel c true sa sp (s, m) =
        some (false, s1, m ++ outOfM h0 fuel c) ∧
      PostG mgr h0 n0 c true s m false s1 (m ++ outOfM h0 fuel c) ∧
      FlatG h0 n0 s1 ∧ Shrink s s1 ∧ Gone h0 c s1
/-- The mutation is a Create, an Insert or an Update: the mutations that
`handleUpdatesAndEnterings` forwards. -/
def isForwarded (m : ShadowViewMutation) : Bool :=
  m.type = .Create ∨ m.type = .Insert ∨ m.type = .Update

/-- Loop state of `handleUpdatesAndEnterings` while no animation is involved: no
node has a pending flattened child, no animation is tracked and no old view is
recorded for a reparenting. -/
def PlainLoop (l : UpdLoop) : Prop :=
  NoFlat l.s ∧ (∀ t, l.s.layoutAnimations t = none) ∧
  ∀ t, l.oldShadowViewsForReparentings t = none

/-- The nodes strictly below `p` in the order in which the removal pass emits
them when nothing is deferred: for each unflattened child, from the last to
the first, the nodes below the child, then the child. -/
def ordM (h : Ptr → Node) : Nat → Ptr → List Ptr
  | 0, _ => []
  | k + 1, p => (h p).unflattenedChildren.reverse.flatMap (fun c => ordM h k c ++ [c])

/-- A batch in which the view 5 is updated and then moved from parent 1 to
parent 2: the Update precedes the Remove that moves the view. -/
def updateThenMoveBatch : ShadowViewMutationList :=
  [UpdateMutation (sampleView 5) (shiftedView 5 10) 1,
   RemoveMutation 1 (shiftedView 5 10) 0, InsertMutation 2 (shiftedView 5 10) 0]

/-- A batch that deletes the removed view 5 twice. -/
def deleteTwiceBatch : ShadowViewMutationList :=
  [RemoveMutation 1 (sampleView 5) 0, DeleteMutation (sampleView 5),
   DeleteMutation (sampleView 5)]

/-- A well-formed batch: an Update of view 3, the removal of the nested views 7
and 8 with their Deletes, and the creation and insertion of view 9. -/
def mixedBatch : ShadowViewMutationList :=
  [UpdateMutation (sampleView 3) (shiftedView 3 10) 1, RemoveMutation 7 (sampleView 8) 0,
   RemoveMutation 1 (sampleView 7) 0, DeleteMutation (sampleView 8),
   DeleteMutation (sampleView 7), CreateMutation (sampleView 9),
   InsertMutation 1 (sampleView 9) 0]

/-- State of the engine after the layout animation of view 7, in flight in
`layoutStartedState`, was triggered a second time by a further move of the
view and the scheduled start has run: its trigger count is 2. -/
def layoutRestartedState : State :=
  match pullTransaction (layoutAndEnteringFor 7) 1 layoutStartedState 1
      [UpdateMutation (shiftedView 7 10) (shiftedView 7 20) 1] with
  | some w => runScheduled w.1
  | none => State.fresh

/-- The manager `exitingNested` with a container of dead nodes that visits the
node at pointer `first` before every other node. -/
def exitingNestedVisiting (first : Ptr) : Manager :=
  { exitingNested with deadKey := fun p => if p = first then 0 else 1 }

/-- A manager with an exit animation configured for tag `e` and a layout
animation configured for tag `l`. -/
def exitingAndLayoutFor (e l : Tag) : Manager :=
  { hasLayoutAnimation := fun _ tag kind =>
      (tag = e ∧ kind = .EXITING) ∨ (tag = l ∧ kind = .LAYOUT),
    shouldAnimateExiting := fun _ _ d => d,
    isRNSScreen := fun name => name = "RNSScreen" }

/-- State of the engine after a transaction that moved the frame of view 5 (layout
animation) and removed and deleted view 7, child 1 of parent 1 (exit
animation), once the scheduled starts have run: the animation of view 5 is
tracked, and view 7 is pending at index 1 under the node of parent 1
(pointer 2). -/
def movedInsertState : State :=
  match pullTransaction (exitingAndLayoutFor 7 5) 2 State.fresh 1
      [UpdateMutation (sampleView 5) (shiftedView 5 10) 1,
       RemoveMutation 1 (sampleView 7) 1, DeleteMutation (sampleView 7)] with
  | some w => runScheduled w.1
  | none => State.fresh

/-- Within `k` steps along the unflattened parents, starting at `p`, a plain node
is met: the recursion of `maybeDropAncestors` that starts at the parent `p`
with budget `k` comes to its end. -/
def UpLe (h : Ptr → Node) : Nat → Ptr → Prop
  | 0, _ => False
  | k + 1, p => (h p).isMutation = false ∨ UpLe h k (h p).unflattenedParent

/-- How a step of the removal pass changes the shape of the tree: it makes no
mutation node, an allocated node gets no new unflattened child, and the
unflattened parent of an allocated node stays or becomes a node allocated by
the step. -/
def Pruning (s s1 : State) : Prop :=
  s.next ≤ s1.next ∧
  (∀ p, (s1.heap p).isMutation = true → (s.heap p).isMutation = true) ∧
  (∀ p, p < s.next → ∀ c ∈ (s1.heap p).unflattenedChildren,
    c ∈ (s.heap p).unflattenedChildren) ∧
  (∀ p, p < s.next → (s1.heap p).unflattenedParent = (s.heap p).unflattenedParent ∨
    s.next ≤ (s1.heap p).unflattenedParent)

/-- The recursion budget covers the tree that `parseRemoveMutations` built: the
unflattened subtree of every root and of every queued dead node has fewer
than `fuel` levels, and fewer than `fuel` mutation nodes lie above a queued
dead node. -/
def WithinBudget (fuel : Nat) (P : Parsed) : Prop :=
  (∀ p ∈ P.roots, HtLe P.s.heap fuel p) ∧
  ∀ d ∈ P.s.deadNodes, HtLe P.s.heap fuel d ∧
    UpLe P.s.heap fuel (P.s.heap d).unflattenedParent

/-- Engine states reached from the fresh engine by transactions, by runs of the
scheduled closures, by steps that leave the node arena, the lookup table and the
queue of dead nodes alone (such as `progressLayoutAnimation`), and by calls of
`endLayoutAnimation` in which the cast of the lookup-table entry to a
`MutationNode` is defined: when the removal of the view is asked for, the entry
of the tag is a mutation node. -/
inductive Reachable : State → Prop
  | fresh : Reachable State.fresh
  | pull (mgr : Manager) (fuel : Nat) (s : State) (sid : SurfaceId)
      (batch : ShadowViewMutationList) (w : Work) :
      Reachable s → pullTransaction mgr fuel s sid batch = some w → Reachable w.1
  | run (s : State) : Reachable s → Reachable (runScheduled s)
  | other (s s1 : State) : Reachable s → s1.heap = s.heap → s1.next = s.next →
      s1.nodeForTag = s.nodeForTag → s1.deadNodes = s.deadNodes → Reachable s1
  | endAnimation (s : State) (tag : Tag) (shouldRemove : Bool) : Reachable s →
      (shouldRemove = true → ∀ p, s.nodeForTag tag = some p →
        (s.heap p).isMutation = true) →
      Reachable (endLayoutAnimation s tag shouldRemove).2

/-- State of the engine once the exit animation of view 7 of `pendingExitState`
has ended: its node is DEAD and queued. -/
def deadExitState : State := (endLayoutAnimation pendingExitState 7 true).2

/-- The height bound `HtLe` can be checked by evaluation. -/
instance decHtLe (h : Ptr → Node) : (k : Nat) → (p : Ptr) → Decidable (HtLe h k p)
  | 0, _ => isFalse (fun x => x)
  | k + 1, p =>
    have : ∀ c, Decidable (HtLe h k c) := fun c => decHtLe h k c
    inferInstanceAs (Decidable (∀ c ∈ (h p).unflattenedChildren, HtLe h k c))

/-- The bound `UpLe` on a chain of ancestors can be checked by evaluation. -/
instance decUpLe (h : Ptr → Node) : (k : Nat) → (p : Ptr) → Decidable (UpLe h k p)
  | 0, _ => isFalse (fun x => x)
  | k + 1, p =>
    have : Decidable (UpLe h k (h p).unflattenedParent) := decUpLe h k _
    inferInstanceAs (Decidable ((h p).isMutation = false ∨ UpLe h k (h p).unflattenedParent))

instance decWithinBudget (fuel : Nat) (P : Parsed) : Decidable (WithinBudget fuel P) :=
  inferInstanceAs (Decidable ((∀ p ∈ P.roots, HtLe P.s.heap fuel p) ∧
    ∀ d ∈ P.s.deadNodes, HtLe P.s.heap fuel d ∧
      UpLe P.s.heap fuel (P.s.heap d).unflattenedParent))

/-- Above `p`, along the unflattened parents, a plain node is met within `k`
steps, and no mutation node on the way records a view of tag `t`: when
`maybeDropAncestors` starts at the parent `p` with budget `k`, it comes to its
end and drops no node of tag `t`. -/
def UpFree (t : Tag) (h : Ptr → Node) : Nat → Ptr → Prop
  | 0, _ => False
  | k + 1, p => (h p).isMutation = false ∨
    ((h p).mutation.oldChildShadowView.tag ≠ t ∧ UpFree t h k (h p).unflattenedParent)

/-- The two states have the same kinds, mutations and unflattened parents. -/
def SameUp (s s1 : State) : Prop :=
  ∀ z, (s1.heap z).isMutation = (s.heap z).isMutation ∧
    (s1.heap z).mutation = (s.heap z).mutation ∧
    (s1.heap z).unflattenedParent = (s.heap z).unflattenedParent

/-- Invariant of the reverse scan of `parseRemoveMutations` from any engine state
with `n0` allocated nodes, for a tag `t` without Delete in the batch: the built
nodes are new mutation nodes and those that record `t` are MOVED; every new
mutation node is a built node; the table entry of a view recorded as moved is
allocated and, when it is a built node, records that view; `t` is not
recorded as deleted. -/
structure ScanT (t : Tag) (n0 : Nat) (a : ParseAcc) : Prop where
  built : ∀ z ∈ a.mutationNodes, n0 ≤ z ∧ z < a.s.next ∧ (a.s.heap z).isMutation = true ∧
    ((a.s.heap z).mutation.oldChildShadowView.tag = t → (a.s.heap z).state = .MOVED)
  fresh : ∀ z, n0 ≤ z → z < a.s.next → (a.s.heap z).isMutation = true → z ∈ a.mutationNodes
  entry : ∀ k, (a.movedViews k).isSome = true → ∃ p, a.s.nodeForTag k = some p ∧
    p < a.s.next ∧ (p ∈ a.mutationNodes → (a.s.heap p).mutation.oldChildShadowView.tag = k)
  del : t ∉ a.deletedViews
  le : n0 ≤ a.s.next

/-- The condition `UpFree` on a chain of ancestors can be checked by evaluation. -/
instance decUpFree (t : Tag) (h : Ptr → Node) : (k : Nat) → (p : Ptr) →
    Decidable (UpFree t h k p)
  | 0, _ => isFalse (fun x => x)
  | k + 1, p =>
    have : Decidable (UpFree t h k (h p).unflattenedParent) :=
      decUpFree t h k (h p).unflattenedParent
    inferInstanceAs (Decidable ((h p).isMutation = false ∨
      ((h p).mutation.oldChildShadowView.tag ≠ t ∧ UpFree t h k (h p).unflattenedParent)))

/-- Whether a node is settled can be checked by evaluation. -/
instance decClassified (st : ExitingState) : Decidable (Classified st) :=
  inferInstanceAs (Decidable (st ≠ .UNDEFINED ∧ st ≠ .MOVED))

/-- The nodes built by the parse form trees of their own: the unflattened children
of a built node are built nodes, listed once, that point back to it; a built
node is the entry of the lookup table for its tag, and its mutation records a
view with that tag. -/
def BuiltTree (P : Parsed) : Prop :=
  ∀ z ∈ P.mutationNodes,
    (P.s.heap z).unflattenedChildren.Nodup ∧
    P.s.nodeForTag (P.s.heap z).tag = some z ∧
    (P.s.heap z).mutation.oldChildShadowView.tag = (P.s.heap z).tag ∧
    ∀ c ∈ (P.s.heap z).unflattenedChildren,
      c ∈ P.mutationNodes ∧ (P.s.heap c).unflattenedParent = z

/-- The condition `BuiltTree` can be checked by evaluation. -/
instance decBuiltTree (P : Parsed) : Decidable (BuiltTree P) :=
  inferInstanceAs (Decidable (∀ z ∈ P.mutationNodes,
    (P.s.heap z).unflattenedChildren.Nodup ∧
    P.s.nodeForTag (P.s.heap z).tag = some z ∧
    (P.s.heap z).mutation.oldChildShadowView.tag = (P.s.heap z).tag ∧
    ∀ c ∈ (P.s.heap z).unflattenedChildren,
      c ∈ P.mutationNodes ∧ (P.s.heap c).unflattenedParent = z))

/-- The lookup table is sound for the tags that the Removes of the batch look up
(the tag of the removed view and the tag of its parent): an entry for such a
tag is an allocated node with that tag whose flattened children are
allocated. -/
def WellKeyed (s : State) (batch : ShadowViewMutationList) : Prop :=
  ∀ m ∈ batch, m.type = .Remove → ∀ k ∈ [m.oldChildShadowView.tag, m.parentTag],
    ∀ p ∈ s.nodeForTag k, p < s.next ∧ (s.heap p).tag = k ∧
      ∀ c ∈ (s.heap p).children, c < s.next

/-- The condition `WellKeyed` can be checked by evaluation. -/
instance decWellKeyed (s : State) (batch : ShadowViewMutationList) :
    Decidable (WellKeyed s batch) :=
  inferInstanceAs (Decidable (∀ m ∈ batch, m.type = .Remove →
    ∀ k ∈ [m.oldChildShadowView.tag, m.parentTag],
    ∀ p ∈ s.nodeForTag k, p < s.next ∧ (s.heap p).tag = k ∧
      ∀ c ∈ (s.heap p).children, c < s.next))

@[simp] theorem addInt32_zero (a : Int) : addInt32 a 0 = a := by simp [addInt32]

theorem wrapInt32_of_range {x : Int} (h1 : -2147483648 ≤ x) (h2 : x < 2147483648) :
    wrapInt32 x = x := by
  unfold wrapInt32; omega

theorem addInt32_of_range {a b : Int} (h1 : -2147483648 ≤ a + b) (h2 : a + b < 2147483648) :
    addInt32 a b = a + b := by
  unfold addInt32
  split
  · omega
  · exact wrapInt32_of_range h1 h2

@[simp] theorem visitOrder_nil (key : Ptr → Nat) : visitOrder key [] = [] := rfl

@[simp] theorem visitOrder_singleton (key : Ptr → Nat) (p : Ptr) : visitOrder key [p] = [p] := rfl

theorem mem_visitOrder {key : Ptr → Nat} {l : List Ptr} {x : Ptr} :
    x ∈ visitOrder key l ↔ x ∈ l :=
  (List.perm_insertionSort _ l).mem_iff

theorem visitOrder_perm (key : Ptr → Nat) (l : List Ptr) : (visitOrder key l).Perm l :=
  List.perm_insertionSort _ l

/-- The scan of `updateIndexForMutation` without overflow of the counter `offset`:
the final offset lies between the initial one and the initial one plus the
number of scanned indices. -/
theorem updateIndexLoop_ge (index : Int) : ∀ (ks : List Int) (size prevIndex offset : Int),
    0 ≤ offset → offset + ks.length < 2147483648 →
    offset ≤ updateIndexLoop index ks size prevIndex offset ∧
    updateIndexLoop index ks size prevIndex offset ≤ offset + ks.length := by
  intro ks
  induction ks with
  | nil => intro _ _ offset _ _; simp [updateIndexLoop]
  | cons k ks ih =>
    intro size prevIndex offset h0 hlen
    simp only [updateIndexLoop, List.length_cons, Nat.cast_add, Nat.cast_one] at hlen ⊢
    have hw : wrapInt32 (offset + 1) = offset + 1 := wrapInt32_of_range (by omega) (by omega)
    split
    · constructor <;> omega
    · rw [hw]
      obtain ⟨h1, h2⟩ := ih (wrapInt32 (size + (k - prevIndex - 1))) k (offset + 1)
        (by omega) (by omega)
      constructor <;> omega

/-- C1 (counterexample): in a fresh engine without animations the batch
[Remove(5, parent 1, index 0), Insert(5, parent 2, index 0)] is not filtered to
the Insert alone: the Remove of the moved view is forwarded in front of it. -/
theorem pullTransaction_move_not_insert_only :
    filtered (pullTransaction noAnimations 4 State.fresh 1
      [RemoveMutation 1 (sampleView 5) 0, InsertMutation 2 (sampleView 5) 0])
      = some [RemoveMutation 1 (sampleView 5) 0, InsertMutation 2 (sampleView 5) 0] ∧
    filtered (pullTransaction noAnimations 4 State.fresh 1
      [RemoveMutation 1 (sampleView 5) 0, InsertMutation 2 (sampleView 5) 0])
      ≠ some [InsertMutation 2 (sampleView 5) 0] := by
  set_option maxRecDepth 100000 in decide

set_option maxRecDepth 100000 in
set_option maxHeartbeats 4000000 in
/-- C1 (amended): in a fresh engine whose manager reports no animation, the
batch [Remove(5, parent 1, index 0), Insert(5, parent 2, index 0)] is filtered
to exactly [Remove(5, parent 1, index 0), Insert(5, parent 2, index 0)]: the
view is moved, both structural mutations pass through and no Delete is
produced.  This holds for every content of the two views, every surface and
every positive recursion budget. -/
theorem pullTransaction_move_scenario (mgr : Manager)
    (hno : ∀ log t k, mgr.hasLayoutAnimation log t k = false)
    (v v2 : ShadowView) (hv : v.tag = 5) (hv2 : v2.tag = 5) (fuel : Nat) (sid : SurfaceId) :
    filtered (pullTransaction mgr (fuel + 1) State.fresh sid
      [RemoveMutation 1 v 0, InsertMutation 2 v2 0])
      = some [RemoveMutation 1 v 0, InsertMutation 2 v2 0] := by
  simp [filtered, pullTransaction, parseRemoveMutations, parseStep, parseRemove, RemoveMutation,
    InsertMutation, makeMutationNode, State.fresh, updateIndexForMutation, pendingIndices, State.alloc,
    State.modifyNode, State.setNode, State.node, pushChild, resolveMovedViews, attachChildren,
    attachUnflattenedChildren, insertChildren, insertUnflattenedChildren, mergeChildren,
    plainNode, replacementNode, hv, hv2, handleRemovals, handleRoots, startAnimationsRecursively, startLoopStep, startFinish, hno,
    Function.update, removeChildFromUnflattenedTree, eraseLastWithTag, handleDeadNodes,
    handleUpdatesAndEnterings, handleMutation, handleInsert, addOngoingAnimations,
    applyMutationToIndices, maybeUpdateWindowDimensions]

/-- Witness of C1 (amended) at the sample views and the manager without animations. -/
theorem pullTransaction_move_scenario_witness :
    filtered (pullTransaction noAnimations 1 State.fresh 1
      [RemoveMutation 1 (sampleView 5) 0, InsertMutation 2 (sampleView 5) 0])
      = some [RemoveMutation 1 (sampleView 5) 0, InsertMutation 2 (sampleView 5) 0] :=
  pullTransaction_move_scenario noAnimations (fun _ _ _ => rfl) (sampleView 5) (sampleView 5)
    rfl rfl 0 1

/-- C2 (counterexample): with an exit animation configured for tag 7, the batch
[Remove(7, parent 1, index 0)] is not filtered to the empty batch: without a
Delete the view counts as moved, its Remove is forwarded at once, no exit
animation starts, `endLayoutAnimation 7 true` answers nothing and the next
transaction is empty. -/
theorem exitScenario_remove_only :
    exitScenario (exitingFor 7) 4 1 7 [RemoveMutation 1 (sampleView 7) 0]
      = some ([RemoveMutation 1 (sampleView 7) 0], none, []) ∧
    exitScenario (exitingFor 7) 4 1 7 [RemoveMutation 1 (sampleView 7) 0]
      ≠ some ([], some 1, [DeleteMutation (sampleView 7)]) := by
  set_option maxRecDepth 100000 in decide

set_option maxRecDepth 100000 in
set_option maxHeartbeats 4000000 in
/-- C2 (amended): in a fresh engine whose manager reports an exit animation for
tag 7 (and lets it animate, outside a screen transition), the batch
[Remove(7, parent 1, index 0), Delete(7)] is filtered to the empty batch; after
the scheduled exit start has run, `endLayoutAnimation 7 true` answers the
surface of the view, and the next transaction, with an empty input batch,
returns exactly [Remove(7, parent 1, index 0), Delete(7)]. -/
theorem exitScenario_remove_delete (mgr : Manager) (v : ShadowView) (hv : v.tag = 7)
    (hexit : ∀ log, mgr.hasLayoutAnimation log 7 .EXITING = true)
    (hshould : ∀ log, mgr.shouldAnimateExiting log 7 true = true)
    (hscreen : mgr.isRNSScreen v.componentName = false) (fuel : Nat) (sid : SurfaceId) :
    exitScenario mgr (fuel + 1) sid 7 [RemoveMutation 1 v 0, DeleteMutation v]
      = some ([], some v.surfaceId, [RemoveMutation 1 v 0, DeleteMutation v]) := by
  simp [exitScenario, pullTransaction, parseRemoveMutations, parseStep, parseRemove,
    RemoveMutation, DeleteMutation, makeMutationNode, State.fresh, updateIndexForMutation, pendingIndices,
    State.alloc, State.modifyNode, State.setNode, State.node, pushChild, resolveMovedViews,
    attachChildren, attachUnflattenedChildren, insertChildren, insertUnflattenedChildren,
    mergeChildren, plainNode, replacementNode, hv, handleRemovals, handleRoots, startAnimationsRecursively,
    startLoopStep, startFinish, hexit, hshould, hscreen, Function.update, removeChildFromUnflattenedTree, eraseLastWithTag,
    handleDeadNodes, handleUpdatesAndEnterings, handleMutation, addOngoingAnimations,
    maybeUpdateWindowDimensions, startExitingAnimation, State.schedule, State.logCall,
    runScheduled, runUITask, createLayoutAnimation, endLayoutAnimation, endAnimationsRecursively,
    maybeDropAncestors, maybeCancelAnimation]

/-- Witness of C2 (amended) at the sample view and the manager with an exit
animation for tag 7 only. -/
theorem exitScenario_remove_delete_witness :
    exitScenario (exitingFor 7) 1 1 7 [RemoveMutation 1 (sampleView 7) 0, DeleteMutation (sampleView 7)]
      = some ([], some 1,
          [RemoveMutation 1 (sampleView 7) 0, DeleteMutation (sampleView 7)]) :=
  exitScenario_remove_delete (exitingFor 7) (sampleView 7) rfl
    (fun _ => by simp [exitingFor]) (fun _ => rfl) (by decide) 0 1

/-- C4: when `createLayoutAnimation` records an animation for an untracked tag
twice and no end request came in between, the first `endLayoutAnimation` leaves
the entry of the tag in the table of in-flight animations and the second one
removes it, whatever the removal flags. -/
theorem endLayoutAnimation_twice_after_two_triggers (s : State) (tag : Tag)
    (m1 m2 : ShadowViewMutation) (v1 v2 : ShadowView) (b1 b2 : Bool)
    (h : s.layoutAnimations tag = none) :
    ((endLayoutAnimation
        (createLayoutAnimation (createLayoutAnimation s m1 v1 tag).1 m2 v2 tag).1
        tag b1).2.layoutAnimations tag).isSome = true ∧
    (endLayoutAnimation
        (endLayoutAnimation
          (createLayoutAnimation (createLayoutAnimation s m1 v1 tag).1 m2 v2 tag).1
          tag b1).2 tag b2).2.layoutAnimations tag = none := by
  constructor
  · simp [createLayoutAnimation, endLayoutAnimation, h]
  · cases b2 <;>
      simp [createLayoutAnimation, endLayoutAnimation, h, State.modifyNode, State.setNode,
        State.node]
    all_goals (split <;> simp)

/-- Witness of C4 in a fresh engine, tag 3. -/
theorem endLayoutAnimation_twice_after_two_triggers_witness :
    ((endLayoutAnimation
        (createLayoutAnimation (createLayoutAnimation State.fresh
          (RemoveMutation 1 (sampleView 3) 0) (sampleView 3) 3).1
          (RemoveMutation 1 (sampleView 3) 0) (sampleView 3) 3).1
        3 true).2.layoutAnimations 3).isSome = true ∧
    (endLayoutAnimation
        (endLayoutAnimation
          (createLayoutAnimation (createLayoutAnimation State.fresh
            (RemoveMutation 1 (sampleView 3) 0) (sampleView 3) 3).1
            (RemoveMutation 1 (sampleView 3) 0) (sampleView 3) 3).1
          3 true).2 3 true).2.layoutAnimations 3 = none :=
  endLayoutAnimation_twice_after_two_triggers State.fresh 3 _ _ _ _ true true rfl

/-- The scan of `updateIndexForMutation`: when the scanned indices increase
strictly, no counter leaves the range of `int` and the counters are consistent
(`size = prevIndex + 1 - offset`), the final offset exceeds the initial one by
the number of scanned indices below `index + offset`, and `index + offset` is
none of them. -/
theorem updateIndexLoop_count (index : Int) :
    ∀ (ks : List Int) (size prevIndex offset : Int), size = prevIndex + 1 - offset →
      ks.Pairwise (fun a b => a < b) →
      (∀ k ∈ ks, -2147483648 + offset ≤ k ∧ k < 2147483648) →
      0 ≤ offset → offset + ks.length < 2147483648 →
      offset ≤ updateIndexLoop index ks size prevIndex offset ∧
      ((ks.filter (fun k => k < index + updateIndexLoop index ks size prevIndex offset)).length
          : Int) = updateIndexLoop index ks size prevIndex offset - offset ∧
      index + updateIndexLoop index ks size prevIndex offset ∉ ks := by
  intro ks
  induction ks with
  | nil => intro size prevIndex offset _ _ _ _ _; simp [updateIndexLoop]
  | cons k ks ih =>
    intro size prevIndex offset hsize hsorted hrange h0 hlen
    obtain ⟨hk1, hk2⟩ := hrange k (List.mem_cons_self _ _)
    have hw : wrapInt32 (size + (k - prevIndex - 1)) = k - offset := by
      rw [wrapInt32_of_range (by omega) (by omega)]; omega
    have hgt : ∀ x ∈ ks, k < x := fun x hx => (List.pairwise_cons.mp hsorted).1 x hx
    simp only [List.length_cons, Nat.cast_add, Nat.cast_one] at hlen
    simp only [updateIndexLoop, hw]
    by_cases hlt : index < k - offset
    · rw [if_pos hlt]
      refine ⟨le_refl _, ?_, ?_⟩
      · have : (k :: ks).filter (fun x => x < index + offset) = [] := by
          rw [List.filter_eq_nil_iff]
          intro x hx
          rcases List.mem_cons.mp hx with rfl | hx
          · simp; omega
          · have := hgt x hx; simp; omega
        rw [this]; simp
      · intro hmem
        rcases List.mem_cons.mp hmem with h | h
        · omega
        · have := hgt _ h; omega
    · have hw1 : wrapInt32 (offset + 1) = offset + 1 :=
        wrapInt32_of_range (by omega) (by omega)
      rw [if_neg hlt, hw1]
      obtain ⟨h1, h2, h3⟩ := ih (k - offset) k (offset + 1) (by omega)
        (List.pairwise_cons.mp hsorted).2
        (fun x hx => ⟨by have := hgt x hx; omega, (hrange x (List.mem_cons_of_mem _ hx)).2⟩)
        (by omega) (by omega)
      refine ⟨by omega, ?_, ?_⟩
      · rw [List.filter_cons]
        have hk : k < index + updateIndexLoop index ks (k - offset) k (offset + 1) := by omega
        simp only [hk, decide_True, if_true, List.length_cons, Nat.cast_add, Nat.cast_one]
        rw [h2]; ring
      · intro hmem
        rcases List.mem_cons.mp hmem with h | h
        · omega
        · exact h3 h

/-- What `updateIndexForMutation` computes for a mutation with an index other
than -1 under a parent of the lookup table whose pending children have strictly
increasing indices, when the values are `int`s and the index plus the number
of pending children does not exceed the largest `int`: the index `r = i + m`,
`m` the number of pending children whose index is below `r`, and `r` is the
index of no pending child. -/
theorem updateIndexForMutation_spec (s : State) (mutation : ShadowViewMutation) (parent : Ptr)
    (hidx : mutation.index ≠ -1) (hparent : s.nodeForTag mutation.parentTag = some parent)
    (hsorted : (pendingIndices s parent).Pairwise (fun a b => a < b))
    (hrange : ∀ k ∈ pendingIndices s parent, -2147483648 ≤ k ∧ k ≤ 2147483647)
    (hlow : -2147483648 ≤ mutation.index)
    (hlen : (pendingIndices s parent).length ≤ 2147483647)
    (hfit : mutation.index + (pendingIndices s parent).length ≤ 2147483647) :
    (updateIndexForMutation s mutation).index = mutation.index +
      (((pendingIndices s parent).filter
        (fun k => k < (updateIndexForMutation s mutation).index)).length : Int) ∧
    (updateIndexForMutation s mutation).index ∉ pendingIndices s parent ∧
    updateIndexForMutation s mutation =
      { mutation with index := (updateIndexForMutation s mutation).index } := by
  obtain ⟨h1, h2, h3⟩ :=
    updateIndexLoop_count mutation.index (pendingIndices s parent) 0 (-1) 0 (by omega) hsorted
      (fun k hk => ⟨by have := (hrange k hk).1; omega, by have := (hrange k hk).2; omega⟩)
      (le_refl _) (by omega)
  obtain ⟨_, h4⟩ := updateIndexLoop_ge mutation.index (pendingIndices s parent) 0 (-1) 0
    (le_refl _) (by omega)
  have hval : (updateIndexForMutation s mutation).index = mutation.index +
      updateIndexLoop mutation.index (pendingIndices s parent) 0 (-1) 0 := by
    simp only [updateIndexForMutation, hidx, hparent, if_false]
    exact addInt32_of_range (by omega) (by omega)
  refine ⟨?_, ?_, ?_⟩
  · rw [hval, h2]; omega
  · rw [hval]; exact h3
  · simp [updateIndexForMutation, hidx, hparent]

/-- Counterexample to C8 as stated: in the engine state where the view at index 1
of parent 1 is pending (its exit animation is in flight), the pending indices
of the parent are [1], strictly increasing, and an Insert under that parent
with the index 2147483647, the largest `int`, gets the index -2147483648: the
sum of the index and the offset 1 wraps around.  No pending child has an index
below that value, so the claim requires the index 2147483647 + 0. -/
theorem updateIndexForMutation_wraps :
    pendingExitState.nodeForTag 1 = some 2 ∧ pendingIndices pendingExitState 2 = [1] ∧
    (updateIndexForMutation pendingExitState
      (InsertMutation 1 (sampleView 8) 2147483647)).index = -2147483648 ∧
    ((pendingIndices pendingExitState 2).filter (fun k => k < (updateIndexForMutation
      pendingExitState (InsertMutation 1 (sampleView 8) 2147483647)).index)).length = 0 ∧
    (updateIndexForMutation pendingExitState
      (InsertMutation 1 (sampleView 8) 2147483647)).index ≠ 2147483647 + 0 := by
  decide

/-- C8 (amended): index correction.  A mutation with index -1, or whose parent is
not in the lookup table, keeps its index.  Otherwise, when the indices of the
parent's pending children increase strictly, all the values are in the range
of `int` and the index plus the number of pending children does not exceed
2147483647, the mutation gets the index `r = i + m` where `m` is the number of
pending children whose index is below `r`, and `r` is not the index of a
pending child; nothing else of the mutation changes. -/
theorem updateIndexForMutation_corrects (s : State) (mutation : ShadowViewMutation) :
    (mutation.index = -1 → updateIndexForMutation s mutation = mutation) ∧
    (s.nodeForTag mutation.parentTag = none → updateIndexForMutation s mutation = mutation) ∧
    (∀ parent, mutation.index ≠ -1 → s.nodeForTag mutation.parentTag = some parent →
      (pendingIndices s parent).Pairwise (fun a b => a < b) →
      (∀ k ∈ pendingIndices s parent, -2147483648 ≤ k ∧ k ≤ 2147483647) →
      -2147483648 ≤ mutation.index →
      (pendingIndices s parent).length ≤ 2147483647 →
      mutation.index + (pendingIndices s parent).length ≤ 2147483647 →
      (updateIndexForMutation s mutation).index = mutation.index +
        (((pendingIndices s parent).filter
          (fun k => k < (updateIndexForMutation s mutation).index)).length : Int) ∧
      (updateIndexForMutation s mutation).index ∉ pendingIndices s parent ∧
      updateIndexForMutation s mutation =
        { mutation with index := (updateIndexForMutation s mutation).index }) := by
  refine ⟨?_, ?_, ?_⟩
  · intro h; simp [updateIndexForMutation, h]
  · intro h; simp [updateIndexForMutation, h]
  · intro parent hidx hparent hsorted hrange hlow hlen hfit
    exact updateIndexForMutation_spec s mutation parent hidx hparent hsorted hrange hlow hlen hfit

/-- Witness of C8: after the view at index 1 of parent 1 was removed with an exit
animation, an Insert at index 1 under that parent is moved to index 2, past
the pending view. -/
theorem updateIndexForMutation_corrects_witness :
    pendingExitState.nodeForTag 1 = some 2 ∧ pendingIndices pendingExitState 2 = [1] ∧
    (updateIndexForMutation pendingExitState (InsertMutation 1 (sampleView 8) 1)).index = 2 ∧
    (updateIndexForMutation pendingExitState (InsertMutation 1 (sampleView 8) 1)).index
      ∉ pendingIndices pendingExitState 2 := by
  have h := (updateIndexForMutation_corrects pendingExitState
    (InsertMutation 1 (sampleView 8) 1)).2.2 2 (by decide) (by decide) (by decide)
    (by decide) (by decide) (by decide) (by decide)
  exact ⟨by decide, by decide, by decide, h.2.1⟩

/-- C9: `endLayoutAnimation tag shouldRemove` answers a surface id exactly when the
tag has a tracked animation with trigger count at most 1, `shouldRemove` holds
and the tag is in the lookup table; then the answer is the surface of the
animation's final view, the node of the tag becomes DEAD and is queued.  When
nothing is answered no node changes and nothing is queued.  Without a
tracked animation the state is unchanged; with a count above 1 only the count
is decremented. -/
theorem endLayoutAnimation_answer (s : State) (tag : Tag) (shouldRemove : Bool) :
    (((endLayoutAnimation s tag shouldRemove).1.isSome = true) ↔
      ((∃ la, s.layoutAnimations tag = some la ∧ la.count ≤ 1) ∧ shouldRemove = true ∧
        (s.nodeForTag tag).isSome = true)) ∧
    (∀ la p, s.layoutAnimations tag = some la → la.count ≤ 1 → shouldRemove = true →
      s.nodeForTag tag = some p →
      (endLayoutAnimation s tag shouldRemove).1 = some la.finalView.surfaceId ∧
      ((endLayoutAnimation s tag shouldRemove).2.node p).state = .DEAD ∧
      p ∈ (endLayoutAnimation s tag shouldRemove).2.deadNodes ∧
      (endLayoutAnimation s tag shouldRemove).2.layoutAnimations tag = none) ∧
    ((endLayoutAnimation s tag shouldRemove).1 = none →
      (endLayoutAnimation s tag shouldRemove).2.heap = s.heap ∧
      (endLayoutAnimation s tag shouldRemove).2.deadNodes = s.deadNodes) ∧
    (s.layoutAnimations tag = none → endLayoutAnimation s tag shouldRemove = (none, s)) ∧
    (∀ la, s.layoutAnimations tag = some la → 1 < la.count →
      endLayoutAnimation s tag shouldRemove =
        (none, { s with layoutAnimations :=
          Function.update s.layoutAnimations tag (some { la with count := la.count - 1 }) })) := by
  refine ⟨?_, ?_, ?_, ?_, ?_⟩
  · cases hla : s.layoutAnimations tag with
    | none => simp [endLayoutAnimation, hla]
    | some la =>
      by_cases hc : la.count > 1
      · have : ¬ la.count ≤ 1 := by omega
        simp [endLayoutAnimation, hla, hc, this]
      · have hle : la.count ≤ 1 := by omega
        cases shouldRemove with
        | false => simp [endLayoutAnimation, hla, hc]
        | true =>
          cases hn : s.nodeForTag tag with
          | none => simp [endLayoutAnimation, hla, hc, hn]
          | some p => simp [endLayoutAnimation, hla, hc, hn, hle]
  · intro la p hla hc hrem hn
    have hc2 : ¬ la.count > 1 := by omega
    subst hrem
    simp only [endLayoutAnimation, hla, hc2, if_false, hn, Bool.not_true, Bool.false_eq_true]
    refine ⟨trivial, ?_, ?_, ?_⟩
    · simp [State.modifyNode, State.setNode, State.node]
    · simp only [State.modifyNode, State.setNode]
      split
      · assumption
      · simp
    · simp [State.modifyNode, State.setNode]
  · cases hla : s.layoutAnimations tag with
    | none => simp [endLayoutAnimation, hla]
    | some la =>
      by_cases hc : la.count > 1
      · simp [endLayoutAnimation, hla, hc]
      · cases shouldRemove with
        | false => simp [endLayoutAnimation, hla, hc]
        | true =>
          cases hn : s.nodeForTag tag with
          | none => simp [endLayoutAnimation, hla, hc, hn]
          | some p => simp [endLayoutAnimation, hla, hc, hn]
  · intro hla; simp [endLayoutAnimation, hla]
  · intro la hla hc
    have hc2 : la.count > 1 := hc
    simp [endLayoutAnimation, hla, hc2]

/-- Witness of C9: in the state where tag 7 exits with one trigger and is in the
lookup table (node 1), `endLayoutAnimation 7 true` answers surface 1, marks the
node DEAD and queues it. -/
theorem endLayoutAnimation_answer_witness :
    (endLayoutAnimation pendingExitState 7 true).1 = some 1 ∧
    ((endLayoutAnimation pendingExitState 7 true).2.node 1).state = .DEAD ∧
    1 ∈ (endLayoutAnimation pendingExitState 7 true).2.deadNodes ∧
    (endLayoutAnimation pendingExitState 7 true).2.layoutAnimations 7 = none :=
  (endLayoutAnimation_answer pendingExitState 7 true).2.1
    { finalView := sampleView 7, currentView := sampleView 7, parentTag := 1,
      opacity := none, count := 1 } 1 (by decide) (by decide) rfl (by decide)


theorem updateIndexForMutation_fields (s : State) (m : ShadowViewMutation) :
    updateIndexForMutation s m = { m with index := (updateIndexForMutation s m).index } := by
  unfold updateIndexForMutation
  split
  · rfl
  · split <;> rfl

theorem handleMutation_appends (mgr : Manager) (mv : Tag → Option Tag) (sid : SurfaceId)
    (l : UpdLoop) (m : ShadowViewMutation) :
    ∃ X, (handleMutation mgr mv sid l m).filteredMutations = l.filteredMutations ++ X := by
  unfold handleMutation
  cases m.type with
  | Create => exact ⟨[m], by simp⟩
  | Delete => exact ⟨[], by simp⟩
  | Remove => exact ⟨[], by simp⟩
  | Insert =>
    simp only [handleInsert]
    repeat' split
    all_goals exact ⟨_, rfl⟩
  | Update =>
    simp only [handleUpdate]
    repeat' split
    all_goals first | exact ⟨_, rfl⟩ | exact ⟨[], by simp⟩

theorem foldl_handleMutation_appends (mgr : Manager) (mv : Tag → Option Tag) (sid : SurfaceId)
    (ms : ShadowViewMutationList) :
    ∀ l : UpdLoop, ∃ X, (ms.foldl (handleMutation mgr mv sid) l).filteredMutations
      = l.filteredMutations ++ X := by
  induction ms with
  | nil => intro l; exact ⟨[], by simp⟩
  | cons m ms ih =>
    intro l
    obtain ⟨X, hX⟩ := handleMutation_appends mgr mv sid l m
    obtain ⟨Y, hY⟩ := ih (handleMutation mgr mv sid l m)
    exact ⟨X ++ Y, by simp [List.foldl_cons, hY, hX]⟩

theorem addOngoingAnimations_appends (sid : SurfaceId) (w : Work) :
    ∃ X, (addOngoingAnimations sid w).2 = w.2 ++ X := by
  unfold addOngoingAnimations
  simp only
  generalize w.1.updateMap sid = es
  induction es generalizing w with
  | nil => exact ⟨[], by simp⟩
  | cons e es ih =>
    simp only [List.foldl_cons]
    split
    · exact ih w
    · rename_i la hla
      obtain ⟨X, hX⟩ := ih (_, _)
      rw [hX]
      exact ⟨_, by simp [List.append_assoc]; rfl⟩



/-- A fold whose step keeps `none` stays at `none`. -/
theorem foldl_none_of_step {α β : Type} (g : Option β → α → Option β)
    (hnone : ∀ a, g none a = none) (l : List α) : l.foldl g none = none := by
  induction l with
  | nil => rfl
  | cons a l ih => simp [List.foldl_cons, hnone, ih]

/-- Invariant rule for the loops that thread an optional work state: a reflexive
and transitive relation kept by every successful step is kept by the loop. -/
theorem foldl_some_invariant {α β : Type} (g : Option β → α → Option β)
    (hnone : ∀ a, g none a = none) (R : β → β → Prop) (hrefl : ∀ b, R b b)
    (htrans : ∀ a b c, R a b → R b c → R a c) (l : List α)
    (hstep : ∀ a ∈ l, ∀ b b1, g (some b) a = some b1 → R b b1) :
    ∀ b b1, l.foldl g (some b) = some b1 → R b b1 := by
  induction l with
  | nil =>
    intro b b1 h
    simp only [List.foldl_nil, Option.some.injEq] at h
    subst h
    exact hrefl b
  | cons a l ih =>
    intro b b1 h
    simp only [List.foldl_cons] at h
    cases hg : g (some b) a with
    | none =>
      rw [hg, foldl_none_of_step g hnone] at h
      exact absurd h (by simp)
    | some b2 =>
      rw [hg] at h
      exact htrans _ _ _ (hstep a (List.mem_cons_self _ _) b b2 hg)
        (ih (fun a1 ha1 => hstep a1 (List.mem_cons_of_mem _ ha1)) b2 b1 h)

theorem Finalizes.fin_refl (w : Work) : Finalizes w w :=
  ⟨fun _ => rfl, fun _ h => h, [], by simp⟩

theorem Finalizes.fin_trans {a b c : Work} (h1 : Finalizes a b) (h2 : Finalizes b c) :
    Finalizes a c := by
  obtain ⟨ha, hb, X, hX⟩ := h1
  obtain ⟨hc, hd, Y, hY⟩ := h2
  refine ⟨fun p => ?_, fun p h => hd p (hb p h), X ++ Y, by rw [hY, hX, List.append_assoc]⟩
  rw [hc p, ha p]

theorem maybeCancelAnimation_heap (s : State) (tag : Tag) :
    (maybeCancelAnimation s tag).heap = s.heap := by
  unfold maybeCancelAnimation
  split <;> rfl

theorem maybeCancelAnimation_node (s : State) (tag : Tag) (p : Ptr) :
    (maybeCancelAnimation s tag).node p = s.node p := by
  simp [State.node, maybeCancelAnimation_heap]

theorem endAnimationsRecursively_finalizes : ∀ (fuel : Nat) (node : Ptr) (w w1 : Work),
    endAnimationsRecursively fuel node w = some w1 →
    Finalizes w w1 ∧ (w1.1.node node).state = .DELETED ∧
    ∃ X, w1.2 = w.2 ++ X ++ [(w.1.node node).mutation,
      DeleteMutation (w.1.node node).mutation.oldChildShadowView] := by
  intro fuel
  induction fuel with
  | zero => intro node w w1 h; simp [endAnimationsRecursively] at h
  | succ fuel ih =>
    intro node w w1 h
    obtain ⟨s, m⟩ := w
    unfold endAnimationsRecursively at h
    simp only at h
    split at h
    · exact absurd h (by simp)
    · rename_i s3 m3 hfold
      simp only [Option.some.injEq] at h
      subst h
      -- the state after marking the node
      have hloop := foldl_some_invariant
        (fun (acc : Option Work) subNode =>
          match acc with
          | none => none
          | some w =>
            if (w.1.node subNode).state ≠ .DELETED then
              endAnimationsRecursively fuel subNode w
            else some w)
        (fun _ => rfl) Finalizes Finalizes.fin_refl (fun _ _ _ => Finalizes.fin_trans) _
        (fun a _ b b1 hb => by
          simp only at hb
          split at hb
          · exact (ih a b b1 hb).1
          · simp only [Option.some.injEq] at hb
            subst hb
            exact Finalizes.fin_refl b) _ _ hfold
      obtain ⟨hshape, hdel, X, hX⟩ := hloop
      simp only at hshape hdel hX
      have hnode0 : ∀ p, ((maybeCancelAnimation s (s.node node).tag).modifyNode node
          (fun n => { n with state := .DELETED })).node p
          = { s.node p with state := (((maybeCancelAnimation s (s.node node).tag).modifyNode node
          (fun n => { n with state := .DELETED })).node p).state } := by
        intro p
        by_cases hp : p = node
        · subst hp
          simp [State.modifyNode, State.setNode, State.node, maybeCancelAnimation_heap]
        · simp [State.modifyNode, State.setNode, State.node, maybeCancelAnimation_heap,
            Function.update_noteq hp]
      refine ⟨⟨?_, ?_, ?_⟩, ?_, ?_⟩
      · intro p
        have h1 := hshape p
        have h2 := hnode0 p
        simp only [State.node] at h1 h2 ⊢
        rw [h1, h2]
      · intro p hp
        apply hdel p
        by_cases hpn : p = node
        · subst hpn
          simp [State.modifyNode, State.setNode, State.node]
        · simpa [State.modifyNode, State.setNode, State.node, maybeCancelAnimation_heap,
            Function.update_noteq hpn] using hp
      · exact ⟨X ++ [(s3.node node).mutation,
          DeleteMutation (s3.node node).mutation.oldChildShadowView], by
            simp only [hX, List.append_assoc]⟩
      · apply hdel node
        simp [State.modifyNode, State.setNode, State.node]
      · refine ⟨X, ?_⟩
        have h1 := hshape node
        have h2 := hnode0 node
        have hmut : (s3.node node).mutation = (s.node node).mutation := by
          rw [h1, h2]
        simp only [hX, hmut]

theorem modifyNode_node_of_ne (s : State) (q p : Ptr) (f : Node → Node) (h : p ≠ q) :
    (s.modifyNode q f).node p = s.node p := by
  simp [State.modifyNode, State.setNode, State.node, Function.update_noteq h]

theorem modifyNode_node_self (s : State) (q : Ptr) (f : Node → Node) :
    (s.modifyNode q f).node q = f (s.node q) := by
  simp [State.modifyNode, State.setNode, State.node]

theorem modifyNode_state (s : State) (q p : Ptr) (f : Node → Node)
    (hf : ∀ n, (f n).state = n.state) :
    ((s.modifyNode q f).node p).state = (s.node p).state := by
  by_cases h : p = q
  · subst h; rw [modifyNode_node_self, hf]
  · rw [modifyNode_node_of_ne s q p f h]

theorem removeChildFromUnflattenedTree_state (s : State) (self child p : Ptr) :
    ((removeChildFromUnflattenedTree s self child).node p).state = (s.node p).state := by
  unfold removeChildFromUnflattenedTree
  simp only
  refine Eq.trans (modifyNode_state _ _ _ _ ?_) (modifyNode_state _ _ _ _ ?_) <;> intro n <;> rfl

theorem removeChildFromUnflattenedTree_nodeForTag (s : State) (self child : Ptr) :
    (removeChildFromUnflattenedTree s self child).nodeForTag = s.nodeForTag := by
  simp [removeChildFromUnflattenedTree, State.modifyNode, State.setNode]

theorem maybeDropAncestors_keeps : ∀ (fuel : Nat) (parent child : Ptr) (w w1 : Work),
    maybeDropAncestors fuel parent child w = some w1 →
    (∀ p, (w1.1.node p).state = (w.1.node p).state) ∧
    (∀ t, w.1.nodeForTag t = none → w1.1.nodeForTag t = none) ∧
    ∃ X, w1.2 = w.2 ++ X := by
  intro fuel
  induction fuel with
  | zero => intro parent child w w1 h; simp [maybeDropAncestors] at h
  | succ fuel ih =>
    intro parent child w w1 h
    obtain ⟨s, m⟩ := w
    unfold maybeDropAncestors at h
    simp only at h
    split at h
    · simp only [Option.some.injEq] at h
      subst h
      exact ⟨fun p => removeChildFromUnflattenedTree_state s parent child p,
        fun t ht => by simpa [removeChildFromUnflattenedTree_nodeForTag] using ht, [], by simp⟩
    · split at h
      · obtain ⟨h1, h2, X, hX⟩ := ih _ _ _ _ h
        refine ⟨fun p => ?_, fun t ht => ?_, ?_⟩
        · rw [h1 p]
          have := removeChildFromUnflattenedTree_state s parent child p
          simpa [State.node, maybeCancelAnimation_heap] using this
        · apply h2 t
          simp only [maybeCancelAnimation]
          split
          · simp only [removeChildFromUnflattenedTree_nodeForTag]
            by_cases htt : t = ((removeChildFromUnflattenedTree s parent child).node parent).tag
            · rw [htt]; simp
            · rw [Function.update_noteq htt]; exact ht
          · simp only [removeChildFromUnflattenedTree_nodeForTag]
            by_cases htt : t = ((removeChildFromUnflattenedTree s parent child).node parent).tag
            · rw [htt]; simp
            · rw [Function.update_noteq htt]; exact ht
        · exact ⟨[((removeChildFromUnflattenedTree s parent child).node parent).mutation,
            DeleteMutation ((removeChildFromUnflattenedTree s parent child).node
              parent).mutation.oldChildShadowView] ++ X, by rw [hX]; simp only [List.append_assoc]⟩
      · simp only [Option.some.injEq] at h
        subst h
        exact ⟨fun p => removeChildFromUnflattenedTree_state s parent child p,
          fun t ht => by simpa [removeChildFromUnflattenedTree_nodeForTag] using ht, [], by simp⟩


/-- What is left of a child list once the entry of `child` is dropped. -/
theorem removeChildFromUnflattenedTree_node (s : State) (self child p : Ptr) :
    (removeChildFromUnflattenedTree s self child).node p =
      { s.node p with
        unflattenedChildren := if p = self then eraseLastWithTag (fun q => (s.node q).tag) (s.node child).tag (s.node p).unflattenedChildren else (s.node p).unflattenedChildren,
        children := if p = (s.node child).parent then eraseLastWithTag (fun q => (s.node q).tag) (s.node child).tag (s.node p).children else (s.node p).children } := by
  unfold removeChildFromUnflattenedTree
  simp only
  by_cases h1 : p = (s.node child).parent
  · rw [h1, modifyNode_node_self]
    by_cases h2 : (s.node child).parent = self
    · rw [h2, modifyNode_node_self]; simp
    · rw [modifyNode_node_of_ne _ _ _ _ h2]; simp [h2]
  · rw [modifyNode_node_of_ne _ _ _ _ h1]
    by_cases h2 : p = self
    · rw [h2, modifyNode_node_self]
      have : ¬ self = (s.node child).parent := fun h => h1 (h2.trans h)
      simp [this]
    · rw [modifyNode_node_of_ne _ _ _ _ h2]; simp [h1, h2]

theorem maybeCancelAnimation_nodeForTag (s : State) (tag : Tag) :
    (maybeCancelAnimation s tag).nodeForTag = s.nodeForTag := by
  unfold maybeCancelAnimation
  split <;> rfl

theorem PrunableChain.congr (s s1 : State) (top : Ptr) : ∀ (chain : List Ptr) (child : Ptr),
    (∀ p ∈ chain, s1.node p = s.node p) → (s1.node child).parent = (s.node child).parent →
    PrunableChain s child chain top → PrunableChain s1 child chain top := by
  intro chain
  induction chain with
  | nil => intro child _ _ _; trivial
  | cons a rest ih =>
    intro child hsame hpar h
    obtain ⟨h1, h2, h3, h4, h5, h6⟩ := h
    have ha := hsame a (List.mem_cons_self _ _)
    refine ⟨by rw [ha]; exact h1, by rw [ha]; exact h2, by rw [ha]; exact h3,
      by rw [hpar]; exact h4, by rw [ha]; exact h5, ?_⟩
    exact ih a (fun p hp => hsame p (List.mem_cons_of_mem _ hp)) (by rw [ha]) h6

theorem chainDeletes_congr (s s1 : State) : ∀ (chain : List Ptr),
    (∀ p ∈ chain, s1.node p = s.node p) → chainDeletes s1 chain = chainDeletes s chain := by
  intro chain
  induction chain with
  | nil => intro _; rfl
  | cons a rest ih =>
    intro hsame
    simp only [chainDeletes, hsame a (List.mem_cons_self _ _),
      ih (fun p hp => hsame p (List.mem_cons_of_mem _ hp))]

/-- C7: ancestor pruning.  Along a chain of ancestors that are mutation nodes,
are not ANIMATING and are left without flattened children once the node below
them is detached, `maybeDropAncestors` deletes every ancestor in turn: it
emits the ancestor's Remove and Delete, purges its tag from the lookup table
and goes on with the ancestor's own parent; it stops, without emitting anything
more, at the first ancestor that is ANIMATING or is a plain node (the root of
the removed tree).  The recursion budget needed is the length of the chain
plus one. -/
theorem maybeDropAncestors_prunes_chain : ∀ (chain : List Ptr) (s : State)
    (m : ShadowViewMutationList) (child top : Ptr) (fuel : Nat),
    PrunableChain s child chain top →
    (child :: chain ++ [top]).Nodup →
    ((s.node top).isMutation = false ∨ (s.node top).state = .ANIMATING) →
    chain.length < fuel →
    ∃ s1, maybeDropAncestors fuel (chain.headD top) child (s, m)
        = some (s1, m ++ chainDeletes s chain) ∧
      (∀ a ∈ chain, s1.nodeForTag (s.node a).tag = none) ∧
      (∀ t, (∀ a ∈ chain, (s.node a).tag ≠ t) → s1.nodeForTag t = s.nodeForTag t) := by
  intro chain
  induction chain with
  | nil =>
    intro s m child top fuel _ _ htop hfuel
    obtain ⟨f, rfl⟩ : ∃ f, fuel = f + 1 := ⟨fuel - 1, by omega⟩
    refine ⟨removeChildFromUnflattenedTree s top child, ?_, ?_, ?_⟩
    · unfold maybeDropAncestors
      simp only [List.headD_nil, removeChildFromUnflattenedTree_node, chainDeletes,
        List.append_nil]
      rcases htop with h | h
      · simp [h]
      · simp [h]
    · intro a ha; simp at ha
    · intro t _; rw [removeChildFromUnflattenedTree_nodeForTag]
  | cons a rest ih =>
    intro s m child top fuel hchain hnodup htop hfuel
    obtain ⟨f, rfl⟩ : ∃ f, fuel = f + 1 := ⟨fuel - 1, by omega⟩
    obtain ⟨h1, h2, h3, h4, h5, h6⟩ := hchain
    rw [List.cons_append, List.nodup_cons] at hnodup
    obtain ⟨_, hnodup2⟩ := hnodup
    have hnodup3 := hnodup2
    rw [List.cons_append, List.nodup_cons] at hnodup3
    have harest : a ∉ rest := fun h => hnodup3.1 (List.mem_append_left _ h)
    have hatop : a ≠ top := fun h => hnodup3.1 (by simp [h])
    -- the node of the ancestor once the child is detached
    have hnode : (removeChildFromUnflattenedTree s a child).node a =
        { s.node a with
          unflattenedChildren := eraseLastWithTag (fun q => (s.node q).tag) (s.node child).tag (s.node a).unflattenedChildren,
          children := [] } := by
      rw [removeChildFromUnflattenedTree_node]
      simp [h4, h3, eraseLastWithTag]
    have hother : ∀ p, p ≠ a → (removeChildFromUnflattenedTree s a child).node p = s.node p := by
      intro p hp
      rw [removeChildFromUnflattenedTree_node]
      simp [hp, h4]
    -- the state handed to the recursive call
    obtain ⟨S3, hS3⟩ : ∃ S3, S3 = maybeCancelAnimation
        { removeChildFromUnflattenedTree s a child with
          nodeForTag := Function.update (removeChildFromUnflattenedTree s a child).nodeForTag
            (s.node a).tag none } (s.node a).tag := ⟨_, rfl⟩
    have hS3other : ∀ p, p ≠ a → S3.node p = s.node p := by
      intro p hp
      rw [hS3]
      simpa [State.node, maybeCancelAnimation_heap] using hother p hp
    have hS3rest : ∀ p ∈ rest, S3.node p = s.node p :=
      fun p hp => hS3other p (fun h => harest (h ▸ hp))
    have hS3parent : (S3.node a).parent = (s.node a).parent := by
      have := congrArg Node.parent hnode
      rw [hS3]
      simpa [State.node, maybeCancelAnimation_heap] using this
    have hS3table : S3.nodeForTag = Function.update s.nodeForTag (s.node a).tag none := by
      rw [hS3, maybeCancelAnimation_nodeForTag]
      simp [removeChildFromUnflattenedTree_nodeForTag]
    obtain ⟨s1, hrun, hpurged, hkept⟩ := ih S3
      (m ++ [(s.node a).mutation, DeleteMutation (s.node a).mutation.oldChildShadowView])
      a top f (PrunableChain.congr s S3 top rest a hS3rest hS3parent h6) hnodup2
      (by rw [hS3other top (fun h => hatop h.symm)]; exact htop) (by simpa using hfuel)
    rw [chainDeletes_congr s S3 rest hS3rest] at hrun
    refine ⟨s1, ?_, ?_, ?_⟩
    · unfold maybeDropAncestors
      simp only [List.headD_cons, hnode, h1, h2, Bool.not_true, Bool.false_eq_true, if_false,
        List.length_nil, ne_eq, not_false_eq_true, and_self, if_true, h5]
      rw [← hS3, hrun]
      simp [chainDeletes]
    · intro x hx
      rcases List.mem_cons.mp hx with rfl | hx
      · by_cases hdup : ∃ b ∈ rest, (s.node b).tag = (s.node x).tag
        · obtain ⟨b, hb, hbt⟩ := hdup
          have := hpurged b hb
          rw [hS3rest b hb, hbt] at this
          exact this
        · rw [hkept (s.node x).tag (fun b hb hbt => hdup ⟨b, hb, by rw [← hS3rest b hb]; exact hbt⟩),
            hS3table]
          simp
      · have := hpurged x hx
        rw [hS3rest x hx] at this
        exact this
    · intro t ht
      have hta : (s.node a).tag ≠ t := ht a (List.mem_cons_self _ _)
      rw [hkept t (fun b hb => by
        rw [hS3rest b hb]; exact ht b (List.mem_cons_of_mem _ hb)), hS3table]
      exact Function.update_noteq (Ne.symm hta) _ _



/-- Witness of C7: once the dead node 4 is finalized, pruning drops its ancestors
3 (tag 6) and 1 (tag 5) and stops at the plain node 2 of the root. -/
theorem maybeDropAncestors_prunes_chain_witness :
    ∃ s1, maybeDropAncestors 3 3 4 (finalizedLeafWork.1, finalizedLeafWork.2)
        = some (s1, finalizedLeafWork.2 ++
            [RemoveMutation 5 (sampleView 6) 0, DeleteMutation (sampleView 6),
             RemoveMutation 1 (sampleView 5) 0, DeleteMutation (sampleView 5)]) ∧
      s1.nodeForTag 6 = none ∧ s1.nodeForTag 5 = none := by
  obtain ⟨s1, h1, h2, _⟩ := maybeDropAncestors_prunes_chain [3, 1] finalizedLeafWork.1
    finalizedLeafWork.2 4 2 3
    ⟨by decide, by decide, by decide, by decide, by decide,
      by decide, by decide, by decide, by decide, by decide, trivial⟩
    (by decide) (Or.inl (by decide)) (by decide)
  exact ⟨s1, h1, h2 3 (by simp), h2 1 (by simp)⟩


theorem Ext.ext_refl (h : Ptr → Node) (n : Nat) : Ext h n h n :=
  ⟨le_refl _, fun _ _ => ⟨rfl, rfl, rfl⟩, fun _ _ => List.Sublist.refl _⟩

theorem Ext.ext_trans {h h1 h2 : Ptr → Node} {n n1 n2 : Nat} (a : Ext h n h1 n1)
    (b : Ext h1 n1 h2 n2) : Ext h n h2 n2 := by
  refine ⟨le_trans a.next b.next, fun p hp => ?_, fun p hp => ?_⟩
  · obtain ⟨a1, a2, a3⟩ := a.shape p hp
    obtain ⟨b1, b2, b3⟩ := b.shape p (lt_of_lt_of_le hp a.next)
    exact ⟨b1.trans a1, b2.trans a2, b3.trans a3⟩
  · exact (b.kids p (lt_of_lt_of_le hp a.next)).trans (a.kids p hp)

theorem Reach.reach_trans {h : Ptr → Node} {a b c : Ptr} (h1 : Reach h a b) (h2 : Reach h b c) :
    Reach h a c := by
  induction h1 with
  | refl => exact h2
  | step hc _ ih => exact Reach.step hc (ih h2)

theorem Reach.old {t : Tag} {h h1 : Ptr → Node} {n n1 : Nat} (hinv : RemInv t h n)
    (hext : Ext h n h1 n1) {p z : Ptr} (hr : Reach h1 p z) (hp : p < n) :
    Reach h p z ∧ z < n := by
  induction hr with
  | refl => exact ⟨Reach.refl _, hp⟩
  | step hc _ ih =>
    have hc1 := (hext.kids _ hp).subset hc
    obtain ⟨h2, h3⟩ := ih (hinv.kids _ hp _ hc1).2
    exact ⟨Reach.step hc1 h2, h3⟩

theorem IsT.isT_ext {t : Tag} {h h1 : Ptr → Node} {n n1 : Nat} (hext : Ext h n h1 n1) {p : Ptr}
    (hp : p < n) : IsT t h1 p ↔ IsT t h p := by
  obtain ⟨a1, a2, _⟩ := hext.shape p hp
  simp [IsT, a1, a2]

theorem Clean.clean_ext {t : Tag} {h h1 : Ptr → Node} {n n1 : Nat} (hinv : RemInv t h n)
    (hext : Ext h n h1 n1) {p : Ptr} (hp : p < n) (hc : Clean t h p) : Clean t h1 p := by
  intro z hz
  obtain ⟨h2, h3⟩ := Reach.old hinv hext hz hp
  rw [IsT.isT_ext hext h3]
  exact hc z h2

theorem Clean.child {t : Tag} {h : Ptr → Node} {p c : Ptr} (hc : Clean t h p)
    (hmem : c ∈ (h p).unflattenedChildren) : Clean t h c :=
  fun z hz => hc z (Reach.step hmem hz)

theorem Clean.of_children {t : Tag} {h : Ptr → Node} {p : Ptr} (hp : ¬ IsT t h p)
    (hc : ∀ d ∈ (h p).unflattenedChildren, Clean t h d) : Clean t h p := by
  intro z hz
  cases hz with
  | refl => exact hp
  | step hmem hr => exact hc _ hmem z hr

/-- Master rule for one step of the removal pass: old nodes keep their shape and
may lose children, a node of tag `t` stays MOVED, a node that becomes settled
was clean, and newly allocated nodes are plain, unsettled, with old mutation
nodes as children. -/
theorem RemInv.rem_step {t : Tag} {h h1 : Ptr → Node} {n n1 : Nat} (hinv : RemInv t h n)
    (hn : n ≤ n1)
    (hshape : ∀ p, p < n → (h1 p).isMutation = (h p).isMutation ∧
      (h1 p).mutation = (h p).mutation ∧ (h1 p).tag = (h p).tag)
    (hkids : ∀ p, p < n → (h1 p).unflattenedChildren.Sublist (h p).unflattenedChildren)
    (hmoved : ∀ p, p < n → IsT t h p → (h1 p).state = .MOVED)
    (hclean : ∀ p, p < n → Classified (h1 p).state → Classified (h p).state ∨ Clean t h p)
    (hnew : ∀ p, n ≤ p → p < n1 → (h1 p).isMutation = false ∧ ¬ Classified (h1 p).state ∧
      ∀ c ∈ (h1 p).unflattenedChildren, c < n ∧ (h c).isMutation = true) :
    RemInv t h1 n1 ∧ Ext h n h1 n1 := by
  have hext : Ext h n h1 n1 := ⟨hn, hshape, hkids⟩
  refine ⟨⟨?_, ?_, ?_, ?_, ?_⟩, hext⟩
  · intro p hp hm
    by_cases hpn : p < n
    · obtain ⟨a1, a2, _⟩ := hshape p hpn
      rw [a2]; exact hinv.typ p hpn (a1 ▸ hm)
    · rw [(hnew p (not_lt.mp hpn) hp).1] at hm; exact absurd hm (by simp)
  · intro p hp hT
    by_cases hpn : p < n
    · exact hmoved p hpn ((IsT.isT_ext hext hpn).mp hT)
    · rw [IsT, (hnew p (not_lt.mp hpn) hp).1] at hT; exact absurd hT.1 (by simp)
  · intro p hp hm
    by_cases hpn : p < n
    · obtain ⟨a1, a2, a3⟩ := hshape p hpn
      rw [a2, a3]; exact hinv.tagOld p hpn (a1 ▸ hm)
    · rw [(hnew p (not_lt.mp hpn) hp).1] at hm; exact absurd hm (by simp)
  · intro p hp c hc
    by_cases hpn : p < n
    · obtain ⟨b1, b2⟩ := hinv.kids p hpn c ((hkids p hpn).subset hc)
      exact ⟨by rw [(hshape c b2).1]; exact b1, lt_of_lt_of_le b2 hn⟩
    · obtain ⟨b1, b2⟩ := (hnew p (not_lt.mp hpn) hp).2.2 c hc
      exact ⟨by rw [(hshape c b1).1]; exact b2, lt_of_lt_of_le b1 hn⟩
  · intro p hp hcl
    by_cases hpn : p < n
    · rcases hclean p hpn hcl with hc | hc
      · exact Clean.clean_ext hinv hext hpn (hinv.clean p hpn hc)
      · exact Clean.clean_ext hinv hext hpn hc
    · exact absurd hcl (hnew p (not_lt.mp hpn) hp).2.1

theorem Reach.of_lists {h h0 : Ptr → Node}
    (hl : ∀ p, (h p).unflattenedChildren = (h0 p).unflattenedChildren) {a b : Ptr}
    (hr : Reach h a b) : Reach h0 a b := by
  induction hr with
  | refl => exact Reach.refl _
  | step hc _ ih => exact Reach.step (hl _ ▸ hc) ih

theorem Footprint.fp_refl (h0 : Ptr → Node) (root : Ptr) (w : Work) : Footprint h0 root w w :=
  fun hs => ⟨hs, rfl, rfl, fun _ hne => absurd rfl hne, [], by simp, by simp⟩

theorem Footprint.fp_trans {h0 : Ptr → Node} {root : Ptr} {a b c : Work}
    (h1 : Footprint h0 root a b) (h2 : Footprint h0 root b c) : Footprint h0 root a c := by
  intro hs
  obtain ⟨hs1, hn1, hd1, hc1, X, hX, hXm⟩ := h1 hs
  obtain ⟨hs2, hn2, hd2, hc2, Y, hY, hYm⟩ := h2 hs1
  refine ⟨hs2, hn2.trans hn1, hd2.trans hd1, fun p hne => ?_, X ++ Y,
    by rw [hY, hX, List.append_assoc], fun m hm => ?_⟩
  · by_cases h : (c.1.heap p).state = (b.1.heap p).state
    · rw [h] at hne ⊢
      exact hc1 p hne
    · exact hc2 p h
  · rcases List.mem_append.mp hm with hm | hm
    · exact hXm m hm
    · exact hYm m hm

theorem endAnimationsRecursively_footprint : ∀ (fuel : Nat) (node : Ptr) (w w1 : Work),
    endAnimationsRecursively fuel node w = some w1 → Footprint w.1.heap node w w1 := by
  intro fuel
  induction fuel with
  | zero => intro node w w1 h; simp [endAnimationsRecursively] at h
  | succ fuel ih =>
    intro node w w1 h
    obtain ⟨s, m⟩ := w
    unfold endAnimationsRecursively at h
    simp only at h
    split at h
    · exact absurd h (by simp)
    · rename_i s3 m3 hfold
      simp only [Option.some.injEq] at h
      subst h
      intro _
      -- the heap once the node is marked
      have hs2 : ∀ p, ((maybeCancelAnimation s (s.node node).tag).modifyNode node
          (fun n => { n with state := .DELETED })).heap p =
          { s.heap p with state := (((maybeCancelAnimation s (s.node node).tag).modifyNode node
          (fun n => { n with state := .DELETED })).heap p).state } := by
        intro p
        by_cases hp : p = node
        · subst hp
          simp [State.modifyNode, State.setNode, State.node, maybeCancelAnimation_heap]
        · simp [State.modifyNode, State.setNode, State.node, maybeCancelAnimation_heap,
            Function.update_noteq hp]
      have hlist : ((maybeCancelAnimation s (s.node node).tag).modifyNode node
          (fun n => { n with state := .DELETED })).node node =
          { s.heap node with state := .DELETED } := by
        simp [State.modifyNode, State.setNode, State.node, maybeCancelAnimation_heap]
      have hloop := foldl_some_invariant
        (fun (acc : Option Work) subNode =>
          match acc with
          | none => none
          | some w =>
            if (w.1.node subNode).state ≠ .DELETED then
              endAnimationsRecursively fuel subNode w
            else some w)
        (fun _ => rfl) (Footprint s.heap node) (Footprint.fp_refl _ _)
        (fun _ _ _ => Footprint.fp_trans) _
        (fun a ha b b1 hb => by
          simp only at hb
          split at hb
          · intro hsb
            obtain ⟨k1, k2, k3, k4, X, k5, k6⟩ := ih a b b1 hb (fun _ => rfl)
            have hmem : a ∈ (s.heap node).unflattenedChildren := by
              rw [hlist] at ha
              simpa using ha
            have hreach : ∀ z, Reach b.1.heap a z → Reach s.heap node z := fun z hz =>
              Reach.step hmem (Reach.of_lists (fun p => by rw [hsb p]) hz)
            refine ⟨fun p => ?_, k2, k3, fun p hne => ⟨hreach p (k4 p hne).1, (k4 p hne).2⟩,
              X, k5, fun m hm => ?_⟩
            · rw [k1 p, hsb p]
            · obtain ⟨z, hz, hm2⟩ := k6 m hm
              refine ⟨z, hreach z hz, ?_⟩
              rw [hsb z] at hm2
              exact hm2
          · simp only [Option.some.injEq] at hb
            subst hb
            exact Footprint.fp_refl _ _ b) _ _ hfold
      obtain ⟨k1, k2, k3, k4, X, k5, k6⟩ := hloop hs2
      simp only at k1 k2 k3 k4 k5
      refine ⟨fun p => ?_, ?_, ?_, fun p hne => ?_, X ++ [(s3.node node).mutation,
        DeleteMutation (s3.node node).mutation.oldChildShadowView], ?_, fun m hm => ?_⟩
      · exact k1 p
      · rw [k2]; simp [State.modifyNode, State.setNode, maybeCancelAnimation]
        split <;> rfl
      · rw [k3]; simp [State.modifyNode, State.setNode, maybeCancelAnimation]
        split <;> rfl
      · simp only at hne
        by_cases hp : p = node
        · subst hp
          refine ⟨Reach.refl _, ?_⟩
          by_contra hnd
          have := k4 p (fun h => hnd (by
            rw [h]
            simp [State.modifyNode, State.setNode, State.node]))
          exact hnd this.2
        · by_cases hch : (s3.heap p).state = (((maybeCancelAnimation s (s.node node).tag).modifyNode
            node (fun n => { n with state := .DELETED })).heap p).state
          · exfalso
            apply hne
            rw [hch]
            simp [State.modifyNode, State.setNode, State.node, maybeCancelAnimation_heap,
              Function.update_noteq hp]
          · exact k4 p hch
      · simp only [k5, List.append_assoc]
      · rcases List.mem_append.mp hm with hm | hm
        · exact k6 m hm
        · refine ⟨node, Reach.refl _, ?_⟩
          have hmut : (s3.node node).mutation = (s.heap node).mutation := by
            simp only [State.node]; rw [k1 node]
          simp only [List.mem_cons, List.mem_singleton, List.not_mem_nil, or_false] at hm
          rcases hm with rfl | rfl
          · exact Or.inl hmut
          · exact Or.inr (by rw [hmut])

theorem Clean.clean_reach {t : Tag} {h : Ptr → Node} {a b : Ptr} (hc : Clean t h a)
    (hr : Reach h a b) : Clean t h b :=
  fun z hz => hc z (hr.reach_trans hz)

theorem RemInv.rem_reach {t : Tag} {h : Ptr → Node} {n : Nat} (hinv : RemInv t h n) {a z : Ptr}
    (hr : Reach h a z) (ha : a < n) (hm : (h a).isMutation = true) :
    z < n ∧ (h z).isMutation = true := by
  induction hr with
  | refl => exact ⟨ha, hm⟩
  | step hc _ ih =>
    obtain ⟨h1, h2⟩ := hinv.kids _ ha _ hc
    exact ih h2 h1

theorem endAnimationsRecursively_inv {t : Tag} (fuel : Nat) (node : Ptr) (s s1 : State)
    (m m1 : ShadowViewMutationList) (hinv : RemInv t s.heap s.next) (hn : node < s.next)
    (hmut : (s.heap node).isMutation = true) (hclean : Clean t s.heap node)
    (h : endAnimationsRecursively fuel node (s, m) = some (s1, m1)) :
    RemInv t s1.heap s1.next ∧ Ext s.heap s.next s1.heap s1.next ∧
    s1.deadNodes = s.deadNodes ∧ ∃ X, m1 = m ++ X ∧ NoDel t X := by
  obtain ⟨k1, k2, k3, k4, X, k5, k6⟩ :=
    endAnimationsRecursively_footprint fuel node (s, m) (s1, m1) h (fun _ => rfl)
  simp only at k1 k2 k3 k4 k5 k6
  have hstep := @RemInv.rem_step t s.heap s1.heap s.next s1.next hinv (le_of_eq k2.symm)
    (fun p _ => by rw [k1 p]; exact ⟨rfl, rfl, rfl⟩)
    (fun p _ => by rw [k1 p])
    (fun p hp hT => by
      by_cases hch : (s1.heap p).state = (s.heap p).state
      · rw [hch]; exact hinv.moved p hp hT
      · exact absurd hT (hclean p (k4 p hch).1))
    (fun p hp hcl => by
      by_cases hch : (s1.heap p).state = (s.heap p).state
      · left; rw [← hch]; exact hcl
      · right; exact hclean.clean_reach (k4 p hch).1)
    (fun p hp1 hp2 => by rw [k2] at hp2; omega)
  refine ⟨hstep.1, hstep.2, k3, X, k5, fun x hx hdel => ?_⟩
  obtain ⟨z, hz, hx2⟩ := k6 x hx
  obtain ⟨hzn, hzm⟩ := hinv.rem_reach hz hn hmut
  rcases hx2 with rfl | rfl
  · rw [hinv.typ z hzn hzm] at hdel
    exact absurd hdel (by decide)
  · intro htag
    exact hclean z hz ⟨hzm, htag⟩

theorem eraseLastWithTag_sublist (tagOf : Ptr → Tag) (u : Tag) :
    ∀ l : List Ptr, (eraseLastWithTag tagOf u l).Sublist l := by
  intro l
  induction l with
  | nil => exact List.Sublist.refl _
  | cons p ps ih =>
    unfold eraseLastWithTag
    split
    · exact List.sublist_cons_self p ps
    · exact ih.cons₂ p

theorem eraseLastWithTag_countP_other (tagOf : Ptr → Tag) (u t : Tag) (hut : u ≠ t) :
    ∀ l : List Ptr, (eraseLastWithTag tagOf u l).countP (fun q => tagOf q = t) =
      l.countP (fun q => tagOf q = t) := by
  intro l
  induction l with
  | nil => rfl
  | cons p ps ih =>
    unfold eraseLastWithTag
    split
    · rename_i h
      have : ¬ tagOf p = t := fun h2 => hut (h.1.symm.trans h2)
      simp [List.countP_cons, this]
    · simp [List.countP_cons, ih]

theorem eraseLastWithTag_countP_same (tagOf : Ptr → Tag) (t : Tag) :
    ∀ l : List Ptr, (eraseLastWithTag tagOf t l).countP (fun q => tagOf q = t) =
      l.countP (fun q => tagOf q = t) - 1 := by
  intro l
  induction l with
  | nil => rfl
  | cons p ps ih =>
    unfold eraseLastWithTag
    split
    · rename_i h
      simp [List.countP_cons, h.1]
    · rename_i h
      by_cases hp : tagOf p = t
      · have hex : ∃ q ∈ ps, tagOf q = t := by
          by_contra hno
          exact h ⟨hp, fun q hq hqt => hno ⟨q, hq, hqt⟩⟩
        obtain ⟨q, hq, hqt⟩ := hex
        have hpos : 0 < ps.countP (fun q => tagOf q = t) :=
          List.countP_pos_iff.mpr ⟨q, hq, by simpa using hqt⟩
        simp only [List.countP_cons, ih, hp, decide_True, if_true]
        omega
      · simp [List.countP_cons, ih, hp]

/-- Erasing, for every tag of the list `us`, the last entry with that tag. -/
theorem foldl_eraseLastWithTag_countP (tagOf : Ptr → Tag) (t : Tag) :
    ∀ (us : List Ptr) (l : List Ptr),
      l.countP (fun q => tagOf q = t) ≤ us.countP (fun q => tagOf q = t) →
      (us.foldl (fun acc c => eraseLastWithTag tagOf (tagOf c) acc) l).countP
        (fun q => tagOf q = t) = 0 := by
  intro us
  induction us with
  | nil => intro l h; simpa using h
  | cons u us ih =>
    intro l h
    simp only [List.foldl_cons]
    apply ih
    by_cases hu : tagOf u = t
    · rw [hu, eraseLastWithTag_countP_same]
      simp only [List.countP_cons, hu, decide_True, if_true] at h
      omega
    · rw [eraseLastWithTag_countP_other tagOf (tagOf u) t hu]
      simpa [List.countP_cons, hu] using h

theorem foldl_eraseLastWithTag_sublist (tagOf : Ptr → Tag) :
    ∀ (us : List Ptr) (l : List Ptr),
      (us.foldl (fun acc c => eraseLastWithTag tagOf (tagOf c) acc) l).Sublist l := by
  intro us
  induction us with
  | nil => intro l; exact List.Sublist.refl _
  | cons u us ih =>
    intro l
    simp only [List.foldl_cons]
    exact (ih _).trans (eraseLastWithTag_sublist tagOf (tagOf u) l)

theorem removeChildFromUnflattenedTree_next (s : State) (self child : Ptr) :
    (removeChildFromUnflattenedTree s self child).next = s.next ∧
    (removeChildFromUnflattenedTree s self child).deadNodes = s.deadNodes := by
  simp [removeChildFromUnflattenedTree, State.modifyNode, State.setNode]

/-- The removal loop at the end of `startAnimationsRecursively`: nodes keep
everything but child lists, and the unflattened children of `node` lose, for
each removed child, the last entry with the tag of that child. -/
theorem foldl_removeChild (node : Ptr) : ∀ (tbr : List Ptr) (s : State),
    (∀ q, ((tbr.foldl (fun acc sub => removeChildFromUnflattenedTree acc node sub) s).heap q).tag
        = (s.heap q).tag ∧
      ((tbr.foldl (fun acc sub => removeChildFromUnflattenedTree acc node sub) s).heap
        q).isMutation = (s.heap q).isMutation ∧
      ((tbr.foldl (fun acc sub => removeChildFromUnflattenedTree acc node sub) s).heap
        q).mutation = (s.heap q).mutation ∧
      ((tbr.foldl (fun acc sub => removeChildFromUnflattenedTree acc node sub) s).heap
        q).state = (s.heap q).state ∧
      ((tbr.foldl (fun acc sub => removeChildFromUnflattenedTree acc node sub) s).heap
        q).unflattenedChildren.Sublist (s.heap q).unflattenedChildren) ∧
    (tbr.foldl (fun acc sub => removeChildFromUnflattenedTree acc node sub) s).next = s.next ∧
    (tbr.foldl (fun acc sub => removeChildFromUnflattenedTree acc node sub) s).deadNodes
      = s.deadNodes ∧
    ((tbr.foldl (fun acc sub => removeChildFromUnflattenedTree acc node sub) s).heap
      node).unflattenedChildren =
      tbr.foldl (fun acc c => eraseLastWithTag (fun q => (s.heap q).tag) ((s.heap c).tag) acc)
        (s.heap node).unflattenedChildren := by
  intro tbr
  induction tbr with
  | nil => intro s; exact ⟨fun q => ⟨rfl, rfl, rfl, rfl, List.Sublist.refl _⟩, rfl, rfl, rfl⟩
  | cons u us ih =>
    intro s
    simp only [List.foldl_cons]
    obtain ⟨h1, h2, h3, h4⟩ := ih (removeChildFromUnflattenedTree s node u)
    have hnode := removeChildFromUnflattenedTree_node s node u
    simp only [State.node] at hnode
    refine ⟨fun q => ?_, ?_, ?_, ?_⟩
    · obtain ⟨a1, a2, a3, a4, a5⟩ := h1 q
      refine ⟨?_, ?_, ?_, ?_, ?_⟩
      · rw [a1, hnode q]
      · rw [a2, hnode q]
      · rw [a3, hnode q]
      · rw [a4, hnode q]
      · refine a5.trans ?_
        rw [hnode q]
        simp only
        split
        · exact eraseLastWithTag_sublist _ _ _
        · exact List.Sublist.refl _
    · rw [h2]; exact (removeChildFromUnflattenedTree_next s node u).1
    · rw [h3]; exact (removeChildFromUnflattenedTree_next s node u).2
    · have htag2 : ∀ c, ((removeChildFromUnflattenedTree s node u).heap c).tag
          = (s.heap c).tag := fun c => by rw [hnode c]
      rw [h4]
      simp only [htag2]
      rw [hnode node]
      simp

theorem Keeps.keeps_trans {t : Tag} {a b c : State} (h1 : Keeps t a b) (h2 : Keeps t b c) :
    Keeps t a c :=
  ⟨h2.1, h1.2.1.ext_trans h2.2.1, h2.2.2.trans h1.2.2⟩

theorem Keeps.of_heap_eq {t : Tag} {s s1 : State} (hinv : RemInv t s.heap s.next)
    (hh : s1.heap = s.heap) (hn : s1.next = s.next) (hd : s1.deadNodes = s.deadNodes) :
    Keeps t s s1 := by
  refine ⟨by rw [hh, hn]; exact hinv, ?_, hd⟩
  rw [hh, hn]
  exact Ext.ext_refl _ _

theorem Keeps.keeps_refl {t : Tag} {s : State} (hinv : RemInv t s.heap s.next) : Keeps t s s :=
  Keeps.of_heap_eq hinv rfl rfl rfl

theorem Keeps.setState {t : Tag} {s : State} (hinv : RemInv t s.heap s.next) (p : Ptr)
    (st : ExitingState) (hmoved : IsT t s.heap p → st = .MOVED)
    (hclean : Classified st → Clean t s.heap p) :
    Keeps t s (s.modifyNode p (fun x => { x with state := st })) := by
  have hheap : ∀ q, (s.modifyNode p (fun x => { x with state := st })).heap q =
      { s.heap q with state := if q = p then st else (s.heap q).state } := by
    intro q
    by_cases hq : q = p
    · subst hq; simp [State.modifyNode, State.setNode, State.node]
    · simp [State.modifyNode, State.setNode, State.node, Function.update_noteq hq, hq]
  have hstep := @RemInv.rem_step t s.heap (s.modifyNode p (fun x => { x with state := st })).heap
    s.next s.next hinv (le_refl _)
    (fun q _ => by rw [hheap q]; exact ⟨rfl, rfl, rfl⟩)
    (fun q _ => by rw [hheap q])
    (fun q hq hT => by
      rw [hheap q]
      by_cases hqp : q = p
      · subst hqp; simpa using hmoved hT
      · simpa [hqp] using hinv.moved q hq hT)
    (fun q hq hcl => by
      rw [hheap q] at hcl
      by_cases hqp : q = p
      · subst hqp; right; exact hclean (by simpa using hcl)
      · left; simpa [hqp] using hcl)
    (fun q h1 h2 => by omega)
  exact ⟨hstep.1, hstep.2, rfl⟩

theorem Keeps.removeFold {t : Tag} {s : State} (hinv : RemInv t s.heap s.next) (node : Ptr)
    (tbr : List Ptr) :
    Keeps t s (tbr.foldl (fun acc sub => removeChildFromUnflattenedTree acc node sub) s) := by
  obtain ⟨h1, h2, h3, _⟩ := foldl_removeChild node tbr s
  have hstep := @RemInv.rem_step t s.heap
    (tbr.foldl (fun acc sub => removeChildFromUnflattenedTree acc node sub) s).heap
    s.next (tbr.foldl (fun acc sub => removeChildFromUnflattenedTree acc node sub) s).next
    hinv (le_of_eq h2.symm)
    (fun q _ => ⟨(h1 q).2.1, (h1 q).2.2.1, (h1 q).1⟩)
    (fun q _ => (h1 q).2.2.2.2)
    (fun q hq hT => by rw [(h1 q).2.2.2.1]; exact hinv.moved q hq hT)
    (fun q hq hcl => by left; rw [← (h1 q).2.2.2.1]; exact hcl)
    (fun q h1 h2' => by rw [h2] at h2'; omega)
  exact ⟨hstep.1, hstep.2, h3⟩

/-- A loop that rewrites the parent pointers of some nodes changes nothing else. -/
theorem foldl_modifyNode_harmless (f : Node → Node)
    (hf : ∀ x, (f x).tag = x.tag ∧ (f x).isMutation = x.isMutation ∧
      (f x).mutation = x.mutation ∧ (f x).state = x.state ∧
      (f x).unflattenedChildren = x.unflattenedChildren) :
    ∀ (l : List Ptr) (s : State),
      (∀ q, ((l.foldl (fun acc sub => acc.modifyNode sub f) s).heap q).tag = (s.heap q).tag ∧
        ((l.foldl (fun acc sub => acc.modifyNode sub f) s).heap q).isMutation
          = (s.heap q).isMutation ∧
        ((l.foldl (fun acc sub => acc.modifyNode sub f) s).heap q).mutation
          = (s.heap q).mutation ∧
        ((l.foldl (fun acc sub => acc.modifyNode sub f) s).heap q).state = (s.heap q).state ∧
        ((l.foldl (fun acc sub => acc.modifyNode sub f) s).heap q).unflattenedChildren
          = (s.heap q).unflattenedChildren) ∧
      (l.foldl (fun acc sub => acc.modifyNode sub f) s).next = s.next ∧
      (l.foldl (fun acc sub => acc.modifyNode sub f) s).deadNodes = s.deadNodes := by
  intro l
  induction l with
  | nil => intro s; exact ⟨fun q => ⟨rfl, rfl, rfl, rfl, rfl⟩, rfl, rfl⟩
  | cons u us ih =>
    intro s
    simp only [List.foldl_cons]
    obtain ⟨h1, h2, h3⟩ := ih (s.modifyNode u f)
    have hq : ∀ q, ((s.modifyNode u f).heap q).tag = (s.heap q).tag ∧
        ((s.modifyNode u f).heap q).isMutation = (s.heap q).isMutation ∧
        ((s.modifyNode u f).heap q).mutation = (s.heap q).mutation ∧
        ((s.modifyNode u f).heap q).state = (s.heap q).state ∧
        ((s.modifyNode u f).heap q).unflattenedChildren = (s.heap q).unflattenedChildren := by
      intro q
      by_cases hqu : q = u
      · subst hqu
        simpa [State.modifyNode, State.setNode, State.node] using hf (s.heap q)
      · simp [State.modifyNode, State.setNode, State.node, Function.update_noteq hqu]
    refine ⟨fun q => ?_, ?_, ?_⟩
    · obtain ⟨a1, a2, a3, a4, a5⟩ := h1 q
      obtain ⟨b1, b2, b3, b4, b5⟩ := hq q
      exact ⟨a1.trans b1, a2.trans b2, a3.trans b3, a4.trans b4, a5.trans b5⟩
    · rw [h2]; rfl
    · rw [h3]; rfl

/-- The replacement of a MOVED node by a plain node with the same children. -/
theorem Keeps.replacement {t : Tag} {s : State} (hinv : RemInv t s.heap s.next) (node : Ptr)
    (hnode : node < s.next) (cs : List Ptr) (s3 : State)
    (hs3 : s3 = (s.heap node).unflattenedChildren.foldl
      (fun acc sub => acc.modifyNode sub (fun x => { x with unflattenedParent := s.next }))
      (cs.foldl (fun acc sub => acc.modifyNode sub (fun x => { x with parent := s.next }))
        (s.alloc (replacementNode (s.heap node))).2)) :
    Keeps t s s3 := by
  obtain ⟨h1, h2, h3⟩ := foldl_modifyNode_harmless
    (fun x => { x with unflattenedParent := s.next }) (fun _ => ⟨rfl, rfl, rfl, rfl, rfl⟩)
    (s.heap node).unflattenedChildren
    (cs.foldl (fun acc sub => acc.modifyNode sub (fun x => { x with parent := s.next }))
        (s.alloc (replacementNode (s.heap node))).2)
  obtain ⟨k1, k2, k3⟩ := foldl_modifyNode_harmless
    (fun x => { x with parent := s.next }) (fun _ => ⟨rfl, rfl, rfl, rfl, rfl⟩) cs
    (s.alloc (replacementNode (s.heap node))).2
  rw [← hs3] at h1 h2 h3
  have hold : ∀ q, q ≠ s.next → (s3.heap q).tag = (s.heap q).tag ∧
      (s3.heap q).isMutation = (s.heap q).isMutation ∧
      (s3.heap q).mutation = (s.heap q).mutation ∧ (s3.heap q).state = (s.heap q).state ∧
      (s3.heap q).unflattenedChildren = (s.heap q).unflattenedChildren := by
    intro q hq
    obtain ⟨a1, a2, a3, a4, a5⟩ := h1 q
    obtain ⟨b1, b2, b3, b4, b5⟩ := k1 q
    have hal : (s.alloc (replacementNode (s.heap node))).2.heap q = s.heap q := by
      simp [State.alloc, Function.update_noteq hq]
    rw [hal] at b1 b2 b3 b4 b5
    exact ⟨a1.trans b1, a2.trans b2, a3.trans b3, a4.trans b4, a5.trans b5⟩
  have hnew : (s3.heap s.next).isMutation = false ∧ (s3.heap s.next).state = .UNDEFINED ∧
      (s3.heap s.next).unflattenedChildren = (s.heap node).unflattenedChildren := by
    obtain ⟨_, a2, _, a4, a5⟩ := h1 s.next
    obtain ⟨_, b2, _, b4, b5⟩ := k1 s.next
    have hal : (s.alloc (replacementNode (s.heap node))).2.heap s.next =
        replacementNode (s.heap node) := by
      simp [State.alloc]
    rw [hal] at b2 b4 b5
    exact ⟨a2.trans b2, a4.trans b4, a5.trans b5⟩
  have hnext : s3.next = s.next + 1 := by
    rw [h2, k2]; rfl
  have hstep := @RemInv.rem_step t s.heap s3.heap s.next s3.next hinv (by rw [hnext]; exact Nat.le_succ _)
    (fun q hq => by
      obtain ⟨a1, a2, a3, _, _⟩ := hold q (Nat.ne_of_lt hq)
      exact ⟨a2, a3, a1⟩)
    (fun q hq => by rw [(hold q (Nat.ne_of_lt hq)).2.2.2.2])
    (fun q hq hT => by rw [(hold q (Nat.ne_of_lt hq)).2.2.2.1]; exact hinv.moved q hq hT)
    (fun q hq hcl => by left; rw [← (hold q (Nat.ne_of_lt hq)).2.2.2.1]; exact hcl)
    (fun q hq1 hq2 => by
      have hq : q = s.next := by
        rw [hnext] at hq2
        exact Nat.le_antisymm (Nat.lt_succ_iff.mp hq2) hq1
      subst hq
      refine ⟨hnew.1, ?_, fun c hc => ?_⟩
      · rw [hnew.2.1]; simp [Classified]
      · rw [hnew.2.2] at hc
        obtain ⟨c1, c2⟩ := hinv.kids node hnode c hc
        exact ⟨c2, c1⟩)
  refine ⟨hstep.1, hstep.2, ?_⟩
  rw [h3, k3]; rfl

theorem RemInv.not_isT_of_state {t : Tag} {h : Ptr → Node} {n : Nat} (hinv : RemInv t h n)
    {p : Ptr} (hp : p < n) (hs : (h p).state ≠ .MOVED) : ¬ IsT t h p :=
  fun hT => hs (hinv.moved p hp hT)

theorem RemInv.isT_of_tag {t : Tag} {h : Ptr → Node} {n : Nat} (hinv : RemInv t h n)
    {p : Ptr} (hp : p < n) (hm : (h p).isMutation = true) (ht : (h p).tag = t) : IsT t h p :=
  ⟨hm, by rw [← hinv.tagOld p hp hm]; exact ht⟩

theorem NoDel.single_remove {t : Tag} {m : ShadowViewMutation} (h : m.type = .Remove) :
    NoDel t [m] := by
  intro x hx hdel
  simp only [List.mem_singleton] at hx
  subst hx
  rw [h] at hdel
  exact absurd hdel (by decide)

theorem NoDel.append {t : Tag} {X Y : ShadowViewMutationList} (hX : NoDel t X)
    (hY : NoDel t Y) : NoDel t (X ++ Y) := by
  intro x hx
  rcases List.mem_append.mp hx with h | h
  · exact hX x h
  · exact hY x h

theorem NoDel.pair {t : Tag} {n : Node} (h : n.mutation.type = .Remove)
    (ht : n.mutation.oldChildShadowView.tag ≠ t) :
    NoDel t [n.mutation, DeleteMutation n.mutation.oldChildShadowView] := by
  intro x hx hdel
  simp only [List.mem_cons, List.mem_singleton, List.not_mem_nil, or_false] at hx
  rcases hx with rfl | rfl
  · rw [h] at hdel; exact absurd hdel (by decide)
  · exact ht

/-- One round of the loop of `startAnimationsRecursively`, for recursive calls
that keep the invariant. -/
theorem startLoopStep_inv {t : Tag} (endRec : Ptr → Work → Option Work)
    (startRec : Ptr → Work → Option (Bool × Work)) (sa sr : Bool)
    (hEnd : ∀ c s m s1 m1, RemInv t s.heap s.next → c < s.next →
      (s.heap c).isMutation = true → Clean t s.heap c → endRec c (s, m) = some (s1, m1) →
      Keeps t s s1 ∧ ∃ X, m1 = m ++ X ∧ NoDel t X)
    (hStart : ∀ c s m r s1 m1, RemInv t s.heap s.next → c < s.next →
      (s.heap c).isMutation = true → startRec c (s, m) = some (r, s1, m1) →
      Keeps t s s1 ∧ (∃ X, m1 = m ++ X ∧ NoDel t X) ∧
      (∀ d ∈ (s1.heap c).unflattenedChildren, Clean t s1.heap d) ∧
      ((s1.heap c).state = .MOVED → r = false))
    (l l1 : StartLoop) (c : Ptr) (hinv : RemInv t l.s.heap l.s.next) (hc : c < l.s.next)
    (hm : (l.s.heap c).isMutation = true)
    (h : startLoopStep endRec startRec sa sr (some l) c = some l1) :
    Keeps t l.s l1.s ∧ (∃ X, l1.mutations = l.mutations ++ X ∧ NoDel t X) ∧
    (¬ IsT t l.s.heap c → Clean t l1.s.heap c) ∧
    ∃ extra, l1.toBeRemoved = l.toBeRemoved ++ extra ∧ (extra = [] ∨ extra = [c]) ∧
      ((l.s.heap c).tag = t → extra = [c]) := by
  unfold startLoopStep at h
  simp only [State.node] at h
  split at h
  · -- the child is settled already
    rename_i hcl
    have hclean : Clean t l.s.heap c := hinv.clean c hc hcl
    have hnotT : (l.s.heap c).tag ≠ t := fun ht =>
      hcl.2 (hinv.moved c hc (hinv.isT_of_tag hc hm ht))
    split at h
    · simp only [Option.some.injEq] at h
      subst h
      exact ⟨Keeps.keeps_refl hinv, ⟨[], by simp, by simp [NoDel]⟩, fun _ => hclean,
        [], by simp, Or.inl rfl, fun ht => absurd ht hnotT⟩
    · split at h
      · exact absurd h (by simp)
      · rename_i s1 m1 hend
        simp only [Option.some.injEq] at h
        subst h
        obtain ⟨hk, X, hX, hXd⟩ := hEnd c l.s l.mutations s1 m1 hinv hc hm hclean hend
        exact ⟨hk, ⟨X, hX, hXd⟩, fun _ => Clean.clean_ext hinv hk.2.1 hc hclean,
          [c], rfl, Or.inr rfl, fun _ => rfl⟩
  · split at h
    · exact absurd h (by simp)
    · -- the recursive call answers true
      rename_i s1 m1 hrec
      simp only [Option.some.injEq] at h
      subst h
      obtain ⟨hk, hX, hpost, hret⟩ := hStart c l.s l.mutations true s1 m1 hinv hc hm hrec
      have hc1 : c < s1.next := lt_of_lt_of_le hc hk.2.1.next
      refine ⟨hk, hX, fun hnT => ?_, [], by simp, Or.inl rfl, fun ht => ?_⟩
      · exact Clean.of_children (fun hT => hnT ((IsT.isT_ext hk.2.1 hc).mp hT)) hpost
      · have hT : IsT t s1.heap c := (IsT.isT_ext hk.2.1 hc).mpr (hinv.isT_of_tag hc hm ht)
        exact absurd (hret (hk.1.moved c hc1 hT)) (by simp)
    · -- the recursive call answers false
      rename_i s1 m1 hrec
      obtain ⟨hk, ⟨X, hX, hXd⟩, hpost, _⟩ :=
        hStart c l.s l.mutations false s1 m1 hinv hc hm hrec
      have hc1 : c < s1.next := lt_of_lt_of_le hc hk.2.1.next
      have hm1 : (s1.heap c).isMutation = true := by rw [(hk.2.1.shape c hc).1]; exact hm
      have hcleanOf : ¬ IsT t s1.heap c → Clean t s1.heap c :=
        fun hnT => Clean.of_children hnT hpost
      split at h
      · -- a moved child is passed through
        simp only [Option.some.injEq] at h
        subst h
        refine ⟨hk, ⟨X ++ [(s1.heap c).mutation], by simp [hX],
          hXd.append (NoDel.single_remove (hk.1.typ c hc1 hm1))⟩,
          fun hnT => hcleanOf (fun hT => hnT ((IsT.isT_ext hk.2.1 hc).mp hT)),
          [c], rfl, Or.inr rfl, fun _ => rfl⟩
      · rename_i hnm
        have hnT : ¬ IsT t s1.heap c := hk.1.not_isT_of_state hc1 hnm
        have hold : (s1.heap c).mutation.oldChildShadowView.tag ≠ t :=
          fun ht => hnT ⟨hm1, ht⟩
        have htag : (l.s.heap c).tag ≠ t := fun ht =>
          hnT ((IsT.isT_ext hk.2.1 hc).mpr (hinv.isT_of_tag hc hm ht))
        split at h
        · -- the child is deleted at once
          simp only [Option.some.injEq] at h
          subst h
          have hk2 : Keeps t s1 (maybeCancelAnimation s1 (s1.heap c).tag) :=
            Keeps.of_heap_eq hk.1 (maybeCancelAnimation_heap _ _)
              (by unfold maybeCancelAnimation; split <;> rfl)
              (by unfold maybeCancelAnimation; split <;> rfl)
          have hnT2 : ¬ IsT t (maybeCancelAnimation s1 (s1.heap c).tag).heap c := by
            rw [maybeCancelAnimation_heap]; exact hnT
          have hk3 := Keeps.setState hk2.1 c .DELETED (fun hT => absurd hT hnT2)
            (fun _ => by rw [maybeCancelAnimation_heap]; exact hcleanOf hnT)
          have hk4 := hk.keeps_trans (hk2.keeps_trans hk3)
          refine ⟨⟨hk4.1, hk4.2.1, hk4.2.2⟩, ⟨X ++ [(s1.heap c).mutation,
            DeleteMutation (s1.heap c).mutation.oldChildShadowView], by simp [hX],
            hXd.append (NoDel.pair (hk.1.typ c hc1 hm1) hold)⟩, fun _ => ?_,
            [c], rfl, Or.inr rfl, fun _ => rfl⟩
          exact Clean.clean_ext hk.1 (hk2.keeps_trans hk3).2.1 hc1 (hcleanOf hnT)
        · -- the child waits
          simp only [Option.some.injEq] at h
          subst h
          have hk3 := Keeps.setState hk.1 c .WAITING (fun hT => absurd hT hnT)
            (fun _ => hcleanOf hnT)
          have hk4 := hk.keeps_trans hk3
          exact ⟨hk4, ⟨X, hX, hXd⟩, fun _ => Clean.clean_ext hk.1 hk3.2.1 hc1 (hcleanOf hnT),
            [], by simp, Or.inl rfl, fun ht => absurd ht htag⟩

/-- The loop of `startAnimationsRecursively` over the children `cs`, after the
children `done`: the invariant is kept, every child seen that is not a node of
tag `t` is clean, and every child seen with tag `t` is among the children to be
removed. -/
theorem startLoop_fold_inv {t : Tag} (s0 : State) (m0 : ShadowViewMutationList)
    (endRec : Ptr → Work → Option Work) (startRec : Ptr → Work → Option (Bool × Work))
    (sa sr : Bool)
    (hEnd : ∀ c s m s1 m1, RemInv t s.heap s.next → c < s.next →
      (s.heap c).isMutation = true → Clean t s.heap c → endRec c (s, m) = some (s1, m1) →
      Keeps t s s1 ∧ ∃ X, m1 = m ++ X ∧ NoDel t X)
    (hStart : ∀ c s m r s1 m1, RemInv t s.heap s.next → c < s.next →
      (s.heap c).isMutation = true → startRec c (s, m) = some (r, s1, m1) →
      Keeps t s s1 ∧ (∃ X, m1 = m ++ X ∧ NoDel t X) ∧
      (∀ d ∈ (s1.heap c).unflattenedChildren, Clean t s1.heap d) ∧
      ((s1.heap c).state = .MOVED → r = false))
    (_hinv0 : RemInv t s0.heap s0.next) :
    ∀ (cs done : List Ptr) (l l1 : StartLoop),
      Keeps t s0 l.s → (∃ X, l.mutations = m0 ++ X ∧ NoDel t X) →
      (∀ c ∈ done, c < s0.next ∧ (¬ IsT t s0.heap c → Clean t l.s.heap c)) →
      (∀ c ∈ l.toBeRemoved, c < s0.next) →
      done.countP (fun q => (s0.heap q).tag = t) ≤
        l.toBeRemoved.countP (fun q => (s0.heap q).tag = t) →
      (∀ c ∈ cs, c < s0.next ∧ (s0.heap c).isMutation = true) →
      cs.foldl (startLoopStep endRec startRec sa sr) (some l) = some l1 →
      Keeps t s0 l1.s ∧ (∃ X, l1.mutations = m0 ++ X ∧ NoDel t X) ∧
      (∀ c ∈ done ++ cs, c < s0.next ∧ (¬ IsT t s0.heap c → Clean t l1.s.heap c)) ∧
      (∀ c ∈ l1.toBeRemoved, c < s0.next) ∧
      (done ++ cs).countP (fun q => (s0.heap q).tag = t) ≤
        l1.toBeRemoved.countP (fun q => (s0.heap q).tag = t) := by
  intro cs
  induction cs with
  | nil =>
    intro done l l1 hk hX hdone htbr hcount _ h
    simp only [List.foldl_nil, Option.some.injEq] at h
    subst h
    simpa using ⟨hk, hX, hdone, htbr, hcount⟩
  | cons c cs ih =>
    intro done l l1 hk hX hdone htbr hcount hcs h
    simp only [List.foldl_cons] at h
    cases hstep : startLoopStep endRec startRec sa sr (some l) c with
    | none =>
      rw [hstep, foldl_none_of_step _ (fun _ => rfl)] at h
      exact absurd h (by simp)
    | some l2 =>
      rw [hstep] at h
      obtain ⟨hc0, hm0⟩ := hcs c (List.mem_cons_self _ _)
      have hc : c < l.s.next := lt_of_lt_of_le hc0 hk.2.1.next
      have hm : (l.s.heap c).isMutation = true := by rw [(hk.2.1.shape c hc0).1]; exact hm0
      obtain ⟨hk2, ⟨Y, hY, hYd⟩, hcl, extra, hex, hex2, hex3⟩ :=
        startLoopStep_inv endRec startRec sa sr hEnd hStart l l2 c hk.1 hc hm hstep
      obtain ⟨X, hXe, hXd⟩ := hX
      have hres := ih (done ++ [c]) l2 l1 (hk.keeps_trans hk2)
        ⟨X ++ Y, by rw [hY, hXe, List.append_assoc], hXd.append hYd⟩
        (fun d hd => by
          rcases List.mem_append.mp hd with hd | hd
          · obtain ⟨h1, h2⟩ := hdone d hd
            exact ⟨h1, fun hnT =>
              Clean.clean_ext hk.1 hk2.2.1 (lt_of_lt_of_le h1 hk.2.1.next) (h2 hnT)⟩
          · simp only [List.mem_singleton] at hd
            subst hd
            exact ⟨hc0, fun hnT => hcl (fun hT => hnT ((IsT.isT_ext hk.2.1 hc0).mp hT))⟩)
        (fun d hd => by
          rw [hex] at hd
          rcases List.mem_append.mp hd with hd | hd
          · exact htbr d hd
          · rcases hex2 with he | he
            · rw [he] at hd; exact absurd hd (by simp)
            · rw [he] at hd
              simp only [List.mem_singleton] at hd
              subst hd; exact hc0)
        (by
          rw [hex, List.countP_append, List.countP_append]
          by_cases ht : (s0.heap c).tag = t
          · have : extra = [c] := hex3 (by rw [(hk.2.1.shape c hc0).2.2]; exact ht)
            rw [this]
            simp only [List.countP_cons, List.countP_nil, ht, decide_True, if_true]
            omega
          · simp only [List.countP_cons, List.countP_nil, ht, decide_False]
            simp only [Bool.false_eq_true, if_false]
            omega)
        (fun d hd => hcs d (List.mem_cons_of_mem _ hd)) h
      simpa [List.append_assoc] using hres

/-- The tail of `startAnimationsRecursively`: once the children to be removed
are detached, no node of tag `t` is left among the unflattened children of
the node and every child left is clean. -/
theorem startFinish_inv {t : Tag} (s0 : State) (m0 : ShadowViewMutationList) (node : Ptr)
    (hasExit : Bool) (l : StartLoop) (hinv0 : RemInv t s0.heap s0.next)
    (hnode : node < s0.next)
    (hk : Keeps t s0 l.s) (hX : ∃ X, l.mutations = m0 ++ X ∧ NoDel t X)
    (hdone : ∀ c ∈ (s0.heap node).unflattenedChildren,
      ¬ IsT t s0.heap c → Clean t l.s.heap c)
    (htbr : ∀ c ∈ l.toBeRemoved, c < s0.next)
    (hcount : (s0.heap node).unflattenedChildren.countP (fun q => (s0.heap q).tag = t) ≤
      l.toBeRemoved.countP (fun q => (s0.heap q).tag = t)) :
    Keeps t s0 (startFinish node hasExit l).2.1 ∧
    (∃ X, (startFinish node hasExit l).2.2 = m0 ++ X ∧ NoDel t X) ∧
    (∀ d ∈ ((startFinish node hasExit l).2.1.heap node).unflattenedChildren,
      Clean t (startFinish node hasExit l).2.1.heap d) ∧
    (((startFinish node hasExit l).2.1.heap node).state = .MOVED →
      (startFinish node hasExit l).1 = false) := by
  -- the state once the children are detached
  obtain ⟨S1, hS1⟩ : ∃ S1, S1 = l.toBeRemoved.foldl
    (fun acc subNode => removeChildFromUnflattenedTree acc node subNode) l.s := ⟨_, rfl⟩
  have hk1 : Keeps t l.s S1 := by rw [hS1]; exact Keeps.removeFold hk.1 node l.toBeRemoved
  have hk01 : Keeps t s0 S1 := hk.keeps_trans hk1
  have hnodeL : node < l.s.next := lt_of_lt_of_le hnode hk.2.1.next
  have hnode1 : node < S1.next := lt_of_lt_of_le hnodeL hk1.2.1.next
  have hlist : (S1.heap node).unflattenedChildren =
      l.toBeRemoved.foldl (fun acc c =>
        eraseLastWithTag (fun q => (l.s.heap q).tag) ((l.s.heap c).tag) acc)
        (l.s.heap node).unflattenedChildren := by
    rw [hS1]; exact (foldl_removeChild node l.toBeRemoved l.s).2.2.2
  have hsubL : (l.s.heap node).unflattenedChildren.Sublist (s0.heap node).unflattenedChildren :=
    hk.2.1.kids node hnode
  have hsub1 : (S1.heap node).unflattenedChildren.Sublist (l.s.heap node).unflattenedChildren := by
    rw [hlist]
    exact foldl_eraseLastWithTag_sublist (fun q => (l.s.heap q).tag) _ _
  -- counting the entries with tag t
  have htagL : ∀ q, q < s0.next → (l.s.heap q).tag = (s0.heap q).tag :=
    fun q hq => (hk.2.1.shape q hq).2.2
  have hmem0 : ∀ d ∈ (S1.heap node).unflattenedChildren,
      d ∈ (s0.heap node).unflattenedChildren := fun d hd => hsubL.subset (hsub1.subset hd)
  have hcnt : (S1.heap node).unflattenedChildren.countP (fun q => (l.s.heap q).tag = t) = 0 := by
    rw [hlist]
    apply foldl_eraseLastWithTag_countP (fun q => (l.s.heap q).tag) t
    calc (l.s.heap node).unflattenedChildren.countP (fun q => (l.s.heap q).tag = t)
        ≤ (s0.heap node).unflattenedChildren.countP (fun q => (l.s.heap q).tag = t) :=
          hsubL.countP_le _
      _ = (s0.heap node).unflattenedChildren.countP (fun q => (s0.heap q).tag = t) := by
          apply List.countP_congr
          intro q hq
          rw [htagL q (hinv0.kids node hnode q hq).2]
      _ ≤ l.toBeRemoved.countP (fun q => (s0.heap q).tag = t) := hcount
      _ = l.toBeRemoved.countP (fun q => (l.s.heap q).tag = t) := by
          apply List.countP_congr
          intro q hq
          rw [htagL q (htbr q hq)]
  have hclean1 : ∀ d ∈ (S1.heap node).unflattenedChildren, Clean t S1.heap d := by
    intro d hd
    have hd0 := hmem0 d hd
    obtain ⟨hdm, hdn⟩ := hinv0.kids node hnode d hd0
    have hnT : ¬ IsT t s0.heap d := by
      intro hT
      have htag : (l.s.heap d).tag = t := by
        rw [htagL d hdn, hinv0.tagOld d hdn hdm]; exact hT.2
      have hpos : 0 < (S1.heap node).unflattenedChildren.countP
          (fun q => (l.s.heap q).tag = t) :=
        List.countP_pos_iff.mpr ⟨d, hd, by simpa using htag⟩
      omega
    exact Clean.clean_ext hk.1 hk1.2.1 (lt_of_lt_of_le hdn hk.2.1.next) (hdone d hd0 hnT)
  unfold startFinish
  simp only [← hS1, State.node]
  split
  · -- the node was moved: a plain node takes its place
    rename_i hmoved
    have hk3 := Keeps.replacement hk01.1 node hnode1 (S1.heap node).children _ rfl
    have hk03 := hk01.keeps_trans hk3
    refine ⟨Keeps.keeps_trans hk03 (Keeps.of_heap_eq hk03.1 rfl rfl rfl), ?_, ?_, fun _ => rfl⟩
    · exact hX
    · intro d hd
      have hd1 : d ∈ (S1.heap node).unflattenedChildren :=
        (hk3.2.1.kids node hnode1).subset hd
      have hdn : d < S1.next := (hk01.1.kids node hnode1 d hd1).2
      exact Clean.clean_ext hk01.1 hk3.2.1 hdn (hclean1 d hd1)
  · rename_i hnotmoved
    have hnT : ¬ IsT t S1.heap node := hk01.1.not_isT_of_state hnode1 hnotmoved
    split
    · -- an exit animation starts
      have hk2 := Keeps.setState hk01.1 node .ANIMATING (fun hT => absurd hT hnT)
        (fun _ => Clean.of_children hnT hclean1)
      have hk02 := hk01.keeps_trans hk2
      refine ⟨Keeps.keeps_trans hk02 (Keeps.of_heap_eq hk02.1 rfl rfl rfl), hX, ?_, ?_⟩
      · intro d hd
        have hd1 : d ∈ (S1.heap node).unflattenedChildren :=
          (hk2.2.1.kids node hnode1).subset hd
        have hdn : d < S1.next := (hk01.1.kids node hnode1 d hd1).2
        exact Clean.clean_ext hk01.1 hk2.2.1 hdn (hclean1 d hd1)
      · intro hst
        simp [startExitingAnimation, State.schedule, State.modifyNode, State.setNode,
          State.node] at hst
    · refine ⟨Keeps.keeps_trans hk01 (Keeps.of_heap_eq hk01.1 rfl rfl rfl), hX, ?_, ?_⟩
      · intro d hd
        exact hclean1 d hd
      · intro hst
        exact absurd hst hnotmoved

/-- The removal pass over one node keeps the invariant for tag `t`: it emits no
Delete of tag `t`, leaves only clean children below the node, and answers false
for a node that is MOVED afterwards. -/
theorem startAnimationsRecursively_inv {t : Tag} (mgr : Manager) :
    ∀ (fuel : Nat) (node : Ptr) (a b c : Bool) (s : State) (m : ShadowViewMutationList)
      (r : Bool) (s1 : State) (m1 : ShadowViewMutationList),
      RemInv t s.heap s.next → node < s.next → (s.heap node).isMutation = true →
      startAnimationsRecursively mgr fuel node a b c (s, m) = some (r, s1, m1) →
      Keeps t s s1 ∧ (∃ X, m1 = m ++ X ∧ NoDel t X) ∧
      (∀ d ∈ (s1.heap node).unflattenedChildren, Clean t s1.heap d) ∧
      ((s1.heap node).state = .MOVED → r = false) := by
  intro fuel
  induction fuel with
  | zero => intro node a b c s m r s1 m1 _ _ _ h; simp [startAnimationsRecursively] at h
  | succ fuel ih =>
    intro node a b c s m r s1 m1 hinv hnode hmut h
    unfold startAnimationsRecursively at h
    simp only [State.node] at h
    split at h
    · exact absurd h (by simp)
    · rename_i l hfold
      simp only [Option.some.injEq] at h
      have hloop := startLoop_fold_inv s m _ _ _ _
        (fun c s m s1 m1 hi hc hm hcl he => by
          obtain ⟨h1, h2, h3, h4⟩ := endAnimationsRecursively_inv fuel c s s1 m m1 hi hc hm hcl he
          exact ⟨⟨h1, h2, h3⟩, h4⟩)
        (fun c s m r s1 m1 hi hc hm he => ih c _ _ _ s m r s1 m1 hi hc hm he)
        hinv (s.heap node).unflattenedChildren.reverse []
        { hasAnimatedChildren := false, toBeRemoved := [], s := s, mutations := m } l
        (Keeps.keeps_refl hinv) ⟨[], by simp, by simp [NoDel]⟩ (by simp) (by simp) (by simp)
        (fun c hc => by
          obtain ⟨h1, h2⟩ := hinv.kids node hnode c (List.mem_reverse.mp hc)
          exact ⟨h2, h1⟩)
        hfold
      obtain ⟨hk, hX, hdone, htbr, hcount⟩ := hloop
      simp only [List.nil_append] at hdone hcount
      obtain ⟨he, hhe⟩ : ∃ he, startFinish node he l = (r, s1, m1) := ⟨_, h⟩
      have hfin := startFinish_inv s m node he l hinv hnode hk hX
        (fun c hc => (hdone c (List.mem_reverse.mpr hc)).2) htbr
        (by rw [← List.countP_reverse]; exact hcount)
      rw [hhe] at hfin
      exact hfin

/-- The loop of `handleRemovals` over the roots keeps the invariant for tag `t` and
emits no Delete of tag `t`. -/
theorem handleRoots_inv {t : Tag} (mgr : Manager) (fuel : Nat) (roots : List Ptr)
    (s s1 : State) (m m1 : ShadowViewMutationList) (hinv : RemInv t s.heap s.next)
    (hroots : ∀ p ∈ roots, p < s.next ∧ (s.heap p).isMutation = true)
    (h : handleRoots mgr fuel roots (s, m) = some (s1, m1)) :
    Keeps t s s1 ∧ ∃ X, m1 = m ++ X ∧ NoDel t X := by
  unfold handleRoots at h
  have hloop := foldl_some_invariant
    (fun (acc : Option Work) node =>
      match acc with
      | none => none
      | some w0 =>
        match startAnimationsRecursively mgr fuel node true true false w0 with
        | none => none
        | some (true, w1) => some w1
        | some (false, s1, m1) =>
          let n := s1.node node
          let m2 := m1 ++ [n.mutation]
          let s2 := removeChildFromUnflattenedTree s1 n.unflattenedParent node
          let n2 := s2.node node
          if n2.state ≠ .MOVED then
            let s3 := maybeCancelAnimation s2 n2.tag
            some ({ s3 with nodeForTag := Function.update s3.nodeForTag n2.tag none },
                  m2 ++ [DeleteMutation n2.mutation.oldChildShadowView])
          else some (s2, m2))
    (fun _ => rfl)
    (fun w w1 => RemInv t w.1.heap w.1.next ∧ Ext s.heap s.next w.1.heap w.1.next →
      Keeps t w.1 w1.1 ∧ ∃ X, w1.2 = w.2 ++ X ∧ NoDel t X)
    (fun w hw => ⟨Keeps.keeps_refl hw.1, [], by simp, by simp [NoDel]⟩)
    (fun a b c hab hbc ha => by
      obtain ⟨k1, X, hX, hXd⟩ := hab ha
      obtain ⟨k2, Y, hY, hYd⟩ := hbc ⟨k1.1, ha.2.ext_trans k1.2.1⟩
      exact ⟨k1.keeps_trans k2, X ++ Y, by rw [hY, hX, List.append_assoc], hXd.append hYd⟩)
    roots.reverse
    (fun node hnode w w1 hstep hw => by
      obtain ⟨hp0, hm0⟩ := hroots node (List.mem_reverse.mp hnode)
      have hp : node < w.1.next := lt_of_lt_of_le hp0 hw.2.next
      have hm : (w.1.heap node).isMutation = true := by rw [(hw.2.shape node hp0).1]; exact hm0
      simp only [State.node] at hstep
      split at hstep
      · exact absurd hstep (by simp)
      · rename_i w2 hrec
        simp only [Option.some.injEq] at hstep
        subst hstep
        obtain ⟨k1, hX, _, _⟩ := startAnimationsRecursively_inv mgr fuel node true true false
          w.1 w.2 true w2.1 w2.2 hw.1 hp hm hrec
        exact ⟨k1, hX⟩
      · rename_i s2 m2 hrec
        obtain ⟨k1, ⟨X, hX, hXd⟩, _, _⟩ := startAnimationsRecursively_inv mgr fuel node true
          true false w.1 w.2 false s2 m2 hw.1 hp hm hrec
        have hp2 : node < s2.next := lt_of_lt_of_le hp k1.2.1.next
        have hm2 : (s2.heap node).isMutation = true := by rw [(k1.2.1.shape node hp).1]; exact hm
        have k2 : Keeps t s2 (removeChildFromUnflattenedTree s2
            (s2.heap node).unflattenedParent node) :=
          Keeps.removeFold k1.1 (s2.heap node).unflattenedParent [node]
        have hp3 : node < (removeChildFromUnflattenedTree s2
            (s2.heap node).unflattenedParent node).next := lt_of_lt_of_le hp2 k2.2.1.next
        have hshape := k2.2.1.shape node hp2
        split at hstep
        · rename_i hnm
          simp only [Option.some.injEq] at hstep
          subst hstep
          have hnT := k2.1.not_isT_of_state hp3 hnm
          have hold : ((removeChildFromUnflattenedTree s2 (s2.heap node).unflattenedParent
              node).heap node).mutation.oldChildShadowView.tag ≠ t :=
            fun ht => hnT ⟨by rw [hshape.1]; exact hm2, ht⟩
          have k3 : Keeps t (removeChildFromUnflattenedTree s2
              (s2.heap node).unflattenedParent node) _ :=
            Keeps.of_heap_eq k2.1 (maybeCancelAnimation_heap _
              ((removeChildFromUnflattenedTree s2 (s2.heap node).unflattenedParent
                node).heap node).tag)
              (by unfold maybeCancelAnimation; split <;> rfl)
              (by unfold maybeCancelAnimation; split <;> rfl)
          refine ⟨k1.keeps_trans (k2.keeps_trans ⟨k3.1, k3.2.1, k3.2.2⟩), X ++ ([(s2.heap node).mutation] ++
            [DeleteMutation ((removeChildFromUnflattenedTree s2
              (s2.heap node).unflattenedParent node).heap node).mutation.oldChildShadowView]),
            by simp [hX], hXd.append ((NoDel.single_remove (k1.1.typ node hp2 hm2)).append ?_)⟩
          intro x hx _
          simp only [List.mem_singleton] at hx
          subst hx
          exact hold
        · simp only [Option.some.injEq] at hstep
          subst hstep
          exact ⟨k1.keeps_trans k2, X ++ [(s2.heap node).mutation], by simp [hX],
            hXd.append (NoDel.single_remove (k1.1.typ node hp2 hm2))⟩)
    (s, m) (s1, m1) h
  exact hloop ⟨hinv, Ext.ext_refl _ _⟩

theorem ParseInv.remInv {t : Tag} {h : Ptr → Node} {n : Nat} (hp : ParseInv t h n) :
    RemInv t h n := by
  refine ⟨fun p hpn hm => ((hp p hpn).1 hm).1, fun p hpn hT => ((hp p hpn).1 hT.1).2.2 hT.2,
    fun p hpn hm => ((hp p hpn).1 hm).2.1, fun p hpn c hc => ?_, fun p hpn hcl => ?_⟩
  · obtain ⟨h1, h2⟩ := (hp p hpn).2.2 c hc
    exact ⟨h2, h1⟩
  · exact absurd hcl (hp p hpn).2.1

/-- Transfer of the parse invariant: old nodes keep kind, mutation, tag and state
and gain no unflattened child; the newly allocated nodes satisfy `NodeOK`. -/
theorem ParseInv.parse_step {t : Tag} {h h1 : Ptr → Node} {n n1 : Nat} (hp : ParseInv t h n)
    (hn : n ≤ n1)
    (hold : ∀ q, q < n → (h1 q).isMutation = (h q).isMutation ∧
      (h1 q).mutation = (h q).mutation ∧ (h1 q).tag = (h q).tag ∧
      (h1 q).state = (h q).state ∧
      ∀ c ∈ (h1 q).unflattenedChildren, c ∈ (h q).unflattenedChildren)
    (hnew : ∀ q, n ≤ q → q < n1 → NodeOK t (fun c => (h1 c).isMutation) n1 (h1 q)) :
    ParseInv t h1 n1 := by
  intro p hp1
  by_cases hpn : p < n
  · obtain ⟨a1, a2, a3, a4, a5⟩ := hold p hpn
    obtain ⟨b1, b2, b3⟩ := hp p hpn
    refine ⟨fun hm => ?_, ?_, fun c hc => ?_⟩
    · rw [a2, a3, a4]; exact b1 (a1 ▸ hm)
    · rw [a4]; exact b2
    · obtain ⟨c1, c2⟩ := b3 c (a5 c hc)
      exact ⟨lt_of_lt_of_le c1 hn, by simp only at c2 ⊢; rw [(hold c c1).1]; exact c2⟩
  · exact hnew p (not_lt.mp hpn) hp1

/-- One allocated node is replaced by a node of the same kind that satisfies `NodeOK`. -/
theorem ParseInv.update {t : Tag} {h : Ptr → Node} {n : Nat} (hp : ParseInv t h n)
    (p : Ptr) (x : Node) (hx : NodeOK t (fun c => (h c).isMutation) n x)
    (hkind : x.isMutation = (h p).isMutation) :
    ParseInv t (Function.update h p x) n := by
  have hmut : (fun c => (Function.update h p x c).isMutation) = fun c => (h c).isMutation := by
    funext c
    by_cases hc : c = p
    · subst hc; simp [hkind]
    · simp [Function.update_noteq hc]
  intro q hq
  rw [hmut]
  by_cases hqp : q = p
  · subst hqp; simpa using hx
  · rw [Function.update_noteq hqp]; exact hp q hq

theorem ValidNodes.valid_step {s s1 : State} {l : List Ptr} (hv : ValidNodes s l)
    (hn : s.next ≤ s1.next)
    (hkind : ∀ q, q < s.next → (s1.heap q).isMutation = (s.heap q).isMutation) :
    ValidNodes s1 l :=
  fun c hc => ⟨lt_of_lt_of_le (hv c hc).1 hn, by rw [hkind c (hv c hc).1]; exact (hv c hc).2⟩

theorem mem_mergeChildren (indexOf : Ptr → Int) : ∀ (fuel : Nat) (a b : List Ptr) (x : Ptr),
    x ∈ mergeChildren indexOf fuel a b → x ∈ a ∨ x ∈ b := by
  intro fuel
  induction fuel with
  | zero => intro a b x hx; simpa [mergeChildren] using hx
  | succ fuel ih =>
    intro a b x hx
    cases a with
    | nil => right; simpa [mergeChildren] using hx
    | cons y a =>
      cases b with
      | nil => left; simpa [mergeChildren] using hx
      | cons z b =>
        simp only [mergeChildren] at hx
        split at hx
        · rcases List.mem_cons.mp hx with rfl | hx
          · left; exact List.mem_cons_self _ _
          · rcases ih a (z :: b) x hx with h | h
            · left; exact List.mem_cons_of_mem _ h
            · right; exact h
        · rcases List.mem_cons.mp hx with rfl | hx
          · right; exact List.mem_cons_self _ _
          · rcases ih (y :: a) b x hx with h | h
            · left; exact h
            · right; exact List.mem_cons_of_mem _ h

theorem foldl_modifyNode_nodeForTag (f : Node → Node) : ∀ (l : List Ptr) (s : State),
    (l.foldl (fun acc sub => acc.modifyNode sub f) s).nodeForTag = s.nodeForTag := by
  intro l
  induction l with
  | nil => intro s; rfl
  | cons u us ih => intro s; simp only [List.foldl_cons]; rw [ih]; rfl

/-- What `makeMutationNode` builds: the new pointer is the next free one, old
nodes keep kind, mutation, tag and state and gain no child, and the new node is
an UNDEFINED mutation node holding the mutation, with the tag and the
unflattened children of the node it takes over (if any). -/
theorem makeMutationNode_spec (s : State) (mutation : ShadowViewMutation)
    (node : Option Ptr) :
    (makeMutationNode s mutation node).1 = s.next ∧
    (makeMutationNode s mutation node).2.next = s.next + 1 ∧
    (makeMutationNode s mutation node).2.deadNodes = s.deadNodes ∧
    (makeMutationNode s mutation node).2.nodeForTag = s.nodeForTag ∧
    (∀ q, q ≠ s.next →
      ((makeMutationNode s mutation node).2.heap q).isMutation = (s.heap q).isMutation ∧
      ((makeMutationNode s mutation node).2.heap q).mutation = (s.heap q).mutation ∧
      ((makeMutationNode s mutation node).2.heap q).tag = (s.heap q).tag ∧
      ((makeMutationNode s mutation node).2.heap q).state = (s.heap q).state ∧
      ∀ c ∈ ((makeMutationNode s mutation node).2.heap q).unflattenedChildren,
        c ∈ (s.heap q).unflattenedChildren) ∧
    ((makeMutationNode s mutation node).2.heap s.next).isMutation = true ∧
    ((makeMutationNode s mutation node).2.heap s.next).mutation = mutation ∧
    ((makeMutationNode s mutation node).2.heap s.next).state = .UNDEFINED ∧
    ((makeMutationNode s mutation node).2.heap s.next).tag =
      (match node with
        | none => mutation.oldChildShadowView.tag
        | some p => (s.heap p).tag) ∧
    (∀ c ∈ ((makeMutationNode s mutation node).2.heap s.next).unflattenedChildren,
      ∃ p, node = some p ∧ c ∈ (s.heap p).unflattenedChildren) := by
  cases node with
  | none =>
    refine ⟨rfl, rfl, rfl, rfl, fun q hq => ?_, ?_, ?_, ?_, ?_, ?_⟩
    · simp [makeMutationNode, State.alloc, Function.update_noteq hq]
    all_goals simp [makeMutationNode, State.alloc, plainNode]
  | some p =>
    obtain ⟨B, hB⟩ : ∃ B, B = ((s.modifyNode p (fun n =>
        { n with children := [], unflattenedChildren := [] })).alloc
        { plainNode (s.node p).tag with
          children := (s.node p).children, unflattenedChildren := (s.node p).unflattenedChildren,
          isMutation := true, mutation := mutation }).2 := ⟨_, rfl⟩
    obtain ⟨k1, k2, k3⟩ := foldl_modifyNode_harmless
      (fun x => { x with parent := s.next }) (fun _ => ⟨rfl, rfl, rfl, rfl, rfl⟩)
      (s.node p).children B
    obtain ⟨h1, h2, h3⟩ := foldl_modifyNode_harmless
      (fun x => { x with unflattenedParent := s.next }) (fun _ => ⟨rfl, rfl, rfl, rfl, rfl⟩)
      (s.node p).unflattenedChildren
      ((s.node p).children.foldl
        (fun acc sub => acc.modifyNode sub (fun x => { x with parent := s.next })) B)
    have hres : (makeMutationNode s mutation (some p)).2 =
        (s.node p).unflattenedChildren.foldl
          (fun acc sub => acc.modifyNode sub (fun x => { x with unflattenedParent := s.next }))
          ((s.node p).children.foldl
            (fun acc sub => acc.modifyNode sub (fun x => { x with parent := s.next })) B) := by
      rw [hB]; rfl
    have hBold : ∀ q, q ≠ s.next → (B.heap q).isMutation = (s.heap q).isMutation ∧
        (B.heap q).mutation = (s.heap q).mutation ∧ (B.heap q).tag = (s.heap q).tag ∧
        (B.heap q).state = (s.heap q).state ∧
        ∀ c ∈ (B.heap q).unflattenedChildren, c ∈ (s.heap q).unflattenedChildren := by
      intro q hq
      rw [hB]
      by_cases hqp : q = p
      · subst hqp
        simp [State.alloc, State.modifyNode, State.setNode, State.node, Function.update_noteq hq]
      · simp [State.alloc, State.modifyNode, State.setNode, State.node,
          Function.update_noteq hq, Function.update_noteq hqp]
    have hBnew : B.heap s.next = { plainNode (s.node p).tag with
          children := (s.node p).children, unflattenedChildren := (s.node p).unflattenedChildren,
          isMutation := true, mutation := mutation } := by
      rw [hB]
      simp [State.alloc, State.modifyNode, State.setNode]
    have hBnext : B.next = s.next + 1 ∧ B.deadNodes = s.deadNodes ∧
        B.nodeForTag = s.nodeForTag := by
      rw [hB]
      simp [State.alloc, State.modifyNode, State.setNode]
    rw [hres]
    refine ⟨rfl, by rw [h2, k2]; exact hBnext.1, by rw [h3, k3]; exact hBnext.2.1, ?_,
      fun q hq => ?_, ?_, ?_, ?_, ?_, ?_⟩
    · rw [foldl_modifyNode_nodeForTag, foldl_modifyNode_nodeForTag]; exact hBnext.2.2
    · obtain ⟨a1, a2, a3, a4, a5⟩ := h1 q
      obtain ⟨b1, b2, b3, b4, b5⟩ := k1 q
      obtain ⟨c1, c2, c3, c4, c5⟩ := hBold q hq
      exact ⟨a2.trans (b2.trans c1), a3.trans (b3.trans c2), a1.trans (b1.trans c3),
        a4.trans (b4.trans c4), fun c hc => c5 c (by rw [← b5, ← a5]; exact hc)⟩
    · rw [(h1 s.next).2.1, (k1 s.next).2.1, hBnew]
    · rw [(h1 s.next).2.2.1, (k1 s.next).2.2.1, hBnew]
    · rw [(h1 s.next).2.2.2.1, (k1 s.next).2.2.2.1, hBnew]; rfl
    · rw [(h1 s.next).1, (k1 s.next).1, hBnew]; rfl
    · intro c hc
      rw [(h1 s.next).2.2.2.2, (k1 s.next).2.2.2.2, hBnew] at hc
      exact ⟨p, rfl, hc⟩

theorem Grows.grows_refl (s : State) : Grows s s := ⟨le_refl _, fun _ _ => ⟨rfl, rfl⟩⟩

theorem Grows.grows_trans {a b c : State} (h1 : Grows a b) (h2 : Grows b c) : Grows a c :=
  ⟨le_trans h1.1 h2.1, fun q hq =>
    ⟨((h2.2 q (lt_of_lt_of_le hq h1.1)).1).trans (h1.2 q hq).1,
     ((h2.2 q (lt_of_lt_of_le hq h1.1)).2).trans (h1.2 q hq).2⟩⟩

theorem ValidNodes.grows {s s1 : State} {l : List Ptr} (hv : ValidNodes s l)
    (hg : Grows s s1) : ValidNodes s1 l :=
  hv.valid_step hg.1 (fun q hq => (hg.2 q hq).1)

/-- A modification that leaves kind, mutation, tag, state and unflattened
children of the node alone keeps the state invariant. -/
theorem PS.modifyHarmless {t : Tag} {s : State} (hs : PS t s) (p : Ptr) (f : Node → Node)
    (hf : ∀ x, (f x).tag = x.tag ∧ (f x).isMutation = x.isMutation ∧
      (f x).mutation = x.mutation ∧ (f x).state = x.state ∧
      (f x).unflattenedChildren = x.unflattenedChildren) :
    PS t (s.modifyNode p f) ∧ Grows s (s.modifyNode p f) := by
  have hq : ∀ q, ((s.modifyNode p f).heap q).tag = (s.heap q).tag ∧
      ((s.modifyNode p f).heap q).isMutation = (s.heap q).isMutation ∧
      ((s.modifyNode p f).heap q).mutation = (s.heap q).mutation ∧
      ((s.modifyNode p f).heap q).state = (s.heap q).state ∧
      ((s.modifyNode p f).heap q).unflattenedChildren = (s.heap q).unflattenedChildren := by
    intro q
    by_cases hqp : q = p
    · subst hqp
      simpa [State.modifyNode, State.setNode, State.node] using hf (s.heap q)
    · simp [State.modifyNode, State.setNode, State.node, Function.update_noteq hqp]
  refine ⟨⟨?_, ?_, hs.2.2⟩, le_refl _, fun q _ => ⟨(hq q).2.1, (hq q).1⟩⟩
  · exact @ParseInv.parse_step t s.heap (s.modifyNode p f).heap s.next s.next hs.1 (le_refl _)
      (fun q _ => ⟨(hq q).2.1, (hq q).2.2.1, (hq q).1, (hq q).2.2.2.1,
        fun c hc => by rw [← (hq q).2.2.2.2]; exact hc⟩)
      (fun q h1 h2 => absurd h2 (not_lt.mpr h1))
  · intro k q hk
    obtain ⟨h1, h2⟩ := hs.2.1 k q hk
    exact ⟨h1, by rw [(hq q).1]; exact h2⟩

/-- Loops of harmless modifications keep the state invariant. -/
theorem PS.foldlHarmless {t : Tag} (f : Ptr → Node → Node)
    (hf : ∀ u x, (f u x).tag = x.tag ∧ (f u x).isMutation = x.isMutation ∧
      (f u x).mutation = x.mutation ∧ (f u x).state = x.state ∧
      (f u x).unflattenedChildren = x.unflattenedChildren) :
    ∀ (l : List Ptr) (s : State), PS t s →
      PS t (l.foldl (fun acc sub => acc.modifyNode sub (f sub)) s) ∧
      Grows s (l.foldl (fun acc sub => acc.modifyNode sub (f sub)) s) := by
  intro l
  induction l with
  | nil => intro s hs; exact ⟨hs, Grows.grows_refl s⟩
  | cons u us ih =>
    intro s hs
    simp only [List.foldl_cons]
    obtain ⟨h1, h2⟩ := hs.modifyHarmless u (f u) (hf u)
    obtain ⟨h3, h4⟩ := ih _ h1
    exact ⟨h3, h2.grows_trans h4⟩

/-- A table entry for an allocated node with the right tag keeps the state invariant. -/
theorem PS.setTable {t : Tag} {s : State} (hs : PS t s) (k : Tag) (p : Ptr)
    (hp : p < s.next) (htag : (s.heap p).tag = k) :
    PS t { s with nodeForTag := Function.update s.nodeForTag k (some p) } := by
  refine ⟨hs.1, fun k1 q hk => ?_, hs.2.2⟩
  simp only at hk
  by_cases hkk : k1 = k
  · subst hkk
    simp only [Function.update_same, Option.some.injEq] at hk
    subst hk
    exact ⟨hp, htag⟩
  · rw [Function.update_noteq hkk] at hk
    exact hs.2.1 k1 q hk

/-- Allocation of a plain placeholder node keeps the state invariant. -/
theorem PS.allocPlain {t : Tag} {s : State} (hs : PS t s) (tag : Tag) :
    PS t (s.alloc (plainNode tag)).2 ∧ Grows s (s.alloc (plainNode tag)).2 ∧
    (s.alloc (plainNode tag)).1 = s.next ∧ (s.alloc (plainNode tag)).2.next = s.next + 1 ∧
    ((s.alloc (plainNode tag)).2.heap s.next).tag = tag := by
  have hold : ∀ q, q < s.next → (s.alloc (plainNode tag)).2.heap q = s.heap q := by
    intro q hq
    simp [State.alloc, Function.update_noteq (Nat.ne_of_lt hq)]
  have hnew : (s.alloc (plainNode tag)).2.heap s.next = plainNode tag := by
    simp [State.alloc]
  refine ⟨⟨?_, ?_, hs.2.2⟩, ⟨Nat.le_succ _, fun q hq => by rw [hold q hq]; exact ⟨rfl, rfl⟩⟩,
    rfl, rfl, by rw [hnew]; rfl⟩
  · exact @ParseInv.parse_step t s.heap (s.alloc (plainNode tag)).2.heap s.next (s.next + 1) hs.1
      (Nat.le_succ _)
      (fun q hq => by rw [hold q hq]; exact ⟨rfl, rfl, rfl, rfl, fun c hc => hc⟩)
      (fun q h1 h2 => by
        have hq : q = s.next := Nat.le_antisymm (Nat.lt_succ_iff.mp h2) h1
        subst hq
        rw [hnew]
        refine ⟨fun hm => by simp [plainNode] at hm, by simp [plainNode, Classified],
          fun c hc => by simp [plainNode] at hc⟩)
  · intro k q hk
    obtain ⟨h1, h2⟩ := hs.2.1 k q hk
    exact ⟨Nat.lt_succ_of_lt h1, by rw [hold q h1]; exact h2⟩

/-- The mutation node built for a Remove, once its state is set: the state
invariant holds again. -/
theorem PS.makeNode {t : Tag} {s : State} (hs : PS t s) (mu : ShadowViewMutation)
    (hty : mu.type = .Remove) (isMoved : Bool)
    (hmoved : mu.oldChildShadowView.tag = t → isMoved = true) (S1 : State)
    (hS1 : S1 = if isMoved then
        (makeMutationNode s mu (s.nodeForTag mu.oldChildShadowView.tag)).2.modifyNode
          (makeMutationNode s mu (s.nodeForTag mu.oldChildShadowView.tag)).1
          (fun x => { x with state := .MOVED })
      else (makeMutationNode s mu (s.nodeForTag mu.oldChildShadowView.tag)).2) :
    PS t S1 ∧ Grows s S1 ∧
    (makeMutationNode s mu (s.nodeForTag mu.oldChildShadowView.tag)).1 = s.next ∧
    S1.next = s.next + 1 ∧ (S1.heap s.next).isMutation = true ∧
    (S1.heap s.next).tag = mu.oldChildShadowView.tag ∧ S1.nodeForTag = s.nodeForTag := by
  obtain ⟨k1, k2, k3, k4, k5, k6, k7, k8, k9, k10⟩ :=
    makeMutationNode_spec s mu (s.nodeForTag mu.oldChildShadowView.tag)
  have hold : ∀ q, q ≠ s.next → S1.heap q =
      (makeMutationNode s mu (s.nodeForTag mu.oldChildShadowView.tag)).2.heap q := by
    intro q hq
    rw [hS1, k1]
    split
    · simp [State.modifyNode, State.setNode, Function.update_noteq hq]
    · rfl
  have hnew : S1.heap s.next =
      { (makeMutationNode s mu (s.nodeForTag mu.oldChildShadowView.tag)).2.heap s.next with
        state := if isMoved then .MOVED else .UNDEFINED } := by
    rw [hS1, k1]
    split
    · simp [State.modifyNode, State.setNode, State.node]
    · rename_i h
      simp only [h, Bool.false_eq_true, if_false]
      rw [← k8]
  have hnext : S1.next = s.next + 1 := by
    rw [hS1]; split
    · simpa [State.modifyNode, State.setNode] using k2
    · exact k2
  have hdead : S1.deadNodes = s.deadNodes := by
    rw [hS1]; split
    · simpa [State.modifyNode, State.setNode] using k3
    · exact k3
  have htable : S1.nodeForTag = s.nodeForTag := by
    rw [hS1]; split
    · simpa [State.modifyNode, State.setNode] using k4
    · exact k4
  have htag : (S1.heap s.next).tag = mu.oldChildShadowView.tag := by
    rw [hnew]
    simp only
    rw [k9]
    cases hn : s.nodeForTag mu.oldChildShadowView.tag with
    | none => rfl
    | some p => exact (hs.2.1 _ p hn).2
  have hkind : ∀ q, q < s.next → (S1.heap q).isMutation = (s.heap q).isMutation := by
    intro q hq
    rw [hold q (Nat.ne_of_lt hq)]
    exact (k5 q (Nat.ne_of_lt hq)).1
  refine ⟨⟨?_, ?_, by rw [hdead]; exact hs.2.2⟩, ⟨by rw [hnext]; exact Nat.le_succ _,
    fun q hq => ⟨hkind q hq, by
      rw [hold q (Nat.ne_of_lt hq)]; exact (k5 q (Nat.ne_of_lt hq)).2.2.1⟩⟩,
    k1, hnext, by rw [hnew]; exact k6, htag, htable⟩
  · rw [hnext]
    refine @ParseInv.parse_step t s.heap S1.heap s.next (s.next + 1) hs.1 (Nat.le_succ _)
      (fun q hq => by
        rw [hold q (Nat.ne_of_lt hq)]
        obtain ⟨a1, a2, a3, a4, a5⟩ := k5 q (Nat.ne_of_lt hq)
        exact ⟨a1, a2, a3, a4, a5⟩)
      (fun q h1 h2 => ?_)
    have hq : q = s.next := Nat.le_antisymm (Nat.lt_succ_iff.mp h2) h1
    subst hq
    refine ⟨fun _ => ⟨?_, ?_, fun ht => ?_⟩, ?_, fun c hc => ?_⟩
    · rw [hnew]; simp only; rw [k7]; exact hty
    · rw [htag, hnew]; simp only; rw [k7]
    · rw [hnew] at ht ⊢
      simp only at ht ⊢
      rw [k7] at ht
      rw [hmoved ht]; rfl
    · rw [hnew]
      simp only [Classified]
      cases isMoved <;> simp
    · rw [hnew] at hc
      simp only at hc
      obtain ⟨p, hp, hcp⟩ := k10 c hc
      obtain ⟨hpn, _⟩ := hs.2.1 _ p hp
      obtain ⟨c1, c2⟩ := (hs.1 p hpn).2.2 c hcp
      exact ⟨Nat.lt_succ_of_lt c1, by simp only at c2 ⊢; rw [hkind c c1]; exact c2⟩
  · intro k q hk
    rw [htable] at hk
    obtain ⟨h1, h2⟩ := hs.2.1 k q hk
    refine ⟨by rw [hnext]; exact Nat.lt_succ_of_lt h1, ?_⟩
    rw [hold q (Nat.ne_of_lt h1), (k5 q (Nat.ne_of_lt h1)).2.2.1]
    exact h2

theorem mem_pushChild (k : Tag) (c : Ptr) : ∀ (l : List (Tag × List Ptr)),
    ∀ e ∈ pushChild k c l, ∀ x ∈ e.2, x = c ∨ ∃ e0 ∈ l, x ∈ e0.2 := by
  intro l
  induction l with
  | nil =>
    intro e he x hx
    simp only [pushChild, List.mem_singleton] at he
    subst he
    left; simpa using hx
  | cons e1 l ih =>
    intro e he x hx
    obtain ⟨k1, l1⟩ := e1
    simp only [pushChild] at he
    split at he
    · rcases List.mem_cons.mp he with rfl | he
      · rcases List.mem_append.mp hx with h | h
        · right; exact ⟨(k1, l1), List.mem_cons_self _ _, h⟩
        · left; simpa using h
      · right; exact ⟨e, List.mem_cons_of_mem _ he, hx⟩
    · rcases List.mem_cons.mp he with rfl | he
      · right; exact ⟨(k1, l1), List.mem_cons_self _ _, hx⟩
      · rcases ih e he x hx with h | ⟨e0, he0, h⟩
        · left; exact h
        · right; exact ⟨e0, List.mem_cons_of_mem _ he0, h⟩

/-- The scan of one Remove keeps the parse invariant and builds a node with the
tag of the removed view. -/
theorem parseRemove_inv {t : Tag} (a : ParseAcc) (m0 : ShadowViewMutation) (hP : PInv t a)
    (hty : m0.type = .Remove) :
    PInv t (parseRemove a m0) ∧ Grows a.s (parseRemove a m0).s ∧
    (∃ p ∈ (parseRemove a m0).mutationNodes,
      ((parseRemove a m0).s.heap p).tag = m0.oldChildShadowView.tag) ∧
    (∀ p ∈ a.mutationNodes, p ∈ (parseRemove a m0).mutationNodes) := by
  have hmu := updateIndexForMutation_fields a.s m0
  obtain ⟨mu, hmudef⟩ : ∃ mu, mu = updateIndexForMutation a.s m0 := ⟨_, rfl⟩
  rw [← hmudef] at hmu
  have hmuty : mu.type = .Remove := by rw [hmu]; exact hty
  have hmuold : mu.oldChildShadowView = m0.oldChildShadowView := by rw [hmu]
  obtain ⟨tg, htg⟩ : ∃ tg, tg = mu.oldChildShadowView.tag := ⟨_, rfl⟩
  obtain ⟨mk, hmkdef⟩ : ∃ mk, mk = makeMutationNode a.s mu (a.s.nodeForTag tg) := ⟨_, rfl⟩
  obtain ⟨S1, hS1⟩ : ∃ S1, S1 =
      if (!a.deletedViews.contains tg) then
        mk.2.modifyNode mk.1 (fun x => { x with state := .MOVED })
      else mk.2 := ⟨_, rfl⟩
  obtain ⟨p1, g1, hmk, hn1, hmut1, htag1, htab1⟩ := hP.ps.makeNode mu hmuty
    (!a.deletedViews.contains tg)
    (fun ht => by
      rw [htg, ht]
      simpa using hP.del) S1 (by rw [hS1, hmkdef, htg])
  rw [← htg, ← hmkdef] at hmk
  rw [← htg] at htag1
  -- the table entry of the tag
  obtain ⟨S2, hS2⟩ : ∃ S2 : State,
      S2 = { S1 with nodeForTag := Function.update S1.nodeForTag tg (some a.s.next) } := ⟨_, rfl⟩
  have p2 : PS t S2 := by
    rw [hS2]
    exact p1.setTable _ a.s.next (by rw [hn1]; exact Nat.lt_succ_self _) htag1
  have g2 : Grows S1 S2 := by rw [hS2]; exact ⟨le_refl _, fun _ _ => ⟨rfl, rfl⟩⟩
  -- the parent
  obtain ⟨al, hal⟩ : ∃ al, al = S2.alloc (plainNode mu.parentTag) := ⟨_, rfl⟩
  obtain ⟨S2b, hS2b⟩ : ∃ S2b : State, S2b =
      { al.2 with nodeForTag := Function.update al.2.nodeForTag mu.parentTag (some al.1) } :=
    ⟨_, rfl⟩
  obtain ⟨PR, hPR⟩ : ∃ PR : Ptr × State, PR =
      (match a.s.nodeForTag mu.parentTag with
        | some p => (p, S2)
        | none => (al.1, S2b)) := ⟨_, rfl⟩
  have p3 : PS t PR.2 ∧ Grows S2 PR.2 := by
    rw [hPR]
    cases a.s.nodeForTag mu.parentTag with
    | some p => exact ⟨p2, Grows.grows_refl _⟩
    | none =>
      obtain ⟨q1, q2, q3, q4, q5⟩ := p2.allocPlain mu.parentTag
      rw [← hal] at q1 q2 q3 q4 q5
      refine ⟨?_, ?_⟩
      · simp only
        rw [hS2b, q3]
        exact q1.setTable _ S2.next (by rw [q4]; exact Nat.lt_succ_self _) q5
      · simp only
        rw [hS2b]
        exact ⟨q2.1, q2.2⟩
  obtain ⟨up, hup⟩ : ∃ up : Ptr, up =
      (match a.s.nodeForTag mu.parentTag with
        | some u => u
        | none => PR.1) := ⟨_, rfl⟩
  obtain ⟨p4, g4⟩ := p3.1.modifyHarmless a.s.next
    (fun x => { x with parent := PR.1, unflattenedParent := up })
    (fun _ => ⟨rfl, rfl, rfl, rfl, rfl⟩)
  have gall := g1.grows_trans (g2.grows_trans (p3.2.grows_trans g4))
  have hres : (parseRemove a m0).s = PR.2.modifyNode a.s.next
      (fun x => { x with parent := PR.1, unflattenedParent := up }) := by
    rw [hup, hPR, hS2b, hal, hS2, hS1, ← hmk, hmkdef, htg, hmudef]
    simp only [parseRemove]
  have hnodes : (parseRemove a m0).mutationNodes = a.mutationNodes ++ [a.s.next] := by
    rw [← hmk, hmkdef, htg, hmudef]
    simp only [parseRemove]
  have hlists : (parseRemove a m0).unflattenedChildrenForTag =
      pushChild mu.parentTag a.s.next a.unflattenedChildrenForTag := by
    rw [← hmk, hmkdef, htg, hmudef]
    simp only [parseRemove]
  have hdel : (parseRemove a m0).deletedViews = a.deletedViews := rfl
  have hvalid : a.s.next < (parseRemove a m0).s.next ∧
      ((parseRemove a m0).s.heap a.s.next).isMutation = true ∧
      ((parseRemove a m0).s.heap a.s.next).tag = m0.oldChildShadowView.tag := by
    rw [hres]
    have hlt : a.s.next < S1.next := by rw [hn1]; exact Nat.lt_succ_self _
    have g14 := g2.grows_trans (p3.2.grows_trans g4)
    refine ⟨lt_of_lt_of_le hlt g14.1, ?_, ?_⟩
    · rw [(g14.2 _ hlt).1]; exact hmut1
    · rw [(g14.2 _ hlt).2, htag1, htg, hmuold]
  refine ⟨⟨by rw [hres]; exact p4, ?_, ?_, by rw [hdel]; exact hP.del⟩,
    by rw [hres]; exact gall, ⟨a.s.next, by rw [hnodes]; simp, hvalid.2.2⟩,
    fun p hp => by rw [hnodes]; exact List.mem_append_left _ hp⟩
  · rw [hnodes]
    intro c hc
    rcases List.mem_append.mp hc with hc | hc
    · exact (hP.nodes.grows (by rw [hres]; exact gall)) c hc
    · simp only [List.mem_singleton] at hc
      subst hc
      exact ⟨hvalid.1, hvalid.2.1⟩
  · rw [hlists]
    intro e he x hx
    rcases mem_pushChild _ _ _ e he x hx with h | ⟨e0, he0, h⟩
    · subst h
      exact ⟨hvalid.1, hvalid.2.1⟩
    · exact (hP.lists e0 he0).grows (by rw [hres]; exact gall) x h

/-- Replacing the old view of the recorded mutation by a view with the tag of the
node keeps the state invariant. -/
theorem PS.updateOld {t : Tag} {s : State} (hs : PS t s) (p : Ptr) (v : ShadowView)
    (hp : p < s.next) (hv : v.tag = (s.heap p).tag) :
    PS t (s.modifyNode p (fun x =>
      { x with mutation := { x.mutation with oldChildShadowView := v } })) ∧
    Grows s (s.modifyNode p (fun x =>
      { x with mutation := { x.mutation with oldChildShadowView := v } })) := by
  have hheap : (s.modifyNode p (fun x =>
      { x with mutation := { x.mutation with oldChildShadowView := v } })).heap =
      Function.update s.heap p { s.heap p with
        mutation := { (s.heap p).mutation with oldChildShadowView := v } } := by
    simp [State.modifyNode, State.setNode, State.node]
  have hq : ∀ q, ((Function.update s.heap p { s.heap p with
        mutation := { (s.heap p).mutation with oldChildShadowView := v } }) q).tag =
        (s.heap q).tag ∧
      ((Function.update s.heap p { s.heap p with
        mutation := { (s.heap p).mutation with oldChildShadowView := v } }) q).isMutation =
        (s.heap q).isMutation := by
    intro q
    by_cases hqp : q = p
    · subst hqp; simp
    · simp [Function.update_noteq hqp]
  obtain ⟨b1, b2, b3⟩ := hs.1 p hp
  have hinv := hs.1.update p { s.heap p with
      mutation := { (s.heap p).mutation with oldChildShadowView := v } }
    ⟨fun hm => ⟨(b1 hm).1, hv.symm, fun ht => (b1 hm).2.2 (by
        rw [← (b1 hm).2.1]; simpa [hv] using ht)⟩, b2, b3⟩ rfl
  refine ⟨⟨?_, ?_, ?_⟩, ?_⟩
  · rw [hheap]; exact hinv
  · intro k q hk
    have := hs.2.1 k q hk
    rw [hheap]
    exact ⟨this.1, by rw [(hq q).1]; exact this.2⟩
  · exact hs.2.2
  · rw [Grows, hheap]
    exact ⟨le_refl _, fun q _ => ⟨(hq q).2, (hq q).1⟩⟩

/-- One step of the reverse scan keeps the parse invariant, provided a Delete is
not of `t` and an Update keeps the tag of its view. -/
theorem parseStep_inv {t : Tag} (a : ParseAcc) (m : ShadowViewMutation) (hP : PInv t a)
    (hdel : m.type = .Delete → m.oldChildShadowView.tag ≠ t)
    (hupd : m.type = .Update → m.oldChildShadowView.tag = m.newChildShadowView.tag) :
    PInv t (parseStep a m) ∧ Grows a.s (parseStep a m).s ∧
    (∀ p ∈ a.mutationNodes, p ∈ (parseStep a m).mutationNodes) ∧
    (m.type = .Remove → ∃ p ∈ (parseStep a m).mutationNodes,
      ((parseStep a m).s.heap p).tag = m.oldChildShadowView.tag) := by
  cases hty : m.type with
  | Delete =>
    have h1 : parseStep a m =
        { a with deletedViews := m.oldChildShadowView.tag :: a.deletedViews } := by
      simp [parseStep, hty]
    rw [h1]
    refine ⟨⟨hP.ps, hP.nodes, hP.lists, ?_⟩, Grows.grows_refl _, fun p hp => hp, fun h => by cases h⟩
    intro hmem
    rcases List.mem_cons.mp hmem with h | h
    · exact hdel hty h.symm
    · exact hP.del h
  | Remove =>
    have h1 : parseStep a m = parseRemove a m := by
      simp [parseStep, hty]
    rw [h1]
    obtain ⟨q1, q2, q3, q4⟩ := parseRemove_inv a m hP hty
    exact ⟨q1, q2, q4, fun _ => q3⟩
  | Insert =>
    have h1 : parseStep a m = a := by simp [parseStep, hty]
    rw [h1]
    exact ⟨hP, Grows.grows_refl _, fun p hp => hp, fun h => by cases h⟩
  | Create =>
    have h1 : parseStep a m = a := by simp [parseStep, hty]
    rw [h1]
    exact ⟨hP, Grows.grows_refl _, fun p hp => hp, fun h => by cases h⟩
  | Update =>
    by_cases hmv : (a.movedViews m.newChildShadowView.tag).isSome = true
    · cases hn : a.s.nodeForTag m.newChildShadowView.tag with
      | none =>
        have h1 : parseStep a m = a := by simp [parseStep, hty, hmv, hn]
        rw [h1]
        exact ⟨hP, Grows.grows_refl _, fun p hp => hp, fun h => by cases h⟩
      | some p =>
        have h1 : parseStep a m = { a with s := a.s.modifyNode p (fun x =>
            { x with mutation :=
              { x.mutation with oldChildShadowView := m.oldChildShadowView } }) } := by
          simp [parseStep, hty, hmv, hn]
        rw [h1]
        obtain ⟨hlt, htag⟩ := hP.ps.2.1 _ _ hn
        obtain ⟨r1, r2⟩ := hP.ps.updateOld p m.oldChildShadowView hlt
          (by rw [htag]; exact hupd hty)
        exact ⟨⟨r1, hP.nodes.grows r2, fun e he => (hP.lists e he).grows r2, hP.del⟩, r2,
          fun p hp => hp, fun h => by cases h⟩
    · have h1 : parseStep a m = a := by simp [parseStep, hty, hmv]
      rw [h1]
      exact ⟨hP, Grows.grows_refl _, fun p hp => hp, fun h => by cases h⟩

/-- The reverse scan keeps the parse invariant and builds a node for every Remove. -/
theorem foldl_parseStep_inv {t : Tag} : ∀ (l : ShadowViewMutationList) (a : ParseAcc),
    PInv t a →
    (∀ m ∈ l, m.type = .Delete → m.oldChildShadowView.tag ≠ t) →
    (∀ m ∈ l, m.type = .Update → m.oldChildShadowView.tag = m.newChildShadowView.tag) →
    PInv t (l.foldl parseStep a) ∧ Grows a.s (l.foldl parseStep a).s ∧
    (∀ p ∈ a.mutationNodes, p ∈ (l.foldl parseStep a).mutationNodes) ∧
    (∀ m ∈ l, m.type = .Remove → ∃ p ∈ (l.foldl parseStep a).mutationNodes,
      ((l.foldl parseStep a).s.heap p).tag = m.oldChildShadowView.tag) := by
  intro l
  induction l with
  | nil => intro a hP _ _; exact ⟨hP, Grows.grows_refl _, fun p hp => hp, fun m hm => by cases hm⟩
  | cons m l ih =>
    intro a hP hdel hupd
    obtain ⟨q1, q2, q3, q4⟩ := parseStep_inv a m hP (hdel m (List.mem_cons_self _ _))
      (hupd m (List.mem_cons_self _ _))
    obtain ⟨r1, r2, r3, r4⟩ := ih (parseStep a m) q1
      (fun x hx => hdel x (List.mem_cons_of_mem _ hx))
      (fun x hx => hupd x (List.mem_cons_of_mem _ hx))
    simp only [List.foldl_cons]
    refine ⟨r1, q2.grows_trans r2, fun p hp => r3 p (q3 p hp), fun x hx hxt => ?_⟩
    rcases List.mem_cons.mp hx with rfl | hx
    · obtain ⟨p, hp, hptag⟩ := q4 hxt
      refine ⟨p, r3 p hp, ?_⟩
      rw [(r2.2 p (q1.nodes p hp).1).2]
      exact hptag
    · exact r4 x hx hxt

theorem PS.mergeKids {t : Tag} {s : State} (hs : PS t s) (parent : Ptr) (cs : List Ptr) :
    PS t (insertChildren s parent cs) ∧ Grows s (insertChildren s parent cs) :=
  hs.modifyHarmless parent _ (fun _ => ⟨rfl, rfl, rfl, rfl, rfl⟩)

theorem PS.mergeUnflattened {t : Tag} {s : State} (hs : PS t s) (parent : Ptr)
    (cs : List Ptr) (hp : parent < s.next) (hcs : ValidNodes s cs) :
    PS t (insertUnflattenedChildren s parent cs) ∧
    Grows s (insertUnflattenedChildren s parent cs) := by
  obtain ⟨merged, hmerged⟩ : ∃ merged, merged =
      mergeChildren (fun q => (s.node q).mutation.index)
        ((s.heap parent).unflattenedChildren.length + cs.length)
        (s.heap parent).unflattenedChildren cs := ⟨_, rfl⟩
  have hheap : (insertUnflattenedChildren s parent cs).heap =
      Function.update s.heap parent { s.heap parent with unflattenedChildren := merged } := by
    rw [hmerged]
    simp [insertUnflattenedChildren, State.modifyNode, State.setNode, State.node]
  have hq : ∀ q, ((Function.update s.heap parent
        { s.heap parent with unflattenedChildren := merged }) q).tag = (s.heap q).tag ∧
      ((Function.update s.heap parent
        { s.heap parent with unflattenedChildren := merged }) q).isMutation =
        (s.heap q).isMutation := by
    intro q
    by_cases hqp : q = parent
    · subst hqp; simp
    · simp [Function.update_noteq hqp]
  obtain ⟨b1, b2, b3⟩ := hs.1 parent hp
  have hinv := hs.1.update parent { s.heap parent with unflattenedChildren := merged }
    ⟨b1, b2, fun c hc => by
      rw [hmerged] at hc
      rcases mem_mergeChildren _ _ _ _ c hc with h | h
      · exact b3 c h
      · exact hcs c h⟩ rfl
  have hnext : (insertUnflattenedChildren s parent cs).next = s.next := rfl
  have htab : (insertUnflattenedChildren s parent cs).nodeForTag = s.nodeForTag := rfl
  have hdead : (insertUnflattenedChildren s parent cs).deadNodes = s.deadNodes := rfl
  refine ⟨⟨?_, ?_, ?_⟩, ?_⟩
  · rw [hheap, hnext]; exact hinv
  · intro k q hk
    rw [htab] at hk
    have := hs.2.1 k q hk
    rw [hheap, hnext]
    exact ⟨this.1, by rw [(hq q).1]; exact this.2⟩
  · rw [hdead]; exact hs.2.2
  · rw [Grows, hheap, hnext]
    exact ⟨le_refl _, fun q _ => ⟨(hq q).2, (hq q).1⟩⟩

theorem attachChildren_inv {t : Tag} : ∀ (l : List (Tag × List Ptr)) (s : State), PS t s →
    PS t (attachChildren s l) ∧ Grows s (attachChildren s l) := by
  intro l
  induction l with
  | nil => intro s hs; exact ⟨hs, Grows.grows_refl s⟩
  | cons e l ih =>
    intro s hs
    simp only [attachChildren, List.foldl_cons]
    cases hn : s.nodeForTag e.1 with
    | none => exact ih s hs
    | some parent =>
      obtain ⟨a1, a2⟩ := hs.mergeKids parent e.2
      obtain ⟨b1, b2⟩ := PS.foldlHarmless (fun _ x => { x with parent := parent })
        (fun _ _ => ⟨rfl, rfl, rfl, rfl, rfl⟩) e.2 _ a1
      obtain ⟨c1, c2⟩ := ih _ b1
      exact ⟨c1, a2.grows_trans (b2.grows_trans c2)⟩

theorem attachUnflattenedChildren_inv {t : Tag} : ∀ (l : List (Tag × List Ptr)) (s : State),
    PS t s → (∀ e ∈ l, ValidNodes s e.2) →
    PS t (attachUnflattenedChildren s l) ∧ Grows s (attachUnflattenedChildren s l) := by
  intro l
  induction l with
  | nil => intro s hs _; exact ⟨hs, Grows.grows_refl s⟩
  | cons e l ih =>
    intro s hs hl
    simp only [attachUnflattenedChildren, List.foldl_cons]
    cases hn : s.nodeForTag e.1 with
    | none => exact ih s hs (fun x hx => hl x (List.mem_cons_of_mem _ hx))
    | some parent =>
      obtain ⟨a1, a2⟩ := hs.mergeUnflattened parent e.2 (hs.2.1 _ _ hn).1
        (hl e (List.mem_cons_self _ _))
      obtain ⟨b1, b2⟩ := PS.foldlHarmless (fun _ x => { x with unflattenedParent := parent })
        (fun _ _ => ⟨rfl, rfl, rfl, rfl, rfl⟩) e.2 _ a1
      obtain ⟨c1, c2⟩ := ih _ b1
        (fun x hx => (hl x (List.mem_cons_of_mem _ hx)).grows (a2.grows_trans b2))
      exact ⟨c1, a2.grows_trans (b2.grows_trans c2)⟩

/-- The loop body of `handleUpdatesAndEnterings` appends no Delete. -/
theorem handleMutation_noDelete (mgr : Manager) (mv : Tag → Option Tag) (sid : SurfaceId)
    (l : UpdLoop) (m : ShadowViewMutation) :
    ∃ X, (handleMutation mgr mv sid l m).filteredMutations = l.filteredMutations ++ X ∧
      ∀ x ∈ X, x.type ≠ .Delete := by
  have hf := updateIndexForMutation_fields (maybeUpdateWindowDimensions l.s m sid) m
  unfold handleMutation
  cases hty : m.type with
  | Create => exact ⟨[m], by simp, by simp [hty]⟩
  | Delete => exact ⟨[], by simp, by simp⟩
  | Remove => exact ⟨[], by simp, by simp⟩
  | Insert =>
    have hty1 : (updateIndexForMutation (maybeUpdateWindowDimensions l.s m sid) m).type
        = .Insert := by rw [hf]; exact hty
    simp only [handleInsert]
    repeat' split
    all_goals exact ⟨_, rfl, by simp [InsertMutation, UpdateMutation, hty1]⟩
  | Update =>
    simp only [handleUpdate]
    repeat' split
    all_goals first
      | exact ⟨_, rfl, by simp [hty]⟩
      | exact ⟨[], by simp, by simp⟩

theorem foldl_handleMutation_noDelete (mgr : Manager) (mv : Tag → Option Tag) (sid : SurfaceId)
    (ms : ShadowViewMutationList) :
    ∀ l : UpdLoop, ∃ X, (ms.foldl (handleMutation mgr mv sid) l).filteredMutations
      = l.filteredMutations ++ X ∧ ∀ x ∈ X, x.type ≠ .Delete := by
  induction ms with
  | nil => intro l; exact ⟨[], by simp, by simp⟩
  | cons m ms ih =>
    intro l
    obtain ⟨X, hX, hXd⟩ := handleMutation_noDelete mgr mv sid l m
    obtain ⟨Y, hY, hYd⟩ := ih (handleMutation mgr mv sid l m)
    refine ⟨X ++ Y, by simp [List.foldl_cons, hY, hX], fun x hx => ?_⟩
    rcases List.mem_append.mp hx with h | h
    · exact hXd x h
    · exact hYd x h

theorem addOngoingAnimations_noDelete (sid : SurfaceId) (w : Work) :
    ∃ X, (addOngoingAnimations sid w).2 = w.2 ++ X ∧ ∀ x ∈ X, x.type ≠ .Delete := by
  unfold addOngoingAnimations
  simp only
  generalize w.1.updateMap sid = es
  induction es generalizing w with
  | nil => exact ⟨[], by simp, by simp⟩
  | cons e es ih =>
    simp only [List.foldl_cons]
    split
    · exact ih w
    · rename_i la hla
      obtain ⟨X, hX, hXd⟩ := ih (_, _)
      rw [hX]
      refine ⟨UpdateMutation la.currentView
        { la.finalView with
          props := e.2.newProps,
          layoutMetrics := updateLayoutMetrics la.finalView.layoutMetrics e.2.frame }
        la.parentTag :: X, ?_, ?_⟩
      · simp only [List.append_assoc, List.singleton_append]
      · intro x hx
        rcases List.mem_cons.mp hx with h | h
        · rw [h]; simp [UpdateMutation]
        · exact hXd x h

/-- After `parseRemoveMutations` on a batch that has no Delete of `t` and whose
Updates keep their tag, the state invariant holds, the roots and the built
nodes are allocated mutation nodes, and every Remove has a built node. -/
theorem parseRemoveMutations_inv {t : Tag} (s : State) (mutations : ShadowViewMutationList)
    (hs : PS t s)
    (hdel : ∀ m ∈ mutations, m.type = .Delete → m.oldChildShadowView.tag ≠ t)
    (hupd : ∀ m ∈ mutations, m.type = .Update →
      m.oldChildShadowView.tag = m.newChildShadowView.tag) :
    PS t (parseRemoveMutations s mutations).s ∧
    ValidNodes (parseRemoveMutations s mutations).s (parseRemoveMutations s mutations).roots ∧
    ValidNodes (parseRemoveMutations s mutations).s
      (parseRemoveMutations s mutations).mutationNodes ∧
    (∀ m ∈ mutations, m.type = .Remove → ∃ p ∈ (parseRemoveMutations s mutations).mutationNodes,
      ((parseRemoveMutations s mutations).s.heap p).tag = m.oldChildShadowView.tag) := by
  obtain ⟨init, hinit⟩ : ∃ init : ParseAcc, init =
      { s := s, deletedViews := [], movedViews := fun _ => none, childrenForTag := [],
        unflattenedChildrenForTag := [], mutationNodes := [] } := ⟨_, rfl⟩
  have hP0 : PInv t init := by
    rw [hinit]
    exact PInv.mk hs (fun c hc => by cases hc) (fun e he => by cases he) (by simp)
  obtain ⟨a, ha⟩ : ∃ a, a = mutations.reverse.foldl parseStep init := ⟨_, rfl⟩
  obtain ⟨q1, q2, q3, q4⟩ := foldl_parseStep_inv mutations.reverse init hP0
    (fun m hm => hdel m (List.mem_reverse.mp hm))
    (fun m hm => hupd m (List.mem_reverse.mp hm))
  rw [← ha] at q1 q2 q3 q4
  obtain ⟨r1, r2⟩ := attachChildren_inv a.childrenForTag a.s q1.ps
  obtain ⟨u1, u2⟩ := attachUnflattenedChildren_inv a.unflattenedChildrenForTag _ r1
    (fun e he => (q1.lists e he).grows r2)
  have hres : (parseRemoveMutations s mutations).s =
      attachUnflattenedChildren (attachChildren a.s a.childrenForTag)
        a.unflattenedChildrenForTag := by
    rw [ha, hinit]; rfl
  have hnodes : (parseRemoveMutations s mutations).mutationNodes = a.mutationNodes := by
    rw [ha, hinit]; rfl
  have hroots : ∀ p ∈ (parseRemoveMutations s mutations).roots, p ∈ a.mutationNodes := by
    intro p hp
    have : (parseRemoveMutations s mutations).roots = a.mutationNodes.filter
        (fun p => !((parseRemoveMutations s mutations).s.node
          ((parseRemoveMutations s mutations).s.node p).unflattenedParent).isMutation) := by
      rw [ha, hinit]; rfl
    rw [this] at hp
    exact (List.mem_filter.mp hp).1
  have hv : ValidNodes (parseRemoveMutations s mutations).s a.mutationNodes := by
    rw [hres]
    exact q1.nodes.grows (r2.grows_trans u2)
  refine ⟨by rw [hres]; exact u1, fun c hc => hv c (hroots c hc), by rw [hnodes]; exact hv,
    fun m hm hmt => ?_⟩
  obtain ⟨p, hp, hptag⟩ := q4 m (List.mem_reverse.mpr hm) hmt
  refine ⟨p, by rw [hnodes]; exact hp, ?_⟩
  rw [hres, ((r2.grows_trans u2).2 p (q1.nodes p hp).1).2]
  exact hptag

theorem PS.fresh (t : Tag) : PS t State.fresh := by
  refine ⟨fun p _ => ⟨fun hm => ?_, ?_, fun c hc => ?_⟩, fun k p hk => ?_, rfl⟩
  · simp [State.fresh, plainNode] at hm
  · simp [State.fresh, plainNode, Classified]
  · simp [State.fresh, plainNode] at hc
  · simp [State.fresh] at hk

/-- The removal pass on the parsed fresh engine: whatever `handleRemovals` returns
holds no Delete of `t`. -/
theorem handleRemovals_noDel {t : Tag} (mgr : Manager) (fuel : Nat) (roots : List Ptr)
    (s s1 : State) (m1 : ShadowViewMutationList) (hinv : RemInv t s.heap s.next)
    (hdead : s.deadNodes = [])
    (hroots : ∀ p ∈ roots, p < s.next ∧ (s.heap p).isMutation = true)
    (h : handleRemovals mgr fuel roots (s, []) = some (s1, m1)) : NoDel t m1 := by
  unfold handleRemovals at h
  cases hr : handleRoots mgr fuel roots (s, []) with
  | none => rw [hr] at h; exact absurd h (by simp)
  | some w1 =>
    obtain ⟨s2, m2⟩ := w1
    obtain ⟨hk, X, hX, hXd⟩ := handleRoots_inv mgr fuel roots s s2 [] m2 hinv hroots hr
    have hd2 : s2.deadNodes = [] := by rw [hk.2.2, hdead]
    rw [hr] at h
    simp only [hd2, visitOrder_nil, handleDeadNodes, List.foldl_nil, Option.some.injEq,
      Prod.mk.injEq] at h
    rw [← h.2, hX]
    simpa using hXd

theorem HtLe.of_kids_eq {h h1 : Ptr → Node}
    (hk : ∀ q, (h1 q).unflattenedChildren = (h q).unflattenedChildren) :
    ∀ (k : Nat) (p : Ptr), HtLe h k p → HtLe h1 k p := by
  intro k
  induction k with
  | zero => intro p hp; exact hp
  | succ k ih =>
    intro p hp c hc
    rw [hk p] at hc
    exact ih c (hp c hc)

theorem HtLe.mono {h : Ptr → Node} : ∀ (k : Nat) (p : Ptr), HtLe h k p → HtLe h (k + 1) p := by
  intro k
  induction k with
  | zero => intro p hp; exact absurd hp (by simp [HtLe])
  | succ k ih =>
    intro p hp c hc
    exact ih c (hp c hc)

theorem HtLe.of_le {h : Ptr → Node} {k k1 : Nat} (hle : k ≤ k1) {p : Ptr}
    (hp : HtLe h k p) : HtLe h k1 p := by
  induction hle with
  | refl => exact hp
  | step _ ih => exact HtLe.mono _ p ih

/-- A heap that extends `h` (children lists only shrink) keeps the height bounds
of the allocated nodes. -/
theorem HtLe.extend {t : Tag} {h h1 : Ptr → Node} {n n1 : Nat} (hinv : RemInv t h n)
    (hext : Ext h n h1 n1) : ∀ (k : Nat) (p : Ptr), p < n → HtLe h k p → HtLe h1 k p := by
  intro k
  induction k with
  | zero => intro p _ hp; exact hp
  | succ k ih =>
    intro p hpn hp c hc
    have hc0 : c ∈ (h p).unflattenedChildren := (hext.kids p hpn).subset hc
    exact ih c (hinv.kids p hpn c hc0).2 (hp c hc0)

/-- With a budget above the height of the subtree, `endAnimationsRecursively`
returns. -/
theorem endAnimationsRecursively_some : ∀ (fuel : Nat) (node : Ptr) (w : Work),
    HtLe w.1.heap fuel node → ∃ w1, endAnimationsRecursively fuel node w = some w1 := by
  intro fuel
  induction fuel with
  | zero => intro node w h; exact absurd h (by simp [HtLe])
  | succ fuel ih =>
    intro node w hht
    obtain ⟨s, m⟩ := w
    have hfold : ∀ (cs : List Ptr) (w0 : Work), (∀ c ∈ cs, HtLe w0.1.heap fuel c) →
        ∃ w1, cs.foldl (fun (acc : Option Work) subNode =>
          match acc with
          | none => none
          | some w =>
            if (w.1.node subNode).state ≠ .DELETED then
              endAnimationsRecursively fuel subNode w
            else some w) (some w0) = some w1 := by
      intro cs
      induction cs with
      | nil => intro w0 _; exact ⟨w0, rfl⟩
      | cons c cs ihc =>
        intro w0 hcs
        simp only [List.foldl_cons]
        by_cases hst : (w0.1.node c).state ≠ .DELETED
        · obtain ⟨w1, hw1⟩ := ih c w0 (hcs c (List.mem_cons_self _ _))
          rw [if_pos hst, hw1]
          have hfp := endAnimationsRecursively_footprint fuel c w0 w1 hw1 (fun _ => rfl)
          exact ihc w1 (fun d hd => HtLe.of_kids_eq (fun q => by rw [hfp.1 q]) fuel d
            (hcs d (List.mem_cons_of_mem _ hd)))
        · rw [if_neg hst]
          exact ihc w0 (fun d hd => hcs d (List.mem_cons_of_mem _ hd))
    unfold endAnimationsRecursively
    simp only
    obtain ⟨S2, hS2⟩ : ∃ S2, S2 = (maybeCancelAnimation s (s.node node).tag).modifyNode node
        (fun n => { n with state := .DELETED }) := ⟨_, rfl⟩
    have hkids : ∀ q, (S2.heap q).unflattenedChildren = (s.heap q).unflattenedChildren := by
      intro q
      rw [hS2]
      by_cases hq : q = node
      · subst hq
        simp [State.modifyNode, State.setNode, State.node, maybeCancelAnimation_heap]
      · simp [State.modifyNode, State.setNode, State.node, Function.update_noteq hq,
          maybeCancelAnimation_heap]
    rw [← hS2]
    obtain ⟨w1, hw1⟩ := hfold (S2.node node).unflattenedChildren.reverse (S2, m)
      (fun c hc => by
        have hc1 : c ∈ (s.heap node).unflattenedChildren := by
          rw [← hkids node]; exact List.mem_reverse.mp hc
        exact HtLe.of_kids_eq hkids fuel c (hht c hc1))
    rw [hw1]
    exact ⟨_, rfl⟩

/-- The loop body returns when both recursive calls return. -/
theorem startLoopStep_some (endRec : Ptr → Work → Option Work)
    (startRec : Ptr → Work → Option (Bool × Work)) (sa sr : Bool) (l : StartLoop) (c : Ptr)
    (hE : ∃ w1, endRec c (l.s, l.mutations) = some w1)
    (hS : ∃ r, startRec c (l.s, l.mutations) = some r) :
    ∃ l1, startLoopStep endRec startRec sa sr (some l) c = some l1 := by
  obtain ⟨⟨s1, m1⟩, hE⟩ := hE
  obtain ⟨⟨r, s2, m2⟩, hS⟩ := hS
  unfold startLoopStep
  simp only [hE, hS]
  cases r <;> simp only <;> (repeat' split) <;> exact ⟨_, rfl⟩

/-- With a budget above the height of the subtree, `startAnimationsRecursively`
returns. -/
theorem startAnimationsRecursively_some {t : Tag} (mgr : Manager) :
    ∀ (fuel : Nat) (node : Ptr) (a b c : Bool) (s : State) (m : ShadowViewMutationList),
      RemInv t s.heap s.next → node < s.next → HtLe s.heap fuel node →
      ∃ r, startAnimationsRecursively mgr fuel node a b c (s, m) = some r := by
  intro fuel
  induction fuel with
  | zero => intro node a b c s m _ _ h; exact absurd h (by simp [HtLe])
  | succ fuel ih =>
    intro node a b c s m hinv hnode hht
    have hfold : ∀ (sa sr sp : Bool) (cs : List Ptr) (l : StartLoop),
        RemInv t l.s.heap l.s.next →
        (∀ d ∈ cs, d < l.s.next ∧ (l.s.heap d).isMutation = true ∧ HtLe l.s.heap fuel d) →
        ∃ l1, cs.foldl (startLoopStep (endAnimationsRecursively fuel)
          (fun subNode w => startAnimationsRecursively mgr fuel subNode sr sa sp w)
          sa sr) (some l) = some l1 := by
      intro sa sr sp cs
      induction cs with
      | nil => intro l _ _; exact ⟨l, rfl⟩
      | cons d cs ihc =>
        intro l hl hcs
        obtain ⟨hd1, hd2, hd3⟩ := hcs d (List.mem_cons_self _ _)
        obtain ⟨l1, hl1⟩ := startLoopStep_some (endAnimationsRecursively fuel)
          (fun subNode w => startAnimationsRecursively mgr fuel subNode sr sa sp w)
          sa sr l d (endAnimationsRecursively_some fuel d (l.s, l.mutations) hd3)
          (ih d sr sa sp l.s l.mutations hl hd1 hd3)
        have hstep := startLoopStep_inv (endAnimationsRecursively fuel)
          (fun subNode w => startAnimationsRecursively mgr fuel subNode sr sa sp w) sa sr
          (fun c s m s1 m1 hi hc hm hcl he => by
            obtain ⟨h1, h2, h3, h4⟩ :=
              endAnimationsRecursively_inv fuel c s s1 m m1 hi hc hm hcl he
            exact ⟨⟨h1, h2, h3⟩, h4⟩)
          (fun c s m r s1 m1 hi hc hm he =>
            startAnimationsRecursively_inv mgr fuel c _ _ _ s m r s1 m1 hi hc hm he)
          l l1 d hl hd1 hd2 hl1
        obtain ⟨hk, _⟩ := hstep
        simp only [List.foldl_cons, hl1]
        refine ihc l1 hk.1 (fun e he => ?_)
        obtain ⟨he1, he2, he3⟩ := hcs e (List.mem_cons_of_mem _ he)
        refine ⟨lt_of_lt_of_le he1 hk.2.1.next, ?_, HtLe.extend hl hk.2.1 fuel e he1 he3⟩
        rw [(hk.2.1.shape e he1).1]
        exact he2
    unfold startAnimationsRecursively
    simp only [State.node]
    obtain ⟨l1, hl1⟩ := hfold
      (!(if mgr.isRNSScreen (s.heap node).mutation.oldChildShadowView.componentName = true
          then true else c) &&
        mgr.shouldAnimateExiting s.managerLog (s.heap node).tag b)
      (a && (!(!(if mgr.isRNSScreen (s.heap node).mutation.oldChildShadowView.componentName
            = true then true else c) &&
          mgr.shouldAnimateExiting s.managerLog (s.heap node).tag b &&
          mgr.hasLayoutAnimation s.managerLog (s.heap node).tag .EXITING) ||
        decide ((s.heap node).state = .MOVED)))
      (if mgr.isRNSScreen (s.heap node).mutation.oldChildShadowView.componentName = true
          then true else c)
      (s.heap node).unflattenedChildren.reverse
      { hasAnimatedChildren := false, toBeRemoved := [], s := s, mutations := m } hinv
      (fun d hd => by
        obtain ⟨h1, h2⟩ := hinv.kids node hnode d (List.mem_reverse.mp hd)
        exact ⟨h2, h1, hht d (List.mem_reverse.mp hd)⟩)
    rw [hl1]
    exact ⟨_, rfl⟩

/-- With a budget above the height of every root, the loop over the roots returns. -/
theorem handleRoots_some {t : Tag} (mgr : Manager) (fuel : Nat) :
    ∀ (roots : List Ptr) (s : State) (m : ShadowViewMutationList),
      RemInv t s.heap s.next →
      (∀ p ∈ roots, p < s.next ∧ (s.heap p).isMutation = true ∧ HtLe s.heap fuel p) →
      ∃ w1, handleRoots mgr fuel roots (s, m) = some w1 := by
  have hstep : ∀ (c : Ptr) (s : State) (m : ShadowViewMutationList),
      RemInv t s.heap s.next → c < s.next → HtLe s.heap fuel c →
      ∃ w1, handleRoots mgr fuel [c] (s, m) = some w1 := by
    intro c s m hinv hc hht
    obtain ⟨⟨r, s1, m1⟩, hr⟩ :=
      startAnimationsRecursively_some mgr fuel c true true false s m hinv hc hht
    unfold handleRoots
    simp only [List.reverse_cons, List.reverse_nil, List.nil_append, List.foldl_cons,
      List.foldl_nil, hr]
    cases r <;> simp only <;> (repeat' split) <;> exact ⟨_, rfl⟩
  have hfold : ∀ (cs : List Ptr) (s : State) (m : ShadowViewMutationList),
      RemInv t s.heap s.next →
      (∀ p ∈ cs, p < s.next ∧ (s.heap p).isMutation = true ∧ HtLe s.heap fuel p) →
      ∃ w1, handleRoots mgr fuel cs.reverse (s, m) = some w1 := by
    intro cs
    induction cs with
    | nil => intro s m _ _; exact ⟨(s, m), rfl⟩
    | cons c cs ih =>
      intro s m hinv hcs
      obtain ⟨hc1, hc2, hc3⟩ := hcs c (List.mem_cons_self _ _)
      obtain ⟨⟨s1, m1⟩, hw1⟩ := hstep c s m hinv hc1 hc3
      obtain ⟨hk, _⟩ := handleRoots_inv mgr fuel [c] s s1 m m1 hinv
        (fun p hp => by
          rw [List.mem_singleton] at hp
          subst hp
          exact ⟨hc1, hc2⟩) hw1
      obtain ⟨w2, hw2⟩ := ih s1 m1 hk.1 (fun e he => by
        obtain ⟨he1, he2, he3⟩ := hcs e (List.mem_cons_of_mem _ he)
        refine ⟨lt_of_lt_of_le he1 hk.2.1.next, ?_, HtLe.extend hinv hk.2.1 fuel e he1 he3⟩
        rw [(hk.2.1.shape e he1).1]
        exact he2)
      refine ⟨w2, ?_⟩
      unfold handleRoots at hw1 hw2 ⊢
      rw [List.reverse_reverse] at hw2 ⊢
      rw [List.reverse_cons, List.reverse_nil, List.nil_append, List.foldl_cons,
        List.foldl_nil] at hw1
      rw [List.foldl_cons, hw1]
      exact hw2
  intro roots s m hinv hroots
  have := hfold roots.reverse s m hinv (fun p hp => hroots p (List.mem_reverse.mp hp))
  rwa [List.reverse_reverse] at this

/-- With a budget above the height of every root and an empty queue of dead
nodes, `handleRemovals` returns. -/
theorem handleRemovals_some {t : Tag} (mgr : Manager) (fuel : Nat) (roots : List Ptr)
    (s : State) (m : ShadowViewMutationList) (hinv : RemInv t s.heap s.next)
    (hdead : s.deadNodes = [])
    (hroots : ∀ p ∈ roots, p < s.next ∧ (s.heap p).isMutation = true ∧ HtLe s.heap fuel p) :
    ∃ w1, handleRemovals mgr fuel roots (s, m) = some w1 := by
  obtain ⟨⟨s1, m1⟩, hw1⟩ := handleRoots_some mgr fuel roots s m hinv hroots
  obtain ⟨hk, _⟩ := handleRoots_inv mgr fuel roots s s1 m m1 hinv
    (fun p hp => ⟨(hroots p hp).1, (hroots p hp).2.1⟩) hw1
  have hd : s1.deadNodes = [] := by rw [hk.2.2, hdead]
  unfold handleRemovals
  simp only [hw1, hd, handleDeadNodes, List.foldl_nil]
  exact ⟨_, rfl⟩

theorem kids_modify (s : State) (p : Ptr) (f : Node → Node) (q : Ptr)
    (hf : ∀ x, (f x).unflattenedChildren = x.unflattenedChildren) :
    ((s.modifyNode p f).heap q).unflattenedChildren = (s.heap q).unflattenedChildren := by
  by_cases hq : q = p
  · subst hq; simp [State.modifyNode, State.setNode, State.node, hf]
  · simp [State.modifyNode, State.setNode, State.node, Function.update_noteq hq]

theorem NoKids.noKids_modify {s : State} (hs : NoKids s) (p : Ptr) (f : Node → Node)
    (hf : ∀ x, (f x).unflattenedChildren = x.unflattenedChildren) :
    NoKids (s.modifyNode p f) :=
  fun q => by rw [kids_modify s p f q hf]; exact hs q

theorem NoKids.noKids_alloc {s : State} (hs : NoKids s) (tag : Tag) :
    NoKids (s.alloc (plainNode tag)).2 := by
  intro q
  by_cases hq : q = s.next
  · subst hq; simp [State.alloc, plainNode]
  · simp only [State.alloc, Function.update_noteq hq]; exact hs q

theorem NoKids.noKids_make {s : State} (hs : NoKids s) (mu : ShadowViewMutation)
    (node : Option Ptr) : NoKids (makeMutationNode s mu node).2 := by
  obtain ⟨_, _, _, _, h5, _, _, _, _, h10⟩ := makeMutationNode_spec s mu node
  intro q
  rw [List.eq_nil_iff_forall_not_mem]
  intro c hc
  by_cases hq : q = s.next
  · subst hq
    obtain ⟨p, _, hp⟩ := h10 c hc
    rw [hs p] at hp
    exact absurd hp (by simp)
  · have := (h5 q hq).2.2.2.2 c hc
    rw [hs q] at this
    exact absurd this (by simp)

theorem parseRemove_noKids (a : ParseAcc) (m0 : ShadowViewMutation) (hs : NoKids a.s) :
    NoKids (parseRemove a m0).s := by
  unfold parseRemove
  simp only
  refine NoKids.noKids_modify ?_ _ _ (fun _ => rfl)
  have h1 := hs.noKids_make (updateIndexForMutation a.s m0)
    (a.s.nodeForTag (updateIndexForMutation a.s m0).oldChildShadowView.tag)
  have h2 : NoKids (if (!a.deletedViews.contains
      (updateIndexForMutation a.s m0).oldChildShadowView.tag) = true then
        (makeMutationNode a.s (updateIndexForMutation a.s m0)
          (a.s.nodeForTag (updateIndexForMutation a.s m0).oldChildShadowView.tag)).2.modifyNode
          (makeMutationNode a.s (updateIndexForMutation a.s m0)
            (a.s.nodeForTag (updateIndexForMutation a.s m0).oldChildShadowView.tag)).1
          (fun x => { x with state := .MOVED })
      else (makeMutationNode a.s (updateIndexForMutation a.s m0)
        (a.s.nodeForTag (updateIndexForMutation a.s m0).oldChildShadowView.tag)).2) := by
    split
    · exact h1.noKids_modify _ _ (fun _ => rfl)
    · exact h1
  split
  · exact h2
  · exact fun q => (@NoKids.noKids_alloc _ (fun q1 => h2 q1) _) q

/-- The forms of one step of the reverse scan. -/
theorem parseStep_forms (a : ParseAcc) (m : ShadowViewMutation) :
    parseStep a m = parseRemove a m ∨
    parseStep a m = { a with deletedViews := m.oldChildShadowView.tag :: a.deletedViews } ∨
    parseStep a m = a ∨
    ∃ p, parseStep a m = { a with s := a.s.modifyNode p (fun x =>
      { x with mutation :=
        { x.mutation with oldChildShadowView := m.oldChildShadowView } }) } := by
  cases hty : m.type with
  | Delete => right; left; simp [parseStep, hty]
  | Remove => left; simp [parseStep, hty]
  | Insert => right; right; left; simp [parseStep, hty]
  | Create => right; right; left; simp [parseStep, hty]
  | Update =>
    by_cases hmv : (a.movedViews m.newChildShadowView.tag).isSome = true
    · cases hn : a.s.nodeForTag m.newChildShadowView.tag with
      | none => right; right; left; simp [parseStep, hty, hmv, hn]
      | some p => right; right; right; exact ⟨p, by simp [parseStep, hty, hmv, hn]⟩
    · right; right; left; simp [parseStep, hty, hmv]

theorem parseStep_noKids (a : ParseAcc) (m : ShadowViewMutation) (hs : NoKids a.s) :
    NoKids (parseStep a m).s := by
  rcases parseStep_forms a m with h | h | h | ⟨p, h⟩
  · rw [h]; exact parseRemove_noKids a m hs
  · rw [h]; exact hs
  · rw [h]; exact hs
  · rw [h]
    exact hs.noKids_modify p (fun x => { x with mutation :=
      { x.mutation with oldChildShadowView := m.oldChildShadowView } }) (fun _ => rfl)

theorem foldl_parseStep_noKids : ∀ (l : ShadowViewMutationList) (a : ParseAcc),
    NoKids a.s → NoKids (l.foldl parseStep a).s := by
  intro l
  induction l with
  | nil => intro a h; exact h
  | cons m l ih => intro a h; exact ih _ (parseStep_noKids a m h)

theorem pushChild_perm (k : Tag) (c : Ptr) : ∀ (l : List (Tag × List Ptr)),
    (listed (pushChild k c l)).Perm (c :: listed l) := by
  intro l
  induction l with
  | nil => simp [pushChild, listed]
  | cons e l ih =>
    obtain ⟨k1, l1⟩ := e
    simp only [pushChild]
    split
    · simp only [listed, List.append_assoc, List.singleton_append]
      exact List.perm_middle
    · simp only [listed]
      exact (List.Perm.append_left l1 ih).trans List.perm_middle

theorem parseRemove_lists (a : ParseAcc) (m0 : ShadowViewMutation) :
    (parseRemove a m0).unflattenedChildrenForTag =
      pushChild (updateIndexForMutation a.s m0).parentTag a.s.next
        a.unflattenedChildrenForTag := by
  have h := (makeMutationNode_spec a.s (updateIndexForMutation a.s m0)
    (a.s.nodeForTag (updateIndexForMutation a.s m0).oldChildShadowView.tag)).1
  rw [← h]
  simp only [parseRemove]

/-- The reverse scan collects every built node once. -/
theorem parseStep_listed {t : Tag} (a : ParseAcc) (m : ShadowViewMutation) (hP : PInv t a)
    (hl : (listed a.unflattenedChildrenForTag).Nodup) :
    (listed (parseStep a m).unflattenedChildrenForTag).Nodup := by
  have hlt : ∀ x ∈ listed a.unflattenedChildrenForTag, x < a.s.next := by
    have : ∀ (l : List (Tag × List Ptr)), (∀ e ∈ l, ValidNodes a.s e.2) →
        ∀ x ∈ listed l, x < a.s.next := by
      intro l
      induction l with
      | nil => intro _ x hx; simp [listed] at hx
      | cons e l ih =>
        intro hv x hx
        simp only [listed, List.mem_append] at hx
        rcases hx with hx | hx
        · exact (hv e (List.mem_cons_self _ _) x hx).1
        · exact ih (fun e1 he1 => hv e1 (List.mem_cons_of_mem _ he1)) x hx
    exact this _ hP.lists
  rcases parseStep_forms a m with h | h | h | ⟨p, h⟩
  · rw [h, parseRemove_lists]
    refine (pushChild_perm _ _ _).nodup_iff.mpr (List.nodup_cons.mpr ⟨fun hmem => ?_, hl⟩)
    exact absurd (hlt _ hmem) (lt_irrefl _)
  · rw [h]; exact hl
  · rw [h]; exact hl
  · rw [h]; exact hl

theorem foldl_parseStep_listed {t : Tag} : ∀ (l : ShadowViewMutationList) (a : ParseAcc),
    PInv t a →
    (∀ m ∈ l, m.type = .Delete → m.oldChildShadowView.tag ≠ t) →
    (∀ m ∈ l, m.type = .Update → m.oldChildShadowView.tag = m.newChildShadowView.tag) →
    (listed a.unflattenedChildrenForTag).Nodup →
    (listed (l.foldl parseStep a).unflattenedChildrenForTag).Nodup := by
  intro l
  induction l with
  | nil => intro a _ _ _ h; exact h
  | cons m l ih =>
    intro a hP hdel hupd h
    obtain ⟨q1, _⟩ := parseStep_inv a m hP (hdel m (List.mem_cons_self _ _))
      (hupd m (List.mem_cons_self _ _))
    exact ih (parseStep a m) q1 (fun x hx => hdel x (List.mem_cons_of_mem _ hx))
      (fun x hx => hupd x (List.mem_cons_of_mem _ hx)) (parseStep_listed a m hP h)

theorem foldl_setField_kids (f : Ptr → Node → Node)
    (hf : ∀ u x, (f u x).unflattenedChildren = x.unflattenedChildren) :
    ∀ (cs : List Ptr) (s : State) (q : Ptr),
      ((cs.foldl (fun acc sub => acc.modifyNode sub (f sub)) s).heap q).unflattenedChildren =
        (s.heap q).unflattenedChildren := by
  intro cs
  induction cs with
  | nil => intro s q; rfl
  | cons c cs ih =>
    intro s q
    simp only [List.foldl_cons]
    rw [ih, kids_modify s c (f c) q (hf c)]

theorem attachChildren_noKids : ∀ (l : List (Tag × List Ptr)) (s : State), NoKids s →
    NoKids (attachChildren s l) := by
  intro l
  induction l with
  | nil => intro s hs; exact hs
  | cons e l ih =>
    intro s hs
    simp only [attachChildren, List.foldl_cons]
    cases hn : s.nodeForTag e.1 with
    | none => exact ih s hs
    | some parent =>
      refine ih _ (fun q => ?_)
      rw [foldl_setField_kids (fun _ x => { x with parent := parent }) (fun _ _ => rfl)]
      simp only [insertChildren]
      refine Eq.trans (kids_modify _ _ _ _ ?_) (hs q)
      intro x
      rfl

theorem foldl_setParent (parent : Ptr) : ∀ (cs : List Ptr) (s : State),
    (∀ c ∈ cs, ((cs.foldl (fun acc child =>
      acc.modifyNode child (fun x => { x with unflattenedParent := parent })) s).heap
        c).unflattenedParent = parent) ∧
    (∀ c, c ∉ cs → ((cs.foldl (fun acc child =>
      acc.modifyNode child (fun x => { x with unflattenedParent := parent })) s).heap
        c).unflattenedParent = (s.heap c).unflattenedParent) := by
  intro cs
  induction cs with
  | nil => intro s; exact ⟨fun c hc => (by cases hc), fun c _ => rfl⟩
  | cons d cs ih =>
    intro s
    simp only [List.foldl_cons]
    obtain ⟨h1, h2⟩ := ih (s.modifyNode d (fun x => { x with unflattenedParent := parent }))
    refine ⟨fun c hc => ?_, fun c hc => ?_⟩
    · by_cases hcs : c ∈ cs
      · exact h1 c hcs
      · have hcd : c = d := by
          rcases List.mem_cons.mp hc with h | h
          · exact h
          · exact absurd h hcs
        rw [h2 c hcs, hcd]
        simp [State.modifyNode, State.setNode, State.node]
    · have hcd : c ≠ d := fun h => hc (h ▸ List.mem_cons_self _ _)
      have hcs : c ∉ cs := fun h => hc (List.mem_cons_of_mem _ h)
      rw [h2 c hcs]
      simp [State.modifyNode, State.setNode, State.node, Function.update_noteq hcd]

/-- After the children collected by the scan are attached, every unflattened
child points back to the node that lists it. -/
theorem attachUnflattenedChildren_parentOK : ∀ (l : List (Tag × List Ptr)) (s : State),
    (listed l).Nodup →
    (∀ p c, c ∈ (s.heap p).unflattenedChildren →
      (s.heap c).unflattenedParent = p ∧ c ∉ listed l) →
    ParentOK (attachUnflattenedChildren s l).heap := by
  intro l
  induction l with
  | nil => intro s _ h p c hc; exact (h p c hc).1
  | cons e l ih =>
    intro s hnd h
    simp only [listed] at hnd
    have hnd2 : (listed l).Nodup := (List.nodup_append.mp hnd).2.1
    have hdisj : ∀ x, x ∈ e.2 → x ∉ listed l := fun x hx hx2 =>
      (List.nodup_append.mp hnd).2.2 hx hx2
    simp only [attachUnflattenedChildren, List.foldl_cons]
    cases hn : s.nodeForTag e.1 with
    | none =>
      exact ih s hnd2 (fun p c hc => ⟨(h p c hc).1, fun hx => (h p c hc).2 (by
        simp only [listed, List.mem_append]; right; exact hx)⟩)
    | some parent =>
      refine ih _ hnd2 (fun p c hc => ?_)
      obtain ⟨g1, g2⟩ := foldl_setParent parent e.2 (insertUnflattenedChildren s parent e.2)
      rw [foldl_setField_kids (fun _ x => { x with unflattenedParent := parent })
        (fun _ _ => rfl)] at hc
      have hup : ∀ x, ((insertUnflattenedChildren s parent e.2).heap x).unflattenedParent =
          (s.heap x).unflattenedParent := by
        intro x
        by_cases hx : x = parent
        · subst hx
          simp [insertUnflattenedChildren, State.modifyNode, State.setNode, State.node]
        · simp [insertUnflattenedChildren, State.modifyNode, State.setNode, State.node,
            Function.update_noteq hx]
      have hold : c ∈ (s.heap p).unflattenedChildren ∨ (p = parent ∧ c ∈ e.2) := by
        by_cases hp : p = parent
        · subst hp
          simp only [insertUnflattenedChildren, State.modifyNode, State.setNode, State.node,
            Function.update_same] at hc
          rcases mem_mergeChildren _ _ _ _ c hc with h1 | h1
          · left; exact h1
          · right; exact ⟨rfl, h1⟩
        · left
          simpa [insertUnflattenedChildren, State.modifyNode, State.setNode, State.node,
            Function.update_noteq hp] using hc
      by_cases hce : c ∈ e.2
      · rcases hold with h1 | ⟨h1, _⟩
        · exact absurd (by simp only [listed, List.mem_append]; left; exact hce) (h p c h1).2
        · exact ⟨by rw [g1 c hce, h1], hdisj c hce⟩
      · rcases hold with h1 | ⟨_, h1⟩
        · refine ⟨by rw [g2 c hce, hup]; exact (h p c h1).1, fun hx => (h p c h1).2 ?_⟩
          simp only [listed, List.mem_append]; right; exact hx
        · exact absurd h1 hce

/-- A path from a root visits allocated mutation nodes, each once. -/
theorem Path.facts {t : Tag} {h : Ptr → Node} {n : Nat} {r : Ptr} (hinv : RemInv t h n)
    (hpo : ParentOK h) (hr1 : r < n) (hr2 : (h r).isMutation = true)
    (hr3 : (h (h r).unflattenedParent).isMutation = false) :
    ∀ (l : List Ptr), Path h r l →
      l.Nodup ∧ (∀ x ∈ l, x < n ∧ (h x).isMutation = true) ∧
      List.Chain' (fun c x => (h c).unflattenedParent = x) l ∧ l.getLast? = some r := by
  intro l hl
  induction hl with
  | root =>
    exact ⟨List.nodup_singleton r, fun x hx => by
      rw [List.mem_singleton] at hx; subst hx; exact ⟨hr1, hr2⟩,
      List.chain'_singleton r, rfl⟩
  | @down x c l _ hc ih =>
    obtain ⟨i1, i2, i3, i4⟩ := ih
    obtain ⟨hx1, hx2⟩ := i2 x (List.mem_cons_self _ _)
    obtain ⟨hc2, hc1⟩ := hinv.kids x hx1 c hc
    have hup : (h c).unflattenedParent = x := hpo x c hc
    refine ⟨List.nodup_cons.mpr ⟨fun hmem => ?_, i1⟩, fun y hy => ?_,
      List.chain'_cons.mpr ⟨hup, i3⟩, by rw [List.getLast?_cons_cons]; exact i4⟩
    · obtain ⟨s1, s2, hs⟩ := List.append_of_mem hmem
      cases s2 with
      | nil =>
        rw [hs, List.getLast?_append_of_ne_nil _ (by simp)] at i4
        simp only [List.getLast?_singleton, Option.some.injEq] at i4
        rw [i4] at hup
        rw [hup, hx2] at hr3
        exact absurd hr3 (by simp)
      | cons y s3 =>
        rw [hs] at i3
        have hcy : (h c).unflattenedParent = y :=
          (List.chain'_cons.mp (List.chain'_split.mp i3).2).1
        have hyx : y = x := hcy.symm.trans hup
        subst hyx
        have hxl : y ∉ l := (List.nodup_cons.mp i1).1
        cases s1 with
        | nil =>
          simp only [List.nil_append, List.cons.injEq] at hs
          exact hxl (by rw [hs.2]; exact List.mem_cons_self _ _)
        | cons z s1 =>
          simp only [List.cons_append, List.cons.injEq] at hs
          exact hxl (by rw [hs.2]; simp)
    · rcases List.mem_cons.mp hy with hy | hy
      · rw [hy]; exact ⟨hc1, hc2⟩
      · exact i2 y hy

theorem length_le_of_nodup_lt (n : Nat) (l : List Nat) (hnd : l.Nodup)
    (hlt : ∀ x ∈ l, x < n) : l.length ≤ n := by
  have h1 : l.toFinset ⊆ Finset.range n := by
    intro x hx
    rw [List.mem_toFinset] at hx
    exact Finset.mem_range.mpr (hlt x hx)
  have h2 := Finset.card_le_card h1
  rw [List.toFinset_card_of_nodup hnd, Finset.card_range] at h2
  exact h2

/-- The unflattened subtree below a root has fewer levels than the heap has
allocated nodes. -/
theorem HtLe.of_root {t : Tag} {h : Ptr → Node} {n : Nat} {r : Ptr} (hinv : RemInv t h n)
    (hpo : ParentOK h) (hr1 : r < n) (hr2 : (h r).isMutation = true)
    (hr3 : (h (h r).unflattenedParent).isMutation = false) : HtLe h n r := by
  have key : ∀ (k : Nat) (x : Ptr) (l : List Ptr), Path h r (x :: l) →
      (x :: l).length + k = n + 1 → HtLe h k x := by
    intro k
    induction k with
    | zero =>
      intro x l hp hlen
      obtain ⟨g1, g2, _, _⟩ := Path.facts hinv hpo hr1 hr2 hr3 _ hp
      have := length_le_of_nodup_lt n (x :: l) g1 (fun y hy => (g2 y hy).1)
      omega
    | succ k ih =>
      intro x l hp hlen c hc
      exact ih c (x :: l) (Path.down hp hc) (by simp only [List.length_cons] at hlen ⊢; omega)
  exact key n r [] Path.root (by simp; omega)

/-- After `parseRemoveMutations` on a fresh engine every unflattened child points
back to the node that lists it. -/
theorem parseRemoveMutations_parentOK {t : Tag} (mutations : ShadowViewMutationList)
    (hdel : ∀ m ∈ mutations, m.type = .Delete → m.oldChildShadowView.tag ≠ t)
    (hupd : ∀ m ∈ mutations, m.type = .Update →
      m.oldChildShadowView.tag = m.newChildShadowView.tag) :
    ParentOK (parseRemoveMutations State.fresh mutations).s.heap := by
  obtain ⟨init, hinit⟩ : ∃ init : ParseAcc, init =
      { s := State.fresh, deletedViews := [], movedViews := fun _ => none,
        childrenForTag := [], unflattenedChildrenForTag := [], mutationNodes := [] } :=
    ⟨_, rfl⟩
  have hP0 : PInv t init := by
    rw [hinit]
    exact PInv.mk (PS.fresh t) (fun c hc => by cases hc) (fun e he => by cases he) (by simp)
  have hk0 : NoKids init.s := by
    rw [hinit]
    intro q
    simp [State.fresh, plainNode]
  have hl0 : (listed init.unflattenedChildrenForTag).Nodup := by
    rw [hinit]
    simp [listed]
  obtain ⟨a, ha⟩ : ∃ a, a = mutations.reverse.foldl parseStep init := ⟨_, rfl⟩
  have hk := foldl_parseStep_noKids mutations.reverse init hk0
  have hl := foldl_parseStep_listed mutations.reverse init hP0
    (fun m hm => hdel m (List.mem_reverse.mp hm))
    (fun m hm => hupd m (List.mem_reverse.mp hm)) hl0
  rw [← ha] at hk hl
  have hk1 := attachChildren_noKids a.childrenForTag a.s hk
  have hres : (parseRemoveMutations State.fresh mutations).s =
      attachUnflattenedChildren (attachChildren a.s a.childrenForTag)
        a.unflattenedChildrenForTag := by
    rw [ha, hinit]; rfl
  rw [hres]
  refine attachUnflattenedChildren_parentOK _ _ hl (fun p c hc => ?_)
  rw [hk1 p] at hc
  exact absurd hc (by simp)

/-- With a budget of at least the number of allocated nodes, `pullTransaction` on
a fresh engine returns. -/
theorem pullTransaction_fresh_some {t : Tag} (mgr : Manager) (sid : SurfaceId)
    (batch : ShadowViewMutationList)
    (hdel : ∀ m ∈ batch, m.type = .Delete → m.oldChildShadowView.tag ≠ t)
    (hupd : ∀ m ∈ batch, m.type = .Update →
      m.oldChildShadowView.tag = m.newChildShadowView.tag)
    (fuel : Nat) (hfuel : (parseRemoveMutations State.fresh batch).s.next ≤ fuel) :
    ∃ w, pullTransaction mgr fuel State.fresh sid batch = some w := by
  obtain ⟨hps, hroots, _, _⟩ :=
    parseRemoveMutations_inv State.fresh batch (PS.fresh t) hdel hupd
  have hpo := @parseRemoveMutations_parentOK t batch hdel hupd
  have hr : ∀ p ∈ (parseRemoveMutations State.fresh batch).roots,
      ((parseRemoveMutations State.fresh batch).s.heap
        ((parseRemoveMutations State.fresh batch).s.heap p).unflattenedParent).isMutation
        = false := by
    intro p hp
    have : (parseRemoveMutations State.fresh batch).roots =
        (parseRemoveMutations State.fresh batch).mutationNodes.filter
        (fun p => !((parseRemoveMutations State.fresh batch).s.node
          ((parseRemoveMutations State.fresh batch).s.node p).unflattenedParent).isMutation) :=
      rfl
    rw [this] at hp
    simpa [State.node] using (List.mem_filter.mp hp).2
  obtain ⟨w1, hw1⟩ := handleRemovals_some mgr fuel
    (parseRemoveMutations State.fresh batch).roots
    (parseRemoveMutations State.fresh batch).s [] hps.1.remInv hps.2.2
    (fun p hp => ⟨(hroots p hp).1, (hroots p hp).2,
      HtLe.of_le hfuel (HtLe.of_root hps.1.remInv hpo (hroots p hp).1 (hroots p hp).2
        (hr p hp))⟩)
  unfold pullTransaction
  simp only [hw1]
  exact ⟨_, rfl⟩




theorem Reach.last {h : Ptr → Node} {a c : Ptr} (hr : Reach h a c) :
    a = c ∨ ∃ y, Reach h a y ∧ c ∈ (h y).unflattenedChildren := by
  induction hr with
  | refl p => left; rfl
  | @step p c z hc _ ih =>
    right
    rcases ih with h1 | ⟨y, hy1, hy2⟩
    · subst h1
      exact ⟨p, Reach.refl p, hc⟩
    · exact ⟨y, Reach.step hc hy1, hy2⟩

/-- Two nodes above the same node are one above the other. -/
theorem Reach.comparable {h : Ptr → Node} (hpo : ParentOK h) {a b z : Ptr}
    (ha : Reach h a z) (hb : Reach h b z) : Reach h a b ∨ Reach h b a := by
  induction ha with
  | refl p => right; exact hb
  | @step p c z hc _ ih =>
    rcases ih hb with h1 | h1
    · left; exact Reach.step hc h1
    · rcases h1.last with h2 | ⟨y, hy1, hy2⟩
      · subst h2
        left; exact Reach.step hc (Reach.refl _)
      · have : y = p := (hpo y c hy2).symm.trans (hpo p c hc)
        subst this
        right; exact hy1

theorem HtLe.down {h : Ptr → Node} {x y : Ptr} (hr : Reach h x y) :
    ∀ k, HtLe h k x → HtLe h k y := by
  induction hr with
  | refl p => intro k hk; exact hk
  | @step p c z hc _ ih =>
    intro k hk
    cases k with
    | zero => exact absurd hk (by simp [HtLe])
    | succ k => exact ih (k + 1) (HtLe.mono k c (hk c hc))

/-- A node of bounded height is not below one of its children. -/
theorem HtLe.acyclic {h : Ptr → Node} : ∀ (k : Nat) (p c : Ptr), HtLe h k p →
    c ∈ (h p).unflattenedChildren → ¬ Reach h c p := by
  intro k
  induction k with
  | zero => intro p c hk; exact absurd hk (by simp [HtLe])
  | succ k ih =>
    intro p c hk hc hr
    exact ih p c (HtLe.down hr k (hk c hc)) hc hr

/-- The subtrees of two different children of a node are disjoint. -/
theorem Reach.disjoint {h : Ptr → Node} (hpo : ParentOK h) {k : Nat} {p c d z : Ptr}
    (hk : HtLe h k p) (hc : c ∈ (h p).unflattenedChildren)
    (hd : d ∈ (h p).unflattenedChildren) (hcd : c ≠ d) (h1 : Reach h c z) :
    ¬ Reach h d z := by
  intro h2
  have key : ∀ (c d : Ptr), c ∈ (h p).unflattenedChildren → d ∈ (h p).unflattenedChildren →
      c ≠ d → Reach h c d → False := by
    intro c d hc hd hcd hr
    rcases hr.last with h3 | ⟨y, hy1, hy2⟩
    · exact hcd h3
    · have : y = p := (hpo y d hy2).symm.trans (hpo p d hd)
      subst this
      exact HtLe.acyclic k y c hk hc hy1
  rcases Reach.comparable hpo h1 h2 with h3 | h3
  · exact key c d hc hd hcd h3
  · exact key d c hd hc (Ne.symm hcd) h3

theorem Agree.rfl_agree (x : Node) : Agree x x := ⟨rfl, rfl⟩

theorem Agree.trans_agree {x y z : Node} (h1 : Agree x y) (h2 : Agree y z) : Agree x z :=
  ⟨Eq.trans h1.1 h2.1, h1.2.trans h2.2⟩

theorem Same.fields {x y : Node} (h : Same x y) :
    x.tag = y.tag ∧ x.isMutation = y.isMutation ∧ x.mutation = y.mutation ∧
    x.state = y.state ∧ x.unflattenedParent = y.unflattenedParent ∧ x.parent = y.parent := by
  have h1 : strip x = strip y := h
  have a1 : (strip x).tag = (strip y).tag := congrArg Node.tag h1
  have a2 : (strip x).isMutation = (strip y).isMutation := congrArg Node.isMutation h1
  have a3 : (strip x).mutation = (strip y).mutation := congrArg Node.mutation h1
  have a4 : (strip x).state = (strip y).state := congrArg Node.state h1
  have a5 : (strip x).unflattenedParent = (strip y).unflattenedParent :=
    congrArg Node.unflattenedParent h1
  have a6 : (strip x).parent = (strip y).parent := congrArg Node.parent h1
  exact ⟨a1, a2, a3, a4, a5, a6⟩

theorem removeChild_same (s : State) (self child z : Ptr) :
    Same ((removeChildFromUnflattenedTree s self child).heap z) (s.heap z) ∧
    (z ≠ self → Agree ((removeChildFromUnflattenedTree s self child).heap z) (s.heap z)) := by
  have h := removeChildFromUnflattenedTree_node s self child z
  simp only [State.node] at h
  refine ⟨by rw [h]; rfl, fun hz => ⟨by rw [h]; rfl, by rw [h]; simp [hz]⟩⟩

theorem foldl_removeChild_same (node : Ptr) : ∀ (tbr : List Ptr) (s : State),
    (∀ z, Same ((tbr.foldl (fun acc sub => removeChildFromUnflattenedTree acc node sub)
        s).heap z) (s.heap z)) ∧
    (∀ z, z ≠ node → Agree ((tbr.foldl (fun acc sub =>
        removeChildFromUnflattenedTree acc node sub) s).heap z) (s.heap z)) ∧
    (tbr.foldl (fun acc sub => removeChildFromUnflattenedTree acc node sub) s).nodeForTag
      = s.nodeForTag := by
  intro tbr
  induction tbr with
  | nil => intro s; exact ⟨fun z => rfl, fun z _ => Agree.rfl_agree _, rfl⟩
  | cons c tbr ih =>
    intro s
    simp only [List.foldl_cons]
    obtain ⟨h1, h2, h3⟩ := ih (removeChildFromUnflattenedTree s node c)
    refine ⟨fun z => Eq.trans (h1 z) (removeChild_same s node c z).1,
      fun z hz => (h2 z hz).trans_agree ((removeChild_same s node c z).2 hz), ?_⟩
    rw [h3, removeChildFromUnflattenedTree_nodeForTag]

/-- The loop body on a pristine child without exit animation: the subtree of the
child is emitted, then the child's Remove and Delete; the child is queued for
detaching. -/
theorem startLoopStep_removes (mgr : Manager) (h0 : Ptr → Node) (fuel : Nat)
    (hrec : RecOK mgr h0 fuel) (sa sp : Bool) (l : StartLoop) (c : Ptr)
    (hht : HtLe h0 fuel c) (hund : (h0 c).state = .UNDEFINED)
    (hne : ∀ log, mgr.hasLayoutAnimation log (h0 c).tag .EXITING = false)
    (hprist : ∀ z, Reach h0 c z → Agree (l.s.heap z) (h0 z)) :
    ∃ l1, startLoopStep (endAnimationsRecursively fuel)
        (fun subNode w => startAnimationsRecursively mgr fuel subNode true sa sp w)
        sa true (some l) c = some l1 ∧
      l1.hasAnimatedChildren = l.hasAnimatedChildren ∧
      l1.toBeRemoved = l.toBeRemoved ++ [c] ∧
      l1.mutations = l.mutations ++ (outOf h0 fuel c ++ pairOf h0 c) ∧
      (∀ z, ¬ Reach h0 c z → Agree (l1.s.heap z) (l.s.heap z)) ∧
      (∀ k, l.s.nodeForTag k = none → l1.s.nodeForTag k = none) ∧
      (∀ z, Reach h0 c z → l1.s.nodeForTag (h0 z).tag = none) := by
  obtain ⟨s1, hrun, hp1, hp2, hp3, hp4⟩ := hrec c l.s l.mutations sa sp hht hund hne hprist
  have hc0 : Agree (l.s.heap c) (h0 c) := hprist c (Reach.refl c)
  have hst : (l.s.heap c).state = .UNDEFINED := by rw [hc0.1.fields.2.2.2.1]; exact hund
  obtain ⟨f1, _, f3, f4, _, _⟩ := hp2.fields
  have hst1 : (s1.heap c).state = .UNDEFINED := by rw [f4]; exact hst
  have htag1 : (s1.heap c).tag = (h0 c).tag := by rw [f1]; exact hc0.1.fields.1
  have hmut1 : (s1.heap c).mutation = (h0 c).mutation := by
    rw [f3]; exact hc0.1.fields.2.2.1
  unfold startLoopStep
  simp only [State.node, hst, hrun, hst1, ne_eq, not_true_eq_false, false_and, if_false,
    reduceCtorEq, if_true]
  refine ⟨_, rfl, rfl, rfl, ?_, ?_, ?_, ?_⟩
  · simp only [hmut1, pairOf, List.append_assoc]
  · intro z hz
    have hzc : z ≠ c := fun h => hz (by rw [h]; exact Reach.refl c)
    have : ((maybeCancelAnimation s1 (s1.heap c).tag).modifyNode c
        (fun x => { x with state := .DELETED })).heap z = s1.heap z := by
      simp [State.modifyNode, State.setNode, State.node, Function.update_noteq hzc,
        maybeCancelAnimation_heap]
    simp only
    rw [this]
    exact hp1 z hz
  · intro k hk
    simp only [State.modifyNode, State.setNode]
    by_cases hkk : k = (s1.heap c).tag
    · rw [hkk]; simp
    · rw [Function.update_noteq hkk, maybeCancelAnimation_nodeForTag]
      exact hp3 k hk
  · intro z hz
    simp only [State.modifyNode, State.setNode]
    by_cases hzc : z = c
    · rw [hzc, htag1]; simp
    · by_cases hkk : (h0 z).tag = (s1.heap c).tag
      · rw [hkk]; simp
      · rw [Function.update_noteq hkk, maybeCancelAnimation_nodeForTag]
        exact hp4 z hz hzc

theorem pairsOut_append (g : Ptr → ShadowViewMutationList) (a b : List Ptr) :
    pairsOut g (a ++ b) = pairsOut g a ++ pairsOut g b := by
  induction a with
  | nil => rfl
  | cons c a ih =>
    show g c ++ pairsOut g (a ++ b) = (g c ++ pairsOut g a) ++ pairsOut g b
    rw [ih, List.append_assoc]

/-- The loop over the pristine children of `p`: every child is handled as in
`startLoopStep_removes`. -/
theorem startLoop_removes (mgr : Manager) (h0 : Ptr → Node) (fuel : Nat)
    (hsh : Shape10 mgr h0) (hrec : RecOK mgr h0 fuel) (sa sp : Bool) (p : Ptr) (s : State)
    (m : ShadowViewMutationList) (hht : HtLe h0 (fuel + 1) p)
    (hprist : ∀ z, Reach h0 p z → Agree (s.heap z) (h0 z)) :
    ∀ (todo done : List Ptr) (l : StartLoop),
      (done ++ todo).Nodup → (∀ c ∈ done ++ todo, c ∈ (h0 p).unflattenedChildren) →
      Linv h0 (fun c => outOf h0 fuel c ++ pairOf h0 c) s m done l →
      ∃ l1, todo.foldl (startLoopStep (endAnimationsRecursively fuel)
          (fun subNode w => startAnimationsRecursively mgr fuel subNode true sa sp w)
          sa true) (some l) = some l1 ∧
        Linv h0 (fun c => outOf h0 fuel c ++ pairOf h0 c) s m (done ++ todo) l1 := by
  intro todo
  induction todo with
  | nil => intro done l _ _ hinv; exact ⟨l, rfl, by simpa using hinv⟩
  | cons c todo ih =>
    intro done l hnd hmem hinv
    obtain ⟨i1, i2, i3, i4, i5, i6⟩ := hinv
    have hc : c ∈ (h0 p).unflattenedChildren := hmem c (by simp)
    have hcd : ∀ d ∈ done, c ≠ d := by
      intro d hd hcd
      rw [List.nodup_append] at hnd
      exact hnd.2.2 hd (by rw [← hcd]; exact List.mem_cons_self _ _)
    have hpr : ∀ z, Reach h0 c z → Agree (l.s.heap z) (h0 z) := by
      intro z hz
      refine (i4 z (fun d hd => ?_)).trans_agree (hprist z (Reach.step hc hz))
      exact Reach.disjoint hsh.parentOK hht hc (hmem d (by simp [hd])) (hcd d hd) hz
    obtain ⟨l1, hl1, j1, j2, j3, j4, j5, j6⟩ := startLoopStep_removes mgr h0 fuel hrec sa sp
      l c (hht c hc) (hsh.und p c hc) (hsh.noExit p c hc) hpr
    have hinv1 : Linv h0 (fun c => outOf h0 fuel c ++ pairOf h0 c) s m (done ++ [c]) l1 := by
      refine ⟨by rw [j1, i1], by rw [j2, i2], ?_, fun z hz => ?_, fun k hk => j5 k (i5 k hk),
        fun d hd z hz => ?_⟩
      · rw [j3, i3, pairsOut_append]
        simp only [pairsOut, List.append_nil, List.append_assoc]
      · refine (j4 z (hz c (by simp))).trans_agree (i4 z (fun d hd => hz d (by simp [hd])))
      · rcases List.mem_append.mp hd with hd | hd
        · exact j5 _ (i6 d hd z hz)
        · rw [List.mem_singleton] at hd
          subst hd
          exact j6 z hz
    obtain ⟨l2, hl2, hinv2⟩ := ih (done ++ [c]) l1 (by simpa using hnd)
      (fun x hx => hmem x (by simpa using hx)) hinv1
    refine ⟨l2, ?_, by simpa using hinv2⟩
    simp only [List.foldl_cons, hl1]
    exact hl2

/-- On a pristine subtree without exit animation `startAnimationsRecursively`
returns `false`, emits the subtree from the leaves upwards and leaves the node
itself unclassified. -/
theorem startAnimationsRecursively_removes (mgr : Manager) (h0 : Ptr → Node)
    (hsh : Shape10 mgr h0) : ∀ fuel, RecOK mgr h0 fuel := by
  intro fuel
  induction fuel with
  | zero => intro c s m b c0 hht; exact absurd hht (by simp [HtLe])
  | succ fuel ih =>
    intro c s m b c0 hht hund hne hprist
    have hp0 : Agree (s.heap c) (h0 c) := hprist c (Reach.refl c)
    obtain ⟨f1, _, f3, f4, _, _⟩ := hp0.1.fields
    have aux : ∀ sa sp : Bool, ∃ s1,
        (match (s.heap c).unflattenedChildren.reverse.foldl
            (startLoopStep (endAnimationsRecursively fuel)
              (fun subNode w => startAnimationsRecursively mgr fuel subNode true sa sp w)
              sa true)
            (some { hasAnimatedChildren := false, toBeRemoved := [], s := s,
                    mutations := m }) with
          | none => none
          | some l => some (startFinish c false l))
          = some (false, s1, m ++ outOf h0 (fuel + 1) c) ∧ Post10 h0 c s s1 := by
      intro sa sp
      have hL : (s.heap c).unflattenedChildren = (h0 c).unflattenedChildren := hp0.2
      obtain ⟨l1, hl1, i1, i2, i3, i4, i5, i6⟩ := startLoop_removes mgr h0 fuel hsh ih sa sp
        c s m hht hprist (h0 c).unflattenedChildren.reverse []
        { hasAnimatedChildren := false, toBeRemoved := [], s := s, mutations := m }
        (by simpa using hsh.nodup c) (by simp)
        ⟨rfl, rfl, by simp [pairsOut], fun z _ => Agree.rfl_agree _, fun k hk => hk,
          fun d hd => by cases hd⟩
      simp only [List.nil_append] at i2 i3 i4 i6
      rw [hL, hl1]
      obtain ⟨g1, g2, g3⟩ := foldl_removeChild_same c l1.toBeRemoved l1.s
      obtain ⟨S, hS⟩ : ∃ S, S = l1.toBeRemoved.foldl
          (fun acc subNode => removeChildFromUnflattenedTree acc c subNode) l1.s := ⟨_, rfl⟩
      rw [← hS] at g1 g2 g3
      have hcl : Agree (l1.s.heap c) (s.heap c) := i4 c (fun d hd =>
        HtLe.acyclic (fuel + 1) c d hht (List.mem_reverse.mp hd))
      have hst : (S.heap c).state = .UNDEFINED := by
        rw [(g1 c).fields.2.2.2.1, hcl.1.fields.2.2.2.1, f4]; exact hund
      refine ⟨S.logCall (ManagerCall.clearLayoutAnimationConfig (S.heap c).tag), ?_, ?_⟩
      · simp only [startFinish, State.node, ← hS, hst, reduceCtorEq, if_false, Bool.false_or,
          i1, Bool.false_eq_true]
        rw [i3]
        rfl
      · refine ⟨fun z hz => ?_, ?_, fun k hk => ?_, fun z hz hzc => ?_⟩
        · have hzc : z ≠ c := fun h => hz (by rw [h]; exact Reach.refl c)
          refine Agree.trans_agree (g2 z hzc) (i4 z (fun d hd hdz => ?_))
          exact hz (Reach.step (List.mem_reverse.mp hd) hdz)
        · exact Eq.trans (g1 c) hcl.1
        · show S.nodeForTag k = none
          rw [g3]; exact i5 k hk
        · show S.nodeForTag (h0 z).tag = none
          rw [g3]
          cases hz with
          | refl => exact absurd rfl hzc
          | step hd hdz => exact i6 _ (List.mem_reverse.mpr hd) z hdz
    unfold startAnimationsRecursively
    simp only [State.node, f1, hne, Bool.and_false, Bool.not_false, Bool.true_or,
      Bool.and_true, Bool.true_and, Bool.and_self]
    exact aux _ _

theorem Reach.mutation {mgr : Manager} {h0 : Ptr → Node} (hsh : Shape10 mgr h0) {r z : Ptr}
    (hr : Reach h0 r z) (hm : (h0 r).isMutation = true) : (h0 z).isMutation = true := by
  induction hr with
  | refl p => exact hm
  | @step p c z hc _ ih => exact ih (hsh.kidsMut p c hc)

/-- The subtrees of two different roots are disjoint. -/
theorem IsRoot.roots_disjoint {mgr : Manager} {h0 : Ptr → Node} (hsh : Shape10 mgr h0) {r d z : Ptr}
    (hr : IsRoot mgr h0 r) (hd : IsRoot mgr h0 d) (hrd : r ≠ d) (h1 : Reach h0 r z) :
    ¬ Reach h0 d z := by
  intro h2
  have key : ∀ (r d : Ptr), IsRoot mgr h0 r → IsRoot mgr h0 d → r ≠ d → Reach h0 r d →
      False := by
    intro r d hr hd hrd h
    rcases h.last with h3 | ⟨y, hy1, hy2⟩
    · exact hrd h3
    · have hy : (h0 y).isMutation = true := Reach.mutation hsh hy1 hr.1
      rw [← hsh.parentOK y d hy2, hd.2.2.2] at hy
      exact absurd hy (by simp)
  rcases Reach.comparable hsh.parentOK h1 h2 with h3 | h3
  · exact key r d hr hd hrd h3
  · exact key d r hd hr (Ne.symm hrd) h3

/-- The loop body of `handleRemovals` on a pristine root without exit animation:
the subtree is emitted, then the Remove and the Delete of the root. -/
theorem handleRoots_single (mgr : Manager) (h0 : Ptr → Node) (hsh : Shape10 mgr h0)
    (fuel : Nat) (r : Ptr) (hr : IsRoot mgr h0 r) (hht : HtLe h0 fuel r) (s : State)
    (m : ShadowViewMutationList) (hprist : ∀ z, Reach h0 r z → Agree (s.heap z) (h0 z)) :
    ∃ s1, handleRoots mgr fuel [r] (s, m)
        = some (s1, m ++ (outOf h0 fuel r ++ pairOf h0 r)) ∧
      (∀ z, (h0 z).isMutation = true → ¬ Reach h0 r z → Agree (s1.heap z) (s.heap z)) ∧
      (∀ k, s.nodeForTag k = none → s1.nodeForTag k = none) ∧
      (∀ z, Reach h0 r z → s1.nodeForTag (h0 z).tag = none) := by
  obtain ⟨s1, hrun, hp1, hp2, hp3, hp4⟩ := startAnimationsRecursively_removes mgr h0 hsh fuel
    r s m true false hht hr.2.1 hr.2.2.1 hprist
  have hp0 : Agree (s.heap r) (h0 r) := hprist r (Reach.refl r)
  have hs1 : Same (s1.heap r) (h0 r) := Eq.trans hp2 hp0.1
  obtain ⟨f1, _, f3, f4, f5, _⟩ := hs1.fields
  obtain ⟨S2, hS2⟩ : ∃ S2, S2 = removeChildFromUnflattenedTree s1
      (s1.heap r).unflattenedParent r := ⟨_, rfl⟩
  have hs2 : Same (S2.heap r) (s1.heap r) := by
    rw [hS2]; exact (removeChild_same s1 _ r r).1
  obtain ⟨e1, _, e3, e4, _, _⟩ := hs2.fields
  have hst2 : (S2.heap r).state ≠ .MOVED := by
    rw [e4, f4, hr.2.1]; simp
  refine ⟨{ maybeCancelAnimation S2 (S2.heap r).tag with
      nodeForTag := Function.update (maybeCancelAnimation S2 (S2.heap r).tag).nodeForTag
        (S2.heap r).tag none }, ?_, ?_, ?_, ?_⟩
  · unfold handleRoots
    simp only [List.reverse_cons, List.reverse_nil, List.nil_append, List.foldl_cons,
      List.foldl_nil, hrun, State.node, ← hS2, hst2, ne_eq, not_false_eq_true, if_true]
    simp only [f3, e3, pairOf, List.append_assoc, List.singleton_append]
  · intro z hzm hz
    have hzq : z ≠ (s1.heap r).unflattenedParent := by
      intro h
      rw [h, f5, hr.2.2.2] at hzm
      exact absurd hzm (by simp)
    show Agree ((maybeCancelAnimation S2 (S2.heap r).tag).heap z) (s.heap z)
    rw [maybeCancelAnimation_heap, hS2]
    exact ((removeChild_same s1 _ r z).2 hzq).trans_agree (hp1 z hz)
  · intro k hk
    show Function.update (maybeCancelAnimation S2 (S2.heap r).tag).nodeForTag
      (S2.heap r).tag none k = none
    by_cases hkk : k = (S2.heap r).tag
    · rw [hkk]; simp
    · rw [Function.update_noteq hkk, maybeCancelAnimation_nodeForTag, hS2,
        removeChildFromUnflattenedTree_nodeForTag]
      exact hp3 k hk
  · intro z hz
    show Function.update (maybeCancelAnimation S2 (S2.heap r).tag).nodeForTag
      (S2.heap r).tag none (h0 z).tag = none
    by_cases hkk : (h0 z).tag = (S2.heap r).tag
    · rw [hkk]; simp
    · rw [Function.update_noteq hkk, maybeCancelAnimation_nodeForTag, hS2,
        removeChildFromUnflattenedTree_nodeForTag]
      by_cases hzr : z = r
      · exact absurd (by rw [hzr, e1, f1]) hkk
      · exact hp4 z hz hzr

/-- The loop of `handleRemovals` over pristine roots without exit animation. -/
theorem handleRoots_removes (mgr : Manager) (h0 : Ptr → Node) (hsh : Shape10 mgr h0)
    (fuel : Nat) (m : ShadowViewMutationList) :
    ∀ (todo done : List Ptr) (w : Work),
      (done ++ todo).Nodup → (∀ r ∈ done ++ todo, IsRoot mgr h0 r ∧ HtLe h0 fuel r) →
      Rinv h0 (fun r => outOf h0 fuel r ++ pairOf h0 r) m done w →
      ∃ w1, handleRoots mgr fuel todo.reverse w = some w1 ∧
        Rinv h0 (fun r => outOf h0 fuel r ++ pairOf h0 r) m (done ++ todo) w1 := by
  intro todo
  induction todo with
  | nil => intro done w _ _ hinv; exact ⟨w, rfl, by simpa using hinv⟩
  | cons r todo ih =>
    intro done w hnd hroots hinv
    obtain ⟨s, mm⟩ := w
    obtain ⟨i1, i2, i3⟩ := hinv
    simp only at i1 i2 i3
    obtain ⟨hr, hht⟩ := hroots r (by simp)
    have hrd : ∀ d ∈ done, r ≠ d := by
      intro d hd hrd
      rw [List.nodup_append] at hnd
      exact hnd.2.2 hd (by rw [← hrd]; exact List.mem_cons_self _ _)
    have hpr : ∀ z, Reach h0 r z → Agree (s.heap z) (h0 z) := by
      intro z hz
      refine i2 z (Reach.mutation hsh hz hr.1) (fun d hd => ?_)
      exact IsRoot.roots_disjoint hsh hr (hroots d (by simp [hd])).1 (hrd d hd) hz
    obtain ⟨s1, hrun, j1, j2, j3⟩ := handleRoots_single mgr h0 hsh fuel r hr hht s mm hpr
    have hinv1 : Rinv h0 (fun r => outOf h0 fuel r ++ pairOf h0 r) m (done ++ [r])
        (s1, mm ++ (outOf h0 fuel r ++ pairOf h0 r)) := by
      refine ⟨?_, fun z hzm hz => ?_, fun d hd z hz => ?_⟩
      · show mm ++ (outOf h0 fuel r ++ pairOf h0 r) = _
        rw [i1, pairsOut_append]
        simp only [pairsOut, List.append_nil, List.append_assoc]
      · exact (j1 z hzm (hz r (by simp))).trans_agree
          (i2 z hzm (fun d hd => hz d (by simp [hd])))
      · rcases List.mem_append.mp hd with hd | hd
        · exact j2 _ (i3 d hd z hz)
        · rw [List.mem_singleton] at hd
          subst hd
          exact j3 z hz
    obtain ⟨w2, hw2, hinv2⟩ := ih (done ++ [r]) _ (by simpa using hnd)
      (fun x hx => hroots x (by simpa using hx)) hinv1
    refine ⟨w2, ?_, by simpa using hinv2⟩
    unfold handleRoots at hrun hw2 ⊢
    rw [List.reverse_reverse] at hw2 ⊢
    rw [List.reverse_cons, List.reverse_nil, List.nil_append, List.foldl_cons,
      List.foldl_nil] at hrun
    rw [List.foldl_cons, hrun]
    exact hw2

theorem F4eq.of_modify (X : State) (z0 : Ptr) (f : Node → Node) (z : Ptr)
    (hf : ∀ x, F4eq (f x) x) : F4eq ((X.modifyNode z0 f).heap z) (X.heap z) := by
  by_cases hz : z = z0
  · subst hz
    simpa [State.modifyNode, State.setNode, State.node] using hf (X.heap z)
  · simp only [State.modifyNode, State.setNode, State.node, Function.update_noteq hz]
    exact ⟨rfl, rfl, rfl, rfl⟩

theorem F4eq.trans4 {x y z : Node} (h1 : F4eq x y) (h2 : F4eq y z) : F4eq x z :=
  ⟨h1.1.trans h2.1, h1.2.1.trans h2.2.1, h1.2.2.1.trans h2.2.2.1, h1.2.2.2.trans h2.2.2.2⟩

/-- The scan of a Remove whose view is deleted later in the batch, in a state
where the parent has no pending children: a new unclassified mutation node
with the mutation as it is, registered under its tag and collected under the
tag of its parent. -/
theorem parseRemove_deleted (a : ParseAcc) (m : ShadowViewMutation)
    (hidx : updateIndexForMutation a.s m = m)
    (hdel : m.oldChildShadowView.tag ∈ a.deletedViews)
    (hne : m.parentTag ≠ m.oldChildShadowView.tag)
    (htab : ∀ k p, a.s.nodeForTag k = some p → p < a.s.next ∧ (a.s.heap p).tag = k) :
    (parseRemove a m).mutationNodes = a.mutationNodes ++ [a.s.next] ∧
    (parseRemove a m).unflattenedChildrenForTag =
      pushChild m.parentTag a.s.next a.unflattenedChildrenForTag ∧
    (parseRemove a m).deletedViews = a.deletedViews ∧
    a.s.next < (parseRemove a m).s.next ∧
    (∀ z, z < a.s.next → F4eq ((parseRemove a m).s.heap z) (a.s.heap z)) ∧
    F4eq ((parseRemove a m).s.heap a.s.next)
      { plainNode m.oldChildShadowView.tag with isMutation := true, mutation := m } ∧
    (∀ z, a.s.next < z → z < (parseRemove a m).s.next →
      ((parseRemove a m).s.heap z).isMutation = false) ∧
    (parseRemove a m).s.nodeForTag m.oldChildShadowView.tag = some a.s.next ∧
    ((parseRemove a m).s.nodeForTag m.parentTag).isSome = true ∧
    (∀ k, k ≠ m.oldChildShadowView.tag → ∀ p, a.s.nodeForTag k = some p →
      (parseRemove a m).s.nodeForTag k = some p) := by
  have hc : a.deletedViews.contains m.oldChildShadowView.tag = true := by simpa using hdel
  obtain ⟨k1, k2, k3, k4, k5, k6, k7, k8, k9, k10⟩ :=
    makeMutationNode_spec a.s m (a.s.nodeForTag m.oldChildShadowView.tag)
  have hk9 : ((makeMutationNode a.s m (a.s.nodeForTag m.oldChildShadowView.tag)).2.heap
      a.s.next).tag = m.oldChildShadowView.tag := by
    rw [k9]
    cases hn : a.s.nodeForTag m.oldChildShadowView.tag with
    | none => rfl
    | some p => exact (htab _ p hn).2
  obtain ⟨mk, hmk⟩ : ∃ mk, mk = makeMutationNode a.s m
      (a.s.nodeForTag m.oldChildShadowView.tag) := ⟨_, rfl⟩
  rw [← hmk] at k1 k2 k3 k4 k5 k6 k7 k8 k9 k10 hk9
  have hlists : (parseRemove a m).mutationNodes = a.mutationNodes ++ [a.s.next] ∧
      (parseRemove a m).unflattenedChildrenForTag =
        pushChild m.parentTag a.s.next a.unflattenedChildrenForTag ∧
      (parseRemove a m).deletedViews = a.deletedViews := by
    simp only [parseRemove, hidx, ← hmk, k1]
    exact ⟨trivial, trivial, trivial⟩
  refine ⟨hlists.1, hlists.2.1, hlists.2.2, ?_⟩
  obtain ⟨tg, htg⟩ : ∃ tg, tg = m.oldChildShadowView.tag := ⟨_, rfl⟩
  obtain ⟨tab, htabdef⟩ : ∃ tab, tab = Function.update mk.2.nodeForTag tg (some a.s.next) :=
    ⟨_, rfl⟩
  obtain ⟨S2, hS2⟩ : ∃ S2 : State, S2 = { mk.2 with nodeForTag := tab } := ⟨_, rfl⟩
  have hS2heap : S2.heap = mk.2.heap := by rw [hS2]
  have hS2next : S2.next = a.s.next + 1 := by rw [hS2]; exact k2
  have hS2tab : S2.nodeForTag = tab := by rw [hS2]
  rw [← htg] at hk9 hne
  rw [← htg]
  cases hpar : a.s.nodeForTag m.parentTag with
  | some p1 =>
    have hR : (parseRemove a m).s = S2.modifyNode a.s.next
        (fun x => { x with parent := p1, unflattenedParent := p1 }) := by
      rw [hS2, htabdef, htg]
      simp only [parseRemove, hidx, ← hmk, k1, hc, hpar]
      rfl
    have hF : ∀ z, F4eq ((S2.modifyNode a.s.next
        (fun x => { x with parent := p1, unflattenedParent := p1 })).heap z) (mk.2.heap z) := by
      intro z
      rw [← hS2heap]
      exact F4eq.of_modify S2 _ _ z (fun _ => ⟨rfl, rfl, rfl, rfl⟩)
    have hnext : (S2.modifyNode a.s.next
        (fun x => { x with parent := p1, unflattenedParent := p1 })).next = a.s.next + 1 :=
      hS2next
    have htable : (S2.modifyNode a.s.next
        (fun x => { x with parent := p1, unflattenedParent := p1 })).nodeForTag = tab := hS2tab
    rw [hR, hnext, htable]
    refine ⟨Nat.lt_succ_self _, fun z hz => ?_, ?_, fun z h1 h2 => ?_, ?_, ?_, fun k hk p hp => ?_⟩
    · obtain ⟨b1, b2, b3, b4, _⟩ := k5 z (Nat.ne_of_lt hz)
      exact (hF z).trans4 ⟨b1, b2, b4, b3⟩
    · exact (hF _).trans4 ⟨k6, k7, k8, hk9⟩
    · exact absurd (Nat.lt_succ_iff.mp h2) (Nat.not_le.mpr h1)
    · rw [htabdef]; simp
    · rw [htabdef, Function.update_noteq hne, k4, hpar]; rfl
    · rw [htabdef, Function.update_noteq hk, k4]; exact hp
  | none =>
    obtain ⟨al, hal⟩ : ∃ al, al = S2.alloc (plainNode m.parentTag) := ⟨_, rfl⟩
    obtain ⟨tab2, htab2⟩ : ∃ tab2, tab2 = Function.update al.2.nodeForTag m.parentTag
        (some al.1) := ⟨_, rfl⟩
    obtain ⟨S2b, hS2b⟩ : ∃ S2b : State, S2b = { al.2 with nodeForTag := tab2 } := ⟨_, rfl⟩
    have hal1 : al.1 = a.s.next + 1 := by rw [hal]; exact hS2next
    have hR : (parseRemove a m).s = S2b.modifyNode a.s.next
        (fun x => { x with parent := al.1, unflattenedParent := al.1 }) := by
      rw [hS2b, htab2, hal, hS2, htabdef, htg]
      simp only [parseRemove, hidx, ← hmk, k1, hc, hpar]
      rfl
    have hheap : ∀ z, z ≠ a.s.next + 1 → S2b.heap z = mk.2.heap z := by
      intro z hz
      rw [hS2b, hal, ← hS2heap]
      simp only [State.alloc, hS2next, Function.update_noteq hz]
    have hheap1 : S2b.heap (a.s.next + 1) = plainNode m.parentTag := by
      rw [hS2b, hal]
      simp only [State.alloc, hS2next, Function.update_same]
    have hF : ∀ z, F4eq ((S2b.modifyNode a.s.next
        (fun x => { x with parent := al.1, unflattenedParent := al.1 })).heap z)
        (S2b.heap z) :=
      fun z => F4eq.of_modify S2b _ _ z (fun _ => ⟨rfl, rfl, rfl, rfl⟩)
    have hnext : (S2b.modifyNode a.s.next
        (fun x => { x with parent := al.1, unflattenedParent := al.1 })).next
        = a.s.next + 2 := by
      show S2b.next = _
      rw [hS2b, hal]
      simp only [State.alloc, hS2next]
    have htable : (S2b.modifyNode a.s.next
        (fun x => { x with parent := al.1, unflattenedParent := al.1 })).nodeForTag = tab2 := by
      show S2b.nodeForTag = _
      rw [hS2b]
    have htab2k : ∀ k, k ≠ m.parentTag → tab2 k = tab k := by
      intro k hk
      rw [htab2, Function.update_noteq hk, hal, ← hS2tab]
      rfl
    rw [hR, hnext, htable]
    refine ⟨Nat.lt_add_of_pos_right (by decide), fun z hz => ?_, ?_, fun z h1 h2 => ?_, ?_, ?_,
      fun k hk p hp => ?_⟩
    · obtain ⟨b1, b2, b3, b4, _⟩ := k5 z (Nat.ne_of_lt hz)
      refine (hF z).trans4 ?_
      rw [hheap z (Nat.ne_of_lt (Nat.lt_succ_of_lt hz))]
      exact ⟨b1, b2, b4, b3⟩
    · refine (hF _).trans4 ?_
      rw [hheap _ (Nat.ne_of_lt (Nat.lt_succ_self _))]
      exact ⟨k6, k7, k8, hk9⟩
    · have hz : z = a.s.next + 1 := Nat.le_antisymm (Nat.lt_succ_iff.mp h2) h1
      rw [(hF z).1, hz, hheap1]
      rfl
    · rw [htab2k tg (Ne.symm hne), htabdef]; simp
    · rw [htab2]; simp
    · have hkp : k ≠ m.parentTag := fun h => by rw [h, hpar] at hp; exact absurd hp (by simp)
      rw [htab2k k hkp, htabdef, Function.update_noteq hk, k4]; exact hp

theorem flat_modify (s : State) (p : Ptr) (f : Node → Node) (q : Ptr)
    (hf : ∀ x, (f x).children = x.children) :
    ((s.modifyNode p f).heap q).children = (s.heap q).children := by
  by_cases hq : q = p
  · subst hq; simp [State.modifyNode, State.setNode, State.node, hf]
  · simp [State.modifyNode, State.setNode, State.node, Function.update_noteq hq]

theorem NoFlat.noFlat_modify {s : State} (hs : NoFlat s) (p : Ptr) (f : Node → Node)
    (hf : ∀ x, (f x).children = x.children) : NoFlat (s.modifyNode p f) :=
  fun q => by rw [flat_modify s p f q hf]; exact hs q

theorem NoFlat.noFlat_alloc {s : State} (hs : NoFlat s) (tag : Tag) :
    NoFlat (s.alloc (plainNode tag)).2 := by
  intro q
  by_cases hq : q = s.next
  · subst hq; simp [State.alloc, plainNode]
  · simp only [State.alloc, Function.update_noteq hq]; exact hs q

theorem NoFlat.noFlat_make {s : State} (hs : NoFlat s) (hk : NoKids s)
    (mu : ShadowViewMutation) (node : Option Ptr) : NoFlat (makeMutationNode s mu node).2 := by
  cases node with
  | none =>
    intro q
    by_cases hq : q = s.next
    · subst hq; simp [makeMutationNode, State.alloc, plainNode]
    · simp only [makeMutationNode, State.alloc, Function.update_noteq hq]; exact hs q
  | some p =>
    have h1 : (s.node p).children = [] := hs p
    have h2 : (s.node p).unflattenedChildren = [] := hk p
    intro q
    simp only [makeMutationNode, h1, h2, List.foldl_nil]
    by_cases hq : q = s.next
    · subst hq
      simp [State.alloc, State.modifyNode, State.setNode, plainNode]
    · simp only [State.alloc, State.modifyNode, State.setNode, Function.update_noteq hq]
      by_cases hqp : q = p
      · subst hqp; simp
      · rw [Function.update_noteq hqp]; exact hs q

theorem parseRemove_noFlat (a : ParseAcc) (m0 : ShadowViewMutation) (hs : NoFlat a.s)
    (hk : NoKids a.s) : NoFlat (parseRemove a m0).s := by
  unfold parseRemove
  simp only
  refine NoFlat.noFlat_modify ?_ _ _ (fun _ => rfl)
  have h1 := hs.noFlat_make hk (updateIndexForMutation a.s m0)
    (a.s.nodeForTag (updateIndexForMutation a.s m0).oldChildShadowView.tag)
  have h2 : NoFlat (if (!a.deletedViews.contains
      (updateIndexForMutation a.s m0).oldChildShadowView.tag) = true then
        (makeMutationNode a.s (updateIndexForMutation a.s m0)
          (a.s.nodeForTag (updateIndexForMutation a.s m0).oldChildShadowView.tag)).2.modifyNode
          (makeMutationNode a.s (updateIndexForMutation a.s m0)
            (a.s.nodeForTag (updateIndexForMutation a.s m0).oldChildShadowView.tag)).1
          (fun x => { x with state := .MOVED })
      else (makeMutationNode a.s (updateIndexForMutation a.s m0)
        (a.s.nodeForTag (updateIndexForMutation a.s m0).oldChildShadowView.tag)).2) := by
    split
    · exact h1.noFlat_modify _ _ (fun _ => rfl)
    · exact h1
  split
  · exact h2
  · exact fun q => (@NoFlat.noFlat_alloc _ (fun q1 => h2 q1) _) q

theorem updateIndexForMutation_noFlat (s : State) (m : ShadowViewMutation) (hs : NoFlat s) :
    updateIndexForMutation s m = m := by
  unfold updateIndexForMutation
  split
  · rfl
  · split
    · rfl
    · rename_i parent _
      have : pendingIndices s parent = [] := by
        simp [pendingIndices, State.node, hs parent]
      simp [this, updateIndexLoop]

theorem inList_pushChild_new (k : Tag) (c : Ptr) : ∀ (l : List (Tag × List Ptr)),
    InList k c (pushChild k c l) := by
  intro l
  induction l with
  | nil => exact ⟨(k, [c]), by simp [pushChild], rfl, by simp⟩
  | cons e l ih =>
    obtain ⟨k1, l1⟩ := e
    simp only [pushChild]
    split
    · rename_i h
      exact ⟨(k1, l1 ++ [c]), List.mem_cons_self _ _, h, by simp⟩
    · obtain ⟨e, he, h1, h2⟩ := ih
      exact ⟨e, List.mem_cons_of_mem _ he, h1, h2⟩

theorem inList_pushChild_old (k : Tag) (c : Ptr) (k1 : Tag) (z : Ptr) :
    ∀ (l : List (Tag × List Ptr)), InList k1 z l → InList k1 z (pushChild k c l) := by
  intro l
  induction l with
  | nil => intro h; obtain ⟨e, he, _⟩ := h; cases he
  | cons e l ih =>
    intro h
    obtain ⟨k2, l2⟩ := e
    obtain ⟨e1, he1, h1, h2⟩ := h
    simp only [pushChild]
    rcases List.mem_cons.mp he1 with he1 | he1
    · subst he1
      split
      · exact ⟨(k2, l2 ++ [c]), List.mem_cons_self _ _, h1, List.mem_append_left _ h2⟩
      · exact ⟨(k2, l2), List.mem_cons_self _ _, h1, h2⟩
    · obtain ⟨e3, he3, h3, h4⟩ := ih ⟨e1, he1, h1, h2⟩
      split
      · exact ⟨e1, List.mem_cons_of_mem _ he1, h1, h2⟩
      · exact ⟨e3, List.mem_cons_of_mem _ he3, h3, h4⟩

/-- One step of the reverse scan keeps the scan invariant. -/
theorem parseStep_SI {t : Tag} (scanned : ShadowViewMutationList) (a : ParseAcc)
    (m : ShadowViewMutation) (hP : PInv t a) (hS : SI scanned a)
    (hty : m.type = .Remove ∨ m.type = .Delete)
    (hrem : m.type = .Remove → m.oldChildShadowView.tag ∈ a.deletedViews ∧
      (∀ m1 ∈ scanned, m1.type = .Remove →
        m1.oldChildShadowView.tag ≠ m.oldChildShadowView.tag) ∧
      m.parentTag ≠ m.oldChildShadowView.tag) :
    SI (m :: scanned) (parseStep a m) := by
  rcases hty with hty | hty
  · -- a Remove
    obtain ⟨hdel, hdist, hne⟩ := hrem hty
    have h1 : parseStep a m = parseRemove a m := by simp [parseStep, hty]
    rw [h1]
    obtain ⟨r1, r2, r3, r4, r5, r6, r7, r8, r9, r10⟩ := parseRemove_deleted a m
      (updateIndexForMutation_noFlat a.s m hS.flat) hdel hne hP.ps.2.1
    refine ⟨parseRemove_noFlat a m hS.flat hS.kids, parseRemove_noKids a m hS.kids,
      fun m1 hm1 hm1ty => ?_, fun z hz hzm => ?_, fun m1 hm1 hm1ty => ?_, ?_⟩
    · rcases List.mem_cons.mp hm1 with hm1 | hm1
      · subst hm1
        exact ⟨a.s.next, r8, r6, by rw [r1]; simp, r9, by
          rw [r2]; exact inList_pushChild_new _ _ _⟩
      · obtain ⟨z, z1, z2, z3, z4, z5⟩ := hS.nodes m1 hm1 hm1ty
        refine ⟨z, r10 _ (hdist m1 hm1 hm1ty) z z1,
          (r5 z (hP.ps.2.1 _ z z1).1).trans4 z2, by rw [r1]; exact List.mem_append_left _ z3,
          ?_, by rw [r2]; exact inList_pushChild_old _ _ _ _ _ z5⟩
        by_cases hpt : m1.parentTag = m.oldChildShadowView.tag
        · rw [hpt, r8]; rfl
        · obtain ⟨p, hp⟩ := Option.isSome_iff_exists.mp z4
          rw [r10 _ hpt p hp]; rfl
    · by_cases hz0 : z < a.s.next
      · have hzm0 : (a.s.heap z).isMutation = true := by rw [← (r5 z hz0).1]; exact hzm
        obtain ⟨m1, hm1, hm1ty, hm1z⟩ := hS.muts z hz0 hzm0
        exact ⟨m1, List.mem_cons_of_mem _ hm1, hm1ty, r10 _ (hdist m1 hm1 hm1ty) z hm1z⟩
      · by_cases hz1 : z = a.s.next
        · subst hz1
          exact ⟨m, List.mem_cons_self _ _, hty, r8⟩
        · have hlt : a.s.next < z := lt_of_le_of_ne (not_lt.mp hz0) (Ne.symm hz1)
          rw [r7 z hlt hz] at hzm
          exact absurd hzm (by simp)
    · rw [r3]
      rcases List.mem_cons.mp hm1 with hm1 | hm1
      · rw [hm1, hty] at hm1ty; exact absurd hm1ty (by simp)
      · exact hS.del m1 hm1 hm1ty
    · rw [r1]
      refine List.nodup_append.mpr ⟨hS.nd, List.nodup_singleton _, fun x hx hx2 => ?_⟩
      rw [List.mem_singleton] at hx2
      rw [hx2] at hx
      exact absurd (hP.nodes _ hx).1 (lt_irrefl _)
  · -- a Delete
    have h1 : parseStep a m =
        { a with deletedViews := m.oldChildShadowView.tag :: a.deletedViews } := by
      simp [parseStep, hty]
    rw [h1]
    refine ⟨hS.flat, hS.kids, fun m1 hm1 hm1ty => ?_, fun z hz hzm => ?_,
      fun m1 hm1 hm1ty => ?_, hS.nd⟩
    · rcases List.mem_cons.mp hm1 with hm1 | hm1
      · rw [hm1, hty] at hm1ty; exact absurd hm1ty (by simp)
      · exact hS.nodes m1 hm1 hm1ty
    · obtain ⟨m1, hm1, h2⟩ := hS.muts z hz hzm
      exact ⟨m1, List.mem_cons_of_mem _ hm1, h2⟩
    · rcases List.mem_cons.mp hm1 with hm1 | hm1
      · rw [hm1]; exact List.mem_cons_self _ _
      · exact List.mem_cons_of_mem _ (hS.del m1 hm1 hm1ty)

/-- The reverse scan keeps the scan invariant; the scanned mutations are those
of the list, the last scanned first. -/
theorem foldl_parseStep_SI {t : Tag} : ∀ (l sc : ShadowViewMutationList) (a : ParseAcc),
    PInv t a → SI sc a → ScanOK sc l →
    (∀ m ∈ l, m.type = .Delete → m.oldChildShadowView.tag ≠ t) →
    SI (l.reverse ++ sc) (l.foldl parseStep a) ∧ PInv t (l.foldl parseStep a) := by
  intro l
  induction l with
  | nil => intro sc a hP hS _ _; exact ⟨by simpa using hS, hP⟩
  | cons m l ih =>
    intro sc a hP hS hok hdel
    obtain ⟨⟨hty, hrem⟩, hok2⟩ := hok
    have hS1 := parseStep_SI sc a m hP hS hty (fun h => by
      obtain ⟨⟨d, hd, hdty, hdtag⟩, h2, h3⟩ := hrem h
      exact ⟨by rw [← hdtag]; exact hS.del d hd hdty, h2, h3⟩)
    obtain ⟨hP1, _⟩ := parseStep_inv a m hP (hdel m (List.mem_cons_self _ _))
      (fun h => by rcases hty with h1 | h1 <;> rw [h1] at h <;> exact absurd h (by simp))
    have := ih (m :: sc) (parseStep a m) hP1 hS1 hok2
      (fun x hx => hdel x (List.mem_cons_of_mem _ hx))
    simpa [List.reverse_cons, List.append_assoc] using this

theorem mergeChildren_perm (indexOf : Ptr → Int) : ∀ (fuel : Nat) (a b : List Ptr),
    (mergeChildren indexOf fuel a b).Perm (a ++ b) := by
  intro fuel
  induction fuel with
  | zero => intro a b; simp [mergeChildren]
  | succ fuel ih =>
    intro a b
    cases a with
    | nil => simp [mergeChildren]
    | cons x a =>
      cases b with
      | nil => simp [mergeChildren]
      | cons y b =>
        simp only [mergeChildren]
        split
        · exact (ih a (y :: b)).cons x
        · exact ((ih (x :: a) b).cons y).trans List.perm_middle.symm

theorem foldl_modify_F4 (f : Ptr → Node → Node) (hf : ∀ u x, F4eq (f u x) x) :
    ∀ (cs : List Ptr) (s : State),
      (∀ z, F4eq ((cs.foldl (fun acc sub => acc.modifyNode sub (f sub)) s).heap z) (s.heap z)) ∧
      (cs.foldl (fun acc sub => acc.modifyNode sub (f sub)) s).nodeForTag = s.nodeForTag ∧
      (cs.foldl (fun acc sub => acc.modifyNode sub (f sub)) s).next = s.next := by
  intro cs
  induction cs with
  | nil => intro s; exact ⟨fun z => ⟨rfl, rfl, rfl, rfl⟩, rfl, rfl⟩
  | cons c cs ih =>
    intro s
    simp only [List.foldl_cons]
    obtain ⟨h1, h2, h3⟩ := ih (s.modifyNode c (f c))
    exact ⟨fun z => (h1 z).trans4 (F4eq.of_modify s c (f c) z (hf c)), by rw [h2]; rfl,
      by rw [h3]; rfl⟩

theorem attachChildren_F4 : ∀ (l : List (Tag × List Ptr)) (s : State),
    (∀ z, F4eq ((attachChildren s l).heap z) (s.heap z)) ∧
    (attachChildren s l).nodeForTag = s.nodeForTag ∧ (attachChildren s l).next = s.next := by
  intro l
  induction l with
  | nil => intro s; exact ⟨fun z => ⟨rfl, rfl, rfl, rfl⟩, rfl, rfl⟩
  | cons e l ih =>
    intro s
    simp only [attachChildren, List.foldl_cons]
    cases hn : s.nodeForTag e.1 with
    | none => exact ih s
    | some parent =>
      obtain ⟨a1, a2, a3⟩ := foldl_modify_F4 (fun _ x => { x with parent := parent })
        (fun _ _ => ⟨rfl, rfl, rfl, rfl⟩) e.2 (insertChildren s parent e.2)
      obtain ⟨b1, b2, b3⟩ := ih (e.2.foldl (fun acc2 child =>
        acc2.modifyNode child (fun x => { x with parent := parent }))
        (insertChildren s parent e.2))
      have c1 : ∀ z, F4eq ((insertChildren s parent e.2).heap z) (s.heap z) := fun z =>
        F4eq.of_modify s parent _ z (fun _ => ⟨rfl, rfl, rfl, rfl⟩)
      exact ⟨fun z => (b1 z).trans4 ((a1 z).trans4 (c1 z)), b2.trans a2, b3.trans a3⟩

theorem attachUnflattenedChildren_F4 : ∀ (l : List (Tag × List Ptr)) (s : State),
    (∀ z, F4eq ((attachUnflattenedChildren s l).heap z) (s.heap z)) ∧
    (attachUnflattenedChildren s l).nodeForTag = s.nodeForTag ∧
    (attachUnflattenedChildren s l).next = s.next := by
  intro l
  induction l with
  | nil => intro s; exact ⟨fun z => ⟨rfl, rfl, rfl, rfl⟩, rfl, rfl⟩
  | cons e l ih =>
    intro s
    simp only [attachUnflattenedChildren, List.foldl_cons]
    cases hn : s.nodeForTag e.1 with
    | none => exact ih s
    | some parent =>
      obtain ⟨a1, a2, a3⟩ := foldl_modify_F4
        (fun _ x => { x with unflattenedParent := parent })
        (fun _ _ => ⟨rfl, rfl, rfl, rfl⟩) e.2 (insertUnflattenedChildren s parent e.2)
      obtain ⟨b1, b2, b3⟩ := ih (e.2.foldl (fun acc2 child =>
        acc2.modifyNode child (fun x => { x with unflattenedParent := parent }))
        (insertUnflattenedChildren s parent e.2))
      have c1 : ∀ z, F4eq ((insertUnflattenedChildren s parent e.2).heap z) (s.heap z) :=
        fun z => F4eq.of_modify s parent _ z (fun _ => ⟨rfl, rfl, rfl, rfl⟩)
      exact ⟨fun z => (b1 z).trans4 ((a1 z).trans4 (c1 z)), b2.trans a2, b3.trans a3⟩

theorem insertUnflattenedChildren_kids (s : State) (parent : Ptr) (cs : List Ptr) (p : Ptr) :
    (p ≠ parent → ((insertUnflattenedChildren s parent cs).heap p).unflattenedChildren =
      (s.heap p).unflattenedChildren) ∧
    (((insertUnflattenedChildren s parent cs).heap parent).unflattenedChildren).Perm
      ((s.heap parent).unflattenedChildren ++ cs) := by
  refine ⟨fun hp => ?_, ?_⟩
  · simp [insertUnflattenedChildren, State.modifyNode, State.setNode, State.node,
      Function.update_noteq hp]
  · simp only [insertUnflattenedChildren, State.modifyNode, State.setNode, State.node,
      Function.update_same]
    exact mergeChildren_perm _ _ _ _

/-- After the attach loop no child is listed twice, the children collected under
a tag are children of the node registered for the tag, and no child is lost. -/
theorem attachUnflattenedChildren_kids : ∀ (l : List (Tag × List Ptr)) (s : State),
    (listed l).Nodup →
    (∀ p c, c ∈ (s.heap p).unflattenedChildren → c ∉ listed l) →
    (∀ p, (s.heap p).unflattenedChildren.Nodup) →
    (∀ p, ((attachUnflattenedChildren s l).heap p).unflattenedChildren.Nodup) ∧
    (∀ e ∈ l, ∀ q, s.nodeForTag e.1 = some q → ∀ c ∈ e.2,
      c ∈ ((attachUnflattenedChildren s l).heap q).unflattenedChildren) ∧
    (∀ p c, c ∈ (s.heap p).unflattenedChildren →
      c ∈ ((attachUnflattenedChildren s l).heap p).unflattenedChildren) ∧
    (∀ p c, c ∈ ((attachUnflattenedChildren s l).heap p).unflattenedChildren →
      c ∈ (s.heap p).unflattenedChildren ∨ c ∈ listed l) := by
  intro l
  induction l with
  | nil =>
    intro s _ _ h
    exact ⟨h, fun e he => (by cases he), fun p c hc => hc, fun p c hc => Or.inl hc⟩
  | cons e l ih =>
    intro s hnd hout hkn
    simp only [listed] at hnd
    have hnd2 : (listed l).Nodup := (List.nodup_append.mp hnd).2.1
    have hnd1 : e.2.Nodup := (List.nodup_append.mp hnd).1
    have hdisj : ∀ x, x ∈ e.2 → x ∉ listed l := fun x hx hx2 =>
      (List.nodup_append.mp hnd).2.2 hx hx2
    have hout2 : ∀ p c, c ∈ (s.heap p).unflattenedChildren → c ∉ listed l ∧ c ∉ e.2 := by
      intro p c hc
      have := hout p c hc
      simp only [listed, List.mem_append, not_or] at this
      exact ⟨this.2, this.1⟩
    cases hn : s.nodeForTag e.1 with
    | none =>
      have hstep : attachUnflattenedChildren s (e :: l) = attachUnflattenedChildren s l := by
        simp only [attachUnflattenedChildren, List.foldl_cons, hn]
      rw [hstep]
      obtain ⟨i1, i2, i3, i4⟩ := ih s hnd2 (fun p c hc => (hout2 p c hc).1) hkn
      refine ⟨i1, fun e1 he1 q hq c hc => ?_, i3, fun p c hc => ?_⟩
      · rcases List.mem_cons.mp he1 with he1 | he1
        · rw [he1, hn] at hq; exact absurd hq (by simp)
        · exact i2 e1 he1 q hq c hc
      · rcases i4 p c hc with h | h
        · left; exact h
        · right; simp only [listed, List.mem_append]; right; exact h
    | some parent =>
      obtain ⟨S2, hS2⟩ : ∃ S2, S2 = e.2.foldl (fun acc2 child =>
          acc2.modifyNode child (fun x => { x with unflattenedParent := parent }))
          (insertUnflattenedChildren s parent e.2) := ⟨_, rfl⟩
      have hstep : attachUnflattenedChildren s (e :: l) = attachUnflattenedChildren S2 l := by
        rw [hS2]
        simp only [attachUnflattenedChildren, List.foldl_cons, hn]
      have hk2 : ∀ p, (S2.heap p).unflattenedChildren =
          ((insertUnflattenedChildren s parent e.2).heap p).unflattenedChildren := by
        intro p
        rw [hS2]
        exact foldl_setField_kids (fun _ x => { x with unflattenedParent := parent })
          (fun _ _ => rfl) e.2 _ p
      have htab2 : S2.nodeForTag = s.nodeForTag := by
        rw [hS2]
        exact (foldl_modify_F4 (fun _ x => { x with unflattenedParent := parent })
          (fun _ _ => ⟨rfl, rfl, rfl, rfl⟩) e.2 _).2.1
      have hperm := (insertUnflattenedChildren_kids s parent e.2 parent).2
      have hmem2 : ∀ p c, c ∈ (S2.heap p).unflattenedChildren →
          c ∈ (s.heap p).unflattenedChildren ∨ (p = parent ∧ c ∈ e.2) := by
        intro p c hc
        rw [hk2 p] at hc
        by_cases hp : p = parent
        · subst hp
          rcases List.mem_append.mp (hperm.subset hc) with h | h
          · left; exact h
          · right; exact ⟨rfl, h⟩
        · left
          rw [(insertUnflattenedChildren_kids s parent e.2 p).1 hp] at hc
          exact hc
      rw [hstep]
      obtain ⟨i1, i2, i3, i4⟩ := ih S2 hnd2
        (fun p c hc => by
          rcases hmem2 p c hc with h | ⟨_, h⟩
          · exact (hout2 p c h).1
          · exact hdisj c h)
        (fun p => by
          rw [hk2 p]
          by_cases hp : p = parent
          · subst hp
            refine hperm.nodup_iff.mpr (List.nodup_append.mpr ⟨hkn p, hnd1, ?_⟩)
            intro x hx hx2
            exact (hout2 p x hx).2 hx2
          · rw [(insertUnflattenedChildren_kids s parent e.2 p).1 hp]
            exact hkn p)
      have hkeep : ∀ p c, c ∈ (s.heap p).unflattenedChildren →
          c ∈ (S2.heap p).unflattenedChildren := by
        intro p c hc
        rw [hk2 p]
        by_cases hp : p = parent
        · subst hp
          exact hperm.symm.subset (List.mem_append_left _ hc)
        · rw [(insertUnflattenedChildren_kids s parent e.2 p).1 hp]
          exact hc
      refine ⟨i1, fun e1 he1 q hq c hc => ?_, fun p c hc => i3 p c (hkeep p c hc),
        fun p c hc => ?_⟩
      · rcases List.mem_cons.mp he1 with he1 | he1
        · rw [he1, hn] at hq
          simp only [Option.some.injEq] at hq
          subst hq
          refine i3 parent c ?_
          rw [hk2 parent]
          rw [he1] at hc
          exact hperm.symm.subset (List.mem_append_right _ hc)
        · exact i2 e1 he1 q (by rw [htab2]; exact hq) c hc
      · rcases i4 p c hc with h | h
        · rcases hmem2 p c h with h1 | ⟨_, h1⟩
          · left; exact h1
          · right; simp only [listed, List.mem_append]; left; exact h1
        · right; simp only [listed, List.mem_append]; right; exact h

theorem LaterDeleted.suffix : ∀ (pre rest : ShadowViewMutationList),
    LaterDeleted (pre ++ rest) → LaterDeleted rest := by
  intro pre
  induction pre with
  | nil => intro rest h; exact h
  | cons m pre ih => intro rest h; exact ih rest h.2

theorem scanOK_of_batch {mgr : Manager} {rk : Tag → Nat} {batch : ShadowViewMutationList}
    (hb : SubtreeBatch mgr rk batch) :
    ∀ (l post : ShadowViewMutationList), batch = l.reverse ++ post → ScanOK post l := by
  intro l
  induction l with
  | nil => intro post _; trivial
  | cons m l ih =>
    intro post hpost
    have hsplit : batch = l.reverse ++ m :: post := by
      rw [hpost]; simp
    have hm : m ∈ batch := by rw [hsplit]; simp
    have hl : LaterDeleted (m :: post) := LaterDeleted.suffix l.reverse _ (hsplit ▸ hb.later)
    refine ⟨⟨hb.only m hm, fun hty => ⟨(hl.1 hty).1, (hl.1 hty).2, fun h => ?_⟩⟩,
      ih (m :: post) hsplit⟩
    have := hb.tree m hm hty
    rw [h] at this
    exact absurd this (lt_irrefl _)

theorem exists_fresh_tag (batch : ShadowViewMutationList) :
    ∃ t : Tag, ∀ m ∈ batch, m.oldChildShadowView.tag ≠ t := by
  obtain ⟨t, ht⟩ := Infinite.exists_not_mem_finset
    (batch.map (fun m => m.oldChildShadowView.tag)).toFinset
  refine ⟨t, fun m hm h => ht ?_⟩
  rw [List.mem_toFinset, List.mem_map]
  exact ⟨m, hm, h⟩

/-- The reverse scan of a batch that removes whole subtrees, on a fresh engine. -/
theorem scanResult_SI {mgr : Manager} {rk : Tag → Nat} {batch : ShadowViewMutationList}
    (hb : SubtreeBatch mgr rk batch) {t : Tag}
    (ht : ∀ m ∈ batch, m.oldChildShadowView.tag ≠ t) :
    SI batch (scanResult State.fresh batch) ∧ PInv t (scanResult State.fresh batch) ∧
    (listed (scanResult State.fresh batch).unflattenedChildrenForTag).Nodup := by
  obtain ⟨init, hinit⟩ : ∃ init : ParseAcc, init =
      { s := State.fresh, deletedViews := [], movedViews := fun _ => none,
        childrenForTag := [], unflattenedChildrenForTag := [], mutationNodes := [] } :=
    ⟨_, rfl⟩
  have hP0 : PInv t init := by
    rw [hinit]
    exact PInv.mk (PS.fresh t) (fun c hc => by cases hc) (fun e he => by cases he) (by simp)
  have hS0 : SI [] init := by
    rw [hinit]
    refine ⟨fun q => ?_, fun q => ?_, fun m hm => (by cases hm), fun z _ hz => ?_,
      fun m hm => (by cases hm), List.nodup_nil⟩
    · simp [State.fresh, plainNode]
    · simp [State.fresh, plainNode]
    · simp [State.fresh, plainNode] at hz
  have hdel : ∀ m ∈ batch.reverse, m.type = .Delete → m.oldChildShadowView.tag ≠ t :=
    fun m hm _ => ht m (List.mem_reverse.mp hm)
  obtain ⟨h1, h2⟩ := foldl_parseStep_SI batch.reverse [] init hP0 hS0
    (scanOK_of_batch hb batch.reverse [] (by simp)) hdel
  have h3 := foldl_parseStep_listed batch.reverse init hP0 hdel
    (fun m hm hty => by
      rcases hb.only m (List.mem_reverse.mp hm) with h | h <;> rw [h] at hty <;>
        exact absurd hty (by simp))
    (by rw [hinit]; simp [listed])
  rw [hinit] at h1 h2 h3
  simp only [List.reverse_reverse, List.append_nil] at h1
  exact ⟨h1, h2, h3⟩

theorem mem_listed : ∀ (l : List (Tag × List Ptr)) (c : Ptr), c ∈ listed l →
    ∃ e ∈ l, c ∈ e.2 := by
  intro l
  induction l with
  | nil => intro c hc; simp [listed] at hc
  | cons e l ih =>
    intro c hc
    simp only [listed, List.mem_append] at hc
    rcases hc with hc | hc
    · exact ⟨e, List.mem_cons_self _ _, hc⟩
    · obtain ⟨e1, he1, h1⟩ := ih c hc
      exact ⟨e1, List.mem_cons_of_mem _ he1, h1⟩

theorem Reach.tail {h : Ptr → Node} {a y c : Ptr} (hr : Reach h a y)
    (hc : c ∈ (h y).unflattenedChildren) : Reach h a c :=
  hr.reach_trans (Reach.step hc (Reach.refl c))

/-- Heap-level facts after the parse of a batch that removes whole subtrees:
fields of the nodes, children and table of the parsed state in terms of the
scan result. -/
theorem parseRemoveMutations_scan (batch : ShadowViewMutationList) :
    (∀ z, F4eq ((parseRemoveMutations State.fresh batch).s.heap z)
      ((scanResult State.fresh batch).s.heap z)) ∧
    (parseRemoveMutations State.fresh batch).s.nodeForTag =
      (scanResult State.fresh batch).s.nodeForTag ∧
    (parseRemoveMutations State.fresh batch).s.next = (scanResult State.fresh batch).s.next ∧
    (parseRemoveMutations State.fresh batch).mutationNodes =
      (scanResult State.fresh batch).mutationNodes ∧
    (parseRemoveMutations State.fresh batch).s =
      attachUnflattenedChildren
        (attachChildren (scanResult State.fresh batch).s
          (scanResult State.fresh batch).childrenForTag)
        (scanResult State.fresh batch).unflattenedChildrenForTag := by
  have hres : (parseRemoveMutations State.fresh batch).s =
      attachUnflattenedChildren
        (attachChildren (scanResult State.fresh batch).s
          (scanResult State.fresh batch).childrenForTag)
        (scanResult State.fresh batch).unflattenedChildrenForTag := rfl
  obtain ⟨a1, a2, a3⟩ := attachChildren_F4 (scanResult State.fresh batch).childrenForTag
    (scanResult State.fresh batch).s
  obtain ⟨b1, b2, b3⟩ := attachUnflattenedChildren_F4
    (scanResult State.fresh batch).unflattenedChildrenForTag
    (attachChildren (scanResult State.fresh batch).s
      (scanResult State.fresh batch).childrenForTag)
  refine ⟨fun z => ?_, ?_, ?_, rfl, hres⟩
  · rw [hres]; exact (b1 z).trans4 (a1 z)
  · rw [hres, b2, a2]
  · rw [hres, b3, a3]

/-- The parse of a batch that removes whole subtrees, on a fresh engine, gives the
heap the removal pass needs. -/
theorem parseRemoveMutations_facts {mgr : Manager} {rk : Tag → Nat}
    {batch : ShadowViewMutationList} (hb : SubtreeBatch mgr rk batch) :
    PFacts mgr rk batch (parseRemoveMutations State.fresh batch) := by
  obtain ⟨t, ht⟩ := exists_fresh_tag batch
  obtain ⟨hS, hPI, hL⟩ := @scanResult_SI mgr rk batch hb t ht
  have hdelt : ∀ m ∈ batch, m.type = .Delete → m.oldChildShadowView.tag ≠ t :=
    fun m hm _ => ht m hm
  have hupd : ∀ m ∈ batch, m.type = .Update →
      m.oldChildShadowView.tag = m.newChildShadowView.tag := by
    intro m hm hty
    rcases hb.only m hm with h | h <;> rw [h] at hty <;> exact absurd hty (by simp)
  obtain ⟨hps, hrootsV, hnodesV, _⟩ :=
    parseRemoveMutations_inv State.fresh batch (PS.fresh t) hdelt hupd
  have hpo := @parseRemoveMutations_parentOK t batch hdelt hupd
  obtain ⟨hF, htab, hnext, hmn, hres⟩ := parseRemoveMutations_scan batch
  have hrootsdef : (parseRemoveMutations State.fresh batch).roots =
      (scanResult State.fresh batch).mutationNodes.filter
        (fun p => !((parseRemoveMutations State.fresh batch).s.node
          ((parseRemoveMutations State.fresh batch).s.node p).unflattenedParent).isMutation) :=
    rfl
  obtain ⟨a, ha⟩ : ∃ a, a = scanResult State.fresh batch := ⟨_, rfl⟩
  obtain ⟨P, hP⟩ : ∃ P, P = parseRemoveMutations State.fresh batch := ⟨_, rfl⟩
  rw [← ha] at hS hPI hL hF htab hnext hmn hres hrootsdef
  rw [← hP] at hps hrootsV hnodesV hpo hF htab hnext hmn hres hrootsdef ⊢
  -- the children of the parsed heap
  have hk1 : NoKids (attachChildren a.s a.childrenForTag) :=
    attachChildren_noKids _ _ hS.kids
  obtain ⟨c1, c2, _, c4⟩ := attachUnflattenedChildren_kids a.unflattenedChildrenForTag
    (attachChildren a.s a.childrenForTag) hL
    (fun p c hc => by rw [hk1 p] at hc; exact absurd hc (by simp))
    (fun p => by rw [hk1 p]; exact List.nodup_nil)
  rw [← hres] at c1 c2 c4
  have htab1 : (attachChildren a.s a.childrenForTag).nodeForTag = a.s.nodeForTag :=
    (attachChildren_F4 a.childrenForTag a.s).2.1
  -- the mutation nodes are the nodes of the Removes
  have hG : ∀ z, z < a.s.next → (a.s.heap z).isMutation = true →
      ∃ m ∈ batch, m.type = .Remove ∧ a.s.nodeForTag m.oldChildShadowView.tag = some z ∧
        (a.s.heap z).mutation = m ∧ (a.s.heap z).state = .UNDEFINED ∧
        (a.s.heap z).tag = m.oldChildShadowView.tag := by
    intro z hz hzm
    obtain ⟨m, hm, hmty, hmz⟩ := hS.muts z hz hzm
    obtain ⟨z1, h1, h2, _⟩ := hS.nodes m hm hmty
    rw [hmz] at h1
    simp only [Option.some.injEq] at h1
    subst h1
    exact ⟨m, hm, hmty, hmz, h2.2.1, h2.2.2.1, h2.2.2.2⟩
  have hkid : ∀ p c, c ∈ (P.s.heap p).unflattenedChildren →
      c < a.s.next ∧ (a.s.heap c).isMutation = true := by
    intro p c hc
    rcases c4 p c hc with h | h
    · rw [hk1 p] at h; exact absurd h (by simp)
    · obtain ⟨e, he, hce⟩ := mem_listed _ c h
      exact hPI.lists e he c hce
  have hedge : ∀ m ∈ batch, m.type = .Remove → ∀ z,
      P.s.nodeForTag m.oldChildShadowView.tag = some z →
      ∃ q, P.s.nodeForTag m.parentTag = some q ∧ z ∈ (P.s.heap q).unflattenedChildren := by
    intro m hm hmty z hz
    obtain ⟨z1, h1, _, _, h4, ⟨e, he, hek, hze⟩⟩ := hS.nodes m hm hmty
    rw [htab, h1] at hz
    simp only [Option.some.injEq] at hz
    subst hz
    obtain ⟨q, hq⟩ := Option.isSome_iff_exists.mp h4
    refine ⟨q, by rw [htab]; exact hq, c2 e he q (by rw [htab1, hek]; exact hq) z1 hze⟩
  have hshape : Shape10 mgr P.s.heap := by
    refine ⟨hpo, fun p c hc => ?_, fun p c hc log => ?_, c1, fun p c hc => ?_⟩
    · obtain ⟨h1, h2⟩ := hkid p c hc
      obtain ⟨m, _, _, _, _, h5, _⟩ := hG c h1 h2
      rw [(hF c).2.2.1]; exact h5
    · obtain ⟨h1, h2⟩ := hkid p c hc
      obtain ⟨m, hm, hmty, _, _, _, h6⟩ := hG c h1 h2
      rw [(hF c).2.2.2, h6]; exact hb.noExit m hm hmty log
    · rw [(hF c).1]; exact (hkid p c hc).2
  have hroot : ∀ r ∈ P.roots, IsRoot mgr P.s.heap r ∧ HtLe P.s.heap P.s.next r := by
    intro r hr
    obtain ⟨v1, v2⟩ := hrootsV r hr
    rw [hrootsdef] at hr
    obtain ⟨hr1, hr2⟩ := List.mem_filter.mp hr
    have hr3 : (P.s.heap (P.s.heap r).unflattenedParent).isMutation = false := by
      simpa [State.node] using hr2
    obtain ⟨m, hm, hmty, _, _, h5, h6⟩ := hG r (by rw [← hnext]; exact v1)
      (by rw [← (hF r).1]; exact v2)
    refine ⟨⟨v2, by rw [(hF r).2.2.1]; exact h5, fun log => ?_, hr3⟩,
      HtLe.of_root hps.1.remInv hpo v1 v2 hr3⟩
    rw [(hF r).2.2.2, h6]; exact hb.noExit m hm hmty log
  -- every node of a Remove is below a root
  have hreach : ∀ n, ∀ m ∈ batch, m.type = .Remove → rk m.oldChildShadowView.tag = n →
      ∀ z, a.s.nodeForTag m.oldChildShadowView.tag = some z →
      ∃ r ∈ P.roots, Reach P.s.heap r z := by
    intro n
    induction n using Nat.strong_induction_on with
    | _ n ih =>
      intro m hm hmty hrk z hz
      obtain ⟨z1, h1, _, h3, _⟩ := hS.nodes m hm hmty
      rw [hz] at h1
      simp only [Option.some.injEq] at h1
      subst h1
      obtain ⟨q, hq1, hq2⟩ := hedge m hm hmty z (by rw [htab]; exact hz)
      have hup : (P.s.heap z).unflattenedParent = q := hpo q z hq2
      by_cases hqm : (P.s.heap q).isMutation = true
      · obtain ⟨hqn, hqt⟩ := hps.2.1 _ q hq1
        obtain ⟨m1, hm1, hm1ty, hm1z, _, _, h6⟩ := hG q (by rw [← hnext]; exact hqn)
          (by rw [← (hF q).1]; exact hqm)
        have htag : m1.oldChildShadowView.tag = m.parentTag := by
          rw [← h6, ← (hF q).2.2.2]; exact hqt
        obtain ⟨r, hr, hrq⟩ := ih (rk m1.oldChildShadowView.tag)
          (by rw [← hrk, htag]; exact hb.tree m hm hmty) m1 hm1 hm1ty rfl q hm1z
        exact ⟨r, hr, hrq.tail hq2⟩
      · refine ⟨z, ?_, Reach.refl z⟩
        rw [hrootsdef]
        refine List.mem_filter.mpr ⟨h3, ?_⟩
        simp only [State.node, hup]
        simpa using hqm
  refine ⟨hshape, ?_, hroot, fun m hm hmty => ?_, hedge, fun q c hc => ?_, hps.2.2,
    ⟨t, hps.1.remInv, hrootsV⟩⟩
  · rw [hrootsdef]; exact hS.nd.filter _
  · obtain ⟨z, h1, h2, _⟩ := hS.nodes m hm hmty
    exact ⟨z, by rw [htab]; exact h1, by rw [(hF z).2.1]; exact h2.2.1,
      by rw [(hF z).2.2.2]; exact h2.2.2.2, hreach _ m hm hmty rfl z h1⟩
  · obtain ⟨h1, h2⟩ := hkid q c hc
    obtain ⟨m, hm, hmty, hmz, _, _, h6⟩ := hG c h1 h2
    obtain ⟨q1, hq1, hq2⟩ := hedge m hm hmty c (by rw [htab]; exact hmz)
    have hqq : q1 = q := (hpo q1 c hq2).symm.trans (hpo q c hc)
    subst hqq
    rw [(hps.2.1 _ q1 hq1).2, (hF c).2.2.2, h6]
    exact hb.tree m hm hmty

theorem Seg.self (x : ShadowViewMutationList) : Seg x x := ⟨[], [], by simp⟩

theorem Seg.inner {x y z : ShadowViewMutationList} (h1 : Seg x y) (h2 : Seg y z) : Seg x z := by
  obtain ⟨A, B, hA⟩ := h1
  obtain ⟨C, D, hC⟩ := h2
  exact ⟨C ++ A, B ++ D, by rw [hC, hA]; simp only [List.append_assoc]⟩

theorem Seg.left (x y : ShadowViewMutationList) : Seg x (x ++ y) := ⟨[], y, by simp⟩

theorem Seg.right (x y : ShadowViewMutationList) : Seg y (x ++ y) := ⟨x, [], by simp⟩

theorem Before.in_seg {x y u z : ShadowViewMutationList} (h1 : Before x y u) (h2 : Seg u z) :
    Before x y z := by
  obtain ⟨A, B, C, hA⟩ := h1
  obtain ⟨D, E, hD⟩ := h2
  exact ⟨D ++ A, B, C ++ E, by rw [hD, hA]; simp only [List.append_assoc]⟩

theorem Before.of_seg {x u : ShadowViewMutationList} (h : Seg x u) (y : ShadowViewMutationList) :
    Before x y (u ++ y) := by
  obtain ⟨A, B, hA⟩ := h
  exact ⟨A, B, [], by rw [hA]; simp only [List.append_assoc, List.append_nil]⟩

theorem pairsOut_seg (g : Ptr → ShadowViewMutationList) : ∀ (l : List Ptr) (c : Ptr),
    c ∈ l → Seg (g c) (pairsOut g l) := by
  intro l
  induction l with
  | nil => intro c hc; cases hc
  | cons d l ih =>
    intro c hc
    rcases List.mem_cons.mp hc with h | h
    · subst h; exact Seg.left _ _
    · exact (ih c h).inner (Seg.right _ _)

/-- The pair of every node below `p` is in what the subtree of `p` emits. -/
theorem outOf_pair {h : Ptr → Node} : ∀ (k : Nat) (p z : Ptr), HtLe h k p → Reach h p z →
    z ≠ p → Seg (pairOf h z) (outOf h k p) := by
  intro k
  induction k with
  | zero => intro p z hk; exact absurd hk (by simp [HtLe])
  | succ k ih =>
    intro p z hk hr hz
    cases hr with
    | refl => exact absurd rfl hz
    | @step _ c _ hc hcz =>
      have hseg : Seg (outOf h k c ++ pairOf h c) (outOf h (k + 1) p) :=
        pairsOut_seg (fun c => outOf h k c ++ pairOf h c) _ c (List.mem_reverse.mpr hc)
      by_cases hzc : z = c
      · subst hzc
        exact (Seg.right _ _).inner hseg
      · exact ((ih c z (hk c hc) hcz hzc).inner (Seg.left _ _)).inner hseg

/-- What the subtree of a node below `p` emits, followed by the pair of that node,
is a block of what the subtree of `p` emits. -/
theorem outOf_block {h : Ptr → Node} : ∀ (k : Nat) (p q : Ptr), HtLe h k p → Reach h p q →
    q ≠ p → ∃ k1, HtLe h k1 q ∧ Seg (outOf h k1 q ++ pairOf h q) (outOf h k p) := by
  intro k
  induction k with
  | zero => intro p q hk; exact absurd hk (by simp [HtLe])
  | succ k ih =>
    intro p q hk hr hq
    cases hr with
    | refl => exact absurd rfl hq
    | @step _ c _ hc hcq =>
      have hseg : Seg (outOf h k c ++ pairOf h c) (outOf h (k + 1) p) :=
        pairsOut_seg (fun c => outOf h k c ++ pairOf h c) _ c (List.mem_reverse.mpr hc)
      by_cases hqc : q = c
      · subst hqc
        exact ⟨k, hk q hc, hseg⟩
      · obtain ⟨k1, h1, h2⟩ := ih c q (hk c hc) hcq hqc
        exact ⟨k1, h1, (h2.inner (Seg.left _ _)).inner hseg⟩

/-- In what a root emits, the pair of a node comes before the pair of the node
above it. -/
theorem outOf_before {h : Ptr → Node} (k : Nat) (r zp zc : Ptr) (hk : HtLe h k r)
    (h1 : Reach h r zp) (h2 : Reach h zp zc) (hne : zc ≠ zp) :
    Before (pairOf h zc) (pairOf h zp) (outOf h k r ++ pairOf h r) := by
  by_cases hzr : zp = r
  · subst hzr
    exact Before.of_seg (outOf_pair k zp zc hk h2 hne) _
  · obtain ⟨k1, g1, g2⟩ := outOf_block k r zp hk h1 hzr
    exact (Before.of_seg (outOf_pair k1 zp zc g1 h2 hne) _).in_seg (g2.inner (Seg.left _ _))

theorem handleUpdatesAndEnterings_only (mgr : Manager) (mv : Tag → Option Tag)
    (sid : SurfaceId) : ∀ (ms : ShadowViewMutationList) (w : Work),
    (∀ m ∈ ms, m.type = .Remove ∨ m.type = .Delete) →
    handleUpdatesAndEnterings mgr mv sid ms w = w := by
  have hstep : ∀ (l : UpdLoop) (m : ShadowViewMutation),
      (m.type = .Remove ∨ m.type = .Delete) → handleMutation mgr mv sid l m = l := by
    intro l m hm
    have hw : maybeUpdateWindowDimensions l.s m sid = l.s := by
      unfold maybeUpdateWindowDimensions
      rcases hm with h | h <;> simp [h]
    unfold handleMutation
    rcases hm with h | h <;> simp [h, hw]
  have hfold : ∀ (ms : ShadowViewMutationList) (l : UpdLoop),
      (∀ m ∈ ms, m.type = .Remove ∨ m.type = .Delete) →
      ms.foldl (handleMutation mgr mv sid) l = l := by
    intro ms
    induction ms with
    | nil => intro l _; rfl
    | cons m ms ih =>
      intro l h
      rw [List.foldl_cons, hstep l m (h m (List.mem_cons_self _ _))]
      exact ih l (fun x hx => h x (List.mem_cons_of_mem _ hx))
  intro ms w h
  unfold handleUpdatesAndEnterings
  simp only [hfold ms _ h]

theorem addOngoingAnimations_nodeForTag (sid : SurfaceId) (w : Work) :
    (addOngoingAnimations sid w).1.nodeForTag = w.1.nodeForTag := by
  unfold addOngoingAnimations
  simp only
  generalize w.1.updateMap sid = es
  induction es generalizing w with
  | nil => rfl
  | cons e es ih =>
    simp only [List.foldl_cons]
    split
    · exact ih w
    · exact ih (_, _)

/-- A view removed from below another one has its node below the node registered
for that one, at a higher rank. -/
theorem Below.reach {mgr : Manager} {rk : Tag → Nat} {batch : ShadowViewMutationList}
    {P : Parsed} (pf : PFacts mgr rk batch P) {a b : Tag} (hb : Below batch a b) :
    ∀ za, P.s.nodeForTag a = some za →
      ∃ qb, P.s.nodeForTag b = some qb ∧ Reach P.s.heap qb za ∧
        rk (P.s.heap qb).tag < rk (P.s.heap za).tag := by
  induction hb with
  | child m hm hty =>
    intro za hza
    obtain ⟨q, hq1, hq2⟩ := pf.edge m hm hty za hza
    exact ⟨q, hq1, Reach.step hq2 (Reach.refl za), pf.rank q za hq2⟩
  | @deeper m a hm hty _ ih =>
    intro za hza
    obtain ⟨q1, h1, h2, h3⟩ := ih za hza
    obtain ⟨q, hq1, hq2⟩ := pf.edge m hm hty q1 h1
    exact ⟨q, hq1, Reach.step hq2 h2, lt_trans (pf.rank q q1 hq2) h3⟩

/-- The removal pass on the parse of a batch that removes whole subtrees: the
roots are handled from the last to the first, each emits its subtree and then
its own pair, and the tags of all the nodes below the roots leave the lookup
table. -/
theorem handleRemovals_subtrees {mgr : Manager} {rk : Tag → Nat}
    {batch : ShadowViewMutationList} {P : Parsed} (pf : PFacts mgr rk batch P) (fuel : Nat)
    (hfuel : P.s.next ≤ fuel) :
    ∃ s1, handleRemovals mgr fuel P.roots (P.s, []) = some (s1,
        pairsOut (fun r => outOf P.s.heap fuel r ++ pairOf P.s.heap r) P.roots.reverse) ∧
      (∀ r ∈ P.roots, ∀ z, Reach P.s.heap r z → s1.nodeForTag (P.s.heap z).tag = none) := by
  obtain ⟨w1, hw1, hR1, _, hR3⟩ := handleRoots_removes mgr P.s.heap pf.shape fuel []
    P.roots.reverse [] (P.s, [])
    (by simpa using pf.rootsNodup)
    (fun r hr => by
      have hr1 : r ∈ P.roots := by simpa using hr
      exact ⟨(pf.roots r hr1).1, HtLe.of_le hfuel (pf.roots r hr1).2⟩)
    ⟨by simp [pairsOut], fun z _ _ => Agree.rfl_agree _, fun d hd => (by cases hd)⟩
  rw [List.reverse_reverse] at hw1
  obtain ⟨s1, m1⟩ := w1
  simp only [List.nil_append] at hR1 hR3
  obtain ⟨t, hinv, hv⟩ := pf.inv
  obtain ⟨hk, _⟩ := handleRoots_inv mgr fuel P.roots P.s s1 [] m1 hinv hv hw1
  have hd : s1.deadNodes = [] := by rw [hk.2.2]; exact pf.dead
  refine ⟨{ s1 with deadNodes := [] }, ?_, fun r hr z hz =>
    hR3 r (List.mem_reverse.mpr hr) z hz⟩
  unfold handleRemovals
  simp only [hw1, hd, visitOrder_nil, handleDeadNodes, List.foldl_nil, hR1]



theorem applyMutationToIndices_frame (s : State) (p : Ptr) (m : ShadowViewMutation) :
    (applyMutationToIndices s p m).layoutAnimations = s.layoutAnimations ∧
    (applyMutationToIndices s p m).uiQueue = s.uiQueue ∧
    (applyMutationToIndices s p m).managerLog = s.managerLog ∧
    (applyMutationToIndices s p m).nodeForTag = s.nodeForTag ∧
    (applyMutationToIndices s p m).updateMap = s.updateMap ∧
    (applyMutationToIndices s p m).deadNodes = s.deadNodes := by
  unfold applyMutationToIndices
  generalize (s.node p).children = cs
  induction cs generalizing s with
  | nil => simp
  | cons c cs ih =>
    rw [List.foldl_cons]
    split
    · have h := ih (s.modifyNode c (fun n =>
        { n with mutation := { n.mutation with index := n.mutation.index + 1 } }))
      simpa [State.modifyNode, State.setNode] using h
    · exact ih s

theorem maybeUpdateWindowDimensions_frame (s : State) (m : ShadowViewMutation) (sid : SurfaceId) :
    (maybeUpdateWindowDimensions s m sid).layoutAnimations = s.layoutAnimations ∧
    (maybeUpdateWindowDimensions s m sid).uiQueue = s.uiQueue ∧
    (maybeUpdateWindowDimensions s m sid).managerLog = s.managerLog ∧
    (maybeUpdateWindowDimensions s m sid).nodeForTag = s.nodeForTag ∧
    (maybeUpdateWindowDimensions s m sid).heap = s.heap ∧
    (maybeUpdateWindowDimensions s m sid).updateMap = s.updateMap ∧
    (maybeUpdateWindowDimensions s m sid).deadNodes = s.deadNodes := by
  unfold maybeUpdateWindowDimensions
  split <;> simp

theorem updateIndexForMutation_window (s : State) (m u : ShadowViewMutation) (sid : SurfaceId) :
    updateIndexForMutation (maybeUpdateWindowDimensions s u sid) m = updateIndexForMutation s m := by
  have h := maybeUpdateWindowDimensions_frame s u sid
  unfold updateIndexForMutation pendingIndices State.node
  rw [h.2.2.2.1, h.2.2.2.2.1]

/-- The loop body of `handleUpdatesAndEnterings` on an Insert of a moved tag: one
Insert is appended, with the index that `updateIndexForMutation` computes. -/
theorem handleMutation_moved_insert_core (mgr : Manager) (movedViews : Tag → Option Tag)
    (sid : SurfaceId) (l : UpdLoop) (m : ShadowViewMutation) (newParent : Tag)
    (hins : m.type = .Insert) (hmv : movedViews m.newChildShadowView.tag = some newParent) :
    (handleMutation mgr movedViews sid l m).s.uiQueue = l.s.uiQueue ∧
    (handleMutation mgr movedViews sid l m).s.managerLog = l.s.managerLog ∧
    ∃ ins : ShadowViewMutation,
      (handleMutation mgr movedViews sid l m).filteredMutations = l.filteredMutations ++ [ins] ∧
      ins.type = .Insert ∧ ins.parentTag = m.parentTag ∧
      ins.index = (updateIndexForMutation l.s m).index ∧
      (∀ la, l.s.layoutAnimations m.newChildShadowView.tag = some la →
        ins.newChildShadowView = la.currentView ∧
        (handleMutation mgr movedViews sid l m).s.layoutAnimations m.newChildShadowView.tag
          = some { la with parentTag := newParent }) ∧
      (l.s.layoutAnimations m.newChildShadowView.tag = none →
        (handleMutation mgr movedViews sid l m).s.layoutAnimations m.newChildShadowView.tag = none ∧
        (∀ v, l.oldShadowViewsForReparentings m.newChildShadowView.tag = some v →
          ins.newChildShadowView = v) ∧
        (l.oldShadowViewsForReparentings m.newChildShadowView.tag = none →
          ins.newChildShadowView = m.newChildShadowView)) := by
  have hw := maybeUpdateWindowDimensions_frame l.s m sid
  have hidx := updateIndexForMutation_window l.s m m sid
  have hf := updateIndexForMutation_fields l.s m
  generalize hm1 : updateIndexForMutation l.s m = m1 at hf hidx
  have hpar : m1.parentTag = m.parentTag := by rw [hf]
  have hnew : m1.newChildShadowView = m.newChildShadowView := by rw [hf]
  have hty : m1.type = .Insert := by rw [hf]; exact hins
  unfold handleMutation
  simp only [hins, handleInsert, hmv, true_or, or_true, if_true, hidx]
  rcases hp : (maybeUpdateWindowDimensions l.s m sid).nodeForTag m1.parentTag with _ | p
  · simp only []
    obtain ⟨ha, hq, hlog⟩ : (maybeUpdateWindowDimensions l.s m sid).layoutAnimations
        = l.s.layoutAnimations ∧ (maybeUpdateWindowDimensions l.s m sid).uiQueue = l.s.uiQueue ∧
        (maybeUpdateWindowDimensions l.s m sid).managerLog = l.s.managerLog :=
      ⟨hw.1, hw.2.1, hw.2.2.1⟩
    generalize maybeUpdateWindowDimensions l.s m sid = s1 at ha hq hlog ⊢
    rw [ha]
    cases hla : l.s.layoutAnimations m.newChildShadowView.tag with
    | none =>
      cases hold : l.oldShadowViewsForReparentings m.newChildShadowView.tag with
      | none =>
        refine ⟨hq, hlog, m1, rfl, hty, hpar, rfl, ?_, ?_⟩
        · intro la h; cases h
        · intro _
          refine ⟨by simp only [ha, hla], ?_, fun _ => hnew⟩
          intro v h; cases h
      | some v =>
        refine ⟨hq, hlog, _, rfl, rfl, hpar, rfl, ?_, ?_⟩
        · intro la h; cases h
        · intro _
          refine ⟨by simp only [ha, hla], ?_, ?_⟩
          · intro v1 h; cases h; rfl
          · intro h; cases h
    | some la =>
      refine ⟨hq, hlog, _, rfl, rfl, hpar, rfl, ?_, ?_⟩
      · intro la1 h
        cases h
        exact ⟨rfl, by simp⟩
      · intro h; cases h
  · simp only []
    have h2 := applyMutationToIndices_frame (maybeUpdateWindowDimensions l.s m sid) p m1
    obtain ⟨ha, hq, hlog⟩ :
        (applyMutationToIndices (maybeUpdateWindowDimensions l.s m sid) p m1).layoutAnimations
          = l.s.layoutAnimations ∧
        (applyMutationToIndices (maybeUpdateWindowDimensions l.s m sid) p m1).uiQueue
          = l.s.uiQueue ∧
        (applyMutationToIndices (maybeUpdateWindowDimensions l.s m sid) p m1).managerLog
          = l.s.managerLog :=
      ⟨h2.1.trans hw.1, h2.2.1.trans hw.2.1, h2.2.2.1.trans hw.2.2.1⟩
    generalize applyMutationToIndices (maybeUpdateWindowDimensions l.s m sid) p m1 = s1
      at ha hq hlog ⊢
    rw [ha]
    cases hla : l.s.layoutAnimations m.newChildShadowView.tag with
    | none =>
      cases hold : l.oldShadowViewsForReparentings m.newChildShadowView.tag with
      | none =>
        refine ⟨hq, hlog, m1, rfl, hty, hpar, rfl, ?_, ?_⟩
        · intro la h; cases h
        · intro _
          refine ⟨by simp only [ha, hla], ?_, fun _ => hnew⟩
          intro v h; cases h
      | some v =>
        refine ⟨hq, hlog, _, rfl, rfl, hpar, rfl, ?_, ?_⟩
        · intro la h; cases h
        · intro _
          refine ⟨by simp only [ha, hla], ?_, ?_⟩
          · intro v1 h; cases h; rfl
          · intro h; cases h
    | some la =>
      refine ⟨hq, hlog, _, rfl, rfl, hpar, rfl, ?_, ?_⟩
      · intro la1 h
        cases h
        exact ⟨rfl, by simp⟩
      · intro h; cases h

/-- C16: an Update is appended unchanged to the filtered batch, after everything
appended for the mutations before it and before everything appended for the
mutations after it, when no layout animation is configured for its tag, or
when its geometry did not change and no animation is tracked for its tag; in
every other case the step of the Update appends nothing. -/
theorem handleUpdatesAndEnterings_update (mgr : Manager) (movedViews : Tag → Option Tag)
    (sid : SurfaceId) (pre post : ShadowViewMutationList) (u : ShadowViewMutation) (w : Work)
    (l1 : UpdLoop) (hu : u.type = .Update)
    (hl1 : l1 = pre.foldl (handleMutation mgr movedViews sid)
      { s := w.1, filteredMutations := w.2, oldShadowViewsForReparentings := fun _ => none }) :
    (mgr.hasLayoutAnimation l1.s.managerLog u.oldChildShadowView.tag .LAYOUT = false ∨
      (hasLayoutChanged u = false ∧ l1.s.layoutAnimations u.oldChildShadowView.tag = none) →
      (handleMutation mgr movedViews sid l1 u).filteredMutations = l1.filteredMutations ++ [u] ∧
      ∃ X, (handleUpdatesAndEnterings mgr movedViews sid (pre ++ u :: post) w).2
        = l1.filteredMutations ++ [u] ++ X) ∧
    (¬ (mgr.hasLayoutAnimation l1.s.managerLog u.oldChildShadowView.tag .LAYOUT = false ∨
      (hasLayoutChanged u = false ∧ l1.s.layoutAnimations u.oldChildShadowView.tag = none)) →
      (handleMutation mgr movedViews sid l1 u).filteredMutations = l1.filteredMutations ∧
      ∃ X, (handleUpdatesAndEnterings mgr movedViews sid (pre ++ u :: post) w).2
        = l1.filteredMutations ++ X ∧
        (post.foldl (handleMutation mgr movedViews sid)
          (handleMutation mgr movedViews sid l1 u)).filteredMutations
          = (handleMutation mgr movedViews sid l1 u).filteredMutations ++ X) := by
  have hw := maybeUpdateWindowDimensions_frame l1.s u sid
  have hfold : (handleUpdatesAndEnterings mgr movedViews sid (pre ++ u :: post) w).2
      = (post.foldl (handleMutation mgr movedViews sid)
          (handleMutation mgr movedViews sid l1 u)).filteredMutations := by
    simp only [handleUpdatesAndEnterings, List.foldl_append, List.foldl_cons, hl1]
  obtain ⟨X, hX⟩ := foldl_handleMutation_appends mgr movedViews sid post
    (handleMutation mgr movedViews sid l1 u)
  have hstep : (handleMutation mgr movedViews sid l1 u).filteredMutations
      = if mgr.hasLayoutAnimation l1.s.managerLog u.oldChildShadowView.tag .LAYOUT = false ∨
          (hasLayoutChanged u = false ∧ l1.s.layoutAnimations u.oldChildShadowView.tag = none)
        then l1.filteredMutations ++ [u] else l1.filteredMutations := by
    unfold handleMutation
    simp only [hu, handleUpdate, hw.1, hw.2.2.1, reduceCtorEq, or_self, if_false]
    cases h1 : mgr.hasLayoutAnimation l1.s.managerLog u.oldChildShadowView.tag .LAYOUT <;>
      cases h2 : hasLayoutChanged u <;>
      cases h3 : l1.s.layoutAnimations u.oldChildShadowView.tag <;> simp
  constructor
  · intro hc
    rw [if_pos hc] at hstep
    exact ⟨hstep, X, by rw [hfold, hX, hstep]⟩
  · intro hc
    rw [if_neg hc] at hstep
    exact ⟨hstep, X, by rw [hfold, hX, hstep], hX⟩
/-- Witness of C16: an Update of view 5 in a fresh engine without animations is
passed through. -/
theorem handleUpdatesAndEnterings_update_witness :
    (UpdateMutation (sampleView 5) (sampleView 5) 1).type = .Update ∧
    (handleMutation noAnimations (fun _ => none) 1
      { s := State.fresh, filteredMutations := [], oldShadowViewsForReparentings := fun _ => none }
      (UpdateMutation (sampleView 5) (sampleView 5) 1)).filteredMutations
      = [] ++ [UpdateMutation (sampleView 5) (sampleView 5) 1] :=
  ⟨rfl, ((handleUpdatesAndEnterings_update noAnimations (fun _ => none) 1 [] []
    (UpdateMutation (sampleView 5) (sampleView 5) 1) (State.fresh, [])
    { s := State.fresh, filteredMutations := [], oldShadowViewsForReparentings := fun _ => none }
    rfl rfl).1 (Or.inl rfl)).1⟩
/-- C17: `transferConfigFromNativeID` is total.  For the empty string, for a
string that `stoi` rejects as not a number and for one whose value is out of
the range of `int`, the engine state is returned as it is, so the manager is
not called; the manager is called, once, exactly when the string is not empty
and `stoi` yields an `int`.  Whatever the identifier of the inserted view is,
an Insert of a tag outside the moved-views map is appended to the filtered
batch (with its corrected index). -/
theorem transferConfigFromNativeID_safe (mgr : Manager) (movedViews : Tag → Option Tag)
    (sid : SurfaceId) (l : UpdLoop) (m : ShadowViewMutation) (s : State) (str : String)
    (tag : Tag) :
    (str.isEmpty = true ∨ stoi str = .invalidArgument ∨ stoi str = .outOfRange →
      transferConfigFromNativeID s str tag = s) ∧
    (∀ n, str.isEmpty = false → stoi str = .value n →
      (-2147483648 ≤ n ∧ n ≤ 2147483647) ∧
      transferConfigFromNativeID s str tag
        = s.logCall (ManagerCall.transferConfigFromNativeID n tag)) ∧
    ((transferConfigFromNativeID s str tag).managerLog ≠ s.managerLog →
      str.isEmpty = false ∧ ∃ n, stoi str = .value n) ∧
    (m.type = .Insert → movedViews m.newChildShadowView.tag = none →
      { m with index := (updateIndexForMutation l.s m).index }
        ∈ (handleMutation mgr movedViews sid l m).filteredMutations) := by
  refine ⟨?_, ?_, ?_, ?_⟩
  · intro h
    unfold transferConfigFromNativeID
    rcases h with h | h | h
    · rw [if_pos h]
    · rw [h]; split <;> rfl
    · rw [h]; split <;> rfl
  · intro n he hn
    constructor
    · unfold stoi at hn
      simp only at hn
      split_ifs at hn <;>
        (injection hn with hn; rw [← hn]; rename_i h; push_neg at h; exact h)
    · unfold transferConfigFromNativeID
      rw [if_neg (by simp [he]), hn]
  · intro h
    unfold transferConfigFromNativeID at h
    cases he : str.isEmpty with
    | true => rw [if_pos he] at h; exact absurd rfl h
    | false =>
      refine ⟨rfl, ?_⟩
      cases hs : stoi str with
      | value n => exact ⟨n, rfl⟩
      | invalidArgument => rw [if_neg (by simp [he]), hs] at h; exact absurd rfl h
      | outOfRange => rw [if_neg (by simp [he]), hs] at h; exact absurd rfl h
  · intro hins hmv
    have hidx := updateIndexForMutation_window l.s m m sid
    have hf := updateIndexForMutation_fields l.s m
    rw [← hf]
    unfold handleMutation
    simp only [hins, handleInsert, hmv, true_or, or_true, if_true, hidx]
    split <;> simp
/-- Witness of C17: the identifiers "", "abc", "99999999999" and " 42px" in a
fresh engine, and an Insert of view 5 that carries the identifier "abc". -/
theorem transferConfigFromNativeID_safe_witness :
    transferConfigFromNativeID State.fresh "" 5 = State.fresh ∧
    transferConfigFromNativeID State.fresh "abc" 5 = State.fresh ∧
    transferConfigFromNativeID State.fresh "99999999999" 5 = State.fresh ∧
    transferConfigFromNativeID State.fresh " 42px" 5
      = State.fresh.logCall (ManagerCall.transferConfigFromNativeID 42 5) :=
  ⟨(transferConfigFromNativeID_safe noAnimations (fun _ => none) 1
      { s := State.fresh, filteredMutations := [], oldShadowViewsForReparentings := fun _ => none }
      (InsertMutation 2 (sampleView 5) 0) State.fresh "" 5).1 (Or.inl (by decide)),
   (transferConfigFromNativeID_safe noAnimations (fun _ => none) 1
      { s := State.fresh, filteredMutations := [], oldShadowViewsForReparentings := fun _ => none }
      (InsertMutation 2 (sampleView 5) 0) State.fresh "abc" 5).1 (Or.inr (Or.inl (by decide))),
   (transferConfigFromNativeID_safe noAnimations (fun _ => none) 1
      { s := State.fresh, filteredMutations := [], oldShadowViewsForReparentings := fun _ => none }
      (InsertMutation 2 (sampleView 5) 0) State.fresh "99999999999" 5).1
      (Or.inr (Or.inr (by decide))),
   ((transferConfigFromNativeID_safe noAnimations (fun _ => none) 1
      { s := State.fresh, filteredMutations := [], oldShadowViewsForReparentings := fun _ => none }
      (InsertMutation 2 (sampleView 5) 0) State.fresh " 42px" 5).2.1 42 (by decide)
      (by decide)).2⟩

theorem updateIndexForMutation_old (s : State) (m : ShadowViewMutation) :
    (updateIndexForMutation s m).oldChildShadowView = m.oldChildShadowView := by
  rw [updateIndexForMutation_fields s m]

theorem parseStep_maps (a : ParseAcc) (m : ShadowViewMutation) :
    (parseStep a m).movedViews =
      (if m.type = .Remove ∧ m.oldChildShadowView.tag ∉ a.deletedViews
        then Function.update a.movedViews m.oldChildShadowView.tag (some (-1))
        else a.movedViews) ∧
    (parseStep a m).deletedViews =
      (if m.type = .Delete then m.oldChildShadowView.tag :: a.deletedViews
        else a.deletedViews) := by
  cases hty : m.type with
  | Delete => simp [parseStep, hty]
  | Insert => simp [parseStep, hty]
  | Create => simp [parseStep, hty]
  | Remove =>
    have ho := updateIndexForMutation_old a.s m
    by_cases hd : m.oldChildShadowView.tag ∈ a.deletedViews
    · simp [parseStep, hty, parseRemove, ho, hd]
    · simp [parseStep, hty, parseRemove, ho, hd]
  | Update =>
    simp only [parseStep, hty, reduceCtorEq, if_false, false_and, true_and]
    split
    · split <;> exact ⟨rfl, rfl⟩
    · exact ⟨rfl, rfl⟩

theorem removedNotDeletedLater_cons (m : ShadowViewMutation) (sc : ShadowViewMutationList)
    (t : Tag) :
    RemovedNotDeletedLater (m :: sc) t ↔
      (m.type = .Remove ∧ m.oldChildShadowView.tag = t ∧
        ∀ d ∈ sc, d.type = .Delete → d.oldChildShadowView.tag ≠ t) ∨
      RemovedNotDeletedLater sc t := by
  constructor
  · rintro ⟨pre, r, post, he, hr, ht, hd⟩
    cases pre with
    | nil =>
      simp only [List.nil_append, List.cons.injEq] at he
      obtain ⟨h1, h2⟩ := he
      subst h1; subst h2
      exact Or.inl ⟨hr, ht, hd⟩
    | cons x pre =>
      simp only [List.cons_append, List.cons.injEq] at he
      exact Or.inr ⟨pre, r, post, he.2, hr, ht, hd⟩
  · rintro (⟨hr, ht, hd⟩ | ⟨pre, r, post, he, hr, ht, hd⟩)
    · exact ⟨[], m, sc, rfl, hr, ht, hd⟩
    · exact ⟨m :: pre, r, post, by rw [he]; rfl, hr, ht, hd⟩

theorem scanResult_maps (s : State) (t : Tag) : ∀ sc : ShadowViewMutationList,
    (∀ x, x ∈ (scanResult s sc).deletedViews ↔
      ∃ d ∈ sc, d.type = .Delete ∧ d.oldChildShadowView.tag = x) ∧
    ((scanResult s sc).movedViews t = some (-1) ∧ RemovedNotDeletedLater sc t ∨
      (scanResult s sc).movedViews t = none ∧ ¬ RemovedNotDeletedLater sc t) := by
  intro sc
  induction sc with
  | nil =>
    refine ⟨fun x => by simp [scanResult], Or.inr ⟨rfl, ?_⟩⟩
    rintro ⟨pre, r, post, he, _⟩
    cases pre <;> cases he
  | cons m sc ih =>
    have hstep : scanResult s (m :: sc) = parseStep (scanResult s sc) m := by
      simp [scanResult, List.foldl_append]
    obtain ⟨hd, hm⟩ := ih
    obtain ⟨h1, h2⟩ := parseStep_maps (scanResult s sc) m
    rw [hstep]
    constructor
    · intro x
      rw [h2]
      split
      · rename_i hty
        simp only [List.mem_cons, hd x]
        constructor
        · rintro (h | ⟨d, hd1, hd2⟩)
          · exact ⟨m, Or.inl rfl, hty, h.symm⟩
          · exact ⟨d, Or.inr hd1, hd2⟩
        · rintro ⟨d, (h | h), hd2⟩
          · left; rw [← h]; exact hd2.2.symm
          · right; exact ⟨d, h, hd2⟩
      · rename_i hty
        rw [hd x]
        constructor
        · rintro ⟨d, hd1, hd2⟩; exact ⟨d, List.mem_cons_of_mem _ hd1, hd2⟩
        · rintro ⟨d, hd1, hd2⟩
          rcases List.mem_cons.1 hd1 with h | h
          · rw [h] at hd2; exact absurd hd2.1 hty
          · exact ⟨d, h, hd2⟩
    · rw [h1, removedNotDeletedLater_cons]
      have hdel : m.oldChildShadowView.tag ∉ (scanResult s sc).deletedViews ↔
          ∀ d ∈ sc, d.type = .Delete → d.oldChildShadowView.tag ≠ m.oldChildShadowView.tag := by
        rw [hd]
        constructor
        · intro h d hd1 hd2 hd3; exact h ⟨d, hd1, hd2, hd3⟩
        · rintro h ⟨d, hd1, hd2, hd3⟩; exact h d hd1 hd2 hd3
      by_cases hc : m.type = .Remove ∧ m.oldChildShadowView.tag ∉ (scanResult s sc).deletedViews
      · rw [if_pos hc]
        by_cases ht : m.oldChildShadowView.tag = t
        · left
          refine ⟨by rw [ht]; simp, Or.inl ⟨hc.1, ht, ?_⟩⟩
          rw [← ht]; exact hdel.1 hc.2
        · rw [Function.update_noteq (Ne.symm ht)]
          rcases hm with ⟨a1, a2⟩ | ⟨a1, a2⟩
          · exact Or.inl ⟨a1, Or.inr a2⟩
          · refine Or.inr ⟨a1, ?_⟩
            rintro (⟨_, h, _⟩ | h)
            · exact ht h
            · exact a2 h
      · rw [if_neg hc]
        rcases hm with ⟨a1, a2⟩ | ⟨a1, a2⟩
        · exact Or.inl ⟨a1, Or.inr a2⟩
        · refine Or.inr ⟨a1, ?_⟩
          rintro (⟨h1, h2, h3⟩ | h)
          · apply hc
            refine ⟨h1, hdel.2 ?_⟩
            rw [h2]; exact h3
          · exact a2 h

theorem resolveMovedViews_spec (mv : Tag → Option Tag) (t : Tag) :
    ∀ ms : ShadowViewMutationList,
    (mv t = none → resolveMovedViews mv ms t = none) ∧
    (∀ v, mv t = some v →
      ((∀ i ∈ ms, i.type = .Insert → i.newChildShadowView.tag ≠ t) ∧
        resolveMovedViews mv ms t = some v) ∨
      ∃ ins, LastInsert ms t ins ∧ resolveMovedViews mv ms t = some ins.parentTag) := by
  intro ms
  induction ms using List.reverseRecOn with
  | nil =>
    exact ⟨fun h => h, fun v h => Or.inl ⟨fun i hi => absurd hi (List.not_mem_nil i), h⟩⟩
  | append_singleton ms x ih =>
    have hstep : resolveMovedViews mv (ms ++ [x]) =
        (if x.type = .Insert ∧ (resolveMovedViews mv ms x.newChildShadowView.tag).isSome
          then Function.update (resolveMovedViews mv ms) x.newChildShadowView.tag
            (some x.parentTag)
          else resolveMovedViews mv ms) := by
      simp [resolveMovedViews, List.foldl_append]
    obtain ⟨ih1, ih2⟩ := ih
    rw [hstep]
    by_cases hx : x.type = .Insert ∧ x.newChildShadowView.tag = t
    · obtain ⟨hx1, hx2⟩ := hx
      constructor
      · intro hn
        have := ih1 hn
        rw [if_neg (by rw [hx2, this]; simp)]
        exact this
      · intro v hv
        right
        refine ⟨x, ⟨ms, [], rfl, hx1, hx2, fun i hi => absurd hi (List.not_mem_nil i)⟩, ?_⟩
        have hsome : (resolveMovedViews mv ms t).isSome = true := by
          rcases ih2 v hv with ⟨_, h⟩ | ⟨ins, _, h⟩ <;> rw [h] <;> rfl
        rw [if_pos ⟨hx1, by rw [hx2]; exact hsome⟩, hx2]
        simp
    · have hsame : (if x.type = .Insert ∧
            (resolveMovedViews mv ms x.newChildShadowView.tag).isSome
          then Function.update (resolveMovedViews mv ms) x.newChildShadowView.tag
            (some x.parentTag)
          else resolveMovedViews mv ms) t = resolveMovedViews mv ms t := by
        split
        · rename_i h
          exact Function.update_noteq (fun h2 => hx ⟨h.1, h2.symm⟩) _ _
        · rfl
      rw [hsame]
      refine ⟨ih1, fun v hv => ?_⟩
      rcases ih2 v hv with ⟨h1, h2⟩ | ⟨ins, ⟨pre, post, he, hi1, hi2, hi3⟩, h2⟩
      · left
        refine ⟨fun i hi hty => ?_, h2⟩
        rcases List.mem_append.1 hi with h | h
        · exact h1 i h hty
        · rw [List.mem_singleton.1 h] at hty ⊢
          exact fun h3 => hx ⟨hty, h3⟩
      · right
        refine ⟨ins, ⟨pre, post ++ [x], by rw [he]; simp, hi1, hi2, fun i hi hty => ?_⟩, h2⟩
        rcases List.mem_append.1 hi with h | h
        · exact hi3 i h hty
        · rw [List.mem_singleton.1 h] at hty ⊢
          exact fun h3 => hx ⟨hty, h3⟩

theorem lastInsert_unique (batch : ShadowViewMutationList) (t : Tag)
    (ins ins1 : ShadowViewMutation) (h : LastInsert batch t ins) (h1 : LastInsert batch t ins1) :
    ins = ins1 := by
  obtain ⟨pre, post, he, a1, a2, a3⟩ := h
  obtain ⟨pre1, post1, he1, b1, b2, b3⟩ := h1
  rw [he] at he1
  rcases List.append_eq_append_iff.1 he1 with ⟨l, h1, h2⟩ | ⟨l, h1, h2⟩
  · cases l with
    | nil =>
      simp only [List.nil_append, List.cons.injEq] at h2
      exact h2.1
    | cons x l =>
      simp only [List.cons_append, List.cons.injEq] at h2
      exact absurd b2 (a3 ins1 (by rw [h2.2]; simp) b1)
  · cases l with
    | nil =>
      simp only [List.nil_append, List.cons.injEq] at h2
      exact h2.1.symm
    | cons x l =>
      simp only [List.cons_append, List.cons.injEq] at h2
      exact absurd a2 (b3 ins (by rw [h2.2]; simp) a1)

/-- C12: after `parseRemoveMutations` on any batch, in any engine state, the
moved-views map contains exactly the tags `t` for which the batch has a Remove
of `t` with no Delete of `t` at a later position; the value stored for `t` is
the parent tag of the last Insert of `t` in the batch, and -1 when the batch
has no Insert of `t`. -/
theorem parseRemoveMutations_movedViews (s : State) (batch : ShadowViewMutationList) (t : Tag) :
    (((parseRemoveMutations s batch).movedViews t).isSome = true ↔
      RemovedNotDeletedLater batch t) ∧
    (∀ ins, RemovedNotDeletedLater batch t → LastInsert batch t ins →
      (parseRemoveMutations s batch).movedViews t = some ins.parentTag) ∧
    (RemovedNotDeletedLater batch t →
      (∀ i ∈ batch, i.type = .Insert → i.newChildShadowView.tag ≠ t) →
      (parseRemoveMutations s batch).movedViews t = some (-1)) := by
  have hP : (parseRemoveMutations s batch).movedViews
      = resolveMovedViews (scanResult s batch).movedViews batch := rfl
  obtain ⟨h1, h2⟩ := resolveMovedViews_spec (scanResult s batch).movedViews t batch
  have huniq : ∀ ins ins1, LastInsert batch t ins → LastInsert batch t ins1 →
      ins.parentTag = ins1.parentTag := by
    intro ins ins1 h h1
    rw [lastInsert_unique batch t ins ins1 h h1]
  rw [hP]
  rcases (scanResult_maps s t batch).2 with ⟨a1, a2⟩ | ⟨a1, a2⟩
  · refine ⟨?_, ?_, ?_⟩
    · constructor
      · intro _; exact a2
      · intro _
        rcases h2 _ a1 with ⟨_, h⟩ | ⟨ins, _, h⟩ <;> rw [h] <;> rfl
    · intro ins _ hl
      rcases h2 _ a1 with ⟨h, _⟩ | ⟨ins1, hl1, h⟩
      · obtain ⟨pre, post, he, c1, c2, _⟩ := hl
        exact absurd c2 (h ins (by rw [he]; simp) c1)
      · rw [h, huniq ins ins1 hl hl1]
    · intro _ hno
      rcases h2 _ a1 with ⟨_, h⟩ | ⟨ins1, ⟨pre, post, he, c1, c2, _⟩, h⟩
      · exact h
      · exact absurd c2 (hno ins1 (by rw [he]; simp) c1)
  · have hn := h1 a1
    refine ⟨?_, ?_, ?_⟩
    · rw [hn]
      constructor
      · intro h; cases h
      · intro h; exact absurd h a2
    · intro ins h; exact absurd h a2
    · intro h; exact absurd h a2

/-- Witness of C12: view 5 is removed from parent 1 and inserted under parent 2. -/
theorem parseRemoveMutations_movedViews_witness :
    (parseRemoveMutations State.fresh
      [RemoveMutation 1 (sampleView 5) 0, InsertMutation 2 (sampleView 5) 0]).movedViews 5
      = some 2 :=
  (parseRemoveMutations_movedViews State.fresh
    [RemoveMutation 1 (sampleView 5) 0, InsertMutation 2 (sampleView 5) 0] 5).2.1
    (InsertMutation 2 (sampleView 5) 0)
    ⟨[], RemoveMutation 1 (sampleView 5) 0, [InsertMutation 2 (sampleView 5) 0], rfl, rfl, rfl,
      by decide⟩
    ⟨[RemoveMutation 1 (sampleView 5) 0], [], rfl, rfl, rfl, by decide⟩

theorem addOngoing_fold (es : List (Tag × UpdateValues)) :
    ∀ w : Work, (es.map Prod.fst).Nodup →
    ∃ r : Work, r = es.foldl (fun (acc : Work) e =>
      match acc.1.layoutAnimations e.1 with
      | none => acc
      | some la =>
        let newView : ShadowView := { la.finalView with
          props := e.2.newProps,
          layoutMetrics := updateLayoutMetrics la.finalView.layoutMetrics e.2.frame }
        let la1 : LayoutAnimation := { la with currentView := newView }
        ({ acc.1 with layoutAnimations := Function.update acc.1.layoutAnimations e.1 (some la1) },
         acc.2 ++ [UpdateMutation la.currentView newView la.parentTag])) w ∧
      r.2 = w.2 ++ es.filterMap (ongoingUpdate w.1.layoutAnimations) ∧
      (∀ e ∈ es, ∀ la, w.1.layoutAnimations e.1 = some la →
        r.1.layoutAnimations e.1 = some { la with currentView := ongoingView la e.2 }) ∧
      (∀ t, (∀ e ∈ es, e.1 ≠ t) → r.1.layoutAnimations t = w.1.layoutAnimations t) ∧
      r.1.updateMap = w.1.updateMap ∧ r.1.nodeForTag = w.1.nodeForTag ∧ r.1.heap = w.1.heap ∧
      (∀ t, w.1.layoutAnimations t = none → r.1.layoutAnimations t = none) := by
  induction es with
  | nil =>
    intro w _
    exact ⟨w, rfl, by simp, fun e he => absurd he (List.not_mem_nil e), fun _ _ => rfl, rfl,
      rfl, rfl, fun _ h => h⟩
  | cons e es ih =>
    intro w hnd
    rw [List.map_cons, List.nodup_cons] at hnd
    obtain ⟨hne, hnd⟩ := hnd
    have hne1 : ∀ e1 ∈ es, e1.1 ≠ e.1 := fun e1 he1 h => hne (h ▸ List.mem_map_of_mem _ he1)
    rw [List.foldl_cons]
    cases hla : w.1.layoutAnimations e.1 with
    | none =>
      obtain ⟨r, hr, h1, h2, h3, h4, h5, h6, h7⟩ := ih w hnd
      refine ⟨r, hr, ?_, ?_, ?_, h4, h5, h6, h7⟩
      · rw [h1, List.filterMap_cons]
        simp [ongoingUpdate, hla]
      · intro e1 he1 la h
        rcases List.mem_cons.1 he1 with h0 | h0
        · rw [h0, hla] at h; cases h
        · exact h2 e1 h0 la h
      · intro t ht
        exact h3 t (fun e1 he1 => ht e1 (List.mem_cons_of_mem _ he1))
    | some la =>
      obtain ⟨la1, hla1⟩ : ∃ la1 : LayoutAnimation,
          la1 = { la with currentView := ongoingView la e.2 } := ⟨_, rfl⟩
      obtain ⟨f1, hf1⟩ : ∃ f1 : Tag → Option LayoutAnimation,
          f1 = Function.update w.1.layoutAnimations e.1 (some la1) := ⟨_, rfl⟩
      obtain ⟨w1, hw1⟩ : ∃ w1 : Work, w1 = ({ w.1 with layoutAnimations := f1 },
          w.2 ++ [UpdateMutation la.currentView (ongoingView la e.2) la.parentTag]) := ⟨_, rfl⟩
      rw [hf1, hla1] at hw1
      have hw1la : ∀ t, t ≠ e.1 → w1.1.layoutAnimations t = w.1.layoutAnimations t := by
        intro t ht
        rw [hw1]
        exact Function.update_noteq ht _ _
      obtain ⟨r, hr, h1, h2, h3, h4, h5, h6, h7⟩ := ih w1 hnd
      refine ⟨r, ?_, ?_, ?_, ?_, ?_, ?_, ?_, ?_⟩
      · rw [hr, hw1]; rfl
      · rw [h1, List.filterMap_cons]
        have hcong : es.filterMap (ongoingUpdate w1.1.layoutAnimations)
            = es.filterMap (ongoingUpdate w.1.layoutAnimations) := by
          apply List.filterMap_congr
          intro e1 he1
          simp only [ongoingUpdate, hw1la e1.1 (hne1 e1 he1)]
        rw [hcong, hw1]
        simp [ongoingUpdate, hla]
      · intro e1 he1 la1 h
        rcases List.mem_cons.1 he1 with h0 | h0
        · rw [h0, hla] at h
          cases h
          rw [h0, h3 e.1 (fun e2 he2 => hne1 e2 he2), hw1]
          simp
        · rw [← hw1la e1.1 (hne1 e1 h0)] at h
          exact h2 e1 h0 la1 h
      · intro t ht
        rw [h3 t (fun e1 he1 => ht e1 (List.mem_cons_of_mem _ he1))]
        exact hw1la t (Ne.symm (ht e (List.mem_cons_self _ _)))
      · rw [h4, hw1]
      · rw [h5, hw1]
      · rw [h6, hw1]
      · intro t ht
        apply h7
        rw [hw1la t (fun h => by rw [h, hla] at ht; cases ht)]
        exact ht

theorem foldl_updateMap {α : Type} (f : State → α → State)
    (hf : ∀ s x, (f s x).updateMap = s.updateMap) :
    ∀ (l : List α) (s : State), (l.foldl f s).updateMap = s.updateMap := by
  intro l
  induction l with
  | nil => intro s; rfl
  | cons x l ih => intro s; rw [List.foldl_cons, ih, hf]

theorem modifyNode_updateMap (s : State) (p : Ptr) (f : Node → Node) :
    (s.modifyNode p f).updateMap = s.updateMap := rfl

theorem maybeCancelAnimation_updateMap (s : State) (tag : Tag) :
    (maybeCancelAnimation s tag).updateMap = s.updateMap := by
  unfold maybeCancelAnimation
  split <;> rfl

theorem removeChild_updateMap (s : State) (p c : Ptr) :
    (removeChildFromUnflattenedTree s p c).updateMap = s.updateMap := rfl

theorem makeMutationNode_updateMap (s : State) (m : ShadowViewMutation) (node : Option Ptr) :
    (makeMutationNode s m node).2.updateMap = s.updateMap := by
  unfold makeMutationNode
  cases node with
  | none => rfl
  | some p =>
    simp only
    exact (foldl_updateMap _ (by intro s x; rfl) _ _).trans
      ((foldl_updateMap _ (by intro s x; rfl) _ _).trans rfl)

theorem parseRemove_updateMap (a : ParseAcc) (m : ShadowViewMutation) :
    (parseRemove a m).s.updateMap = a.s.updateMap := by
  have h := makeMutationNode_updateMap a.s (updateIndexForMutation a.s m)
    (a.s.nodeForTag (updateIndexForMutation a.s m).oldChildShadowView.tag)
  unfold parseRemove
  simp only [State.modifyNode, State.setNode]
  split <;> split <;> simp [h, State.alloc]

theorem parseStep_updateMap (a : ParseAcc) (m : ShadowViewMutation) :
    (parseStep a m).s.updateMap = a.s.updateMap := by
  rcases parseStep_forms a m with h | h | h | ⟨p, h⟩
  · rw [h]; exact parseRemove_updateMap a m
  · rw [h]
  · rw [h]
  · rw [h]; rfl

theorem foldl_parseStep_updateMap : ∀ (l : ShadowViewMutationList) (a : ParseAcc),
    (l.foldl parseStep a).s.updateMap = a.s.updateMap := by
  intro l
  induction l with
  | nil => intro a; rfl
  | cons x l ih => intro a; rw [List.foldl_cons, ih, parseStep_updateMap]

theorem attachChildren_updateMap (s : State) (l : List (Tag × List Ptr)) :
    (attachChildren s l).updateMap = s.updateMap := by
  unfold attachChildren
  apply foldl_updateMap
  intro s e
  split
  · rfl
  · exact (foldl_updateMap _ (by intro s x; rfl) _ _).trans rfl

theorem attachUnflattenedChildren_updateMap (s : State) (l : List (Tag × List Ptr)) :
    (attachUnflattenedChildren s l).updateMap = s.updateMap := by
  unfold attachUnflattenedChildren
  apply foldl_updateMap
  intro s e
  split
  · rfl
  · exact (foldl_updateMap _ (by intro s x; rfl) _ _).trans rfl

theorem parseRemoveMutations_updateMap (s : State) (batch : ShadowViewMutationList) :
    (parseRemoveMutations s batch).s.updateMap = s.updateMap := by
  unfold parseRemoveMutations
  simp only
  rw [attachUnflattenedChildren_updateMap, attachChildren_updateMap, foldl_parseStep_updateMap]

theorem endAnimationsRecursively_updateMap : ∀ (fuel : Nat) (node : Ptr) (w w1 : Work),
    endAnimationsRecursively fuel node w = some w1 → w1.1.updateMap = w.1.updateMap := by
  intro fuel
  induction fuel with
  | zero => intro node w w1 h; simp [endAnimationsRecursively] at h
  | succ fuel ih =>
    intro node w w1 h
    obtain ⟨s, m⟩ := w
    unfold endAnimationsRecursively at h
    simp only at h
    split at h
    · exact absurd h (by simp)
    · rename_i s3 m3 hfold
      simp only [Option.some.injEq] at h
      have hloop := foldl_some_invariant
        (fun (acc : Option Work) subNode =>
          match acc with
          | none => none
          | some w =>
            if (w.1.node subNode).state ≠ .DELETED then
              endAnimationsRecursively fuel subNode w
            else some w)
        (fun _ => rfl) (fun (a b : Work) => b.1.updateMap = a.1.updateMap) (fun _ => rfl)
        (fun a b c h1 h2 => h2.trans h1) _
        (fun c _ b b1 hg => by
          simp only at hg
          split at hg
          · exact ih c b b1 hg
          · simp only [Option.some.injEq] at hg; rw [← hg])
        _ _ hfold
      rw [← h]
      simp only at hloop ⊢
      rw [hloop]
      exact maybeCancelAnimation_updateMap s _

theorem maybeDropAncestors_updateMap : ∀ (fuel : Nat) (parent child : Ptr) (w w1 : Work),
    maybeDropAncestors fuel parent child w = some w1 → w1.1.updateMap = w.1.updateMap := by
  intro fuel
  induction fuel with
  | zero => intro p c w w1 h; simp [maybeDropAncestors] at h
  | succ fuel ih =>
    intro p c w w1 h
    obtain ⟨s, m⟩ := w
    unfold maybeDropAncestors at h
    simp only at h
    split at h
    · simp only [Option.some.injEq] at h; rw [← h]; rfl
    · split at h
      · have := ih _ _ _ _ h
        rw [this]
        exact maybeCancelAnimation_updateMap _ _
      · simp only [Option.some.injEq] at h; rw [← h]; rfl

theorem startFinish_updateMap (node : Ptr) (he : Bool) (l : StartLoop) :
    (startFinish node he l).2.1.updateMap = l.s.updateMap := by
  have h1 : (l.toBeRemoved.foldl
      (fun acc subNode => removeChildFromUnflattenedTree acc node subNode) l.s).updateMap
      = l.s.updateMap := foldl_updateMap _ (by intro s x; rfl) _ _
  unfold startFinish
  simp only
  split
  · exact (foldl_updateMap _ (by intro s x; rfl) _ _).trans
      ((foldl_updateMap _ (by intro s x; rfl) _ _).trans h1)
  · split
    · exact h1
    · exact h1

theorem startLoopStep_updateMap (endRec : Ptr → Work → Option Work)
    (startRec : Ptr → Work → Option (Bool × Work)) (a b : Bool)
    (hend : ∀ c w w1, endRec c w = some w1 → w1.1.updateMap = w.1.updateMap)
    (hstart : ∀ c w r, startRec c w = some r → r.2.1.updateMap = w.1.updateMap)
    (l l1 : StartLoop) (c : Ptr)
    (h : startLoopStep endRec startRec a b (some l) c = some l1) :
    l1.s.updateMap = l.s.updateMap := by
  unfold startLoopStep at h
  simp only at h
  split at h
  · split at h
    · simp only [Option.some.injEq] at h; rw [← h]
    · split at h
      · exact absurd h (by simp)
      · rename_i s1 m1 he
        simp only [Option.some.injEq] at h
        rw [← h]
        exact hend _ _ _ he
  · split at h
    · exact absurd h (by simp)
    · rename_i s1 m1 he
      simp only [Option.some.injEq] at h
      rw [← h]
      exact hstart _ _ _ he
    · rename_i s1 m1 he
      have h0 := hstart _ _ _ he
      simp only at h0
      split at h
      · simp only [Option.some.injEq] at h; rw [← h]; exact h0
      · split at h
        · simp only [Option.some.injEq] at h
          rw [← h]
          simp only [State.modifyNode, State.setNode]
          rw [maybeCancelAnimation_updateMap]; exact h0
        · simp only [Option.some.injEq] at h; rw [← h]; exact h0

theorem startAnimationsRecursively_updateMap (mgr : Manager) :
    ∀ (fuel : Nat) (node : Ptr) (a b c : Bool) (w : Work) (r : Bool × Work),
      startAnimationsRecursively mgr fuel node a b c w = some r →
      r.2.1.updateMap = w.1.updateMap := by
  intro fuel
  induction fuel with
  | zero => intro node a b c w r h; simp [startAnimationsRecursively] at h
  | succ fuel ih =>
    intro node a b c w r h
    obtain ⟨s, m⟩ := w
    unfold startAnimationsRecursively at h
    simp only at h
    split at h
    · exact absurd h (by simp)
    · rename_i l hfold
      simp only [Option.some.injEq] at h
      have hloop : l.s.updateMap = s.updateMap := by
        refine foldl_some_invariant _ ?_
          (fun (x y : StartLoop) => y.s.updateMap = x.s.updateMap) (fun _ => rfl)
          (fun x y z h1 h2 => h2.trans h1) _ ?_ _ _ hfold
        · intro _; rfl
        · intro c1 _ x y hg
          exact startLoopStep_updateMap _ _ _ _
            (fun c w w1 he => endAnimationsRecursively_updateMap fuel c w w1 he)
            (fun c w r he => ih c _ _ _ w r he) x y c1 hg
      rw [← h, startFinish_updateMap]
      exact hloop

theorem handleRoots_updateMap (mgr : Manager) (fuel : Nat) (roots : List Ptr) (w w1 : Work)
    (h : handleRoots mgr fuel roots w = some w1) : w1.1.updateMap = w.1.updateMap := by
  unfold handleRoots at h
  refine foldl_some_invariant _ ?_ (fun (x y : Work) => y.1.updateMap = x.1.updateMap)
    (fun _ => rfl) (fun x y z h1 h2 => h2.trans h1) _ ?_ _ _ h
  · intro _; rfl
  · intro c _ x y hg
    simp only at hg
    split at hg
    · exact absurd hg (by simp)
    · rename_i w2 he
      simp only [Option.some.injEq] at hg
      rw [← hg]
      exact startAnimationsRecursively_updateMap mgr fuel c _ _ _ x _ he
    · rename_i s2 m2 he
      have h0 := startAnimationsRecursively_updateMap mgr fuel c _ _ _ x _ he
      simp only at h0
      split at hg
      · simp only [Option.some.injEq] at hg
        rw [← hg]
        simp only
        rw [maybeCancelAnimation_updateMap]
        exact h0
      · simp only [Option.some.injEq] at hg
        rw [← hg]
        exact h0

theorem handleDeadNodes_updateMap (fuel : Nat) (dead : List Ptr) (w w1 : Work)
    (h : handleDeadNodes fuel dead w = some w1) : w1.1.updateMap = w.1.updateMap := by
  unfold handleDeadNodes at h
  refine foldl_some_invariant _ ?_ (fun (x y : Work) => y.1.updateMap = x.1.updateMap)
    (fun _ => rfl) (fun x y z h1 h2 => h2.trans h1) _ ?_ _ _ h
  · intro _; rfl
  · intro c _ x y hg
    simp only at hg
    split at hg
    · split at hg
      · exact absurd hg (by simp)
      · rename_i w2 he
        rw [maybeDropAncestors_updateMap _ _ _ _ _ hg]
        exact endAnimationsRecursively_updateMap _ _ _ _ he
    · simp only [Option.some.injEq] at hg
      rw [← hg]

theorem handleRemovals_updateMap (mgr : Manager) (fuel : Nat) (roots : List Ptr) (w w1 : Work)
    (h : handleRemovals mgr fuel roots w = some w1) : w1.1.updateMap = w.1.updateMap := by
  unfold handleRemovals at h
  split at h
  · exact absurd h (by simp)
  · rename_i w2 h2
    split at h
    · exact absurd h (by simp)
    · rename_i s3 m3 h3
      simp only [Option.some.injEq] at h
      rw [← h]
      exact (handleDeadNodes_updateMap _ _ _ _ h3).trans (handleRoots_updateMap _ _ _ _ _ h2)

theorem transferConfigFromNativeID_updateMap (s : State) (str : String) (tag : Tag) :
    (transferConfigFromNativeID s str tag).updateMap = s.updateMap := by
  unfold transferConfigFromNativeID
  split
  · rfl
  · split <;> rfl

theorem handleMutation_updateMap (mgr : Manager) (mv : Tag → Option Tag) (sid : SurfaceId)
    (l : UpdLoop) (m : ShadowViewMutation) :
    (handleMutation mgr mv sid l m).s.updateMap = l.s.updateMap := by
  have hw := (maybeUpdateWindowDimensions_frame l.s m sid).2.2.2.2.2.1
  unfold handleMutation
  cases m.type with
  | Create => exact hw
  | Delete => exact hw
  | Remove => exact hw
  | Insert =>
    simp only [handleInsert]
    have ha : ∀ p m1, (applyMutationToIndices (maybeUpdateWindowDimensions l.s m sid)
        p m1).updateMap = l.s.updateMap :=
      fun p m1 => (applyMutationToIndices_frame _ _ _).2.2.2.2.1.trans hw
    repeat' split
    all_goals first
      | exact hw
      | exact ha _ _
      | exact (transferConfigFromNativeID_updateMap _ _ _).trans hw
      | exact (transferConfigFromNativeID_updateMap _ _ _).trans (ha _ _)
  | Update =>
    simp only [handleUpdate]
    repeat' split
    all_goals first
      | exact hw
      | (simp only [updateOngoingAnimationTarget]; split <;> exact hw)

theorem handleUpdatesAndEnterings_updateMap (mgr : Manager) (mv : Tag → Option Tag)
    (sid : SurfaceId) (ms : ShadowViewMutationList) (w : Work) :
    (handleUpdatesAndEnterings mgr mv sid ms w).1.updateMap = w.1.updateMap := by
  have : ∀ (l : UpdLoop), (ms.foldl (handleMutation mgr mv sid) l).s.updateMap
      = l.s.updateMap := by
    induction ms with
    | nil => intro l; rfl
    | cons x ms ih => intro l; rw [List.foldl_cons, ih, handleMutation_updateMap]
  exact this _

/-- The merge of the ongoing animations at the end of `pullTransaction`, in terms
of the work state `wr` that the removal pass returns: the table of the surface
is emptied and one Update is appended for every entry whose tag has a tracked
animation. -/
theorem pullTransaction_merges_core (mgr : Manager) (fuel : Nat) (s : State)
    (sid : SurfaceId) (batch : ShadowViewMutationList) (wr w : Work)
    (hrem : handleRemovals mgr fuel (parseRemoveMutations s batch).roots
      ((parseRemoveMutations s batch).s, []) = some wr)
    (hw : w = handleUpdatesAndEnterings mgr (parseRemoveMutations s batch).movedViews sid
      batch wr)
    (hkeys : ((s.updateMap sid).map Prod.fst).Nodup) :
    ∃ s1 out, pullTransaction mgr fuel s sid batch = some (s1, out) ∧
      s1.updateMap sid = [] ∧
      out = w.2 ++ (s.updateMap sid).filterMap (ongoingUpdate w.1.layoutAnimations) ∧
      (∀ e ∈ s.updateMap sid, w.1.layoutAnimations e.1 = none →
        ongoingUpdate w.1.layoutAnimations e = none ∧ s1.layoutAnimations e.1 = none) ∧
      (∀ e ∈ s.updateMap sid, ∀ la, w.1.layoutAnimations e.1 = some la →
        ongoingUpdate w.1.layoutAnimations e
          = some (UpdateMutation la.currentView (ongoingView la e.2) la.parentTag) ∧
        s1.layoutAnimations e.1 = some { la with currentView := ongoingView la e.2 }) ∧
      (∀ t, (∀ e ∈ s.updateMap sid, e.1 ≠ t) →
        s1.layoutAnimations t = w.1.layoutAnimations t) := by
  have hmap : w.1.updateMap = s.updateMap := by
    rw [hw, handleUpdatesAndEnterings_updateMap, handleRemovals_updateMap _ _ _ _ _ hrem]
    exact parseRemoveMutations_updateMap s batch
  have hrun : pullTransaction mgr fuel s sid batch = some (addOngoingAnimations sid w) := by
    unfold pullTransaction
    simp only [hrem, hw]
  rw [← hmap] at hkeys
  obtain ⟨r, hr, h1, h2, h3, h4, _, _, h7⟩ := addOngoing_fold (w.1.updateMap sid) w hkeys
  have hadd : addOngoingAnimations sid w
      = ({ r.1 with updateMap := Function.update r.1.updateMap sid [] }, r.2) := by
    rw [hr]
    rfl
  rw [hadd] at hrun
  rw [hmap] at h1 h2 h3
  refine ⟨_, _, hrun, by simp, h1, ?_, ?_, h3⟩
  · intro e he hn
    refine ⟨by simp [ongoingUpdate, hn], ?_⟩
    exact h7 e.1 hn
  · intro e he la hla
    exact ⟨by simp [ongoingUpdate, hla], h2 e he la hla⟩


theorem Kept.kept_refl (x : Node) : Kept x x := ⟨rfl, rfl, rfl, rfl, rfl, rfl⟩

theorem Kept.kept_trans {x y z : Node} (h1 : Kept x y) (h2 : Kept y z) : Kept x z :=
  ⟨h1.1.trans h2.1, h1.2.1.trans h2.2.1, h1.2.2.1.trans h2.2.2.1,
    h1.2.2.2.1.trans h2.2.2.2.1, h1.2.2.2.2.1.trans h2.2.2.2.2.1,
    h1.2.2.2.2.2.trans h2.2.2.2.2.2⟩

theorem Kept.kept_of_agree {x y : Node} (h : Agree x y) : Kept x y := by
  obtain ⟨a1, a2, a3, a4, a5, _⟩ := h.1.fields
  exact ⟨a1, a2, a3, a4, a5, h.2⟩

theorem Kept.kept_modify (s : State) (p : Ptr) (f : Node → Node) (hf : ∀ x, Kept (f x) x)
    (z : Ptr) : Kept ((s.modifyNode p f).heap z) (s.heap z) := by
  by_cases hz : z = p
  · subst hz
    simp only [State.modifyNode, State.setNode, State.node, Function.update_same]
    exact hf _
  · simp only [State.modifyNode, State.setNode, State.node, Function.update_noteq hz]
    exact Kept.kept_refl _

theorem foldl_modify_kept (f : Ptr → Node → Node) (hf : ∀ u x, Kept (f u x) x) :
    ∀ (cs : List Ptr) (s : State),
      (∀ z, Kept ((cs.foldl (fun acc sub => acc.modifyNode sub (f sub)) s).heap z) (s.heap z)) ∧
      (cs.foldl (fun acc sub => acc.modifyNode sub (f sub)) s).nodeForTag = s.nodeForTag ∧
      (cs.foldl (fun acc sub => acc.modifyNode sub (f sub)) s).next = s.next ∧
      (cs.foldl (fun acc sub => acc.modifyNode sub (f sub)) s).deadNodes = s.deadNodes := by
  intro cs
  induction cs with
  | nil => intro s; exact ⟨fun z => Kept.kept_refl _, rfl, rfl, rfl⟩
  | cons u us ih =>
    intro s
    simp only [List.foldl_cons]
    obtain ⟨h1, h2, h3, h4⟩ := ih (s.modifyNode u (f u))
    exact ⟨fun z => (h1 z).kept_trans (Kept.kept_modify s u (f u) (hf u) z), by rw [h2]; rfl,
      by rw [h3]; rfl, by rw [h4]; rfl⟩

/-- A node strictly below `d` is not above `d`. -/
theorem Reach.no_back {h : Ptr → Node} {k : Nat} {d z : Ptr} (hk : HtLe h k d)
    (hr : Reach h d z) (hne : z ≠ d) : ¬ Reach h z d := by
  intro hb
  cases hr with
  | refl => exact hne rfl
  | @step _ e _ he hez =>
    exact HtLe.acyclic k d e hk he (Reach.reach_trans hez hb)

theorem Defers.congr_anim {h0 : Ptr → Node} {st st1 : Ptr → ExitingState} {z : Ptr}
    (h : ∀ y, Reach h0 z y → (st y = .ANIMATING → st1 y = .ANIMATING))
    (hd : Defers h0 st z) : Defers h0 st1 z := by
  induction hd with
  | self hm ha => exact Defers.self hm (h _ (Reach.refl _) ha)
  | @child p c hm hc _ ih =>
    exact Defers.child hm hc (ih (fun y hy => h y (Reach.step hc hy)))

theorem Defers.animating {h0 : Ptr → Node} {st : Ptr → ExitingState} {z : Ptr}
    (hd : Defers h0 st z) : ∃ y, Reach h0 z y ∧ st y = .ANIMATING := by
  induction hd with
  | @self p hm ha => exact ⟨p, Reach.refl p, ha⟩
  | @child p c hm hc _ ih =>
    obtain ⟨y, hy, ha⟩ := ih
    exact ⟨y, Reach.step hc hy, ha⟩

theorem Defers.not_moved {h0 : Ptr → Node} {st : Ptr → ExitingState} {z : Ptr}
    (hd : Defers h0 st z) : (h0 z).state ≠ .MOVED := by
  cases hd with
  | self hm _ => exact hm
  | child hm _ _ => exact hm

theorem maybeCancelAnimation_next (s : State) (tag : Tag) :
    (maybeCancelAnimation s tag).next = s.next ∧
    (maybeCancelAnimation s tag).deadNodes = s.deadNodes := by
  unfold maybeCancelAnimation
  split <;> exact ⟨rfl, rfl⟩

/-- The facts of a loop step that follow from the call on the child, for a loop
state whose heap differs from the heap after the call at most in the state of
the child, which is not ANIMATING before or after. -/
theorem StepG.of_call {mgr : Manager} {h0 : Ptr → Node} {n0 : Nat} {d : Ptr} {eff r : Bool}
    {l l1 : StartLoop} {s1 : State} {m1 : ShadowViewMutationList}
    (P : PostG mgr h0 n0 d eff l.s l.mutations r s1 m1)
    (hheap : ∀ y, y ≠ d → l1.s.heap y = s1.heap y)
    (hself : Kept (l1.s.heap d) (s1.heap d) ∨
      ((l1.s.heap d).state ≠ .ANIMATING ∧ (s1.heap d).state ≠ .ANIMATING))
    (hnext : l1.s.next = s1.next) (hdead : l1.s.deadNodes = s1.deadNodes)
    (hanim : l1.hasAnimatedChildren = true ↔ (l.hasAnimatedChildren = true ∨ r = true))
    (hout : ∃ Y, l1.mutations = m1 ++ Y ∧ ∀ x ∈ Y,
      (x = (h0 d).mutation ∨ x = DeleteMutation (h0 d).mutation.oldChildShadowView) ∧
      (eff = false → (h0 d).state = .MOVED ∧ x = (h0 d).mutation))
    (hwait : eff = false → (h0 d).state ≠ .MOVED → r = false →
      (l1.s.heap d).state = .WAITING)
    (htable : eff = false → l1.s.nodeForTag = s1.nodeForTag)
    (htableAll : ∀ k, (h0 d).tag ≠ k → l1.s.nodeForTag k = s1.nodeForTag k) :
    StepG mgr h0 n0 (eff = false) d l l1 := by
  have hst : ∀ y, ((l1.s.heap y).state = .ANIMATING ↔ (s1.heap y).state = .ANIMATING) := by
    intro y
    by_cases hy : y = d
    · subst hy
      rcases hself with h | ⟨h1, h2⟩
      · rw [h.2.2.2.1]
      · exact ⟨fun h => absurd h h1, fun h => absurd h h2⟩
    · rw [hheap y hy]
  have hdef : ∀ z, Defers h0 (fun y => (l1.s.heap y).state) z ↔
      Defers h0 (fun y => (s1.heap y).state) z := fun z =>
    ⟨Defers.congr_anim (fun y _ => (hst y).1), Defers.congr_anim (fun y _ => (hst y).2)⟩
  refine ⟨?_, ?_, ?_, ?_, ?_, ?_, ?_, ?_, ?_⟩
  · intro z hz hnr
    have hzd : z ≠ d := fun h => hnr (by rw [h]; exact Reach.refl d)
    rw [hheap z hzd]
    exact P.frame z hz hnr
  · rw [hnext]; exact P.next
  · rw [hdead]; exact P.dead
  · rw [hanim, hdef, P.ret]
  · obtain ⟨X, hX, hX2⟩ := P.out
    obtain ⟨Y, hY, hY2⟩ := hout
    refine ⟨X ++ Y, by rw [hY, hX, List.append_assoc], ?_⟩
    intro x hx
    rcases List.mem_append.1 hx with h | h
    · obtain ⟨z, hz1, _, hz3, hz4⟩ := hX2 x h
      exact ⟨z, hz1, hz3, fun hq => hz4 (Or.inl hq)⟩
    · exact ⟨d, Reach.refl d, (hY2 x h).1, (hY2 x h).2⟩
  · intro hq z hz hm hnd
    by_cases hzd : z = d
    · subst hzd
      apply hwait hq hm
      cases r with
      | false => rfl
      | true => exact absurd ((hdef z).2 (P.ret.1 rfl)) hnd
    · rw [hheap z hzd]
      exact P.waiting (Or.inl hq) z hz hzd hm (fun h => hnd ((hdef z).2 h))
  · intro z hz ha
    exact P.config z hz ((hst z).1 ha)
  · intro hq k hk
    rw [htable hq]
    exact P.table (Or.inl hq) k hk
  · intro k hk
    rw [htableAll k (hk d (Reach.refl d))]
    exact P.tableAll k hk

/-- The loop body of `startAnimationsRecursively` on a child of a forest that is
still as in `h0`. -/
theorem startLoopStep_forest (mgr : Manager) (h0 : Ptr → Node) (n0 : Nat) (fuel : Nat)
    (hrec : RecG mgr h0 n0 fuel) (sa sp eff : Bool) (l : StartLoop) (d : Ptr)
    (hht : HtLe h0 fuel d) (hd : d < n0) (hn : n0 ≤ l.s.next)
    (hst : (h0 d).state = .UNDEFINED ∨ (h0 d).state = .MOVED)
    (hprist : ∀ z, Reach h0 d z → Kept (l.s.heap z) (h0 z)) :
    ∃ l1, startLoopStep (endAnimationsRecursively fuel)
        (fun subNode w => startAnimationsRecursively mgr fuel subNode eff sa sp w)
        sa eff (some l) d = some l1 ∧ StepG mgr h0 n0 (eff = false) d l l1 := by
  suffices hsuff : ∀ q : Prop, q = (eff = false) → ∃ l1,
      startLoopStep (endAnimationsRecursively fuel)
        (fun subNode w => startAnimationsRecursively mgr fuel subNode eff sa sp w)
        sa eff (some l) d = some l1 ∧ StepG mgr h0 n0 q d l l1 from hsuff _ rfl
  intro q hq
  obtain ⟨r, s1, m1, hrun, P, _⟩ := hrec d l.s l.mutations eff sa sp hht hd hn hst hprist
  have hd0 : (l.s.heap d).state = (h0 d).state := (hprist d (Reach.refl d)).2.2.2.1
  have hbranch : ¬ ((l.s.heap d).state ≠ .UNDEFINED ∧ (l.s.heap d).state ≠ .MOVED) := by
    rw [hd0]
    rcases hst with h | h <;> rw [h] <;> simp
  unfold startLoopStep
  simp only [State.node, if_neg hbranch, hrun]
  cases r with
  | true =>
    refine ⟨_, rfl, ?_⟩
    rw [hq]
    refine StepG.of_call P (fun y _ => rfl) (Or.inl (Kept.kept_refl _)) rfl rfl
      (by simp) ⟨[], by simp, fun x hx => absurd hx (List.not_mem_nil x)⟩ ?_ (fun _ => rfl)
      (fun _ _ => rfl)
    intro _ _ h; cases h
  | false =>
    have hnd : ¬ Defers h0 (fun z => (s1.heap z).state) d := fun h => by
      have := P.ret.2 h; cases this
    have hs1 : (s1.heap d).state = (h0 d).state := by
      rcases P.state with h | ⟨h1, h2⟩
      · exact h
      · exact absurd (Defers.self h1 h2) hnd
    rcases hst with hu | hm
    · have hnm : ¬ (s1.heap d).state = .MOVED := by rw [hs1, hu]; simp
      have hna : (s1.heap d).state ≠ .ANIMATING := by rw [hs1, hu]; simp
      simp only [if_neg hnm]
      cases eff with
      | true =>
        simp only [if_true]
        refine ⟨_, rfl, ?_⟩
        rw [hq]
        refine StepG.of_call P ?_ (Or.inr ⟨?_, hna⟩) ?_ ?_ (by simp) ?_ ?_ ?_ ?_
        · intro y hy
          simp [State.modifyNode, State.setNode, State.node, Function.update_noteq hy,
            maybeCancelAnimation_heap]
        · simp [State.modifyNode, State.setNode, State.node]
        · simp [State.modifyNode, State.setNode, (maybeCancelAnimation_next _ _).1]
        · simp [State.modifyNode, State.setNode, (maybeCancelAnimation_next _ _).2]
        · refine ⟨_, rfl, ?_⟩
          intro x hx
          refine ⟨?_, fun h => by cases h⟩
          rw [P.self.2.2.1] at hx
          simpa using hx
        · intro h; cases h
        · intro h; cases h
        · intro k hk
          simp only [State.modifyNode, State.setNode]
          rw [P.self.1, Function.update_noteq (Ne.symm hk), maybeCancelAnimation_nodeForTag]
      | false =>
        simp only [Bool.false_eq_true, if_false]
        refine ⟨_, rfl, ?_⟩
        rw [hq]
        refine StepG.of_call P ?_ (Or.inr ⟨?_, hna⟩) rfl rfl (by simp)
          ⟨[], by simp, fun x hx => absurd hx (List.not_mem_nil x)⟩ ?_ (fun _ => rfl)
          (fun _ _ => rfl)
        · intro y hy
          simp [State.modifyNode, State.setNode, State.node, Function.update_noteq hy]
        · simp [State.modifyNode, State.setNode, State.node]
        · intro _ _ _
          simp [State.modifyNode, State.setNode, State.node]
    · have hmv : (s1.heap d).state = .MOVED := by rw [hs1, hm]
      simp only [hmv, if_true]
      refine ⟨_, rfl, ?_⟩
      rw [hq]
      refine StepG.of_call P (fun y _ => rfl) (Or.inl (Kept.kept_refl _)) rfl rfl
        (by simp) ⟨_, rfl, ?_⟩ ?_ (fun _ => rfl) (fun _ _ => rfl)
      · intro x hx
        rw [List.mem_singleton] at hx
        rw [hx, P.self.2.2.1]
        exact ⟨Or.inl rfl, fun _ => ⟨hm, rfl⟩⟩
      · intro _ h; exact absurd hm h

theorem Forest.reach_bound {h0 : Ptr → Node} {n0 : Nat} (hF : Forest h0 n0) {d y : Ptr}
    (hr : Reach h0 d y) (hd : d < n0) : y < n0 := by
  induction hr with
  | refl => exact hd
  | @step p c z hc _ ih => exact ih (hF.bound p hd c hc)

theorem Forest.reach_unsettled {h0 : Ptr → Node} {n0 : Nat} (hF : Forest h0 n0) {d y : Ptr}
    (hr : Reach h0 d y) (hd : d < n0)
    (hs : (h0 d).state = .UNDEFINED ∨ (h0 d).state = .MOVED) :
    (h0 y).state = .UNDEFINED ∨ (h0 y).state = .MOVED := by
  induction hr with
  | refl => exact hs
  | @step p c z hc _ ih => exact ih (hF.bound p hd c hc) (hF.unsettled p hd c hc)

theorem Forest.reach_mutation {h0 : Ptr → Node} {n0 : Nat} (hF : Forest h0 n0) {d y : Ptr}
    (hr : Reach h0 d y) (hd : d < n0) (hm : (h0 d).isMutation = true) :
    (h0 y).isMutation = true := by
  induction hr with
  | refl => exact hm
  | @step p c z hc _ ih => exact ih (hF.bound p hd c hc) (hF.kidsMut p hd c hc)

/-- The loop of `startAnimationsRecursively` over the children of a node of a
forest that is still as in `h0`. -/
theorem startLoop_forest (mgr : Manager) (h0 : Ptr → Node) (n0 : Nat) (fuel : Nat)
    (hF : Forest h0 n0) (hrec : RecG mgr h0 n0 fuel) (sa sp eff : Bool) (p : Ptr) (s : State)
    (m : ShadowViewMutationList) (hht : HtLe h0 (fuel + 1) p) (hp : p < n0)
    (hprist : ∀ z, Reach h0 p z → Kept (s.heap z) (h0 z)) :
    ∀ (todo done : List Ptr) (l : StartLoop),
      (done ++ todo).Nodup → (∀ c ∈ done ++ todo, c ∈ (h0 p).unflattenedChildren) →
      n0 ≤ s.next → LoopG mgr h0 n0 (eff = false) s m done l →
      ∃ l1, todo.foldl (startLoopStep (endAnimationsRecursively fuel)
          (fun subNode w => startAnimationsRecursively mgr fuel subNode eff sa sp w)
          sa eff) (some l) = some l1 ∧
        LoopG mgr h0 n0 (eff = false) s m (done ++ todo) l1 := by
  intro todo
  induction todo with
  | nil => intro done l _ _ _ hinv; exact ⟨l, rfl, by simpa using hinv⟩
  | cons c todo ih =>
    intro done l hnd hmem hn hinv
    have hc : c ∈ (h0 p).unflattenedChildren := hmem c (by simp)
    have hcd : ∀ d ∈ done, c ≠ d := by
      intro d hd hcd
      rw [List.nodup_append] at hnd
      exact hnd.2.2 hd (by rw [← hcd]; exact List.mem_cons_self _ _)
    have hdis : ∀ d ∈ done, ∀ z, Reach h0 d z → ¬ Reach h0 c z := fun d hd z hz hcz =>
      Reach.disjoint hF.parentOK hht hc (hmem d (by simp [hd])) (hcd d hd) hcz hz
    have hpr : ∀ z, Reach h0 c z → Kept (l.s.heap z) (h0 z) := by
      intro z hz
      refine (hinv.frame z (hF.reach_bound hz (hF.bound p hp c hc)) (fun d hd hdz => ?_)).kept_trans
        (hprist z (Reach.step hc hz))
      exact hdis d hd z hdz hz
    obtain ⟨l1, hl1, T⟩ := startLoopStep_forest mgr h0 n0 fuel hrec sa sp eff l c (hht c hc)
      (hF.bound p hp c hc) (le_trans hn hinv.next) (hF.unsettled p hp c hc) hpr
    have hold : ∀ d ∈ done, ∀ y, Reach h0 d y →
        (l1.s.heap y).state = (l.s.heap y).state := fun d hd y hy =>
      (T.frame y (hF.reach_bound hy (hF.bound p hp d (hmem d (by simp [hd]))))
        (hdis d hd y hy)).2.2.2.1
    have hdef : ∀ d ∈ done, ∀ z, Reach h0 d z →
        (Defers h0 (fun y => (l1.s.heap y).state) z ↔
          Defers h0 (fun y => (l.s.heap y).state) z) := fun d hd z hz =>
      ⟨Defers.congr_anim (fun y hy ha => by
          have := hold d hd y (Reach.reach_trans hz hy)
          exact this.symm.trans ha),
        Defers.congr_anim (fun y hy ha => by
          have := hold d hd y (Reach.reach_trans hz hy)
          exact this.trans ha)⟩
    have hinv1 : LoopG mgr h0 n0 (eff = false) s m (done ++ [c]) l1 := by
      refine ⟨?_, le_trans hinv.next T.next, T.dead.trans hinv.dead, ?_, ?_, ?_, ?_, ?_, ?_⟩
      · intro z hz hnr
        exact (T.frame z hz (hnr c (by simp))).kept_trans
          (hinv.frame z hz (fun d hd => hnr d (by simp [hd])))
      · rw [T.anim, hinv.anim]
        constructor
        · rintro (⟨d, hd, h⟩ | h)
          · exact ⟨d, by simp [hd], (hdef d hd d (Reach.refl d)).2 h⟩
          · exact ⟨c, by simp, h⟩
        · rintro ⟨d, hd, h⟩
          rcases List.mem_append.1 hd with hd | hd
          · exact Or.inl ⟨d, hd, (hdef d hd d (Reach.refl d)).1 h⟩
          · rw [List.mem_singleton] at hd
            subst hd
            exact Or.inr h
      · obtain ⟨X, hX, hX2⟩ := hinv.out
        obtain ⟨Y, hY, hY2⟩ := T.out
        refine ⟨X ++ Y, by rw [hY, hX, List.append_assoc], ?_⟩
        intro x hx
        rcases List.mem_append.1 hx with h | h
        · obtain ⟨d, hd, z, hz⟩ := hX2 x h
          exact ⟨d, by simp [hd], z, hz⟩
        · obtain ⟨z, hz⟩ := hY2 x h
          exact ⟨c, by simp, z, hz⟩
      · intro hq d hd z hz hm hndf
        rcases List.mem_append.1 hd with hd | hd
        · rw [hold d hd z hz]
          exact hinv.waiting hq d hd z hz hm (fun h => hndf ((hdef d hd z hz).2 h))
        · rw [List.mem_singleton] at hd
          subst hd
          exact T.waiting hq z hz hm hndf
      · intro d hd z hz ha
        rcases List.mem_append.1 hd with hd | hd
        · rw [hold d hd z hz] at ha
          exact hinv.config d hd z hz ha
        · rw [List.mem_singleton] at hd
          subst hd
          exact T.config z hz ha
      · intro hq k hk
        rw [T.table hq k (fun z hz => hk c (by simp) z hz)]
        exact hinv.table hq k (fun d hd z hz => hk d (by simp [hd]) z hz)
      · intro k hk
        rw [T.tableAll k (fun z hz => hk c (by simp) z hz)]
        exact hinv.tableAll k (fun d hd z hz => hk d (by simp [hd]) z hz)
    obtain ⟨l2, hl2, hinv2⟩ := ih (done ++ [c]) l1 (by simpa using hnd)
      (fun x hx => hmem x (by simpa using hx)) hn hinv1
    refine ⟨l2, ?_, by simpa using hinv2⟩
    simp only [List.foldl_cons, hl1]
    exact hl2

theorem foldl_removeChild_next (node : Ptr) : ∀ (tbr : List Ptr) (s : State),
    (tbr.foldl (fun acc sub => removeChildFromUnflattenedTree acc node sub) s).next = s.next ∧
    (tbr.foldl (fun acc sub => removeChildFromUnflattenedTree acc node sub) s).deadNodes
      = s.deadNodes := by
  intro tbr
  induction tbr with
  | nil => intro s; exact ⟨rfl, rfl⟩
  | cons c tbr ih =>
    intro s
    simp only [List.foldl_cons]
    obtain ⟨h1, h2⟩ := ih (removeChildFromUnflattenedTree s node c)
    obtain ⟨h3, h4⟩ := removeChildFromUnflattenedTree_next s node c
    exact ⟨h1.trans h3, h2.trans h4⟩

theorem foldl_removeChild_kids (node : Ptr) : ∀ (tbr : List Ptr) (s : State) (z : Ptr),
    ((tbr.foldl (fun acc sub => removeChildFromUnflattenedTree acc node sub) s).heap
      z).unflattenedChildren.Sublist (s.heap z).unflattenedChildren := by
  intro tbr
  induction tbr with
  | nil => intro s z; exact List.Sublist.refl _
  | cons c tbr ih =>
    intro s z
    simp only [List.foldl_cons]
    refine (ih (removeChildFromUnflattenedTree s node c) z).trans ?_
    have h := removeChildFromUnflattenedTree_node s node c z
    simp only [State.node] at h
    rw [h]
    simp only
    split
    · exact eraseLastWithTag_sublist _ _ _
    · exact List.Sublist.refl _

theorem foldl_modifyNode_of_not_mem (f : Node → Node) : ∀ (cs : List Ptr) (s : State) (z : Ptr),
    z ∉ cs → (cs.foldl (fun acc sub => acc.modifyNode sub f) s).heap z = s.heap z := by
  intro cs
  induction cs with
  | nil => intro s z _; rfl
  | cons u us ih =>
    intro s z hz
    simp only [List.foldl_cons]
    rw [ih _ z (fun h => hz (List.mem_cons_of_mem _ h))]
    have : z ≠ u := fun h => hz (by rw [h]; exact List.mem_cons_self _ _)
    simp [State.modifyNode, State.setNode, Function.update_noteq this]

/-- The replacement of a MOVED node at the end of `startAnimationsRecursively`:
the nodes allocated before keep their kind, mutation, state and tag, and those
that are not unflattened children of the node keep everything but their
flattened parent. -/
theorem replacement_frame (S : State) (c : Ptr) :
    ∃ S3 : State,
      S3 = (S.node c).unflattenedChildren.foldl
        (fun acc subNode => acc.modifyNode subNode
          (fun x => { x with unflattenedParent := (S.alloc (replacementNode (S.node c))).1 }))
        ((S.node c).children.foldl
          (fun acc subNode => acc.modifyNode subNode
            (fun x => { x with parent := (S.alloc (replacementNode (S.node c))).1 }))
          (S.alloc (replacementNode (S.node c))).2) ∧
      (∀ z, z < S.next → F4eq (S3.heap z) (S.heap z) ∧
        (z ∉ (S.heap c).unflattenedChildren → Kept (S3.heap z) (S.heap z))) ∧
      S3.nodeForTag = S.nodeForTag ∧ S3.next = S.next + 1 ∧ S3.deadNodes = S.deadNodes := by
  have hA : ∀ z, z < S.next → (S.alloc (replacementNode (S.node c))).2.heap z = S.heap z := by
    intro z hz
    simp [State.alloc, Function.update_noteq (Nat.ne_of_lt hz)]
  obtain ⟨a1, a2, a3, a4⟩ := foldl_modify_kept
    (fun _ x => { x with parent := (S.alloc (replacementNode (S.node c))).1 })
    (fun _ x => ⟨rfl, rfl, rfl, rfl, rfl, rfl⟩) (S.node c).children
    (S.alloc (replacementNode (S.node c))).2
  obtain ⟨b1, b2, b3⟩ := foldl_modify_F4
    (fun _ x => { x with unflattenedParent := (S.alloc (replacementNode (S.node c))).1 })
    (fun _ x => ⟨rfl, rfl, rfl, rfl⟩) (S.node c).unflattenedChildren
    ((S.node c).children.foldl
      (fun acc subNode => acc.modifyNode subNode
        (fun x => { x with parent := (S.alloc (replacementNode (S.node c))).1 }))
      (S.alloc (replacementNode (S.node c))).2)
  have hdead : ∀ (cs : List Ptr) (X : State), (cs.foldl (fun acc subNode =>
      acc.modifyNode subNode (fun x =>
        { x with unflattenedParent := (S.alloc (replacementNode (S.node c))).1 })) X).deadNodes
      = X.deadNodes := by
    intro cs
    induction cs with
    | nil => intro X; rfl
    | cons u us ih => intro X; simp only [List.foldl_cons]; rw [ih]; rfl
  refine ⟨_, rfl, fun z hz => ?_, ?_, ?_, ?_⟩
  · have hk := a1 z
    rw [hA z hz] at hk
    refine ⟨F4eq.trans4 (b1 z) ⟨hk.2.1, hk.2.2.1, hk.2.2.2.1, hk.1⟩, ?_⟩
    intro hz2
    have := foldl_modifyNode_of_not_mem
      (fun x => { x with unflattenedParent := (S.alloc (replacementNode (S.node c))).1 })
      (S.node c).unflattenedChildren
      ((S.node c).children.foldl
        (fun acc subNode => acc.modifyNode subNode
          (fun x => { x with parent := (S.alloc (replacementNode (S.node c))).1 }))
        (S.alloc (replacementNode (S.node c))).2) z hz2
    rw [this]
    exact hk
  · exact b2.trans a2
  · exact b3.trans (a3.trans rfl)
  · exact (hdead _ _).trans (a4.trans rfl)

/-- The facts of `PostG` that follow from the loop invariant over all the children
of `c`, for a final state that differs from the state after the loop, on the
nodes allocated before, at most in child lists, parents and the state of `c`. -/
theorem PostG.of_finish {mgr : Manager} {h0 : Ptr → Node} {n0 : Nat} {fuel : Nat}
    (hF : Forest h0 n0) {c : Ptr} {sr eff r : Bool} {s s1 : State}
    {m : ShadowViewMutationList} {l : StartLoop}
    (hht : HtLe h0 (fuel + 1) c) (hc : c < n0)
    (hprist : ∀ z, Reach h0 c z → Kept (s.heap z) (h0 z))
    (L : LoopG mgr h0 n0 (eff = false) s m (h0 c).unflattenedChildren.reverse l)
    (hs1 : ∀ z, z < n0 → z ≠ c → (s1.heap z).state = (l.s.heap z).state)
    (hfr : ∀ z, z < n0 → ¬ Reach h0 c z → Kept (s1.heap z) (l.s.heap z))
    (hself : (s1.heap c).tag = (l.s.heap c).tag ∧
      (s1.heap c).isMutation = (l.s.heap c).isMutation ∧
      (s1.heap c).mutation = (l.s.heap c).mutation ∧
      (s1.heap c).unflattenedParent = (l.s.heap c).unflattenedParent)
    (hstate : (s1.heap c).state = (h0 c).state ∨
      ((h0 c).state ≠ .MOVED ∧ (s1.heap c).state = .ANIMATING))
    (hret : r = true ↔ ((h0 c).state ≠ .MOVED ∧
      ((s1.heap c).state = .ANIMATING ∨ l.hasAnimatedChildren = true)))
    (hcfg : (s1.heap c).state = .ANIMATING →
      ∃ log, mgr.hasLayoutAnimation log (h0 c).tag .EXITING = true)
    (hq : sr = false ∨ (s1.heap c).state = .ANIMATING → eff = false)
    (htab : eff = false → ∀ k, ((h0 c).state = .MOVED → (h0 c).tag ≠ k) →
      s1.nodeForTag k = l.s.nodeForTag k)
    (htabAll : ∀ k, (h0 c).tag ≠ k → s1.nodeForTag k = l.s.nodeForTag k)
    (hnext : l.s.next ≤ s1.next) (hdead : s1.deadNodes = l.s.deadNodes) :
    PostG mgr h0 n0 c sr s m r s1 l.mutations := by
  have hkid : ∀ d, d ∈ (h0 c).unflattenedChildren.reverse ↔ d ∈ (h0 c).unflattenedChildren :=
    fun d => List.mem_reverse
  have hsub : ∀ d ∈ (h0 c).unflattenedChildren, ∀ z, Reach h0 d z → z < n0 ∧ z ≠ c := by
    intro d hd z hz
    refine ⟨hF.reach_bound hz (hF.bound c hc d hd), fun h => ?_⟩
    rw [h] at hz
    exact HtLe.acyclic (fuel + 1) c d hht hd hz
  have hcl : Kept (l.s.heap c) (s.heap c) := L.frame c hc (fun d hd =>
    HtLe.acyclic (fuel + 1) c d hht ((hkid d).1 hd))
  have hc0 : Kept (l.s.heap c) (h0 c) := hcl.kept_trans (hprist c (Reach.refl c))
  have hdef : ∀ d ∈ (h0 c).unflattenedChildren, ∀ z, Reach h0 d z →
      (Defers h0 (fun y => (s1.heap y).state) z ↔
        Defers h0 (fun y => (l.s.heap y).state) z) := fun d hd z hz =>
    ⟨Defers.congr_anim (fun y hy ha => by
        obtain ⟨b1, b2⟩ := hsub d hd y (Reach.reach_trans hz hy)
        exact (hs1 y b1 b2).symm.trans ha),
      Defers.congr_anim (fun y hy ha => by
        obtain ⟨b1, b2⟩ := hsub d hd y (Reach.reach_trans hz hy)
        exact (hs1 y b1 b2).trans ha)⟩
  refine ⟨?_, le_trans L.next hnext, hdead.trans L.dead, ?_, hstate, ?_, ?_, ?_, ?_, ?_, ?_⟩
  · intro z hz hnr
    exact (hfr z hz hnr).kept_trans (L.frame z hz (fun d hd hdz =>
      hnr (Reach.step ((hkid d).1 hd) hdz)))
  · exact ⟨hself.1.trans hc0.1, hself.2.1.trans hc0.2.1, hself.2.2.1.trans hc0.2.2.1,
      hself.2.2.2.trans hc0.2.2.2.2.1⟩
  · rw [hret]
    constructor
    · rintro ⟨hm, ha | ha⟩
      · exact Defers.self hm ha
      · obtain ⟨d, hd, hdd⟩ := L.anim.1 ha
        exact Defers.child hm ((hkid d).1 hd) ((hdef d ((hkid d).1 hd) d (Reach.refl d)).2 hdd)
    · intro hd
      cases hd with
      | self hm ha => exact ⟨hm, Or.inl ha⟩
      | @child _ d hm hd hdd =>
        exact ⟨hm, Or.inr (L.anim.2 ⟨d, (hkid d).2 hd, (hdef d hd d (Reach.refl d)).1 hdd⟩)⟩
  · obtain ⟨X, hX, hX2⟩ := L.out
    refine ⟨X, hX, fun x hx => ?_⟩
    obtain ⟨d, hd, z, hz1, hz2, hz3⟩ := hX2 x hx
    exact ⟨z, Reach.step ((hkid d).1 hd) hz1, (hsub d ((hkid d).1 hd) z hz1).2, hz2,
      fun h => hz3 (hq h)⟩
  · intro hquiet z hz hzc hm hnd
    cases hz with
    | refl => exact absurd rfl hzc
    | @step _ d _ hd hdz =>
      rw [hs1 z (hsub d hd z hdz).1 hzc]
      exact L.waiting (hq hquiet) d ((hkid d).2 hd) z hdz hm
        (fun h => hnd ((hdef d hd z hdz).2 h))
  · intro z hz ha
    cases hz with
    | refl => exact hcfg ha
    | @step _ d _ hd hdz =>
      rw [hs1 z (hsub d hd z hdz).1 (hsub d hd z hdz).2] at ha
      exact L.config d ((hkid d).2 hd) z hdz ha
  · intro hquiet k hk
    rw [htab (hq hquiet) k (fun hm => hk c (Reach.refl c) hm)]
    exact L.table (hq hquiet) k (fun d hd z hz hm =>
      hk z (Reach.step ((hkid d).1 hd) hz) hm)
  · intro k hk
    rw [htabAll k (hk c (Reach.refl c))]
    exact L.tableAll k (fun d hd z hz => hk z (Reach.step ((hkid d).1 hd) hz))

/-- The end of `startAnimationsRecursively` on a node of a forest, after the loop
over all its children. -/
theorem startFinish_forest (mgr : Manager) (h0 : Ptr → Node) (n0 : Nat) (fuel : Nat)
    (hF : Forest h0 n0) (c : Ptr) (sr he eff : Bool) (s : State)
    (m : ShadowViewMutationList) (l : StartLoop)
    (hht : HtLe h0 (fuel + 1) c) (hc : c < n0) (hn : n0 ≤ s.next)
    (hst : (h0 c).state = .UNDEFINED ∨ (h0 c).state = .MOVED)
    (hprist : ∀ z, Reach h0 c z → Kept (s.heap z) (h0 z))
    (hcfg : he = true → ∃ log, mgr.hasLayoutAnimation log (h0 c).tag .EXITING = true)
    (heff : sr = false ∨ (he = true ∧ (h0 c).state ≠ .MOVED) → eff = false)
    (L : LoopG mgr h0 n0 (eff = false) s m (h0 c).unflattenedChildren.reverse l) :
    ∃ r s1, startFinish c he l = (r, s1, l.mutations) ∧
      PostG mgr h0 n0 c sr s m r s1 l.mutations ∧
      ((h0 c).state ≠ .MOVED → he = true → (s1.heap c).state = .ANIMATING) := by
  obtain ⟨g1, g2, g3⟩ := foldl_removeChild_same c l.toBeRemoved l.s
  obtain ⟨gn, gd⟩ := foldl_removeChild_next c l.toBeRemoved l.s
  have gk := foldl_removeChild_kids c l.toBeRemoved l.s c
  obtain ⟨S, hS⟩ : ∃ S, S = l.toBeRemoved.foldl
      (fun acc subNode => removeChildFromUnflattenedTree acc c subNode) l.s := ⟨_, rfl⟩
  rw [← hS] at g1 g2 g3 gn gd gk
  have hcl : Kept (l.s.heap c) (s.heap c) := L.frame c hc (fun d hd =>
    HtLe.acyclic (fuel + 1) c d hht (List.mem_reverse.1 hd))
  have hc0 : Kept (l.s.heap c) (h0 c) := hcl.kept_trans (hprist c (Reach.refl c))
  obtain ⟨f1, f2, f3, f4, f5, _⟩ := (g1 c).fields
  have hSst : (S.heap c).state = (h0 c).state := f4.trans hc0.2.2.2.1
  have hSz : ∀ z, (S.heap z).state = (l.s.heap z).state := fun z => (g1 z).fields.2.2.2.1
  have hSk : ∀ z, ¬ Reach h0 c z → Kept (S.heap z) (l.s.heap z) := fun z hz =>
    Kept.kept_of_agree (g2 z (fun h => hz (by rw [h]; exact Reach.refl c)))
  have hnS : n0 ≤ S.next := by rw [gn]; exact le_trans hn L.next
  rcases hst with hu | hm
  · have hnm : ¬ (S.heap c).state = .MOVED := by rw [hSst, hu]; simp
    have hnm0 : (h0 c).state ≠ .MOVED := by rw [hu]; simp
    cases he with
    | true =>
      refine ⟨true, startExitingAnimation
        (S.modifyNode c (fun x => { x with state := .ANIMATING })) (S.heap c).tag
        ((S.modifyNode c (fun x => { x with state := .ANIMATING })).node c).mutation, ?_, ?_⟩
      · simp only [startFinish, State.node, ← hS, if_neg hnm, Bool.true_or, if_true]
      · have hh : ∀ z, z ≠ c → (startExitingAnimation
            (S.modifyNode c (fun x => { x with state := .ANIMATING })) (S.heap c).tag
            ((S.modifyNode c (fun x => { x with state := .ANIMATING })).node c).mutation).heap z
            = S.heap z := by
          intro z hz
          simp [startExitingAnimation, State.schedule, State.modifyNode, State.setNode,
            Function.update_noteq hz]
        have hcc : (startExitingAnimation
            (S.modifyNode c (fun x => { x with state := .ANIMATING })) (S.heap c).tag
            ((S.modifyNode c (fun x => { x with state := .ANIMATING })).node c).mutation).heap c
            = { S.heap c with state := .ANIMATING } := by
          simp [startExitingAnimation, State.schedule, State.modifyNode, State.setNode,
            State.node]
        refine ⟨?_, fun _ _ => by rw [hcc]⟩
        refine PostG.of_finish hF hht hc hprist L ?_ ?_ ?_ ?_ ?_ (fun _ => hcfg rfl)
          (fun _ => heff (Or.inr ⟨rfl, hnm0⟩)) ?_ ?_ ?_ ?_
        · intro z _ hz; rw [hh z hz]; exact hSz z
        · intro z _ hz
          rw [hh z (fun h => hz (by rw [h]; exact Reach.refl c))]
          exact hSk z hz
        · rw [hcc]; exact ⟨f1, f2, f3, f5⟩
        · right; rw [hcc]; exact ⟨hnm0, rfl⟩
        · rw [hcc]; simp [hnm0]
        · intro _ k _
          simp only [startExitingAnimation, State.schedule, State.modifyNode, State.setNode]
          rw [g3]
        · intro k _
          simp only [startExitingAnimation, State.schedule, State.modifyNode, State.setNode]
          rw [g3]
        · simp only [startExitingAnimation, State.schedule, State.modifyNode, State.setNode]
          rw [gn]
        · simp only [startExitingAnimation, State.schedule, State.modifyNode, State.setNode]
          rw [gd]
    | false =>
      refine ⟨l.hasAnimatedChildren,
        S.logCall (ManagerCall.clearLayoutAnimationConfig (S.heap c).tag), ?_, ?_⟩
      · simp only [startFinish, State.node, ← hS, if_neg hnm, Bool.false_or,
          Bool.false_eq_true, if_false]
      · have hna : ¬ (S.heap c).state = .ANIMATING := by rw [hSst, hu]; simp
        refine ⟨?_, fun _ h => by cases h⟩
        refine PostG.of_finish hF hht hc hprist L ?_ ?_ ?_ ?_ ?_ ?_ ?_ ?_ ?_ ?_ ?_
        · intro z _ _; exact hSz z
        · intro z _ hz; exact hSk z hz
        · exact ⟨f1, f2, f3, f5⟩
        · left; exact hSst
        · constructor
          · intro h; exact ⟨hnm0, Or.inr h⟩
          · rintro ⟨_, h | h⟩
            · exact absurd h hna
            · exact h
        · intro h; exact absurd h hna
        · rintro (h | h)
          · exact heff (Or.inl h)
          · exact absurd h hna
        · intro _ k _
          show S.nodeForTag k = _
          rw [g3]
        · intro k _
          show S.nodeForTag k = _
          rw [g3]
        · show l.s.next ≤ S.next
          rw [gn]
        · show S.deadNodes = _
          rw [gd]
  · have hmv : (S.heap c).state = .MOVED := by rw [hSst, hm]
    have hna : ¬ (h0 c).state = .ANIMATING := by rw [hm]; simp
    obtain ⟨S3, hS3, h3a, h3b, h3c, h3d⟩ := replacement_frame S c
    have hkids : ∀ z, z ∈ (S.heap c).unflattenedChildren → z ∈ (h0 c).unflattenedChildren := by
      intro z hz
      rw [← hc0.2.2.2.2.2]
      exact gk.subset hz
    have hz3 : ∀ z, z < n0 → (S3.heap z).state = (S.heap z).state := fun z hz =>
      (h3a z (lt_of_lt_of_le hz hnS)).1.2.2.1
    have hcS : Kept (S3.heap c) (S.heap c) := (h3a c (lt_of_lt_of_le hc hnS)).2 (fun h =>
      HtLe.acyclic (fuel + 1) c c hht (hkids c h) (Reach.refl c))
    obtain ⟨nf, hnf⟩ : ∃ nf : Tag → Option Ptr,
        nf = Function.update S3.nodeForTag (S.heap c).tag (some S.next) := ⟨_, rfl⟩
    refine ⟨false, { S3 with nodeForTag := nf }, ?_, ?_⟩
    · simp only [startFinish, State.node, ← hS, hmv, if_true]
      simp only [State.node] at hS3
      rw [← hS3, hnf]
      rfl
    · refine ⟨?_, fun h _ => absurd hm h⟩
      refine PostG.of_finish hF hht hc hprist L ?_ ?_ ?_ ?_ ?_ ?_ ?_ ?_ ?_ ?_ ?_
      · intro z hz _
        show (S3.heap z).state = _
        rw [hz3 z hz]; exact hSz z
      · intro z hz hnr
        show Kept (S3.heap z) _
        refine ((h3a z (lt_of_lt_of_le hz hnS)).2 (fun h => ?_)).kept_trans (hSk z hnr)
        exact hnr (Reach.step (hkids z h) (Reach.refl z))
      · show (S3.heap c).tag = _ ∧ (S3.heap c).isMutation = _ ∧ (S3.heap c).mutation = _ ∧
          (S3.heap c).unflattenedParent = _
        exact ⟨hcS.1.trans f1, hcS.2.1.trans f2, hcS.2.2.1.trans f3, hcS.2.2.2.2.1.trans f5⟩
      · left
        show (S3.heap c).state = _
        rw [hz3 c hc]; exact hSst
      · constructor
        · intro h; cases h
        · rintro ⟨h, _⟩; exact absurd hm h
      · intro h
        have : (S3.heap c).state = .ANIMATING := h
        rw [hz3 c hc, hSst] at this
        exact absurd this hna
      · rintro (h | h)
        · exact heff (Or.inl h)
        · have : (S3.heap c).state = .ANIMATING := h
          rw [hz3 c hc, hSst] at this
          exact absurd this hna
      · intro _ k hk
        have hne : k ≠ (S.heap c).tag := by
          rw [f1, hc0.1]
          exact Ne.symm (hk hm)
        show nf k = _
        rw [hnf, Function.update_noteq hne, h3b, g3]
      · intro k hk
        have hne : k ≠ (S.heap c).tag := by
          rw [f1, hc0.1]
          exact Ne.symm hk
        show nf k = _
        rw [hnf, Function.update_noteq hne, h3b, g3]
      · show l.s.next ≤ S3.next
        rw [h3c, gn]
        exact Nat.le_succ _
      · show S3.deadNodes = _
        rw [h3d, gd]

/-- On a subtree of a forest that is still as the parse left it,
`startAnimationsRecursively` returns, whatever the manager answers, and
leaves `PostG`. -/
theorem startAnimationsRecursively_forest (mgr : Manager) (h0 : Ptr → Node) (n0 : Nat)
    (hF : Forest h0 n0) : ∀ fuel, RecG mgr h0 n0 fuel := by
  intro fuel
  induction fuel with
  | zero => intro c s m sr sa sp hht; exact absurd hht (by simp [HtLe])
  | succ fuel ih =>
    intro c s m sr sa sp hht hc hn hst hprist
    have hp0 : Kept (s.heap c) (h0 c) := hprist c (Reach.refl c)
    obtain ⟨f1, _, f3, f4, _, f6⟩ := hp0
    have aux : ∀ (sa1 sp1 he : Bool),
        (he = true → ∃ log, mgr.hasLayoutAnimation log (h0 c).tag .EXITING = true) →
        ∃ r s1 m1,
        (match (s.heap c).unflattenedChildren.reverse.foldl
            (startLoopStep (endAnimationsRecursively fuel)
              (fun subNode w => startAnimationsRecursively mgr fuel subNode
                (sr && (!he || decide ((s.heap c).state = .MOVED))) sa1 sp1 w)
              sa1 (sr && (!he || decide ((s.heap c).state = .MOVED))))
            (some { hasAnimatedChildren := false, toBeRemoved := [], s := s,
                    mutations := m }) with
          | none => none
          | some l => some (startFinish c he l))
          = some (r, s1, m1) ∧ PostG mgr h0 n0 c sr s m r s1 m1 ∧
          ((h0 c).state ≠ .MOVED → he = true → (s1.heap c).state = .ANIMATING) := by
      intro sa1 sp1 he hcfg
      obtain ⟨eff, heff⟩ : ∃ eff, eff = (sr && (!he || decide ((s.heap c).state = .MOVED))) :=
        ⟨_, rfl⟩
      rw [← heff]
      have hq : sr = false ∨ (he = true ∧ (h0 c).state ≠ .MOVED) → eff = false := by
        rintro (h | ⟨h1, h2⟩)
        · rw [heff, h]; rfl
        · rw [heff, h1, f4]; simp [h2]
      obtain ⟨l1, hl1, L⟩ := startLoop_forest mgr h0 n0 fuel hF ih sa1 sp1 eff c s m hht hc hprist
        (h0 c).unflattenedChildren.reverse []
        { hasAnimatedChildren := false, toBeRemoved := [], s := s, mutations := m }
        (by simpa using hF.nodup c) (by simp) hn
        ⟨fun z _ _ => Kept.kept_refl _, le_refl _, rfl, by simp,
          ⟨[], by simp, fun x hx => absurd hx (List.not_mem_nil x)⟩,
          fun _ d hd => absurd hd (List.not_mem_nil d),
          fun d hd => absurd hd (List.not_mem_nil d), fun _ k _ => rfl, fun k _ => rfl⟩
      simp only [List.nil_append] at L
      rw [f6, hl1]
      obtain ⟨r, s1, hfin, P, hex⟩ := startFinish_forest mgr h0 n0 fuel hF c sr he eff s m l1
        hht hc hn hst hprist hcfg hq L
      exact ⟨r, s1, l1.mutations, by simp only [hfin], P, hex⟩
    unfold startAnimationsRecursively
    simp only [State.node]
    obtain ⟨r, s1, m1, h1, h2, h3⟩ := aux
      (!(if mgr.isRNSScreen (s.heap c).mutation.oldChildShadowView.componentName then true
          else sp) && mgr.shouldAnimateExiting s.managerLog (s.heap c).tag sa)
      (if mgr.isRNSScreen (s.heap c).mutation.oldChildShadowView.componentName then true
        else sp)
      ((!(if mgr.isRNSScreen (s.heap c).mutation.oldChildShadowView.componentName then true
          else sp) && mgr.shouldAnimateExiting s.managerLog (s.heap c).tag sa) &&
        mgr.hasLayoutAnimation s.managerLog (s.heap c).tag .EXITING)
      (fun h => by
        rw [Bool.and_eq_true] at h
        exact ⟨s.managerLog, by rw [← f1]; exact h.2⟩)
    refine ⟨r, s1, m1, h1, h2, fun hm he => h3 hm ?_⟩
    simp only [exitStarts, ← f1, ← f3] at he
    exact he


/-- The parse of a batch whose Updates keep the tag of their view, on a fresh
engine, leaves a forest: the heap is a `Forest`, no dead node is queued, and
every root is an allocated mutation node, UNDEFINED or MOVED, of bounded height,
under a plain node. -/
theorem parseRemoveMutations_forest (batch : ShadowViewMutationList)
    (hupd : ∀ m ∈ batch, m.type = .Update →
      m.oldChildShadowView.tag = m.newChildShadowView.tag) :
    Forest (parseRemoveMutations State.fresh batch).s.heap
      (parseRemoveMutations State.fresh batch).s.next ∧
    (parseRemoveMutations State.fresh batch).s.deadNodes = [] ∧
    (∀ r ∈ (parseRemoveMutations State.fresh batch).roots,
      r < (parseRemoveMutations State.fresh batch).s.next ∧
      ((parseRemoveMutations State.fresh batch).s.heap r).isMutation = true ∧
      (((parseRemoveMutations State.fresh batch).s.heap r).state = .UNDEFINED ∨
        ((parseRemoveMutations State.fresh batch).s.heap r).state = .MOVED) ∧
      HtLe (parseRemoveMutations State.fresh batch).s.heap
        (parseRemoveMutations State.fresh batch).s.next r ∧
      ((parseRemoveMutations State.fresh batch).s.heap
        ((parseRemoveMutations State.fresh batch).s.heap r).unflattenedParent).isMutation
        = false) := by
  obtain ⟨t, ht⟩ := exists_fresh_tag batch
  have hdelt : ∀ m ∈ batch, m.type = .Delete → m.oldChildShadowView.tag ≠ t :=
    fun m hm _ => ht m hm
  obtain ⟨hps, hrootsV, _, _⟩ :=
    parseRemoveMutations_inv State.fresh batch (PS.fresh t) hdelt hupd
  have hpo := @parseRemoveMutations_parentOK t batch hdelt hupd
  obtain ⟨_, _, _, _, hres⟩ := parseRemoveMutations_scan batch
  have hrootsdef : (parseRemoveMutations State.fresh batch).roots =
      (scanResult State.fresh batch).mutationNodes.filter
        (fun p => !((parseRemoveMutations State.fresh batch).s.node
          ((parseRemoveMutations State.fresh batch).s.node p).unflattenedParent).isMutation) :=
    rfl
  obtain ⟨init, hinit⟩ : ∃ init : ParseAcc, init =
      { s := State.fresh, deletedViews := [], movedViews := fun _ => none,
        childrenForTag := [], unflattenedChildrenForTag := [], mutationNodes := [] } :=
    ⟨_, rfl⟩
  have hP0 : PInv t init := by
    rw [hinit]
    exact PInv.mk (PS.fresh t) (fun c hc => by cases hc) (fun e he => by cases he) (by simp)
  have hk0 : NoKids init.s := by
    rw [hinit]; intro q; simp [State.fresh, plainNode]
  have hscan : scanResult State.fresh batch = batch.reverse.foldl parseStep init := by
    rw [hinit]; rfl
  have hkids : NoKids (scanResult State.fresh batch).s := by
    rw [hscan]; exact foldl_parseStep_noKids _ _ hk0
  have hL : (listed (scanResult State.fresh batch).unflattenedChildrenForTag).Nodup := by
    rw [hscan]
    exact foldl_parseStep_listed batch.reverse init hP0
      (fun m hm hty => hdelt m (List.mem_reverse.mp hm) hty)
      (fun m hm hty => hupd m (List.mem_reverse.mp hm) hty)
      (by rw [hinit]; simp [listed])
  have hk1 : NoKids (attachChildren (scanResult State.fresh batch).s
      (scanResult State.fresh batch).childrenForTag) := attachChildren_noKids _ _ hkids
  obtain ⟨c1, _, _, _⟩ := attachUnflattenedChildren_kids
    (scanResult State.fresh batch).unflattenedChildrenForTag
    (attachChildren (scanResult State.fresh batch).s
      (scanResult State.fresh batch).childrenForTag) hL
    (fun p c hc => by rw [hk1 p] at hc; exact absurd hc (by simp))
    (fun p => by rw [hk1 p]; exact List.nodup_nil)
  rw [← hres] at c1
  obtain ⟨P, hP⟩ : ∃ P, P = parseRemoveMutations State.fresh batch := ⟨_, rfl⟩
  rw [← hP] at hps hrootsV hpo c1 hrootsdef ⊢
  have hnode : ∀ p, p < P.s.next → ∀ c ∈ (P.s.heap p).unflattenedChildren,
      c < P.s.next ∧ (P.s.heap c).isMutation = true := fun p hp c hc => (hps.1 p hp).2.2 c hc
  have hun : ∀ p, p < P.s.next →
      (P.s.heap p).state = .UNDEFINED ∨ (P.s.heap p).state = .MOVED := by
    intro p hp
    have h := (hps.1 p hp).2.1
    unfold Classified at h
    by_cases h1 : (P.s.heap p).state = .UNDEFINED
    · exact Or.inl h1
    · by_cases h2 : (P.s.heap p).state = .MOVED
      · exact Or.inr h2
      · exact absurd ⟨h1, h2⟩ h
  refine ⟨⟨hpo, c1, fun p hp c hc => hun c (hnode p hp c hc).1,
    fun p hp c hc => (hnode p hp c hc).1, fun p hp c hc => (hnode p hp c hc).2⟩, hps.2.2, ?_⟩
  intro r hr
  obtain ⟨v1, v2⟩ := hrootsV r hr
  rw [hrootsdef] at hr
  obtain ⟨_, hr2⟩ := List.mem_filter.mp hr
  have hr3 : (P.s.heap (P.s.heap r).unflattenedParent).isMutation = false := by
    simpa [State.node] using hr2
  exact ⟨v1, v2, hun r v1, HtLe.of_root hps.1.remInv hpo v1 v2 hr3, hr3⟩

theorem Defers.iff_animating {h0 : Ptr → Node} {st : Ptr → ExitingState} {c : Ptr}
    (hnm : ∀ z, Reach h0 c z → (h0 z).state ≠ .MOVED) :
    Defers h0 st c ↔ ∃ z, Reach h0 c z ∧ st z = .ANIMATING := by
  constructor
  · exact Defers.animating
  · rintro ⟨z, hz, ha⟩
    induction hz with
    | refl p => exact Defers.self (hnm p (Reach.refl p)) ha
    | @step p d z hd hdz ih =>
      exact Defers.child (hnm p (Reach.refl p)) hd
        (ih (fun y hy => hnm y (Reach.step hd hy)) ha)

set_option maxRecDepth 100000 in
/-- C20 fails on the code: on the parse of a batch that moves the view of tag 7
and deletes its child of tag 8, which has an exit animation,
`startAnimationsRecursively` on the MOVED node of tag 7 (pointer 1) returns
false, although afterwards its child (pointer 3) is still among its
unflattened children and is ANIMATING. -/
theorem startAnimationsRecursively_moved_answers_false :
    (startAnimationsRecursively (exitingFor 8) 3 1 true true false
      ((parseRemoveMutations State.fresh movedParentBatch).s, [])).map
      (fun r => (r.1, decide (3 ∈ (r.2.1.heap 1).unflattenedChildren), (r.2.1.heap 3).state))
      = some (false, true, .ANIMATING) ∧
    ((parseRemoveMutations State.fresh movedParentBatch).s.heap 1).state = .MOVED ∧
    (parseRemoveMutations State.fresh movedParentBatch).roots = [1] := by
  decide

/-- C20 (amended): on a node of the forest left by the parse of a batch in a
fresh engine, whose subtree is still as the parse left it (every node in it is
UNDEFINED or MOVED), `startAnimationsRecursively` returns when its budget covers
the height of the subtree, and it returns true if and only if the node defers
its removal: it is not MOVED and, after the call, it is ANIMATING or one of its
children defers its removal.  When no node of the subtree is MOVED this says:
it returns true if and only if, after the call, the node itself or some
descendant in its unflattened subtree is ANIMATING. -/
theorem startAnimationsRecursively_answer (mgr : Manager) (h0 : Ptr → Node) (n0 : Nat)
    (hF : Forest h0 n0) (fuel : Nat) (c : Ptr) (s : State) (m : ShadowViewMutationList)
    (sr sa sp : Bool) (hht : HtLe h0 fuel c) (hc : c < n0) (hn : n0 ≤ s.next)
    (hst : (h0 c).state = .UNDEFINED ∨ (h0 c).state = .MOVED)
    (hprist : ∀ z, Reach h0 c z → Kept (s.heap z) (h0 z)) :
    ∃ r s1 m1, startAnimationsRecursively mgr fuel c sr sa sp (s, m) = some (r, s1, m1) ∧
      (r = true ↔ Defers h0 (fun z => (s1.heap z).state) c) ∧
      ((∀ z, Reach h0 c z → (h0 z).state ≠ .MOVED) →
        (r = true ↔ ∃ z, Reach h0 c z ∧ (s1.heap z).state = .ANIMATING)) := by
  obtain ⟨r, s1, m1, hrun, P, _⟩ := startAnimationsRecursively_forest mgr h0 n0 hF fuel c s m
    sr sa sp hht hc hn hst hprist
  refine ⟨r, s1, m1, hrun, P.ret, fun hnm => ?_⟩
  rw [P.ret]
  exact Defers.iff_animating hnm

set_option maxRecDepth 100000 in
/-- Witness of C20: the root of the parse of a batch that removes and deletes
the view of tag 7 and its child of tag 8, with an exit animation for tag 8. -/
theorem startAnimationsRecursively_answer_witness :
    ∃ r s1 m1, startAnimationsRecursively (exitingFor 8)
        (parseRemoveMutations State.fresh nestedExitBatch).s.next 1 true true false
        ((parseRemoveMutations State.fresh nestedExitBatch).s, []) = some (r, s1, m1) ∧
      (r = true ↔ Defers (parseRemoveMutations State.fresh nestedExitBatch).s.heap
        (fun z => (s1.heap z).state) 1) :=
  let ⟨r, s1, m1, h1, h2, _⟩ := startAnimationsRecursively_answer (exitingFor 8)
    (parseRemoveMutations State.fresh nestedExitBatch).s.heap
    (parseRemoveMutations State.fresh nestedExitBatch).s.next
    (parseRemoveMutations_forest nestedExitBatch (by decide)).1
    (parseRemoveMutations State.fresh nestedExitBatch).s.next 1
    (parseRemoveMutations State.fresh nestedExitBatch).s [] true true false
    ((parseRemoveMutations_forest nestedExitBatch (by decide)).2.2 1 (by decide)).2.2.2.1
    (by decide) (le_refl _) (by decide) (fun z _ => Kept.kept_refl _)
  ⟨r, s1, m1, h1, h2⟩

theorem RootG.apart {h0 : Ptr → Node} {n0 fuel : Nat} (hF : Forest h0 n0) {r d z : Ptr}
    (hr : RootG h0 n0 fuel r) (hd : RootG h0 n0 fuel d) (hrd : r ≠ d) (h1 : Reach h0 r z) :
    ¬ Reach h0 d z := by
  intro h2
  have key : ∀ (r d : Ptr), RootG h0 n0 fuel r → RootG h0 n0 fuel d → r ≠ d → Reach h0 r d →
      False := by
    intro r d hr hd hrd h
    rcases h.last with h3 | ⟨y, hy1, hy2⟩
    · exact hrd h3
    · have hy : (h0 y).isMutation = true := hF.reach_mutation hy1 hr.1 hr.2.1
      rw [← hF.parentOK y d hy2, hd.2.2.2.2] at hy
      exact absurd hy (by simp)
  rcases Reach.comparable hF.parentOK h1 h2 with h3 | h3
  · exact key r d hr hd hrd h3
  · exact key d r hd hr (Ne.symm hrd) h3

/-- The loop body of `handleRemovals` on a root of a forest that is still as the
parse left it. -/
theorem handleRoots_one (mgr : Manager) (h0 : Ptr → Node) (n0 : Nat) (hF : Forest h0 n0)
    (fuel : Nat) (r : Ptr) (hr : RootG h0 n0 fuel r) (s : State)
    (m : ShadowViewMutationList) (hn : n0 ≤ s.next)
    (hprist : ∀ z, Reach h0 r z → Kept (s.heap z) (h0 z)) :
    ∃ w1, handleRoots mgr fuel [r] (s, m) = some w1 ∧ RootsG mgr h0 n0 s m [r] w1 := by
  obtain ⟨hr1, hr2, hr3, hr4, hr5⟩ := hr
  obtain ⟨ret, s1, m1, hrun, P, hex⟩ := startAnimationsRecursively_forest mgr h0 n0 hF fuel r
    s m true true false hr4 hr1 hn hr3 hprist
  have hnotanim : (h0 r).state ≠ .ANIMATING := by
    rcases hr3 with h | h <;> rw [h] <;> simp
  have hanimret : (s1.heap r).state = .ANIMATING → ret = true := by
    intro h
    rcases P.state with h1 | ⟨h1, _⟩
    · rw [h1] at h; exact absurd h hnotanim
    · exact P.ret.2 (Defers.self h1 h)
  cases ret with
  | true =>
    refine ⟨(s1, m1), ?_, ?_⟩
    · unfold handleRoots
      simp only [List.reverse_cons, List.reverse_nil, List.nil_append, List.foldl_cons,
        List.foldl_nil, hrun]
    · refine ⟨fun z hz _ hnr => P.frame z hz (hnr r (by simp)), P.next, P.dead, ?_, ?_, ?_, ?_,
        ?_, ?_⟩
      · obtain ⟨X, hX, hX2⟩ := P.out
        refine ⟨X, hX, fun x hx => ?_⟩
        obtain ⟨z, a1, _, a3, a4⟩ := hX2 x hx
        exact ⟨r, by simp, z, a1, a3, fun h => a4 (Or.inr h)⟩
      · intro d hd ha z hz hzr hm hnd
        rw [List.mem_singleton] at hd
        subst hd
        exact P.waiting (Or.inr ha) z hz hzr hm hnd
      · intro d hd z hz ha
        rw [List.mem_singleton] at hd
        subst hd
        exact P.config z hz ha
      · intro k hk
        by_cases ha : (s1.heap r).state = .ANIMATING
        · refine P.table (Or.inr ha) k (fun z hz hm => ?_)
          rcases hk r (by simp) z hz with h | ⟨_, h⟩
          · exact h
          · exact absurd hm h
        · refine P.tableAll k (fun z hz => ?_)
          rcases hk r (by simp) z hz with h | ⟨h, _⟩
          · exact h
          · exact absurd h ha
      · intro d hd hm he
        rw [List.mem_singleton] at hd
        subst hd
        exact hex hm (he _)
      · intro d hd hnd
        rw [List.mem_singleton] at hd
        subst hd
        exact absurd (P.ret.1 rfl) hnd
  | false =>
    have hna : (s1.heap r).state ≠ .ANIMATING := fun h => by
      have := hanimret h; cases this
    have hst1 : (s1.heap r).state = (h0 r).state := by
      rcases P.state with h | ⟨_, h⟩
      · exact h
      · exact absurd h hna
    obtain ⟨S2, hS2⟩ : ∃ S2, S2 = removeChildFromUnflattenedTree s1
        (s1.heap r).unflattenedParent r := ⟨_, rfl⟩
    have hsame : ∀ z, Same (S2.heap z) (s1.heap z) := fun z => by
      rw [hS2]; exact (removeChild_same s1 _ r z).1
    have hkept : ∀ z, (h0 z).isMutation = true → Kept (S2.heap z) (s1.heap z) := by
      intro z hzm
      have hzq : z ≠ (s1.heap r).unflattenedParent := by
        intro h
        rw [h, P.self.2.2.2, hr5] at hzm
        exact absurd hzm (by simp)
      rw [hS2]
      exact Kept.kept_of_agree ((removeChild_same s1 _ r z).2 hzq)
    obtain ⟨e1, _, e3, e4, _, _⟩ := (hsame r).fields
    have hS2n : S2.nodeForTag = s1.nodeForTag := by
      rw [hS2]; exact removeChildFromUnflattenedTree_nodeForTag _ _ _
    obtain ⟨hS2x, hS2d⟩ : S2.next = s1.next ∧ S2.deadNodes = s1.deadNodes := by
      rw [hS2]; exact removeChildFromUnflattenedTree_next _ _ _
    have hcommon : ∀ (w1 : Work) (Y : ShadowViewMutationList),
        (∀ z, w1.1.heap z = S2.heap z) → w1.1.next = S2.next → w1.1.deadNodes = S2.deadNodes →
        w1.2 = m1 ++ Y →
        (∀ x ∈ Y, x = (h0 r).mutation ∨
          x = DeleteMutation (h0 r).mutation.oldChildShadowView) →
        (∀ k, (h0 r).tag ≠ k → w1.1.nodeForTag k = S2.nodeForTag k) →
        (h0 r).mutation ∈ Y →
        RootsG mgr h0 n0 s m [r] w1 := by
      intro w1 Y hh hx hdd hY hY2 htab hYm
      have hstw : ∀ z, (w1.1.heap z).state = (s1.heap z).state := fun z => by
        rw [hh z]; exact (hsame z).fields.2.2.2.1
      have hnaw : ¬ (w1.1.heap r).state = .ANIMATING := by rw [hstw r]; exact hna
      refine ⟨?_, ?_, ?_, ?_, ?_, ?_, ?_, ?_, ?_⟩
      · intro z hz hzm hnr
        rw [hh z]
        exact (hkept z hzm).kept_trans (P.frame z hz (hnr r (by simp)))
      · rw [hx, hS2x]; exact P.next
      · rw [hdd, hS2d]; exact P.dead
      · obtain ⟨X, hX, hX2⟩ := P.out
        refine ⟨X ++ Y, by rw [hY, hX, List.append_assoc], fun x hx => ?_⟩
        rcases List.mem_append.1 hx with h | h
        · obtain ⟨z, a1, _, a3, _⟩ := hX2 x h
          exact ⟨r, by simp, z, a1, a3, fun h => absurd h hnaw⟩
        · exact ⟨r, by simp, r, Reach.refl r, hY2 x h, fun h => absurd h hnaw⟩
      · intro d hd ha
        rw [List.mem_singleton] at hd
        subst hd
        exact absurd ha hnaw
      · intro d hd z hz ha
        rw [List.mem_singleton] at hd
        subst hd
        rw [hstw z] at ha
        exact P.config z hz ha
      · intro k hk
        have hk2 : ∀ z, Reach h0 r z → (h0 z).tag ≠ k := by
          intro z hz
          rcases hk r (by simp) z hz with h | ⟨h, _⟩
          · exact h
          · exact absurd h hnaw
        rw [htab k (hk2 r (Reach.refl r)), hS2n]
        exact P.tableAll k hk2
      · intro d hd hm he
        rw [List.mem_singleton] at hd
        subst hd
        exact absurd (hex hm (he _)) hna
      · intro d hd _
        rw [List.mem_singleton] at hd
        subst hd
        rw [hY]
        exact List.mem_append_right _ hYm
    by_cases hmv : (h0 r).state = .MOVED
    · have hst2 : (S2.heap r).state = .MOVED := by rw [e4, hst1, hmv]
      refine ⟨(S2, m1 ++ [(s1.heap r).mutation]), ?_, ?_⟩
      · unfold handleRoots
        simp only [List.reverse_cons, List.reverse_nil, List.nil_append, List.foldl_cons,
          List.foldl_nil, hrun, State.node, ← hS2, hst2, ne_eq, not_true_eq_false, if_false]
      · refine hcommon _ [(s1.heap r).mutation] (fun z => rfl) rfl rfl rfl ?_ (fun k _ => rfl)
          (by rw [P.self.2.2.1]; exact List.mem_singleton_self _)
        intro x hx
        rw [List.mem_singleton] at hx
        rw [hx, P.self.2.2.1]
        exact Or.inl rfl
    · have hst2 : (S2.heap r).state ≠ .MOVED := by rw [e4, hst1]; exact hmv
      obtain ⟨nf, hnf⟩ : ∃ nf : Tag → Option Ptr, nf = Function.update
          (maybeCancelAnimation S2 (S2.heap r).tag).nodeForTag (S2.heap r).tag none := ⟨_, rfl⟩
      refine ⟨({ maybeCancelAnimation S2 (S2.heap r).tag with nodeForTag := nf },
        m1 ++ [(s1.heap r).mutation] ++
          [DeleteMutation (S2.heap r).mutation.oldChildShadowView]), ?_, ?_⟩
      · unfold handleRoots
        simp only [List.reverse_cons, List.reverse_nil, List.nil_append, List.foldl_cons,
          List.foldl_nil, hrun, State.node, ← hS2, hst2, ne_eq, not_false_eq_true, if_true, hnf]
      · refine hcommon _ ([(s1.heap r).mutation] ++
          [DeleteMutation (S2.heap r).mutation.oldChildShadowView]) ?_ ?_ ?_ ?_ ?_ ?_
          (by rw [P.self.2.2.1]; simp)
        · intro z
          show (maybeCancelAnimation S2 (S2.heap r).tag).heap z = _
          rw [maybeCancelAnimation_heap]
        · exact (maybeCancelAnimation_next _ _).1
        · exact (maybeCancelAnimation_next _ _).2
        · simp only [List.append_assoc]
        · intro x hx
          simp only [List.mem_append, List.mem_singleton] at hx
          rcases hx with h | h
          · rw [h, P.self.2.2.1]; exact Or.inl rfl
          · rw [h, e3, P.self.2.2.1]; exact Or.inr rfl
        · intro k hk
          show nf k = _
          rw [hnf, e1, P.self.1, Function.update_noteq (Ne.symm hk),
            maybeCancelAnimation_nodeForTag]
theorem foldl_option_snoc {α β : Type} (g : Option β → α → Option β)
    (hnone : ∀ a, g none a = none) (l : List α) (c : α) (b : β) :
    (l ++ [c]).reverse.foldl g (some b) =
      ([c].reverse.foldl g (some b)).bind (fun b1 => l.reverse.foldl g (some b1)) := by
  simp only [List.reverse_append, List.reverse_cons, List.reverse_nil, List.nil_append,
    List.singleton_append, List.foldl_cons, List.foldl_nil]
  cases h : g (some b) c with
  | none =>
    simp only [Option.bind]
    exact foldl_none_of_step g hnone _
  | some b1 => rfl

theorem handleRoots_snoc (mgr : Manager) (fuel : Nat) (l : List Ptr) (c : Ptr) (w : Work) :
    handleRoots mgr fuel (l ++ [c]) w =
      (handleRoots mgr fuel [c] w).bind (fun w1 => handleRoots mgr fuel l w1) := by
  unfold handleRoots
  refine foldl_option_snoc _ ?_ l c w
  intro _; rfl

/-- The loop of `handleRemovals` over the roots of a forest that is still as the
parse left it: it returns and keeps `RootsG`. -/
theorem handleRoots_forest (mgr : Manager) (h0 : Ptr → Node) (n0 : Nat) (hF : Forest h0 n0)
    (fuel : Nat) (s : State) (m : ShadowViewMutationList) (hn : n0 ≤ s.next) :
    ∀ (todo done : List Ptr) (w : Work),
      (done ++ todo).Nodup → (∀ r ∈ done ++ todo, RootG h0 n0 fuel r) →
      (∀ r ∈ done ++ todo, ∀ z, Reach h0 r z → Kept (s.heap z) (h0 z)) →
      RootsG mgr h0 n0 s m done w →
      ∃ w1, handleRoots mgr fuel todo.reverse w = some w1 ∧
        RootsG mgr h0 n0 s m (done ++ todo) w1 := by
  intro todo
  induction todo with
  | nil =>
    intro done w _ _ _ hinv
    exact ⟨w, by simp [handleRoots], by simpa using hinv⟩
  | cons c todo ih =>
    intro done w hnd hroot hprist hinv
    have hc : RootG h0 n0 fuel c := hroot c (by simp)
    have hcd : ∀ d ∈ done, c ≠ d := by
      intro d hd hcd
      rw [List.nodup_append] at hnd
      exact hnd.2.2 hd (by rw [← hcd]; exact List.mem_cons_self _ _)
    have hdis : ∀ d ∈ done, ∀ z, Reach h0 d z → ¬ Reach h0 c z := fun d hd z hz hcz =>
      RootG.apart hF hc (hroot d (by simp [hd])) (hcd d hd) hcz hz
    have hsubm : ∀ d ∈ done ++ c :: todo, ∀ z, Reach h0 d z →
        z < n0 ∧ (h0 z).isMutation = true := fun d hd z hz =>
      ⟨hF.reach_bound hz (hroot d hd).1, hF.reach_mutation hz (hroot d hd).1 (hroot d hd).2.1⟩
    have hpr : ∀ z, Reach h0 c z → Kept (w.1.heap z) (h0 z) := by
      intro z hz
      obtain ⟨b1, b2⟩ := hsubm c (by simp) z hz
      exact (hinv.frame z b1 b2 (fun d hd hdz => hdis d hd z hdz hz)).kept_trans
        (hprist c (by simp) z hz)
    obtain ⟨w1, hw1, T⟩ := handleRoots_one mgr h0 n0 hF fuel c hc w.1 w.2
      (le_trans hn hinv.next) hpr
    have hold : ∀ d ∈ done, ∀ y, Reach h0 d y →
        (w1.1.heap y).state = (w.1.heap y).state := fun d hd y hy => by
      obtain ⟨b1, b2⟩ := hsubm d (by simp [hd]) y hy
      exact (T.frame y b1 b2 (fun e he => by
        rw [List.mem_singleton] at he
        rw [he]; exact hdis d hd y hy)).2.2.2.1
    have hdef : ∀ d ∈ done, ∀ z, Reach h0 d z →
        (Defers h0 (fun y => (w1.1.heap y).state) z ↔
          Defers h0 (fun y => (w.1.heap y).state) z) := fun d hd z hz =>
      ⟨Defers.congr_anim (fun y hy ha =>
          (hold d hd y (Reach.reach_trans hz hy)).symm.trans ha),
        Defers.congr_anim (fun y hy ha =>
          (hold d hd y (Reach.reach_trans hz hy)).trans ha)⟩
    have hinv1 : RootsG mgr h0 n0 s m (done ++ [c]) w1 := by
      refine ⟨?_, le_trans hinv.next T.next, T.dead.trans hinv.dead, ?_, ?_, ?_, ?_, ?_, ?_⟩
      · intro z hz hzm hnr
        exact (T.frame z hz hzm (fun e he => by
          rw [List.mem_singleton] at he
          rw [he]; exact hnr c (by simp))).kept_trans
          (hinv.frame z hz hzm (fun d hd => hnr d (by simp [hd])))
      · obtain ⟨X, hX, hX2⟩ := hinv.out
        obtain ⟨Y, hY, hY2⟩ := T.out
        refine ⟨X ++ Y, by rw [hY, hX, List.append_assoc], ?_⟩
        intro x hx
        rcases List.mem_append.1 hx with h | h
        · obtain ⟨d, hd, z, a1, a2, a3⟩ := hX2 x h
          refine ⟨d, by simp [hd], z, a1, a2, fun ha => a3 ?_⟩
          rw [← hold d hd d (Reach.refl d)]; exact ha
        · obtain ⟨e, he, z, a1, a2, a3⟩ := hY2 x h
          rw [List.mem_singleton] at he
          subst he
          exact ⟨e, by simp, z, a1, a2, a3⟩
      · intro d hd ha z hz hzd hm hndf
        rcases List.mem_append.1 hd with hd | hd
        · rw [hold d hd z hz]
          rw [hold d hd d (Reach.refl d)] at ha
          exact hinv.waiting d hd ha z hz hzd hm (fun h => hndf ((hdef d hd z hz).2 h))
        · exact T.waiting d hd ha z hz hzd hm hndf
      · intro d hd z hz ha
        rcases List.mem_append.1 hd with hd | hd
        · rw [hold d hd z hz] at ha
          exact hinv.config d hd z hz ha
        · exact T.config d hd z hz ha
      · intro k hk
        rw [T.table k (fun e he z hz => by
          rw [List.mem_singleton] at he
          subst he
          exact hk e (by simp) z hz)]
        refine hinv.table k (fun d hd z hz => ?_)
        rcases hk d (by simp [hd]) z hz with h | ⟨h1, h2⟩
        · exact Or.inl h
        · exact Or.inr ⟨by rw [← hold d hd d (Reach.refl d)]; exact h1, h2⟩
      · intro d hd hm he
        rcases List.mem_append.1 hd with hd | hd
        · rw [hold d hd d (Reach.refl d)]
          exact hinv.exit d hd hm he
        · exact T.exit d hd hm he
      · intro d hd hnd
        rcases List.mem_append.1 hd with hd | hd
        · obtain ⟨Y, hY, _⟩ := T.out
          rw [hY]
          exact List.mem_append_left _
            (hinv.emit d hd (fun h => hnd ((hdef d hd d (Reach.refl d)).2 h)))
        · exact T.emit d hd hnd
    obtain ⟨w2, hw2, hinv2⟩ := ih (done ++ [c]) w1 (by simpa using hnd)
      (fun x hx => hroot x (by simpa using hx)) (fun x hx => hprist x (by simpa using hx)) hinv1
    refine ⟨w2, ?_, by simpa using hinv2⟩
    rw [List.reverse_cons, handleRoots_snoc, hw1]
    exact hw2

theorem applyMutationToIndices_states (s : State) (p : Ptr) (m : ShadowViewMutation) :
    ∀ z, ((applyMutationToIndices s p m).heap z).state = (s.heap z).state := by
  unfold applyMutationToIndices
  generalize (s.node p).children = cs
  induction cs generalizing s with
  | nil => intro z; rfl
  | cons c cs ih =>
    intro z
    rw [List.foldl_cons]
    split
    · rw [ih]
      by_cases hz : z = c
      · subst hz; simp [State.modifyNode, State.setNode, State.node]
      · simp [State.modifyNode, State.setNode, Function.update_noteq hz]
    · exact ih s z

theorem transferConfigFromNativeID_nodes (s : State) (str : String) (t : Tag) :
    (transferConfigFromNativeID s str t).nodeForTag = s.nodeForTag ∧
    (transferConfigFromNativeID s str t).heap = s.heap := by
  unfold transferConfigFromNativeID
  split
  · exact ⟨rfl, rfl⟩
  · split <;> exact ⟨rfl, rfl⟩

/-- The loop body of `handleUpdatesAndEnterings` keeps the lookup table and the
state of every node, and appends neither a Remove nor a Delete. -/
theorem handleMutation_nodes (mgr : Manager) (mv : Tag → Option Tag) (sid : SurfaceId)
    (l : UpdLoop) (m : ShadowViewMutation) :
    (handleMutation mgr mv sid l m).s.nodeForTag = l.s.nodeForTag ∧
    (∀ z, ((handleMutation mgr mv sid l m).s.heap z).state = (l.s.heap z).state) ∧
    ∃ X, (handleMutation mgr mv sid l m).filteredMutations = l.filteredMutations ++ X ∧
      ∀ x ∈ X, x.type ≠ .Delete ∧ x.type ≠ .Remove := by
  have hw := maybeUpdateWindowDimensions_frame l.s m sid
  have hwt := hw.2.2.2.1
  have hwh := hw.2.2.2.2.1
  have hf := updateIndexForMutation_fields (maybeUpdateWindowDimensions l.s m sid) m
  have hst : ∀ z, ((maybeUpdateWindowDimensions l.s m sid).heap z).state = (l.s.heap z).state :=
    fun z => by rw [hwh]
  have ha : ∀ p m1, (applyMutationToIndices (maybeUpdateWindowDimensions l.s m sid)
      p m1).nodeForTag = l.s.nodeForTag :=
    fun p m1 => (applyMutationToIndices_frame _ _ _).2.2.2.1.trans hwt
  have hah : ∀ p m1 z, ((applyMutationToIndices (maybeUpdateWindowDimensions l.s m sid)
      p m1).heap z).state = (l.s.heap z).state :=
    fun p m1 z => (applyMutationToIndices_states _ _ _ z).trans (hst z)
  unfold handleMutation
  cases hty : m.type with
  | Create => exact ⟨hwt, hst, [m], rfl, by simp [hty]⟩
  | Delete => exact ⟨hwt, hst, [], by simp, by simp⟩
  | Remove => exact ⟨hwt, hst, [], by simp, by simp⟩
  | Insert =>
    have hty1 : (updateIndexForMutation (maybeUpdateWindowDimensions l.s m sid) m).type
        = .Insert := by rw [hf]; exact hty
    simp only [handleInsert]
    repeat' split
    all_goals refine ⟨?_, ?_, _, rfl, by simp [InsertMutation, UpdateMutation, hty1]⟩
    all_goals first
      | exact hwt
      | exact ha _ _
      | exact hst
      | exact hah _ _
      | exact (transferConfigFromNativeID_nodes _ _ _).1.trans hwt
      | exact (transferConfigFromNativeID_nodes _ _ _).1.trans (ha _ _)
      | (intro z; rw [show ∀ (s0 : State) t0 m0, (startEnteringAnimation s0 t0 m0).heap = s0.heap
            from fun _ _ _ => rfl, (transferConfigFromNativeID_nodes _ _ _).2]
         first | exact hst z | exact hah _ _ z)
      | (intro z; rw [(transferConfigFromNativeID_nodes _ _ _).2]
         first | exact hst z | exact hah _ _ z)
  | Update =>
    simp only [handleUpdate]
    repeat' split
    all_goals first
      | exact ⟨hwt, hst, _, rfl, by simp [hty]⟩
      | exact ⟨hwt, hst, [], by simp, by simp⟩
      | (refine ⟨?_, ?_, [], by simp, by simp⟩
         · simp only [updateOngoingAnimationTarget]; split <;> exact hwt
         · simp only [updateOngoingAnimationTarget]; split <;> exact hst)

theorem handleUpdatesAndEnterings_nodes (mgr : Manager) (mv : Tag → Option Tag)
    (sid : SurfaceId) (ms : ShadowViewMutationList) (w : Work) :
    (handleUpdatesAndEnterings mgr mv sid ms w).1.nodeForTag = w.1.nodeForTag ∧
    (∀ z, ((handleUpdatesAndEnterings mgr mv sid ms w).1.heap z).state = (w.1.heap z).state) ∧
    ∃ X, (handleUpdatesAndEnterings mgr mv sid ms w).2 = w.2 ++ X ∧
      ∀ x ∈ X, x.type ≠ .Delete ∧ x.type ≠ .Remove := by
  have : ∀ (l : UpdLoop), (ms.foldl (handleMutation mgr mv sid) l).s.nodeForTag
      = l.s.nodeForTag ∧
      (∀ z, ((ms.foldl (handleMutation mgr mv sid) l).s.heap z).state = (l.s.heap z).state) ∧
      ∃ X, (ms.foldl (handleMutation mgr mv sid) l).filteredMutations =
        l.filteredMutations ++ X ∧ ∀ x ∈ X, x.type ≠ .Delete ∧ x.type ≠ .Remove := by
    induction ms with
    | nil => intro l; exact ⟨rfl, fun _ => rfl, [], by simp, by simp⟩
    | cons x ms ih =>
      intro l
      rw [List.foldl_cons]
      obtain ⟨a1, a2, X1, a3, a4⟩ := handleMutation_nodes mgr mv sid l x
      obtain ⟨b1, b2, X2, b3, b4⟩ := ih (handleMutation mgr mv sid l x)
      refine ⟨b1.trans a1, fun z => (b2 z).trans (a2 z), X1 ++ X2, ?_, ?_⟩
      · rw [b3, a3, List.append_assoc]
      · intro y hy
        rcases List.mem_append.mp hy with h | h
        · exact a4 y h
        · exact b4 y h
  exact this _

/-- With an empty update table `addOngoingAnimations` changes nothing. -/
theorem addOngoingAnimations_empty (sid : SurfaceId) (w : Work) (h : w.1.updateMap sid = []) :
    (addOngoingAnimations sid w).2 = w.2 ∧
    (addOngoingAnimations sid w).1.nodeForTag = w.1.nodeForTag ∧
    (addOngoingAnimations sid w).1.heap = w.1.heap := by
  unfold addOngoingAnimations
  simp only [h, List.foldl_nil]
  exact ⟨trivial, trivial, trivial⟩
theorem parseRemove_node (a : ParseAcc) (m : ShadowViewMutation)
    (hidx : updateIndexForMutation a.s m = m)
    (hne : m.parentTag ≠ m.oldChildShadowView.tag)
    (htab : ∀ k p, a.s.nodeForTag k = some p → p < a.s.next ∧ (a.s.heap p).tag = k) :
    (parseRemove a m).mutationNodes = a.mutationNodes ++ [a.s.next] ∧
    (parseRemove a m).unflattenedChildrenForTag =
      pushChild m.parentTag a.s.next a.unflattenedChildrenForTag ∧
    (parseRemove a m).deletedViews = a.deletedViews ∧
    a.s.next < (parseRemove a m).s.next ∧
    (∀ z, z < a.s.next → F4eq ((parseRemove a m).s.heap z) (a.s.heap z)) ∧
    (((parseRemove a m).s.heap a.s.next).isMutation = true ∧
      ((parseRemove a m).s.heap a.s.next).mutation = m ∧
      ((parseRemove a m).s.heap a.s.next).tag = m.oldChildShadowView.tag ∧
      ((parseRemove a m).s.heap a.s.next).state =
        (if m.oldChildShadowView.tag ∈ a.deletedViews then .UNDEFINED else .MOVED)) ∧
    (∀ z, a.s.next < z → z < (parseRemove a m).s.next →
      ((parseRemove a m).s.heap z).isMutation = false) ∧
    (parseRemove a m).s.nodeForTag m.oldChildShadowView.tag = some a.s.next ∧
    ((parseRemove a m).s.nodeForTag m.parentTag).isSome = true ∧
    (∀ k, k ≠ m.oldChildShadowView.tag → ∀ p, a.s.nodeForTag k = some p →
      (parseRemove a m).s.nodeForTag k = some p) := by
  obtain ⟨mv, hmv⟩ : ∃ mv : Bool, mv = !a.deletedViews.contains m.oldChildShadowView.tag :=
    ⟨_, rfl⟩
  obtain ⟨k1, k2, k3, k4, k5, k6, k7, k8, k9, k10⟩ :=
    makeMutationNode_spec a.s m (a.s.nodeForTag m.oldChildShadowView.tag)
  have hk9 : ((makeMutationNode a.s m (a.s.nodeForTag m.oldChildShadowView.tag)).2.heap
      a.s.next).tag = m.oldChildShadowView.tag := by
    rw [k9]
    cases hn : a.s.nodeForTag m.oldChildShadowView.tag with
    | none => rfl
    | some p => exact (htab _ p hn).2
  obtain ⟨mk, hmk⟩ : ∃ mk, mk = makeMutationNode a.s m
      (a.s.nodeForTag m.oldChildShadowView.tag) := ⟨_, rfl⟩
  rw [← hmk] at k1 k2 k3 k4 k5 k6 k7 k8 k9 k10 hk9
  have hlists : (parseRemove a m).mutationNodes = a.mutationNodes ++ [a.s.next] ∧
      (parseRemove a m).unflattenedChildrenForTag =
        pushChild m.parentTag a.s.next a.unflattenedChildrenForTag ∧
      (parseRemove a m).deletedViews = a.deletedViews := by
    simp only [parseRemove, hidx, ← hmk, k1]
    exact ⟨trivial, trivial, trivial⟩
  refine ⟨hlists.1, hlists.2.1, hlists.2.2, ?_⟩
  obtain ⟨tg, htg⟩ : ∃ tg, tg = m.oldChildShadowView.tag := ⟨_, rfl⟩
  obtain ⟨S1, hS1⟩ : ∃ S1 : State, S1 = if mv = true then
      mk.2.modifyNode a.s.next (fun x => { x with state := .MOVED }) else mk.2 := ⟨_, rfl⟩
  have hS1tab : S1.nodeForTag = mk.2.nodeForTag := by rw [hS1]; split <;> rfl
  have hS1next : S1.next = mk.2.next := by rw [hS1]; split <;> rfl
  have hS1F : ∀ z, (S1.heap z).isMutation = (mk.2.heap z).isMutation ∧
      (S1.heap z).mutation = (mk.2.heap z).mutation ∧
      (S1.heap z).tag = (mk.2.heap z).tag ∧
      (z ≠ a.s.next → (S1.heap z).state = (mk.2.heap z).state) ∧
      (z = a.s.next → (S1.heap z).state = if mv = true then .MOVED else (mk.2.heap z).state) := by
    intro z
    rw [hS1]
    split
    · by_cases hz : z = a.s.next
      · subst hz
        simp [State.modifyNode, State.setNode, State.node]
      · simp [State.modifyNode, State.setNode, State.node, Function.update_noteq hz, hz]
    · rename_i hmvf
      simp [hmvf]
  obtain ⟨tab, htabdef0⟩ : ∃ tab, tab = Function.update S1.nodeForTag tg (some a.s.next) :=
    ⟨_, rfl⟩
  have htabdef : tab = Function.update mk.2.nodeForTag tg (some a.s.next) := by
    rw [htabdef0, hS1tab]
  obtain ⟨S2, hS2⟩ : ∃ S2 : State, S2 = { S1 with nodeForTag := tab } := ⟨_, rfl⟩
  have hS2heap : S2.heap = S1.heap := by rw [hS2]
  have hS2next : S2.next = a.s.next + 1 := by rw [hS2]; exact hS1next.trans k2
  have hS2tab : S2.nodeForTag = tab := by rw [hS2]
  have hstate : (if mv = true then ExitingState.MOVED else ExitingState.UNDEFINED) =
      (if tg ∈ a.deletedViews then .UNDEFINED else .MOVED) := by
    rw [hmv, htg]
    by_cases hd : m.oldChildShadowView.tag ∈ a.deletedViews <;> simp [hd]
  rw [← htg] at hk9 hne
  rw [← htg]
  have hOld : ∀ z, z < a.s.next → F4eq (S1.heap z) (a.s.heap z) := by
    intro z hz
    obtain ⟨b1, b2, b3, b4, _⟩ := k5 z (Nat.ne_of_lt hz)
    obtain ⟨c1, c2, c3, c4, _⟩ := hS1F z
    exact ⟨c1.trans b1, c2.trans b2, (c4 (Nat.ne_of_lt hz)).trans b4, c3.trans b3⟩
  have hNew : (S1.heap a.s.next).isMutation = true ∧ (S1.heap a.s.next).mutation = m ∧
      (S1.heap a.s.next).tag = tg ∧ (S1.heap a.s.next).state =
        (if tg ∈ a.deletedViews then .UNDEFINED else .MOVED) := by
    obtain ⟨c1, c2, c3, _, c5⟩ := hS1F a.s.next
    refine ⟨c1.trans k6, c2.trans k7, c3.trans hk9, (c5 rfl).trans ?_⟩
    rw [k8]
    exact hstate
  cases hpar : a.s.nodeForTag m.parentTag with
  | some p1 =>
    have hR : (parseRemove a m).s = S2.modifyNode a.s.next
        (fun x => { x with parent := p1, unflattenedParent := p1 }) := by
      rw [hS2, htabdef0, hS1, hmv, htg]
      simp only [parseRemove, hidx, ← hmk, k1, hpar]
      try rfl
    have hF : ∀ z, F4eq ((S2.modifyNode a.s.next
        (fun x => { x with parent := p1, unflattenedParent := p1 })).heap z) (S1.heap z) := by
      intro z
      rw [← hS2heap]
      exact F4eq.of_modify S2 _ _ z (fun _ => ⟨rfl, rfl, rfl, rfl⟩)
    have hnext : (S2.modifyNode a.s.next
        (fun x => { x with parent := p1, unflattenedParent := p1 })).next = a.s.next + 1 :=
      hS2next
    have htable : (S2.modifyNode a.s.next
        (fun x => { x with parent := p1, unflattenedParent := p1 })).nodeForTag = tab := hS2tab
    rw [hR, hnext, htable]
    refine ⟨Nat.lt_succ_self _, fun z hz => ?_, ?_, fun z h1 h2 => ?_, ?_, ?_, fun k hk p hp => ?_⟩
    · exact (hF z).trans4 (hOld z hz)
    · obtain ⟨f1, f2, f3, f4⟩ := hF a.s.next
      exact ⟨f1.trans hNew.1, f2.trans hNew.2.1, f4.trans hNew.2.2.1, f3.trans hNew.2.2.2⟩
    · exact absurd (Nat.lt_succ_iff.mp h2) (Nat.not_le.mpr h1)
    · rw [htabdef]; simp
    · rw [htabdef, Function.update_noteq hne, k4, hpar]; rfl
    · rw [htabdef, Function.update_noteq hk, k4]; exact hp
  | none =>
    obtain ⟨al, hal⟩ : ∃ al, al = S2.alloc (plainNode m.parentTag) := ⟨_, rfl⟩
    obtain ⟨tab2, htab2⟩ : ∃ tab2, tab2 = Function.update al.2.nodeForTag m.parentTag
        (some al.1) := ⟨_, rfl⟩
    obtain ⟨S2b, hS2b⟩ : ∃ S2b : State, S2b = { al.2 with nodeForTag := tab2 } := ⟨_, rfl⟩
    have hal1 : al.1 = a.s.next + 1 := by rw [hal]; exact hS2next
    have hR : (parseRemove a m).s = S2b.modifyNode a.s.next
        (fun x => { x with parent := al.1, unflattenedParent := al.1 }) := by
      rw [hS2b, htab2, hal, hS2, htabdef0, hS1, hmv, htg]
      simp only [parseRemove, hidx, ← hmk, k1, hpar]
      try rfl
    have hheap : ∀ z, z ≠ a.s.next + 1 → S2b.heap z = S1.heap z := by
      intro z hz
      rw [hS2b, hal, ← hS2heap]
      simp only [State.alloc, hS2next, Function.update_noteq hz]
    have hheap1 : S2b.heap (a.s.next + 1) = plainNode m.parentTag := by
      rw [hS2b, hal]
      simp only [State.alloc, hS2next, Function.update_same]
    have hF : ∀ z, F4eq ((S2b.modifyNode a.s.next
        (fun x => { x with parent := al.1, unflattenedParent := al.1 })).heap z)
        (S2b.heap z) :=
      fun z => F4eq.of_modify S2b _ _ z (fun _ => ⟨rfl, rfl, rfl, rfl⟩)
    have hnext : (S2b.modifyNode a.s.next
        (fun x => { x with parent := al.1, unflattenedParent := al.1 })).next
        = a.s.next + 2 := by
      show S2b.next = _
      rw [hS2b, hal]
      simp only [State.alloc, hS2next]
    have htable : (S2b.modifyNode a.s.next
        (fun x => { x with parent := al.1, unflattenedParent := al.1 })).nodeForTag = tab2 := by
      show S2b.nodeForTag = _
      rw [hS2b]
    have htab2k : ∀ k, k ≠ m.parentTag → tab2 k = tab k := by
      intro k hk
      rw [htab2, Function.update_noteq hk, hal, ← hS2tab]
      rfl
    rw [hR, hnext, htable]
    refine ⟨Nat.lt_add_of_pos_right (by decide), fun z hz => ?_, ?_, fun z h1 h2 => ?_, ?_, ?_,
      fun k hk p hp => ?_⟩
    · refine (hF z).trans4 ?_
      rw [hheap z (Nat.ne_of_lt (Nat.lt_succ_of_lt hz))]
      exact hOld z hz
    · obtain ⟨f1, f2, f3, f4⟩ := hF a.s.next
      rw [hheap _ (Nat.ne_of_lt (Nat.lt_succ_self _))] at f1 f2 f3 f4
      exact ⟨f1.trans hNew.1, f2.trans hNew.2.1, f4.trans hNew.2.2.1, f3.trans hNew.2.2.2⟩
    · have hz : z = a.s.next + 1 := Nat.le_antisymm (Nat.lt_succ_iff.mp h2) h1
      rw [(hF z).1, hz, hheap1]
      rfl
    · rw [htab2k tg (Ne.symm hne), htabdef]; simp
    · rw [htab2]; simp
    · have hkp : k ≠ m.parentTag := fun h => by rw [h, hpar] at hp; exact absurd hp (by simp)
      rw [htab2k k hkp, htabdef, Function.update_noteq hk, k4]; exact hp
theorem parseStep_cases (a : ParseAcc) (m : ShadowViewMutation) :
    (m.type = .Remove ∧ parseStep a m = parseRemove a m) ∨
    (m.type ≠ .Remove ∧ (parseStep a m).s = a.s) ∨
    (m.type = .Update ∧ ∃ p, a.s.nodeForTag m.newChildShadowView.tag = some p ∧
      (parseStep a m).s = a.s.modifyNode p (fun x =>
        { x with mutation :=
          { x.mutation with oldChildShadowView := m.oldChildShadowView } })) := by
  cases hty : m.type with
  | Remove => left; exact ⟨rfl, by simp [parseStep, hty]⟩
  | Delete => right; left; exact ⟨by simp, by simp [parseStep, hty]⟩
  | Insert => right; left; exact ⟨by simp, by simp [parseStep, hty]⟩
  | Create => right; left; exact ⟨by simp, by simp [parseStep, hty]⟩
  | Update =>
    have hform : (parseStep a m).s = a.s ∨
        ∃ p, a.s.nodeForTag m.newChildShadowView.tag = some p ∧
          (parseStep a m).s = a.s.modifyNode p (fun x =>
            { x with mutation :=
              { x.mutation with oldChildShadowView := m.oldChildShadowView } }) := by
      simp only [parseStep, hty, reduceCtorEq, if_false, true_and]
      split
      · cases hp : a.s.nodeForTag m.newChildShadowView.tag with
        | none => left; rfl
        | some p => right; exact ⟨p, rfl, rfl⟩
      · left; rfl
    rcases hform with h | h
    · right; left; exact ⟨by simp, h⟩
    · right; right; exact ⟨rfl, h⟩

theorem parseStep_noFlat (a : ParseAcc) (m : ShadowViewMutation) (hs : NoFlat a.s)
    (hk : NoKids a.s) : NoFlat (parseStep a m).s := by
  rcases parseStep_cases a m with ⟨_, h⟩ | ⟨_, h⟩ | ⟨_, p, _, h⟩
  · rw [h]; exact parseRemove_noFlat a m hs hk
  · rw [h]; exact hs
  · rw [h]; exact hs.noFlat_modify p _ (fun _ => rfl)

/-- One step of the reverse scan keeps every allocated mutation node registered
under its own tag when the scanned Remove has a tag that was not scanned yet. -/
theorem parseStep_registered {t : Tag} (a : ParseAcc) (m : ShadowViewMutation)
    (tags : List Tag) (hP : PInv t a) (hF : NoFlat a.s) (hR : Registered a.s tags)
    (hupd : m.type = .Update → m.oldChildShadowView.tag = m.newChildShadowView.tag)
    (hne : m.type = .Remove → m.parentTag ≠ m.oldChildShadowView.tag)
    (hnew : m.type = .Remove → m.oldChildShadowView.tag ∉ tags) :
    Registered (parseStep a m).s
      (if m.type = .Remove then m.oldChildShadowView.tag :: tags else tags) := by
  rcases parseStep_cases a m with ⟨hty, h⟩ | ⟨hty, h⟩ | ⟨hty, p, hp, h⟩
  · rw [h, if_pos hty]
    obtain ⟨_, _, _, q4, q5, q6, q7, q8, _, q10⟩ := parseRemove_node a m
      (updateIndexForMutation_noFlat a.s m hF) (hne hty) hP.ps.2.1
    intro z hz hmut
    rcases Nat.lt_trichotomy z a.s.next with hlt | heq | hgt
    · obtain ⟨f1, f2, _, f4⟩ := q5 z hlt
      obtain ⟨r1, r2, r3⟩ := hR z hlt (f1.symm.trans hmut)
      rw [f4, f2]
      refine ⟨q10 _ (fun he => hnew hty (he ▸ r2)) z r1, List.mem_cons_of_mem _ r2, r3⟩
    · subst heq
      rw [q6.2.2.1, q6.2.1]
      exact ⟨q8, List.mem_cons_self _ _, rfl⟩
    · rw [q7 z hgt hz] at hmut
      exact absurd hmut (by simp)
  · rw [h, if_neg hty]
    exact hR
  · have hty1 : m.type ≠ .Remove := by rw [hty]; simp
    rw [h, if_neg hty1]
    obtain ⟨hpn, hpt⟩ := hP.ps.2.1 _ p hp
    intro z hz hmut
    by_cases hzp : z = p
    · subst hzp
      have hh : (a.s.modifyNode z (fun x => { x with mutation :=
          { x.mutation with oldChildShadowView := m.oldChildShadowView } })).heap z =
          { a.s.heap z with mutation :=
            { (a.s.heap z).mutation with oldChildShadowView := m.oldChildShadowView } } := by
        simp [State.modifyNode, State.setNode, State.node]
      rw [hh] at hmut ⊢
      obtain ⟨r1, r2, _⟩ := hR z hpn hmut
      refine ⟨r1, r2, ?_⟩
      show m.oldChildShadowView.tag = (a.s.heap z).tag
      rw [hupd hty, hpt]
    · have hh : (a.s.modifyNode p (fun x => { x with mutation :=
          { x.mutation with oldChildShadowView := m.oldChildShadowView } })).heap z =
          a.s.heap z := by
        simp [State.modifyNode, State.setNode, Function.update_noteq hzp]
      rw [hh] at hmut ⊢
      exact hR z hz hmut

theorem foldl_parseStep_registered {t : Tag} : ∀ (l : ShadowViewMutationList) (a : ParseAcc)
    (tags : List Tag), PInv t a → NoFlat a.s → NoKids a.s → Registered a.s tags →
    (∀ m ∈ l, m.type = .Delete → m.oldChildShadowView.tag ≠ t) →
    (∀ m ∈ l, m.type = .Update → m.oldChildShadowView.tag = m.newChildShadowView.tag) →
    (∀ m ∈ l, m.type = .Remove → m.parentTag ≠ m.oldChildShadowView.tag) →
    (∀ m ∈ l, m.type = .Remove → m.oldChildShadowView.tag ∉ tags) →
    RemovedOnce l →
    ∃ tags1, Registered (l.foldl parseStep a).s tags1 := by
  intro l
  induction l with
  | nil => intro a tags _ _ _ hR _ _ _ _ _; exact ⟨tags, hR⟩
  | cons m l ih =>
    intro a tags hP hF hK hR hdel hupd hne hnew hpw
    obtain ⟨q1, _⟩ := parseStep_inv a m hP (hdel m (List.mem_cons_self _ _))
      (hupd m (List.mem_cons_self _ _))
    obtain ⟨hm, hpw1⟩ := List.pairwise_cons.mp hpw
    rw [List.foldl_cons]
    refine ih (parseStep a m) _ q1 (parseStep_noFlat a m hF hK) (parseStep_noKids a m hK)
      (parseStep_registered a m tags hP hF hR (hupd m (List.mem_cons_self _ _))
        (hne m (List.mem_cons_self _ _)) (hnew m (List.mem_cons_self _ _)))
      (fun x hx => hdel x (List.mem_cons_of_mem _ hx))
      (fun x hx => hupd x (List.mem_cons_of_mem _ hx))
      (fun x hx => hne x (List.mem_cons_of_mem _ hx)) ?_ hpw1
    intro x hx hxt
    split
    · rename_i hmt
      intro hmem
      rcases List.mem_cons.mp hmem with h | h
      · exact hm x hx hmt hxt h.symm
      · exact hnew x (List.mem_cons_of_mem _ hx) hxt h
    · exact hnew x (List.mem_cons_of_mem _ hx) hxt

/-- After the parse of a batch on a fresh engine, where no tag is removed twice, no
view is removed from itself and Updates keep their tag: every allocated mutation
node is registered under its own tag and its mutation carries its tag. -/
theorem parseRemoveMutations_registered (batch : ShadowViewMutationList)
    (hupd : ∀ m ∈ batch, m.type = .Update →
      m.oldChildShadowView.tag = m.newChildShadowView.tag)
    (hne : ∀ m ∈ batch, m.type = .Remove → m.parentTag ≠ m.oldChildShadowView.tag)
    (honce : RemovedOnce batch) :
    ∃ tags, Registered (parseRemoveMutations State.fresh batch).s tags := by
  obtain ⟨t, ht⟩ := exists_fresh_tag batch
  obtain ⟨init, hinit⟩ : ∃ init : ParseAcc, init =
      { s := State.fresh, deletedViews := [], movedViews := fun _ => none, childrenForTag := [],
        unflattenedChildrenForTag := [], mutationNodes := [] } := ⟨_, rfl⟩
  have hP0 : PInv t init := by
    rw [hinit]
    exact PInv.mk (PS.fresh t) (fun c hc => by cases hc) (fun e he => by cases he) (by simp)
  have hR0 : Registered State.fresh [] := by
    intro z _ hmut
    simp [State.fresh, plainNode] at hmut
  have hpw : RemovedOnce batch.reverse := by
    unfold RemovedOnce
    rw [List.pairwise_reverse]
    exact honce.imp (fun h h1 h2 => (h h2 h1).symm)
  obtain ⟨tags, hreg⟩ := foldl_parseStep_registered batch.reverse init [] hP0
    (by rw [hinit]; exact fun q => rfl) (by rw [hinit]; exact fun q => rfl)
    (by rw [hinit]; exact hR0)
    (fun m hm _ => ht m (List.mem_reverse.mp hm))
    (fun m hm => hupd m (List.mem_reverse.mp hm))
    (fun m hm => hne m (List.mem_reverse.mp hm))
    (fun m _ _ => by simp) hpw
  rw [hinit] at hreg
  obtain ⟨s1, s2, s3, _, _⟩ := parseRemoveMutations_scan batch
  refine ⟨tags, fun z hz hmut => ?_⟩
  obtain ⟨f1, f2, _, f4⟩ := s1 z
  rw [s3] at hz
  rw [f1] at hmut
  obtain ⟨r1, r2, r3⟩ := hreg z hz hmut
  rw [s2, f4, f2]
  exact ⟨r1, r2, r3⟩
theorem parseStep_mutationNodes (a : ParseAcc) (m : ShadowViewMutation) :
    (parseStep a m).mutationNodes = a.mutationNodes ∨
    (parseStep a m).mutationNodes = a.mutationNodes ++ [a.s.next] := by
  rcases parseStep_forms a m with h | h | h | ⟨p, h⟩
  · right
    rw [h]
    obtain ⟨k1, _⟩ := makeMutationNode_spec a.s (updateIndexForMutation a.s m)
      (a.s.nodeForTag (updateIndexForMutation a.s m).oldChildShadowView.tag)
    simp only [parseRemove, k1]
  · left; rw [h]
  · left; rw [h]
  · left; rw [h]

theorem foldl_parseStep_nodup {t : Tag} : ∀ (l : ShadowViewMutationList) (a : ParseAcc),
    PInv t a → a.mutationNodes.Nodup →
    (∀ m ∈ l, m.type = .Delete → m.oldChildShadowView.tag ≠ t) →
    (∀ m ∈ l, m.type = .Update → m.oldChildShadowView.tag = m.newChildShadowView.tag) →
    (l.foldl parseStep a).mutationNodes.Nodup := by
  intro l
  induction l with
  | nil => intro a _ h _ _; exact h
  | cons m l ih =>
    intro a hP hnd hdel hupd
    obtain ⟨q1, _⟩ := parseStep_inv a m hP (hdel m (List.mem_cons_self _ _))
      (hupd m (List.mem_cons_self _ _))
    rw [List.foldl_cons]
    refine ih (parseStep a m) q1 ?_ (fun x hx => hdel x (List.mem_cons_of_mem _ hx))
      (fun x hx => hupd x (List.mem_cons_of_mem _ hx))
    rcases parseStep_mutationNodes a m with h | h
    · rw [h]; exact hnd
    · rw [h]
      refine List.nodup_append.mpr ⟨hnd, List.nodup_singleton _, ?_⟩
      intro x hx hx1
      rw [List.mem_singleton] at hx1
      subst hx1
      exact absurd (hP.nodes _ hx).1 (lt_irrefl _)

/-- The roots of the parse of a batch whose Updates keep their tag are pairwise
distinct. -/
theorem parseRemoveMutations_roots_nodup (batch : ShadowViewMutationList)
    (hupd : ∀ m ∈ batch, m.type = .Update →
      m.oldChildShadowView.tag = m.newChildShadowView.tag) :
    (parseRemoveMutations State.fresh batch).roots.Nodup := by
  obtain ⟨t, ht⟩ := exists_fresh_tag batch
  obtain ⟨init, hinit⟩ : ∃ init : ParseAcc, init =
      { s := State.fresh, deletedViews := [], movedViews := fun _ => none, childrenForTag := [],
        unflattenedChildrenForTag := [], mutationNodes := [] } := ⟨_, rfl⟩
  have hP0 : PInv t init := by
    rw [hinit]
    exact PInv.mk (PS.fresh t) (fun c hc => by cases hc) (fun e he => by cases he) (by simp)
  have h := foldl_parseStep_nodup batch.reverse init hP0 (by rw [hinit]; exact List.nodup_nil)
    (fun m hm _ => ht m (List.mem_reverse.mp hm))
    (fun m hm => hupd m (List.mem_reverse.mp hm))
  rw [hinit] at h
  exact h.filter _

theorem handleRemovals_of_roots (mgr : Manager) (fuel : Nat) (roots : List Ptr) (w w1 : Work)
    (h : handleRoots mgr fuel roots w = some w1) (hd : w1.1.deadNodes = []) :
    handleRemovals mgr fuel roots w = some ({ w1.1 with deadNodes := [] }, w1.2) := by
  unfold handleRemovals
  rw [h]
  simp only [hd, visitOrder_nil, handleDeadNodes, List.foldl_nil]



theorem parseStep_nodes_of_ne (a : ParseAcc) (m : ShadowViewMutation) (h : m.type ≠ .Remove) :
    (parseStep a m).mutationNodes = a.mutationNodes := by
  cases hty : m.type with
  | Remove => exact absurd hty h
  | Delete => simp [parseStep, hty]
  | Insert => simp [parseStep, hty]
  | Create => simp [parseStep, hty]
  | Update =>
    simp only [parseStep, hty, reduceCtorEq, if_false, true_and]
    split
    · split <;> rfl
    · rfl

/-- One step of the reverse scan on a fresh engine: the keys of the built nodes
are kept, and a Remove adds a node with its own key. -/
theorem parseStep_keys {t : Tag} (a : ParseAcc) (m : ShadowViewMutation) (hP : PInv t a)
    (hF : NoFlat a.s)
    (hne : m.type = .Remove → m.parentTag ≠ m.oldChildShadowView.tag) :
    (parseStep a m).mutationNodes.map (nodeKey (parseStep a m).s) =
      a.mutationNodes.map (nodeKey a.s) ++ (if m.type = .Remove then [removeKey m] else []) := by
  rcases parseStep_cases a m with ⟨hty, h⟩ | ⟨hty, h⟩ | ⟨hty, p, hp, h⟩
  · rw [h, if_pos hty]
    obtain ⟨q1, _, _, _, q5, q6, _⟩ := parseRemove_node a m
      (updateIndexForMutation_noFlat a.s m hF) (hne hty) hP.ps.2.1
    rw [q1, List.map_append]
    congr 1
    · refine List.map_congr_left (fun z hz => ?_)
      obtain ⟨_, f2, _, f4⟩ := q5 z (hP.nodes z hz).1
      simp only [nodeKey, f2, f4]
    · simp only [List.map_cons, List.map_nil, nodeKey, removeKey, q6.2.1, q6.2.2.1]
  · rw [parseStep_nodes_of_ne a m hty, h, if_neg hty, List.append_nil]
  · have hty1 : m.type ≠ .Remove := by rw [hty]; simp
    rw [parseStep_nodes_of_ne a m hty1, h, if_neg hty1, List.append_nil]
    refine List.map_congr_left (fun z hz => ?_)
    by_cases hzp : z = p
    · subst hzp
      simp [nodeKey, State.modifyNode, State.setNode, State.node]
    · simp [nodeKey, State.modifyNode, State.setNode, Function.update_noteq hzp]

theorem foldl_parseStep_keys {t : Tag} : ∀ (l : ShadowViewMutationList) (a : ParseAcc),
    PInv t a → NoFlat a.s → NoKids a.s →
    (∀ m ∈ l, m.type = .Delete → m.oldChildShadowView.tag ≠ t) →
    (∀ m ∈ l, m.type = .Update → m.oldChildShadowView.tag = m.newChildShadowView.tag) →
    (∀ m ∈ l, m.type = .Remove → m.parentTag ≠ m.oldChildShadowView.tag) →
    (l.foldl parseStep a).mutationNodes.map (nodeKey (l.foldl parseStep a).s) =
      a.mutationNodes.map (nodeKey a.s) ++
        (l.filter (fun m => m.type = .Remove)).map removeKey := by
  intro l
  induction l with
  | nil => intro a _ _ _ _ _ _; simp
  | cons m l ih =>
    intro a hP hF hK hdel hupd hne
    obtain ⟨q1, _⟩ := parseStep_inv a m hP (hdel m (List.mem_cons_self _ _))
      (hupd m (List.mem_cons_self _ _))
    rw [List.foldl_cons, ih (parseStep a m) q1 (parseStep_noFlat a m hF hK)
      (parseStep_noKids a m hK) (fun x hx => hdel x (List.mem_cons_of_mem _ hx))
      (fun x hx => hupd x (List.mem_cons_of_mem _ hx))
      (fun x hx => hne x (List.mem_cons_of_mem _ hx)),
      parseStep_keys a m hP hF (hne m (List.mem_cons_self _ _)), List.append_assoc]
    congr 1
    by_cases hty : m.type = .Remove
    · simp [hty]
    · simp [hty]

/-- The nodes built by the parse of a batch on a fresh engine carry, in the order
of the list of built nodes, the tags, indices and parent tags of the Removes of
the batch read from its end. -/
theorem parseRemoveMutations_keys (batch : ShadowViewMutationList)
    (hupd : ∀ m ∈ batch, m.type = .Update →
      m.oldChildShadowView.tag = m.newChildShadowView.tag)
    (hne : ∀ m ∈ batch, m.type = .Remove → m.parentTag ≠ m.oldChildShadowView.tag) :
    (parseRemoveMutations State.fresh batch).mutationNodes.map
        (nodeKey (parseRemoveMutations State.fresh batch).s) =
      (batch.reverse.filter (fun m => m.type = .Remove)).map removeKey := by
  obtain ⟨t, ht⟩ := exists_fresh_tag batch
  obtain ⟨init, hinit⟩ : ∃ init : ParseAcc, init =
      { s := State.fresh, deletedViews := [], movedViews := fun _ => none, childrenForTag := [],
        unflattenedChildrenForTag := [], mutationNodes := [] } := ⟨_, rfl⟩
  have hP0 : PInv t init := by
    rw [hinit]
    exact PInv.mk (PS.fresh t) (fun c hc => by cases hc) (fun e he => by cases he) (by simp)
  have h := foldl_parseStep_keys batch.reverse init hP0
    (by rw [hinit]; exact fun q => rfl) (by rw [hinit]; exact fun q => rfl)
    (fun m hm _ => ht m (List.mem_reverse.mp hm))
    (fun m hm => hupd m (List.mem_reverse.mp hm))
    (fun m hm => hne m (List.mem_reverse.mp hm))
  have hnil : init.mutationNodes = [] := by rw [hinit]
  rw [hnil, List.map_nil, List.nil_append, hinit] at h
  obtain ⟨s1, _, _, s4, _⟩ := parseRemoveMutations_scan batch
  rw [s4, ← h]
  refine List.map_congr_left (fun z _ => ?_)
  obtain ⟨_, f2, _, f4⟩ := s1 z
  simp only [nodeKey, f2, f4]
  rfl
theorem parseRemoveMutations_roots_filter (s : State) (batch : ShadowViewMutationList) :
    ∃ g : Ptr → Bool, (parseRemoveMutations s batch).roots =
      (parseRemoveMutations s batch).mutationNodes.filter g := ⟨_, rfl⟩


theorem parseRemove_childrenForTag (a : ParseAcc) (m0 : ShadowViewMutation) :
    (parseRemove a m0).childrenForTag =
      pushChild (updateIndexForMutation a.s m0).parentTag a.s.next a.childrenForTag := by
  have h := (makeMutationNode_spec a.s (updateIndexForMutation a.s m0)
    (a.s.nodeForTag (updateIndexForMutation a.s m0).oldChildShadowView.tag)).1
  rw [← h]
  simp only [parseRemove]

theorem parseStep_update_quiet (a : ParseAcc) (m : ShadowViewMutation)
    (hty : m.type = .Update) (hq : a.movedViews m.newChildShadowView.tag = none) :
    parseStep a m = a := by
  simp [parseStep, hty, hq]

/-- One step of the reverse scan keeps `ScanW`. -/
theorem parseStep_scanW {t : Tag} (sc : ShadowViewMutationList) (a : ParseAcc)
    (m : ShadowViewMutation) (hS : ScanW t sc a)
    (c1 : m.type = .Delete → m.oldChildShadowView.tag ≠ t)
    (c2 : m.type = .Update → m.oldChildShadowView.tag = m.newChildShadowView.tag)
    (c3 : m.type = .Remove → m.parentTag ≠ m.oldChildShadowView.tag)
    (c4 : m.type = .Remove → ∀ m1 ∈ sc, m1.type = .Remove →
      m1.oldChildShadowView.tag ≠ m.oldChildShadowView.tag)
    (c5 : m.type = .Delete → ∀ m1 ∈ sc, m1.type = .Remove →
      m1.oldChildShadowView.tag ≠ m.oldChildShadowView.tag)
    (c6 : m.type = .Update → ¬ RemovedNotDeletedLater sc m.newChildShadowView.tag) :
    ScanW t (m :: sc) (parseStep a m) := by
  obtain ⟨q1, _⟩ := parseStep_inv a m hS.inv c1 c2
  have hreg := parseStep_registered a m _ hS.inv hS.flat hS.reg c2 c3 (fun hty hmem => by
    obtain ⟨m1, hm1, he⟩ := List.mem_map.mp hmem
    rw [List.mem_filter] at hm1
    exact c4 hty m1 hm1.1 (by simpa using hm1.2) he)
  have hreg1 : Registered (parseStep a m).s
      (((m :: sc).filter (fun m => m.type = .Remove)).map
        (fun m => m.oldChildShadowView.tag)) := by
    by_cases hty : m.type = .Remove
    · rw [if_pos hty] at hreg
      simpa [List.filter_cons, hty] using hreg
    · rw [if_neg hty] at hreg
      simpa [List.filter_cons, hty] using hreg
  have hmv := (parseStep_maps a m).1
  have hdv := (parseStep_maps a m).2
  have hrn := removedNotDeletedLater_cons m sc
  -- the steps that leave the state, the lists and the built nodes as they are
  have hsame : m.type ≠ .Remove → (parseStep a m).s = a.s →
      (parseStep a m).unflattenedChildrenForTag = a.unflattenedChildrenForTag →
      (parseStep a m).childrenForTag = a.childrenForTag →
      ScanW t (m :: sc) (parseStep a m) := by
    intro hty hs hu hc
    have hn := parseStep_nodes_of_ne a m hty
    have hfil : (m :: sc).reverse.filter (fun m => m.type = .Remove) =
        sc.reverse.filter (fun m => m.type = .Remove) := by
      simp [List.filter_append, hty]
    refine ⟨q1, by rw [hs]; exact hS.flat, by rw [hs]; exact hS.kids, hreg1, ?_, ?_, ?_, ?_, ?_,
      ?_, ?_⟩
    · rw [hn, hs, hfil]; exact hS.muts
    · rw [hn, hs]; exact hS.all
    · intro x
      rw [hdv]
      by_cases hd : m.type = .Delete
      · rw [if_pos hd, List.mem_cons, hS.dels x]
        constructor
        · rintro (h | ⟨d, hd1, hd2⟩)
          · exact ⟨m, List.mem_cons_self _ _, hd, h.symm⟩
          · exact ⟨d, List.mem_cons_of_mem _ hd1, hd2⟩
        · rintro ⟨d, hd1, hd2, hd3⟩
          rcases List.mem_cons.mp hd1 with h | h
          · left; rw [← hd3, h]
          · right; exact ⟨d, h, hd2, hd3⟩
      · rw [if_neg hd, hS.dels x]
        constructor
        · rintro ⟨d, hd1, hd2⟩
          exact ⟨d, List.mem_cons_of_mem _ hd1, hd2⟩
        · rintro ⟨d, hd1, hd2, hd3⟩
          rcases List.mem_cons.mp hd1 with h | h
          · rw [h] at hd2; exact absurd hd2 hd
          · exact ⟨d, h, hd2, hd3⟩
    · intro z hz
      rw [hn] at hz
      rw [hs]
      rcases hS.states z hz with ⟨h1, d, hd1, hd2⟩ | ⟨h1, h2⟩
      · exact Or.inl ⟨h1, d, List.mem_cons_of_mem _ hd1, hd2⟩
      · refine Or.inr ⟨h1, fun d hd hdt => ?_⟩
        rcases List.mem_cons.mp hd with h | h
        · rw [h]
          rw [h] at hdt
          obtain ⟨r1, r2, _⟩ := hS.reg z (hS.inv.nodes z hz).1 (hS.inv.nodes z hz).2
          obtain ⟨m1, hm1, he⟩ := List.mem_map.mp r2
          rw [List.mem_filter] at hm1
          exact fun hc => c5 hdt m1 hm1.1 (by simpa using hm1.2) (he.trans hc.symm)
        · exact h2 d h hdt
    · intro z hz
      rw [hn] at hz
      rw [hs, hu]
      exact hS.edges z hz
    · rw [hc, hu]; exact hS.lists
    · intro x hx
      rw [hmv, if_neg (fun h => hty h.1)] at hx
      exact (hrn x).mpr (Or.inr (hS.moved x hx))
  cases hty : m.type with
  | Create =>
    have h : parseStep a m = a := by simp [parseStep, hty]
    exact hsame (by rw [hty]; simp) (by rw [h]) (by rw [h]) (by rw [h])
  | Insert =>
    have h : parseStep a m = a := by simp [parseStep, hty]
    exact hsame (by rw [hty]; simp) (by rw [h]) (by rw [h]) (by rw [h])
  | Delete =>
    have h : parseStep a m =
        { a with deletedViews := m.oldChildShadowView.tag :: a.deletedViews } := by
      simp [parseStep, hty]
    exact hsame (by rw [hty]; simp) (by rw [h]) (by rw [h]) (by rw [h])
  | Update =>
    have hq : a.movedViews m.newChildShadowView.tag = none := by
      cases hmvx : a.movedViews m.newChildShadowView.tag with
      | none => rfl
      | some v => exact absurd (hS.moved _ (by rw [hmvx]; rfl)) (c6 hty)
    have h := parseStep_update_quiet a m hty hq
    exact hsame (by rw [hty]; simp) (by rw [h]) (by rw [h]) (by rw [h])
  | Remove =>
    have h1 : parseStep a m = parseRemove a m := by simp [parseStep, hty]
    have hidx := updateIndexForMutation_noFlat a.s m hS.flat
    obtain ⟨r1, r2, r3, r4, r5, r6, r7, r8, r9, r10⟩ := parseRemove_node a m hidx (c3 hty)
      hS.inv.ps.2.1
    have hcl := parseRemove_childrenForTag a m
    rw [hidx] at hcl
    have hdist : ∀ z ∈ a.mutationNodes, (a.s.heap z).tag ≠ m.oldChildShadowView.tag := by
      intro z hz
      obtain ⟨_, k2, _⟩ := hS.reg z (hS.inv.nodes z hz).1 (hS.inv.nodes z hz).2
      obtain ⟨m1, hm1, he⟩ := List.mem_map.mp k2
      rw [List.mem_filter] at hm1
      rw [← he]
      exact c4 hty m1 hm1.1 (by simpa using hm1.2)
    have hnd : m.type ≠ .Delete := by rw [hty]; simp
    rw [h1] at hreg1 q1 hmv hdv ⊢
    refine ⟨q1, parseRemove_noFlat a m hS.flat hS.kids, parseRemove_noKids a m hS.kids, hreg1,
      ?_, ?_, ?_, ?_, ?_, ?_, ?_⟩
    · rw [r1, List.map_append, List.reverse_cons, List.filter_append, ← hS.muts]
      congr 1
      · exact List.map_congr_left (fun z hz => (r5 z (hS.inv.nodes z hz).1).2.1)
      · simp [hty, r6.2.1]
    · intro z hz hzm
      rw [r1]
      rcases Nat.lt_trichotomy z a.s.next with hlt | heq | hgt
      · exact List.mem_append_left _ (hS.all z hlt ((r5 z hlt).1.symm.trans hzm))
      · rw [heq]; simp
      · rw [r7 z hgt hz] at hzm
        exact absurd hzm (by simp)
    · intro x
      rw [hdv, if_neg hnd, hS.dels x]
      constructor
      · rintro ⟨d, hd1, hd2⟩
        exact ⟨d, List.mem_cons_of_mem _ hd1, hd2⟩
      · rintro ⟨d, hd1, hd2, hd3⟩
        rcases List.mem_cons.mp hd1 with h | h
        · rw [h] at hd2; exact absurd hd2 hnd
        · exact ⟨d, h, hd2, hd3⟩
    · intro z hz
      rw [r1] at hz
      have hcons : ∀ (tg : Tag),
          (∃ d ∈ m :: sc, d.type = .Delete ∧ d.oldChildShadowView.tag = tg) ↔
          ∃ d ∈ sc, d.type = .Delete ∧ d.oldChildShadowView.tag = tg := by
        intro tg
        constructor
        · rintro ⟨d, hd1, hd2, hd3⟩
          rcases List.mem_cons.mp hd1 with h | h
          · rw [h] at hd2; exact absurd hd2 hnd
          · exact ⟨d, h, hd2, hd3⟩
        · rintro ⟨d, hd1, hd2⟩
          exact ⟨d, List.mem_cons_of_mem _ hd1, hd2⟩
      rcases List.mem_append.mp hz with hz | hz
      · obtain ⟨_, _, f3, f4⟩ := r5 z (hS.inv.nodes z hz).1
        rw [f3, f4]
        rcases hS.states z hz with ⟨k1, k2⟩ | ⟨k1, k2⟩
        · exact Or.inl ⟨k1, (hcons _).mpr k2⟩
        · refine Or.inr ⟨k1, fun d hd hdt hc => ?_⟩
          obtain ⟨d1, e1, e2, e3⟩ := (hcons _).mp ⟨d, hd, hdt, hc⟩
          exact k2 d1 e1 e2 e3
      · rw [List.mem_singleton] at hz
        subst hz
        rw [r6.2.2.2, r6.2.2.1]
        by_cases hd : m.oldChildShadowView.tag ∈ a.deletedViews
        · rw [if_pos hd]
          exact Or.inl ⟨rfl, (hcons _).mpr ((hS.dels _).mp hd)⟩
        · rw [if_neg hd]
          refine Or.inr ⟨rfl, fun d hd1 hdt hc => hd ((hS.dels _).mpr ?_)⟩
          exact (hcons _).mp ⟨d, hd1, hdt, hc⟩
    · intro z hz
      rw [r1] at hz
      rw [r2]
      rcases List.mem_append.mp hz with hz | hz
      · obtain ⟨_, f2, _, _⟩ := r5 z (hS.inv.nodes z hz).1
        obtain ⟨k1, k2⟩ := hS.edges z hz
        rw [f2]
        refine ⟨inList_pushChild_old _ _ _ _ _ k1, ?_⟩
        by_cases hpt : (a.s.heap z).mutation.parentTag = m.oldChildShadowView.tag
        · rw [hpt, r8]; rfl
        · obtain ⟨p, hp⟩ := Option.isSome_iff_exists.mp k2
          rw [r10 _ hpt p hp]; rfl
      · rw [List.mem_singleton] at hz
        subst hz
        rw [r6.2.1]
        exact ⟨inList_pushChild_new _ _ _, r9⟩
    · rw [hcl, r2, hS.lists]
    · intro x hx
      rw [hmv] at hx
      by_cases hc : m.type = .Remove ∧ m.oldChildShadowView.tag ∉ a.deletedViews
      · rw [if_pos hc] at hx
        by_cases hx1 : x = m.oldChildShadowView.tag
        · refine (hrn x).mpr (Or.inl ⟨hty, hx1.symm, fun d hd hdt hdx => hc.2 ?_⟩)
          exact (hS.dels _).mpr ⟨d, hd, hdt, hdx.trans hx1⟩
        · rw [Function.update_noteq hx1] at hx
          exact (hrn x).mpr (Or.inr (hS.moved x hx))
      · rw [if_neg hc] at hx
        exact (hrn x).mpr (Or.inr (hS.moved x hx))
theorem scanResult_cons (s : State) (m : ShadowViewMutation) (sc : ShadowViewMutationList) :
    scanResult s (m :: sc) = parseStep (scanResult s sc) m := by
  simp [scanResult, List.foldl_append]

theorem scanW_nil (t : Tag) : ScanW t [] (scanResult State.fresh []) := by
  have hinit : scanResult State.fresh [] =
      { s := State.fresh, deletedViews := [], movedViews := fun _ => none, childrenForTag := [],
        unflattenedChildrenForTag := [], mutationNodes := [] } := rfl
  rw [hinit]
  refine ⟨PInv.mk (PS.fresh t) (fun c hc => by cases hc) (fun e he => by cases he) (by simp),
    fun q => rfl, fun q => rfl, ?_, rfl, ?_, ?_, ?_, ?_, rfl, ?_⟩
  · intro z _ hmut
    simp [State.fresh, plainNode] at hmut
  · intro z _ hmut
    simp [State.fresh, plainNode] at hmut
  · intro x; simp
  · intro z hz; cases hz
  · intro z hz; cases hz
  · intro x hx; simp at hx

/-- The reverse scan of a suffix `sc` of a well-formed batch on a fresh engine
leaves `ScanW`; `pre` holds the mutations of the batch before `sc`. -/
theorem scanResult_scanW {t : Tag} (rk : Tag → Nat) : ∀ (sc pre : ShadowViewMutationList),
    (∀ m ∈ sc, m.oldChildShadowView.tag ≠ t) →
    (∀ m ∈ sc, m.type = .Update → m.oldChildShadowView.tag = m.newChildShadowView.tag) →
    (∀ m ∈ sc, m.type = .Remove → rk m.parentTag < rk m.oldChildShadowView.tag) →
    RemovedOnce (pre.reverse ++ sc) → DeletesAfterRemoves pre sc → NoUpdateBeforeMove sc →
    ScanW t sc (scanResult State.fresh sc) := by
  intro sc
  induction sc with
  | nil => intro _ _ _ _ _ _ _; exact scanW_nil t
  | cons m sc ih =>
    intro pre ht hupd htree honce hdel hmv
    have honce1 : RemovedOnce ((m :: pre).reverse ++ sc) := by
      simpa [List.reverse_cons, List.append_assoc] using honce
    have hS := ih (m :: pre) (fun x hx => ht x (List.mem_cons_of_mem _ hx))
      (fun x hx => hupd x (List.mem_cons_of_mem _ hx))
      (fun x hx => htree x (List.mem_cons_of_mem _ hx)) honce1 hdel.2 hmv.2
    obtain ⟨_, hpw, hcross⟩ := List.pairwise_append.mp honce
    obtain ⟨hm, _⟩ := List.pairwise_cons.mp hpw
    rw [scanResult_cons]
    refine parseStep_scanW sc _ m hS (fun _ => ht m (List.mem_cons_self _ _))
      (hupd m (List.mem_cons_self _ _)) (fun hty => ?_) (fun hty m1 hm1 hm1t => ?_)
      (fun hty m1 hm1 hm1t => ?_) hmv.1
    · intro h
      have := htree m (List.mem_cons_self _ _) hty
      rw [h] at this
      exact absurd this (lt_irrefl _)
    · exact fun h => hm m1 hm1 hty hm1t h.symm
    · obtain ⟨r, hr, hrt, hd⟩ := hdel.1 hty
      have hne := hcross r (List.mem_reverse.mpr hr) m1 (List.mem_cons_of_mem _ hm1) hrt hm1t
      rw [hd]
      exact fun h => hne h.symm
theorem foldl_setFlatParent (parent : Ptr) : ∀ (cs : List Ptr) (s : State),
    (∀ c ∈ cs, ((cs.foldl (fun acc child =>
      acc.modifyNode child (fun x => { x with parent := parent })) s).heap c).parent = parent) ∧
    (∀ c, c ∉ cs → ((cs.foldl (fun acc child =>
      acc.modifyNode child (fun x => { x with parent := parent })) s).heap c).parent =
        (s.heap c).parent) ∧
    (∀ q, ((cs.foldl (fun acc child =>
      acc.modifyNode child (fun x => { x with parent := parent })) s).heap q).children =
        (s.heap q).children) ∧
    (cs.foldl (fun acc child =>
      acc.modifyNode child (fun x => { x with parent := parent })) s).nodeForTag =
        s.nodeForTag := by
  intro cs
  induction cs with
  | nil => intro s; exact ⟨fun c hc => (by cases hc), fun c _ => rfl, fun _ => rfl, rfl⟩
  | cons d cs ih =>
    intro s
    simp only [List.foldl_cons]
    obtain ⟨h1, h2, h3, h4⟩ := ih (s.modifyNode d (fun x => { x with parent := parent }))
    refine ⟨fun c hc => ?_, fun c hc => ?_, fun q => ?_, ?_⟩
    · by_cases hcs : c ∈ cs
      · exact h1 c hcs
      · have hcd : c = d := by
          rcases List.mem_cons.mp hc with h | h
          · exact h
          · exact absurd h hcs
        rw [h2 c hcs, hcd]
        simp [State.modifyNode, State.setNode, State.node]
    · have hcd : c ≠ d := fun h => hc (h ▸ List.mem_cons_self _ _)
      have hcs : c ∉ cs := fun h => hc (List.mem_cons_of_mem _ h)
      rw [h2 c hcs]
      simp [State.modifyNode, State.setNode, State.node, Function.update_noteq hcd]
    · rw [h3 q]
      by_cases hq : q = d
      · subst hq
        simp [State.modifyNode, State.setNode, State.node]
      · simp [State.modifyNode, State.setNode, State.node, Function.update_noteq hq]
    · rw [h4]; rfl

/-- After the flattened children collected by the scan are attached, every
flattened child points back to the node that lists it and was collected for it. -/
theorem attachChildren_flat (Src : Ptr → Ptr → Prop) :
    ∀ (l : List (Tag × List Ptr)) (s : State), (listed l).Nodup →
    (∀ p d, d ∈ (s.heap p).children → (s.heap d).parent = p ∧ d ∉ listed l ∧ Src p d) →
    (∀ e ∈ l, ∀ q, s.nodeForTag e.1 = some q → ∀ d ∈ e.2, Src q d) →
    ∀ p d, d ∈ ((attachChildren s l).heap p).children →
      ((attachChildren s l).heap d).parent = p ∧ Src p d := by
  intro l
  induction l with
  | nil => intro s _ h _ p d hd; exact ⟨(h p d hd).1, (h p d hd).2.2⟩
  | cons e l ih =>
    intro s hnd h hsrc
    simp only [listed] at hnd
    have hnd2 : (listed l).Nodup := (List.nodup_append.mp hnd).2.1
    have hdisj : ∀ x, x ∈ e.2 → x ∉ listed l := fun x hx hx2 =>
      (List.nodup_append.mp hnd).2.2 hx hx2
    simp only [attachChildren, List.foldl_cons]
    cases hn : s.nodeForTag e.1 with
    | none =>
      exact ih s hnd2 (fun p c hc => ⟨(h p c hc).1, fun hx => (h p c hc).2.1 (by
        simp only [listed, List.mem_append]; right; exact hx), (h p c hc).2.2⟩)
        (fun e1 he1 => hsrc e1 (List.mem_cons_of_mem _ he1))
    | some parent =>
      obtain ⟨g1, g2, g3, g4⟩ := foldl_setFlatParent parent e.2 (insertChildren s parent e.2)
      have hnft : (insertChildren s parent e.2).nodeForTag = s.nodeForTag := rfl
      refine ih _ hnd2 (fun p c hc => ?_) (fun e1 he1 q hq => ?_)
      · rw [g3] at hc
        have hup : ∀ x, ((insertChildren s parent e.2).heap x).parent = (s.heap x).parent := by
          intro x
          by_cases hx : x = parent
          · subst hx
            simp [insertChildren, State.modifyNode, State.setNode, State.node]
          · simp [insertChildren, State.modifyNode, State.setNode, State.node,
              Function.update_noteq hx]
        have hold : c ∈ (s.heap p).children ∨ (p = parent ∧ c ∈ e.2) := by
          by_cases hp : p = parent
          · subst hp
            simp only [insertChildren, State.modifyNode, State.setNode, State.node,
              Function.update_same] at hc
            rcases mem_mergeChildren _ _ _ _ c hc with h1 | h1
            · left; exact h1
            · right; exact ⟨rfl, h1⟩
          · left
            simpa [insertChildren, State.modifyNode, State.setNode, State.node,
              Function.update_noteq hp] using hc
        by_cases hce : c ∈ e.2
        · rcases hold with h1 | ⟨h1, _⟩
          · exact absurd (by simp only [listed, List.mem_append]; left; exact hce)
              (h p c h1).2.1
          · exact ⟨by rw [g1 c hce, h1], hdisj c hce,
              hsrc e (List.mem_cons_self _ _) p (by rw [h1]; exact hn) c hce⟩
        · rcases hold with h1 | ⟨_, h1⟩
          · refine ⟨by rw [g2 c hce, hup]; exact (h p c h1).1, fun hx => (h p c h1).2.1 ?_,
              (h p c h1).2.2⟩
            simp only [listed, List.mem_append]; right; exact hx
          · exact absurd h1 hce
      · rw [g4, hnft] at hq
        exact hsrc e1 (List.mem_cons_of_mem _ he1) q hq

theorem foldl_setParent_flat (parent : Ptr) : ∀ (cs : List Ptr) (s : State) (q : Ptr),
    ((cs.foldl (fun acc child =>
      acc.modifyNode child (fun x => { x with unflattenedParent := parent })) s).heap
        q).children = (s.heap q).children ∧
    ((cs.foldl (fun acc child =>
      acc.modifyNode child (fun x => { x with unflattenedParent := parent })) s).heap
        q).parent = (s.heap q).parent := by
  intro cs
  induction cs with
  | nil => intro s q; exact ⟨rfl, rfl⟩
  | cons d cs ih =>
    intro s q
    simp only [List.foldl_cons]
    obtain ⟨h1, h2⟩ := ih (s.modifyNode d (fun x => { x with unflattenedParent := parent })) q
    rw [h1, h2]
    by_cases hq : q = d
    · subst hq
      simp [State.modifyNode, State.setNode, State.node]
    · simp [State.modifyNode, State.setNode, State.node, Function.update_noteq hq]

/-- Attaching the unflattened children leaves the flattened children and the
flattened parent of every node as they are. -/
theorem attachUnflattenedChildren_flat : ∀ (l : List (Tag × List Ptr)) (s : State) (q : Ptr),
    ((attachUnflattenedChildren s l).heap q).children = (s.heap q).children ∧
    ((attachUnflattenedChildren s l).heap q).parent = (s.heap q).parent := by
  intro l
  induction l with
  | nil => intro s q; exact ⟨rfl, rfl⟩
  | cons e l ih =>
    intro s q
    simp only [attachUnflattenedChildren, List.foldl_cons]
    cases hn : s.nodeForTag e.1 with
    | none => exact ih s q
    | some parent =>
      obtain ⟨h1, h2⟩ := ih (e.2.foldl (fun acc2 child =>
        acc2.modifyNode child (fun x => { x with unflattenedParent := parent }))
        (insertUnflattenedChildren s parent e.2)) q
      obtain ⟨g1, g2⟩ := foldl_setParent_flat parent e.2
        (insertUnflattenedChildren s parent e.2) q
      have hins : ((insertUnflattenedChildren s parent e.2).heap q).children =
          (s.heap q).children ∧
          ((insertUnflattenedChildren s parent e.2).heap q).parent = (s.heap q).parent := by
        by_cases hq : q = parent
        · subst hq
          simp [insertUnflattenedChildren, State.modifyNode, State.setNode, State.node]
        · simp [insertUnflattenedChildren, State.modifyNode, State.setNode, State.node,
            Function.update_noteq hq]
      exact ⟨h1.trans (g1.trans hins.1), h2.trans (g2.trans hins.2)⟩
/-- The parse of a well-formed batch on a fresh engine satisfies `ParsedW`. -/
theorem parseRemoveMutations_parsedW (rk : Tag → Nat) (batch : ShadowViewMutationList)
    (hwf : WellFormedBatch rk batch) :
    ParsedW batch (parseRemoveMutations State.fresh batch) := by
  obtain ⟨t, ht⟩ := exists_fresh_tag batch
  have hS : ScanW t batch (scanResult State.fresh batch) :=
    scanResult_scanW rk batch [] ht hwf.upd hwf.tree (by simpa using hwf.once) hwf.del
      hwf.moved
  obtain ⟨hF, hdead, hroots⟩ := parseRemoveMutations_forest batch hwf.upd
  obtain ⟨s1, s2, s3, s4, s5⟩ := parseRemoveMutations_scan batch
  obtain ⟨g, hg⟩ := parseRemoveMutations_roots_filter State.fresh batch
  obtain ⟨A, hA⟩ : ∃ A, A = scanResult State.fresh batch := ⟨_, rfl⟩
  obtain ⟨P, hP⟩ : ∃ P, P = parseRemoveMutations State.fresh batch := ⟨_, rfl⟩
  rw [← hA] at hS s1 s2 s3 s4 s5
  rw [← hP] at hF hdead hroots s1 s2 s3 s4 s5 hg ⊢
  have hvalid : ∀ z ∈ P.mutationNodes, z < P.s.next ∧ (P.s.heap z).isMutation = true := by
    intro z hz
    rw [s4] at hz
    obtain ⟨b1, b2⟩ := hS.inv.nodes z hz
    exact ⟨by rw [s3]; exact b1, by rw [(s1 z).1]; exact b2⟩
  have hregP : ∀ z, z < P.s.next → (P.s.heap z).isMutation = true →
      P.s.nodeForTag (P.s.heap z).tag = some z ∧
      (P.s.heap z).mutation.oldChildShadowView.tag = (P.s.heap z).tag := by
    intro z hz hm
    obtain ⟨f1, f2, _, f4⟩ := s1 z
    obtain ⟨r1, _, r3⟩ := hS.reg z (by rw [← s3]; exact hz) (by rw [← f1]; exact hm)
    rw [s2, f4, f2]
    exact ⟨r1, r3⟩
  have hlistedNodup : (listed A.unflattenedChildrenForTag).Nodup := by
    obtain ⟨init, hinit⟩ : ∃ init : ParseAcc, init =
        { s := State.fresh, deletedViews := [], movedViews := fun _ => none,
          childrenForTag := [], unflattenedChildrenForTag := [], mutationNodes := [] } :=
      ⟨_, rfl⟩
    have hP0 : PInv t init := by
      rw [hinit]
      exact PInv.mk (PS.fresh t) (fun c hc => by cases hc) (fun e he => by cases he) (by simp)
    have hl := foldl_parseStep_listed batch.reverse init hP0
      (fun m hm _ => ht m (List.mem_reverse.mp hm))
      (fun m hm => hwf.upd m (List.mem_reverse.mp hm)) (by rw [hinit]; simp [listed])
    rw [hinit] at hl
    rw [hA]
    exact hl
  have hk1 := attachChildren_noKids A.childrenForTag A.s hS.kids
  obtain ⟨_, c2, _⟩ := attachChildren_F4 A.childrenForTag A.s
  obtain ⟨_, hkid2, _, _⟩ := attachUnflattenedChildren_kids A.unflattenedChildrenForTag
    (attachChildren A.s A.childrenForTag) hlistedNodup
    (fun p c hc => by rw [hk1 p] at hc; exact absurd hc (by simp))
    (fun p => by rw [hk1 p]; exact List.nodup_nil)
  rw [← s5] at hkid2
  -- the edge from the node of the parent tag
  have hedge : ∀ z ∈ P.mutationNodes, ∃ q, A.s.nodeForTag (P.s.heap z).mutation.parentTag =
      some q ∧ z ∈ (P.s.heap q).unflattenedChildren := by
    intro z hz
    rw [s4] at hz
    obtain ⟨⟨e, he, he1, he2⟩, k2⟩ := hS.edges z hz
    obtain ⟨q, hq⟩ := Option.isSome_iff_exists.mp k2
    rw [← (s1 z).2.1] at hq he1
    refine ⟨q, hq, hkid2 e he q ?_ z he2⟩
    rw [c2, he1]
    exact hq
  have hmem : ∀ z ∈ P.mutationNodes, (P.s.heap z).mutation ∈ batch ∧
      (P.s.heap z).mutation.type = .Remove := by
    intro z hz
    have h1 : (P.s.heap z).mutation ∈ P.mutationNodes.map (fun z => (P.s.heap z).mutation) :=
      List.mem_map.mpr ⟨z, hz, rfl⟩
    have h2 : P.mutationNodes.map (fun z => (P.s.heap z).mutation) =
        batch.reverse.filter (fun m => m.type = .Remove) := by
      rw [s4, ← hS.muts]
      exact List.map_congr_left (fun z _ => (s1 z).2.1)
    rw [h2, List.mem_filter] at h1
    exact ⟨List.mem_reverse.mp h1.1, by simpa using h1.2⟩
  have hrootmem : ∀ z ∈ P.mutationNodes,
      (P.s.heap (P.s.heap z).unflattenedParent).isMutation = false → z ∈ P.roots := by
    intro z hz hpl
    have hroots_eq : P.roots = P.mutationNodes.filter
        (fun p => !(P.s.node (P.s.node p).unflattenedParent).isMutation) := by
      rw [hP]; rfl
    rw [hroots_eq, List.mem_filter]
    exact ⟨hz, by simp [State.node, hpl]⟩
  refine
    { forest := hF
      dead := hdead
      roots := hroots
      rootsNodup := by
        have h := parseRemoveMutations_roots_nodup batch hwf.upd
        rw [← hP] at h
        exact h
      rootsSub := fun r hr => by
        rw [hg] at hr
        exact (List.mem_filter.mp hr).1
      nodesNodup := ?_
      tags := fun z z1 hz hz1 hm hm1 he => by
        have h1 := (hregP z hz hm).1
        rw [he, (hregP z1 hz1 hm1).1] at h1
        exact (Option.some.inj h1).symm
      old := fun z hz hm => (hregP z hz hm).2
      muts := ?_
      all := fun z hz hm => by
        rw [s4]
        exact hS.all z (by rw [← s3]; exact hz) (by rw [← (s1 z).1]; exact hm)
      valid := hvalid
      states := fun z hz => by
        rw [s4] at hz
        obtain ⟨_, _, f3, f4⟩ := s1 z
        rw [f3, f4]
        exact hS.states z hz
      flat := ?_
      reach := ?_ }
  · have hnd := parseRemoveMutations_roots_nodup batch hwf.upd
    obtain ⟨init, hinit⟩ : ∃ init : ParseAcc, init =
        { s := State.fresh, deletedViews := [], movedViews := fun _ => none,
          childrenForTag := [], unflattenedChildrenForTag := [], mutationNodes := [] } :=
      ⟨_, rfl⟩
    have hP0 : PInv t init := by
      rw [hinit]
      exact PInv.mk (PS.fresh t) (fun c hc => by cases hc) (fun e he => by cases he) (by simp)
    have h := foldl_parseStep_nodup batch.reverse init hP0
      (by rw [hinit]; exact List.nodup_nil)
      (fun m hm _ => ht m (List.mem_reverse.mp hm))
      (fun m hm => hwf.upd m (List.mem_reverse.mp hm))
    rw [hinit] at h
    rw [s4, hA]
    exact h
  · rw [s4, ← hS.muts]
    exact List.map_congr_left (fun z _ => (s1 z).2.1)
  · intro p d hd
    have hch : ∀ q, (P.s.heap q).children =
        ((attachChildren A.s A.childrenForTag).heap q).children ∧
        (P.s.heap q).parent = ((attachChildren A.s A.childrenForTag).heap q).parent := by
      intro q
      rw [s5]
      exact attachUnflattenedChildren_flat _ _ q
    rw [(hch p).1] at hd
    rw [(hch d).2]
    obtain ⟨k1, e, he, hq, hde⟩ := attachChildren_flat
      (fun p d => ∃ e ∈ A.childrenForTag, A.s.nodeForTag e.1 = some p ∧ d ∈ e.2)
      A.childrenForTag A.s (by rw [hS.lists]; exact hlistedNodup)
      (fun p d hd => by rw [hS.flat p] at hd; exact absurd hd (by simp))
      (fun e he q hq d hd => ⟨e, he, hq, hd⟩) p d hd
    refine ⟨?_, ?_, k1⟩
    · rw [s3]
      exact (hS.inv.ps.2.1 _ p hq).1
    · exact hkid2 e (by rw [← hS.lists]; exact he) p (by rw [c2]; exact hq) d hde
  · have key : ∀ n, ∀ z ∈ P.mutationNodes, rk (P.s.heap z).tag = n →
        ∃ r ∈ P.roots, Reach P.s.heap r z := by
      intro n
      induction n using Nat.strong_induction_on with
      | _ n ih =>
        intro z hz hn
        obtain ⟨q, hq, hzq⟩ := hedge z hz
        obtain ⟨hqn, hqt⟩ := hS.inv.ps.2.1 _ q hq
        by_cases hqm : (P.s.heap q).isMutation = true
        · have hqmem : q ∈ P.mutationNodes := by
            rw [s4]
            exact hS.all q hqn (by rw [← (s1 q).1]; exact hqm)
          obtain ⟨b1, b2⟩ := hmem z hz
          obtain ⟨v1, v2⟩ := hvalid z hz
          have hlt : rk (P.s.heap q).tag < n := by
            rw [(s1 q).2.2.2, hqt, ← hn, ← (hregP z v1 v2).2]
            exact hwf.tree _ b1 b2
          obtain ⟨r, hr, hrq⟩ := ih _ hlt q hqmem rfl
          exact ⟨r, hr, hrq.reach_trans (Reach.step hzq (Reach.refl z))⟩
        · refine ⟨z, hrootmem z hz ?_, Reach.refl z⟩
          rw [hF.parentOK q z hzq]
          simpa using hqm
    exact fun z hz => key _ z hz rfl

theorem hexDigits_length : ∀ (k n : Nat), (hexDigits k n).length ≤ k := by
  intro k
  induction k with
  | zero => intro n; simp [hexDigits]
  | succ k ih =>
    intro n
    unfold hexDigits
    split
    · simp
    · have := ih (n / 16)
      simp only [List.length_append, List.length_singleton]
      omega

theorem fixedDigits_zero : ∀ k : Nat, fixedDigits k 0 = List.replicate k '0' := by
  intro k
  induction k with
  | zero => rfl
  | succ k ih =>
    have h0 : hexDigit (0 % 16) = '0' := by decide
    simp only [fixedDigits, Nat.zero_div, ih, h0]
    exact (List.replicate_succ' k '0').symm

/-- Padding the digits of a value below `16 ^ (k + 1)` to the width `k + 1` gives
its `k + 1` digits. -/
theorem hexDigits_padded : ∀ (k n : Nat), n < 16 ^ (k + 1) →
    List.replicate (k + 1 - (hexDigits (k + 1) n).length) '0' ++ hexDigits (k + 1) n =
      fixedDigits (k + 1) n := by
  intro k
  induction k with
  | zero =>
    intro n hn
    have hn16 : n < 16 := by simpa using hn
    have hmod : n % 16 = n := Nat.mod_eq_of_lt hn16
    simp [hexDigits, fixedDigits, hn16, hmod]
  | succ k ih =>
    intro n hn
    by_cases h16 : n < 16
    · have hdiv : n / 16 = 0 := Nat.div_eq_of_lt h16
      have hmod : n % 16 = n := Nat.mod_eq_of_lt h16
      have e1 : hexDigits (k + 1 + 1) n = [hexDigit n] := by
        rw [hexDigits]; simp [h16]
      have e2 : fixedDigits (k + 1 + 1) n = fixedDigits (k + 1) 0 ++ [hexDigit n] := by
        rw [fixedDigits, hdiv, hmod]
      rw [e1, e2, fixedDigits_zero]
      simp
    · have hlt : n / 16 < 16 ^ (k + 1) := by
        rw [Nat.div_lt_iff_lt_mul (by decide)]
        calc n < 16 ^ (k + 1 + 1) := hn
          _ = 16 ^ (k + 1) * 16 := by rw [pow_succ]
      have e1 : hexDigits (k + 1 + 1) n =
          hexDigits (k + 1) (n / 16) ++ [hexDigit (n % 16)] := by
        rw [hexDigits]; simp [h16]
      have e2 : fixedDigits (k + 1 + 1) n =
          fixedDigits (k + 1) (n / 16) ++ [hexDigit (n % 16)] := by
        rw [fixedDigits]
      have hlen := hexDigits_length (k + 1) (n / 16)
      rw [e1, e2, ← ih (n / 16) hlt]
      simp only [List.length_append, List.length_singleton, List.append_assoc]
      have : k + 1 + 1 - ((hexDigits (k + 1) (n / 16)).length + 1) =
          k + 1 - (hexDigits (k + 1) (n / 16)).length := by omega
      rw [this]

theorem streamHex8_digits (val : Int) :
    streamHex8 val = fixedDigits 8 (val % 4294967296).toNat := by
  have hlt : (val % 4294967296).toNat < 16 ^ (7 + 1) := by
    have h1 : val % 4294967296 < 4294967296 := Int.emod_lt_of_pos _ (by decide)
    have h2 : 0 ≤ val % 4294967296 := Int.emod_nonneg _ (by decide)
    have : (16 : Nat) ^ (7 + 1) = 4294967296 := by norm_num
    rw [this]
    omega
  exact hexDigits_padded 7 _ hlt

theorem signed32_pattern (u : Nat) (hu : u < 4294967296) :
    (signed32 u % 4294967296).toNat = u := by
  unfold signed32
  split <;> omega

/-- C30: for every 32-bit colour value with the bytes AA RR GG BB (alpha in the
top byte), taken as the `int` that holds this bit pattern (negative when the
top bit is set), `intColorToHex` returns the string of nine characters made
of `#`, the two lower-case hexadecimal digits of RR, of GG and of BB, and then
the two digits of AA. -/
theorem intColorToHex_bytes (aa rr gg bb : Nat) (haa : aa < 256) (hrr : rr < 256)
    (hgg : gg < 256) (hbb : bb < 256) :
    intColorToHex (signed32 (colourValue aa rr gg bb)) =
      some (String.mk ('#' :: (hexByte rr ++ hexByte gg ++ hexByte bb ++ hexByte aa))) ∧
    (String.mk ('#' :: (hexByte rr ++ hexByte gg ++ hexByte bb ++ hexByte aa))).length = 9 := by
  have hu : colourValue aa rr gg bb < 4294967296 := by unfold colourValue; omega
  have hs : streamHex8 (signed32 (colourValue aa rr gg bb)) =
      hexByte aa ++ hexByte rr ++ hexByte gg ++ hexByte bb := by
    rw [streamHex8_digits, signed32_pattern _ hu]
    have d0 : colourValue aa rr gg bb % 16 = bb % 16 := by unfold colourValue; omega
    have d1 : colourValue aa rr gg bb / 16 % 16 = bb / 16 := by unfold colourValue; omega
    have d2 : colourValue aa rr gg bb / 16 / 16 % 16 = gg % 16 := by unfold colourValue; omega
    have d3 : colourValue aa rr gg bb / 16 / 16 / 16 % 16 = gg / 16 := by
      unfold colourValue; omega
    have d4 : colourValue aa rr gg bb / 16 / 16 / 16 / 16 % 16 = rr % 16 := by
      unfold colourValue; omega
    have d5 : colourValue aa rr gg bb / 16 / 16 / 16 / 16 / 16 % 16 = rr / 16 := by
      unfold colourValue; omega
    have d6 : colourValue aa rr gg bb / 16 / 16 / 16 / 16 / 16 / 16 % 16 = aa % 16 := by
      unfold colourValue; omega
    have d7 : colourValue aa rr gg bb / 16 / 16 / 16 / 16 / 16 / 16 / 16 % 16 = aa / 16 := by
      unfold colourValue; omega
    simp only [fixedDigits, d0, d1, d2, d3, d4, d5, d6, d7, hexByte]
    rfl
  refine ⟨?_, by simp [hexByte, String.length]⟩
  unfold intColorToHex
  simp only [hs, substr, hexByte]
  simp

/-- C30 (witness): the value 0xFF112233, negative as an `int`, gives `#112233ff`. -/
theorem intColorToHex_bytes_witness :
    (255 < 256 ∧ 17 < 256 ∧ 34 < 256 ∧ 51 < 256) ∧
    signed32 (colourValue 255 17 34 51) = -15654349 ∧
    intColorToHex (-15654349) = some "#112233ff" ∧
    (intColorToHex (signed32 (colourValue 255 17 34 51)) =
      some (String.mk ('#' :: (hexByte 17 ++ hexByte 34 ++ hexByte 51 ++ hexByte 255))) ∧
    (String.mk ('#' :: (hexByte 17 ++ hexByte 34 ++ hexByte 51 ++ hexByte 255))).length = 9) :=
  ⟨by decide, by decide, by decide,
    intColorToHex_bytes 255 17 34 51 (by decide) (by decide) (by decide) (by decide)⟩
theorem fixedDigits_length : ∀ (k n : Nat), (fixedDigits k n).length = k := by
  intro k
  induction k with
  | zero => intro n; rfl
  | succ k ih => intro n; simp [fixedDigits, ih]

/-- The function `intColorToHex` never throws: the stream holds eight characters. -/
theorem intColorToHex_some (val : Int) : ∃ s, intColorToHex val = some s := by
  have hlen : (streamHex8 val).length = 8 := by
    rw [streamHex8_digits]; exact fixedDigits_length 8 _
  unfold intColorToHex substr
  simp only [hlen]
  exact ⟨_, rfl⟩

/-- C29: `obtainPropFromShadowNode` raises the error "Getting property `<name>`
with function `getViewProp` is not supported" if and only if the property name
is none of width, height, top, left, opacity and backgroundColor and is not
zIndex on a view whose zIndex is set; in particular it raises it for zIndex on
a view without a zIndex, and it raises no other error. -/
theorem obtainPropFromShadowNode_error (propName : String) (node : ShadowNodeView) :
    (obtainPropFromShadowNode propName node = .error (notSupportedMessage propName) ↔
      (propName ≠ "width" ∧ propName ≠ "height" ∧ propName ≠ "top" ∧ propName ≠ "left" ∧
        propName ≠ "opacity" ∧ propName ≠ "backgroundColor" ∧
        ¬ (propName = "zIndex" ∧ node.zIndex.isSome = true))) ∧
    (node.zIndex = none →
      obtainPropFromShadowNode "zIndex" node = .error (notSupportedMessage "zIndex")) ∧
    (∀ e, obtainPropFromShadowNode propName node = .error e →
      e = notSupportedMessage propName) := by
  obtain ⟨c, hc⟩ := intColorToHex_some node.backgroundColor
  refine ⟨?_, ?_, ?_⟩
  · by_cases h1 : propName = "width"
    · subst h1; simp [obtainPropFromShadowNode]
    by_cases h2 : propName = "height"
    · subst h2; simp [obtainPropFromShadowNode]
    by_cases h3 : propName = "top"
    · subst h3; simp [obtainPropFromShadowNode]
    by_cases h4 : propName = "left"
    · subst h4; simp [obtainPropFromShadowNode]
    by_cases h5 : propName = "opacity"
    · subst h5; simp [obtainPropFromShadowNode]
    by_cases h6 : propName = "zIndex"
    · subst h6
      cases hz : node.zIndex <;> simp [obtainPropFromShadowNode, hz]
    by_cases h7 : propName = "backgroundColor"
    · subst h7; simp [obtainPropFromShadowNode, hc]
    simp [obtainPropFromShadowNode, h1, h2, h3, h4, h5, h6, h7]
  · intro hz
    simp [obtainPropFromShadowNode, hz]
  · intro e he
    by_cases h1 : propName = "width"
    · subst h1; simp [obtainPropFromShadowNode] at he
    by_cases h2 : propName = "height"
    · subst h2; simp [obtainPropFromShadowNode] at he
    by_cases h3 : propName = "top"
    · subst h3; simp [obtainPropFromShadowNode] at he
    by_cases h4 : propName = "left"
    · subst h4; simp [obtainPropFromShadowNode] at he
    by_cases h5 : propName = "opacity"
    · subst h5; simp [obtainPropFromShadowNode] at he
    by_cases h6 : propName = "zIndex"
    · subst h6
      cases hz : node.zIndex <;> simp [obtainPropFromShadowNode, hz] at he
      exact he.symm
    by_cases h7 : propName = "backgroundColor"
    · subst h7; simp [obtainPropFromShadowNode, hc] at he
    simp [obtainPropFromShadowNode, h1, h2, h3, h4, h5, h6, h7] at he
    exact he.symm


/-- C22: the step of `handleUpdatesAndEnterings` for an Update whose tag has a
layout animation configured and whose geometry changed appends nothing to the
filtered batch, records the old view of the Update for later reparenting (and
nothing else), does not call the manager, and schedules the start of a layout
animation, for the Update with its effective parent tag, exactly when the
effective parent tag (the moved-views entry of the tag when it is moved,
otherwise the parent tag of the mutation) differs from -1; otherwise it
schedules nothing. -/
theorem handleMutation_layout_update (mgr : Manager) (movedViews : Tag → Option Tag)
    (sid : SurfaceId) (l : UpdLoop) (u : ShadowViewMutation) (hu : u.type = .Update)
    (hcfg : mgr.hasLayoutAnimation l.s.managerLog u.oldChildShadowView.tag .LAYOUT = true)
    (hch : hasLayoutChanged u = true) :
    (handleMutation mgr movedViews sid l u).filteredMutations = l.filteredMutations ∧
    (handleMutation mgr movedViews sid l u).oldShadowViewsForReparentings
      u.oldChildShadowView.tag = some u.oldChildShadowView ∧
    (∀ t, t ≠ u.oldChildShadowView.tag →
      (handleMutation mgr movedViews sid l u).oldShadowViewsForReparentings t =
        l.oldShadowViewsForReparentings t) ∧
    (handleMutation mgr movedViews sid l u).s.managerLog = l.s.managerLog ∧
    (handleMutation mgr movedViews sid l u).s.layoutAnimations = l.s.layoutAnimations ∧
    (effectiveParent movedViews u ≠ -1 →
      (handleMutation mgr movedViews sid l u).s.uiQueue = l.s.uiQueue ++
        [UITask.layout u.oldChildShadowView.tag
          { u with parentTag := effectiveParent movedViews u }]) ∧
    (effectiveParent movedViews u = -1 →
      (handleMutation mgr movedViews sid l u).s.uiQueue = l.s.uiQueue) := by
  have hw := maybeUpdateWindowDimensions_frame l.s u sid
  unfold handleMutation
  simp only [hu, handleUpdate, hw.1, hw.2.2.1, reduceCtorEq, or_self, if_false, hcfg, hch]
  unfold effectiveParent
  cases hm : movedViews u.oldChildShadowView.tag with
  | none =>
    by_cases hp : u.parentTag = -1
    · simp [hp, hw.1, hw.2.1, hw.2.2.1]
      intro t ht
      simp [Function.update_noteq ht]
    · simp [hp, hw.1, hw.2.1, hw.2.2.1, startLayoutAnimation, State.schedule]
      refine ⟨fun t ht => by simp [Function.update_noteq ht], ?_⟩
      cases u
      simp_all
  | some np =>
    by_cases hp : np = -1
    · simp [hp, hw.1, hw.2.1, hw.2.2.1]
      intro t ht
      simp [Function.update_noteq ht]
    · simp [hp, hw.1, hw.2.1, hw.2.2.1, startLayoutAnimation, State.schedule]
      intro t ht
      simp [Function.update_noteq ht]

/-- Witness of C22: in a fresh engine with a layout animation configured for view
7, the Update that moves view 7 under parent 1 schedules the start of its
layout animation and is withheld. -/
theorem handleMutation_layout_update_witness :
    (handleMutation (layoutAndEnteringFor 7) (fun _ => none) 1
      { s := State.fresh, filteredMutations := [], oldShadowViewsForReparentings := fun _ => none }
      (UpdateMutation (sampleView 7) (shiftedView 7 10) 1)).filteredMutations = [] ∧
    (handleMutation (layoutAndEnteringFor 7) (fun _ => none) 1
      { s := State.fresh, filteredMutations := [], oldShadowViewsForReparentings := fun _ => none }
      (UpdateMutation (sampleView 7) (shiftedView 7 10) 1)).s.uiQueue =
      [] ++ [UITask.layout 7 { UpdateMutation (sampleView 7) (shiftedView 7 10) 1 with
        parentTag := 1 }] :=
  have h := handleMutation_layout_update (layoutAndEnteringFor 7) (fun _ => none) 1
    { s := State.fresh, filteredMutations := [], oldShadowViewsForReparentings := fun _ => none }
    (UpdateMutation (sampleView 7) (shiftedView 7 10) 1) rfl (by decide) (by decide)
  ⟨h.1, h.2.2.2.2.2.1 (by decide)⟩
theorem SameShape.shape_refl (x : Node) : SameShape x x := ⟨rfl, rfl, rfl, rfl, rfl⟩

theorem SameShape.shape_trans {x y z : Node} (h1 : SameShape x y) (h2 : SameShape y z) :
    SameShape x z :=
  ⟨h1.1.trans h2.1, h1.2.1.trans h2.2.1, h1.2.2.1.trans h2.2.2.1,
    h1.2.2.2.1.trans h2.2.2.2.1, h1.2.2.2.2.trans h2.2.2.2.2⟩

theorem SameShape.shape_modify (s : State) (p : Ptr) (f : Node → Node)
    (hf : ∀ x, SameShape (f x) x) (z : Ptr) :
    SameShape ((s.modifyNode p f).heap z) (s.heap z) := by
  by_cases hz : z = p
  · subst hz
    simpa [State.modifyNode, State.setNode, State.node] using hf (s.heap z)
  · simp only [State.modifyNode, State.setNode, Function.update_noteq hz]
    exact SameShape.shape_refl _

theorem foldl_modify_shape (f : Ptr → Node → Node) (hf : ∀ u x, SameShape (f u x) x) :
    ∀ (cs : List Ptr) (s : State),
      (∀ z, SameShape ((cs.foldl (fun acc sub => acc.modifyNode sub (f sub)) s).heap z)
        (s.heap z)) ∧
      (cs.foldl (fun acc sub => acc.modifyNode sub (f sub)) s).nodeForTag = s.nodeForTag ∧
      (cs.foldl (fun acc sub => acc.modifyNode sub (f sub)) s).next = s.next ∧
      (cs.foldl (fun acc sub => acc.modifyNode sub (f sub)) s).deadNodes = s.deadNodes := by
  intro cs
  induction cs with
  | nil => intro s; exact ⟨fun z => SameShape.shape_refl _, rfl, rfl, rfl⟩
  | cons c cs ih =>
    intro s
    simp only [List.foldl_cons]
    obtain ⟨h1, h2, h3, h4⟩ := ih (s.modifyNode c (f c))
    exact ⟨fun z => (h1 z).shape_trans (SameShape.shape_modify s c (f c) (hf c) z),
      by rw [h2]; rfl, by rw [h3]; rfl, by rw [h4]; rfl⟩

/-- The node built by `makeMutationNode` and the nodes it leaves behind. -/
theorem makeMutationNode_shape (s : State) (mutation : ShadowViewMutation)
    (node : Option Ptr) :
    (makeMutationNode s mutation node).1 = s.next ∧
    (makeMutationNode s mutation node).2.next = s.next + 1 ∧
    (makeMutationNode s mutation node).2.deadNodes = s.deadNodes ∧
    (makeMutationNode s mutation node).2.nodeForTag = s.nodeForTag ∧
    (∀ q, q ≠ s.next → node ≠ some q →
      SameShape ((makeMutationNode s mutation node).2.heap q) (s.heap q)) ∧
    (∀ q, q ≠ s.next → node = some q →
      SameShape ((makeMutationNode s mutation node).2.heap q)
        { s.heap q with children := [], unflattenedChildren := [] }) ∧
    SameShape ((makeMutationNode s mutation node).2.heap s.next)
      { plainNode (match node with
          | none => mutation.oldChildShadowView.tag
          | some p => (s.heap p).tag) with
        isMutation := true, mutation := mutation,
        children := (match node with
          | none => []
          | some p => (s.heap p).children),
        unflattenedChildren := (match node with
          | none => []
          | some p => (s.heap p).unflattenedChildren) } := by
  cases node with
  | none =>
    refine ⟨rfl, rfl, rfl, rfl, fun q hq _ => ?_, fun q _ h => by simp at h, ?_⟩
    · simp only [makeMutationNode, State.alloc, Function.update_noteq hq]
      exact SameShape.shape_refl _
    · simp only [makeMutationNode, State.alloc, Function.update_same]
      exact ⟨rfl, rfl, rfl, rfl, rfl⟩
  | some p =>
    obtain ⟨B, hB⟩ : ∃ B, B = ((s.modifyNode p (fun n =>
        { n with children := [], unflattenedChildren := [] })).alloc
        { plainNode (s.node p).tag with
          children := (s.node p).children, unflattenedChildren := (s.node p).unflattenedChildren,
          isMutation := true, mutation := mutation }).2 := ⟨_, rfl⟩
    obtain ⟨k1, k2, k3, k4⟩ := foldl_modify_shape
      (fun _ x => { x with parent := s.next }) (fun _ _ => ⟨rfl, rfl, rfl, rfl, rfl⟩)
      (s.node p).children B
    obtain ⟨h1, h2, h3, h4⟩ := foldl_modify_shape
      (fun _ x => { x with unflattenedParent := s.next }) (fun _ _ => ⟨rfl, rfl, rfl, rfl, rfl⟩)
      (s.node p).unflattenedChildren
      ((s.node p).children.foldl
        (fun acc sub => acc.modifyNode sub (fun x => { x with parent := s.next })) B)
    have hR : (makeMutationNode s mutation (some p)).2 =
        (s.node p).unflattenedChildren.foldl
          (fun acc sub => acc.modifyNode sub (fun x => { x with unflattenedParent := s.next }))
          ((s.node p).children.foldl
            (fun acc sub => acc.modifyNode sub (fun x => { x with parent := s.next })) B) := by
      rw [hB]; rfl
    have hBn : B.next = s.next + 1 := by rw [hB]; rfl
    have hBd : B.deadNodes = s.deadNodes := by rw [hB]; rfl
    have hBt : B.nodeForTag = s.nodeForTag := by rw [hB]; rfl
    have hBnew : B.heap s.next = { plainNode (s.node p).tag with
          children := (s.node p).children, unflattenedChildren := (s.node p).unflattenedChildren,
          isMutation := true, mutation := mutation } := by
      rw [hB]
      simp [State.alloc, State.modifyNode, State.setNode]
    have hBold : ∀ q, q ≠ s.next → B.heap q =
        (s.modifyNode p (fun n => { n with children := [], unflattenedChildren := [] })).heap q := by
      intro q hq
      rw [hB]
      simp only [State.alloc, State.modifyNode, State.setNode]
      rw [Function.update_noteq hq]
    refine ⟨rfl, ?_, ?_, ?_, fun q hq hnp => ?_, fun q hq hp => ?_, ?_⟩
    · rw [hR, h3, k3, hBn]
    · rw [hR, h4, k4, hBd]
    · rw [hR, h2, k2, hBt]
    · rw [hR]
      refine ((h1 q).shape_trans (k1 q)).shape_trans ?_
      rw [hBold q hq]
      have hqp : q ≠ p := fun h => hnp (by rw [h])
      simp only [State.modifyNode, State.setNode, Function.update_noteq hqp]
      exact SameShape.shape_refl _
    · rw [hR]
      refine ((h1 q).shape_trans (k1 q)).shape_trans ?_
      rw [hBold q hq]
      have hqp : q = p := (Option.some.inj hp).symm
      subst hqp
      simp only [State.modifyNode, State.setNode, State.node, Function.update_same]
      exact SameShape.shape_refl _
    · rw [hR]
      refine ((h1 _).shape_trans (k1 _)).shape_trans ?_
      rw [hBnew]
      exact ⟨rfl, rfl, rfl, rfl, rfl⟩
theorem updateIndexForMutation_keeps (s : State) (m : ShadowViewMutation) :
    (updateIndexForMutation s m).type = m.type ∧
    (updateIndexForMutation s m).parentTag = m.parentTag ∧
    (updateIndexForMutation s m).oldChildShadowView = m.oldChildShadowView ∧
    (updateIndexForMutation s m).newChildShadowView = m.newChildShadowView := by
  rw [updateIndexForMutation_fields]
  exact ⟨rfl, rfl, rfl, rfl⟩

/-- What the body of the reverse scan does for a Remove, in any engine state: the
built node is the next pointer, a plain node is allocated after it when the
parent tag is unknown, and the other nodes keep their shape but for the node
whose children the built node adopts. -/
theorem parseRemove_gen (a : ParseAcc) (m m1 : ShadowViewMutation)
    (hm1 : m1 = updateIndexForMutation a.s m) :
    (parseRemove a m).mutationNodes = a.mutationNodes ++ [a.s.next] ∧
    (parseRemove a m).unflattenedChildrenForTag =
      pushChild m1.parentTag a.s.next a.unflattenedChildrenForTag ∧
    (parseRemove a m).childrenForTag = pushChild m1.parentTag a.s.next a.childrenForTag ∧
    (parseRemove a m).deletedViews = a.deletedViews ∧
    (parseRemove a m).s.deadNodes = a.s.deadNodes ∧
    (parseRemove a m).s.next =
      (if (a.s.nodeForTag m1.parentTag).isSome = true then a.s.next + 1 else a.s.next + 2) ∧
    (parseRemove a m).s.nodeForTag =
      (if (a.s.nodeForTag m1.parentTag).isSome = true
        then Function.update a.s.nodeForTag m1.oldChildShadowView.tag (some a.s.next)
        else Function.update
          (Function.update a.s.nodeForTag m1.oldChildShadowView.tag (some a.s.next))
          m1.parentTag (some (a.s.next + 1))) ∧
    (∀ z, SameShape ((parseRemove a m).s.heap z)
      (if z = a.s.next + 1 ∧ a.s.nodeForTag m1.parentTag = none then plainNode m1.parentTag
        else (makeMutationNode a.s m1 (a.s.nodeForTag m1.oldChildShadowView.tag)).2.heap z)) := by
  obtain ⟨mv, hmv⟩ : ∃ mv : Bool, mv = !a.deletedViews.contains m1.oldChildShadowView.tag :=
    ⟨_, rfl⟩
  obtain ⟨k1, k2, k3, k4, _⟩ :=
    makeMutationNode_shape a.s m1 (a.s.nodeForTag m1.oldChildShadowView.tag)
  obtain ⟨mk, hmk⟩ : ∃ mk, mk = makeMutationNode a.s m1
      (a.s.nodeForTag m1.oldChildShadowView.tag) := ⟨_, rfl⟩
  rw [← hmk] at k1 k2 k3 k4
  rw [← hmk]
  have hlists : (parseRemove a m).mutationNodes = a.mutationNodes ++ [a.s.next] ∧
      (parseRemove a m).unflattenedChildrenForTag =
        pushChild m1.parentTag a.s.next a.unflattenedChildrenForTag ∧
      (parseRemove a m).childrenForTag = pushChild m1.parentTag a.s.next a.childrenForTag ∧
      (parseRemove a m).deletedViews = a.deletedViews := by
    simp only [parseRemove, ← hm1, ← hmk, k1]
    exact ⟨trivial, trivial, trivial, trivial⟩
  refine ⟨hlists.1, hlists.2.1, hlists.2.2.1, hlists.2.2.2, ?_⟩
  obtain ⟨tg, htg⟩ : ∃ tg, tg = m1.oldChildShadowView.tag := ⟨_, rfl⟩
  obtain ⟨S1, hS1⟩ : ∃ S1 : State, S1 = if mv = true then
      mk.2.modifyNode a.s.next (fun x => { x with state := .MOVED }) else mk.2 := ⟨_, rfl⟩
  have hS1tab : S1.nodeForTag = mk.2.nodeForTag := by rw [hS1]; split <;> rfl
  have hS1next : S1.next = mk.2.next := by rw [hS1]; split <;> rfl
  have hS1dead : S1.deadNodes = mk.2.deadNodes := by rw [hS1]; split <;> rfl
  have hS1F : ∀ z, SameShape (S1.heap z) (mk.2.heap z) := by
    intro z
    rw [hS1]
    split
    · exact SameShape.shape_modify mk.2 a.s.next (fun x => { x with state := .MOVED })
        (fun _ => ⟨rfl, rfl, rfl, rfl, rfl⟩) z
    · exact SameShape.shape_refl _
  obtain ⟨tab, htabdef0⟩ : ∃ tab, tab = Function.update S1.nodeForTag tg (some a.s.next) :=
    ⟨_, rfl⟩
  have htabdef : tab = Function.update a.s.nodeForTag tg (some a.s.next) := by
    rw [htabdef0, hS1tab, k4]
  obtain ⟨S2, hS2⟩ : ∃ S2 : State, S2 = { S1 with nodeForTag := tab } := ⟨_, rfl⟩
  have hS2heap : S2.heap = S1.heap := by rw [hS2]
  have hS2next : S2.next = a.s.next + 1 := by rw [hS2]; exact hS1next.trans k2
  have hS2tab : S2.nodeForTag = tab := by rw [hS2]
  have hS2dead : S2.deadNodes = a.s.deadNodes := by rw [hS2]; exact hS1dead.trans k3
  rw [← htg]
  cases hpar : a.s.nodeForTag m1.parentTag with
  | some p1 =>
    have hR : (parseRemove a m).s = S2.modifyNode a.s.next
        (fun x => { x with parent := p1, unflattenedParent := p1 }) := by
      rw [hS2, htabdef0, hS1, hmv, htg]
      simp only [parseRemove, ← hm1, ← hmk, k1, hpar]
      try rfl
    rw [hR]
    refine ⟨hS2dead, ?_, ?_, fun z => ?_⟩
    · simp only [Option.isSome_some, if_true]; exact hS2next
    · simp only [Option.isSome_some, if_true]; rw [← htabdef]; exact hS2tab
    · have hno : ¬ (z = a.s.next + 1 ∧ (some p1 : Option Ptr) = none) := by simp
      rw [if_neg hno]
      refine (SameShape.shape_modify S2 a.s.next
        (fun x => { x with parent := p1, unflattenedParent := p1 })
        (fun _ => ⟨rfl, rfl, rfl, rfl, rfl⟩) z).shape_trans ?_
      rw [hS2heap]
      exact hS1F z
  | none =>
    obtain ⟨al, hal⟩ : ∃ al, al = S2.alloc (plainNode m1.parentTag) := ⟨_, rfl⟩
    obtain ⟨tab2, htab2⟩ : ∃ tab2, tab2 = Function.update al.2.nodeForTag m1.parentTag
        (some al.1) := ⟨_, rfl⟩
    obtain ⟨S2b, hS2b⟩ : ∃ S2b : State, S2b = { al.2 with nodeForTag := tab2 } := ⟨_, rfl⟩
    have hal1 : al.1 = a.s.next + 1 := by rw [hal]; exact hS2next
    have hR : (parseRemove a m).s = S2b.modifyNode a.s.next
        (fun x => { x with parent := al.1, unflattenedParent := al.1 }) := by
      rw [hS2b, htab2, hal, hS2, htabdef0, hS1, hmv, htg]
      simp only [parseRemove, ← hm1, ← hmk, k1, hpar]
      try rfl
    have hheap : ∀ z, z ≠ a.s.next + 1 → S2b.heap z = S1.heap z := by
      intro z hz
      rw [hS2b, hal, ← hS2heap]
      simp only [State.alloc, hS2next, Function.update_noteq hz]
    have hheap1 : S2b.heap (a.s.next + 1) = plainNode m1.parentTag := by
      rw [hS2b, hal]
      simp only [State.alloc, hS2next, Function.update_same]
    rw [hR]
    refine ⟨?_, ?_, ?_, fun z => ?_⟩
    · show S2b.deadNodes = _
      rw [hS2b, hal]
      exact hS2dead
    · simp only [Option.isSome_none, Bool.false_eq_true, if_false]
      show S2b.next = _
      rw [hS2b, hal]
      simp only [State.alloc, hS2next]
    · simp only [Option.isSome_none, Bool.false_eq_true, if_false]
      show S2b.nodeForTag = _
      rw [hS2b, htab2, hal1, hal, ← htabdef]
      simp only [State.alloc, hS2tab]
    · refine (SameShape.shape_modify S2b a.s.next
        (fun x => { x with parent := al.1, unflattenedParent := al.1 })
        (fun _ => ⟨rfl, rfl, rfl, rfl, rfl⟩) z).shape_trans ?_
      by_cases hz : z = a.s.next + 1
      · rw [if_pos ⟨hz, rfl⟩, hz, hheap1]
        exact SameShape.shape_refl _
      · have hno : ¬ (z = a.s.next + 1 ∧ (none : Option Ptr) = none) := fun h => hz h.1
        rw [if_neg hno, hheap z hz]
        exact hS1F z
theorem SameButOld.old_fields {x y : Node} (h : SameButOld x y) :
    x.isMutation = y.isMutation ∧ x.tag = y.tag ∧ x.state = y.state ∧
    x.children = y.children ∧ x.unflattenedChildren = y.unflattenedChildren ∧
    x.parent = y.parent ∧ x.unflattenedParent = y.unflattenedParent ∧
    x.mutation.type = y.mutation.type ∧ x.mutation.parentTag = y.mutation.parentTag ∧
    x.mutation.index = y.mutation.index ∧
    x.mutation.newChildShadowView = y.mutation.newChildShadowView := by
  unfold SameButOld at h
  refine ⟨?_, ?_, ?_, ?_, ?_, ?_, ?_, ?_, ?_, ?_, ?_⟩ <;> (rw [h])

/-- A step of the reverse scan for a mutation that is not a Remove leaves the
collected lists, the lookup table and the nodes as they are, but for the old
view of the mutation of one node. -/
theorem parseStep_other (a : ParseAcc) (m : ShadowViewMutation) (h : m.type ≠ .Remove) :
    (parseStep a m).mutationNodes = a.mutationNodes ∧
    (parseStep a m).unflattenedChildrenForTag = a.unflattenedChildrenForTag ∧
    (parseStep a m).childrenForTag = a.childrenForTag ∧
    (parseStep a m).s.nodeForTag = a.s.nodeForTag ∧
    (parseStep a m).s.next = a.s.next ∧
    (parseStep a m).s.deadNodes = a.s.deadNodes ∧
    ∀ z, SameButOld ((parseStep a m).s.heap z) (a.s.heap z) := by
  have hrefl : ∀ x : Node, SameButOld x x := fun x => by unfold SameButOld; rfl
  have hmod : ∀ (p : Ptr) (v : ShadowView) (z : Ptr),
      SameButOld ((a.s.modifyNode p (fun x =>
        { x with mutation := { x.mutation with oldChildShadowView := v } })).heap z)
        (a.s.heap z) := by
    intro p v z
    by_cases hz : z = p
    · subst hz
      simp only [State.modifyNode, State.setNode, State.node, Function.update_same]
      unfold SameButOld
      rfl
    · simp only [State.modifyNode, State.setNode, Function.update_noteq hz]
      exact hrefl _
  cases hty : m.type with
  | Remove => exact absurd hty h
  | Delete =>
    have e : parseStep a m =
        { a with deletedViews := m.oldChildShadowView.tag :: a.deletedViews } := by
      simp [parseStep, hty]
    rw [e]
    exact ⟨rfl, rfl, rfl, rfl, rfl, rfl, fun z => hrefl _⟩
  | Insert =>
    have e : parseStep a m = a := by simp [parseStep, hty]
    rw [e]
    exact ⟨rfl, rfl, rfl, rfl, rfl, rfl, fun z => hrefl _⟩
  | Create =>
    have e : parseStep a m = a := by simp [parseStep, hty]
    rw [e]
    exact ⟨rfl, rfl, rfl, rfl, rfl, rfl, fun z => hrefl _⟩
  | Update =>
    rcases parseStep_forms a m with e | e | e | ⟨p, e⟩
    · have h1 : (parseStep a m).mutationNodes = a.mutationNodes :=
        parseStep_nodes_of_ne a m h
      have h2 := (parseRemove_gen a m _ rfl).1
      rw [e, h2] at h1
      exact absurd h1 (by simp)
    · rw [e]
      exact ⟨rfl, rfl, rfl, rfl, rfl, rfl, fun z => hrefl _⟩
    · rw [e]
      exact ⟨rfl, rfl, rfl, rfl, rfl, rfl, fun z => hrefl _⟩
    · rw [e]
      exact ⟨rfl, rfl, rfl, rfl, rfl, rfl, fun z => hmod _ _ z⟩

theorem parseStep_remove (a : ParseAcc) (m : ShadowViewMutation) (h : m.type = .Remove) :
    parseStep a m = parseRemove a m := by
  simp [parseStep, h]

theorem listed_pushChild_mem (k : Tag) (c z : Ptr) (l : List (Tag × List Ptr))
    (hz : z ∈ listed (pushChild k c l)) : z = c ∨ z ∈ listed l := by
  have := (pushChild_perm k c l).mem_iff.mp hz
  simpa using this

theorem inList_listed {k : Tag} {z : Ptr} {l : List (Tag × List Ptr)} (h : InList k z l) :
    z ∈ listed l := by
  obtain ⟨e, he, _, hz⟩ := h
  induction l with
  | nil => cases he
  | cons e0 l ih =>
    simp only [listed, List.mem_append]
    rcases List.mem_cons.mp he with h1 | h1
    · left; rw [← h1]; exact hz
    · right; exact ih h1

theorem scanG_init (s0 : State) (hs : ∀ k p, s0.nodeForTag k = some p → p < s0.next) :
    ScanG s0 [] (scanResult s0 []) := by
  refine ⟨hs, fun k p hp => ?_, fun m hm => absurd hm (List.not_mem_nil _), fun k hk => hk,
    fun z hz => absurd hz (List.not_mem_nil _), rfl,
    fun z hz => absurd hz (List.not_mem_nil _), List.nodup_nil⟩
  constructor
  · intro h
    right
    exact ⟨p, hp, h⟩
  · rintro (⟨m, hm, _⟩ | ⟨p0, hp0, h⟩)
    · cases hm
    · have hp' : s0.nodeForTag k = some p := hp
      rw [hp'] at hp0
      cases hp0
      exact h

theorem parseStep_scanG (s0 : State) (sc : ShadowViewMutationList) (a : ParseAcc)
    (m : ShadowViewMutation) (hJ : ScanG s0 sc a)
    (hne : m.type = .Remove → m.parentTag ≠ m.oldChildShadowView.tag) :
    ScanG s0 (m :: sc) (parseStep a m) := by
  by_cases hty : m.type = .Remove
  · -- a Remove
    obtain ⟨m1, hm1⟩ : ∃ m1, m1 = updateIndexForMutation a.s m := ⟨_, rfl⟩
    obtain ⟨u1, u2, u3, _⟩ := updateIndexForMutation_keeps a.s m
    rw [← hm1] at u1 u2 u3
    have hne1 : m1.parentTag ≠ m1.oldChildShadowView.tag := by
      rw [u2, u3]; exact hne hty
    obtain ⟨g1, g2, _, _, _, g6, g7, g8⟩ := parseRemove_gen a m m1 hm1
    obtain ⟨_, _, _, _, k5, k6, k7⟩ :=
      makeMutationNode_shape a.s m1 (a.s.nodeForTag m1.oldChildShadowView.tag)
    rw [parseStep_remove a m hty]
    have hnext : a.s.next < (parseRemove a m).s.next := by
      rw [g6]
      split
      · exact Nat.lt_succ_self _
      · exact Nat.lt_add_of_pos_right (by decide)
    -- old nodes keep their kind and the parent tag of their mutation
    have hold : ∀ z, z < a.s.next →
        ((parseRemove a m).s.heap z).isMutation = (a.s.heap z).isMutation ∧
        ((parseRemove a m).s.heap z).mutation = (a.s.heap z).mutation := by
      intro z hz
      have hno : ¬ (z = a.s.next + 1 ∧ a.s.nodeForTag m1.parentTag = none) :=
        fun h => absurd hz (by rw [h.1]; exact Nat.not_lt.mpr (Nat.le_succ _))
      have h8 := g8 z
      rw [if_neg hno] at h8
      by_cases hzn : a.s.nodeForTag m1.oldChildShadowView.tag = some z
      · have h6 := k6 z (Nat.ne_of_lt hz) hzn
        exact ⟨h8.1.trans h6.1, h8.2.1.trans h6.2.1⟩
      · have h5 := k5 z (Nat.ne_of_lt hz) hzn
        exact ⟨h8.1.trans h5.1, h8.2.1.trans h5.2.1⟩
    have hnew : ((parseRemove a m).s.heap a.s.next).isMutation = true ∧
        ((parseRemove a m).s.heap a.s.next).mutation = m1 := by
      have hno : ¬ (a.s.next = a.s.next + 1 ∧ a.s.nodeForTag m1.parentTag = none) :=
        fun h => absurd h.1 (Nat.ne_of_lt (Nat.lt_succ_self _))
      have h8 := g8 a.s.next
      rw [if_neg hno] at h8
      exact ⟨h8.1.trans k7.1, h8.2.1.trans k7.2.1⟩
    have hplain : a.s.nodeForTag m1.parentTag = none →
        ((parseRemove a m).s.heap (a.s.next + 1)).isMutation = false := by
      intro hp
      have h8 := g8 (a.s.next + 1)
      rw [if_pos ⟨rfl, hp⟩] at h8
      exact h8.1
    -- the lookup table after the step
    have htab : ∀ k p, (parseRemove a m).s.nodeForTag k = some p →
        (k = m1.oldChildShadowView.tag ∧ p = a.s.next) ∨
        (k = m1.parentTag ∧ a.s.nodeForTag m1.parentTag = none ∧ p = a.s.next + 1) ∨
        (k ≠ m1.oldChildShadowView.tag ∧ a.s.nodeForTag k = some p) := by
      intro k p hp
      rw [g7] at hp
      cases hpar : a.s.nodeForTag m1.parentTag with
      | some p1 =>
        simp only [hpar, Option.isSome_some, if_true] at hp
        by_cases hk : k = m1.oldChildShadowView.tag
        · subst hk
          rw [Function.update_same] at hp
          left; exact ⟨rfl, (Option.some.inj hp).symm⟩
        · rw [Function.update_noteq hk] at hp
          right; right; exact ⟨hk, hp⟩
      | none =>
        simp only [hpar, Option.isSome_none, Bool.false_eq_true, if_false] at hp
        by_cases hk2 : k = m1.parentTag
        · subst hk2
          rw [Function.update_same] at hp
          right; left; exact ⟨rfl, rfl, (Option.some.inj hp).symm⟩
        · rw [Function.update_noteq hk2] at hp
          by_cases hk : k = m1.oldChildShadowView.tag
          · subst hk
            rw [Function.update_same] at hp
            left; exact ⟨rfl, (Option.some.inj hp).symm⟩
          · rw [Function.update_noteq hk] at hp
            right; right; exact ⟨hk, hp⟩
    have hsome : ∀ k, (a.s.nodeForTag k).isSome = true →
        ((parseRemove a m).s.nodeForTag k).isSome = true := by
      intro k hk
      rw [g7]
      split
      · by_cases hk1 : k = m1.oldChildShadowView.tag
        · rw [hk1, Function.update_same]; rfl
        · rw [Function.update_noteq hk1]; exact hk
      · by_cases hk2 : k = m1.parentTag
        · rw [hk2, Function.update_same]; rfl
        · rw [Function.update_noteq hk2]
          by_cases hk1 : k = m1.oldChildShadowView.tag
          · rw [hk1, Function.update_same]; rfl
          · rw [Function.update_noteq hk1]; exact hk
    have htag : ((parseRemove a m).s.nodeForTag m1.oldChildShadowView.tag) = some a.s.next := by
      rw [g7]
      split
      · rw [Function.update_same]
      · rw [Function.update_noteq (Ne.symm hne1), Function.update_same]
    have hparent : ((parseRemove a m).s.nodeForTag m1.parentTag).isSome = true := by
      cases hpar : a.s.nodeForTag m1.parentTag with
      | some p1 => exact hsome _ (by rw [hpar]; rfl)
      | none =>
        rw [g7]
        simp only [hpar, Option.isSome_none, Bool.false_eq_true, if_false, Function.update_same,
          Option.isSome_some]
    refine ⟨?_, ?_, ?_, ?_, ?_, ?_, ?_, ?_⟩
    · -- tabB
      intro k p hp
      rcases htab k p hp with ⟨_, h⟩ | ⟨_, hnone, h⟩ | ⟨_, h⟩
      · rw [h]; exact hnext
      · rw [h, g6]
        simp [hnone]
      · exact lt_trans (hJ.tabB k p h) hnext
    · -- tabM
      intro k p hp
      rcases htab k p hp with ⟨hk, h⟩ | ⟨hk, hnone, h⟩ | ⟨hk, h⟩
      · rw [h, hnew.1]
        simp only [true_iff]
        left
        exact ⟨m, List.mem_cons_self _ _, hty, by rw [hk, u3]⟩
      · rw [h, hplain hnone]
        simp only [Bool.false_eq_true, false_iff, not_or, not_exists, not_and]
        constructor
        · intro m2 hm2 hty2 htg2
          rcases List.mem_cons.mp hm2 with h2 | h2
          · rw [h2, ← u3, hk] at htg2
            exact hne1 htg2.symm
          · have := hJ.tabP m2 h2 hty2
            rw [htg2, hk, hnone] at this
            exact absurd this (by simp)
        · intro p0 hp0
          have := hJ.tabS k (by rw [hp0]; rfl)
          rw [hk, hnone] at this
          exact absurd this (by simp)
      · rw [(hold p (hJ.tabB k p h)).1, hJ.tabM k p h]
        constructor
        · rintro (⟨m2, hm2, h2⟩ | h2)
          · left; exact ⟨m2, List.mem_cons_of_mem _ hm2, h2⟩
          · right; exact h2
        · rintro (⟨m2, hm2, hty2, htg2⟩ | h2)
          · rcases List.mem_cons.mp hm2 with h3 | h3
            · rw [h3, ← u3] at htg2
              exact absurd htg2.symm hk
            · left; exact ⟨m2, h3, hty2, htg2⟩
          · right; exact h2
    · -- tabP
      intro m2 hm2 hty2
      rcases List.mem_cons.mp hm2 with h2 | h2
      · rw [h2, ← u3, htag]; rfl
      · exact hsome _ (hJ.tabP m2 h2 hty2)
    · -- tabS
      intro k hk
      exact hsome k (hJ.tabS k hk)
    · -- nodes
      intro z hz
      rw [g1] at hz
      rcases List.mem_append.mp hz with h1 | h1
      · obtain ⟨n1, n2, n3, n4⟩ := hJ.nodes z h1
        obtain ⟨o1, o2⟩ := hold z n1
        rw [o1, o2, g2]
        exact ⟨lt_trans n1 hnext, n2, inList_pushChild_old _ _ _ _ _ n3, hsome _ n4⟩
      · rw [List.mem_singleton] at h1
        rw [h1, hnew.1, hnew.2, g2]
        exact ⟨hnext, rfl, inList_pushChild_new _ _ _, hparent⟩
    · -- parents
      rw [g1, List.map_append, List.reverse_cons, List.filter_append, List.map_append,
        ← hJ.parents]
      have e1 : a.mutationNodes.map (fun z => ((parseRemove a m).s.heap z).mutation.parentTag) =
          a.mutationNodes.map (fun z => (a.s.heap z).mutation.parentTag) := by
        apply List.map_congr_left
        intro z hz
        rw [(hold z (hJ.nodes z hz).1).2]
      rw [e1]
      congr 1
      simp [hty, hnew.2, u2]
    · -- listsB
      intro z hz
      rw [g2] at hz
      rcases listed_pushChild_mem _ _ _ _ hz with h1 | h1
      · rw [h1]; exact hnext
      · exact lt_trans (hJ.listsB z h1) hnext
    · -- listsN
      rw [g2]
      refine (pushChild_perm _ _ _).nodup_iff.mpr (List.nodup_cons.mpr ⟨fun h => ?_, hJ.listsN⟩)
      exact absurd (hJ.listsB _ h) (lt_irrefl _)
  · -- not a Remove
    obtain ⟨o1, o2, _, o4, o5, _, o7⟩ := parseStep_other a m hty
    have hmem : ∀ (P : ShadowViewMutation → Prop),
        (∃ m2 ∈ m :: sc, m2.type = .Remove ∧ P m2) ↔ ∃ m2 ∈ sc, m2.type = .Remove ∧ P m2 := by
      intro P
      constructor
      · rintro ⟨m2, hm2, h1, h2⟩
        rcases List.mem_cons.mp hm2 with h3 | h3
        · rw [h3] at h1; exact absurd h1 hty
        · exact ⟨m2, h3, h1, h2⟩
      · rintro ⟨m2, hm2, h⟩
        exact ⟨m2, List.mem_cons_of_mem _ hm2, h⟩
    refine ⟨?_, ?_, ?_, ?_, ?_, ?_, ?_, ?_⟩
    · intro k p hp
      rw [o4] at hp
      rw [o5]
      exact hJ.tabB k p hp
    · intro k p hp
      rw [o4] at hp
      rw [(o7 p).old_fields.1, hJ.tabM k p hp, hmem (fun m2 => m2.oldChildShadowView.tag = k)]
    · intro m2 hm2 hty2
      rw [o4]
      rcases List.mem_cons.mp hm2 with h3 | h3
      · rw [h3] at hty2; exact absurd hty2 hty
      · exact hJ.tabP m2 h3 hty2
    · intro k hk
      rw [o4]; exact hJ.tabS k hk
    · intro z hz
      rw [o1] at hz
      obtain ⟨n1, n2, n3, n4⟩ := hJ.nodes z hz
      obtain ⟨f1, _, _, _, _, _, _, _, f9, _⟩ := (o7 z).old_fields
      rw [o5, f1, f9, o2, o4]
      exact ⟨n1, n2, n3, n4⟩
    · rw [o1, List.reverse_cons, List.filter_append]
      have e1 : a.mutationNodes.map (fun z => ((parseStep a m).s.heap z).mutation.parentTag) =
          a.mutationNodes.map (fun z => (a.s.heap z).mutation.parentTag) := by
        apply List.map_congr_left
        intro z _
        exact (o7 z).old_fields.2.2.2.2.2.2.2.2.1
      rw [e1, hJ.parents]
      simp [hty]
    · intro z hz
      rw [o2] at hz
      rw [o5]
      exact hJ.listsB z hz
    · rw [o2]; exact hJ.listsN

theorem scanResult_scanG (s0 : State) (hs : ∀ k p, s0.nodeForTag k = some p → p < s0.next) :
    ∀ sc : ShadowViewMutationList,
      (∀ m ∈ sc, m.type = .Remove → m.parentTag ≠ m.oldChildShadowView.tag) →
      ScanG s0 sc (scanResult s0 sc) := by
  intro sc
  induction sc with
  | nil => intro _; exact scanG_init s0 hs
  | cons m sc ih =>
    intro h
    rw [scanResult_cons]
    exact parseStep_scanG s0 sc _ m (ih (fun m2 hm2 => h m2 (List.mem_cons_of_mem _ hm2)))
      (h m (List.mem_cons_self _ _))
theorem attachChildren_kept : ∀ (l : List (Tag × List Ptr)) (s : State),
    (∀ z, Kept ((attachChildren s l).heap z) (s.heap z)) ∧
    (attachChildren s l).nodeForTag = s.nodeForTag := by
  intro l
  induction l with
  | nil => intro s; exact ⟨fun z => Kept.kept_refl _, rfl⟩
  | cons e l ih =>
    intro s
    simp only [attachChildren, List.foldl_cons]
    cases hn : s.nodeForTag e.1 with
    | none => exact ih s
    | some parent =>
      obtain ⟨h1, h2⟩ := ih (e.2.foldl (fun acc2 child =>
        acc2.modifyNode child (fun x => { x with parent := parent }))
        (insertChildren s parent e.2))
      obtain ⟨f1, f2, _, _⟩ := foldl_modify_kept (fun _ x => { x with parent := parent })
        (fun _ _ => ⟨rfl, rfl, rfl, rfl, rfl, rfl⟩) e.2 (insertChildren s parent e.2)
      have f3 : ∀ z, Kept ((insertChildren s parent e.2).heap z) (s.heap z) := by
        intro z
        unfold insertChildren
        apply Kept.kept_modify
        intro x
        exact ⟨rfl, rfl, rfl, rfl, rfl, rfl⟩
      refine ⟨fun z => ((h1 z).kept_trans (f1 z)).kept_trans (f3 z), ?_⟩
      have h2' := h2
      simp only [attachChildren] at h2'
      rw [h2', f2]
      rfl

theorem insertUnflattenedChildren_unflattenedParent (s : State) (parent : Ptr) (cs : List Ptr)
    (x : Ptr) :
    ((insertUnflattenedChildren s parent cs).heap x).unflattenedParent =
      (s.heap x).unflattenedParent := by
  by_cases hx : x = parent
  · subst hx
    simp [insertUnflattenedChildren, State.modifyNode, State.setNode, State.node]
  · simp [insertUnflattenedChildren, State.modifyNode, State.setNode, State.node,
      Function.update_noteq hx]

theorem attachUnflattenedChildren_untouched : ∀ (l : List (Tag × List Ptr)) (s : State)
    (z : Ptr), z ∉ listed l →
    ((attachUnflattenedChildren s l).heap z).unflattenedParent =
      (s.heap z).unflattenedParent := by
  intro l
  induction l with
  | nil => intro s z _; rfl
  | cons e l ih =>
    intro s z hz
    simp only [listed, List.mem_append, not_or] at hz
    simp only [attachUnflattenedChildren, List.foldl_cons]
    cases hn : s.nodeForTag e.1 with
    | none => exact ih s z hz.2
    | some parent =>
      have h1 := ih (e.2.foldl (fun acc2 child =>
        acc2.modifyNode child (fun x => { x with unflattenedParent := parent }))
        (insertUnflattenedChildren s parent e.2)) z hz.2
      simp only [attachUnflattenedChildren] at h1
      rw [h1, (foldl_setParent parent e.2 _).2 z hz.1,
        insertUnflattenedChildren_unflattenedParent]

/-- After the loop over `unflattenedChildrenForTag`, a collected node points to the
node that the lookup table holds for the tag under which it was collected. -/
theorem attachUnflattenedChildren_unflattenedParent : ∀ (l : List (Tag × List Ptr))
    (s : State), (listed l).Nodup → ∀ e ∈ l, ∀ z ∈ e.2, ∀ par, s.nodeForTag e.1 = some par →
    ((attachUnflattenedChildren s l).heap z).unflattenedParent = par := by
  intro l
  induction l with
  | nil => intro s _ e he; cases he
  | cons e0 l ih =>
    intro s hnd e he z hz par hpar
    simp only [listed] at hnd
    have hnd2 : (listed l).Nodup := (List.nodup_append.mp hnd).2.1
    have hdisj : ∀ x, x ∈ e0.2 → x ∉ listed l := fun x hx hx2 =>
      (List.nodup_append.mp hnd).2.2 hx hx2
    rcases List.mem_cons.mp he with h0 | h0
    · -- the entry is the first one
      subst h0
      have e1 : attachUnflattenedChildren s (e :: l) = attachUnflattenedChildren
          (e.2.foldl (fun acc2 child =>
            acc2.modifyNode child (fun x => { x with unflattenedParent := par }))
            (insertUnflattenedChildren s par e.2)) l := by
        simp only [attachUnflattenedChildren, List.foldl_cons, hpar]
      rw [e1, attachUnflattenedChildren_untouched l _ z (hdisj z hz)]
      exact (foldl_setParent par e.2 _).1 z hz
    · -- the entry comes later
      simp only [attachUnflattenedChildren, List.foldl_cons]
      cases hn : s.nodeForTag e0.1 with
      | none =>
        have := ih s hnd2 e h0 z hz par hpar
        simpa only [attachUnflattenedChildren] using this
      | some parent =>
        have htab : (e0.2.foldl (fun acc2 child =>
            acc2.modifyNode child (fun x => { x with unflattenedParent := parent }))
            (insertUnflattenedChildren s parent e0.2)).nodeForTag = s.nodeForTag := by
          rw [foldl_modifyNode_nodeForTag]
          rfl
        have := ih _ hnd2 e h0 z hz par (by rw [htab]; exact hpar)
        simpa only [attachUnflattenedChildren] using this
/-- C24 (counterexample): with the removal of view 7 pending from an earlier
transaction (its node is a mutation node in the lookup table), the batch
[Remove(8 from parent 7), Delete(8)] holds no Remove that targets tag 7, yet
the node built for tag 8 is not a root; and in a fresh engine the node built
from the Remove of view 5 from parent 5 is a root although a Remove of the
batch targets its parent tag 5. -/
theorem parseRemoveMutations_roots_not_iff :
    ((parseRemoveMutations pendingExitState
        [RemoveMutation 7 (sampleView 8) 0, DeleteMutation (sampleView 8)]).mutationNodes = [3] ∧
      ((parseRemoveMutations pendingExitState
        [RemoveMutation 7 (sampleView 8) 0, DeleteMutation (sampleView 8)]).s.heap
          3).mutation = RemoveMutation 7 (sampleView 8) 0 ∧
      (∀ m ∈ [RemoveMutation 7 (sampleView 8) 0, DeleteMutation (sampleView 8)],
        ¬ (m.type = .Remove ∧ m.oldChildShadowView.tag = 7)) ∧
      (parseRemoveMutations pendingExitState
        [RemoveMutation 7 (sampleView 8) 0, DeleteMutation (sampleView 8)]).roots = []) ∧
    ((parseRemoveMutations State.fresh [RemoveMutation 5 (sampleView 5) 0]).mutationNodes = [1] ∧
      ((parseRemoveMutations State.fresh [RemoveMutation 5 (sampleView 5) 0]).s.heap
          1).mutation = RemoveMutation 5 (sampleView 5) 0 ∧
      (parseRemoveMutations State.fresh [RemoveMutation 5 (sampleView 5) 0]).roots = [1]) := by
  decide

/-- C24 (amended): in an engine state whose lookup table holds allocated nodes,
for every batch that removes no view from itself, the nodes built by
`parseRemoveMutations` are those of the Removes of the batch, in scan order,
and a built node is in the roots list if and only if no Remove of the batch
targets the parent tag of its mutation and the lookup table did not already
hold a mutation node for that tag; when the table holds no mutation node, as
in a fresh engine, a built node is a root if and only if no Remove of the
batch targets its parent tag. -/
theorem parseRemoveMutations_roots_iff (s : State) (batch : ShadowViewMutationList)
    (hs : ∀ k p, s.nodeForTag k = some p → p < s.next)
    (hne : ∀ m ∈ batch, m.type = .Remove → m.parentTag ≠ m.oldChildShadowView.tag) :
    (parseRemoveMutations s batch).mutationNodes.map
        (fun z => ((parseRemoveMutations s batch).s.heap z).mutation.parentTag) =
      (batch.reverse.filter (fun m => m.type = .Remove)).map (fun m => m.parentTag) ∧
    (∀ z ∈ (parseRemoveMutations s batch).roots, z ∈ (parseRemoveMutations s batch).mutationNodes) ∧
    (∀ z ∈ (parseRemoveMutations s batch).mutationNodes,
      (z ∈ (parseRemoveMutations s batch).roots ↔
        ¬ ((∃ m ∈ batch, m.type = .Remove ∧ m.oldChildShadowView.tag =
              ((parseRemoveMutations s batch).s.heap z).mutation.parentTag) ∨
          ∃ p0, s.nodeForTag ((parseRemoveMutations s batch).s.heap z).mutation.parentTag
              = some p0 ∧ (s.heap p0).isMutation = true))) ∧
    ((∀ k p, s.nodeForTag k = some p → (s.heap p).isMutation = false) →
      ∀ z ∈ (parseRemoveMutations s batch).mutationNodes,
        (z ∈ (parseRemoveMutations s batch).roots ↔
          ¬ ∃ m ∈ batch, m.type = .Remove ∧ m.oldChildShadowView.tag =
              ((parseRemoveMutations s batch).s.heap z).mutation.parentTag)) := by
  have hJ := scanResult_scanG s hs batch hne
  obtain ⟨a, ha⟩ : ∃ a, a = scanResult s batch := ⟨_, rfl⟩
  rw [← ha] at hJ
  obtain ⟨c1, c2⟩ := attachChildren_kept a.childrenForTag a.s
  obtain ⟨u1, u2, _⟩ := attachUnflattenedChildren_F4 a.unflattenedChildrenForTag
    (attachChildren a.s a.childrenForTag)
  have hPs : (parseRemoveMutations s batch).s = attachUnflattenedChildren
      (attachChildren a.s a.childrenForTag) a.unflattenedChildrenForTag := by
    rw [ha]; rfl
  have hPn : (parseRemoveMutations s batch).mutationNodes = a.mutationNodes := by
    rw [ha]; rfl
  have hPr : (parseRemoveMutations s batch).roots = a.mutationNodes.filter
      (fun p => !((parseRemoveMutations s batch).s.node
        ((parseRemoveMutations s batch).s.node p).unflattenedParent).isMutation) := by
    rw [ha]; rfl
  have hmut : ∀ z, ((parseRemoveMutations s batch).s.heap z).mutation = (a.s.heap z).mutation ∧
      ((parseRemoveMutations s batch).s.heap z).isMutation = (a.s.heap z).isMutation := by
    intro z
    rw [hPs]
    exact ⟨(u1 z).2.1.trans (c1 z).2.2.1, (u1 z).1.trans (c1 z).2.1⟩
  have hmain : ∀ z ∈ a.mutationNodes,
      (z ∈ (parseRemoveMutations s batch).roots ↔
        ¬ ((∃ m ∈ batch, m.type = .Remove ∧ m.oldChildShadowView.tag =
              ((parseRemoveMutations s batch).s.heap z).mutation.parentTag) ∨
          ∃ p0, s.nodeForTag ((parseRemoveMutations s batch).s.heap z).mutation.parentTag
              = some p0 ∧ (s.heap p0).isMutation = true)) := by
    intro z hz
    obtain ⟨_, _, ⟨e, he, hk, hze⟩, n4⟩ := hJ.nodes z hz
    obtain ⟨par, hpar⟩ := Option.isSome_iff_exists.mp n4
    have hpar1 : (attachChildren a.s a.childrenForTag).nodeForTag e.1 = some par := by
      rw [c2, hk]; exact hpar
    have hup := attachUnflattenedChildren_unflattenedParent a.unflattenedChildrenForTag
      (attachChildren a.s a.childrenForTag) hJ.listsN e he z hze par hpar1
    rw [← hPs] at hup
    rw [hPr, List.mem_filter]
    simp only [State.node, hup, (hmut par).2, (hmut z).1, hz, true_and, Bool.not_eq_true',
      Bool.not_eq_eq_eq_not, Bool.not_true]
    rw [← hJ.tabM _ par hpar]
    cases (a.s.heap par).isMutation <;> simp
  refine ⟨?_, ?_, ?_, ?_⟩
  · rw [hPn, ← hJ.parents]
    apply List.map_congr_left
    intro z _
    rw [(hmut z).1]
  · intro z hz
    rw [hPr] at hz
    rw [hPn]
    exact (List.mem_filter.mp hz).1
  · intro z hz
    rw [hPn] at hz
    exact hmain z hz
  · intro hplain z hz
    rw [hPn] at hz
    rw [hmain z hz]
    constructor
    · intro h h2
      exact h (Or.inl h2)
    · rintro h (h2 | ⟨p0, hp0, hm0⟩)
      · exact h h2
      · rw [hplain _ p0 hp0] at hm0
        exact absurd hm0 (by simp)

/-- Witness of C24: in a fresh engine, of the nodes built for the nested removal
of the views 5 > 6 > 7 from parent 1, some are roots and the condition on the
Removes of the batch decides which. -/
theorem parseRemoveMutations_roots_iff_witness :
    (∀ k p, State.fresh.nodeForTag k = some p → p < State.fresh.next) ∧
    (∀ m ∈ chainBatch, m.type = .Remove → m.parentTag ≠ m.oldChildShadowView.tag) ∧
    ∀ z ∈ (parseRemoveMutations State.fresh chainBatch).mutationNodes,
      (z ∈ (parseRemoveMutations State.fresh chainBatch).roots ↔
        ¬ ∃ m ∈ chainBatch, m.type = .Remove ∧ m.oldChildShadowView.tag =
            ((parseRemoveMutations State.fresh chainBatch).s.heap z).mutation.parentTag) :=
  ⟨(fun _ _ h => nomatch h), (by decide),
    (parseRemoveMutations_roots_iff State.fresh chainBatch (fun _ _ h => nomatch h)
      (by decide)).2.2.2 (fun _ _ h => nomatch h)⟩
/-- A step of the reverse scan puts no new pointer into a list of flattened
children: the lists are only moved from a node to the node that adopts them. -/
theorem parseStep_flat_entries (a : ParseAcc) (m : ShadowViewMutation) (q c : Ptr)
    (hc : c ∈ ((parseStep a m).s.heap q).children) : ∃ q1, c ∈ (a.s.heap q1).children := by
  by_cases hty : m.type = .Remove
  · rw [parseStep_remove a m hty] at hc
    obtain ⟨_, _, _, _, _, _, _, g8⟩ := parseRemove_gen a m _ rfl
    obtain ⟨_, _, _, _, k5, k6, k7⟩ := makeMutationNode_shape a.s (updateIndexForMutation a.s m)
      (a.s.nodeForTag (updateIndexForMutation a.s m).oldChildShadowView.tag)
    have h8 := (g8 q).2.2.2.1
    rw [h8] at hc
    split at hc
    · simp [plainNode] at hc
    · by_cases hq : q = a.s.next
      · rw [hq, k7.2.2.2.1] at hc
        cases hn : a.s.nodeForTag (updateIndexForMutation a.s m).oldChildShadowView.tag with
        | none => simp [hn] at hc
        | some p => simp only [hn] at hc; exact ⟨p, hc⟩
      · by_cases hn : a.s.nodeForTag (updateIndexForMutation a.s m).oldChildShadowView.tag
            = some q
        · rw [(k6 q hq hn).2.2.2.1] at hc
          simp at hc
        · rw [(k5 q hq hn).2.2.2.1] at hc
          exact ⟨q, hc⟩
  · obtain ⟨_, _, _, _, _, _, o7⟩ := parseStep_other a m hty
    rw [(o7 q).old_fields.2.2.2.1] at hc
    exact ⟨q, hc⟩

theorem parseStep_next_le (a : ParseAcc) (m : ShadowViewMutation) :
    a.s.next ≤ (parseStep a m).s.next := by
  by_cases hty : m.type = .Remove
  · rw [parseStep_remove a m hty, (parseRemove_gen a m _ rfl).2.2.2.2.2.1]
    split
    · exact Nat.le_succ _
    · exact Nat.le_add_right _ _
  · rw [(parseStep_other a m hty).2.2.2.2.1]

/-- Along the reverse scan from the state `s`, the lists of flattened children hold
only pointers they held in `s`, and the built nodes are new ones. -/
theorem scanResult_flat_entries (s : State) : ∀ sc : ShadowViewMutationList,
    (∀ q c, c ∈ ((scanResult s sc).s.heap q).children → ∃ q1, c ∈ (s.heap q1).children) ∧
    s.next ≤ (scanResult s sc).s.next ∧
    ∀ z ∈ (scanResult s sc).mutationNodes, s.next ≤ z ∧ z < (scanResult s sc).s.next := by
  intro sc
  induction sc with
  | nil =>
    exact ⟨fun q c hc => ⟨q, hc⟩, le_refl _, fun z hz => absurd hz (List.not_mem_nil _)⟩
  | cons m sc ih =>
    obtain ⟨h1, h2, h3⟩ := ih
    rw [scanResult_cons]
    have hle := parseStep_next_le (scanResult s sc) m
    refine ⟨fun q c hc => ?_, le_trans h2 hle, fun z hz => ?_⟩
    · obtain ⟨q1, hq1⟩ := parseStep_flat_entries _ m q c hc
      exact h1 q1 c hq1
    · rcases parseStep_mutationNodes (scanResult s sc) m with h | h
      · rw [h] at hz
        exact ⟨(h3 z hz).1, lt_of_lt_of_le (h3 z hz).2 hle⟩
      · rw [h] at hz
        rcases List.mem_append.mp hz with hz1 | hz1
        · exact ⟨(h3 z hz1).1, lt_of_lt_of_le (h3 z hz1).2 hle⟩
        · rw [List.mem_singleton] at hz1
          rw [hz1]
          refine ⟨h2, ?_⟩
          by_cases hty : m.type = .Remove
          · rw [parseStep_remove _ m hty, (parseRemove_gen _ m _ rfl).2.2.2.2.2.1]
            split
            · exact Nat.lt_succ_self _
            · exact Nat.lt_add_of_pos_right (by decide)
          · have := parseStep_nodes_of_ne (scanResult s sc) m hty
            rw [h] at this
            exact absurd this (by simp)

theorem scanResult_append (s : State) (pre post : ShadowViewMutationList) :
    scanResult s (pre ++ post) = pre.reverse.foldl parseStep (scanResult s post) := by
  simp [scanResult, List.foldl_append]

/-- C26 (counterexample): in a fresh engine, when the reverse scan of the batch
[Remove(7 from parent 1, index 1), Remove(6 from parent 1, index 0), Delete(7),
Delete(6)] reaches the Remove of view 7, the node of its sibling 6 is built
(node 1, registered for tag 6) but the list of siblings that
`updateIndexForMutation` scans under the parent (node 2) is empty, and the
Remove keeps its index 1; with the sibling of index 0 in the list the offset
would be 1. -/
theorem updateIndexForMutation_skips_scanned_sibling :
    (scanResult State.fresh
      [RemoveMutation 1 (sampleView 6) 0, DeleteMutation (sampleView 7),
        DeleteMutation (sampleView 6)]).mutationNodes = [1] ∧
    (scanResult State.fresh
      [RemoveMutation 1 (sampleView 6) 0, DeleteMutation (sampleView 7),
        DeleteMutation (sampleView 6)]).s.nodeForTag 6 = some 1 ∧
    (scanResult State.fresh
      [RemoveMutation 1 (sampleView 6) 0, DeleteMutation (sampleView 7),
        DeleteMutation (sampleView 6)]).s.nodeForTag 1 = some 2 ∧
    pendingIndices (scanResult State.fresh
      [RemoveMutation 1 (sampleView 6) 0, DeleteMutation (sampleView 7),
        DeleteMutation (sampleView 6)]).s 2 = [] ∧
    updateIndexForMutation (scanResult State.fresh
      [RemoveMutation 1 (sampleView 6) 0, DeleteMutation (sampleView 7),
        DeleteMutation (sampleView 6)]).s (RemoveMutation 1 (sampleView 7) 1) =
      RemoveMutation 1 (sampleView 7) 1 ∧
    ((scanResult State.fresh siblingBatch).s.heap 3).mutation =
      RemoveMutation 1 (sampleView 7) 1 ∧
    updateIndexLoop 1 [0] 0 (-1) 0 = 1 := by
  decide

/-- C26 (amended): when the reverse scan of a batch reaches a Remove `r`, the
node built for `r` holds `r` with the index that `updateIndexForMutation`
computes in the state reached after the mutations behind `r`; the list of
siblings scanned there holds only pending nodes that were attached by earlier
transactions, none of the nodes built during the current scan (which are
attached to their parents after the scan); so in an engine without pending
flattened children, such as a fresh one, `r` keeps its index whatever
siblings were removed by the mutations behind it. -/
theorem parseStep_scans_pending_only (s : State) (pre post : ShadowViewMutationList)
    (r : ShadowViewMutation) (hr : r.type = .Remove)
    (hs : ∀ q c, c ∈ (s.heap q).children → c < s.next) :
    scanResult s (pre ++ r :: post) =
      pre.reverse.foldl parseStep (parseStep (scanResult s post) r) ∧
    ((parseStep (scanResult s post) r).s.heap (scanResult s post).s.next).mutation =
      updateIndexForMutation (scanResult s post).s r ∧
    (∀ z ∈ (scanResult s post).mutationNodes, s.next ≤ z) ∧
    (∀ parent, (scanResult s post).s.nodeForTag r.parentTag = some parent →
      ∀ c ∈ ((scanResult s post).s.node parent).children,
        c < s.next ∧ c ∉ (scanResult s post).mutationNodes) ∧
    (NoFlat s → updateIndexForMutation (scanResult s post).s r = r) := by
  obtain ⟨h1, _, h3⟩ := scanResult_flat_entries s post
  refine ⟨?_, ?_, fun z hz => (h3 z hz).1, fun parent _ c hc => ?_, fun hflat => ?_⟩
  · rw [scanResult_append, scanResult_cons]
  · rw [parseStep_remove _ r hr]
    obtain ⟨_, _, _, _, _, _, _, g8⟩ := parseRemove_gen (scanResult s post) r _ rfl
    obtain ⟨_, _, _, _, _, _, k7⟩ := makeMutationNode_shape (scanResult s post).s
      (updateIndexForMutation (scanResult s post).s r)
      ((scanResult s post).s.nodeForTag
        (updateIndexForMutation (scanResult s post).s r).oldChildShadowView.tag)
    have hno : ¬ ((scanResult s post).s.next = (scanResult s post).s.next + 1 ∧
        (scanResult s post).s.nodeForTag
          (updateIndexForMutation (scanResult s post).s r).parentTag = none) :=
      fun h => absurd h.1 (Nat.ne_of_lt (Nat.lt_succ_self _))
    have h8 := (g8 (scanResult s post).s.next).2.1
    rw [if_neg hno] at h8
    exact h8.trans k7.2.1
  · obtain ⟨q1, hq1⟩ := h1 parent c hc
    have hlt := hs q1 c hq1
    exact ⟨hlt, fun hmem => absurd (h3 c hmem).1 (Nat.not_le.mpr hlt)⟩
  · refine updateIndexForMutation_noFlat _ r (fun q => ?_)
    cases hch : ((scanResult s post).s.heap q).children with
    | nil => rfl
    | cons c cs =>
      obtain ⟨q1, hq1⟩ := h1 q c (by rw [hch]; exact List.mem_cons_self _ _)
      rw [hflat q1] at hq1
      cases hq1

/-- Witness of C26: the scan of the two sibling Removes in a fresh engine. -/
theorem parseStep_scans_pending_only_witness :
    (RemoveMutation 1 (sampleView 7) 1).type = .Remove ∧
    (∀ q c, c ∈ (State.fresh.heap q).children → c < State.fresh.next) ∧
    updateIndexForMutation (scanResult State.fresh
      [RemoveMutation 1 (sampleView 6) 0, DeleteMutation (sampleView 7),
        DeleteMutation (sampleView 6)]).s (RemoveMutation 1 (sampleView 7) 1) =
      RemoveMutation 1 (sampleView 7) 1 :=
  ⟨rfl, (fun _ _ h => nomatch h),
    (parseStep_scans_pending_only State.fresh []
      [RemoveMutation 1 (sampleView 6) 0, DeleteMutation (sampleView 7),
        DeleteMutation (sampleView 6)] (RemoveMutation 1 (sampleView 7) 1) rfl
      (fun _ _ h => nomatch h)).2.2.2.2 (fun _ => rfl)⟩

theorem Grow.grow_refl (s : State) : Grow s s :=
  ⟨le_refl _, fun _ h => h, fun _ => Or.inl ⟨rfl, rfl⟩, fun p _ h => ⟨p, h⟩⟩

theorem Grow.grow_trans {a b c : State} (h1 : Grow a b) (h2 : Grow b c) : Grow a c := by
  refine ⟨le_trans h1.next h2.next, fun d hd => h1.dead d (h2.dead d hd), fun p => ?_,
    fun p x hx => ?_⟩
  · rcases h1.node p with ⟨e1, e2⟩ | ⟨n1, n2, n3⟩
    · rcases h2.node p with ⟨f1, f2⟩ | ⟨m1, m2, m3⟩
      · left; exact ⟨f1.trans e1, f2.trans e2⟩
      · right; exact ⟨le_trans h1.next m1, m2, m3⟩
    · rcases h2.node p with ⟨f1, f2⟩ | ⟨m1, m2, m3⟩
      · right
        refine ⟨n1, lt_of_lt_of_le n2 h2.next, fun hm => ?_⟩
        rw [f2]
        exact n3 (by rw [← f1]; exact hm)
      · right; exact ⟨n1, m2, m3⟩
  · obtain ⟨q, hq⟩ := h2.kids p x hx
    exact h1.kids q x hq

/-- Growth keeps a heap well typed, and a mutation node stays one. -/
theorem Typed.grow {s s1 : State} (h : Typed s) (g : Grow s s1) :
    Typed s1 ∧ ∀ p, (s.heap p).isMutation = true → (s1.heap p).isMutation = true := by
  have hstay : ∀ p, (s.heap p).isMutation = true → (s1.heap p).isMutation = true := by
    intro p hp
    rcases g.node p with ⟨e1, _⟩ | ⟨n1, _, _⟩
    · rw [e1]; exact hp
    · rw [h.unalloc p n1] at hp
      exact absurd hp (by simp)
  refine ⟨⟨fun p hp => ?_, fun p c hc => ?_, fun d hd => ?_, fun p hp => ?_⟩, hstay⟩
  · rcases g.node p with ⟨e1, e2⟩ | ⟨_, _, n3⟩
    · rw [e2]; exact h.typ p (by rw [← e1]; exact hp)
    · exact n3 hp
  · obtain ⟨q, hq⟩ := g.kids p c hc
    exact hstay c (h.kids q c hq)
  · exact hstay d (h.dead d (g.dead d hd))
  · rcases g.node p with ⟨e1, _⟩ | ⟨_, n2, _⟩
    · rw [e1]; exact h.unalloc p (le_trans g.next hp)
    · exact absurd n2 (Nat.not_lt.mpr hp)

theorem Grow.of_heap {s s1 : State} (hh : s1.heap = s.heap) (hn : s1.next = s.next)
    (hd : s1.deadNodes = s.deadNodes) : Grow s s1 :=
  ⟨by rw [hn], fun d h => by rw [← hd]; exact h, fun p => Or.inl (by rw [hh]; exact ⟨rfl, rfl⟩),
    fun p c h => ⟨p, by rw [← hh]; exact h⟩⟩

theorem Grow.modify (s : State) (p : Ptr) (f : Node → Node)
    (hf : ∀ x, (f x).isMutation = x.isMutation ∧ (f x).mutation.type = x.mutation.type ∧
      ∀ c ∈ (f x).unflattenedChildren, c ∈ x.unflattenedChildren) :
    Grow s (s.modifyNode p f) := by
  refine ⟨le_refl _, fun _ h => h, fun q => Or.inl ?_, fun q c hc => ⟨q, ?_⟩⟩
  · by_cases hq : q = p
    · subst hq
      simp only [State.modifyNode, State.setNode, State.node, Function.update_same]
      exact ⟨(hf _).1, (hf _).2.1⟩
    · simp [State.modifyNode, State.setNode, Function.update_noteq hq]
  · by_cases hq : q = p
    · subst hq
      simp only [State.modifyNode, State.setNode, State.node, Function.update_same] at hc
      exact (hf _).2.2 c hc
    · simpa only [State.modifyNode, State.setNode, Function.update_noteq hq] using hc

theorem Grow.foldl_modify (f : Ptr → Node → Node)
    (hf : ∀ u x, (f u x).isMutation = x.isMutation ∧
      (f u x).mutation.type = x.mutation.type ∧
      ∀ c ∈ (f u x).unflattenedChildren, c ∈ x.unflattenedChildren) :
    ∀ (cs : List Ptr) (s : State),
      Grow s (cs.foldl (fun acc sub => acc.modifyNode sub (f sub)) s) := by
  intro cs
  induction cs with
  | nil => intro s; exact Grow.grow_refl s
  | cons c cs ih =>
    intro s
    simp only [List.foldl_cons]
    exact (Grow.modify s c (f c) (hf c)).grow_trans (ih _)

theorem Grow.alloc (s : State) (n : Node)
    (hn : n.isMutation = true → n.mutation.type = .Remove)
    (hk : ∀ c ∈ n.unflattenedChildren, ∃ q, c ∈ (s.heap q).unflattenedChildren) :
    Grow s (s.alloc n).2 := by
  refine ⟨Nat.le_succ _, fun _ h => h, fun q => ?_, fun q c hc => ?_⟩
  · by_cases hq : q = s.next
    · right
      subst hq
      simp only [State.alloc, Function.update_same]
      exact ⟨le_refl _, Nat.lt_succ_self _, hn⟩
    · left
      simp [State.alloc, Function.update_noteq hq]
  · by_cases hq : q = s.next
    · subst hq
      simp only [State.alloc, Function.update_same] at hc
      exact hk c hc
    · simp only [State.alloc, Function.update_noteq hq] at hc
      exact ⟨q, hc⟩

theorem Grow.removeChild (s : State) (self child : Ptr) :
    Grow s (removeChildFromUnflattenedTree s self child) := by
  obtain ⟨h1, h2⟩ := removeChildFromUnflattenedTree_next s self child
  refine ⟨by rw [h1], fun d h => by rw [← h2]; exact h, fun p => Or.inl ?_,
    fun p c hc => ⟨p, ?_⟩⟩
  · have := removeChildFromUnflattenedTree_node s self child p
    simp only [State.node] at this
    rw [this]
    exact ⟨rfl, rfl⟩
  · have := removeChildFromUnflattenedTree_node s self child p
    simp only [State.node] at this
    rw [this] at hc
    simp only at hc
    split at hc
    · exact (eraseLastWithTag_sublist _ _ _).subset hc
    · exact hc

theorem Grow.removeChildren (node : Ptr) : ∀ (tbr : List Ptr) (s : State),
    Grow s (tbr.foldl (fun acc sub => removeChildFromUnflattenedTree acc node sub) s) := by
  intro tbr
  induction tbr with
  | nil => intro s; exact Grow.grow_refl s
  | cons c cs ih =>
    intro s
    simp only [List.foldl_cons]
    exact (Grow.removeChild s node c).grow_trans (ih _)

theorem Grow.cancel (s : State) (tag : Tag) : Grow s (maybeCancelAnimation s tag) :=
  Grow.of_heap (maybeCancelAnimation_heap s tag) (maybeCancelAnimation_next s tag).1
    (maybeCancelAnimation_next s tag).2

theorem Blocks.blocks_append {X Y : ShadowViewMutationList} (hX : Blocks X) (hY : Blocks Y) :
    Blocks (X ++ Y) := by
  induction hY with
  | nil => simpa using hX
  | single _ hx ih => rw [← List.append_assoc]; exact Blocks.single ih hx
  | pair _ hr ih => rw [← List.append_assoc]; exact Blocks.pair ih hr

theorem Blocks.of_noDelete : ∀ (X : ShadowViewMutationList), (∀ x ∈ X, x.type ≠ .Delete) →
    Blocks X := by
  intro X
  induction X using List.reverseRecOn with
  | nil => intro _; exact Blocks.nil
  | append_singleton X x ih =>
    intro h
    exact Blocks.single (ih (fun y hy => h y (List.mem_append_left _ hy)))
      (h x (List.mem_append_right _ (List.mem_singleton_self _)))

theorem snoc_split {α : Type} (A B X : List α) (d x : α) (h : A ++ d :: B = X ++ [x]) :
    (B = [] ∧ A = X ∧ d = x) ∨ ∃ B1, B = B1 ++ [x] ∧ A ++ d :: B1 = X := by
  rcases List.eq_nil_or_concat B with hB | ⟨B1, y, hB⟩
  · left
    subst hB
    have h1 : A ++ [d] = X ++ [x] := h
    have := List.append_inj' h1 rfl
    exact ⟨rfl, this.1, by simpa using this.2⟩
  · right
    subst hB
    have h1 : (A ++ d :: B1) ++ [y] = X ++ [x] := by
      rw [← h]; simp
    have := List.append_inj' h1 rfl
    have hy : y = x := by simpa using this.2
    exact ⟨B1, by rw [hy]; simp, this.1⟩

/-- In a list of blocks every Delete directly follows its Remove. -/
theorem Blocks.paired {X : ShadowViewMutationList} (h : Blocks X) : DeletesPaired X := by
  induction h with
  | nil =>
    intro A d B hX
    exact absurd hX (by simp)
  | @single X x _ hx ih =>
    intro A d B hX hd
    rcases snoc_split A B X d x hX.symm with ⟨_, _, h3⟩ | ⟨B1, _, h2⟩
    · rw [h3] at hd; exact absurd hd hx
    · exact ih A d B1 h2.symm hd
  | @pair X r _ hr ih =>
    intro A d B hX hd
    have hX1 : A ++ d :: B = (X ++ [r]) ++ [DeleteMutation r.oldChildShadowView] := by
      rw [← hX]; simp
    rcases snoc_split A B (X ++ [r]) d _ hX1 with ⟨_, h2, h3⟩ | ⟨B1, _, h2⟩
    · exact ⟨X, r, h2, hr, h3⟩
    · rcases snoc_split A B1 X d r h2 with ⟨_, _, h5⟩ | ⟨B2, _, h4⟩
      · rw [h5, hr] at hd; exact absurd hd (by simp)
      · exact ih A d B2 h4.symm hd

theorem TRel.trel_refl (L : List Ptr) (w : Work) : TRel L w w :=
  ⟨Grow.grow_refl _, fun _ _ => ⟨[], by simp, Blocks.nil⟩⟩

theorem TRel.trel_trans {L : List Ptr} {a b c : Work} (h1 : TRel L a b) (h2 : TRel L b c) :
    TRel L a c := by
  refine ⟨h1.1.grow_trans h2.1, fun ht hL => ?_⟩
  obtain ⟨X, hX, hXb⟩ := h1.2 ht hL
  obtain ⟨ht1, hstay⟩ := ht.grow h1.1
  obtain ⟨Y, hY, hYb⟩ := h2.2 ht1 (fun c hc => hstay c (hL c hc))
  exact ⟨X ++ Y, by rw [hY, hX, List.append_assoc], hXb.blocks_append hYb⟩

theorem TRel.weaken {L L1 : List Ptr} {a b : Work} (h : TRel L a b)
    (hsub : ∀ c ∈ L, c ∈ L1) : TRel L1 a b :=
  ⟨h.1, fun ht hL => h.2 ht (fun c hc => hL c (hsub c hc))⟩
theorem Blocks.pairOnly {r : ShadowViewMutation} (hr : r.type = .Remove) :
    Blocks [r, DeleteMutation r.oldChildShadowView] := by
  have := Blocks.pair Blocks.nil hr
  simpa using this

theorem Blocks.singleOnly {r : ShadowViewMutation} (hr : r.type = .Remove) : Blocks [r] := by
  have h : Blocks ([] ++ [r]) := Blocks.single Blocks.nil (by rw [hr]; simp)
  simpa using h

/-- The function `endAnimationsRecursively` keeps the heap well typed and appends
blocks. -/
theorem endAnimationsRecursively_typed : ∀ (fuel : Nat) (node : Ptr) (w w1 : Work),
    endAnimationsRecursively fuel node w = some w1 → TRel [node] w w1 := by
  intro fuel
  induction fuel with
  | zero => intro node w w1 h; simp [endAnimationsRecursively] at h
  | succ fuel ih =>
    intro node w w1 h
    obtain ⟨s, m⟩ := w
    unfold endAnimationsRecursively at h
    simp only at h
    split at h
    · exact absurd h (by simp)
    · rename_i s3 m3 hfold
      simp only [Option.some.injEq] at h
      obtain ⟨s2, hs2⟩ : ∃ s2, s2 = (maybeCancelAnimation s (s.node node).tag).modifyNode node
          (fun n => { n with state := .DELETED }) := ⟨_, rfl⟩
      rw [← hs2] at hfold
      have hg2 : Grow s s2 := by
        rw [hs2]
        exact (Grow.cancel s _).grow_trans
          (Grow.modify _ node _ (fun _ => ⟨rfl, rfl, fun _ h => h⟩))
      have hloop := foldl_some_invariant
        (fun (acc : Option Work) subNode =>
          match acc with
          | none => none
          | some w =>
            if (w.1.node subNode).state ≠ .DELETED then
              endAnimationsRecursively fuel subNode w
            else some w)
        (fun _ => rfl) (TRel (s2.node node).unflattenedChildren.reverse)
        (TRel.trel_refl _) (fun _ _ _ => TRel.trel_trans) _
        (fun c hc b b1 hg => by
          simp only at hg
          split at hg
          · exact (ih c b b1 hg).weaken (fun x hx => by
              rw [List.mem_singleton] at hx; rw [hx]; exact hc)
          · simp only [Option.some.injEq] at hg
            rw [← hg]
            exact TRel.trel_refl _ _)
        _ _ hfold
      obtain ⟨hg3, hb3⟩ := hloop
      simp only at hg3 hb3
      rw [← h]
      refine ⟨(hg2.grow_trans hg3).grow_trans (Grow.of_heap rfl rfl rfl), fun ht hL => ?_⟩
      simp only at ht hL ⊢
      obtain ⟨ht2, hstay2⟩ := ht.grow hg2
      obtain ⟨X, hX, hXb⟩ := hb3 ht2 (fun c hc => ht2.kids node c (List.mem_reverse.mp hc))
      obtain ⟨ht3, hstay3⟩ := ht2.grow hg3
      have hm : (s3.heap node).isMutation = true :=
        hstay3 node (hstay2 node (hL node (List.mem_singleton_self _)))
      exact ⟨X ++ [(s3.node node).mutation,
        DeleteMutation (s3.node node).mutation.oldChildShadowView],
        by rw [hX, List.append_assoc], hXb.blocks_append (Blocks.pairOnly (ht3.typ node hm))⟩

/-- The function `maybeDropAncestors` keeps the heap well typed and appends blocks. -/
theorem maybeDropAncestors_typed : ∀ (fuel : Nat) (parent child : Ptr) (w w1 : Work),
    maybeDropAncestors fuel parent child w = some w1 → TRel [] w w1 := by
  intro fuel
  induction fuel with
  | zero => intro p c w w1 h; simp [maybeDropAncestors] at h
  | succ fuel ih =>
    intro p c w w1 h
    obtain ⟨s, m⟩ := w
    unfold maybeDropAncestors at h
    simp only at h
    have hg1 : Grow s (removeChildFromUnflattenedTree s p c) := Grow.removeChild s p c
    split at h
    · simp only [Option.some.injEq] at h
      rw [← h]
      exact ⟨hg1, fun _ _ => ⟨[], by simp, Blocks.nil⟩⟩
    · rename_i hmut
      split at h
      · have hrec := ih _ _ _ _ h
        have hg2 : Grow (removeChildFromUnflattenedTree s p c)
            (maybeCancelAnimation
              { removeChildFromUnflattenedTree s p c with
                nodeForTag := Function.update (removeChildFromUnflattenedTree s p c).nodeForTag
                  ((removeChildFromUnflattenedTree s p c).node p).tag none }
              ((removeChildFromUnflattenedTree s p c).node p).tag) :=
          Grow.of_heap (maybeCancelAnimation_heap _ _) (maybeCancelAnimation_next _ _).1
            (maybeCancelAnimation_next _ _).2
        refine ⟨(hg1.grow_trans hg2).grow_trans hrec.1, fun ht _ => ?_⟩
        obtain ⟨ht1, _⟩ := ht.grow hg1
        obtain ⟨ht2, _⟩ := ht1.grow hg2
        obtain ⟨Y, hY, hYb⟩ := hrec.2 ht2 (fun c hc => absurd hc (List.not_mem_nil _))
        have hty : ((removeChildFromUnflattenedTree s p c).node p).mutation.type = .Remove :=
          ht1.typ p (by simpa using hmut)
        exact ⟨[((removeChildFromUnflattenedTree s p c).node p).mutation,
          DeleteMutation
            ((removeChildFromUnflattenedTree s p c).node p).mutation.oldChildShadowView] ++ Y,
          by rw [hY, List.append_assoc], (Blocks.pairOnly hty).blocks_append hYb⟩
      · simp only [Option.some.injEq] at h
        rw [← h]
        exact ⟨hg1, fun _ _ => ⟨[], by simp, Blocks.nil⟩⟩
theorem startFinish_grow (node : Ptr) (he : Bool) (l : StartLoop) :
    Grow l.s (startFinish node he l).2.1 ∧ (startFinish node he l).2.2 = l.mutations := by
  obtain ⟨S, hS⟩ : ∃ S, S = l.toBeRemoved.foldl
      (fun acc subNode => removeChildFromUnflattenedTree acc node subNode) l.s := ⟨_, rfl⟩
  have hg1 : Grow l.s S := by rw [hS]; exact Grow.removeChildren node _ _
  unfold startFinish
  simp only [← hS]
  split
  · refine ⟨hg1.grow_trans ?_, rfl⟩
    have ha : Grow S (S.alloc (replacementNode (S.node node))).2 :=
      Grow.alloc S _ (fun h => by simp [replacementNode, plainNode] at h)
        (fun c hc => ⟨node, by simpa [replacementNode] using hc⟩)
    have hb := Grow.foldl_modify (fun _ x => { x with parent := S.next })
      (fun _ _ => ⟨rfl, rfl, fun _ h => h⟩) (S.node node).children
      (S.alloc (replacementNode (S.node node))).2
    have hc := Grow.foldl_modify (fun _ x => { x with unflattenedParent := S.next })
      (fun _ _ => ⟨rfl, rfl, fun _ h => h⟩) (S.node node).unflattenedChildren
      ((S.node node).children.foldl
        (fun acc sub => acc.modifyNode sub (fun x => { x with parent := S.next }))
        (S.alloc (replacementNode (S.node node))).2)
    exact ((ha.grow_trans hb).grow_trans hc).grow_trans (Grow.of_heap rfl rfl rfl)
  · split
    · refine ⟨hg1.grow_trans ?_, rfl⟩
      exact (Grow.modify S node (fun x => { x with state := .ANIMATING })
        (fun _ => ⟨rfl, rfl, fun _ h => h⟩)).grow_trans (Grow.of_heap rfl rfl rfl)
    · exact ⟨hg1.grow_trans (Grow.of_heap rfl rfl rfl), rfl⟩

theorem startLoopStep_typed (endRec : Ptr → Work → Option Work)
    (startRec : Ptr → Work → Option (Bool × Work)) (a b : Bool) (L : List Ptr)
    (hend : ∀ c w w1, endRec c w = some w1 → TRel [c] w w1)
    (hstart : ∀ c w r, startRec c w = some r → TRel [] w r.2)
    (l l1 : StartLoop) (c : Ptr) (hc : c ∈ L)
    (h : startLoopStep endRec startRec a b (some l) c = some l1) :
    TRel L (l.s, l.mutations) (l1.s, l1.mutations) := by
  have hcL : ∀ x ∈ [c], x ∈ L := fun x hx => by
    rw [List.mem_singleton] at hx; rw [hx]; exact hc
  have hnil : ∀ x ∈ ([] : List Ptr), x ∈ L := fun x hx => absurd hx (List.not_mem_nil _)
  unfold startLoopStep at h
  simp only at h
  split at h
  · split at h
    · simp only [Option.some.injEq] at h
      rw [← h]
      exact TRel.trel_refl _ _
    · split at h
      · exact absurd h (by simp)
      · rename_i s1 m1 he
        simp only [Option.some.injEq] at h
        rw [← h]
        exact (hend _ _ _ he).weaken hcL
  · split at h
    · exact absurd h (by simp)
    · rename_i s1 m1 he
      simp only [Option.some.injEq] at h
      rw [← h]
      exact (hstart _ _ _ he).weaken hnil
    · rename_i s1 m1 he
      have h0 := hstart _ _ _ he
      simp only at h0
      split at h
      · -- a MOVED child: its Remove is passed through
        simp only [Option.some.injEq] at h
        rw [← h]
        refine ⟨h0.1, fun ht hL => ?_⟩
        simp only at ht hL ⊢
        obtain ⟨X, hX, hXb⟩ := h0.2 ht (fun x hx => absurd hx (List.not_mem_nil _))
        have hX1 : m1 = l.mutations ++ X := hX
        obtain ⟨ht1, hstay⟩ := ht.grow h0.1
        have hty := ht1.typ c (hstay c (hL c hc))
        exact ⟨X ++ [(s1.node c).mutation], by rw [hX1, List.append_assoc],
          hXb.blocks_append (Blocks.singleOnly hty)⟩
      · split at h
        · -- a child removed at once
          simp only [Option.some.injEq] at h
          rw [← h]
          have hg2 : Grow s1 ((maybeCancelAnimation s1 (s1.node c).tag).modifyNode c
              (fun x => { x with state := .DELETED })) :=
            (Grow.cancel s1 _).grow_trans
              (Grow.modify _ c (fun x => { x with state := .DELETED })
                (fun _ => ⟨rfl, rfl, fun _ h => h⟩))
          refine ⟨(h0.1.grow_trans hg2).grow_trans (Grow.of_heap rfl rfl rfl), fun ht hL => ?_⟩
          simp only at ht hL ⊢
          obtain ⟨X, hX, hXb⟩ := h0.2 ht (fun x hx => absurd hx (List.not_mem_nil _))
          have hX1 : m1 = l.mutations ++ X := hX
          obtain ⟨ht1, hstay⟩ := ht.grow h0.1
          have hty := ht1.typ c (hstay c (hL c hc))
          exact ⟨X ++ [(s1.node c).mutation,
            DeleteMutation (s1.node c).mutation.oldChildShadowView],
            by rw [hX1, List.append_assoc], hXb.blocks_append (Blocks.pairOnly hty)⟩
        · -- a child left waiting
          simp only [Option.some.injEq] at h
          rw [← h]
          refine ⟨h0.1.grow_trans (Grow.modify _ c (fun x => { x with state := .WAITING })
            (fun _ => ⟨rfl, rfl, fun _ h => h⟩)), fun ht hL => ?_⟩
          exact h0.2 ht (fun x hx => absurd hx (List.not_mem_nil _))

/-- The function `startAnimationsRecursively` keeps the heap well typed and appends
blocks. -/
theorem startAnimationsRecursively_typed (mgr : Manager) :
    ∀ (fuel : Nat) (node : Ptr) (a b c : Bool) (w : Work) (r : Bool × Work),
      startAnimationsRecursively mgr fuel node a b c w = some r → TRel [] w r.2 := by
  intro fuel
  induction fuel with
  | zero => intro node a b c w r h; simp [startAnimationsRecursively] at h
  | succ fuel ih =>
    intro node a b c w r h
    obtain ⟨s, m⟩ := w
    unfold startAnimationsRecursively at h
    simp only at h
    split at h
    · exact absurd h (by simp)
    · rename_i l hfold
      simp only [Option.some.injEq] at h
      have hloop : TRel (s.node node).unflattenedChildren.reverse (s, m) (l.s, l.mutations) := by
        refine foldl_some_invariant _ ?_
          (fun (x y : StartLoop) => TRel (s.node node).unflattenedChildren.reverse
            (x.s, x.mutations) (y.s, y.mutations))
          (fun _ => TRel.trel_refl _ _) (fun x y z h1 h2 => h1.trel_trans h2) _ ?_ _ _ hfold
        · intro _; rfl
        · intro c1 hc1 x y hg
          exact startLoopStep_typed _ _ _ _ _
            (fun c w w1 he => endAnimationsRecursively_typed fuel c w w1 he)
            (fun c w r he => ih c _ _ _ w r he) x y c1 hc1 hg
      obtain ⟨hf1, hf2⟩ := startFinish_grow node
        ((!(if mgr.isRNSScreen (s.node node).mutation.oldChildShadowView.componentName = true
            then true else c) &&
          mgr.shouldAnimateExiting s.managerLog (s.node node).tag b) &&
          mgr.hasLayoutAnimation s.managerLog (s.node node).tag .EXITING) l
      rw [← h]
      refine ⟨hloop.1.grow_trans hf1, fun ht _ => ?_⟩
      obtain ⟨X, hX, hXb⟩ := hloop.2 ht (fun x hx => ht.kids node x (List.mem_reverse.mp hx))
      exact ⟨X, by rw [hf2]; exact hX, hXb⟩

theorem handleRoots_typed (mgr : Manager) (fuel : Nat) (roots : List Ptr) (w w1 : Work)
    (h : handleRoots mgr fuel roots w = some w1) : TRel roots w w1 := by
  unfold handleRoots at h
  have hL : ∀ c ∈ roots.reverse, c ∈ roots := fun c hc => List.mem_reverse.mp hc
  refine (foldl_some_invariant _ ?_ (TRel roots.reverse) (TRel.trel_refl _)
    (fun _ _ _ => TRel.trel_trans) _ ?_ _ _ h).weaken hL
  · intro _; rfl
  · intro c hc x y hg
    obtain ⟨sx, mx⟩ := x
    simp only at hg
    split at hg
    · exact absurd hg (by simp)
    · rename_i w2 he
      simp only [Option.some.injEq] at hg
      rw [← hg]
      exact (startAnimationsRecursively_typed mgr fuel c _ _ _ _ _ he).weaken
        (fun x hx => absurd hx (List.not_mem_nil _))
    · rename_i s2 m2 he
      have h0 := startAnimationsRecursively_typed mgr fuel c _ _ _ _ _ he
      simp only at h0
      have hg1 : Grow s2 (removeChildFromUnflattenedTree s2 (s2.node c).unflattenedParent c) :=
        Grow.removeChild _ _ _
      have hmut : ((removeChildFromUnflattenedTree s2 (s2.node c).unflattenedParent c).node
          c).mutation = (s2.node c).mutation := by
        rw [removeChildFromUnflattenedTree_node]
      split at hg
      · simp only [Option.some.injEq] at hg
        rw [← hg]
        have hg2 : Grow (removeChildFromUnflattenedTree s2 (s2.node c).unflattenedParent c)
            (maybeCancelAnimation
              (removeChildFromUnflattenedTree s2 (s2.node c).unflattenedParent c)
              ((removeChildFromUnflattenedTree s2 (s2.node c).unflattenedParent c).node
                c).tag) := Grow.cancel _ _
        refine ⟨((h0.1.grow_trans hg1).grow_trans hg2).grow_trans (Grow.of_heap rfl rfl rfl),
          fun ht hL1 => ?_⟩
        simp only at ht hL1 ⊢
        obtain ⟨X, hX, hXb⟩ := h0.2 ht (fun x hx => absurd hx (List.not_mem_nil _))
        obtain ⟨ht1, hstay⟩ := ht.grow h0.1
        have hty := ht1.typ c (hstay c (hL1 c hc))
        have hX1 : m2 = mx ++ X := hX
        refine ⟨X ++ [(s2.node c).mutation,
          DeleteMutation (s2.node c).mutation.oldChildShadowView], ?_,
          hXb.blocks_append (Blocks.pairOnly hty)⟩
        rw [hX1, hmut]
        simp
      · simp only [Option.some.injEq] at hg
        rw [← hg]
        refine ⟨h0.1.grow_trans hg1, fun ht hL1 => ?_⟩
        simp only at ht hL1 ⊢
        obtain ⟨X, hX, hXb⟩ := h0.2 ht (fun x hx => absurd hx (List.not_mem_nil _))
        obtain ⟨ht1, hstay⟩ := ht.grow h0.1
        have hty := ht1.typ c (hstay c (hL1 c hc))
        have hX1 : m2 = mx ++ X := hX
        exact ⟨X ++ [(s2.node c).mutation], by rw [hX1, List.append_assoc],
          hXb.blocks_append (Blocks.singleOnly hty)⟩

theorem handleDeadNodes_typed (fuel : Nat) (dead : List Ptr) (w w1 : Work)
    (h : handleDeadNodes fuel dead w = some w1) : TRel dead w w1 := by
  unfold handleDeadNodes at h
  refine foldl_some_invariant _ ?_ (TRel dead) (TRel.trel_refl _)
    (fun _ _ _ => TRel.trel_trans) _ ?_ _ _ h
  · intro _; rfl
  · intro c hc x y hg
    simp only at hg
    split at hg
    · split at hg
      · exact absurd hg (by simp)
      · rename_i w2 he
        exact ((endAnimationsRecursively_typed _ _ _ _ he).weaken (fun x hx => by
          rw [List.mem_singleton] at hx; rw [hx]; exact hc)).trel_trans
          ((maybeDropAncestors_typed _ _ _ _ _ hg).weaken
            (fun x hx => absurd hx (List.not_mem_nil _)))
    · simp only [Option.some.injEq] at hg
      rw [← hg]
      exact TRel.trel_refl _ _

/-- The function `handleRemovals`, from a well-typed state and roots that are
mutation nodes, leaves a well-typed state and appends blocks. -/
theorem handleRemovals_typed (mgr : Manager) (fuel : Nat) (roots : List Ptr) (w w1 : Work)
    (ht : Typed w.1) (hroots : ∀ r ∈ roots, (w.1.heap r).isMutation = true)
    (h : handleRemovals mgr fuel roots w = some w1) :
    Typed w1.1 ∧ ∃ X, w1.2 = w.2 ++ X ∧ Blocks X := by
  unfold handleRemovals at h
  split at h
  · exact absurd h (by simp)
  · rename_i w2 h2
    split at h
    · exact absurd h (by simp)
    · rename_i s3 m3 h3
      simp only [Option.some.injEq] at h
      rw [← h]
      obtain ⟨g1, b1⟩ := handleRoots_typed _ _ _ _ _ h2
      obtain ⟨g2, b2⟩ := handleDeadNodes_typed _ _ _ _ h3
      obtain ⟨X, hX, hXb⟩ := b1 ht hroots
      obtain ⟨ht2, _⟩ := ht.grow g1
      obtain ⟨Y, hY, hYb⟩ := b2 ht2 (fun c hc => ht2.dead c (mem_visitOrder.mp hc))
      obtain ⟨ht3, _⟩ := ht2.grow g2
      simp only at ht3 hY
      refine ⟨⟨ht3.typ, ht3.kids, fun d hd => absurd hd (List.not_mem_nil _), ht3.unalloc⟩,
        X ++ Y, by rw [hY, hX, List.append_assoc], hXb.blocks_append hYb⟩
theorem Grow.applyIndices (s : State) (p : Ptr) (m : ShadowViewMutation) :
    Grow s (applyMutationToIndices s p m) := by
  unfold applyMutationToIndices
  generalize (s.node p).children = cs
  induction cs generalizing s with
  | nil => exact Grow.grow_refl s
  | cons c cs ih =>
    rw [List.foldl_cons]
    split
    · exact (Grow.modify s c (fun n =>
        { n with mutation := { n.mutation with index := n.mutation.index + 1 } })
        (fun _ => ⟨rfl, rfl, fun _ h => h⟩)).grow_trans (ih _)
    · exact ih s

theorem Grow.window (s : State) (m : ShadowViewMutation) (sid : SurfaceId) :
    Grow s (maybeUpdateWindowDimensions s m sid) := by
  unfold maybeUpdateWindowDimensions
  split
  · exact Grow.of_heap rfl rfl rfl
  · exact Grow.grow_refl s

theorem Grow.transferConfig (s : State) (str : String) (t : Tag) :
    Grow s (transferConfigFromNativeID s str t) := by
  unfold transferConfigFromNativeID
  split
  · exact Grow.grow_refl s
  · split
    · exact Grow.of_heap rfl rfl rfl
    · exact Grow.grow_refl s
    · exact Grow.grow_refl s

theorem handleMutation_grow (mgr : Manager) (mv : Tag → Option Tag) (sid : SurfaceId)
    (l : UpdLoop) (m : ShadowViewMutation) : Grow l.s (handleMutation mgr mv sid l m).s := by
  have hW := Grow.window l.s m sid
  have hA : ∀ p m1, Grow l.s (applyMutationToIndices (maybeUpdateWindowDimensions l.s m sid)
      p m1) := fun p m1 => hW.grow_trans (Grow.applyIndices _ _ _)
  unfold handleMutation
  cases hty : m.type with
  | Create => exact hW
  | Delete => exact hW
  | Remove => exact hW
  | Insert =>
    simp only [handleInsert]
    repeat' split
    all_goals first
      | exact hW
      | exact hA _ _
      | exact hW.grow_trans (Grow.of_heap rfl rfl rfl)
      | exact (hA _ _).grow_trans (Grow.of_heap rfl rfl rfl)
      | exact hW.grow_trans (Grow.transferConfig _ _ _)
      | exact (hA _ _).grow_trans (Grow.transferConfig _ _ _)
      | exact (hW.grow_trans (Grow.transferConfig _ _ _)).grow_trans (Grow.of_heap rfl rfl rfl)
      | exact ((hA _ _).grow_trans (Grow.transferConfig _ _ _)).grow_trans
          (Grow.of_heap rfl rfl rfl)
  | Update =>
    simp only [handleUpdate]
    repeat' split
    all_goals first
      | exact hW
      | exact hW.grow_trans (Grow.of_heap rfl rfl rfl)
      | (simp only [updateOngoingAnimationTarget]
         split
         · exact hW
         · exact hW.grow_trans (Grow.of_heap rfl rfl rfl))

theorem handleUpdatesAndEnterings_grow (mgr : Manager) (mv : Tag → Option Tag)
    (sid : SurfaceId) (ms : ShadowViewMutationList) (w : Work) :
    Grow w.1 (handleUpdatesAndEnterings mgr mv sid ms w).1 := by
  have : ∀ (l : UpdLoop), Grow l.s (ms.foldl (handleMutation mgr mv sid) l).s := by
    induction ms with
    | nil => intro l; exact Grow.grow_refl _
    | cons x ms ih =>
      intro l
      rw [List.foldl_cons]
      exact (handleMutation_grow mgr mv sid l x).grow_trans (ih _)
  exact this { s := w.1, filteredMutations := w.2, oldShadowViewsForReparentings := fun _ => none }

theorem addOngoingAnimations_grow (sid : SurfaceId) (w : Work) :
    Grow w.1 (addOngoingAnimations sid w).1 := by
  have hfold : ∀ (es : List (Tag × UpdateValues)) (w : Work),
      Grow w.1 (es.foldl (fun (acc : Work) e =>
        match acc.1.layoutAnimations e.1 with
        | none => acc
        | some la =>
          let newView : ShadowView := { la.finalView with
            props := e.2.newProps,
            layoutMetrics := updateLayoutMetrics la.finalView.layoutMetrics e.2.frame }
          let la1 : LayoutAnimation := { la with currentView := newView }
          ({ acc.1 with
              layoutAnimations := Function.update acc.1.layoutAnimations e.1 (some la1) },
           acc.2 ++ [UpdateMutation la.currentView newView la.parentTag])) w).1 := by
    intro es
    induction es with
    | nil => intro w; exact Grow.grow_refl _
    | cons e es ih =>
      intro w
      simp only [List.foldl_cons]
      split
      · exact ih w
      · refine Grow.grow_trans ?_ (ih _)
        exact Grow.of_heap rfl rfl rfl
  unfold addOngoingAnimations
  exact (hfold _ w).grow_trans (Grow.of_heap rfl rfl rfl)
theorem parseStep_grow (a : ParseAcc) (m : ShadowViewMutation) :
    Grow a.s (parseStep a m).s := by
  by_cases hty : m.type = .Remove
  · rw [parseStep_remove a m hty]
    obtain ⟨m1, hm1⟩ : ∃ m1, m1 = updateIndexForMutation a.s m := ⟨_, rfl⟩
    obtain ⟨u1, _, _, _⟩ := updateIndexForMutation_keeps a.s m
    rw [← hm1] at u1
    obtain ⟨_, _, _, _, g5, g6, _, g8⟩ := parseRemove_gen a m m1 hm1
    obtain ⟨_, _, _, _, k5, k6, k7⟩ :=
      makeMutationNode_shape a.s m1 (a.s.nodeForTag m1.oldChildShadowView.tag)
    have hnext : a.s.next < (parseRemove a m).s.next := by
      rw [g6]
      split
      · exact Nat.lt_succ_self _
      · exact Nat.lt_add_of_pos_right (by decide)
    refine ⟨Nat.le_of_lt hnext, fun d hd => by rw [← g5]; exact hd, fun p => ?_,
      fun p c hc => ?_⟩
    · have h8 := g8 p
      by_cases hp1 : p = a.s.next + 1 ∧ a.s.nodeForTag m1.parentTag = none
      · rw [if_pos hp1] at h8
        right
        refine ⟨by rw [hp1.1]; exact Nat.le_succ _, ?_, fun hm => ?_⟩
        · rw [g6, hp1.1]
          simp [hp1.2]
        · rw [h8.1] at hm
          simp [plainNode] at hm
      · rw [if_neg hp1] at h8
        by_cases hp : p = a.s.next
        · right
          rw [hp] at h8 ⊢
          refine ⟨le_refl _, hnext, fun _ => ?_⟩
          rw [h8.2.1, k7.2.1]
          exact u1.trans hty
        · left
          by_cases hn : a.s.nodeForTag m1.oldChildShadowView.tag = some p
          · have h6 := k6 p hp hn
            exact ⟨h8.1.trans h6.1, by rw [h8.2.1, h6.2.1]⟩
          · have h5 := k5 p hp hn
            exact ⟨h8.1.trans h5.1, by rw [h8.2.1, h5.2.1]⟩
    · have h8 := (g8 p).2.2.2.2
      rw [h8] at hc
      split at hc
      · simp [plainNode] at hc
      · by_cases hp : p = a.s.next
        · rw [hp, k7.2.2.2.2] at hc
          cases hn : a.s.nodeForTag m1.oldChildShadowView.tag with
          | none => simp [hn] at hc
          | some q => simp only [hn] at hc; exact ⟨q, hc⟩
        · by_cases hn : a.s.nodeForTag m1.oldChildShadowView.tag = some p
          · rw [(k6 p hp hn).2.2.2.2] at hc
            simp at hc
          · rw [(k5 p hp hn).2.2.2.2] at hc
            exact ⟨p, hc⟩
  · obtain ⟨_, _, _, _, o5, o6, o7⟩ := parseStep_other a m hty
    refine ⟨by rw [o5], fun d hd => by rw [← o6]; exact hd, fun p => Or.inl ?_,
      fun p c hc => ⟨p, ?_⟩⟩
    · exact ⟨(o7 p).old_fields.1, (o7 p).old_fields.2.2.2.2.2.2.2.1⟩
    · rw [(o7 p).old_fields.2.2.2.2.1] at hc
      exact hc

/-- Along the reverse scan of `parseRemoveMutations` the heap stays well typed and
the built nodes and the collected nodes are mutation nodes. -/
theorem scanResult_typed (s : State) (hs : Typed s) : ∀ sc : ShadowViewMutationList,
    Typed (scanResult s sc).s ∧
    (∀ z ∈ (scanResult s sc).mutationNodes, ((scanResult s sc).s.heap z).isMutation = true) ∧
    (∀ z ∈ listed (scanResult s sc).unflattenedChildrenForTag,
      ((scanResult s sc).s.heap z).isMutation = true) := by
  intro sc
  induction sc with
  | nil =>
    exact ⟨hs, fun z hz => absurd hz (List.not_mem_nil _),
      fun z hz => absurd hz (List.not_mem_nil _)⟩
  | cons m sc ih =>
    obtain ⟨h1, h2, h3⟩ := ih
    rw [scanResult_cons]
    obtain ⟨ht, hstay⟩ := h1.grow (parseStep_grow (scanResult s sc) m)
    by_cases hty : m.type = .Remove
    · have hnew : ((parseStep (scanResult s sc) m).s.heap (scanResult s sc).s.next).isMutation
          = true := by
        rw [parseStep_remove _ m hty]
        obtain ⟨_, _, _, _, _, _, _, g8⟩ := parseRemove_gen (scanResult s sc) m _ rfl
        obtain ⟨_, _, _, _, _, _, k7⟩ := makeMutationNode_shape (scanResult s sc).s
          (updateIndexForMutation (scanResult s sc).s m)
          ((scanResult s sc).s.nodeForTag
            (updateIndexForMutation (scanResult s sc).s m).oldChildShadowView.tag)
        have h8 := (g8 (scanResult s sc).s.next).1
        rw [if_neg (fun h => absurd h.1 (Nat.ne_of_lt (Nat.lt_succ_self _)))] at h8
        exact h8.trans k7.1
      obtain ⟨g1, g2, _⟩ := parseRemove_gen (scanResult s sc) m _ rfl
      rw [← parseStep_remove _ m hty] at g1 g2
      refine ⟨ht, fun z hz => ?_, fun z hz => ?_⟩
      · rw [g1] at hz
        rcases List.mem_append.mp hz with h | h
        · exact hstay z (h2 z h)
        · rw [List.mem_singleton] at h
          rw [h]; exact hnew
      · rw [g2] at hz
        rcases listed_pushChild_mem _ _ _ _ hz with h | h
        · rw [h]; exact hnew
        · exact hstay z (h3 z h)
    · obtain ⟨o1, o2, _⟩ := parseStep_other (scanResult s sc) m hty
      refine ⟨ht, fun z hz => ?_, fun z hz => ?_⟩
      · rw [o1] at hz; exact hstay z (h2 z hz)
      · rw [o2] at hz; exact hstay z (h3 z hz)

theorem attachChildren_grow : ∀ (l : List (Tag × List Ptr)) (s : State),
    Grow s (attachChildren s l) := by
  intro l
  induction l with
  | nil => intro s; exact Grow.grow_refl s
  | cons e l ih =>
    intro s
    simp only [attachChildren, List.foldl_cons]
    cases hn : s.nodeForTag e.1 with
    | none => exact ih s
    | some parent =>
      have h1 : Grow s (insertChildren s parent e.2) := by
        unfold insertChildren
        apply Grow.modify
        intro x
        exact ⟨rfl, rfl, fun _ h => h⟩
      have h2 := Grow.foldl_modify (fun _ x => { x with parent := parent })
        (fun _ _ => ⟨rfl, rfl, fun _ h => h⟩) e.2 (insertChildren s parent e.2)
      have h3 := ih (e.2.foldl (fun acc2 child =>
        acc2.modifyNode child (fun x => { x with parent := parent }))
        (insertChildren s parent e.2))
      simp only [attachChildren] at h3
      exact (h1.grow_trans h2).grow_trans h3

theorem attachUnflattenedChildren_mem : ∀ (l : List (Tag × List Ptr)) (s : State)
    (p c : Ptr), c ∈ ((attachUnflattenedChildren s l).heap p).unflattenedChildren →
    c ∈ (s.heap p).unflattenedChildren ∨ c ∈ listed l := by
  intro l
  induction l with
  | nil => intro s p c hc; left; exact hc
  | cons e l ih =>
    intro s p c hc
    simp only [attachUnflattenedChildren, List.foldl_cons] at hc
    simp only [listed, List.mem_append]
    cases hn : s.nodeForTag e.1 with
    | none =>
      rw [hn] at hc
      rcases ih s p c (by simpa only [attachUnflattenedChildren] using hc) with h | h
      · left; exact h
      · right; right; exact h
    | some parent =>
      rw [hn] at hc
      rcases ih _ p c (by simpa only [attachUnflattenedChildren] using hc) with h | h
      · rw [foldl_setField_kids (fun _ x => { x with unflattenedParent := parent })
          (fun _ _ => rfl)] at h
        by_cases hp : p = parent
        · subst hp
          simp only [insertUnflattenedChildren, State.modifyNode, State.setNode, State.node,
            Function.update_same] at h
          rcases mem_mergeChildren _ _ _ _ c h with h1 | h1
          · left; exact h1
          · right; left; exact h1
        · left
          simpa [insertUnflattenedChildren, State.modifyNode, State.setNode, State.node,
            Function.update_noteq hp] using h
      · right; right; exact h

theorem attachUnflattenedChildren_deadNodes : ∀ (l : List (Tag × List Ptr)) (s : State),
    (attachUnflattenedChildren s l).deadNodes = s.deadNodes := by
  intro l
  induction l with
  | nil => intro s; rfl
  | cons e l ih =>
    intro s
    simp only [attachUnflattenedChildren, List.foldl_cons]
    cases hn : s.nodeForTag e.1 with
    | none => exact ih s
    | some parent =>
      have h3 := ih (e.2.foldl (fun acc2 child =>
        acc2.modifyNode child (fun x => { x with unflattenedParent := parent }))
        (insertUnflattenedChildren s parent e.2))
      simp only [attachUnflattenedChildren] at h3
      rw [h3, (foldl_modifyNode_harmless (fun x => { x with unflattenedParent := parent })
        (fun _ => ⟨rfl, rfl, rfl, rfl, rfl⟩) e.2 _).2.2]
      rfl

/-- The function `parseRemoveMutations` keeps the heap well typed, and its roots
are mutation nodes. -/
theorem parseRemoveMutations_typed (s : State) (batch : ShadowViewMutationList)
    (hs : Typed s) :
    Typed (parseRemoveMutations s batch).s ∧
    ∀ r ∈ (parseRemoveMutations s batch).roots,
      ((parseRemoveMutations s batch).s.heap r).isMutation = true := by
  obtain ⟨h1, h2, h3⟩ := scanResult_typed s hs batch
  obtain ⟨a, ha⟩ : ∃ a, a = scanResult s batch := ⟨_, rfl⟩
  rw [← ha] at h1 h2 h3
  obtain ⟨t1, stay1⟩ := h1.grow (attachChildren_grow a.childrenForTag a.s)
  obtain ⟨u1, _, u3⟩ := attachUnflattenedChildren_F4 a.unflattenedChildrenForTag
    (attachChildren a.s a.childrenForTag)
  have hPs : (parseRemoveMutations s batch).s = attachUnflattenedChildren
      (attachChildren a.s a.childrenForTag) a.unflattenedChildrenForTag := by
    rw [ha]; rfl
  have hPr : (parseRemoveMutations s batch).roots = a.mutationNodes.filter
      (fun p => !((parseRemoveMutations s batch).s.node
        ((parseRemoveMutations s batch).s.node p).unflattenedParent).isMutation) := by
    rw [ha]; rfl
  have hmut : ∀ z, ((parseRemoveMutations s batch).s.heap z).isMutation =
      ((attachChildren a.s a.childrenForTag).heap z).isMutation := by
    intro z; rw [hPs]; exact (u1 z).1
  refine ⟨⟨fun p hp => ?_, fun p c hc => ?_, fun d hd => ?_, fun p hp => ?_⟩, fun r hr => ?_⟩
  · rw [hmut] at hp
    rw [hPs, (u1 p).2.1]
    exact t1.typ p hp
  · rw [hmut]
    rw [hPs] at hc
    rcases attachUnflattenedChildren_mem _ _ p c hc with h | h
    · exact t1.kids p c h
    · exact stay1 c (h3 c h)
  · rw [hmut]
    rw [hPs, attachUnflattenedChildren_deadNodes] at hd
    exact t1.dead d hd
  · rw [hmut]
    rw [hPs, u3] at hp
    exact t1.unalloc p hp
  · rw [hPr] at hr
    rw [hmut]
    exact stay1 r (h2 r (List.mem_filter.mp hr).1)
theorem typed_fresh : Typed State.fresh :=
  ⟨fun p h => by simp [State.fresh, plainNode] at h,
    fun p c h => by simp [State.fresh, plainNode] at h,
    fun d h => by simp [State.fresh] at h,
    fun p _ => by simp [State.fresh, plainNode]⟩

theorem Typed.typed_of_heap {s s1 : State} (hs : Typed s) (hh : s1.heap = s.heap)
    (hn : s1.next = s.next) (hd : s1.deadNodes = s.deadNodes) : Typed s1 :=
  (hs.grow (Grow.of_heap hh hn hd)).1

theorem runUITask_grow (s : State) (t : UITask) : Grow s (runUITask s t) := by
  cases t with
  | entering tag mutation opacity => exact Grow.of_heap rfl rfl rfl
  | exiting tag mutation => exact Grow.of_heap rfl rfl rfl
  | layout tag mutation => exact Grow.of_heap rfl rfl rfl
  | cancel tag => exact Grow.of_heap rfl rfl rfl

theorem runScheduled_grow (s : State) : Grow s (runScheduled s) := by
  have hfold : ∀ (q : List UITask) (s0 : State), Grow s0 (q.foldl runUITask s0) := by
    intro q
    induction q with
    | nil => intro s0; exact Grow.grow_refl _
    | cons t q ih =>
      intro s0
      rw [List.foldl_cons]
      exact (runUITask_grow s0 t).grow_trans (ih _)
  unfold runScheduled
  have h0 : Grow s { s with uiQueue := [] } := Grow.of_heap rfl rfl rfl
  exact h0.grow_trans (hfold _ _)

/-- The function `endLayoutAnimation` keeps the heap well typed when the lookup
table holds a mutation node for the tag. -/
theorem endLayoutAnimation_typed (s : State) (tag : Tag) (shouldRemove : Bool)
    (hs : Typed s) (hnode : ∀ p, s.nodeForTag tag = some p → (s.heap p).isMutation = true) :
    Typed (endLayoutAnimation s tag shouldRemove).2 := by
  unfold endLayoutAnimation
  split
  · exact hs
  · rename_i la hla
    split
    · exact hs.typed_of_heap rfl rfl rfl
    · simp only
      split
      · exact hs.typed_of_heap rfl rfl rfl
      · split
        · exact hs.typed_of_heap rfl rfl rfl
        · rename_i p hp
          have hp1 : s.nodeForTag tag = some p := hp
          have hm := hnode p hp1
          obtain ⟨S, hS⟩ : ∃ S : State, S = { s with
              layoutAnimations := Function.update s.layoutAnimations tag none,
              updateMap := Function.update s.updateMap la.finalView.surfaceId
                ((s.updateMap la.finalView.surfaceId).filter (fun e => e.1 != tag)) } :=
            ⟨_, rfl⟩
          have hS1 : Typed S := by
            rw [hS]; exact hs.typed_of_heap rfl rfl rfl
          have hg : Grow S (S.modifyNode p (fun n => { n with state := .DEAD })) :=
            Grow.modify S p (fun n => { n with state := .DEAD })
              (fun _ => ⟨rfl, rfl, fun _ h => h⟩)
          obtain ⟨hS2, hstay⟩ := hS1.grow hg
          have hmS : (S.heap p).isMutation = true := by rw [hS]; exact hm
          rw [← hS]
          refine ⟨hS2.typ, hS2.kids, fun d hd => ?_, hS2.unalloc⟩
          simp only at hd
          split at hd
          · exact hS2.dead d hd
          · rcases List.mem_append.mp hd with h | h
            · exact hS2.dead d h
            · rw [List.mem_singleton] at h
              rw [h]
              exact hstay p hmS

theorem Tame.tame_refl (s : State) : Tame s s := fun _ => Or.inl ⟨rfl, rfl⟩

theorem Tame.tame_trans {a b c : State} (h1 : Tame a b) (h2 : Tame b c) : Tame a c := by
  intro p
  rcases h2 p with ⟨f1, f2⟩ | h | h
  · rcases h1 p with ⟨e1, e2⟩ | h | h
    · exact Or.inl ⟨f1.trans e1, f2.trans e2⟩
    · exact Or.inr (Or.inl (f1.trans h))
    · exact Or.inr (Or.inr (f2.trans h))
  · exact Or.inr (Or.inl h)
  · exact Or.inr (Or.inr h)

theorem Plain.tame {s s1 : State} (h : Plain s) (g : Tame s s1) : Plain s1 := by
  intro p hp
  rcases g p with ⟨e1, e2⟩ | h1 | h1
  · rw [e2]; exact h p (by rw [← e1]; exact hp)
  · rw [h1] at hp; exact absurd hp (by simp)
  · exact h1

theorem Tame.tame_of_heap {s s1 : State} (hh : s1.heap = s.heap) : Tame s s1 :=
  fun p => Or.inl (by rw [hh]; exact ⟨rfl, rfl⟩)

theorem Tame.tame_modify (s : State) (p : Ptr) (f : Node → Node)
    (hf : ∀ x, (f x).isMutation = x.isMutation ∧ (f x).state = x.state) :
    Tame s (s.modifyNode p f) := by
  intro q
  left
  by_cases hq : q = p
  · subst hq
    simp only [State.modifyNode, State.setNode, State.node, Function.update_same]
    exact hf _
  · simp [State.modifyNode, State.setNode, Function.update_noteq hq]

theorem Tame.tame_foldl_modify (f : Ptr → Node → Node)
    (hf : ∀ u x, (f u x).isMutation = x.isMutation ∧ (f u x).state = x.state) :
    ∀ (cs : List Ptr) (s : State),
      Tame s (cs.foldl (fun acc sub => acc.modifyNode sub (f sub)) s) := by
  intro cs
  induction cs with
  | nil => intro s; exact Tame.tame_refl s
  | cons c cs ih =>
    intro s
    simp only [List.foldl_cons]
    exact (Tame.tame_modify s c (f c) (hf c)).tame_trans (ih _)

theorem Tame.tame_alloc (s : State) (n : Node)
    (hn : n.isMutation = true ∨ n.state = .UNDEFINED) : Tame s (s.alloc n).2 := by
  intro q
  by_cases hq : q = s.next
  · right
    subst hq
    simp only [State.alloc, Function.update_same]
    exact hn
  · left
    simp [State.alloc, Function.update_noteq hq]

/-- A state written on a mutation node. -/
theorem Tame.mark (s : State) (p : Ptr) (x : ExitingState)
    (h : (s.heap p).isMutation = true) :
    Tame s (s.modifyNode p (fun n => { n with state := x })) := by
  intro q
  by_cases hq : q = p
  · right; left
    subst hq
    simp only [State.modifyNode, State.setNode, State.node, Function.update_same]
    exact h
  · left
    simp [State.modifyNode, State.setNode, Function.update_noteq hq]

theorem Tame.tame_removeChild (s : State) (self child : Ptr) :
    Tame s (removeChildFromUnflattenedTree s self child) := by
  intro p
  left
  have := removeChildFromUnflattenedTree_node s self child p
  simp only [State.node] at this
  rw [this]
  exact ⟨rfl, rfl⟩

theorem Tame.tame_removeChildren (node : Ptr) : ∀ (tbr : List Ptr) (s : State),
    Tame s (tbr.foldl (fun acc sub => removeChildFromUnflattenedTree acc node sub) s) := by
  intro tbr
  induction tbr with
  | nil => intro s; exact Tame.tame_refl s
  | cons c cs ih =>
    intro s
    simp only [List.foldl_cons]
    exact (Tame.tame_removeChild s node c).tame_trans (ih _)

theorem Tame.tame_cancel (s : State) (tag : Tag) : Tame s (maybeCancelAnimation s tag) :=
  Tame.tame_of_heap (maybeCancelAnimation_heap s tag)

theorem PRel.prel_refl (L : List Ptr) (w : Work) : PRel L w w :=
  ⟨Grow.grow_refl _, fun _ _ => Tame.tame_refl _⟩

theorem PRel.prel_trans {L : List Ptr} {a b c : Work} (h1 : PRel L a b) (h2 : PRel L b c) :
    PRel L a c := by
  refine ⟨h1.1.grow_trans h2.1, fun ht hL => ?_⟩
  obtain ⟨ht1, hstay⟩ := ht.grow h1.1
  exact (h1.2 ht hL).tame_trans (h2.2 ht1 (fun c hc => hstay c (hL c hc)))

theorem PRel.prel_weaken {L L1 : List Ptr} {a b : Work} (h : PRel L a b)
    (hsub : ∀ c ∈ L, c ∈ L1) : PRel L1 a b :=
  ⟨h.1, fun ht hL => h.2 ht (fun c hc => hL c (hsub c hc))⟩
/-- The function `endAnimationsRecursively` writes states on mutation nodes only. -/
theorem endAnimationsRecursively_tame : ∀ (fuel : Nat) (node : Ptr) (w w1 : Work),
    endAnimationsRecursively fuel node w = some w1 → PRel [node] w w1 := by
  intro fuel
  induction fuel with
  | zero => intro node w w1 h; simp [endAnimationsRecursively] at h
  | succ fuel ih =>
    intro node w w1 h
    refine ⟨(endAnimationsRecursively_typed _ node w w1 h).1, ?_⟩
    obtain ⟨s, m⟩ := w
    unfold endAnimationsRecursively at h
    simp only at h
    split at h
    · exact absurd h (by simp)
    · rename_i s3 m3 hfold
      simp only [Option.some.injEq] at h
      obtain ⟨s2, hs2⟩ : ∃ s2, s2 = (maybeCancelAnimation s (s.node node).tag).modifyNode node
          (fun n => { n with state := .DELETED }) := ⟨_, rfl⟩
      rw [← hs2] at hfold
      have hg2 : Grow s s2 := by
        rw [hs2]
        exact (Grow.cancel s _).grow_trans
          (Grow.modify _ node _ (fun _ => ⟨rfl, rfl, fun _ h => h⟩))
      have hloop := foldl_some_invariant
        (fun (acc : Option Work) subNode =>
          match acc with
          | none => none
          | some w =>
            if (w.1.node subNode).state ≠ .DELETED then
              endAnimationsRecursively fuel subNode w
            else some w)
        (fun _ => rfl) (PRel (s2.node node).unflattenedChildren.reverse)
        (PRel.prel_refl _) (fun _ _ _ => PRel.prel_trans) _
        (fun c hc b b1 hg => by
          simp only at hg
          split at hg
          · exact (ih c b b1 hg).prel_weaken (fun x hx => by
              rw [List.mem_singleton] at hx; rw [hx]; exact hc)
          · simp only [Option.some.injEq] at hg
            rw [← hg]
            exact PRel.prel_refl _ _)
        _ _ hfold
      obtain ⟨hg3, hb3⟩ := hloop
      simp only at hg3 hb3
      rw [← h]
      intro ht hL
      simp only at ht hL ⊢
      obtain ⟨ht2, hstay2⟩ := ht.grow hg2
      have hm : (s.heap node).isMutation = true := hL node (List.mem_singleton_self _)
      have hT2 : Tame s s2 := by
        rw [hs2]
        refine (Tame.tame_cancel s _).tame_trans (Tame.mark _ node _ ?_)
        rw [maybeCancelAnimation_heap]
        exact hm
      have hT3 := hb3 ht2 (fun c hc => ht2.kids node c (List.mem_reverse.mp hc))
      exact (hT2.tame_trans hT3).tame_trans (Tame.tame_of_heap rfl)

/-- The function `maybeDropAncestors` writes no state. -/
theorem maybeDropAncestors_tame : ∀ (fuel : Nat) (parent child : Ptr) (w w1 : Work),
    maybeDropAncestors fuel parent child w = some w1 → Tame w.1 w1.1 := by
  intro fuel
  induction fuel with
  | zero => intro p c w w1 h; simp [maybeDropAncestors] at h
  | succ fuel ih =>
    intro p c w w1 h
    obtain ⟨s, m⟩ := w
    unfold maybeDropAncestors at h
    simp only at h
    have hg1 : Tame s (removeChildFromUnflattenedTree s p c) := Tame.tame_removeChild s p c
    split at h
    · simp only [Option.some.injEq] at h
      rw [← h]
      exact hg1
    · split at h
      · have hrec := ih _ _ _ _ h
        refine (hg1.tame_trans ?_).tame_trans hrec
        exact Tame.tame_of_heap (maybeCancelAnimation_heap _ _)
      · simp only [Option.some.injEq] at h
        rw [← h]
        exact hg1
theorem startFinish_tame (node : Ptr) (he : Bool) (l : StartLoop) (ht : Typed l.s)
    (hm : (l.s.heap node).isMutation = true) : Tame l.s (startFinish node he l).2.1 := by
  obtain ⟨S, hS⟩ : ∃ S, S = l.toBeRemoved.foldl
      (fun acc subNode => removeChildFromUnflattenedTree acc node subNode) l.s := ⟨_, rfl⟩
  have hg1 : Tame l.s S := by rw [hS]; exact Tame.tame_removeChildren node _ _
  have hmS : (S.heap node).isMutation = true := by
    rw [hS]
    exact (ht.grow (Grow.removeChildren node _ _)).2 node hm
  unfold startFinish
  simp only [← hS]
  split
  · refine hg1.tame_trans ?_
    have ha : Tame S (S.alloc (replacementNode (S.node node))).2 :=
      Tame.tame_alloc S _ (Or.inr rfl)
    have hb := Tame.tame_foldl_modify (fun _ x => { x with parent := S.next })
      (fun _ _ => ⟨rfl, rfl⟩) (S.node node).children
      (S.alloc (replacementNode (S.node node))).2
    have hc := Tame.tame_foldl_modify (fun _ x => { x with unflattenedParent := S.next })
      (fun _ _ => ⟨rfl, rfl⟩) (S.node node).unflattenedChildren
      ((S.node node).children.foldl
        (fun acc sub => acc.modifyNode sub (fun x => { x with parent := S.next }))
        (S.alloc (replacementNode (S.node node))).2)
    exact ((ha.tame_trans hb).tame_trans hc).tame_trans (Tame.tame_of_heap rfl)
  · split
    · refine hg1.tame_trans ?_
      exact (Tame.mark S node .ANIMATING hmS).tame_trans (Tame.tame_of_heap rfl)
    · exact hg1.tame_trans (Tame.tame_of_heap rfl)

theorem startLoopStep_tame (endRec : Ptr → Work → Option Work)
    (startRec : Ptr → Work → Option (Bool × Work)) (a b : Bool) (L : List Ptr)
    (hend : ∀ c w w1, endRec c w = some w1 → PRel [c] w w1)
    (hstart : ∀ c w r, startRec c w = some r → PRel [c] w r.2)
    (l l1 : StartLoop) (c : Ptr) (hc : c ∈ L)
    (h : startLoopStep endRec startRec a b (some l) c = some l1) :
    PRel L (l.s, l.mutations) (l1.s, l1.mutations) := by
  have hcL : ∀ x ∈ [c], x ∈ L := fun x hx => by
    rw [List.mem_singleton] at hx; rw [hx]; exact hc
  unfold startLoopStep at h
  simp only at h
  split at h
  · split at h
    · simp only [Option.some.injEq] at h
      rw [← h]
      exact PRel.prel_refl _ _
    · split at h
      · exact absurd h (by simp)
      · rename_i s1 m1 he
        simp only [Option.some.injEq] at h
        rw [← h]
        exact (hend _ _ _ he).prel_weaken hcL
  · split at h
    · exact absurd h (by simp)
    · rename_i s1 m1 he
      simp only [Option.some.injEq] at h
      rw [← h]
      exact (hstart _ _ _ he).prel_weaken hcL
    · rename_i s1 m1 he
      have h0 := (hstart _ _ _ he).prel_weaken hcL
      simp only at h0
      split at h
      · simp only [Option.some.injEq] at h
        rw [← h]
        exact ⟨h0.1, fun ht hL => h0.2 ht hL⟩
      · split at h
        · simp only [Option.some.injEq] at h
          rw [← h]
          have hg2 : Grow s1 ((maybeCancelAnimation s1 (s1.node c).tag).modifyNode c
              (fun x => { x with state := .DELETED })) :=
            (Grow.cancel s1 _).grow_trans
              (Grow.modify _ c (fun x => { x with state := .DELETED })
                (fun _ => ⟨rfl, rfl, fun _ h => h⟩))
          refine ⟨(h0.1.grow_trans hg2).grow_trans (Grow.of_heap rfl rfl rfl), fun ht hL => ?_⟩
          simp only at ht hL ⊢
          obtain ⟨ht1, hstay⟩ := ht.grow h0.1
          have hmc : (s1.heap c).isMutation = true := hstay c (hL c hc)
          refine ((h0.2 ht hL).tame_trans ((Tame.tame_cancel s1 _).tame_trans
            (Tame.mark _ c .DELETED ?_))).tame_trans (Tame.tame_of_heap rfl)
          rw [maybeCancelAnimation_heap]
          exact hmc
        · simp only [Option.some.injEq] at h
          rw [← h]
          refine ⟨h0.1.grow_trans (Grow.modify _ c (fun x => { x with state := .WAITING })
            (fun _ => ⟨rfl, rfl, fun _ h => h⟩)), fun ht hL => ?_⟩
          simp only at ht hL ⊢
          obtain ⟨ht1, hstay⟩ := ht.grow h0.1
          exact (h0.2 ht hL).tame_trans (Tame.mark _ c .WAITING (hstay c (hL c hc)))

/-- The function `startAnimationsRecursively` writes states on mutation nodes only. -/
theorem startAnimationsRecursively_tame (mgr : Manager) :
    ∀ (fuel : Nat) (node : Ptr) (a b c : Bool) (w : Work) (r : Bool × Work),
      startAnimationsRecursively mgr fuel node a b c w = some r → PRel [node] w r.2 := by
  intro fuel
  induction fuel with
  | zero => intro node a b c w r h; simp [startAnimationsRecursively] at h
  | succ fuel ih =>
    intro node a b c w r h
    refine ⟨(startAnimationsRecursively_typed mgr _ node a b c w r h).1, ?_⟩
    obtain ⟨s, m⟩ := w
    unfold startAnimationsRecursively at h
    simp only at h
    split at h
    · exact absurd h (by simp)
    · rename_i l hfold
      simp only [Option.some.injEq] at h
      have hloop : PRel (s.node node).unflattenedChildren.reverse (s, m) (l.s, l.mutations) := by
        refine foldl_some_invariant _ ?_
          (fun (x y : StartLoop) => PRel (s.node node).unflattenedChildren.reverse
            (x.s, x.mutations) (y.s, y.mutations))
          (fun _ => PRel.prel_refl _ _) (fun x y z h1 h2 => h1.prel_trans h2) _ ?_ _ _ hfold
        · intro _; rfl
        · intro c1 hc1 x y hg
          exact startLoopStep_tame _ _ _ _ _
            (fun c w w1 he => endAnimationsRecursively_tame fuel c w w1 he)
            (fun c w r he => ih c _ _ _ w r he) x y c1 hc1 hg
      rw [← h]
      intro ht hL
      simp only at ht hL ⊢
      obtain ⟨ht1, hstay⟩ := ht.grow hloop.1
      have hT := hloop.2 ht (fun x hx => ht.kids node x (List.mem_reverse.mp hx))
      exact hT.tame_trans (startFinish_tame node _ l ht1
        (hstay node (hL node (List.mem_singleton_self _))))

theorem handleRoots_tame (mgr : Manager) (fuel : Nat) (roots : List Ptr) (w w1 : Work)
    (h : handleRoots mgr fuel roots w = some w1) : PRel roots w w1 := by
  unfold handleRoots at h
  have hL : ∀ c ∈ roots.reverse, c ∈ roots := fun c hc => List.mem_reverse.mp hc
  refine (foldl_some_invariant _ ?_ (PRel roots.reverse) (PRel.prel_refl _)
    (fun _ _ _ => PRel.prel_trans) _ ?_ _ _ h).prel_weaken hL
  · intro _; rfl
  · intro c hc x y hg
    have hcL : ∀ x ∈ [c], x ∈ roots.reverse := fun x hx => by
      rw [List.mem_singleton] at hx; rw [hx]; exact hc
    obtain ⟨sx, mx⟩ := x
    simp only at hg
    split at hg
    · exact absurd hg (by simp)
    · rename_i w2 he
      simp only [Option.some.injEq] at hg
      rw [← hg]
      exact (startAnimationsRecursively_tame mgr fuel c _ _ _ _ _ he).prel_weaken hcL
    · rename_i s2 m2 he
      have h0 := (startAnimationsRecursively_tame mgr fuel c _ _ _ _ _ he).prel_weaken hcL
      simp only at h0
      have hg1 : Grow s2 (removeChildFromUnflattenedTree s2 (s2.node c).unflattenedParent c) :=
        Grow.removeChild _ _ _
      have ht1 : Tame s2 (removeChildFromUnflattenedTree s2 (s2.node c).unflattenedParent c) :=
        Tame.tame_removeChild _ _ _
      split at hg
      · simp only [Option.some.injEq] at hg
        rw [← hg]
        have hg2 : Grow (removeChildFromUnflattenedTree s2 (s2.node c).unflattenedParent c)
            (maybeCancelAnimation
              (removeChildFromUnflattenedTree s2 (s2.node c).unflattenedParent c)
              ((removeChildFromUnflattenedTree s2 (s2.node c).unflattenedParent c).node
                c).tag) := Grow.cancel _ _
        refine ⟨((h0.1.grow_trans hg1).grow_trans hg2).grow_trans (Grow.of_heap rfl rfl rfl),
          fun ht hL1 => ?_⟩
        simp only at ht hL1 ⊢
        exact (((h0.2 ht hL1).tame_trans ht1).tame_trans (Tame.tame_cancel _ _)).tame_trans
          (Tame.tame_of_heap rfl)
      · simp only [Option.some.injEq] at hg
        rw [← hg]
        exact ⟨h0.1.grow_trans hg1, fun ht hL1 => (h0.2 ht hL1).tame_trans ht1⟩

theorem handleDeadNodes_tame (fuel : Nat) (dead : List Ptr) (w w1 : Work)
    (h : handleDeadNodes fuel dead w = some w1) : PRel dead w w1 := by
  unfold handleDeadNodes at h
  refine foldl_some_invariant _ ?_ (PRel dead) (PRel.prel_refl _)
    (fun _ _ _ => PRel.prel_trans) _ ?_ _ _ h
  · intro _; rfl
  · intro c hc x y hg
    simp only at hg
    split at hg
    · split at hg
      · exact absurd hg (by simp)
      · rename_i w2 he
        have h1 := (endAnimationsRecursively_tame _ _ _ _ he).prel_weaken (fun x hx => by
          rw [List.mem_singleton] at hx; rw [hx]; exact hc)
        have h2 : PRel dead w2 y :=
          ⟨(maybeDropAncestors_typed _ _ _ _ _ hg).1,
            fun _ _ => maybeDropAncestors_tame _ _ _ _ _ hg⟩
        exact h1.prel_trans h2
    · simp only [Option.some.injEq] at hg
      rw [← hg]
      exact PRel.prel_refl _ _

/-- The function `handleRemovals`, from a well-typed state and roots that are
mutation nodes, writes states on mutation nodes only. -/
theorem handleRemovals_tame (mgr : Manager) (fuel : Nat) (roots : List Ptr) (w w1 : Work)
    (ht : Typed w.1) (hroots : ∀ r ∈ roots, (w.1.heap r).isMutation = true)
    (h : handleRemovals mgr fuel roots w = some w1) : Tame w.1 w1.1 := by
  unfold handleRemovals at h
  split at h
  · exact absurd h (by simp)
  · rename_i w2 h2
    split at h
    · exact absurd h (by simp)
    · rename_i s3 m3 h3
      simp only [Option.some.injEq] at h
      rw [← h]
      obtain ⟨g1, b1⟩ := handleRoots_tame _ _ _ _ _ h2
      obtain ⟨g2, b2⟩ := handleDeadNodes_tame _ _ _ _ h3
      obtain ⟨ht2, _⟩ := ht.grow g1
      exact ((b1 ht hroots).tame_trans
        (b2 ht2 (fun c hc => ht2.dead c (mem_visitOrder.mp hc)))).tame_trans
        (Tame.tame_of_heap rfl)
theorem Tame.tame_applyIndices (s : State) (p : Ptr) (m : ShadowViewMutation) :
    Tame s (applyMutationToIndices s p m) := by
  unfold applyMutationToIndices
  generalize (s.node p).children = cs
  induction cs generalizing s with
  | nil => exact Tame.tame_refl s
  | cons c cs ih =>
    rw [List.foldl_cons]
    split
    · exact (Tame.tame_modify s c (fun n =>
        { n with mutation := { n.mutation with index := n.mutation.index + 1 } })
        (fun _ => ⟨rfl, rfl⟩)).tame_trans (ih _)
    · exact ih s

theorem Tame.tame_window (s : State) (m : ShadowViewMutation) (sid : SurfaceId) :
    Tame s (maybeUpdateWindowDimensions s m sid) := by
  unfold maybeUpdateWindowDimensions
  split
  · exact Tame.tame_of_heap rfl
  · exact Tame.tame_refl s

theorem Tame.tame_transferConfig (s : State) (str : String) (t : Tag) :
    Tame s (transferConfigFromNativeID s str t) := by
  unfold transferConfigFromNativeID
  split
  · exact Tame.tame_refl s
  · split
    · exact Tame.tame_of_heap rfl
    · exact Tame.tame_refl s
    · exact Tame.tame_refl s

theorem handleMutation_tame (mgr : Manager) (mv : Tag → Option Tag) (sid : SurfaceId)
    (l : UpdLoop) (m : ShadowViewMutation) : Tame l.s (handleMutation mgr mv sid l m).s := by
  have hW := Tame.tame_window l.s m sid
  have hA : ∀ p m1, Tame l.s (applyMutationToIndices (maybeUpdateWindowDimensions l.s m sid)
      p m1) := fun p m1 => hW.tame_trans (Tame.tame_applyIndices _ _ _)
  unfold handleMutation
  cases hty : m.type with
  | Create => exact hW
  | Delete => exact hW
  | Remove => exact hW
  | Insert =>
    simp only [handleInsert]
    repeat' split
    all_goals first
      | exact hW
      | exact hA _ _
      | exact hW.tame_trans (Tame.tame_of_heap rfl)
      | exact (hA _ _).tame_trans (Tame.tame_of_heap rfl)
      | exact hW.tame_trans (Tame.tame_transferConfig _ _ _)
      | exact (hA _ _).tame_trans (Tame.tame_transferConfig _ _ _)
  | Update =>
    simp only [handleUpdate]
    repeat' split
    all_goals first
      | exact hW
      | exact hW.tame_trans (Tame.tame_of_heap rfl)
      | (simp only [updateOngoingAnimationTarget]
         split
         · exact hW
         · exact hW.tame_trans (Tame.tame_of_heap rfl))

theorem handleUpdatesAndEnterings_tame (mgr : Manager) (mv : Tag → Option Tag)
    (sid : SurfaceId) (ms : ShadowViewMutationList) (w : Work) :
    Tame w.1 (handleUpdatesAndEnterings mgr mv sid ms w).1 := by
  have : ∀ (l : UpdLoop), Tame l.s (ms.foldl (handleMutation mgr mv sid) l).s := by
    induction ms with
    | nil => intro l; exact Tame.tame_refl _
    | cons x ms ih =>
      intro l
      rw [List.foldl_cons]
      exact (handleMutation_tame mgr mv sid l x).tame_trans (ih _)
  exact this { s := w.1, filteredMutations := w.2, oldShadowViewsForReparentings := fun _ => none }

theorem addOngoingAnimations_tame (sid : SurfaceId) (w : Work) :
    Tame w.1 (addOngoingAnimations sid w).1 := by
  have hfold : ∀ (es : List (Tag × UpdateValues)) (w : Work),
      Tame w.1 (es.foldl (fun (acc : Work) e =>
        match acc.1.layoutAnimations e.1 with
        | none => acc
        | some la =>
          let newView : ShadowView := { la.finalView with
            props := e.2.newProps,
            layoutMetrics := updateLayoutMetrics la.finalView.layoutMetrics e.2.frame }
          let la1 : LayoutAnimation := { la with currentView := newView }
          ({ acc.1 with
              layoutAnimations := Function.update acc.1.layoutAnimations e.1 (some la1) },
           acc.2 ++ [UpdateMutation la.currentView newView la.parentTag])) w).1 := by
    intro es
    induction es with
    | nil => intro w; exact Tame.tame_refl _
    | cons e es ih =>
      intro w
      simp only [List.foldl_cons]
      split
      · exact ih w
      · refine Tame.tame_trans ?_ (ih _)
        exact Tame.tame_of_heap rfl
  unfold addOngoingAnimations
  exact (hfold _ w).tame_trans (Tame.tame_of_heap rfl)

theorem runUITask_heap (s : State) (t : UITask) :
    (runUITask s t).heap = s.heap ∧ (runUITask s t).nodeForTag = s.nodeForTag ∧
    (runUITask s t).next = s.next ∧ (runUITask s t).deadNodes = s.deadNodes := by
  cases t with
  | entering tag mutation opacity => exact ⟨rfl, rfl, rfl, rfl⟩
  | exiting tag mutation => exact ⟨rfl, rfl, rfl, rfl⟩
  | layout tag mutation => exact ⟨rfl, rfl, rfl, rfl⟩
  | cancel tag => exact ⟨rfl, rfl, rfl, rfl⟩

/-- The scheduled closures touch neither the node arena nor the lookup table. -/
theorem runScheduled_heap (s : State) :
    (runScheduled s).heap = s.heap ∧ (runScheduled s).nodeForTag = s.nodeForTag ∧
    (runScheduled s).next = s.next ∧ (runScheduled s).deadNodes = s.deadNodes := by
  have hfold : ∀ (q : List UITask) (s0 : State),
      (q.foldl runUITask s0).heap = s0.heap ∧ (q.foldl runUITask s0).nodeForTag = s0.nodeForTag ∧
      (q.foldl runUITask s0).next = s0.next ∧
      (q.foldl runUITask s0).deadNodes = s0.deadNodes := by
    intro q
    induction q with
    | nil => intro s0; exact ⟨rfl, rfl, rfl, rfl⟩
    | cons t q ih =>
      intro s0
      rw [List.foldl_cons]
      obtain ⟨a1, a2, a3, a4⟩ := runUITask_heap s0 t
      obtain ⟨b1, b2, b3, b4⟩ := ih (runUITask s0 t)
      exact ⟨b1.trans a1, b2.trans a2, b3.trans a3, b4.trans a4⟩
  unfold runScheduled
  exact hfold _ _
theorem Tame.of_fields {s s1 : State}
    (h : ∀ z, (s1.heap z).isMutation = (s.heap z).isMutation ∧
      (s1.heap z).state = (s.heap z).state) : Tame s s1 :=
  fun z => Or.inl (h z)

theorem makeMutationNode_tame (s : State) (m : ShadowViewMutation) (node : Option Ptr) :
    Tame s (makeMutationNode s m node).2 := by
  cases node with
  | none => exact Tame.tame_alloc s _ (Or.inl rfl)
  | some p =>
    obtain ⟨B, hB⟩ : ∃ B, B = ((s.modifyNode p (fun n =>
        { n with children := [], unflattenedChildren := [] })).alloc
        { plainNode (s.node p).tag with
          children := (s.node p).children, unflattenedChildren := (s.node p).unflattenedChildren,
          isMutation := true, mutation := m }) := ⟨_, rfl⟩
    have h0 : Tame s B.2 := by
      rw [hB]
      exact (Tame.tame_modify s p (fun n => { n with children := [], unflattenedChildren := [] })
        (fun _ => ⟨rfl, rfl⟩)).tame_trans (Tame.tame_alloc _ _ (Or.inl rfl))
    simp only [makeMutationNode, ← hB]
    exact (h0.tame_trans
      (Tame.tame_foldl_modify (fun _ x => { x with parent := B.1 }) (fun _ _ => ⟨rfl, rfl⟩) _ _)).tame_trans
      (Tame.tame_foldl_modify (fun _ x => { x with unflattenedParent := B.1 })
        (fun _ _ => ⟨rfl, rfl⟩) _ _)

theorem parseRemove_tame (a : ParseAcc) (m : ShadowViewMutation) :
    Tame a.s (parseRemove a m).s := by
  obtain ⟨m1, hm1⟩ : ∃ m1, m1 = updateIndexForMutation a.s m := ⟨_, rfl⟩
  obtain ⟨k1, _, _, _, _, _, k7⟩ :=
    makeMutationNode_shape a.s m1 (a.s.nodeForTag m1.oldChildShadowView.tag)
  have hmk := makeMutationNode_tame a.s m1 (a.s.nodeForTag m1.oldChildShadowView.tag)
  obtain ⟨mk, hmkd⟩ : ∃ mk, mk = makeMutationNode a.s m1
      (a.s.nodeForTag m1.oldChildShadowView.tag) := ⟨_, rfl⟩
  rw [← hmkd] at k1 k7 hmk
  have hmut : (mk.2.heap mk.1).isMutation = true := by rw [k1]; exact k7.1
  obtain ⟨S1, hS1⟩ : ∃ S1 : State, S1 =
      if (!a.deletedViews.contains m1.oldChildShadowView.tag) = true then
        mk.2.modifyNode mk.1 (fun x => { x with state := .MOVED }) else mk.2 := ⟨_, rfl⟩
  have hT1 : Tame a.s S1 := by
    rw [hS1]
    split
    · exact hmk.tame_trans (Tame.mark _ _ _ hmut)
    · exact hmk
  unfold parseRemove
  simp only [← hm1, ← hmkd, ← hS1]
  refine Tame.tame_trans ?_ (Tame.tame_modify _ _ _ (fun _ => ⟨rfl, rfl⟩))
  split
  · exact hT1.tame_trans (Tame.tame_of_heap rfl)
  · exact ((hT1.tame_trans (Tame.tame_of_heap rfl)).tame_trans
      (Tame.tame_alloc _ _ (Or.inr rfl))).tame_trans (Tame.tame_of_heap rfl)

theorem parseStep_tame (a : ParseAcc) (m : ShadowViewMutation) :
    Tame a.s (parseStep a m).s := by
  by_cases hty : m.type = .Remove
  · rw [parseStep_remove a m hty]
    exact parseRemove_tame a m
  · obtain ⟨_, _, _, _, _, _, o7⟩ := parseStep_other a m hty
    exact Tame.of_fields (fun z => ⟨(o7 z).old_fields.1, (o7 z).old_fields.2.2.1⟩)

theorem scanResult_tame (s : State) : ∀ sc : ShadowViewMutationList,
    Tame s (scanResult s sc).s := by
  intro sc
  induction sc with
  | nil => exact Tame.tame_refl s
  | cons m sc ih =>
    rw [scanResult_cons]
    exact ih.tame_trans (parseStep_tame _ m)

/-- The function `parseRemoveMutations` builds mutation nodes and plain nodes in the
initial state and writes a state on the nodes it builds only. -/
theorem parseRemoveMutations_tame (s : State) (batch : ShadowViewMutationList) :
    Tame s (parseRemoveMutations s batch).s := by
  obtain ⟨a, ha⟩ : ∃ a, a = scanResult s batch := ⟨_, rfl⟩
  have hPs : (parseRemoveMutations s batch).s = attachUnflattenedChildren
      (attachChildren a.s a.childrenForTag) a.unflattenedChildrenForTag := by
    rw [ha]; rfl
  rw [hPs]
  obtain ⟨u1, _, _⟩ := attachUnflattenedChildren_F4 a.unflattenedChildrenForTag
    (attachChildren a.s a.childrenForTag)
  obtain ⟨v1, _, _⟩ := attachChildren_F4 a.childrenForTag a.s
  have h0 : Tame s a.s := by rw [ha]; exact scanResult_tame s batch
  exact (h0.tame_trans (Tame.of_fields (fun z => ⟨(v1 z).1, (v1 z).2.2.1⟩))).tame_trans
    (Tame.of_fields (fun z => ⟨(u1 z).1, (u1 z).2.2.1⟩))
theorem plain_fresh : Plain State.fresh := fun _ _ => rfl

theorem endLayoutAnimation_tame (s : State) (tag : Tag) (shouldRemove : Bool)
    (hnode : shouldRemove = true → ∀ p, s.nodeForTag tag = some p →
      (s.heap p).isMutation = true) :
    Tame s (endLayoutAnimation s tag shouldRemove).2 := by
  unfold endLayoutAnimation
  split
  · exact Tame.tame_refl s
  · rename_i la hla
    split
    · exact Tame.tame_of_heap rfl
    · simp only
      split
      · exact Tame.tame_of_heap rfl
      · rename_i hsr
        split
        · exact Tame.tame_of_heap rfl
        · rename_i p hp
          have hp1 : s.nodeForTag tag = some p := hp
          have hm := hnode (by simpa using hsr) p hp1
          obtain ⟨S, hS⟩ : ∃ S : State, S = { s with
              layoutAnimations := Function.update s.layoutAnimations tag none,
              updateMap := Function.update s.updateMap la.finalView.surfaceId
                ((s.updateMap la.finalView.surfaceId).filter (fun e => e.1 != tag)) } :=
            ⟨_, rfl⟩
          have hmS : (S.heap p).isMutation = true := by rw [hS]; exact hm
          have h1 : Tame s S := by rw [hS]; exact Tame.tame_of_heap rfl
          rw [← hS]
          exact (h1.tame_trans (Tame.mark S p .DEAD hmS)).tame_trans (Tame.tame_of_heap rfl)

/-- A transaction keeps the heap well typed and the plain nodes in their initial
state. -/
theorem pullTransaction_plain (mgr : Manager) (fuel : Nat) (s : State) (sid : SurfaceId)
    (batch : ShadowViewMutationList) (w : Work) (hs : Typed s) (hp : Plain s)
    (hw : pullTransaction mgr fuel s sid batch = some w) : Typed w.1 ∧ Plain w.1 := by
  unfold pullTransaction at hw
  simp only at hw
  split at hw
  · exact absurd hw (by simp)
  · rename_i w1 h1
    simp only [Option.some.injEq] at hw
    obtain ⟨hp1, hp2⟩ := parseRemoveMutations_typed s batch hs
    obtain ⟨ht1, _⟩ := handleRemovals_typed mgr fuel _ _ _ hp1 hp2 h1
    have hT1 := handleRemovals_tame mgr fuel _ _ _ hp1 hp2 h1
    have hg := (handleUpdatesAndEnterings_grow mgr
      (parseRemoveMutations s batch).movedViews sid batch w1).grow_trans
      (addOngoingAnimations_grow sid _)
    have hT2 := (handleUpdatesAndEnterings_tame mgr
      (parseRemoveMutations s batch).movedViews sid batch w1).tame_trans
      (addOngoingAnimations_tame sid _)
    rw [← hw]
    exact ⟨(ht1.grow hg).1,
      hp.tame (((parseRemoveMutations_tame s batch).tame_trans hT1).tame_trans hT2)⟩


/-- What `endLayoutAnimation` does to the arena: only the lookup-table entry of the
tag can change, and only in its state. -/
theorem endLayoutAnimation_heap (s : State) (tag : Tag) (shouldRemove : Bool) :
    (∀ q, s.nodeForTag tag ≠ some q →
      (endLayoutAnimation s tag shouldRemove).2.heap q = s.heap q) ∧
    (∀ q, ((endLayoutAnimation s tag shouldRemove).2.heap q).isMutation =
      (s.heap q).isMutation) := by
  unfold endLayoutAnimation
  split
  · exact ⟨fun _ _ => rfl, fun _ => rfl⟩
  · split
    · exact ⟨fun _ _ => rfl, fun _ => rfl⟩
    · simp only
      split
      · exact ⟨fun _ _ => rfl, fun _ => rfl⟩
      · split
        · exact ⟨fun _ _ => rfl, fun _ => rfl⟩
        · rename_i p hp
          have hp1 : s.nodeForTag tag = some p := hp
          refine ⟨fun q hq => ?_, fun q => ?_⟩
          · have hqp : q ≠ p := fun h => hq (by rw [h]; exact hp1)
            simp [State.modifyNode, State.setNode, Function.update_noteq hqp]
          · by_cases hqp : q = p
            · subst hqp
              simp [State.modifyNode, State.setNode, State.node]
            · simp [State.modifyNode, State.setNode, Function.update_noteq hqp]

/-- When the last trigger of the animation of a tag ends with `shouldRemove`, the
lookup-table entry of the tag is marked DEAD and queued. -/
theorem endLayoutAnimation_marks (s : State) (tag : Tag) (p : Ptr) (la : LayoutAnimation)
    (hp : s.nodeForTag tag = some p) (hla : s.layoutAnimations tag = some la)
    (hc : la.count ≤ 1) :
    (endLayoutAnimation s tag true).1 = some la.finalView.surfaceId ∧
    ((endLayoutAnimation s tag true).2.heap p).state = .DEAD ∧
    p ∈ (endLayoutAnimation s tag true).2.deadNodes := by
  have hc1 : ¬ la.count > 1 := not_lt.mpr hc
  unfold endLayoutAnimation
  split
  · rename_i h
    rw [hla] at h
    exact absurd h (by simp)
  · rename_i la1 h1
    have hl : la1 = la := by
      rw [hla] at h1
      exact (Option.some.inj h1).symm
    subst hl
    split
    · rename_i h
      exact absurd h hc1
    · simp only
      split
      · rename_i h
        exact absurd h (by simp)
      · split
        · rename_i h
          have h2 : s.nodeForTag tag = none := h
          rw [hp] at h2
          exact absurd h2 (by simp)
        · rename_i p1 h
          have h2 : s.nodeForTag tag = some p1 := h
          have hpp : p1 = p := by
            rw [hp] at h2
            exact (Option.some.inj h2).symm
          subst hpp
          refine ⟨rfl, ?_, ?_⟩
          · simp [State.modifyNode, State.setNode, State.node]
          · simp only
            split
            · assumption
            · exact List.mem_append_right _ (List.mem_singleton_self _)





theorem EndPost.post_refl (s : State) : EndPost s s [] :=
  ⟨fun p => by simp, fun t => by simp, fun t => by simp⟩

theorem EndPost.post_fields {s s1 : State} {V : List Ptr} (h : EndPost s s1 V) (p : Ptr) :
    (s1.heap p).unflattenedChildren = (s.heap p).unflattenedChildren ∧
    (s1.heap p).unflattenedParent = (s.heap p).unflattenedParent ∧
    (s1.heap p).tag = (s.heap p).tag ∧ (s1.heap p).mutation = (s.heap p).mutation ∧
    (p ∉ V → s1.heap p = s.heap p) ∧ (p ∈ V → (s1.heap p).state = .DELETED) := by
  rw [h.1 p]
  refine ⟨rfl, rfl, rfl, rfl, fun hp => ?_, fun hp => ?_⟩
  · simp [hp]
  · simp [hp]

theorem EndPost.post_trans {s s1 s2 : State} {V1 V2 : List Ptr} (h1 : EndPost s s1 V1)
    (h2 : EndPost s1 s2 V2) : EndPost s s2 (V1 ++ V2) := by
  have htag : V2.map (fun v => (s1.heap v).tag) = V2.map (fun v => (s.heap v).tag) :=
    List.map_congr_left (fun v _ => (h1.post_fields v).2.2.1)
  refine ⟨fun p => ?_, fun t => ?_, fun t => ?_⟩
  · rw [h2.1 p, h1.1 p]
    by_cases a : p ∈ V1 <;> by_cases b : p ∈ V2 <;> simp [a, b]
  · rw [h2.2.1 t, h1.2.1 t, htag, List.map_append]
    by_cases a : t ∈ V1.map (fun v => (s.heap v).tag) <;>
      by_cases b : t ∈ V2.map (fun v => (s.heap v).tag) <;> simp [a, b]
  · rw [h2.2.2 t, h1.2.2 t, htag, List.map_append]
    by_cases a : t ∈ V1.map (fun v => (s.heap v).tag) <;>
      by_cases b : t ∈ V2.map (fun v => (s.heap v).tag) <;> simp [a, b]

theorem Reach.reach_of_kids {h h1 : Ptr → Node}
    (hk : ∀ z, (h1 z).unflattenedChildren = (h z).unflattenedChildren) {a b : Ptr}
    (hr : Reach h a b) : Reach h1 a b := by
  induction hr with
  | refl p => exact Reach.refl p
  | step hc _ ih => exact Reach.step (by rw [hk]; exact hc) ih

theorem HtLe.height_of_kids {h h1 : Ptr → Node}
    (hk : ∀ z, (h1 z).unflattenedChildren = (h z).unflattenedChildren) :
    ∀ (k : Nat) (p : Ptr), HtLe h k p → HtLe h1 k p := by
  intro k
  induction k with
  | zero => intro p hp; exact hp
  | succ k ih =>
    intro p hp c hc
    rw [hk] at hc
    exact ih c (hp c hc)

theorem HtLe.not_self {h : Ptr → Node} : ∀ (k : Nat) (p : Ptr), HtLe h k p →
    p ∉ (h p).unflattenedChildren := by
  intro k
  induction k with
  | zero => intro p hp; exact absurd hp (by simp [HtLe])
  | succ k ih =>
    intro p hp hmem
    exact ih p (hp p hmem) hmem

theorem mem_postOrderNodes_reach {h : Ptr → Node} : ∀ (k : Nat) (p v : Ptr),
    v ∈ postOrderNodes h k p → Reach h p v := by
  intro k
  induction k with
  | zero => intro p v hv; simp [postOrderNodes] at hv
  | succ k ih =>
    intro p v hv
    simp only [postOrderNodes, List.mem_append, List.mem_flatMap, List.mem_filter,
      List.mem_reverse, List.mem_singleton] at hv
    rcases hv with ⟨c, ⟨hc, _⟩, hvc⟩ | hv
    · exact Reach.step hc (ih c v hvc)
    · rw [hv]; exact Reach.refl p

theorem postOrderNodes_congr {h h1 : Ptr → Node} : ∀ (k : Nat) (p : Ptr),
    (∀ z, Reach h p z → z ≠ p → h1 z = h z) →
    (h1 p).unflattenedChildren = (h p).unflattenedChildren →
    HtLe h k p →
    postOrderNodes h1 k p = postOrderNodes h k p := by
  intro k
  induction k with
  | zero => intro p _ _ _; rfl
  | succ k ih =>
    intro p hsame hkids hht
    have hne : ∀ c ∈ (h p).unflattenedChildren, c ≠ p := fun c hc hcp =>
      HtLe.not_self (k + 1) p hht (by rw [hcp] at hc; exact hc)
    have hchild : ∀ c ∈ (h p).unflattenedChildren, h1 c = h c := fun c hc =>
      hsame c (Reach.step hc (Reach.refl c)) (hne c hc)
    simp only [postOrderNodes, hkids]
    congr 1
    have hfilter : (h p).unflattenedChildren.reverse.filter
        (fun c => (h1 c).state ≠ .DELETED) =
        (h p).unflattenedChildren.reverse.filter (fun c => (h c).state ≠ .DELETED) := by
      apply List.filter_congr
      intro c hc
      rw [hchild c (List.mem_reverse.mp hc)]
    rw [hfilter]
    apply List.flatMap_congr
    intro c hc
    have hcm : c ∈ (h p).unflattenedChildren := List.mem_reverse.mp (List.mem_filter.mp hc).1
    refine ih c (fun z hz hzc => hsame z (Reach.step hcm hz) ?_) ?_ (hht c hcm)
    · intro hzp
      rw [hzp] at hz
      exact Reach.no_back hht (Reach.step hcm (Reach.refl c)) (hne c hcm) hz
    · rw [hchild c hcm]
theorem removalPairs_congr {h h1 : Ptr → Node} (hm : ∀ z, (h1 z).mutation = (h z).mutation)
    (l : List Ptr) : removalPairs h1 l = removalPairs h l := by
  unfold removalPairs
  apply List.flatMap_congr
  intro v _
  rw [hm v]

theorem removalPairs_append (h : Ptr → Node) (a b : List Ptr) :
    removalPairs h (a ++ b) = removalPairs h a ++ removalPairs h b := by
  unfold removalPairs
  exact List.flatMap_append _ _ _

theorem ParentOK.of_links {h h1 : Ptr → Node} (hpo : ParentOK h)
    (hl : ∀ z, (h1 z).unflattenedChildren = (h z).unflattenedChildren ∧
      (h1 z).unflattenedParent = (h z).unflattenedParent) : ParentOK h1 := by
  intro p c hc
  rw [(hl p).1] at hc
  rw [(hl c).2]
  exact hpo p c hc

/-- The loop of `endAnimationsRecursively` over distinct children of one node of a
tree, given what the recursive calls do. -/
theorem endLoop_exact (k : Nat)
    (ih : ∀ (node : Ptr) (s : State) (m : ShadowViewMutationList), ParentOK s.heap →
      (∀ p, (s.heap p).unflattenedChildren.Nodup) → HtLe s.heap k node →
      ∃ s1, endAnimationsRecursively k node (s, m) =
          some (s1, m ++ removalPairs s.heap (postOrderNodes s.heap k node)) ∧
        EndPost s s1 (postOrderNodes s.heap k node))
    (p0 : Ptr) : ∀ (L : List Ptr) (s : State) (m : ShadowViewMutationList),
      ParentOK s.heap → (∀ p, (s.heap p).unflattenedChildren.Nodup) →
      HtLe s.heap (k + 1) p0 → (∀ c ∈ L, c ∈ (s.heap p0).unflattenedChildren) → L.Nodup →
      ∃ s1, L.foldl
          (fun (acc : Option Work) subNode =>
            match acc with
            | none => none
            | some w =>
              if (w.1.node subNode).state ≠ .DELETED then
                endAnimationsRecursively k subNode w
              else some w)
          (some (s, m)) =
          some (s1, m ++ removalPairs s.heap
            ((L.filter (fun c => (s.heap c).state ≠ .DELETED)).flatMap (postOrderNodes s.heap k))) ∧
        EndPost s s1
          ((L.filter (fun c => (s.heap c).state ≠ .DELETED)).flatMap (postOrderNodes s.heap k)) := by
  intro L
  induction L with
  | nil =>
    intro s m _ _ _ _ _
    refine ⟨s, ?_, ?_⟩
    · simp [removalPairs]
    · simpa using EndPost.post_refl s
  | cons c cs ihL =>
    intro s m hpo hnd hht hL hLnd
    have hcm : c ∈ (s.heap p0).unflattenedChildren := hL c (List.mem_cons_self _ _)
    have hcs : ∀ d ∈ cs, d ∈ (s.heap p0).unflattenedChildren :=
      fun d hd => hL d (List.mem_cons_of_mem _ hd)
    obtain ⟨hc_notin, hcsnd⟩ := List.nodup_cons.mp hLnd
    rw [List.foldl_cons]
    by_cases hst : (s.heap c).state = .DELETED
    · have hstep : (if ((s, m).1.node c).state ≠ .DELETED then
          endAnimationsRecursively k c (s, m) else some (s, m)) = some (s, m) := by
        simp [State.node, hst]
      simp only [hstep]
      obtain ⟨s1, h1, h2⟩ := ihL s m hpo hnd hht hcs hcsnd
      refine ⟨s1, ?_, ?_⟩
      · rw [h1, List.filter_cons]
        simp [hst]
      · rw [List.filter_cons]
        simpa [hst] using h2
    · obtain ⟨s', hrun, hpost⟩ := ih c s m hpo hnd (hht c hcm)
      have hstep : (if ((s, m).1.node c).state ≠ .DELETED then
          endAnimationsRecursively k c (s, m) else some (s, m)) =
          some (s', m ++ removalPairs s.heap (postOrderNodes s.heap k c)) := by
        simp [State.node, hst, hrun]
      simp only [hstep]
      have hkids : ∀ z, (s'.heap z).unflattenedChildren = (s.heap z).unflattenedChildren :=
        fun z => (hpost.post_fields z).1
      have hlinks : ∀ z, (s'.heap z).unflattenedChildren = (s.heap z).unflattenedChildren ∧
          (s'.heap z).unflattenedParent = (s.heap z).unflattenedParent :=
        fun z => ⟨(hpost.post_fields z).1, (hpost.post_fields z).2.1⟩
      have hpo' : ParentOK s'.heap := hpo.of_links hlinks
      have hnd' : ∀ p, (s'.heap p).unflattenedChildren.Nodup := fun p => by
        rw [hkids]; exact hnd p
      have hht' : HtLe s'.heap (k + 1) p0 := HtLe.height_of_kids hkids _ _ hht
      have hcs' : ∀ d ∈ cs, d ∈ (s'.heap p0).unflattenedChildren := fun d hd => by
        rw [hkids]; exact hcs d hd
      obtain ⟨s1, h1, h2⟩ := ihL s' (m ++ removalPairs s.heap (postOrderNodes s.heap k c))
        hpo' hnd' hht' hcs' hcsnd
      -- the subtrees of the later children are untouched
      have hsame : ∀ d ∈ cs, ∀ z, Reach s.heap d z → s'.heap z = s.heap z := by
        intro d hd z hz
        refine (hpost.post_fields z).2.2.2.2.1 (fun hv => ?_)
        have hcd : c ≠ d := fun h => hc_notin (by rw [h]; exact hd)
        exact Reach.disjoint hpo hht hcm (hcs d hd) hcd (mem_postOrderNodes_reach k c z hv) hz
      have hfilter : cs.filter (fun d => (s'.heap d).state ≠ .DELETED) =
          cs.filter (fun d => (s.heap d).state ≠ .DELETED) := by
        apply List.filter_congr
        intro d hd
        rw [hsame d hd d (Reach.refl d)]
      have hvis : (cs.filter (fun d => (s.heap d).state ≠ .DELETED)).flatMap
          (postOrderNodes s'.heap k) =
          (cs.filter (fun d => (s.heap d).state ≠ .DELETED)).flatMap (postOrderNodes s.heap k) := by
        apply List.flatMap_congr
        intro d hd
        have hdm : d ∈ cs := (List.mem_filter.mp hd).1
        exact postOrderNodes_congr k d (fun z hz _ => hsame d hdm z hz) (hkids d)
          (hht d (hcs d hdm))
      rw [hfilter, hvis] at h1 h2
      rw [removalPairs_congr (fun z => (hpost.post_fields z).2.2.2.1)] at h1
      have hfc : (c :: cs).filter (fun d => (s.heap d).state ≠ .DELETED) =
          c :: cs.filter (fun d => (s.heap d).state ≠ .DELETED) := by
        rw [List.filter_cons]
        simp [hst]
      refine ⟨s1, ?_, ?_⟩
      · rw [h1, hfc, List.flatMap_cons, removalPairs_append, List.append_assoc]
      · rw [hfc, List.flatMap_cons]
        exact hpost.post_trans h2
/-- On a tree of bounded height `endAnimationsRecursively` returns; it appends the
pairs of the visited nodes in post-order and finalizes exactly these nodes. -/
theorem endAnimationsRecursively_exact : ∀ (k : Nat) (node : Ptr) (s : State)
    (m : ShadowViewMutationList), ParentOK s.heap →
    (∀ p, (s.heap p).unflattenedChildren.Nodup) → HtLe s.heap k node →
    ∃ s1, endAnimationsRecursively k node (s, m) =
        some (s1, m ++ removalPairs s.heap (postOrderNodes s.heap k node)) ∧
      EndPost s s1 (postOrderNodes s.heap k node) := by
  intro k
  induction k with
  | zero => intro node s m _ _ h; exact absurd h (by simp [HtLe])
  | succ k ih =>
    intro node s m hpo hnd hht
    obtain ⟨s2, hs2⟩ : ∃ s2, s2 = (maybeCancelAnimation s (s.node node).tag).modifyNode node
        (fun n => { n with state := .DELETED }) := ⟨_, rfl⟩
    have hheap2 : ∀ p, s2.heap p =
        { s.heap p with state := if p = node then .DELETED else (s.heap p).state } := by
      intro p
      rw [hs2]
      by_cases hp : p = node
      · subst hp
        simp [State.modifyNode, State.setNode, State.node, maybeCancelAnimation_heap]
      · simp [State.modifyNode, State.setNode, Function.update_noteq hp,
          maybeCancelAnimation_heap, hp]
    have htab2 : s2.nodeForTag = s.nodeForTag := by
      rw [hs2]
      exact maybeCancelAnimation_nodeForTag s _
    have hla2 : ∀ t, s2.layoutAnimations t =
        if t = (s.heap node).tag then none else s.layoutAnimations t := by
      intro t
      rw [hs2]
      show (maybeCancelAnimation s (s.heap node).tag).layoutAnimations t = _
      unfold maybeCancelAnimation
      split
      · rename_i hnone
        by_cases ht : t = (s.heap node).tag
        · rw [if_pos ht, ht]; exact hnone
        · rw [if_neg ht]
      · by_cases ht : t = (s.heap node).tag
        · rw [if_pos ht, ht]; simp
        · rw [if_neg ht]; simp [Function.update_noteq ht]
    have hsame2 : ∀ z, z ≠ node → s2.heap z = s.heap z := by
      intro z hz
      rw [hheap2 z, if_neg hz]
    have hkids2 : ∀ z, (s2.heap z).unflattenedChildren = (s.heap z).unflattenedChildren :=
      fun z => by rw [hheap2 z]
    have hlinks2 : ∀ z, (s2.heap z).unflattenedChildren = (s.heap z).unflattenedChildren ∧
        (s2.heap z).unflattenedParent = (s.heap z).unflattenedParent :=
      fun z => by rw [hheap2 z]; exact ⟨rfl, rfl⟩
    have hpo2 : ParentOK s2.heap := hpo.of_links hlinks2
    have hnd2 : ∀ p, (s2.heap p).unflattenedChildren.Nodup := fun p => by
      rw [hkids2]; exact hnd p
    have hht2 : HtLe s2.heap (k + 1) node := HtLe.height_of_kids hkids2 _ _ hht
    obtain ⟨s3, hfold, hpost3⟩ := endLoop_exact k ih node
      (s2.node node).unflattenedChildren.reverse s2 m hpo2 hnd2 hht2
      (fun c hc => List.mem_reverse.mp hc) (List.nodup_reverse.mpr (hnd2 node))
    have hne : ∀ c ∈ (s.heap node).unflattenedChildren, c ≠ node := fun c hc hcp =>
      HtLe.not_self (k + 1) node hht (by rw [hcp] at hc; exact hc)
    have hsub : ∀ c ∈ (s.heap node).unflattenedChildren, ∀ z, Reach s.heap c z →
        s2.heap z = s.heap z := by
      intro c hc z hz
      refine hsame2 z (fun hzn => ?_)
      rw [hzn] at hz
      exact Reach.no_back hht (Reach.step hc (Reach.refl c)) (hne c hc) hz
    have hL : (s2.node node).unflattenedChildren.reverse =
        (s.heap node).unflattenedChildren.reverse := by
      show (s2.heap node).unflattenedChildren.reverse = _
      rw [hkids2]
    have hfilter : (s.heap node).unflattenedChildren.reverse.filter
        (fun d => (s2.heap d).state ≠ .DELETED) =
        (s.heap node).unflattenedChildren.reverse.filter
          (fun d => (s.heap d).state ≠ .DELETED) := by
      apply List.filter_congr
      intro d hd
      rw [hsub d (List.mem_reverse.mp hd) d (Reach.refl d)]
    have hvis : ((s.heap node).unflattenedChildren.reverse.filter
        (fun d => (s.heap d).state ≠ .DELETED)).flatMap (postOrderNodes s2.heap k) =
        ((s.heap node).unflattenedChildren.reverse.filter
          (fun d => (s.heap d).state ≠ .DELETED)).flatMap (postOrderNodes s.heap k) := by
      apply List.flatMap_congr
      intro d hd
      have hdm : d ∈ (s.heap node).unflattenedChildren :=
        List.mem_reverse.mp (List.mem_filter.mp hd).1
      exact postOrderNodes_congr k d (fun z hz _ => hsub d hdm z hz) (hkids2 d) (hht d hdm)
    obtain ⟨V, hV⟩ : ∃ V, V = ((s.heap node).unflattenedChildren.reverse.filter
        (fun d => (s.heap d).state ≠ .DELETED)).flatMap (postOrderNodes s.heap k) := ⟨_, rfl⟩
    have hVeq : ((s2.node node).unflattenedChildren.reverse.filter
        (fun c => (s2.heap c).state ≠ .DELETED)).flatMap (postOrderNodes s2.heap k) = V := by
      rw [hL, hfilter, hvis, hV]
    rw [hVeq] at hfold hpost3
    rw [@removalPairs_congr s.heap s2.heap (fun z => by rw [hheap2 z]) V] at hfold
    have hvisited : postOrderNodes s.heap (k + 1) node = V ++ [node] := by
      rw [hV]; rfl
    have htags : V.map (fun v => (s2.heap v).tag) = V.map (fun v => (s.heap v).tag) :=
      List.map_congr_left (fun v _ => by rw [hheap2 v])
    have h3node : s3.node node = { s.heap node with state := (s3.heap node).state } := by
      show s3.heap node = _
      rw [hpost3.1 node, hheap2 node]
    refine ⟨{ s3 with nodeForTag := Function.update s3.nodeForTag (s3.node node).tag none }, ?_,
      ?_⟩
    · unfold endAnimationsRecursively
      simp only [← hs2]
      split
      · rename_i hnone
        exact absurd (hnone.symm.trans hfold) (by simp)
      · rename_i s3a m3a hsome
        have he := hsome.symm.trans hfold
        simp only [Option.some.injEq, Prod.mk.injEq] at he
        obtain ⟨e1, e2⟩ := he
        subst e1
        subst e2
        simp only [hvisited, removalPairs_append, h3node]
        simp [removalPairs, List.append_assoc]
    · rw [hvisited]
      refine ⟨fun p => ?_, fun t => ?_, fun t => ?_⟩
      · show s3.heap p = _
        rw [hpost3.1 p, hheap2 p]
        by_cases a : p ∈ V <;> by_cases b : p = node <;> simp [a, b]
      · show Function.update s3.nodeForTag (s3.node node).tag none t = _
        rw [h3node, List.map_append]
        by_cases b : t = (s.heap node).tag
        · rw [b]; simp
        · rw [Function.update_noteq b, hpost3.2.1 t, htags, htab2]
          by_cases a : t ∈ V.map (fun v => (s.heap v).tag) <;> simp [a, b]
      · show s3.layoutAnimations t = _
        rw [hpost3.2.2 t, htags, hla2 t, List.map_append]
        by_cases a : t ∈ V.map (fun v => (s.heap v).tag) <;>
          by_cases b : t = (s.heap node).tag <;> simp [a, b]
theorem mem_postOrderNodes_live {h : Ptr → Node} : ∀ (k : Nat) (p v : Ptr),
    v ∈ postOrderNodes h k p → Live h p v := by
  intro k
  induction k with
  | zero => intro p v hv; simp [postOrderNodes] at hv
  | succ k ih =>
    intro p v hv
    simp only [postOrderNodes, List.mem_append, List.mem_flatMap, List.mem_filter,
      List.mem_reverse, List.mem_singleton] at hv
    rcases hv with ⟨c, ⟨hc, hst⟩, hvc⟩ | hv
    · exact Live.step hc (by simpa using hst) (ih c v hvc)
    · rw [hv]; exact Live.refl p

theorem Live.mem_postOrderNodes {h : Ptr → Node} {p v : Ptr} (hl : Live h p v) :
    ∀ k, HtLe h k p → v ∈ postOrderNodes h k p := by
  induction hl with
  | refl p =>
    intro k hk
    cases k with
    | zero => exact absurd hk (by simp [HtLe])
    | succ k => simp [postOrderNodes]
  | @step p c z hc hst _ ih =>
    intro k hk
    cases k with
    | zero => exact absurd hk (by simp [HtLe])
    | succ k =>
      simp only [postOrderNodes, List.mem_append, List.mem_flatMap, List.mem_filter,
        List.mem_reverse, List.mem_singleton]
      left
      exact ⟨c, ⟨hc, by simpa using hst⟩, ih k (hk c hc)⟩

/-- When the descendants of a DELETED node are DELETED, every descendant that is
not DELETED is reached through nodes that are not DELETED. -/
theorem Live.of_reach {h : Ptr → Node}
    (hcl : ∀ p c, c ∈ (h p).unflattenedChildren → (h p).state = .DELETED →
      (h c).state = .DELETED) {p z : Ptr} (hr : Reach h p z) :
    (z = p ∨ (h z).state ≠ .DELETED) → Live h p z := by
  have hdown : ∀ {a b : Ptr}, Reach h a b → (h a).state = .DELETED →
      (h b).state = .DELETED := by
    intro a b hab
    induction hab with
    | refl _ => exact fun h => h
    | step hc _ ih => exact fun ha => ih (hcl _ _ hc ha)
  induction hr with
  | refl p => exact fun _ => Live.refl p
  | @step p c z hc hcz ih =>
    intro hz
    rcases hz with hz | hz
    · rw [hz]; exact Live.refl p
    · exact Live.step hc (fun hcd => hz (hdown hcz hcd)) (ih (Or.inr hz))

theorem postOrderNodes_nodup {h : Ptr → Node} (hpo : ParentOK h)
    (hnd : ∀ p, (h p).unflattenedChildren.Nodup) : ∀ (k : Nat) (p : Ptr), HtLe h k p →
    (postOrderNodes h k p).Nodup := by
  intro k
  induction k with
  | zero => intro p _; simp [postOrderNodes]
  | succ k ih =>
    intro p hk
    have hne : ∀ c ∈ (h p).unflattenedChildren, c ≠ p := fun c hc hcp =>
      HtLe.not_self (k + 1) p hk (by rw [hcp] at hc; exact hc)
    simp only [postOrderNodes]
    rw [List.nodup_append]
    refine ⟨List.nodup_flatMap.mpr ⟨fun c hc => ?_, ?_⟩, List.nodup_singleton p, ?_⟩
    · exact ih c (hk c (List.mem_reverse.mp (List.mem_filter.mp hc).1))
    · refine List.Nodup.pairwise_of_forall_ne
        ((List.nodup_reverse.mpr (hnd p)).filter _) (fun a ha b hb hab => ?_)
      have ham : a ∈ (h p).unflattenedChildren := List.mem_reverse.mp (List.mem_filter.mp ha).1
      have hbm : b ∈ (h p).unflattenedChildren := List.mem_reverse.mp (List.mem_filter.mp hb).1
      show List.Disjoint (postOrderNodes h k a) (postOrderNodes h k b)
      intro z hza hzb
      exact Reach.disjoint hpo hk ham hbm hab (mem_postOrderNodes_reach k a z hza)
        (mem_postOrderNodes_reach k b z hzb)
    · intro z hz hzp
      rw [List.mem_singleton] at hzp
      rw [List.mem_flatMap] at hz
      obtain ⟨c, hc, hzc⟩ := hz
      have hcm : c ∈ (h p).unflattenedChildren := List.mem_reverse.mp (List.mem_filter.mp hc).1
      have hr := mem_postOrderNodes_reach k c z hzc
      rw [hzp] at hr
      exact Reach.no_back hk (Reach.step hcm (Reach.refl c)) (hne c hcm) hr

/-- C25: on a finite subtree (every unflattened child points back to its parent
and is listed once, and the recursion budget covers the height),
`endAnimationsRecursively(node)` returns.  It appends, for each node it visits,
the structural removal of the node followed by its Delete, in post-order with
the children taken from the last to the first, so that the pair of `node` is
appended last; each node is visited once; the visited nodes are `node` and
the descendants reached through children that are not DELETED, which are all
the descendants not already DELETED when the descendants of a DELETED node
are DELETED; afterwards every visited node is DELETED and its tag is neither
in the lookup table nor in the table of the animations in flight, and no
other node changes. -/
theorem endAnimationsRecursively_post_order (fuel : Nat) (node : Ptr) (s : State)
    (m : ShadowViewMutationList) (hpo : ParentOK s.heap)
    (hnd : ∀ p, (s.heap p).unflattenedChildren.Nodup) (hht : HtLe s.heap fuel node) :
    ∃ s1, endAnimationsRecursively fuel node (s, m) =
        some (s1, m ++ removalPairs s.heap (postOrderNodes s.heap fuel node)) ∧
      (∃ pre, postOrderNodes s.heap fuel node = pre ++ [node] ∧
        removalPairs s.heap (postOrderNodes s.heap fuel node) =
          removalPairs s.heap pre ++ [(s.heap node).mutation,
            DeleteMutation (s.heap node).mutation.oldChildShadowView]) ∧
      (postOrderNodes s.heap fuel node).Nodup ∧
      (∀ v, v ∈ postOrderNodes s.heap fuel node ↔ Live s.heap node v) ∧
      ((∀ p c, c ∈ (s.heap p).unflattenedChildren → (s.heap p).state = .DELETED →
          (s.heap c).state = .DELETED) →
        ∀ z, Reach s.heap node z → (s.heap z).state ≠ .DELETED →
          z ∈ postOrderNodes s.heap fuel node) ∧
      (∀ v ∈ postOrderNodes s.heap fuel node,
        (s1.heap v).state = .DELETED ∧ s1.nodeForTag (s.heap v).tag = none ∧
        s1.layoutAnimations (s.heap v).tag = none) ∧
      (∀ p, p ∉ postOrderNodes s.heap fuel node → s1.heap p = s.heap p) := by
  obtain ⟨s1, hrun, hpost⟩ := endAnimationsRecursively_exact fuel node s m hpo hnd hht
  refine ⟨s1, hrun, ?_, postOrderNodes_nodup hpo hnd fuel node hht,
    fun v => ⟨mem_postOrderNodes_live fuel node v, fun hl => hl.mem_postOrderNodes fuel hht⟩,
    fun hcl z hz hst => (Live.of_reach hcl hz (Or.inr hst)).mem_postOrderNodes fuel hht,
    fun v hv => ⟨(hpost.post_fields v).2.2.2.2.2 hv, ?_, ?_⟩,
    fun p hp => (hpost.post_fields p).2.2.2.2.1 hp⟩
  · cases fuel with
    | zero => exact absurd hht (by simp [HtLe])
    | succ k =>
      refine ⟨_, rfl, ?_⟩
      simp only [postOrderNodes, removalPairs_append]
      simp [removalPairs]
  · rw [hpost.2.1]
    exact if_pos (List.mem_map_of_mem _ hv)
  · rw [hpost.2.2]
    exact if_pos (List.mem_map_of_mem _ hv)

/-- Witness of C25: the parse of the nested removal of the views 7 and 8 leaves the
node of view 7 (pointer 1) above the node of view 8 (pointer 3); finalizing
pointer 1 appends the pair of view 8, then the pair of view 7. -/
theorem endAnimationsRecursively_post_order_witness :
    filtered (endAnimationsRecursively 4 1
      ((parseRemoveMutations State.fresh nestedExitBatch).s, [])) =
      some [RemoveMutation 7 (sampleView 8) 0, DeleteMutation (sampleView 8),
        RemoveMutation 1 (sampleView 7) 0, DeleteMutation (sampleView 7)] ∧
    postOrderNodes (parseRemoveMutations State.fresh nestedExitBatch).s.heap 4 1 = [3, 1] ∧
    ∃ s1, endAnimationsRecursively 4 1
        ((parseRemoveMutations State.fresh nestedExitBatch).s, []) =
        some (s1, [] ++ removalPairs (parseRemoveMutations State.fresh nestedExitBatch).s.heap
          (postOrderNodes (parseRemoveMutations State.fresh nestedExitBatch).s.heap 4 1)) ∧
      ∀ v ∈ postOrderNodes (parseRemoveMutations State.fresh nestedExitBatch).s.heap 4 1,
        (s1.heap v).state = .DELETED ∧
        s1.nodeForTag ((parseRemoveMutations State.fresh nestedExitBatch).s.heap v).tag = none ∧
        s1.layoutAnimations ((parseRemoveMutations State.fresh nestedExitBatch).s.heap v).tag
          = none :=
  ⟨by decide, by decide,
    let ⟨s1, h1, _, _, _, _, h6, _⟩ := endAnimationsRecursively_post_order 4 1
      (parseRemoveMutations State.fresh nestedExitBatch).s []
      (parseRemoveMutations_forest nestedExitBatch (by decide)).1.parentOK
      (parseRemoveMutations_forest nestedExitBatch (by decide)).1.nodup
      ((parseRemoveMutations_forest nestedExitBatch (by decide)).2.2 1 (by decide)).2.2.2.1
    ⟨s1, h1, h6⟩⟩

/-- The invariant of the removal pass holds for a tag that no allocated mutation
node carries, when the mutation nodes hold the Remove of the view of their tag
and the unflattened children are allocated mutation nodes. -/
theorem RemInv.of_untagged {t : Tag} {h : Ptr → Node} {n : Nat}
    (hn : ∀ p, p < n →
      ((h p).isMutation = true → (h p).mutation.type = .Remove ∧
        (h p).tag = (h p).mutation.oldChildShadowView.tag ∧
        (h p).mutation.oldChildShadowView.tag ≠ t) ∧
      ∀ c ∈ (h p).unflattenedChildren, (h c).isMutation = true ∧ c < n) :
    RemInv t h n := by
  have hreach : ∀ {p z : Ptr}, Reach h p z → p < n → z < n := by
    intro p z hr
    induction hr with
    | refl _ => exact fun hp => hp
    | step hc _ ih => exact fun hp => ih ((hn _ hp).2 _ hc).2
  have hnot : ∀ z, z < n → ¬ IsT t h z := fun z hz hT => ((hn z hz).1 hT.1).2.2 hT.2
  exact ⟨fun p hp hm => ((hn p hp).1 hm).1, fun p hp hT => absurd hT (hnot p hp),
    fun p hp hm => ((hn p hp).1 hm).2.1, fun p hp c hc => (hn p hp).2 c hc,
    fun p hp _ z hz => hnot z (hreach hz hp)⟩

theorem foldl_layoutAnimations {α : Type} (f : State → α → State)
    (hf : ∀ s x, (f s x).layoutAnimations = s.layoutAnimations) :
    ∀ (l : List α) (s : State), (l.foldl f s).layoutAnimations = s.layoutAnimations := by
  intro l
  induction l with
  | nil => intro s; rfl
  | cons x l ih => intro s; rw [List.foldl_cons, ih, hf]

theorem modifyNode_layoutAnimations (s : State) (p : Ptr) (f : Node → Node) :
    (s.modifyNode p f).layoutAnimations = s.layoutAnimations := rfl

theorem removeChild_layoutAnimations (s : State) (p c : Ptr) :
    (removeChildFromUnflattenedTree s p c).layoutAnimations = s.layoutAnimations := rfl

theorem makeMutationNode_layoutAnimations (s : State) (m : ShadowViewMutation) (node : Option Ptr) :
    (makeMutationNode s m node).2.layoutAnimations = s.layoutAnimations := by
  unfold makeMutationNode
  cases node with
  | none => rfl
  | some p =>
    simp only
    exact (foldl_layoutAnimations _ (by intro s x; rfl) _ _).trans
      ((foldl_layoutAnimations _ (by intro s x; rfl) _ _).trans rfl)

theorem parseRemove_layoutAnimations (a : ParseAcc) (m : ShadowViewMutation) :
    (parseRemove a m).s.layoutAnimations = a.s.layoutAnimations := by
  have h := makeMutationNode_layoutAnimations a.s (updateIndexForMutation a.s m)
    (a.s.nodeForTag (updateIndexForMutation a.s m).oldChildShadowView.tag)
  unfold parseRemove
  simp only [State.modifyNode, State.setNode]
  split <;> split <;> simp [h, State.alloc]

theorem parseStep_layoutAnimations (a : ParseAcc) (m : ShadowViewMutation) :
    (parseStep a m).s.layoutAnimations = a.s.layoutAnimations := by
  rcases parseStep_forms a m with h | h | h | ⟨p, h⟩
  · rw [h]; exact parseRemove_layoutAnimations a m
  · rw [h]
  · rw [h]
  · rw [h]; rfl

theorem foldl_parseStep_layoutAnimations : ∀ (l : ShadowViewMutationList) (a : ParseAcc),
    (l.foldl parseStep a).s.layoutAnimations = a.s.layoutAnimations := by
  intro l
  induction l with
  | nil => intro a; rfl
  | cons x l ih => intro a; rw [List.foldl_cons, ih, parseStep_layoutAnimations]

theorem attachChildren_layoutAnimations (s : State) (l : List (Tag × List Ptr)) :
    (attachChildren s l).layoutAnimations = s.layoutAnimations := by
  unfold attachChildren
  apply foldl_layoutAnimations
  intro s e
  split
  · rfl
  · exact (foldl_layoutAnimations _ (by intro s x; rfl) _ _).trans rfl

theorem attachUnflattenedChildren_layoutAnimations (s : State) (l : List (Tag × List Ptr)) :
    (attachUnflattenedChildren s l).layoutAnimations = s.layoutAnimations := by
  unfold attachUnflattenedChildren
  apply foldl_layoutAnimations
  intro s e
  split
  · rfl
  · exact (foldl_layoutAnimations _ (by intro s x; rfl) _ _).trans rfl

theorem parseRemoveMutations_layoutAnimations (s : State) (batch : ShadowViewMutationList) :
    (parseRemoveMutations s batch).s.layoutAnimations = s.layoutAnimations := by
  unfold parseRemoveMutations
  simp only
  rw [attachUnflattenedChildren_layoutAnimations, attachChildren_layoutAnimations, foldl_parseStep_layoutAnimations]

theorem eraseLastWithTag_not_mem (tagOf : Ptr → Tag) (d : Ptr) : ∀ l : List Ptr, l.Nodup →
    (∀ x ∈ l, tagOf x = tagOf d → x = d) → d ∉ eraseLastWithTag tagOf (tagOf d) l := by
  intro l
  induction l with
  | nil => intro _ _ h; cases h
  | cons p ps ih =>
    intro hnd huniq
    obtain ⟨hp, hps⟩ := List.nodup_cons.mp hnd
    unfold eraseLastWithTag
    split
    · rename_i h
      have hpd : p = d := huniq p (List.mem_cons_self _ _) h.1
      rw [← hpd]
      exact hp
    · rename_i h
      have hne : d ≠ p := by
        intro hdp
        apply h
        refine ⟨by rw [hdp], fun q hq hqt => ?_⟩
        have := huniq q (List.mem_cons_of_mem _ hq) hqt
        rw [this, hdp] at hq
        exact hp hq
      intro hmem
      rcases List.mem_cons.mp hmem with h1 | h1
      · exact hne h1
      · exact ih hps (fun x hx => huniq x (List.mem_cons_of_mem _ hx)) h1

theorem Shrink.shrink_refl (s : State) : Shrink s s := fun _ => List.Sublist.refl _

theorem Shrink.shrink_trans {s s1 s2 : State} (h1 : Shrink s s1) (h2 : Shrink s1 s2) :
    Shrink s s2 := fun p => (h2 p).trans (h1 p)

theorem Shrink.gone {h0 : Ptr → Node} {c : Ptr} {s s1 : State} (h : Shrink s s1)
    (hg : Gone h0 c s) : Gone h0 c s1 := fun p d hd => hg p d ((h p).subset hd)

/-- A state whose nodes have the flattened children, tags and flattened parents
of the nodes of `s` inherits `FlatG` from `s`. -/
theorem FlatG.flat_of_fields {h0 : Ptr → Node} {n0 : Nat} {s s1 : State} (hG : FlatG h0 n0 s)
    (h : ∀ z, (s1.heap z).children = (s.heap z).children ∧ (s1.heap z).tag = (s.heap z).tag ∧
      (s1.heap z).parent = (s.heap z).parent)
    (hl : ∀ t, s1.layoutAnimations t = none) :
    FlatG h0 n0 s1 ∧ Shrink s s1 :=
  ⟨⟨fun z hz => ⟨(h z).2.1.trans (hG.kept z hz).1, (h z).2.2.trans (hG.kept z hz).2⟩,
    fun p => by rw [(h p).1]; exact hG.sub p, hl⟩,
   fun p => by rw [(h p).1]⟩

theorem maybeCancelAnimation_idle (s : State) (tag : Tag)
    (h : ∀ t, s.layoutAnimations t = none) : maybeCancelAnimation s tag = s := by
  simp [maybeCancelAnimation, h tag]

/-- Detaching the mutation node `d` keeps `FlatG`, adds no flattened child, and
leaves `d` among the flattened children of no node. -/
theorem removeChild_flat {mgr : Manager} {h0 : Ptr → Node} {n0 : Nat}
    (C : QuietCtx mgr h0 n0) (s : State) (self d : Ptr) (hd : d < n0)
    (hdm : (h0 d).isMutation = true) (hG : FlatG h0 n0 s) :
    FlatG h0 n0 (removeChildFromUnflattenedTree s self d) ∧
    Shrink s (removeChildFromUnflattenedTree s self d) ∧
    ∀ p, d ∉ ((removeChildFromUnflattenedTree s self d).heap p).children := by
  have hnode := removeChildFromUnflattenedTree_node s self d
  have hsame : ∀ z, ((removeChildFromUnflattenedTree s self d).heap z).tag = (s.heap z).tag ∧
      ((removeChildFromUnflattenedTree s self d).heap z).parent = (s.heap z).parent := by
    intro z
    have := hnode z
    simp only [State.node] at this
    rw [this]
    exact ⟨rfl, rfl⟩
  have hch : ∀ p, ((removeChildFromUnflattenedTree s self d).heap p).children =
      if p = (s.heap d).parent then
        eraseLastWithTag (fun q => (s.heap q).tag) (s.heap d).tag (s.heap p).children
      else (s.heap p).children := by
    intro p
    have := hnode p
    simp only [State.node] at this
    rw [this]
  have hsub : Shrink s (removeChildFromUnflattenedTree s self d) := by
    intro p
    rw [hch p]
    split
    · exact eraseLastWithTag_sublist _ _ _
    · exact List.Sublist.refl _
  refine ⟨⟨fun z hz => ⟨(hsame z).1.trans (hG.kept z hz).1, (hsame z).2.trans (hG.kept z hz).2⟩,
    fun p => (hsub p).trans (hG.sub p), hG.idle⟩, hsub, fun p hmem => ?_⟩
  rw [hch p] at hmem
  by_cases hp : p = (s.heap d).parent
  · rw [if_pos hp] at hmem
    have hnd : (s.heap p).children.Nodup := (hG.sub p).nodup (C.flatNodup p)
    refine eraseLastWithTag_not_mem (fun q => (s.heap q).tag) d (s.heap p).children hnd
      (fun x hx hxt => ?_) hmem
    have hx0 := (hG.sub p).subset hx
    obtain ⟨hpn, hxk, _⟩ := C.flat p x hx0
    have hxn := C.forest.bound p hpn x hxk
    have hxm := C.forest.kidsMut p hpn x hxk
    refine C.tags x d hxn hd hxm hdm ?_
    rw [← (hG.kept x hxn).1, ← (hG.kept d hd).1]
    exact hxt
  · rw [if_neg hp] at hmem
    have h0mem := (hG.sub p).subset hmem
    obtain ⟨_, _, hpar⟩ := C.flat p d h0mem
    rw [(hG.kept d hd).2, hpar] at hp
    exact hp rfl

theorem foldl_removeChild_flat {mgr : Manager} {h0 : Ptr → Node} {n0 : Nat}
    (C : QuietCtx mgr h0 n0) (node : Ptr) : ∀ (tbr : List Ptr) (s : State),
    (∀ d ∈ tbr, d < n0 ∧ (h0 d).isMutation = true) → FlatG h0 n0 s →
    FlatG h0 n0 (tbr.foldl (fun acc sub => removeChildFromUnflattenedTree acc node sub) s) ∧
    Shrink s (tbr.foldl (fun acc sub => removeChildFromUnflattenedTree acc node sub) s) ∧
    ∀ d ∈ tbr, ∀ p, d ∉ ((tbr.foldl (fun acc sub =>
      removeChildFromUnflattenedTree acc node sub) s).heap p).children := by
  intro tbr
  induction tbr with
  | nil => intro s _ hG; exact ⟨hG, Shrink.shrink_refl s, fun d hd => by cases hd⟩
  | cons c tbr ih =>
    intro s htbr hG
    simp only [List.foldl_cons]
    obtain ⟨a1, a2, a3⟩ := removeChild_flat C s node c (htbr c (List.mem_cons_self _ _)).1
      (htbr c (List.mem_cons_self _ _)).2 hG
    obtain ⟨b1, b2, b3⟩ := ih (removeChildFromUnflattenedTree s node c)
      (fun d hd => htbr d (List.mem_cons_of_mem _ hd)) a1
    refine ⟨b1, a2.shrink_trans b2, fun d hd p hmem => ?_⟩
    rcases List.mem_cons.mp hd with h | h
    · rw [h] at hmem
      exact a3 p ((b2 p).subset hmem)
    · exact b3 d h p hmem
/-- One step of the loop of `startAnimationsRecursively` when nothing is
deferred: the child is queued for removal and its subtree and itself are
emitted. -/
theorem startLoopStep_quiet {mgr : Manager} {h0 : Ptr → Node} {n0 : Nat}
    (C : QuietCtx mgr h0 n0) (fuel : Nat) (hq : QuietG mgr h0 n0 fuel) (sa sp : Bool)
    (l : StartLoop) (d : Ptr) (hht : HtLe h0 fuel d) (hd : d < n0) (hn : n0 ≤ l.s.next)
    (hst : (h0 d).state = .UNDEFINED ∨ (h0 d).state = .MOVED)
    (hprist : ∀ z, Reach h0 d z → Kept (l.s.heap z) (h0 z)) (hG : FlatG h0 n0 l.s) :
    ∃ l1, startLoopStep (endAnimationsRecursively fuel)
        (fun subNode w => startAnimationsRecursively mgr fuel subNode true sa sp w)
        sa true (some l) d = some l1 ∧
      l1.mutations = l.mutations ++ (outOfM h0 fuel d ++ emitOf h0 d) ∧
      l1.toBeRemoved = l.toBeRemoved ++ [d] ∧
      FlatG h0 n0 l1.s ∧ Shrink l.s l1.s ∧ Gone h0 d l1.s := by
  obtain ⟨s1, hrun, P, G1, Sh1, Go1⟩ := hq d l.s l.mutations sa sp hht hd hn hst hprist hG
  have hd0 : (l.s.heap d).state = (h0 d).state := (hprist d (Reach.refl d)).2.2.2.1
  have hbranch : ¬ ((l.s.heap d).state ≠ .UNDEFINED ∧ (l.s.heap d).state ≠ .MOVED) := by
    rw [hd0]
    rcases hst with h | h <;> rw [h] <;> simp
  have hs1 : (s1.heap d).state = (h0 d).state := by
    rcases P.state with h | ⟨_, h2⟩
    · exact h
    · obtain ⟨log, hlog⟩ := P.config d (Reach.refl d) h2
      rw [C.noExit] at hlog
      exact absurd hlog (by simp)
  unfold startLoopStep
  simp only [State.node, if_neg hbranch, hrun]
  rcases hst with hu | hm
  · have hnm : ¬ (s1.heap d).state = .MOVED := by rw [hs1, hu]; simp
    simp only [if_neg hnm, if_true]
    have hfields : ∀ z,
        ((({ (maybeCancelAnimation s1 (s1.heap d).tag).modifyNode d
              (fun x => { x with state := .DELETED }) with
            nodeForTag := Function.update
              ((maybeCancelAnimation s1 (s1.heap d).tag).modifyNode d
                (fun x => { x with state := .DELETED })).nodeForTag
              (s1.heap d).tag none } : State).heap z).children = (s1.heap z).children ∧
         (({ (maybeCancelAnimation s1 (s1.heap d).tag).modifyNode d
              (fun x => { x with state := .DELETED }) with
            nodeForTag := Function.update
              ((maybeCancelAnimation s1 (s1.heap d).tag).modifyNode d
                (fun x => { x with state := .DELETED })).nodeForTag
              (s1.heap d).tag none } : State).heap z).tag = (s1.heap z).tag ∧
         (({ (maybeCancelAnimation s1 (s1.heap d).tag).modifyNode d
              (fun x => { x with state := .DELETED }) with
            nodeForTag := Function.update
              ((maybeCancelAnimation s1 (s1.heap d).tag).modifyNode d
                (fun x => { x with state := .DELETED })).nodeForTag
              (s1.heap d).tag none } : State).heap z).parent = (s1.heap z).parent) := by
      intro z
      by_cases hz : z = d
      · subst hz
        simp [State.modifyNode, State.setNode, State.node, maybeCancelAnimation_heap]
      · simp [State.modifyNode, State.setNode, State.node, Function.update_noteq hz,
          maybeCancelAnimation_heap]
    obtain ⟨G2, Sh2⟩ := G1.flat_of_fields hfields (fun t => by
      rw [maybeCancelAnimation_idle s1 _ G1.idle]
      exact G1.idle t)
    refine ⟨_, rfl, ?_, rfl, G2, Sh1.shrink_trans Sh2, Sh2.gone Go1⟩
    simp only [emitOf, hu, P.self.2.2.1, List.append_assoc]
    simp
  · have hmv : (s1.heap d).state = .MOVED := by rw [hs1, hm]
    simp only [hmv, if_true]
    refine ⟨_, rfl, ?_, rfl, G1, Sh1, Go1⟩
    simp only [emitOf, hm, P.self.2.2.1, List.append_assoc, if_true]
/-- The loop of `startAnimationsRecursively` over the children when nothing is
deferred: every child is queued for removal and emitted after its subtree. -/
theorem startLoop_quiet {mgr : Manager} {h0 : Ptr → Node} {n0 : Nat}
    (C : QuietCtx mgr h0 n0) (fuel : Nat) (hrec : RecG mgr h0 n0 fuel)
    (hq : QuietG mgr h0 n0 fuel) (sa sp : Bool) (p : Ptr) (s : State)
    (m : ShadowViewMutationList) (hht : HtLe h0 (fuel + 1) p) (hp : p < n0)
    (hprist : ∀ z, Reach h0 p z → Kept (s.heap z) (h0 z)) :
    ∀ (todo done : List Ptr) (l : StartLoop),
      (done ++ todo).Nodup → (∀ c ∈ done ++ todo, c ∈ (h0 p).unflattenedChildren) →
      n0 ≤ s.next → LoopG mgr h0 n0 (true = false) s m done l → FlatG h0 n0 l.s →
      ∃ l1, todo.foldl (startLoopStep (endAnimationsRecursively fuel)
          (fun subNode w => startAnimationsRecursively mgr fuel subNode true sa sp w)
          sa true) (some l) = some l1 ∧
        LoopG mgr h0 n0 (true = false) s m (done ++ todo) l1 ∧
        l1.mutations = l.mutations ++
          pairsOut (fun d => outOfM h0 fuel d ++ emitOf h0 d) todo ∧
        l1.toBeRemoved = l.toBeRemoved ++ todo ∧
        FlatG h0 n0 l1.s ∧ Shrink l.s l1.s ∧ ∀ d ∈ todo, Gone h0 d l1.s := by
  have hF := C.forest
  intro todo
  induction todo with
  | nil =>
    intro done l _ _ _ hinv hG
    exact ⟨l, rfl, by simpa using hinv, by simp [pairsOut], by simp, hG,
      Shrink.shrink_refl _, fun d hd => by cases hd⟩
  | cons c todo ih =>
    intro done l hnd hmem hn hinv hG
    have hc : c ∈ (h0 p).unflattenedChildren := hmem c (by simp)
    have hcd : ∀ d ∈ done, c ≠ d := by
      intro d hd hcd
      rw [List.nodup_append] at hnd
      exact hnd.2.2 hd (by rw [← hcd]; exact List.mem_cons_self _ _)
    have hdis : ∀ d ∈ done, ∀ z, Reach h0 d z → ¬ Reach h0 c z := fun d hd z hz hcz =>
      Reach.disjoint hF.parentOK hht hc (hmem d (by simp [hd])) (hcd d hd) hcz hz
    have hpr : ∀ z, Reach h0 c z → Kept (l.s.heap z) (h0 z) := by
      intro z hz
      refine (hinv.frame z (hF.reach_bound hz (hF.bound p hp c hc))
        (fun d hd hdz => ?_)).kept_trans (hprist z (Reach.step hc hz))
      exact hdis d hd z hdz hz
    obtain ⟨l1, hl1, a1, a2, a3, a4, a5⟩ := startLoopStep_quiet C fuel hq sa sp l c (hht c hc)
      (hF.bound p hp c hc) (le_trans hn hinv.next) (hF.unsettled p hp c hc) hpr hG
    obtain ⟨l1', hl1', L1⟩ := startLoop_forest mgr h0 n0 fuel hF hrec sa sp true p s m hht hp
      hprist [c] done l
      (by
        have := hnd
        rw [List.nodup_append] at this ⊢
        refine ⟨this.1, List.nodup_singleton _, fun x hx hx1 => ?_⟩
        rw [List.mem_singleton] at hx1
        exact this.2.2 hx (by rw [hx1]; exact List.mem_cons_self _ _))
      (fun x hx => hmem x (by
        rcases List.mem_append.mp hx with h | h
        · exact List.mem_append_left _ h
        · rw [List.mem_singleton] at h
          rw [h]; simp))
      hn hinv
    simp only [List.foldl_cons, List.foldl_nil, hl1] at hl1'
    have hll : l1' = l1 := (Option.some.inj hl1').symm
    rw [hll] at L1
    obtain ⟨l2, hl2, L2, b1, b2, b3, b4, b5⟩ := ih (done ++ [c]) l1 (by simpa using hnd)
      (fun x hx => hmem x (by simpa using hx)) hn L1 a3
    refine ⟨l2, ?_, by simpa using L2, ?_, ?_, b3, a4.shrink_trans b4, fun d hd => ?_⟩
    · simp only [List.foldl_cons, hl1]
      exact hl2
    · rw [b1, a1]
      simp only [pairsOut, List.append_assoc]
    · rw [b2, a2]
      simp
    · rcases List.mem_cons.mp hd with h | h
      · rw [h]; exact b4.gone a5
      · exact b5 d h
theorem foldl_modify_flatFields (f : Ptr → Node → Node)
    (hf : ∀ u x, (f u x).children = x.children ∧ (f u x).tag = x.tag ∧
      (f u x).parent = x.parent) :
    ∀ (cs : List Ptr) (s : State) (q : Ptr),
      ((cs.foldl (fun acc sub => acc.modifyNode sub (f sub)) s).heap q).children =
        (s.heap q).children ∧
      ((cs.foldl (fun acc sub => acc.modifyNode sub (f sub)) s).heap q).tag = (s.heap q).tag ∧
      ((cs.foldl (fun acc sub => acc.modifyNode sub (f sub)) s).heap q).parent =
        (s.heap q).parent := by
  intro cs
  induction cs with
  | nil => intro s q; exact ⟨rfl, rfl, rfl⟩
  | cons c cs ih =>
    intro s q
    simp only [List.foldl_cons]
    obtain ⟨h1, h2, h3⟩ := ih (s.modifyNode c (f c)) q
    rw [h1, h2, h3]
    by_cases hq : q = c
    · subst hq
      simp only [State.modifyNode, State.setNode, State.node, Function.update_same]
      exact hf q (s.heap q)
    · simp [State.modifyNode, State.setNode, State.node, Function.update_noteq hq]

/-- The part of `startAnimationsRecursively` after the loop, when no exit
animation starts and every child was queued for removal: no queued child stays
a flattened child of any node. -/
theorem startFinish_flat {mgr : Manager} {h0 : Ptr → Node} {n0 : Nat}
    (C : QuietCtx mgr h0 n0) (c : Ptr) (l : StartLoop) (hn : n0 ≤ l.s.next)
    (hG : FlatG h0 n0 l.s)
    (htbr : ∀ d ∈ l.toBeRemoved, d < n0 ∧ (h0 d).isMutation = true)
    (hall : ∀ x ∈ (h0 c).unflattenedChildren, x ∈ l.toBeRemoved) :
    FlatG h0 n0 (startFinish c false l).2.1 ∧ Shrink l.s (startFinish c false l).2.1 ∧
    ∀ d ∈ l.toBeRemoved, ∀ p, d ∉ ((startFinish c false l).2.1.heap p).children := by
  obtain ⟨b1, b2, b3⟩ := foldl_removeChild_flat C c l.toBeRemoved l.s htbr hG
  obtain ⟨bn, _⟩ := foldl_removeChild_next c l.toBeRemoved l.s
  obtain ⟨sa, hsa⟩ : ∃ sa, sa = l.toBeRemoved.foldl
      (fun acc sub => removeChildFromUnflattenedTree acc c sub) l.s := ⟨_, rfl⟩
  rw [← hsa] at b1 b2 b3 bn
  have hempty : (sa.heap c).children = [] := by
    refine List.eq_nil_iff_forall_not_mem.mpr (fun x hx => ?_)
    have hx0 := (b1.sub c).subset hx
    exact b3 x (hall x (C.flat c x hx0).2.1) c hx
  have hsuff : ∀ R : State, R.layoutAnimations = sa.layoutAnimations →
      (∀ z, ((R.heap z).children = [] ∧ n0 ≤ z) ∨
        ((R.heap z).children = (sa.heap z).children ∧ (R.heap z).tag = (sa.heap z).tag ∧
          (R.heap z).parent = (sa.heap z).parent)) →
      FlatG h0 n0 R ∧ Shrink l.s R ∧ ∀ d ∈ l.toBeRemoved, ∀ p, d ∉ (R.heap p).children := by
    intro R hRl hR
    refine ⟨⟨fun z hz => ?_, fun p => ?_, fun t => by rw [hRl]; exact b1.idle t⟩,
      fun p => ?_, fun d hd p hmem => ?_⟩
    · rcases hR z with ⟨_, h⟩ | ⟨_, h2, h3⟩
      · exact absurd hz (Nat.not_lt.mpr h)
      · exact ⟨h2.trans (b1.kept z hz).1, h3.trans (b1.kept z hz).2⟩
    · rcases hR p with ⟨h, _⟩ | ⟨h, _⟩
      · rw [h]; exact List.nil_sublist _
      · rw [h]; exact b1.sub p
    · rcases hR p with ⟨h, _⟩ | ⟨h, _⟩
      · rw [h]; exact List.nil_sublist _
      · rw [h]; exact b2 p
    · rcases hR p with ⟨h, _⟩ | ⟨h, _⟩
      · rw [h] at hmem; cases hmem
      · rw [h] at hmem; exact b3 d hd p hmem
  unfold startFinish
  simp only [← hsa, State.node, Bool.false_eq_true, if_false, Bool.false_or]
  split
  · apply hsuff
    · simp only [hempty, List.foldl_nil]
      exact (foldl_layoutAnimations _ (by intro s x; rfl) _ _).trans rfl
    intro z
    simp only [hempty, List.foldl_nil]
    obtain ⟨f1, f2, f3⟩ := foldl_modify_flatFields
      (fun _ x => { x with unflattenedParent := (sa.alloc (replacementNode (sa.heap c))).1 })
      (fun _ _ => ⟨rfl, rfl, rfl⟩) (sa.heap c).unflattenedChildren
      (sa.alloc (replacementNode (sa.heap c))).2 z
    by_cases hz : z = sa.next
    · left
      refine ⟨?_, by rw [hz, bn]; exact hn⟩
      refine f1.trans ?_
      rw [hz]
      simp [State.alloc, replacementNode, hempty]
    · right
      refine ⟨f1.trans ?_, f2.trans ?_, f3.trans ?_⟩ <;>
        simp [State.alloc, Function.update_noteq hz]
  · apply hsuff
    · rfl
    intro z
    right
    simp [State.logCall]

/-- The recursion of the removal pass when nothing is deferred: on a forest
whose manager has no exit animation, called with the flag
`shouldRemoveSubviewsWithoutAnimations` set, `startAnimationsRecursively`
returns false and emits `outOfM`. -/
theorem startAnimationsRecursively_quiet {mgr : Manager} {h0 : Ptr → Node} {n0 : Nat}
    (C : QuietCtx mgr h0 n0) : ∀ fuel, QuietG mgr h0 n0 fuel := by
  have hF := C.forest
  intro fuel
  induction fuel with
  | zero => intro c s m sa sp hht; exact absurd hht (by simp [HtLe])
  | succ fuel ih =>
    intro c s m sa sp hht hc hn hst hprist hG
    have hp0 : Kept (s.heap c) (h0 c) := hprist c (Reach.refl c)
    obtain ⟨f1, _, f3, f4, _, f6⟩ := hp0
    obtain ⟨r0, s0, m0, hrun0, P0, _⟩ := startAnimationsRecursively_forest mgr h0 n0 hF
      (fuel + 1) c s m true sa sp hht hc hn hst hprist
    have aux : ∀ (sa1 sp1 : Bool),
        ∃ s1,
        (match (s.heap c).unflattenedChildren.reverse.foldl
            (startLoopStep (endAnimationsRecursively fuel)
              (fun subNode w => startAnimationsRecursively mgr fuel subNode true sa1 sp1 w)
              sa1 true)
            (some { hasAnimatedChildren := false, toBeRemoved := [], s := s,
                    mutations := m }) with
          | none => none
          | some l => some (startFinish c false l))
          = some (false, s1, m ++ outOfM h0 (fuel + 1) c) ∧
          FlatG h0 n0 s1 ∧ Shrink s s1 ∧ Gone h0 c s1 := by
      intro sa1 sp1
      obtain ⟨l1, hl1, L, a1, a2, a3, a4, a5⟩ := startLoop_quiet C fuel
        (startAnimationsRecursively_forest mgr h0 n0 hF fuel) ih sa1 sp1 c s m hht hc hprist
        (h0 c).unflattenedChildren.reverse []
        { hasAnimatedChildren := false, toBeRemoved := [], s := s, mutations := m }
        (by simpa using hF.nodup c) (by simp) hn
        ⟨fun z _ _ => Kept.kept_refl _, le_refl _, rfl, by simp,
          ⟨[], by simp, fun x hx => absurd hx (List.not_mem_nil x)⟩,
          fun _ d hd => absurd hd (List.not_mem_nil d),
          fun d hd => absurd hd (List.not_mem_nil d), fun _ k _ => rfl, fun k _ => rfl⟩ hG
      simp only [List.nil_append] at L a2
      obtain ⟨r, s1, hfin, P, _⟩ := startFinish_forest mgr h0 n0 fuel hF c true false true s m l1
        hht hc hn hst hprist (fun h => by cases h)
        (fun h => by
          rcases h with h | ⟨h, _⟩
          · cases h
          · cases h) L
      have hr : r = false := by
        cases r with
        | false => rfl
        | true =>
          obtain ⟨y, hy, ha⟩ := (P.ret.1 rfl).animating
          obtain ⟨log, hlog⟩ := P.config y hy ha
          rw [C.noExit] at hlog
          exact absurd hlog (by simp)
      have htbr : ∀ d ∈ l1.toBeRemoved, d < n0 ∧ (h0 d).isMutation = true := by
        intro d hd
        rw [a2, List.mem_reverse] at hd
        exact ⟨hF.bound c hc d hd, hF.kidsMut c hc d hd⟩
      obtain ⟨g1, g2, g3⟩ := startFinish_flat C c l1 (le_trans hn L.next) a3 htbr
        (fun x hx => by rw [a2, List.mem_reverse]; exact hx)
      have hs1 : (startFinish c false l1).2.1 = s1 := by rw [hfin]
      rw [hs1] at g1 g2 g3
      refine ⟨s1, ?_, g1, a4.shrink_trans g2, ?_⟩
      · rw [f6, hl1]
        simp only [hfin, hr, a1]
        rfl
      · intro p d hd hreach
        cases hreach with
        | refl => rfl
        | @step _ k _ hk hkd =>
          have hkt : k ∈ l1.toBeRemoved := by rw [a2, List.mem_reverse]; exact hk
          have hkk : d = k := (g2.gone (a5 k (List.mem_reverse.mpr hk))) p d hd hkd
          rw [hkk] at hd
          exact absurd hd (g3 k hkt p)
    obtain ⟨s1, h1, h2, h3, h4⟩ := aux
      (!(if mgr.isRNSScreen (s.heap c).mutation.oldChildShadowView.componentName then true
          else sp) && mgr.shouldAnimateExiting s.managerLog (s.heap c).tag sa)
      (if mgr.isRNSScreen (s.heap c).mutation.oldChildShadowView.componentName then true
        else sp)
    have hrun : startAnimationsRecursively mgr (fuel + 1) c true sa sp (s, m) =
        some (false, s1, m ++ outOfM h0 (fuel + 1) c) := by
      unfold startAnimationsRecursively
      simp only [State.node, C.noExit, Bool.and_false, Bool.not_false, Bool.true_or,
        Bool.and_true]
      exact h1
    rw [hrun] at hrun0
    have e := Option.some.inj hrun0
    simp only [Prod.mk.injEq] at e
    obtain ⟨e1, e2, e3⟩ := e
    rw [← e1, ← e2, ← e3] at P0
    exact ⟨s1, hrun, P0, h2, h3, h4⟩
/-- The loop of `handleRemovals` on one root when nothing is deferred: the root is
emitted after its subtree and nothing below it or the root itself stays a
flattened child. -/
theorem handleRoots_quiet_one {mgr : Manager} {h0 : Ptr → Node} {n0 : Nat}
    (C : QuietCtx mgr h0 n0) (fuel : Nat) (r : Ptr) (hr : RootG h0 n0 fuel r) (s : State)
    (m : ShadowViewMutationList) (hn : n0 ≤ s.next)
    (hprist : ∀ z, Reach h0 r z → Kept (s.heap z) (h0 z)) (hG : FlatG h0 n0 s) :
    ∃ w1, handleRoots mgr fuel [r] (s, m) = some w1 ∧
      w1.2 = m ++ (outOfM h0 fuel r ++ emitOf h0 r) ∧
      FlatG h0 n0 w1.1 ∧ Shrink s w1.1 ∧
      ∀ p d, d ∈ (w1.1.heap p).children → ¬ Reach h0 r d := by
  obtain ⟨hr1, hr2, hr3, hr4, hr5⟩ := hr
  obtain ⟨s1, hrun, P, G1, Sh1, Go1⟩ := startAnimationsRecursively_quiet C fuel r s m true false
    hr4 hr1 hn hr3 hprist hG
  have hs1 : (s1.heap r).state = (h0 r).state := by
    rcases P.state with h | ⟨_, h2⟩
    · exact h
    · obtain ⟨log, hlog⟩ := P.config r (Reach.refl r) h2
      rw [C.noExit] at hlog
      exact absurd hlog (by simp)
  obtain ⟨S2, hS2⟩ : ∃ S2, S2 = removeChildFromUnflattenedTree s1
      (s1.heap r).unflattenedParent r := ⟨_, rfl⟩
  obtain ⟨G2, Sh2, Go2⟩ := removeChild_flat C s1 (s1.heap r).unflattenedParent r hr1 hr2 G1
  rw [← hS2] at G2 Sh2 Go2
  have hsame : ∀ z, Same (S2.heap z) (s1.heap z) := fun z => by
    rw [hS2]; exact (removeChild_same s1 _ r z).1
  obtain ⟨_, _, e3, e4, _, _⟩ := (hsame r).fields
  have hgone : ∀ (R : State), Shrink S2 R → ∀ p d, d ∈ (R.heap p).children →
      ¬ Reach h0 r d := by
    intro R hR p d hd hreach
    have hd2 := (hR p).subset hd
    have hdr : d = r := Go1 p d ((Sh2 p).subset hd2) hreach
    rw [hdr] at hd2
    exact Go2 p hd2
  by_cases hmv : (h0 r).state = .MOVED
  · have hst2 : (S2.heap r).state = .MOVED := by rw [e4, hs1, hmv]
    refine ⟨(S2, (m ++ outOfM h0 fuel r) ++ [(s1.heap r).mutation]), ?_, ?_, G2,
      Sh1.shrink_trans Sh2, hgone S2 (Shrink.shrink_refl _)⟩
    · unfold handleRoots
      simp only [List.reverse_cons, List.reverse_nil, List.nil_append, List.foldl_cons,
        List.foldl_nil, hrun, State.node, ← hS2, hst2, ne_eq, not_true_eq_false, if_false]
    · simp only [emitOf, hmv, if_true, P.self.2.2.1, List.append_assoc]
  · have hst2 : (S2.heap r).state ≠ .MOVED := by rw [e4, hs1]; exact hmv
    obtain ⟨nf, hnf⟩ : ∃ nf : Tag → Option Ptr, nf = Function.update
        (maybeCancelAnimation S2 (S2.heap r).tag).nodeForTag (S2.heap r).tag none := ⟨_, rfl⟩
    have hfields : ∀ z,
        (({ maybeCancelAnimation S2 (S2.heap r).tag with nodeForTag := nf } : State).heap
          z).children = (S2.heap z).children ∧
        (({ maybeCancelAnimation S2 (S2.heap r).tag with nodeForTag := nf } : State).heap
          z).tag = (S2.heap z).tag ∧
        (({ maybeCancelAnimation S2 (S2.heap r).tag with nodeForTag := nf } : State).heap
          z).parent = (S2.heap z).parent := by
      intro z
      simp [maybeCancelAnimation_heap]
    obtain ⟨G3, Sh3⟩ := G2.flat_of_fields hfields (fun t => by
      show (maybeCancelAnimation S2 (S2.heap r).tag).layoutAnimations t = none
      rw [maybeCancelAnimation_idle S2 _ G2.idle]
      exact G2.idle t)
    refine ⟨({ maybeCancelAnimation S2 (S2.heap r).tag with nodeForTag := nf },
      (m ++ outOfM h0 fuel r) ++ [(s1.heap r).mutation] ++
        [DeleteMutation (S2.heap r).mutation.oldChildShadowView]), ?_, ?_, G3,
      (Sh1.shrink_trans Sh2).shrink_trans Sh3, hgone _ Sh3⟩
    · unfold handleRoots
      simp only [List.reverse_cons, List.reverse_nil, List.nil_append, List.foldl_cons,
        List.foldl_nil, hrun, State.node, ← hS2, hst2, ne_eq, not_false_eq_true, if_true, hnf]
    · simp only [emitOf, hmv, if_false, e3, P.self.2.2.1, List.append_assoc]
      simp

/-- The loop of `handleRemovals` over the roots of a forest when nothing is
deferred: it emits, root after root, the subtree of the root and the root, and
no node below a handled root stays a flattened child. -/
theorem handleRoots_quiet {mgr : Manager} {h0 : Ptr → Node} {n0 : Nat}
    (C : QuietCtx mgr h0 n0) (fuel : Nat) (s : State) (m : ShadowViewMutationList)
    (hn : n0 ≤ s.next) :
    ∀ (todo done : List Ptr) (w : Work),
      (done ++ todo).Nodup → (∀ r ∈ done ++ todo, RootG h0 n0 fuel r) →
      (∀ r ∈ done ++ todo, ∀ z, Reach h0 r z → Kept (s.heap z) (h0 z)) →
      RootsG mgr h0 n0 s m done w → FlatG h0 n0 w.1 →
      ∃ w1, handleRoots mgr fuel todo.reverse w = some w1 ∧
        RootsG mgr h0 n0 s m (done ++ todo) w1 ∧
        w1.2 = w.2 ++ pairsOut (fun r => outOfM h0 fuel r ++ emitOf h0 r) todo ∧
        FlatG h0 n0 w1.1 ∧ Shrink w.1 w1.1 ∧
        ∀ r ∈ todo, ∀ p d, d ∈ (w1.1.heap p).children → ¬ Reach h0 r d := by
  have hF := C.forest
  intro todo
  induction todo with
  | nil =>
    intro done w _ _ _ hinv hG
    exact ⟨w, by simp [handleRoots], by simpa using hinv, by simp [pairsOut], hG,
      Shrink.shrink_refl _, fun r hr => by cases hr⟩
  | cons c todo ih =>
    intro done w hnd hroot hprist hinv hG
    have hc : RootG h0 n0 fuel c := hroot c (by simp)
    have hcd : ∀ d ∈ done, c ≠ d := by
      intro d hd hcd
      rw [List.nodup_append] at hnd
      exact hnd.2.2 hd (by rw [← hcd]; exact List.mem_cons_self _ _)
    have hdis : ∀ d ∈ done, ∀ z, Reach h0 d z → ¬ Reach h0 c z := fun d hd z hz hcz =>
      RootG.apart hF hc (hroot d (by simp [hd])) (hcd d hd) hcz hz
    have hpr : ∀ z, Reach h0 c z → Kept (w.1.heap z) (h0 z) := by
      intro z hz
      exact (hinv.frame z (hF.reach_bound hz hc.1) (hF.reach_mutation hz hc.1 hc.2.1)
        (fun d hd hdz => hdis d hd z hdz hz)).kept_trans (hprist c (by simp) z hz)
    obtain ⟨w1, hw1, a1, a2, a3, a4⟩ := handleRoots_quiet_one C fuel c hc w.1 w.2
      (le_trans hn hinv.next) hpr hG
    obtain ⟨w1', hw1', R1⟩ := handleRoots_forest mgr h0 n0 hF fuel s m hn [c] done w
      (by
        have := hnd
        rw [List.nodup_append] at this ⊢
        refine ⟨this.1, List.nodup_singleton _, fun x hx hx1 => ?_⟩
        rw [List.mem_singleton] at hx1
        exact this.2.2 hx (by rw [hx1]; exact List.mem_cons_self _ _))
      (fun x hx => hroot x (by
        rcases List.mem_append.mp hx with h | h
        · exact List.mem_append_left _ h
        · rw [List.mem_singleton] at h
          rw [h]; simp))
      (fun x hx => hprist x (by
        rcases List.mem_append.mp hx with h | h
        · exact List.mem_append_left _ h
        · rw [List.mem_singleton] at h
          rw [h]; simp)) hinv
    have hw1c : handleRoots mgr fuel [c] w = some w1 := hw1
    simp only [List.reverse_cons, List.reverse_nil, List.nil_append, hw1c] at hw1'
    have hww : w1' = w1 := (Option.some.inj hw1').symm
    rw [hww] at R1
    obtain ⟨w2, hw2, R2, b1, b2, b3, b4⟩ := ih (done ++ [c]) w1 (by simpa using hnd)
      (fun x hx => hroot x (by simpa using hx)) (fun x hx => hprist x (by simpa using hx))
      R1 a2
    refine ⟨w2, ?_, by simpa using R2, ?_, b2, a3.shrink_trans b3, fun r hr p d hd => ?_⟩
    · rw [List.reverse_cons, handleRoots_snoc, hw1c]
      exact hw2
    · rw [b1, a1]
      simp only [pairsOut, List.append_assoc]
    · rcases List.mem_cons.mp hr with h | h
      · rw [h]
        exact a4 p d ((b3 p).subset hd)
      · exact b4 r h p d hd
theorem attachChildren_nodup : ∀ (l : List (Tag × List Ptr)) (s : State), (listed l).Nodup →
    (∀ p, (s.heap p).children.Nodup) →
    (∀ p d, d ∈ (s.heap p).children → d ∉ listed l) →
    ∀ p, ((attachChildren s l).heap p).children.Nodup := by
  intro l
  induction l with
  | nil => intro s _ h _ p; exact h p
  | cons e l ih =>
    intro s hnd h hout
    simp only [listed] at hnd
    have hnd2 : (listed l).Nodup := (List.nodup_append.mp hnd).2.1
    have hnde : e.2.Nodup := (List.nodup_append.mp hnd).1
    have hdisj : ∀ x, x ∈ e.2 → x ∉ listed l := fun x hx hx2 =>
      (List.nodup_append.mp hnd).2.2 hx hx2
    simp only [attachChildren, List.foldl_cons]
    cases hn : s.nodeForTag e.1 with
    | none =>
      exact ih s hnd2 h (fun p d hd hx => hout p d hd (by
        simp only [listed, List.mem_append]; right; exact hx))
    | some parent =>
      obtain ⟨_, _, g3, _⟩ := foldl_setFlatParent parent e.2 (insertChildren s parent e.2)
      have hins : ∀ q, ((insertChildren s parent e.2).heap q).children =
          if q = parent then mergeChildren (fun x => (s.node x).mutation.index)
            ((s.heap parent).children.length + e.2.length) (s.heap parent).children e.2
          else (s.heap q).children := by
        intro q
        by_cases hq : q = parent
        · subst hq
          simp [insertChildren, State.modifyNode, State.setNode, State.node]
        · simp [insertChildren, State.modifyNode, State.setNode, Function.update_noteq hq, hq]
      have hmem : ∀ q d, d ∈ ((insertChildren s parent e.2).heap q).children →
          d ∈ (s.heap q).children ∨ d ∈ e.2 := by
        intro q d hd
        rw [hins q] at hd
        split at hd
        · rename_i hq
          rcases mem_mergeChildren _ _ _ _ d hd with h1 | h1
          · left; rw [hq]; exact h1
          · right; exact h1
        · left; exact hd
      refine ih _ hnd2 (fun p => ?_) (fun p d hd hx => ?_)
      · rw [g3, hins p]
        split
        · refine (mergeChildren_perm _ _ _ _).nodup_iff.mpr ?_
          rw [List.nodup_append]
          refine ⟨h parent, hnde, fun x hx hx2 => hout parent x hx ?_⟩
          simp only [listed, List.mem_append]
          left; exact hx2
        · exact h p
      · rw [g3] at hd
        rcases hmem p d hd with h1 | h1
        · exact hout p d h1 (by simp only [listed, List.mem_append]; right; exact hx)
        · exact hdisj d h1 hx

/-- After the parse of a well-formed batch on a fresh engine no node lists a
flattened child twice. -/
theorem parseRemoveMutations_flatNodup (rk : Tag → Nat) (batch : ShadowViewMutationList)
    (hwf : WellFormedBatch rk batch) :
    ∀ p, ((parseRemoveMutations State.fresh batch).s.heap p).children.Nodup := by
  obtain ⟨t, ht⟩ := exists_fresh_tag batch
  have hS : ScanW t batch (scanResult State.fresh batch) :=
    scanResult_scanW rk batch [] ht hwf.upd hwf.tree (by simpa using hwf.once) hwf.del
      hwf.moved
  obtain ⟨A, hA⟩ : ∃ A, A = scanResult State.fresh batch := ⟨_, rfl⟩
  rw [← hA] at hS
  have hlistedNodup : (listed A.unflattenedChildrenForTag).Nodup := by
    obtain ⟨init, hinit⟩ : ∃ init : ParseAcc, init =
        { s := State.fresh, deletedViews := [], movedViews := fun _ => none,
          childrenForTag := [], unflattenedChildrenForTag := [], mutationNodes := [] } :=
      ⟨_, rfl⟩
    have hP0 : PInv t init := by
      rw [hinit]
      exact PInv.mk (PS.fresh t) (fun c hc => by cases hc) (fun e he => by cases he) (by simp)
    have hl := foldl_parseStep_listed batch.reverse init hP0
      (fun m hm _ => ht m (List.mem_reverse.mp hm))
      (fun m hm => hwf.upd m (List.mem_reverse.mp hm)) (by rw [hinit]; simp [listed])
    rw [hinit] at hl
    rw [hA]
    exact hl
  have hPs : (parseRemoveMutations State.fresh batch).s = attachUnflattenedChildren
      (attachChildren A.s A.childrenForTag) A.unflattenedChildrenForTag := by
    rw [hA]; rfl
  intro p
  rw [hPs, (attachUnflattenedChildren_flat _ _ p).1]
  refine attachChildren_nodup A.childrenForTag A.s (by rw [hS.lists]; exact hlistedNodup)
    (fun q => by rw [hS.flat q]; exact List.nodup_nil)
    (fun q d hd => by rw [hS.flat q] at hd; exact absurd hd (List.not_mem_nil _)) p
/-- The removal pass on the parse of a well-formed batch in a fresh engine, when
the manager has no exit animation: it returns, emits root after root (from the
last to the first) the subtree of the root and the root, and leaves no
flattened child, no tracked animation and an empty update table. -/
theorem handleRemovals_quiet (mgr : Manager)
    (hno : ∀ log tag, mgr.hasLayoutAnimation log tag .EXITING = false)
    (rk : Tag → Nat) (batch : ShadowViewMutationList) (hwf : WellFormedBatch rk batch)
    (fuel : Nat) (hfuel : (parseRemoveMutations State.fresh batch).s.next ≤ fuel) :
    ∃ wr, handleRemovals mgr fuel (parseRemoveMutations State.fresh batch).roots
        ((parseRemoveMutations State.fresh batch).s, []) = some wr ∧
      wr.2 = pairsOut (fun r => outOfM (parseRemoveMutations State.fresh batch).s.heap fuel r ++
        emitOf (parseRemoveMutations State.fresh batch).s.heap r)
        (parseRemoveMutations State.fresh batch).roots.reverse ∧
      NoFlat wr.1 ∧ (∀ t, wr.1.layoutAnimations t = none) ∧
      (∀ sid, wr.1.updateMap sid = []) := by
  have hW := parseRemoveMutations_parsedW rk batch hwf
  have hnd := parseRemoveMutations_flatNodup rk batch hwf
  have hum := parseRemoveMutations_updateMap State.fresh batch
  have hla := parseRemoveMutations_layoutAnimations State.fresh batch
  obtain ⟨P, hP⟩ : ∃ P, P = parseRemoveMutations State.fresh batch := ⟨_, rfl⟩
  rw [← hP] at hW hnd hum hla hfuel ⊢
  have hF := hW.forest
  have C : QuietCtx mgr P.s.heap P.s.next :=
    { forest := hF, noExit := hno, tags := hW.tags, flat := hW.flat, flatNodup := hnd }
  have hRG : ∀ r ∈ P.roots, RootG P.s.heap P.s.next fuel r := by
    intro r hr
    obtain ⟨a, b, c, d, e⟩ := hW.roots r hr
    exact ⟨a, b, c, HtLe.of_le hfuel d, e⟩
  have hinit : RootsG mgr P.s.heap P.s.next P.s [] [] (P.s, []) :=
    { frame := fun _ _ _ _ => Kept.kept_refl _
      next := le_refl _
      dead := rfl
      out := ⟨[], rfl, fun x hx => by cases hx⟩
      waiting := fun r hr => by cases hr
      config := fun r hr => by cases hr
      table := fun _ _ => rfl
      exit := fun r hr => by cases hr
      emit := fun r hr => by cases hr }
  have hidle : ∀ t, P.s.layoutAnimations t = none := fun t => by rw [hla]; rfl
  have hG0 : FlatG P.s.heap P.s.next P.s :=
    { kept := fun _ _ => ⟨rfl, rfl⟩, sub := fun _ => List.Sublist.refl _, idle := hidle }
  obtain ⟨w1, hw1, G, hout, hG1, _, hgone⟩ := handleRoots_quiet C fuel P.s [] (le_refl _)
    P.roots.reverse [] (P.s, [])
    (by simpa using hW.rootsNodup) (fun r hr => hRG r (by simpa using hr))
    (fun _ _ _ _ => Kept.kept_refl _) hinit hG0
  rw [List.reverse_reverse] at hw1
  have hrem := handleRemovals_of_roots mgr fuel P.roots (P.s, []) w1 hw1 (G.dead.trans hW.dead)
  refine ⟨_, hrem, by simpa using hout, fun p => ?_, hG1.idle, fun sid => ?_⟩
  · show (w1.1.heap p).children = []
    rw [List.eq_nil_iff_forall_not_mem]
    intro d hd
    have hd0 : d ∈ (P.s.heap p).children := (hG1.sub p).subset hd
    obtain ⟨hp, hdu, _⟩ := hW.flat p d hd0
    have hdn : d < P.s.next := hF.bound p hp d hdu
    have hdm : (P.s.heap d).isMutation = true := hF.kidsMut p hp d hdu
    obtain ⟨r, hr, hrd⟩ := hW.reach d (hW.all d hdn hdm)
    exact hgone r (List.mem_reverse.mpr hr) p d hd hrd
  · rw [handleRemovals_updateMap mgr fuel P.roots (P.s, []) _ hrem]
    show P.s.updateMap sid = []
    rw [hum]
    rfl
theorem applyMutationToIndices_noFlat (s : State) (p : Ptr) (m : ShadowViewMutation)
    (hs : NoFlat s) : applyMutationToIndices s p m = s := by
  simp [applyMutationToIndices, State.node, hs p]

theorem transferConfigFromNativeID_plain (s : State) (str : String) (t : Tag) :
    (transferConfigFromNativeID s str t).heap = s.heap ∧
    (transferConfigFromNativeID s str t).layoutAnimations = s.layoutAnimations := by
  unfold transferConfigFromNativeID
  split
  · exact ⟨rfl, rfl⟩
  · split <;> exact ⟨rfl, rfl⟩

/-- The loop body of `handleUpdatesAndEnterings` when the manager has no animation
and nothing is pending: a Create, an Insert or an Update is forwarded as it is,
a Remove or a Delete is skipped. -/
theorem handleMutation_plain (mgr : Manager)
    (hno : ∀ log tag kind, mgr.hasLayoutAnimation log tag kind = false)
    (mv : Tag → Option Tag) (sid : SurfaceId) (l : UpdLoop) (m : ShadowViewMutation)
    (hl : PlainLoop l) :
    (handleMutation mgr mv sid l m).filteredMutations =
      l.filteredMutations ++ (if isForwarded m = true then [m] else []) ∧
    PlainLoop (handleMutation mgr mv sid l m) := by
  obtain ⟨hflat, hidle, hold⟩ := hl
  obtain ⟨w1, _, _, _, w5, _, _⟩ := maybeUpdateWindowDimensions_frame l.s m sid
  have hflatW : NoFlat (maybeUpdateWindowDimensions l.s m sid) := fun q => by
    rw [w5]; exact hflat q
  have hidleW : ∀ t, (maybeUpdateWindowDimensions l.s m sid).layoutAnimations t = none :=
    fun t => by rw [w1]; exact hidle t
  unfold handleMutation
  cases hty : m.type with
  | Create =>
    simp only [isForwarded, hty]
    exact ⟨by simp, hflatW, hidleW, hold⟩
  | Remove =>
    simp only [isForwarded, hty]
    exact ⟨by simp, hflatW, hidleW, hold⟩
  | Delete =>
    simp only [isForwarded, hty]
    exact ⟨by simp, hflatW, hidleW, hold⟩
  | Update =>
    simp only [isForwarded, hty, handleUpdate, hno, Bool.not_false, Bool.true_or, if_true]
    exact ⟨by simp, hflatW, hidleW, hold⟩
  | Insert =>
    obtain ⟨S, hS⟩ : ∃ S, S = maybeUpdateWindowDimensions l.s m sid := ⟨_, rfl⟩
    rw [← hS] at hflatW hidleW
    have hidx : updateIndexForMutation S m = m := updateIndexForMutation_noFlat S m hflatW
    have hap : ∀ p, applyMutationToIndices S p m = S := fun p =>
      applyMutationToIndices_noFlat S p m hflatW
    obtain ⟨t1, t2⟩ := transferConfigFromNativeID_plain S m.newChildShadowView.props.nativeId
      m.newChildShadowView.tag
    cases hp : S.nodeForTag m.parentTag with
    | none =>
      simp only [isForwarded, hty, handleInsert, ← hS, hidx, hp]
      split
      · simp only [hidleW, hold]
        exact ⟨by simp, hflatW, hidleW, hold⟩
      · simp only [hno, Bool.not_false, if_true]
        refine ⟨by simp, fun q => ?_, fun t => ?_, hold⟩
        · show ((transferConfigFromNativeID S _ _).heap q).children = []
          rw [t1]; exact hflatW q
        · show (transferConfigFromNativeID S _ _).layoutAnimations t = none
          rw [t2]; exact hidleW t
    | some p =>
      simp only [isForwarded, hty, handleInsert, ← hS, hidx, hp, hap p]
      split
      · simp only [hidleW, hold]
        exact ⟨by simp, hflatW, hidleW, hold⟩
      · simp only [hno, Bool.not_false, if_true]
        refine ⟨by simp, fun q => ?_, fun t => ?_, hold⟩
        · show ((transferConfigFromNativeID S _ _).heap q).children = []
          rw [t1]; exact hflatW q
        · show (transferConfigFromNativeID S _ _).layoutAnimations t = none
          rw [t2]; exact hidleW t

/-- The function `handleUpdatesAndEnterings` when the manager has no animation and
nothing is pending: it appends the Creates, Inserts and Updates of the batch, as
they are and in their order. -/
theorem handleUpdatesAndEnterings_plain (mgr : Manager)
    (hno : ∀ log tag kind, mgr.hasLayoutAnimation log tag kind = false)
    (mv : Tag → Option Tag) (sid : SurfaceId) (ms : ShadowViewMutationList) (w : Work)
    (hflat : NoFlat w.1) (hidle : ∀ t, w.1.layoutAnimations t = none) :
    (handleUpdatesAndEnterings mgr mv sid ms w).2 =
      w.2 ++ ms.filter (fun m => isForwarded m) := by
  have : ∀ (l : UpdLoop), PlainLoop l →
      (ms.foldl (handleMutation mgr mv sid) l).filteredMutations =
        l.filteredMutations ++ ms.filter (fun m => isForwarded m) := by
    induction ms with
    | nil => intro l _; simp
    | cons x ms ih =>
      intro l hl
      obtain ⟨h1, h2⟩ := handleMutation_plain mgr hno mv sid l x hl
      rw [List.foldl_cons, ih _ h2, h1, List.filter_cons]
      by_cases hx : isForwarded x = true
      · simp [hx]
      · simp [hx]
  exact this _ ⟨hflat, hidle, fun _ => rfl⟩
theorem pairsOut_flatMap (f : Ptr → ShadowViewMutationList) : ∀ l : List Ptr,
    pairsOut f l = l.flatMap f := by
  intro l
  induction l with
  | nil => rfl
  | cons c cs ih => rw [pairsOut, ih, List.flatMap_cons]

theorem outOfM_ordM (h : Ptr → Node) : ∀ (k : Nat) (p : Ptr),
    outOfM h k p = (ordM h k p).flatMap (emitOf h) := by
  intro k
  induction k with
  | zero => intro p; rfl
  | succ k ih =>
    intro p
    simp only [outOfM, ordM, pairsOut_flatMap, List.flatMap_assoc]
    apply List.flatMap_congr
    intro c _
    rw [ih c, List.flatMap_append]
    simp

theorem mem_ordM_reach {h : Ptr → Node} : ∀ (k : Nat) (p z : Ptr), HtLe h k p →
    z ∈ ordM h k p → Reach h p z ∧ z ≠ p := by
  intro k
  induction k with
  | zero => intro p z _ hz; simp [ordM] at hz
  | succ k ih =>
    intro p z hk hz
    simp only [ordM, List.mem_flatMap, List.mem_reverse, List.mem_append,
      List.mem_singleton] at hz
    obtain ⟨c, hc, hzc⟩ := hz
    have hcp : c ≠ p := fun h1 => HtLe.not_self (k + 1) p hk (by rw [h1] at hc; exact hc)
    rcases hzc with hzc | hzc
    · obtain ⟨r1, _⟩ := ih c z (hk c hc) hzc
      refine ⟨Reach.step hc r1, fun hzp => ?_⟩
      rw [hzp] at r1
      exact Reach.no_back hk (Reach.step hc (Reach.refl c)) hcp r1
    · rw [hzc]
      exact ⟨Reach.step hc (Reach.refl c), hcp⟩

theorem Reach.mem_ordM {h : Ptr → Node} {p z : Ptr} (hr : Reach h p z) :
    ∀ k, HtLe h k p → z ≠ p → z ∈ ordM h k p := by
  induction hr with
  | refl p => intro k _ hne; exact absurd rfl hne
  | @step p c z hc hcz ih =>
    intro k hk _
    cases k with
    | zero => exact absurd hk (by simp [HtLe])
    | succ k =>
      simp only [ordM, List.mem_flatMap, List.mem_reverse, List.mem_append,
        List.mem_singleton]
      refine ⟨c, hc, ?_⟩
      by_cases hzc : z = c
      · right; exact hzc
      · left; exact ih k (hk c hc) hzc

theorem ordM_nodup {h : Ptr → Node} (hpo : ParentOK h)
    (hnd : ∀ p, (h p).unflattenedChildren.Nodup) : ∀ (k : Nat) (p : Ptr), HtLe h k p →
    (ordM h k p).Nodup := by
  intro k
  induction k with
  | zero => intro p _; simp [ordM]
  | succ k ih =>
    intro p hk
    simp only [ordM]
    refine List.nodup_flatMap.mpr ⟨fun c hc => ?_, ?_⟩
    · have hcm : c ∈ (h p).unflattenedChildren := List.mem_reverse.mp hc
      rw [List.nodup_append]
      refine ⟨ih c (hk c hcm), List.nodup_singleton c, fun z hz hzc => ?_⟩
      rw [List.mem_singleton] at hzc
      exact (mem_ordM_reach k c z (hk c hcm) hz).2 hzc
    · refine List.Nodup.pairwise_of_forall_ne (List.nodup_reverse.mpr (hnd p))
        (fun a ha b hb hab => ?_)
      have ham : a ∈ (h p).unflattenedChildren := List.mem_reverse.mp ha
      have hbm : b ∈ (h p).unflattenedChildren := List.mem_reverse.mp hb
      have hra : ∀ z, z ∈ ordM h k a ++ [a] → Reach h a z := fun z hz => by
        rcases List.mem_append.mp hz with h1 | h1
        · exact (mem_ordM_reach k a z (hk a ham) h1).1
        · rw [List.mem_singleton] at h1; rw [h1]; exact Reach.refl a
      have hrb : ∀ z, z ∈ ordM h k b ++ [b] → Reach h b z := fun z hz => by
        rcases List.mem_append.mp hz with h1 | h1
        · exact (mem_ordM_reach k b z (hk b hbm) h1).1
        · rw [List.mem_singleton] at h1; rw [h1]; exact Reach.refl b
      show List.Disjoint (ordM h k a ++ [a]) (ordM h k b ++ [b])
      intro z hza hzb
      exact Reach.disjoint hpo hk ham hbm hab (hra z hza) (hrb z hzb)
theorem DeletesAfterRemoves.removed : ∀ (post pre : ShadowViewMutationList),
    DeletesAfterRemoves pre post → ∀ d ∈ post, d.type = .Delete →
    ∃ r ∈ pre ++ post, r.type = .Remove ∧ d = DeleteMutation r.oldChildShadowView := by
  intro post
  induction post with
  | nil => intro pre _ d hd; exact absurd hd (List.not_mem_nil _)
  | cons x post ih =>
    intro pre h d hd hty
    obtain ⟨h1, h2⟩ := h
    rcases List.mem_cons.mp hd with hdx | hdx
    · rw [hdx] at hty ⊢
      obtain ⟨r, hr, hr1, hr2⟩ := h1 hty
      exact ⟨r, List.mem_append_left _ hr, hr1, hr2⟩
    · obtain ⟨r, hr, hr1, hr2⟩ := ih (x :: pre) h2 d hdx hty
      refine ⟨r, ?_, hr1, hr2⟩
      rcases List.mem_append.mp hr with h3 | h3
      · rcases List.mem_cons.mp h3 with h4 | h4
        · rw [h4]; exact List.mem_append_right _ (List.mem_cons_self _ _)
        · exact List.mem_append_left _ h4
      · exact List.mem_append_right _ (List.mem_cons_of_mem _ h3)

theorem flatMap_emitOf_perm (h : Ptr → Node) : ∀ N : List Ptr,
    (N.flatMap (emitOf h)).Perm
      (N.map (fun z => (h z).mutation) ++
        (N.filter (fun z => (h z).state ≠ .MOVED)).map
          (fun z => DeleteMutation (h z).mutation.oldChildShadowView)) := by
  intro N
  induction N with
  | nil => simp
  | cons z N ih =>
    rw [List.flatMap_cons, List.map_cons, List.filter_cons]
    by_cases hz : (h z).state = .MOVED
    · simp only [emitOf, hz, if_true, ne_eq, not_true_eq_false, decide_False,
        Bool.false_eq_true, if_false, List.singleton_append, List.cons_append]
      exact List.Perm.cons _ ih
    · simp only [emitOf, hz, if_false, ne_eq, not_false_eq_true, decide_True, if_true,
        List.map_cons, List.cons_append, List.nil_append]
      refine List.Perm.cons _ ?_
      refine List.Perm.trans (List.Perm.cons _ ih) ?_
      exact (List.perm_middle).symm

theorem filter_types_perm (batch : ShadowViewMutationList) :
    (batch.filter (fun m => m.type = .Remove) ++ batch.filter (fun m => m.type = .Delete) ++
      batch.filter (fun m => isForwarded m)).Perm batch := by
  induction batch with
  | nil => simp
  | cons x batch ih =>
    obtain ⟨R, hR⟩ : ∃ R, R = batch.filter (fun m => m.type = .Remove) := ⟨_, rfl⟩
    obtain ⟨D, hD⟩ : ∃ D, D = batch.filter (fun m => m.type = .Delete) := ⟨_, rfl⟩
    obtain ⟨F, hF⟩ : ∃ F, F = batch.filter (fun m => isForwarded m) := ⟨_, rfl⟩
    rw [← hR, ← hD, ← hF] at ih
    have hcases : (x.type = .Remove ∧ isForwarded x = false) ∨
        (x.type = .Delete ∧ isForwarded x = false) ∨
        (x.type ≠ .Remove ∧ x.type ≠ .Delete ∧ isForwarded x = true) := by
      cases hty : x.type <;> simp [isForwarded, hty]
    rcases hcases with ⟨h1, h2⟩ | ⟨h1, h2⟩ | ⟨h1, h2, h3⟩
    · have e1 : (x :: batch).filter (fun m => m.type = .Remove) = x :: R := by
        rw [hR, List.filter_cons]; simp [h1]
      have e2 : (x :: batch).filter (fun m => m.type = .Delete) = D := by
        rw [hD, List.filter_cons]; simp [h1]
      have e3 : (x :: batch).filter (fun m => isForwarded m) = F := by
        rw [hF, List.filter_cons]; simp [h2]
      rw [e1, e2, e3]
      exact List.Perm.cons _ ih
    · have e1 : (x :: batch).filter (fun m => m.type = .Remove) = R := by
        rw [hR, List.filter_cons]; simp [h1]
      have e2 : (x :: batch).filter (fun m => m.type = .Delete) = x :: D := by
        rw [hD, List.filter_cons]; simp [h1]
      have e3 : (x :: batch).filter (fun m => isForwarded m) = F := by
        rw [hF, List.filter_cons]; simp [h2]
      rw [e1, e2, e3]
      have e4 : R ++ x :: D ++ F = R ++ x :: (D ++ F) := by simp
      rw [e4]
      refine List.Perm.trans List.perm_middle (List.Perm.cons _ ?_)
      rw [← List.append_assoc]
      exact ih
    · have e1 : (x :: batch).filter (fun m => m.type = .Remove) = R := by
        rw [hR, List.filter_cons]; simp [h1]
      have e2 : (x :: batch).filter (fun m => m.type = .Delete) = D := by
        rw [hD, List.filter_cons]; simp [h2]
      have e3 : (x :: batch).filter (fun m => isForwarded m) = x :: F := by
        rw [hF, List.filter_cons]; simp [h3]
      rw [e1, e2, e3]
      exact List.Perm.trans List.perm_middle (List.Perm.cons _ ih)
/-- What the removal pass emits for the parse of a well-formed batch when nothing
is deferred is a permutation of the Removes and the Deletes of the batch. -/
theorem removals_perm (rk : Tag → Nat) (batch : ShadowViewMutationList)
    (hwf : WellFormedBatch rk batch) (fuel : Nat)
    (hfuel : (parseRemoveMutations State.fresh batch).s.next ≤ fuel) :
    (pairsOut (fun r => outOfM (parseRemoveMutations State.fresh batch).s.heap fuel r ++
        emitOf (parseRemoveMutations State.fresh batch).s.heap r)
        (parseRemoveMutations State.fresh batch).roots.reverse).Perm
      (batch.filter (fun m => m.type = .Remove) ++ batch.filter (fun m => m.type = .Delete)) := by
  have hW := parseRemoveMutations_parsedW rk batch hwf
  obtain ⟨P, hP⟩ : ∃ P, P = parseRemoveMutations State.fresh batch := ⟨_, rfl⟩
  rw [← hP] at hW hfuel ⊢
  have hF := hW.forest
  obtain ⟨h, hh⟩ : ∃ h, h = P.s.heap := ⟨_, rfl⟩
  rw [← hh] at hF ⊢
  have hRG : ∀ r ∈ P.roots, RootG h P.s.next fuel r := by
    intro r hr
    obtain ⟨a, b, c, d, e⟩ := hW.roots r hr
    rw [hh]
    exact ⟨a, b, c, HtLe.of_le hfuel d, e⟩
  obtain ⟨V, hV⟩ : ∃ V, V = P.roots.reverse.flatMap (fun r => ordM h fuel r ++ [r]) :=
    ⟨_, rfl⟩
  have e0 : pairsOut (fun r => outOfM h fuel r ++ emitOf h r) P.roots.reverse =
      V.flatMap (emitOf h) := by
    rw [pairsOut_flatMap, hV, List.flatMap_assoc]
    apply List.flatMap_congr
    intro r _
    rw [outOfM_ordM, List.flatMap_append]
    simp
  have hseg : ∀ r ∈ P.roots, ∀ z, z ∈ ordM h fuel r ++ [r] ↔ Reach h r z := by
    intro r hr z
    have hk := (hRG r hr).2.2.2.1
    constructor
    · intro hz
      rcases List.mem_append.mp hz with h1 | h1
      · exact (mem_ordM_reach fuel r z hk h1).1
      · rw [List.mem_singleton] at h1; rw [h1]; exact Reach.refl r
    · intro hz
      by_cases hzr : z = r
      · rw [hzr]; exact List.mem_append_right _ (List.mem_singleton_self _)
      · exact List.mem_append_left _ (hz.mem_ordM fuel hk hzr)
  have hVmem : ∀ z, z ∈ V ↔ ∃ r ∈ P.roots, Reach h r z := by
    intro z
    rw [hV, List.mem_flatMap]
    constructor
    · rintro ⟨r, hr, hz⟩
      exact ⟨r, List.mem_reverse.mp hr, (hseg r (List.mem_reverse.mp hr) z).mp hz⟩
    · rintro ⟨r, hr, hz⟩
      exact ⟨r, List.mem_reverse.mpr hr, (hseg r hr z).mpr hz⟩
  have hVnd : V.Nodup := by
    rw [hV]
    refine List.nodup_flatMap.mpr ⟨fun r hr => ?_, ?_⟩
    · have hrm : r ∈ P.roots := List.mem_reverse.mp hr
      have hk := (hRG r hrm).2.2.2.1
      rw [List.nodup_append]
      refine ⟨ordM_nodup hF.parentOK hF.nodup fuel r hk, List.nodup_singleton r,
        fun z hz hzr => ?_⟩
      rw [List.mem_singleton] at hzr
      exact (mem_ordM_reach fuel r z hk hz).2 hzr
    · refine List.Nodup.pairwise_of_forall_ne (List.nodup_reverse.mpr hW.rootsNodup)
        (fun a ha b hb hab => ?_)
      have ham : a ∈ P.roots := List.mem_reverse.mp ha
      have hbm : b ∈ P.roots := List.mem_reverse.mp hb
      show List.Disjoint (ordM h fuel a ++ [a]) (ordM h fuel b ++ [b])
      intro z hza hzb
      exact RootG.apart hF (hRG a ham) (hRG b hbm) hab ((hseg a ham z).mp hza)
        ((hseg b hbm z).mp hzb)
  have hperm : V.Perm P.mutationNodes := by
    refine (List.perm_ext_iff_of_nodup hVnd hW.nodesNodup).mpr (fun z => ?_)
    rw [hVmem]
    constructor
    · rintro ⟨r, hr, hz⟩
      have hr1 := hRG r hr
      refine hW.all z ?_ ?_
      · exact hF.reach_bound hz hr1.1
      · rw [← hh]; exact hF.reach_mutation hz hr1.1 hr1.2.1
    · intro hz
      obtain ⟨r, hr, hrz⟩ := hW.reach z hz
      exact ⟨r, hr, by rw [hh]; exact hrz⟩
  -- the Removes
  have hmuts : (P.mutationNodes.map (fun z => (h z).mutation)).Perm
      (batch.filter (fun m => m.type = .Remove)) := by
    rw [hh, hW.muts]
    exact (List.reverse_perm batch).filter _
  -- the Deletes
  have hnode : ∀ r ∈ batch, r.type = .Remove → ∃ z ∈ P.mutationNodes, (h z).mutation = r := by
    intro r hr hty
    have h1 : r ∈ P.mutationNodes.map (fun z => (P.s.heap z).mutation) := by
      rw [hW.muts, List.mem_filter]
      exact ⟨List.mem_reverse.mpr hr, by simpa using hty⟩
    obtain ⟨z, hz, hzr⟩ := List.mem_map.mp h1
    exact ⟨z, hz, by rw [hh]; exact hzr⟩
  have hold : ∀ z ∈ P.mutationNodes, (h z).mutation.oldChildShadowView.tag = (h z).tag := by
    intro z hz
    obtain ⟨v1, v2⟩ := hW.valid z hz
    rw [hh]
    exact hW.old z v1 v2
  have hinj : ∀ z ∈ P.mutationNodes, ∀ z1 ∈ P.mutationNodes, (h z).tag = (h z1).tag → z = z1 := by
    intro z hz z1 hz1 he
    obtain ⟨v1, v2⟩ := hW.valid z hz
    obtain ⟨u1, u2⟩ := hW.valid z1 hz1
    rw [hh] at he
    exact hW.tags z z1 v1 u1 v2 u2 he
  have hdelR := DeletesAfterRemoves.removed batch [] hwf.del
  have hdels : ((P.mutationNodes.filter (fun z => (h z).state ≠ .MOVED)).map
      (fun z => DeleteMutation (h z).mutation.oldChildShadowView)).Perm
      (batch.filter (fun m => m.type = .Delete)) := by
    refine (List.perm_ext_iff_of_nodup ?_ ?_).mpr (fun x => ?_)
    · refine List.Nodup.map_on (fun a ha b hb hab => ?_) (hW.nodesNodup.filter _)
      have ha1 := (List.mem_filter.mp ha).1
      have hb1 := (List.mem_filter.mp hb).1
      have ht : (h a).mutation.oldChildShadowView = (h b).mutation.oldChildShadowView := by
        have := congrArg (fun m => m.oldChildShadowView) hab
        simpa [DeleteMutation] using this
      exact hinj a ha1 b hb1 (by rw [← hold a ha1, ← hold b hb1, ht])
    · have hp := hwf.delOnce
      unfold DeletedOnce at hp
      have hp2 := hp.filter (fun m => decide (m.type = .Delete))
      refine (List.Pairwise.and_mem.mp hp2).imp ?_
      intro a b ⟨ha, hb, hab⟩ he
      have ha1 : a.type = .Delete := by simpa using (List.mem_filter.mp ha).2
      have hb1 : b.type = .Delete := by simpa using (List.mem_filter.mp hb).2
      exact hab ha1 hb1 (by rw [he])
    · rw [List.mem_map, List.mem_filter]
      constructor
      · rintro ⟨z, hz, hx⟩
        obtain ⟨hzN, hzs⟩ := List.mem_filter.mp hz
        have hzs1 : (h z).state ≠ .MOVED := by simpa using hzs
        rcases hW.states z hzN with ⟨_, d, hd, hdt, hdt2⟩ | ⟨k1, _⟩
        · obtain ⟨r, hr, hr1, hr2⟩ := hdelR d hd hdt
          obtain ⟨z1, hz1, hz1r⟩ := hnode r (by simpa using hr) hr1
          have htag : (h z1).tag = (h z).tag := by
            rw [← hold z1 hz1, hz1r, hh, ← hdt2, hr2]
            rfl
          have hzz : z1 = z := hinj z1 hz1 z hzN htag
          rw [hzz] at hz1r
          refine ⟨?_, ?_⟩
          · rw [← hx, hz1r, ← hr2]; exact hd
          · rw [← hx]; simp [DeleteMutation]
        · rw [hh] at hzs1
          exact absurd k1 hzs1
      · rintro ⟨hx, hxt⟩
        have hxt1 : x.type = .Delete := by simpa using hxt
        obtain ⟨r, hr, hr1, hr2⟩ := hdelR x hx hxt1
        obtain ⟨z, hz, hzr⟩ := hnode r (by simpa using hr) hr1
        refine ⟨z, List.mem_filter.mpr ⟨hz, ?_⟩, by rw [hzr, hr2]⟩
        rcases hW.states z hz with ⟨k1, _⟩ | ⟨_, k2⟩
        · rw [hh, k1]; simp
        · exfalso
          refine k2 x hx hxt1 ?_
          rw [← hh, ← hold z hz, hzr, hr2]
          rfl
  rw [e0]
  exact ((hperm.flatMap_right (emitOf h)).trans (flatMap_emitOf_perm h P.mutationNodes)).trans
    (hmuts.append hdels)
theorem removedNotDeletedLater_remove {batch : ShadowViewMutationList} {t : Tag}
    (h : RemovedNotDeletedLater batch t) :
    ∃ r ∈ batch, r.type = .Remove ∧ r.oldChildShadowView.tag = t := by
  obtain ⟨pre, r, post, hb, h1, h2, _⟩ := h
  exact ⟨r, by rw [hb]; simp, h1, h2⟩

/-- A batch in which no updated view is removed has no Update before the Remove
that moves its view. -/
theorem noUpdateBeforeMove_of_untouched : ∀ (batch : ShadowViewMutationList)
    (R : ShadowViewMutationList), (∀ r ∈ batch, r ∈ R) →
    (∀ u ∈ batch, u.type = .Update → ∀ r ∈ R, r.type = .Remove →
      r.oldChildShadowView.tag ≠ u.newChildShadowView.tag) → NoUpdateBeforeMove batch := by
  intro batch
  induction batch with
  | nil => intro _ _ _; trivial
  | cons u post ih =>
    intro R hsub h
    refine ⟨fun hu hrem => ?_, ih R (fun r hr => hsub r (List.mem_cons_of_mem _ hr))
      (fun x hx => h x (List.mem_cons_of_mem _ hx))⟩
    obtain ⟨r, hr, hr1, hr2⟩ := removedNotDeletedLater_remove hrem
    exact h u (List.mem_cons_self _ _) hu r (hsub r (List.mem_cons_of_mem _ hr)) hr1 hr2

/-- Counterexample to C18 as stated, with no animation of any kind in a fresh
engine.  When the Update of view 5 precedes the Remove that moves the view, the
Remove comes out with the old view of the Update instead of its own, so the
filtered batch is no permutation of the input; when the removed view 5 is
deleted twice, one Delete comes out. -/
theorem pullTransaction_not_permutation :
    (filtered (pullTransaction noAnimations 3 State.fresh 1 updateThenMoveBatch) =
        some [RemoveMutation 1 (sampleView 5) 0,
          UpdateMutation (sampleView 5) (shiftedView 5 10) 1,
          InsertMutation 2 (shiftedView 5 10) 0] ∧
      ¬ List.Perm [RemoveMutation 1 (sampleView 5) 0,
          UpdateMutation (sampleView 5) (shiftedView 5 10) 1,
          InsertMutation 2 (shiftedView 5 10) 0] updateThenMoveBatch) ∧
    (filtered (pullTransaction noAnimations 3 State.fresh 1 deleteTwiceBatch) =
        some [RemoveMutation 1 (sampleView 5) 0, DeleteMutation (sampleView 5)] ∧
      ¬ List.Perm [RemoveMutation 1 (sampleView 5) 0, DeleteMutation (sampleView 5)]
        deleteTwiceBatch) := by
  refine ⟨⟨by decide, fun hp => ?_⟩, ⟨by decide, fun hp => ?_⟩⟩
  · have hmem : RemoveMutation 1 (sampleView 5) 0 ∈ updateThenMoveBatch :=
      hp.mem_iff.mp (List.mem_cons_self _ _)
    exact absurd hmem (by decide)
  · exact absurd hp.length_eq (by decide)

/-- C18 (amended): in a fresh engine whose manager reports no animation of any
kind, for every well-formed batch (Updates keep the tag of their view, the
parent relation of the Removes is acyclic, no tag is removed twice or deleted
twice, every Delete is the Delete of the view of an earlier Remove, and no
Update precedes the Remove that moves its view) and every recursion budget
that covers the parsed heap, `pullTransaction` returns a filtered batch that is
a permutation of the input batch, the mutations being forwarded as they are,
indices included: first a permutation of the Removes and Deletes, then the
Creates, Inserts and Updates in their input order. -/
theorem pullTransaction_no_animation_permutation (mgr : Manager)
    (hno : ∀ log tag kind, mgr.hasLayoutAnimation log tag kind = false)
    (rk : Tag → Nat) (sid : SurfaceId) (batch : ShadowViewMutationList)
    (hwf : WellFormedBatch rk batch) (fuel : Nat)
    (hfuel : (parseRemoveMutations State.fresh batch).s.next ≤ fuel) :
    ∃ s1 out, pullTransaction mgr fuel State.fresh sid batch = some (s1, out) ∧
      out.Perm batch ∧
      out.filter (fun m => isForwarded m) = batch.filter (fun m => isForwarded m) ∧
      ∃ R, out = R ++ batch.filter (fun m => isForwarded m) ∧
        R.Perm (batch.filter (fun m => m.type = .Remove) ++
          batch.filter (fun m => m.type = .Delete)) := by
  obtain ⟨wr, hrem, hout, hflat, hidle, humap⟩ :=
    handleRemovals_quiet mgr (fun log tag => hno log tag .EXITING) rk batch hwf fuel hfuel
  have hRperm := removals_perm rk batch hwf fuel hfuel
  rw [← hout] at hRperm
  obtain ⟨wu, hwu⟩ : ∃ wu, wu = handleUpdatesAndEnterings mgr
      (parseRemoveMutations State.fresh batch).movedViews sid batch wr := ⟨_, rfl⟩
  have hupd : wu.2 = wr.2 ++ batch.filter (fun m => isForwarded m) := by
    rw [hwu]
    exact handleUpdatesAndEnterings_plain mgr hno _ sid batch wr hflat hidle
  have hmap : wu.1.updateMap sid = [] := by
    rw [hwu, handleUpdatesAndEnterings_updateMap]
    exact humap sid
  obtain ⟨o1, _, _⟩ := addOngoingAnimations_empty sid wu hmap
  have hpull : pullTransaction mgr fuel State.fresh sid batch =
      some (addOngoingAnimations sid wu) := by
    unfold pullTransaction
    simp only [hrem, hwu]
  have hRtypes : ∀ x ∈ wr.2, isForwarded x = false := by
    intro x hx
    have hx1 := hRperm.mem_iff.mp hx
    rcases List.mem_append.mp hx1 with h | h
    · have : x.type = .Remove := by simpa using (List.mem_filter.mp h).2
      simp [isForwarded, this]
    · have : x.type = .Delete := by simpa using (List.mem_filter.mp h).2
      simp [isForwarded, this]
  refine ⟨(addOngoingAnimations sid wu).1, (addOngoingAnimations sid wu).2, hpull, ?_, ?_,
    wr.2, by rw [o1, hupd], hRperm⟩
  · rw [o1, hupd]
    exact (hRperm.append (List.Perm.refl _)).trans (filter_types_perm batch)
  · rw [o1, hupd, List.filter_append, List.filter_filter]
    have h1 : wr.2.filter (fun m => isForwarded m) = [] := by
      rw [List.filter_eq_nil_iff]
      intro x hx
      rw [hRtypes x hx]
      simp
    rw [h1]
    simp

/-- Witness of C18: the well-formed batch `mixedBatch` in a fresh engine without
any animation. -/
theorem pullTransaction_no_animation_permutation_witness :
    filtered (pullTransaction noAnimations 4 State.fresh 1 mixedBatch) =
      some [RemoveMutation 7 (sampleView 8) 0, DeleteMutation (sampleView 8),
        RemoveMutation 1 (sampleView 7) 0, DeleteMutation (sampleView 7),
        UpdateMutation (sampleView 3) (shiftedView 3 10) 1, CreateMutation (sampleView 9),
        InsertMutation 1 (sampleView 9) 0] ∧
    ∃ s1 out, pullTransaction noAnimations 4 State.fresh 1 mixedBatch = some (s1, out) ∧
      out.Perm mixedBatch ∧
      out.filter (fun m => isForwarded m) = mixedBatch.filter (fun m => isForwarded m) :=
  ⟨by decide,
    let ⟨s1, out, h1, h2, h3, _⟩ := pullTransaction_no_animation_permutation noAnimations
      (fun _ _ _ => rfl) (fun t => if t = 8 then 2 else if t = 7 then 1 else 0) 1 mixedBatch
      { upd := by decide
        tree := by decide
        once := by unfold RemovedOnce; decide
        delOnce := by unfold DeletedOnce; decide
        del := by simp only [mixedBatch, DeletesAfterRemoves]; decide
        moved := noUpdateBeforeMove_of_untouched mixedBatch mixedBatch (fun _ h => h)
          (by decide) }
      4 (by decide)
    ⟨s1, out, h1, h2, h3⟩⟩

/-- C21 (code defect): the start of an exiting or of a layout animation records
the count of the entry the tag had plus one, or the count of a first trigger,
as the claim says.  The start of an entering animation does not: its closure
overwrites the entry of the tag without reading it, so the count it records
is the default of the record whatever entry the tag had.  Reached through the
engine: with a layout animation of view 7 in flight, triggered once or twice,
the Insert of the view schedules an entering start, and once it has run the
count is the same in both cases, so it is not the previous count plus one in
both. -/
theorem runUITask_entering_ignores_count :
    (∀ (s : State) (tag : Tag) (mutation : ShadowViewMutation),
      triggerCount (runUITask s (.exiting tag mutation)) tag =
        some (match s.layoutAnimations tag with
          | some la => la.count + 1
          | none => 1) ∧
      triggerCount (runUITask s (.layout tag mutation)) tag =
        some (match s.layoutAnimations tag with
          | some la => la.count + 1
          | none => 1)) ∧
    (∀ (s : State) (tag : Tag) (mutation : ShadowViewMutation) (opacity : Int),
      triggerCount (runUITask s (.entering tag mutation opacity)) tag =
        some defaultTriggerCount) ∧
    triggerCount layoutStartedState 7 = some 1 ∧
    triggerCount layoutRestartedState 7 = some 2 ∧
    (pullTransaction (layoutAndEnteringFor 7) 1 layoutStartedState 1
      [InsertMutation 1 (sampleView 7) 0]).map (fun w => w.1.uiQueue) =
      some [UITask.entering 7 (InsertMutation 1 (sampleView 7) 0) 1] ∧
    (pullTransaction (layoutAndEnteringFor 7) 1 layoutRestartedState 1
      [InsertMutation 1 (sampleView 7) 0]).map (fun w => w.1.uiQueue) =
      some [UITask.entering 7 (InsertMutation 1 (sampleView 7) 0) 1] ∧
    (pullTransaction (layoutAndEnteringFor 7) 1 layoutStartedState 1
      [InsertMutation 1 (sampleView 7) 0]).map (fun w => triggerCount (runScheduled w.1) 7) =
    (pullTransaction (layoutAndEnteringFor 7) 1 layoutRestartedState 1
      [InsertMutation 1 (sampleView 7) 0]).map (fun w => triggerCount (runScheduled w.1) 7) := by
  refine ⟨fun s tag mutation => ⟨?_, ?_⟩, fun s tag mutation opacity => ?_, by decide, by decide,
    by decide, by decide, by decide⟩
  · cases h : s.layoutAnimations tag <;>
      simp [triggerCount, runUITask, createLayoutAnimation, State.logCall, h]
  · cases h : s.layoutAnimations tag <;>
      simp [triggerCount, runUITask, createLayoutAnimation, State.logCall, h]
  · simp [triggerCount, runUITask, State.logCall]
/-- C28 (code defect): `endLayoutAnimation(tag, true)` casts whatever node the
lookup table holds for the tag to `MutationNode`, without asking
`isMutationMode()`, and the table also holds plain nodes.  Two engine states
reached through the engine itself show it.  With a layout animation in flight
on view 1, whose table entry (pointer 2) is the plain placeholder built for
the parent of the removed view 7, the call takes the branch that marks and
queues the entry: it answers the surface, and the plain node is in the set of
dead nodes afterwards.  With a layout animation in flight on the moved view 5,
whose table entry (pointer 3) is the plain node that replaced the MOVED node,
the call does the same to that plain node. -/
theorem endLayoutAnimation_queues_plain_node :
    (placeholderState.nodeForTag 1 = some 2 ∧
      (placeholderState.heap 2).isMutation = false ∧
      (placeholderState.layoutAnimations 1).map (fun la => la.count) = some 1 ∧
      (endLayoutAnimation placeholderState 1 true).1 = some 1 ∧
      ((endLayoutAnimation placeholderState 1 true).2.heap 2).isMutation = false ∧
      (endLayoutAnimation placeholderState 1 true).2.deadNodes = [2]) ∧
    (movedState.nodeForTag 5 = some 3 ∧
      (movedState.heap 3).isMutation = false ∧
      (movedState.layoutAnimations 5).map (fun la => la.count) = some 1 ∧
      (endLayoutAnimation movedState 5 true).1 = some 1 ∧
      ((endLayoutAnimation movedState 5 true).2.heap 3).isMutation = false ∧
      (endLayoutAnimation movedState 5 true).2.deadNodes = [3]) := by
  decide

/-- C5 (code defect): finalization is not idempotent for a DEAD node that is
pruned before the loop of `handleRemovals` reaches it.  Let `c` be a DEAD leaf
whose parent `p`, a mutation node under the plain node `q`, is DEAD as well and
has no other child.  When the set of dead nodes is visited with `c` before
`p`, the pass finalizes `c`, `maybeDropAncestors` then emits the Remove and
the Delete of the childless `p` without marking it DELETED, and the loop
finalizes the still DEAD `p` again: its Delete is appended twice.  Visited with
`p` first, the pass appends it once.  After either pass both nodes are DELETED
and a further pass over them appends nothing. -/
theorem handleDeadNodes_deletes_pruned_parent_twice (s : State) (m : ShadowViewMutationList)
    (c p q : Ptr) (fuel : Nat)
    (hcp : c ≠ p) (hqp : q ≠ p) (hqc : q ≠ c)
    (hc1 : (s.heap c).state = .DEAD) (hc2 : (s.heap c).unflattenedChildren = [])
    (hc3 : (s.heap c).unflattenedParent = p) (hc4 : (s.heap c).parent = p)
    (hp1 : (s.heap p).state = .DEAD) (hp2 : (s.heap p).isMutation = true)
    (hp3 : (s.heap p).children = [c]) (hp4 : (s.heap p).unflattenedChildren = [c])
    (hp5 : (s.heap p).unflattenedParent = q) (hp6 : (s.heap p).parent = q)
    (hq1 : (s.heap q).isMutation = false) :
    filtered (handleDeadNodes (fuel + 2) [c, p] (s, m)) =
      some (m ++ [(s.heap c).mutation, DeleteMutation (s.heap c).mutation.oldChildShadowView,
        (s.heap p).mutation, DeleteMutation (s.heap p).mutation.oldChildShadowView,
        (s.heap p).mutation, DeleteMutation (s.heap p).mutation.oldChildShadowView]) ∧
    filtered (handleDeadNodes (fuel + 2) [p, c] (s, m)) =
      some (m ++ [(s.heap c).mutation, DeleteMutation (s.heap c).mutation.oldChildShadowView,
        (s.heap p).mutation, DeleteMutation (s.heap p).mutation.oldChildShadowView]) ∧
    (handleDeadNodes (fuel + 2) [c, p] (s, m)).map
      (fun w => ((w.1.heap c).state, (w.1.heap p).state)) = some (.DELETED, .DELETED) ∧
    (handleDeadNodes (fuel + 2) [p, c] (s, m)).map
      (fun w => ((w.1.heap c).state, (w.1.heap p).state)) = some (.DELETED, .DELETED) ∧
    ∀ (s1 : State) (m2 : ShadowViewMutationList) (fuel2 : Nat),
      (s1.heap c).state = .DELETED → (s1.heap p).state = .DELETED →
      handleDeadNodes fuel2 [c, p] (s1, m2) = some (s1, m2) ∧
      handleDeadNodes fuel2 [p, c] (s1, m2) = some (s1, m2) := by
  have hpc : p ≠ c := Ne.symm hcp
  have hpq : p ≠ q := Ne.symm hqp
  have hcq : c ≠ q := Ne.symm hqc
  refine ⟨?_, ?_, ?_, ?_, ?_⟩
  · simp [filtered, handleDeadNodes, endAnimationsRecursively, maybeDropAncestors,
      removeChildFromUnflattenedTree, eraseLastWithTag, State.node, State.modifyNode,
      State.setNode, maybeCancelAnimation_heap, Function.update_apply, hcp, hqp, hqc, hpc, hpq,
      hcq, hc1, hc2, hc3, hc4, hp1, hp2, hp3, hp4, hp5, hp6, hq1]
  · simp [filtered, handleDeadNodes, endAnimationsRecursively, maybeDropAncestors,
      removeChildFromUnflattenedTree, eraseLastWithTag, State.node, State.modifyNode,
      State.setNode, maybeCancelAnimation_heap, Function.update_apply, hcp, hqp, hqc, hpc, hpq,
      hcq, hc1, hc2, hc3, hc4, hp1, hp2, hp3, hp4, hp5, hp6, hq1]
  · simp [filtered, handleDeadNodes, endAnimationsRecursively, maybeDropAncestors,
      removeChildFromUnflattenedTree, eraseLastWithTag, State.node, State.modifyNode,
      State.setNode, maybeCancelAnimation_heap, Function.update_apply, hcp, hqp, hqc, hpc, hpq,
      hcq, hc1, hc2, hc3, hc4, hp1, hp2, hp3, hp4, hp5, hp6, hq1]
  · simp [filtered, handleDeadNodes, endAnimationsRecursively, maybeDropAncestors,
      removeChildFromUnflattenedTree, eraseLastWithTag, State.node, State.modifyNode,
      State.setNode, maybeCancelAnimation_heap, Function.update_apply, hcp, hqp, hqc, hpc, hpq,
      hcq, hc1, hc2, hc3, hc4, hp1, hp2, hp3, hp4, hp5, hp6, hq1]
  · intro s1 m2 fuel2 h1 h2
    simp [handleDeadNodes, State.node, h1, h2]

/-- Witness of C5: in the engine state reached when the exit animations of the
nested views 7 and 8 have both ended, the DEAD child is at pointer 3, its DEAD
parent at pointer 1, under the plain node at pointer 2; visited child first,
the pass appends the Remove and the Delete of view 7 twice. -/
theorem handleDeadNodes_deletes_pruned_parent_twice_witness :
    filtered (handleDeadNodes 2 [3, 1] (nestedDeadState 8 7, [])) =
      some [RemoveMutation 7 (sampleView 8) 0, DeleteMutation (sampleView 8),
        RemoveMutation 1 (sampleView 7) 0, DeleteMutation (sampleView 7),
        RemoveMutation 1 (sampleView 7) 0, DeleteMutation (sampleView 7)] :=
  (handleDeadNodes_deletes_pruned_parent_twice (nestedDeadState 8 7) [] 3 1 2 0
    (by decide) (by decide) (by decide) (by decide) (by decide) (by decide) (by decide)
    (by decide) (by decide) (by decide) (by decide) (by decide) (by decide) (by decide)).1

/-- C19 fails on the code: when the exit animations of the nested views 7 and 8
have both ended, in either order, their nodes (the child at pointer 3, its
parent at pointer 1) are both DEAD and in the set of dead nodes.  In the next
transaction, with an empty batch, a set that visits the child first makes the
engine emit the Delete of tag 7 twice, once when the ancestors of the child are
pruned and once when the parent itself is finalized; a set that visits the
parent first makes it emit that Delete once.  The order of the two calls of
`endLayoutAnimation` plays no part. -/
theorem pullTransaction_deletes_parent_twice :
    (nestedDeadState 8 7).deadNodes = [3, 1] ∧ (nestedDeadState 7 8).deadNodes = [1, 3] ∧
    ((nestedDeadState 8 7).heap 3).state = .DEAD ∧
    ((nestedDeadState 8 7).heap 1).state = .DEAD ∧
    ((nestedDeadState 8 7).heap 3).unflattenedParent = 1 ∧
    ((nestedDeadState 8 7).heap 3).tag = 8 ∧ ((nestedDeadState 8 7).heap 1).tag = 7 ∧
    visitOrder (exitingNestedVisiting 3).deadKey [3, 1] = [3, 1] ∧
    visitOrder (exitingNestedVisiting 3).deadKey [1, 3] = [3, 1] ∧
    visitOrder (exitingNestedVisiting 1).deadKey [3, 1] = [1, 3] ∧
    visitOrder (exitingNestedVisiting 1).deadKey [1, 3] = [1, 3] ∧
    (filtered (pullTransaction (exitingNestedVisiting 3) 3 (nestedDeadState 8 7) 1 [])).map
      (deleteCount 7) = some 2 ∧
    (filtered (pullTransaction (exitingNestedVisiting 3) 3 (nestedDeadState 7 8) 1 [])).map
      (deleteCount 7) = some 2 ∧
    (filtered (pullTransaction (exitingNestedVisiting 1) 3 (nestedDeadState 8 7) 1 [])).map
      (deleteCount 7) = some 1 ∧
    (filtered (pullTransaction (exitingNestedVisiting 1) 3 (nestedDeadState 7 8) 1 [])).map
      (deleteCount 7) = some 1 := by
  decide

/-- C15: an Insert whose tag is in the moved-views map starts no entering
animation (nothing is scheduled on the UI queue and the manager is not called)
and appends exactly one mutation to the filtered batch: an Insert with the
parent of the mutation and the corrected index.  The corrected index is the
index of the mutation when that index is -1 or the parent is not in the lookup
table; otherwise, the pending children of the parent having strictly
increasing indices and the values being in the range of `int`, it is
`r = i + m`, `m` the number of pending children with an index below `r`, and
`r` is the index of no pending child.  The view of the Insert is the current
view of the tracked animation when the tag has one, and the recorded parent of
that animation becomes the new parent of the tag; otherwise it is the
pre-update view recorded earlier in the batch when there is one, otherwise the
view of the mutation itself; in both of these cases no animation is tracked
afterwards. -/
theorem handleMutation_moved_insert (mgr : Manager) (movedViews : Tag → Option Tag)
    (sid : SurfaceId) (l : UpdLoop) (m : ShadowViewMutation) (newParent : Tag)
    (hins : m.type = .Insert) (hmv : movedViews m.newChildShadowView.tag = some newParent) :
    (handleMutation mgr movedViews sid l m).s.uiQueue = l.s.uiQueue ∧
    (handleMutation mgr movedViews sid l m).s.managerLog = l.s.managerLog ∧
    ∃ ins : ShadowViewMutation,
      (handleMutation mgr movedViews sid l m).filteredMutations = l.filteredMutations ++ [ins] ∧
      ins.type = .Insert ∧ ins.parentTag = m.parentTag ∧
      (m.index = -1 → ins.index = -1) ∧
      (l.s.nodeForTag m.parentTag = none → ins.index = m.index) ∧
      (∀ parent, m.index ≠ -1 → l.s.nodeForTag m.parentTag = some parent →
        (pendingIndices l.s parent).Pairwise (fun a b => a < b) →
        (∀ k ∈ pendingIndices l.s parent, -2147483648 ≤ k ∧ k ≤ 2147483647) →
        -2147483648 ≤ m.index →
        (pendingIndices l.s parent).length ≤ 2147483647 →
        m.index + (pendingIndices l.s parent).length ≤ 2147483647 →
        ins.index = m.index +
          (((pendingIndices l.s parent).filter (fun k => k < ins.index)).length : Int) ∧
        ins.index ∉ pendingIndices l.s parent) ∧
      (∀ la, l.s.layoutAnimations m.newChildShadowView.tag = some la →
        ins.newChildShadowView = la.currentView ∧
        (handleMutation mgr movedViews sid l m).s.layoutAnimations m.newChildShadowView.tag
          = some { la with parentTag := newParent }) ∧
      (l.s.layoutAnimations m.newChildShadowView.tag = none →
        (handleMutation mgr movedViews sid l m).s.layoutAnimations m.newChildShadowView.tag = none ∧
        (∀ v, l.oldShadowViewsForReparentings m.newChildShadowView.tag = some v →
          ins.newChildShadowView = v) ∧
        (l.oldShadowViewsForReparentings m.newChildShadowView.tag = none →
          ins.newChildShadowView = m.newChildShadowView)) := by
  obtain ⟨h1, h2, ins, h3, h4, h5, h6, h7, h8⟩ :=
    handleMutation_moved_insert_core mgr movedViews sid l m newParent hins hmv
  refine ⟨h1, h2, ins, h3, h4, h5, ?_, ?_, ?_, h7, h8⟩
  · intro hi
    rw [h6]
    simp [updateIndexForMutation, hi]
  · intro hn
    rw [h6]
    simp [updateIndexForMutation, hn]
  · intro parent hidx hparent hsorted hrange hlow hlen hfit
    rw [h6]
    exact ⟨(updateIndexForMutation_spec l.s m parent hidx hparent hsorted hrange hlow hlen
        hfit).1,
      (updateIndexForMutation_spec l.s m parent hidx hparent hsorted hrange hlow hlen hfit).2.1⟩

/-- Witness of C15: with the animation of view 5 tracked and view 7 pending at
index 1 under parent 1, the Insert of the moved view 5 under parent 1 at index
1 is forwarded as one Insert at index 2, past the pending view, carrying the
current view of the tracked animation, whose recorded parent becomes 1. -/
theorem handleMutation_moved_insert_witness :
    movedInsertState.nodeForTag 1 = some 2 ∧ pendingIndices movedInsertState 2 = [1] ∧
    (movedInsertState.layoutAnimations 5).map (fun la => la.currentView) =
      some (sampleView 5) ∧
    (handleMutation (exitingAndLayoutFor 7 5) (fun t => if t = 5 then some 1 else none) 1
      { s := movedInsertState, filteredMutations := [],
        oldShadowViewsForReparentings := fun _ => none }
      (InsertMutation 1 (shiftedView 5 10) 1)).filteredMutations =
      [InsertMutation 1 (sampleView 5) 2] ∧
    ∃ ins : ShadowViewMutation,
      (handleMutation (exitingAndLayoutFor 7 5) (fun t => if t = 5 then some 1 else none) 1
        { s := movedInsertState, filteredMutations := [],
          oldShadowViewsForReparentings := fun _ => none }
        (InsertMutation 1 (shiftedView 5 10) 1)).filteredMutations = [] ++ [ins] ∧
      ins.index = 1 + ((([1] : List Int).filter (fun k => k < ins.index)).length : Int) ∧
      ins.index ∉ ([1] : List Int) := by
  obtain ⟨_, _, ins, h3, _, _, _, _, h6, _, _⟩ :=
    handleMutation_moved_insert (exitingAndLayoutFor 7 5)
      (fun t => if t = 5 then some 1 else none) 1
      { s := movedInsertState, filteredMutations := [],
        oldShadowViewsForReparentings := fun _ => none }
      (InsertMutation 1 (shiftedView 5 10) 1) 1 rfl rfl
  have hp : pendingIndices movedInsertState 2 = [1] := by decide
  have h := h6 2 (by decide) (by decide) (by decide) (by decide) (by decide) (by decide)
    (by decide)
  rw [hp] at h
  exact ⟨by decide, hp, by decide, by decide, ins, h3, h.1, h.2⟩

theorem parseStep_skip (a : ParseAcc) (m : ShadowViewMutation)
    (h1 : m.type ≠ .Remove) (h2 : m.type ≠ .Delete)
    (hmv : a.movedViews = fun _ => none) : parseStep a m = a := by
  unfold parseStep
  simp [h1, h2, hmv]

theorem parseStep_delete_fields (a : ParseAcc) (m : ShadowViewMutation) (h : m.type = .Delete) :
    parseStep a m = { a with deletedViews := m.oldChildShadowView.tag :: a.deletedViews } := by
  unfold parseStep
  simp [h]

theorem parseStep_remove_deleted (a : ParseAcc) (m : ShadowViewMutation) (h : m.type = .Remove)
    (hd : m.oldChildShadowView.tag ∈ a.deletedViews) :
    (parseStep a m).movedViews = a.movedViews ∧ (parseStep a m).deletedViews = a.deletedViews := by
  have hidx : (updateIndexForMutation a.s m).oldChildShadowView = m.oldChildShadowView := by
    rw [updateIndexForMutation_fields]
  unfold parseStep
  simp only [h, if_true]
  simp [parseRemove, hidx, hd]

/-- The reverse scan of a batch in which every Remove is followed by a Delete of
the same view records no moved view and is the reverse scan of the Removes and
Deletes of the batch. -/
theorem scan_filter (a : ParseAcc) (hmv : a.movedViews = fun _ => none) :
    ∀ batch : ShadowViewMutationList, LaterDeleted batch →
      batch.foldr (fun m acc => parseStep acc m) a =
        (batch.filter (fun m => m.type = .Remove ∨ m.type = .Delete)).foldr
          (fun m acc => parseStep acc m) a ∧
      (batch.foldr (fun m acc => parseStep acc m) a).movedViews = (fun _ => none) ∧
      ∀ d ∈ batch, d.type = .Delete → d.oldChildShadowView.tag ∈
        (batch.foldr (fun m acc => parseStep acc m) a).deletedViews := by
  intro batch
  induction batch with
  | nil => intro _; exact ⟨rfl, hmv, fun d hd => absurd hd (List.not_mem_nil _)⟩
  | cons m post ih =>
    intro hl
    obtain ⟨hm, hpost⟩ := hl
    obtain ⟨h1, h2, h3⟩ := ih hpost
    simp only [List.foldr_cons]
    by_cases hR : m.type = .Remove
    · obtain ⟨⟨d, hd, hdt, hdtag⟩, _⟩ := hm hR
      have hin := h3 d hd hdt
      rw [hdtag] at hin
      obtain ⟨k1, k2⟩ := parseStep_remove_deleted _ m hR hin
      refine ⟨?_, by rw [k1, h2], ?_⟩
      · rw [List.filter_cons_of_pos (by simp [hR]), List.foldr_cons, ← h1]
      · intro d1 hd1 hd1t
        rcases List.mem_cons.mp hd1 with rfl | hd1
        · rw [hR] at hd1t; cases hd1t
        · rw [k2]; exact h3 d1 hd1 hd1t
    · by_cases hD : m.type = .Delete
      · rw [parseStep_delete_fields _ m hD]
        refine ⟨?_, h2, ?_⟩
        · rw [List.filter_cons_of_pos (by simp [hD]), List.foldr_cons, ← h1,
            parseStep_delete_fields _ m hD]
        · intro d1 hd1 hd1t
          rcases List.mem_cons.mp hd1 with rfl | hd1
          · exact List.mem_cons_self _ _
          · exact List.mem_cons_of_mem _ (h3 d1 hd1 hd1t)
      · rw [parseStep_skip _ m hR hD h2]
        refine ⟨?_, h2, ?_⟩
        · rw [List.filter_cons_of_neg (by simp [hR, hD])]
          exact h1
        · intro d1 hd1 hd1t
          rcases List.mem_cons.mp hd1 with rfl | hd1
          · exact absurd hd1t hD
          · exact h3 d1 hd1 hd1t

theorem resolveMovedViews_none : ∀ (ms : ShadowViewMutationList),
    resolveMovedViews (fun _ => none) ms = fun _ => none := by
  intro ms
  unfold resolveMovedViews
  induction ms with
  | nil => rfl
  | cons m ms ih => simp only [List.foldl_cons]; simpa using ih

/-- The parse of a batch in which every Remove is followed by a Delete of the same
view is the parse of its Removes and Deletes, and no view is recorded as
moved. -/
theorem parseRemoveMutations_filter (s : State) (batch : ShadowViewMutationList)
    (hl : LaterDeleted batch) :
    parseRemoveMutations s batch =
      parseRemoveMutations s (batch.filter (fun m => m.type = .Remove ∨ m.type = .Delete)) ∧
    (parseRemoveMutations s batch).movedViews = fun _ => none := by
  obtain ⟨h1, h2, _⟩ := scan_filter
    { s := s, deletedViews := [], movedViews := fun _ => none, childrenForTag := [],
      unflattenedChildrenForTag := [], mutationNodes := [] } rfl batch hl
  have e1 : ∀ (l : ShadowViewMutationList) (a : ParseAcc),
      l.reverse.foldl parseStep a = l.foldr (fun m acc => parseStep acc m) a := by
    intro l a
    rw [List.foldl_reverse]
  have hmv : (parseRemoveMutations s batch).movedViews = fun _ => none := by
    simp only [parseRemoveMutations, e1, h2]
    exact resolveMovedViews_none batch
  refine ⟨?_, hmv⟩
  have hmv2 : (parseRemoveMutations s
      (batch.filter (fun m => m.type = .Remove ∨ m.type = .Delete))).movedViews
      = fun _ => none := by
    simp only [parseRemoveMutations, e1, ← h1, h2]
    exact resolveMovedViews_none _
  have hrest : ∀ P Q : Parsed, P.s = Q.s → P.movedViews = Q.movedViews → P.roots = Q.roots →
      P.mutationNodes = Q.mutationNodes → P = Q := by
    intro P Q a b c d
    cases P; cases Q
    simp only at a b c d
    subst a b c d
    rfl
  refine hrest _ _ ?_ (hmv.trans hmv2.symm) ?_ ?_
  · simp only [parseRemoveMutations, e1, h1]
  · simp only [parseRemoveMutations, e1, h1]
  · simp only [parseRemoveMutations, e1, h1]
theorem LaterDeleted.filter_kept : ∀ (batch : ShadowViewMutationList), LaterDeleted batch →
    LaterDeleted (batch.filter (fun m => m.type = .Remove ∨ m.type = .Delete)) := by
  intro batch
  induction batch with
  | nil => intro _; trivial
  | cons m post ih =>
    intro h
    obtain ⟨hm, hpost⟩ := h
    by_cases hk : m.type = .Remove ∨ m.type = .Delete
    · rw [List.filter_cons_of_pos (by simpa using hk)]
      refine ⟨fun hR => ?_, ih hpost⟩
      obtain ⟨⟨d, hd, hdt, hdtag⟩, hno⟩ := hm hR
      exact ⟨⟨d, List.mem_filter.mpr ⟨hd, by simp [hdt]⟩, hdt, hdtag⟩,
        fun m1 hm1 => hno m1 (List.mem_filter.mp hm1).1⟩
    · rw [List.filter_cons_of_neg (by simpa using hk)]
      exact ih hpost

theorem Below.below_filter {batch : ShadowViewMutationList} {a b : Tag} (h : Below batch a b) :
    Below (batch.filter (fun m => m.type = .Remove ∨ m.type = .Delete)) a b := by
  induction h with
  | child m hm hty => exact Below.child m (List.mem_filter.mpr ⟨hm, by simp [hty]⟩) hty
  | deeper m hm hty _ ih =>
    exact Below.deeper m (List.mem_filter.mpr ⟨hm, by simp [hty]⟩) hty ih

/-- C10: removal of whole subtrees without exit animation.  In a fresh engine,
for a batch in which every removed view is deleted later in the batch and
removed once, no view is its own ancestor, and no removed view has an exit
animation (the batch may also create, insert and update views),
`pullTransaction` returns once the recursion budget is large enough, and then:
the filtered batch contains for every removed view its Remove immediately
followed by its Delete, the pair of a view removed from below another removed
view comes before the pair of that view, and none of the removed tags is in
the lookup table. -/
theorem pullTransaction_removes_subtrees (mgr : Manager) (sid : SurfaceId)
    (batch : ShadowViewMutationList) (rk : Tag → Nat)
    (hlater : LaterDeleted batch)
    (htree : ∀ m ∈ batch, m.type = .Remove → rk m.parentTag < rk m.oldChildShadowView.tag)
    (hnoexit : ∀ m ∈ batch, m.type = .Remove →
      ∀ log, mgr.hasLayoutAnimation log m.oldChildShadowView.tag .EXITING = false) :
    ∃ fuel0, ∀ fuel, fuel0 ≤ fuel →
      ∃ s1 out, pullTransaction mgr fuel State.fresh sid batch = some (s1, out) ∧
        (∀ m ∈ batch, m.type = .Remove →
          (∃ pre post, out = pre ++ [m, DeleteMutation m.oldChildShadowView] ++ post) ∧
          s1.nodeForTag m.oldChildShadowView.tag = none) ∧
        (∀ mc ∈ batch, ∀ mp ∈ batch, mc.type = .Remove → mp.type = .Remove →
          Below batch mc.oldChildShadowView.tag mp.oldChildShadowView.tag →
          ∃ pre mid post, out = pre ++ [mc, DeleteMutation mc.oldChildShadowView] ++ mid ++
            [mp, DeleteMutation mp.oldChildShadowView] ++ post) := by
  obtain ⟨fb, hfb⟩ : ∃ fb, fb = batch.filter (fun m => m.type = .Remove ∨ m.type = .Delete) :=
    ⟨_, rfl⟩
  have hmem : ∀ m ∈ batch, m.type = .Remove → m ∈ fb := fun m hm hty => by
    rw [hfb]; exact List.mem_filter.mpr ⟨hm, by simp [hty]⟩
  have hb : SubtreeBatch mgr rk fb := by
    refine ⟨fun m hm => ?_, ?_, fun m hm hty => ?_, fun m hm hty => ?_⟩
    · rw [hfb] at hm; simpa using (List.mem_filter.mp hm).2
    · rw [hfb]; exact LaterDeleted.filter_kept batch hlater
    · rw [hfb] at hm; exact htree m (List.mem_filter.mp hm).1 hty
    · rw [hfb] at hm; exact hnoexit m (List.mem_filter.mp hm).1 hty
  have pf := parseRemoveMutations_facts hb
  obtain ⟨hPeq, hmv⟩ := parseRemoveMutations_filter State.fresh batch hlater
  rw [← hfb] at hPeq
  obtain ⟨P, hP⟩ : ∃ P, P = parseRemoveMutations State.fresh fb := ⟨_, rfl⟩
  rw [← hP] at pf
  rw [← hP] at hPeq
  refine ⟨P.s.next, fun fuel hfuel => ?_⟩
  obtain ⟨s1, hrem, htags⟩ := handleRemovals_subtrees pf fuel hfuel
  obtain ⟨R, hR⟩ : ∃ R, R = pairsOut (fun r => outOf P.s.heap fuel r ++ pairOf P.s.heap r)
      P.roots.reverse := ⟨_, rfl⟩
  rw [← hR] at hrem
  obtain ⟨hut, _, Y, hY, _⟩ := handleUpdatesAndEnterings_nodes mgr P.movedViews sid batch (s1, R)
  obtain ⟨Z, hZ⟩ := addOngoingAnimations_appends sid
    (handleUpdatesAndEnterings mgr P.movedViews sid batch (s1, R))
  have hnft := addOngoingAnimations_nodeForTag sid
    (handleUpdatesAndEnterings mgr P.movedViews sid batch (s1, R))
  have hrun : pullTransaction mgr fuel State.fresh sid batch = some
      (addOngoingAnimations sid (handleUpdatesAndEnterings mgr P.movedViews sid batch (s1, R)))
      := by
    unfold pullTransaction
    simp only [hPeq, hrem]
  obtain ⟨W, hW⟩ : ∃ W, W = addOngoingAnimations sid
      (handleUpdatesAndEnterings mgr P.movedViews sid batch (s1, R)) := ⟨_, rfl⟩
  rw [← hW] at hrun hnft hZ
  have hout : W.2 = R ++ (Y ++ Z) := by rw [hZ, hY]; simp
  have hseg : ∀ r ∈ P.roots, Seg (outOf P.s.heap fuel r ++ pairOf P.s.heap r) W.2 := by
    intro r hr
    rw [hout, hR]
    exact (pairsOut_seg (fun r => outOf P.s.heap fuel r ++ pairOf P.s.heap r) _ r
      (List.mem_reverse.mpr hr)).inner (Seg.left _ _)
  refine ⟨W.1, W.2, hrun, fun m hm hty => ?_, fun mc hmc mp hmp hcty hpty hbel => ?_⟩
  · obtain ⟨z, hz1, hz2, hz3, r, hr, hrz⟩ := pf.node m (hmem m hm hty) hty
    have hpair : pairOf P.s.heap z = [m, DeleteMutation m.oldChildShadowView] := by
      simp only [pairOf, hz2]
    refine ⟨?_, ?_⟩
    · have h1 : Seg (pairOf P.s.heap z) (outOf P.s.heap fuel r ++ pairOf P.s.heap r) := by
        by_cases hzr : z = r
        · rw [hzr]; exact Seg.right _ _
        · exact (outOf_pair fuel r z (HtLe.of_le hfuel (pf.roots r hr).2) hrz hzr).inner
            (Seg.left _ _)
      obtain ⟨A, B, hAB⟩ := h1.inner (hseg r hr)
      exact ⟨A, B, by rw [hAB, hpair]⟩
    · rw [hnft, hut, ← hz3]
      exact htags r hr z hrz
  · obtain ⟨zc, hc1, hc2, _, _⟩ := pf.node mc (hmem mc hmc hcty) hcty
    obtain ⟨zp, hp1, hp2, _, r, hr, hrz⟩ := pf.node mp (hmem mp hmp hpty) hpty
    have hbel1 : Below fb mc.oldChildShadowView.tag mp.oldChildShadowView.tag := by
      rw [hfb]; exact hbel.below_filter
    obtain ⟨qb, hq1, hq2, hq3⟩ := hbel1.reach pf zc hc1
    rw [hp1] at hq1
    simp only [Option.some.injEq] at hq1
    subst hq1
    have hne : zc ≠ zp := fun h => by rw [h] at hq3; exact absurd hq3 (lt_irrefl _)
    have hbef := (outOf_before fuel r zp zc (HtLe.of_le hfuel (pf.roots r hr).2) hrz hq2
      hne).in_seg (hseg r hr)
    obtain ⟨A, B, C, hABC⟩ := hbef
    refine ⟨A, B, C, ?_⟩
    rw [hABC]
    simp only [pairOf, hc2, hp2]
/-- Witness of C10: the nested views 7 and 8 are removed and deleted in a batch
that also creates and inserts view 9, in a fresh engine without animations. -/
theorem pullTransaction_removes_subtrees_witness :
    ∃ fuel0, ∀ fuel, fuel0 ≤ fuel →
      ∃ s1 out, pullTransaction noAnimations fuel State.fresh 1 mixedBatch = some (s1, out) ∧
        (∀ m ∈ mixedBatch, m.type = .Remove →
          (∃ pre post, out = pre ++ [m, DeleteMutation m.oldChildShadowView] ++ post) ∧
          s1.nodeForTag m.oldChildShadowView.tag = none) ∧
        (∀ mc ∈ mixedBatch, ∀ mp ∈ mixedBatch, mc.type = .Remove → mp.type = .Remove →
          Below mixedBatch mc.oldChildShadowView.tag mp.oldChildShadowView.tag →
          ∃ pre mid post, out = pre ++ [mc, DeleteMutation mc.oldChildShadowView] ++ mid ++
            [mp, DeleteMutation mp.oldChildShadowView] ++ post) :=
  pullTransaction_removes_subtrees noAnimations 1 mixedBatch
    (fun t => if t = 8 then 2 else if t = 7 then 1 else 0)
    (by simp [mixedBatch, LaterDeleted, RemoveMutation, DeleteMutation, CreateMutation,
      InsertMutation, UpdateMutation, sampleView])
    (by decide)
    (fun _ _ _ _ => rfl)

theorem Erases.er_refl (s : State) : Erases s s :=
  ⟨fun _ => Or.inr rfl, [], by simp, fun q hq => absurd hq (List.not_mem_nil _),
    fun t h1 h2 => absurd h2 h1⟩

theorem Erases.er_trans {a b c : State} (h1 : Erases a b) (h2 : Erases b c) : Erases a c := by
  obtain ⟨k1, Q1, q1, c1, e1⟩ := h1
  obtain ⟨k2, Q2, q2, c2, e2⟩ := h2
  have hnone : ∀ t, b.layoutAnimations t = none → c.layoutAnimations t = none := fun t hb => by
    rcases k2 t with h | h
    · exact h
    · rw [h, hb]
  refine ⟨fun t => ?_, Q1 ++ Q2, by rw [q2, q1, List.append_assoc], fun q hq => ?_,
    fun t ha hc => ?_⟩
  · rcases k2 t with h | h
    · exact Or.inl h
    · rcases k1 t with g | g
      · exact Or.inl (by rw [h, g])
      · exact Or.inr (by rw [h, g])
  · rcases List.mem_append.mp hq with h | h
    · obtain ⟨t, r1, r2, r3⟩ := c1 q h
      exact ⟨t, r1, r2, hnone t r3⟩
    · obtain ⟨t, r1, r2, r3⟩ := c2 q h
      refine ⟨t, r1, ?_, r3⟩
      rcases k1 t with g | g
      · exact absurd g r2
      · rw [← g]; exact r2
  · by_cases hb : b.layoutAnimations t = none
    · exact List.mem_append.mpr (Or.inl (e1 t ha hb))
    · exact List.mem_append.mpr (Or.inr (e2 t hb hc))

theorem Erases.er_same {s s1 : State} (hq : s1.uiQueue = s.uiQueue)
    (hl : s1.layoutAnimations = s.layoutAnimations) : Erases s s1 :=
  ⟨fun t => Or.inr (by rw [hl]), [], by simp [hq], fun q hq => absurd hq (List.not_mem_nil _),
    fun t h1 h2 => absurd (by rw [← hl]; exact h2) h1⟩

/-- An animation that a step has erased stays erased in the steps that follow. -/
theorem Erases.er_none {s s1 : State} (h : Erases s s1) (t : Tag)
    (ht : s.layoutAnimations t = none) : s1.layoutAnimations t = none := by
  rcases h.1 t with g | g
  · exact g
  · rw [g, ht]

/-- The closures scheduled by a step that erases animations only cancel. -/
theorem Erases.onlyCancels {s s1 : State} (h : Erases s s1) :
    ∃ Q, s1.uiQueue = s.uiQueue ++ Q ∧ OnlyCancels Q := by
  obtain ⟨_, Q, q1, c1, _⟩ := h
  exact ⟨Q, q1, fun q hq => let ⟨t, r1, _, _⟩ := c1 q hq; ⟨t, r1⟩⟩

theorem Screened.scr_refl (w : Work) : Screened w w :=
  ⟨le_refl _, fun _ h => h, fun _ _ h => h, fun _ _ h => h, fun _ _ => ⟨rfl, rfl⟩,
    Erases.er_refl _, ⟨[], by simp⟩⟩

theorem Screened.scr_trans {a b c : Work} (h1 : Screened a b) (h2 : Screened b c) :
    Screened a c := by
  obtain ⟨n1, a1, d1, b1, m1, e1, ⟨X1, x1⟩⟩ := h1
  obtain ⟨n2, a2, d2, b2, m2, e2, ⟨X2, x2⟩⟩ := h2
  exact ⟨le_trans n1 n2, fun z hz => a1 z (a2 z hz),
    fun z hz hc => d2 z (lt_of_lt_of_le hz n1) (d1 z hz hc),
    fun z hz hd => b2 z (lt_of_lt_of_le hz n1) (b1 z hz hd),
    fun z hz => ⟨(m2 z (lt_of_lt_of_le hz n1)).1.trans (m1 z hz).1,
      (m2 z (lt_of_lt_of_le hz n1)).2.trans (m1 z hz).2⟩,
    e1.er_trans e2, ⟨X1 ++ X2, by rw [x2, x1, List.append_assoc]⟩⟩

/-- A step that keeps the state, the mutation and the tag of every node. -/
theorem Screened.of_same {w w1 : Work} (hn : w.1.next ≤ w1.1.next)
    (hs : ∀ z, (w1.1.heap z).state = (w.1.heap z).state ∧
      (w1.1.heap z).mutation = (w.1.heap z).mutation ∧ (w1.1.heap z).tag = (w.1.heap z).tag)
    (hq : Erases w.1 w1.1)
    (hx : ∃ X, w1.2 = w.2 ++ X) : Screened w w1 :=
  ⟨hn, fun z hz => by rw [← (hs z).1]; exact hz, fun z _ hc => by rw [(hs z).1]; exact hc,
    fun z _ hd => by rw [(hs z).1]; exact hd, fun z _ => (hs z).2, hq, hx⟩

/-- The function `maybeCancelAnimation` erases the tracked animation of the tag
and schedules its cancellation when there was one. -/
theorem maybeCancelAnimation_erases (s : State) (tag : Tag) :
    Erases s (maybeCancelAnimation s tag) ∧
    (maybeCancelAnimation s tag).layoutAnimations tag = none := by
  unfold maybeCancelAnimation
  split
  · rename_i hnone
    exact ⟨Erases.er_refl s, hnone⟩
  · rename_i v hsome
    refine ⟨⟨fun t => ?_, [UITask.cancel tag], rfl, fun q hq => ⟨tag, ?_, ?_, ?_⟩,
      fun t h1 h2 => ?_⟩, by simp⟩
    · by_cases ht : t = tag
      · left; rw [ht]; simp
      · right; simp [Function.update_noteq ht]
    · rw [List.mem_singleton] at hq
      exact hq
    · rw [hsome]; simp
    · simp
    · by_cases ht : t = tag
      · rw [ht]; simp
      · simp only [Function.update_noteq ht] at h2
        exact absurd h2 h1

theorem Screened.scr_cancel (s : State) (tag : Tag) (m : ShadowViewMutationList)
    (X : ShadowViewMutationList) : Screened (s, m) (maybeCancelAnimation s tag, m ++ X) :=
  Screened.of_same (by rw [(maybeCancelAnimation_next s tag).1])
    (fun z => by rw [maybeCancelAnimation_heap]; exact ⟨rfl, rfl, rfl⟩)
    (maybeCancelAnimation_erases s tag).1 ⟨X, rfl⟩

/-- The state DELETED or WAITING written on a node that was not settled before the
step. -/
theorem Screened.then_mark {w w1 : Work} (h : Screened w w1) (c : Ptr) (x : ExitingState)
    (hx : x = .DELETED ∨ x = .WAITING) (hc : ¬ Classified (w.1.heap c).state) :
    Screened w (w1.1.modifyNode c (fun n => { n with state := x }), w1.2) := by
  obtain ⟨n1, a1, d1, b1, m1, q1, ⟨X1, x1⟩⟩ := h
  have hne : ∀ z, z ≠ c → (w1.1.modifyNode c (fun n => { n with state := x })).heap z =
      w1.1.heap z := fun z hz => by
    simp [State.modifyNode, State.setNode, Function.update_noteq hz]
  have hc1 : ((w1.1.modifyNode c (fun n => { n with state := x })).heap c).state = x ∧
      ((w1.1.modifyNode c (fun n => { n with state := x })).heap c).mutation =
        (w1.1.heap c).mutation ∧
      ((w1.1.modifyNode c (fun n => { n with state := x })).heap c).tag =
        (w1.1.heap c).tag := by
    simp [State.modifyNode, State.setNode, State.node]
  refine ⟨n1, fun z hz => ?_, fun z hzn hzc => ?_, fun z hzn hzd => ?_, fun z hzn => ?_, q1,
    ⟨X1, x1⟩⟩
  · by_cases hzc : z = c
    · rw [hzc, hc1.1] at hz
      rcases hx with h | h <;> rw [h] at hz <;> exact absurd hz (by simp)
    · simp only [hne z hzc] at hz
      exact a1 z hz
  · by_cases hz : z = c
    · rw [hz] at hzc; exact absurd hzc hc
    · simp only [hne z hz]
      exact d1 z hzn hzc
  · by_cases hz : z = c
    · rw [hz] at hzd
      exact absurd (show Classified (w.1.heap c).state by rw [hzd]; exact ⟨by simp, by simp⟩) hc
    · simp only [hne z hz]
      exact b1 z hzn hzd
  · by_cases hz : z = c
    · rw [hz, hc1.2.1, hc1.2.2]; exact m1 c (by rw [← hz]; exact hzn)
    · simp only [hne z hz]
      exact m1 z hzn

/-- The function `endAnimationsRecursively` erases the tracked animation of its
node, and schedules exactly the cancellations of the animations it erases. -/
theorem endAnimationsRecursively_erases : ∀ (fuel : Nat) (node : Ptr) (w w1 : Work),
    endAnimationsRecursively fuel node w = some w1 →
    Erases w.1 w1.1 ∧ w1.1.layoutAnimations (w.1.heap node).tag = none := by
  intro fuel
  induction fuel with
  | zero => intro node w w1 h; simp [endAnimationsRecursively] at h
  | succ fuel ih =>
    intro node w w1 h
    obtain ⟨s, m⟩ := w
    unfold endAnimationsRecursively at h
    simp only at h
    split at h
    · exact absurd h (by simp)
    · rename_i s3 m3 hfold
      simp only [Option.some.injEq] at h
      obtain ⟨s2, hs2⟩ : ∃ s2, s2 = (maybeCancelAnimation s (s.node node).tag).modifyNode node
          (fun n => { n with state := .DELETED }) := ⟨_, rfl⟩
      rw [← hs2] at hfold
      have h2 : Erases s s2 ∧ s2.layoutAnimations (s.heap node).tag = none := by
        rw [hs2]
        exact maybeCancelAnimation_erases s _
      have hloop := foldl_some_invariant
        (fun (acc : Option Work) subNode =>
          match acc with
          | none => none
          | some w =>
            if (w.1.node subNode).state ≠ .DELETED then
              endAnimationsRecursively fuel subNode w
            else some w)
        (fun _ => rfl)
        (fun (a b : Work) => Erases a.1 b.1)
        (fun a => Erases.er_refl a.1) (fun a b c h1 h2 => h1.er_trans h2) _
        (fun c hc b b1 hg => by
          simp only at hg
          split at hg
          · exact (ih c b b1 hg).1
          · simp only [Option.some.injEq] at hg
            rw [← hg]
            exact Erases.er_refl _)
        _ _ hfold
      rw [← h]
      exact ⟨h2.1.er_trans hloop, hloop.er_none _ h2.2⟩

/-- The function `endAnimationsRecursively` is a screened step that leaves its node
DELETED, erases its tracked animation and ends with the pair of the node. -/
theorem endAnimationsRecursively_screened (fuel : Nat) (node : Ptr) (w w1 : Work)
    (h : endAnimationsRecursively fuel node w = some w1) :
    Screened w w1 ∧ (w1.1.heap node).state = .DELETED ∧
    w1.1.layoutAnimations (w.1.heap node).tag = none ∧
    ∃ X, w1.2 = w.2 ++ X ++ [(w.1.heap node).mutation,
      DeleteMutation (w.1.heap node).mutation.oldChildShadowView] := by
  obtain ⟨⟨f1, f2, f3⟩, f4, f5⟩ := endAnimationsRecursively_finalizes fuel node w w1 h
  obtain ⟨_, g2, _, g4, _⟩ := endAnimationsRecursively_footprint fuel node w w1 h
    (fun p => rfl)
  have hfield : ∀ z, w1.1.heap z = { w.1.heap z with state := (w1.1.heap z).state } := f1
  have hmut : ∀ z, (w1.1.heap z).mutation = (w.1.heap z).mutation ∧
      (w1.1.heap z).tag = (w.1.heap z).tag := fun z => by
    rw [hfield z]
    exact ⟨rfl, rfl⟩
  obtain ⟨her, hgone⟩ := endAnimationsRecursively_erases fuel node w w1 h
  have hch : ∀ z, (w1.1.heap z).state = (w.1.heap z).state ∨
      (w1.1.heap z).state = .DELETED := fun z => by
    by_cases hz : (w1.1.heap z).state = (w.1.heap z).state
    · exact Or.inl hz
    · exact Or.inr (g4 z hz).2
  refine ⟨⟨by rw [g2], fun z hz => ?_, fun z _ hc => ?_, fun z _ hd => f2 z hd,
    fun z _ => hmut z, her, f3⟩, f4, hgone, f5⟩
  · rcases hch z with h1 | h1
    · rw [← h1]; exact hz
    · rw [h1] at hz; exact absurd hz (by simp)
  · rcases hch z with h1 | h1
    · rw [h1]; exact hc
    · rw [h1]; exact ⟨by simp, by simp⟩
theorem Still.still_refl (s : State) : Still s s :=
  ⟨le_refl _, fun _ _ => ⟨rfl, rfl, rfl⟩, fun _ _ => Or.inl rfl, rfl, rfl⟩

theorem Still.still_trans {a b c : State} (h1 : Still a b) (h2 : Still b c) : Still a c := by
  obtain ⟨n1, o1, w1, q1, l1⟩ := h1
  obtain ⟨n2, o2, w2, q2, l2⟩ := h2
  refine ⟨le_trans n1 n2, fun z hz => ?_, fun z hz => ?_, q2.trans q1, l2.trans l1⟩
  · obtain ⟨e1, e2, e3⟩ := o2 z (lt_of_lt_of_le hz n1)
    exact ⟨e1.trans (o1 z hz).1, e2.trans (o1 z hz).2.1, e3.trans (o1 z hz).2.2⟩
  · by_cases hzb : z < b.next
    · rw [(o2 z hzb).1]; exact w1 z hz
    · rcases w2 z (Nat.le_of_not_lt hzb) with h | h
      · rw [h]; exact w1 z hz
      · exact Or.inr h

theorem Still.still_of_heap {s s1 : State} (hh : s1.heap = s.heap) (hn : s1.next = s.next)
    (hq : s1.uiQueue = s.uiQueue) (hl : s1.layoutAnimations = s.layoutAnimations) :
    Still s s1 :=
  ⟨by rw [hn], fun z _ => by rw [hh]; exact ⟨rfl, rfl, rfl⟩, fun z _ => Or.inl (by rw [hh]),
    hq, hl⟩

theorem Still.still_modify (s : State) (p : Ptr) (f : Node → Node)
    (hf : ∀ x, (f x).state = x.state ∧ (f x).mutation = x.mutation ∧ (f x).tag = x.tag) :
    Still s (s.modifyNode p f) := by
  have hq : ∀ q, ((s.modifyNode p f).heap q).state = (s.heap q).state ∧
      ((s.modifyNode p f).heap q).mutation = (s.heap q).mutation ∧
      ((s.modifyNode p f).heap q).tag = (s.heap q).tag := by
    intro q
    by_cases hq : q = p
    · subst hq
      simp only [State.modifyNode, State.setNode, State.node, Function.update_same]
      exact hf _
    · simp [State.modifyNode, State.setNode, Function.update_noteq hq]
  exact ⟨le_refl _, fun z _ => hq z, fun z _ => Or.inl (hq z).1, rfl, rfl⟩

theorem Still.still_foldl_modify (f : Ptr → Node → Node)
    (hf : ∀ u x, (f u x).state = x.state ∧ (f u x).mutation = x.mutation ∧
      (f u x).tag = x.tag) :
    ∀ (cs : List Ptr) (s : State),
      Still s (cs.foldl (fun acc sub => acc.modifyNode sub (f sub)) s) := by
  intro cs
  induction cs with
  | nil => intro s; exact Still.still_refl s
  | cons c cs ih =>
    intro s
    simp only [List.foldl_cons]
    exact (Still.still_modify s c (f c) (hf c)).still_trans (ih _)

theorem Still.still_alloc (s : State) (n : Node) (hn : n.state = .UNDEFINED) :
    Still s (s.alloc n).2 := by
  refine ⟨Nat.le_succ _, fun z hz => ?_, fun z hz => ?_, rfl, rfl⟩
  · have hne : z ≠ s.next := Nat.ne_of_lt hz
    simp [State.alloc, Function.update_noteq hne]
  · by_cases hzn : z = s.next
    · right
      subst hzn
      simp only [State.alloc, Function.update_same]
      exact hn
    · left
      simp [State.alloc, Function.update_noteq hzn]

theorem Still.still_removeChild (s : State) (self child : Ptr) :
    Still s (removeChildFromUnflattenedTree s self child) := by
  have hq : ∀ q, ((removeChildFromUnflattenedTree s self child).heap q).state =
      (s.heap q).state ∧
      ((removeChildFromUnflattenedTree s self child).heap q).mutation = (s.heap q).mutation ∧
      ((removeChildFromUnflattenedTree s self child).heap q).tag = (s.heap q).tag := by
    intro q
    have := removeChildFromUnflattenedTree_node s self child q
    simp only [State.node] at this
    rw [this]
    exact ⟨rfl, rfl, rfl⟩
  refine ⟨by rw [(removeChildFromUnflattenedTree_next s self child).1], fun z _ => hq z,
    fun z _ => Or.inl (hq z).1, ?_, ?_⟩
  · simp [removeChildFromUnflattenedTree, State.modifyNode, State.setNode]
  · simp [removeChildFromUnflattenedTree, State.modifyNode, State.setNode]

theorem Still.still_removeChildren (node : Ptr) : ∀ (tbr : List Ptr) (s : State),
    Still s (tbr.foldl (fun acc sub => removeChildFromUnflattenedTree acc node sub) s) := by
  intro tbr
  induction tbr with
  | nil => intro s; exact Still.still_refl s
  | cons c cs ih =>
    intro s
    simp only [List.foldl_cons]
    exact (Still.still_removeChild s node c).still_trans (ih _)

theorem Still.screened {s s1 : State} (h : Still s s1) (m X : ShadowViewMutationList) :
    Screened (s, m) (s1, m ++ X) := by
  obtain ⟨n1, o1, w1, q1, l1⟩ := h
  refine ⟨n1, fun z hz => ?_, fun z hzn hc => by rw [(o1 z hzn).1]; exact hc,
    fun z hzn hd => by rw [(o1 z hzn).1]; exact hd, fun z hzn => (o1 z hzn).2,
    Erases.er_same q1 l1, ⟨X, rfl⟩⟩
  by_cases hzn : z < s.next
  · rw [← (o1 z hzn).1]; exact hz
  · rcases w1 z (Nat.le_of_not_lt hzn) with h | h
    · rw [← h]; exact hz
    · simp only at hz h
      rw [h] at hz
      exact absurd hz (by simp)

/-- The end of `startAnimationsRecursively` when the node has no exit animation:
it answers whether a child is animated, and writes no exit state. -/
theorem startFinish_still (node : Ptr) (l : StartLoop) :
    Still l.s (startFinish node false l).2.1 ∧ (startFinish node false l).2.2 = l.mutations ∧
    (l.hasAnimatedChildren = false → (startFinish node false l).1 = false) := by
  obtain ⟨S, hS⟩ : ∃ S, S = l.toBeRemoved.foldl
      (fun acc subNode => removeChildFromUnflattenedTree acc node subNode) l.s := ⟨_, rfl⟩
  have hg1 : Still l.s S := by rw [hS]; exact Still.still_removeChildren node _ _
  unfold startFinish
  simp only [← hS]
  split
  · refine ⟨hg1.still_trans ?_, rfl, fun _ => rfl⟩
    have ha : Still S (S.alloc (replacementNode (S.node node))).2 :=
      Still.still_alloc S _ rfl
    have hb := Still.still_foldl_modify (fun _ x => { x with parent := S.next })
      (fun _ _ => ⟨rfl, rfl, rfl⟩) (S.node node).children
      (S.alloc (replacementNode (S.node node))).2
    have hc := Still.still_foldl_modify (fun _ x => { x with unflattenedParent := S.next })
      (fun _ _ => ⟨rfl, rfl, rfl⟩) (S.node node).unflattenedChildren
      ((S.node node).children.foldl
        (fun acc sub => acc.modifyNode sub (fun x => { x with parent := S.next }))
        (S.alloc (replacementNode (S.node node))).2)
    exact ((ha.still_trans hb).still_trans hc).still_trans (Still.still_of_heap rfl rfl rfl rfl)
  · split
    · rename_i h
      exact absurd h (by simp)
    · exact ⟨hg1.still_trans (Still.still_of_heap rfl rfl rfl rfl), rfl, fun h => by simpa using h⟩
theorem Screened.out_append {w w1 : Work} (h : Screened w w1) (X : ShadowViewMutationList) :
    Screened w (w1.1, w1.2 ++ X) := by
  obtain ⟨n1, a1, d1, b1, m1, q1, ⟨X1, x1⟩⟩ := h
  exact ⟨n1, a1, d1, b1, m1, q1, ⟨X1 ++ X, by simp only [x1, List.append_assoc]⟩⟩

/-- The body of the loop of `startAnimationsRecursively` under a screen pop
(`shouldAnimate` is false): a settled child is finalized, and no child is
reported as animated. -/
theorem startLoopStep_screened (endRec : Ptr → Work → Option Work)
    (startRec : Ptr → Work → Option (Bool × Work)) (b : Bool)
    (hend : ∀ c w w1, endRec c w = some w1 →
      Screened w w1 ∧ (w1.1.heap c).state = .DELETED ∧
      w1.1.layoutAnimations (w.1.heap c).tag = none ∧
      ∃ X, w1.2 = w.2 ++ X ++ [(w.1.heap c).mutation,
        DeleteMutation (w.1.heap c).mutation.oldChildShadowView])
    (hstart : ∀ c w r, startRec c w = some r → r.1 = false ∧ Screened w r.2)
    (l l1 : StartLoop) (c : Ptr)
    (h : startLoopStep endRec startRec false b (some l) c = some l1) :
    Screened (l.s, l.mutations) (l1.s, l1.mutations) ∧
    l1.hasAnimatedChildren = l.hasAnimatedChildren ∧
    (Classified (l.s.heap c).state →
      (l1.s.heap c).state = .DELETED ∧
      l1.s.layoutAnimations (l.s.heap c).tag = none ∧
      ∃ X, l1.mutations = l.mutations ++ X ++ [(l.s.heap c).mutation,
        DeleteMutation (l.s.heap c).mutation.oldChildShadowView]) := by
  unfold startLoopStep at h
  simp only at h
  split at h
  · split at h
    · rename_i hc
      exact absurd hc.1 (by simp)
    · split at h
      · exact absurd h (by simp)
      · rename_i s1 m1 he
        simp only [Option.some.injEq] at h
        rw [← h]
        obtain ⟨e1, e2, e3, e4⟩ := hend _ _ _ he
        exact ⟨e1, rfl, fun _ => ⟨e2, e3, e4⟩⟩
  · rename_i hcl
    have hncl : ¬ Classified (l.s.heap c).state := hcl
    split at h
    · exact absurd h (by simp)
    · rename_i s1 m1 he
      exact absurd (hstart _ _ _ he).1 (by simp)
    · rename_i s1 m1 he
      have h0 : Screened (l.s, l.mutations) (s1, m1) := (hstart _ _ _ he).2
      split at h
      · simp only [Option.some.injEq] at h
        rw [← h]
        exact ⟨h0.out_append _, rfl, fun hc => absurd hc hncl⟩
      · split at h
        · simp only [Option.some.injEq] at h
          rw [← h]
          refine ⟨?_, rfl, fun hc => absurd hc hncl⟩
          have h1 : Screened (l.s, l.mutations) (maybeCancelAnimation s1 (s1.node c).tag,
              m1 ++ []) := h0.scr_trans (Screened.scr_cancel s1 _ m1 [])
          have h2 := (h1.then_mark c .DELETED (Or.inl rfl) hncl).out_append
            [(s1.node c).mutation, DeleteMutation (s1.node c).mutation.oldChildShadowView]
          obtain ⟨n1, a1, d1, b1, mm1, q1, ⟨X1, x1⟩⟩ := h2
          exact ⟨n1, a1, d1, b1, mm1, q1, ⟨X1, by simpa using x1⟩⟩
        · simp only [Option.some.injEq] at h
          rw [← h]
          exact ⟨h0.then_mark c .WAITING (Or.inr rfl) hncl, rfl, fun hc => absurd hc hncl⟩
theorem startLoop_none (endRec : Ptr → Work → Option Work)
    (startRec : Ptr → Work → Option (Bool × Work)) (a b : Bool) : ∀ L : List Ptr,
    L.foldl (startLoopStep endRec startRec a b) none = none := by
  intro L
  induction L with
  | nil => rfl
  | cons c cs ih => rw [List.foldl_cons]; exact ih

/-- The loop of `startAnimationsRecursively` under a screen pop: every child that
was settled is finalized, and no child is reported as animated. -/
theorem startLoop_screened (endRec : Ptr → Work → Option Work)
    (startRec : Ptr → Work → Option (Bool × Work)) (b : Bool)
    (hend : ∀ c w w1, endRec c w = some w1 →
      Screened w w1 ∧ (w1.1.heap c).state = .DELETED ∧
      w1.1.layoutAnimations (w.1.heap c).tag = none ∧
      ∃ X, w1.2 = w.2 ++ X ++ [(w.1.heap c).mutation,
        DeleteMutation (w.1.heap c).mutation.oldChildShadowView])
    (hstart : ∀ c w r, startRec c w = some r → r.1 = false ∧ Screened w r.2) :
    ∀ (L : List Ptr) (l l1 : StartLoop),
      L.foldl (startLoopStep endRec startRec false b) (some l) = some l1 →
      Screened (l.s, l.mutations) (l1.s, l1.mutations) ∧
      l1.hasAnimatedChildren = l.hasAnimatedChildren ∧
      ∀ c ∈ L, c < l.s.next → Classified (l.s.heap c).state →
        (l1.s.heap c).state = .DELETED ∧
        l1.s.layoutAnimations (l.s.heap c).tag = none ∧
        ∃ X Y, l1.mutations = l.mutations ++ X ++ [(l.s.heap c).mutation,
          DeleteMutation (l.s.heap c).mutation.oldChildShadowView] ++ Y := by
  intro L
  induction L with
  | nil =>
    intro l l1 h
    simp only [List.foldl_nil, Option.some.injEq] at h
    rw [← h]
    exact ⟨Screened.scr_refl _, rfl, fun c hc => absurd hc (List.not_mem_nil _)⟩
  | cons d cs ih =>
    intro l l1 h
    rw [List.foldl_cons] at h
    cases hstep : startLoopStep endRec startRec false b (some l) d with
    | none =>
      rw [hstep, startLoop_none] at h
      exact absurd h (by simp)
    | some l2 =>
      rw [hstep] at h
      obtain ⟨s1, a1, p1⟩ := startLoopStep_screened endRec startRec b hend hstart l l2 d hstep
      obtain ⟨s2, a2, p2⟩ := ih l2 l1 h
      refine ⟨s1.scr_trans s2, a2.trans a1, fun c hc hcn hcl => ?_⟩
      obtain ⟨n1, _, d1, b1, m1, _, ⟨X1, x1⟩⟩ := s1
      obtain ⟨n2, _, d2, b2, m2, r2, ⟨X2, x2⟩⟩ := s2
      simp only at n1 d1 b1 m1 x1 n2 d2 b2 m2 r2 x2
      by_cases hcd : c = d
      · rw [hcd] at hcn hcl ⊢
        obtain ⟨e1, g1, X, e2⟩ := p1 hcl
        exact ⟨b2 d (lt_of_lt_of_le hcn n1) e1, r2.er_none _ g1, X, X2, by rw [x2, e2]⟩
      · have hcs : c ∈ cs := by
          rcases List.mem_cons.mp hc with h | h
          · exact absurd h hcd
          · exact h
        obtain ⟨e1, g1, X, Y, e2⟩ := p2 c hcs (lt_of_lt_of_le hcn n1) (d1 c hcn hcl)
        refine ⟨e1, by rw [← (m1 c hcn).2]; exact g1, X1 ++ X, Y, ?_⟩
        rw [e2, x1, (m1 c hcn).1]
        simp only [List.append_assoc]

/-- Under a screen pop `startAnimationsRecursively` answers false, makes no node
ANIMATING, schedules nothing but the cancellations of the animations it erases
and finalizes the settled children of its node, whose tracked animations are
among the erased ones. -/
theorem startAnimationsRecursively_screened (mgr : Manager) :
    ∀ (fuel : Nat) (node : Ptr) (a b c : Bool) (w : Work) (r : Bool × Work),
      (c = true ∨
        mgr.isRNSScreen (w.1.node node).mutation.oldChildShadowView.componentName = true) →
      startAnimationsRecursively mgr fuel node a b c w = some r →
      r.1 = false ∧ Screened w r.2 ∧
      ∀ x ∈ (w.1.heap node).unflattenedChildren, x < w.1.next →
        Classified (w.1.heap x).state →
        (r.2.1.heap x).state = .DELETED ∧
        r.2.1.layoutAnimations (w.1.heap x).tag = none ∧
        ∃ X Y, r.2.2 = w.2 ++ X ++ [(w.1.heap x).mutation,
          DeleteMutation (w.1.heap x).mutation.oldChildShadowView] ++ Y := by
  intro fuel
  induction fuel with
  | zero => intro node a b c w r _ h; simp [startAnimationsRecursively] at h
  | succ fuel ih =>
    intro node a b c w r hscreen h
    obtain ⟨s, m⟩ := w
    have hpop : (if mgr.isRNSScreen (s.node node).mutation.oldChildShadowView.componentName
        = true then true else c) = true := by
      rcases hscreen with h1 | h1
      · rw [h1]; simp
      · simp only at h1; rw [if_pos h1]
    unfold startAnimationsRecursively at h
    simp only [hpop, Bool.not_true, Bool.false_and] at h
    split at h
    · exact absurd h (by simp)
    · rename_i l hfold
      simp only [Option.some.injEq] at h
      obtain ⟨p1, p2, p3⟩ := startLoop_screened (endAnimationsRecursively fuel)
        (fun subNode w => startAnimationsRecursively mgr fuel subNode
          (a && (!false || (s.node node).state = .MOVED)) false true w)
        (a && (!false || (s.node node).state = .MOVED))
        (fun c w w1 he => endAnimationsRecursively_screened fuel c w w1 he)
        (fun c w r he => ⟨(ih c _ _ _ w r (Or.inl rfl) he).1, (ih c _ _ _ w r (Or.inl rfl) he).2.1⟩)
        (s.node node).unflattenedChildren.reverse
        { hasAnimatedChildren := false, toBeRemoved := [], s := s, mutations := m } l hfold
      obtain ⟨f1, f2, f3⟩ := startFinish_still node l
      rw [← h]
      have hfin : Screened (l.s, l.mutations) (startFinish node false l).2 := by
        obtain ⟨n0, a0, d0, b0, m0, q0, _⟩ := f1.screened l.mutations []
        exact ⟨n0, a0, d0, b0, m0, q0, ⟨[], by rw [f2]; simp⟩⟩
      refine ⟨f3 p2, p1.scr_trans hfin, fun x hx hxn hxc => ?_⟩
      obtain ⟨e1, g1, X, Y, e2⟩ := p3 x (List.mem_reverse.mpr hx) hxn hxc
      obtain ⟨n1, _, _, _, _, _, _⟩ := p1
      obtain ⟨_, _, _, b2, _, r2, _⟩ := hfin
      exact ⟨b2 x (lt_of_lt_of_le hxn n1) e1, r2.er_none _ g1, X, Y, by rw [f2]; exact e2⟩
/-- C23: when `startAnimationsRecursively` is invoked on a node recognised as a
full-screen transition container (in a state that satisfies the invariant of
the removal pass, with a recursion budget above the height of the subtree),
then whatever the animation manager answers and whatever the three flags are,
the call returns false; no node is ANIMATING afterwards that was not ANIMATING
before; no tracked animation is added or changed; the closures it schedules
are cancellations, exactly those of the tracked animations the call erased,
so no exit animation start is scheduled; and every unflattened child of the
node that was settled before the call, in particular every child that was
ANIMATING, is finalized: it is DELETED, its tracked animation is erased from
`layoutAnimations_` with its cancellation among the scheduled closures when
there was one, and its withheld Remove followed by its Delete is appended. -/
theorem startAnimationsRecursively_screen_pop (t : Tag) (mgr : Manager) (fuel : Nat)
    (node : Ptr) (a b c : Bool) (s : State) (m : ShadowViewMutationList)
    (hscreen : mgr.isRNSScreen (s.node node).mutation.oldChildShadowView.componentName = true)
    (hinv : RemInv t s.heap s.next) (hnode : node < s.next) (hht : HtLe s.heap fuel node) :
    ∃ s1 out Q, startAnimationsRecursively mgr fuel node a b c (s, m) = some (false, s1, out) ∧
      (∀ z, (s1.heap z).state = .ANIMATING → (s.heap z).state = .ANIMATING) ∧
      (∀ tag, s1.layoutAnimations tag = none ∨
        s1.layoutAnimations tag = s.layoutAnimations tag) ∧
      s1.uiQueue = s.uiQueue ++ Q ∧ OnlyCancels Q ∧
      (∀ tag, UITask.cancel tag ∈ Q ↔
        (s.layoutAnimations tag ≠ none ∧ s1.layoutAnimations tag = none)) ∧
      (∀ x ∈ (s.heap node).unflattenedChildren, Classified (s.heap x).state →
        (s1.heap x).state = .DELETED ∧
        s1.layoutAnimations (s.heap x).tag = none ∧
        (s.layoutAnimations (s.heap x).tag ≠ none → UITask.cancel (s.heap x).tag ∈ Q) ∧
        ∃ X Y, out = m ++ X ++ [(s.heap x).mutation,
          DeleteMutation (s.heap x).mutation.oldChildShadowView] ++ Y) ∧
      (∀ x ∈ (s.heap node).unflattenedChildren, (s.heap x).state = .ANIMATING →
        (s1.heap x).state = .DELETED ∧ s1.layoutAnimations (s.heap x).tag = none ∧
        (s.layoutAnimations (s.heap x).tag ≠ none → UITask.cancel (s.heap x).tag ∈ Q)) := by
  obtain ⟨r, hr⟩ := startAnimationsRecursively_some mgr fuel node a b c s m hinv hnode hht
  obtain ⟨r1, ⟨_, q1, _, _, _, q6, _⟩, r3⟩ :=
    startAnimationsRecursively_screened mgr fuel node a b c (s, m) r (Or.inr hscreen) hr
  obtain ⟨ans, s1, out⟩ := r
  simp only at r1 q1 q6 r3
  subst r1
  obtain ⟨k1, Q, k2, k3, k4⟩ := q6
  have hkid : ∀ x ∈ (s.heap node).unflattenedChildren, Classified (s.heap x).state →
      (s1.heap x).state = .DELETED ∧
      s1.layoutAnimations (s.heap x).tag = none ∧
      (s.layoutAnimations (s.heap x).tag ≠ none → UITask.cancel (s.heap x).tag ∈ Q) ∧
      ∃ X Y, out = m ++ X ++ [(s.heap x).mutation,
        DeleteMutation (s.heap x).mutation.oldChildShadowView] ++ Y :=
    fun x hx hc =>
      let ⟨e1, e2, e3⟩ := r3 x hx (hinv.kids node hnode x hx).2 hc
      ⟨e1, e2, fun htr => k4 _ htr e2, e3⟩
  refine ⟨s1, out, Q, hr, q1, k1, k2,
    fun q hq => let ⟨tag, g1, _, _⟩ := k3 q hq; ⟨tag, g1⟩, fun tag => ⟨fun hq => ?_,
      fun hh => k4 tag hh.1 hh.2⟩, hkid, fun x hx ha => ?_⟩
  · obtain ⟨tag1, g1, g2, g3⟩ := k3 _ hq
    have : tag = tag1 := by injection g1
    rw [this]
    exact ⟨g2, g3⟩
  · obtain ⟨e1, e2, e3, _⟩ := hkid x hx (by rw [ha]; exact ⟨by simp, by simp⟩)
    exact ⟨e1, e2, e3⟩

/-- Witness of C23: the screen 7 (pointer 3) is popped while the exit animation of
its child 8 (pointer 1) is in flight, so an animation of tag 8 is tracked, and
an exit animation is configured for the screen itself: the call answers false,
finalizes the child, erases the tracked animation of tag 8 and schedules its
cancellation. -/
theorem startAnimationsRecursively_screen_pop_witness :
    (screenPopState.heap 3).unflattenedChildren = [1] ∧
    (screenPopState.heap 1).state = .ANIMATING ∧
    (screenPopState.heap 1).tag = 8 ∧
    screenPopState.layoutAnimations 8 ≠ none ∧
    ∃ s1 out Q, startAnimationsRecursively (exitingFor 7) 3 3 true true false
        (screenPopState, []) = some (false, s1, out) ∧
      s1.uiQueue = screenPopState.uiQueue ++ Q ∧
      (s1.heap 1).state = .DELETED ∧
      s1.layoutAnimations 8 = none ∧
      UITask.cancel 8 ∈ Q ∧
      (∀ z, (s1.heap z).state = .ANIMATING → (screenPopState.heap z).state = .ANIMATING) ∧
      OnlyCancels Q :=
  ⟨by decide, by decide, by decide, by decide,
    let ⟨s1, out, Q, h1, h2, _, h4, h5, _, _, h8⟩ :=
      startAnimationsRecursively_screen_pop 0 (exitingFor 7)
      3 3 true true false screenPopState [] (by decide)
      (RemInv.of_untagged (by decide)) (by decide)
      (by
        show ∀ c ∈ (screenPopState.heap 3).unflattenedChildren,
          ∀ c2 ∈ (screenPopState.heap c).unflattenedChildren,
          ∀ c3 ∈ (screenPopState.heap c2).unflattenedChildren, False
        decide)
    ⟨s1, out, Q, h1, h4, (h8 1 (by decide) (by decide)).1,
      (h8 1 (by decide) (by decide)).2.1,
      (h8 1 (by decide) (by decide)).2.2 (by decide), h2, h5⟩⟩

theorem Pruning.fr_refl (s : State) : Pruning s s :=
  ⟨le_refl _, fun _ h => h, fun _ _ _ h => h, fun _ _ => Or.inl rfl⟩

theorem Pruning.fr_trans {a b c : State} (h1 : Pruning a b) (h2 : Pruning b c) : Pruning a c := by
  obtain ⟨n1, m1, k1, p1⟩ := h1
  obtain ⟨n2, m2, k2, p2⟩ := h2
  refine ⟨le_trans n1 n2, fun p h => m1 p (m2 p h),
    fun p hp c hc => k1 p hp c (k2 p (lt_of_lt_of_le hp n1) c hc), fun p hp => ?_⟩
  rcases p2 p (lt_of_lt_of_le hp n1) with h | h
  · rw [h]; exact p1 p hp
  · exact Or.inr (le_trans n1 h)

/-- A step that keeps the kind and the unflattened parent of every node and adds
no unflattened child. -/
theorem Pruning.of_nodes {s s1 : State} (hn : s.next ≤ s1.next)
    (h : ∀ p, (s1.heap p).isMutation = (s.heap p).isMutation ∧
      (∀ c ∈ (s1.heap p).unflattenedChildren, c ∈ (s.heap p).unflattenedChildren) ∧
      (s1.heap p).unflattenedParent = (s.heap p).unflattenedParent) : Pruning s s1 :=
  ⟨hn, fun p hp => by rw [← (h p).1]; exact hp, fun p _ => (h p).2.1,
    fun p _ => Or.inl (h p).2.2⟩

theorem Pruning.fr_of_heap {s s1 : State} (hh : s1.heap = s.heap) (hn : s1.next = s.next) :
    Pruning s s1 :=
  Pruning.of_nodes (by rw [hn]) (fun p => by rw [hh]; exact ⟨rfl, fun _ h => h, rfl⟩)

theorem Pruning.fr_modify (s : State) (p : Ptr) (f : Node → Node)
    (hf : ∀ x, (f x).isMutation = x.isMutation ∧
      (∀ c ∈ (f x).unflattenedChildren, c ∈ x.unflattenedChildren) ∧
      (f x).unflattenedParent = x.unflattenedParent) :
    Pruning s (s.modifyNode p f) :=
  Pruning.of_nodes (le_refl _) (fun q => by
    by_cases hq : q = p
    · subst hq
      simp only [State.modifyNode, State.setNode, State.node, Function.update_same]
      exact hf _
    · rw [show (s.modifyNode p f).heap q = s.heap q from by
        simp only [State.modifyNode, State.setNode, Function.update_noteq hq]]
      exact ⟨rfl, fun _ h => h, rfl⟩)

theorem Pruning.fr_foldl_modify (f : Ptr → Node → Node)
    (hf : ∀ u x, (f u x).isMutation = x.isMutation ∧
      (∀ c ∈ (f u x).unflattenedChildren, c ∈ x.unflattenedChildren) ∧
      (f u x).unflattenedParent = x.unflattenedParent) :
    ∀ (cs : List Ptr) (s : State),
      Pruning s (cs.foldl (fun acc sub => acc.modifyNode sub (f sub)) s) := by
  intro cs
  induction cs with
  | nil => intro s; exact Pruning.fr_refl s
  | cons c cs ih =>
    intro s
    simp only [List.foldl_cons]
    exact (Pruning.fr_modify s c (f c) (hf c)).fr_trans (ih _)

theorem Pruning.fr_alloc (s : State) (n : Node) (hn : n.isMutation = false) :
    Pruning s (s.alloc n).2 := by
  refine ⟨Nat.le_succ _, fun p hp => ?_, fun p hpn c hc => ?_, fun p hpn => Or.inl ?_⟩
  · by_cases hq : p = s.next
    · subst hq
      simp only [State.alloc, Function.update_same] at hp
      rw [hn] at hp
      exact absurd hp (by simp)
    · simpa only [State.alloc, Function.update_noteq hq] using hp
  · have hq : p ≠ s.next := Nat.ne_of_lt hpn
    simpa only [State.alloc, Function.update_noteq hq] using hc
  · have hq : p ≠ s.next := Nat.ne_of_lt hpn
    simp only [State.alloc, Function.update_noteq hq]

/-- The children of a replaced node are handed to the replacement, a node
allocated by the step. -/
theorem Pruning.fr_reparent {s0 : State} (q : Ptr) (hq : s0.next ≤ q) :
    ∀ (cs : List Ptr) (s : State), Pruning s0 s →
      Pruning s0 (cs.foldl (fun acc sub =>
        acc.modifyNode sub (fun x => { x with unflattenedParent := q })) s) := by
  intro cs
  induction cs with
  | nil => intro s h; exact h
  | cons c cs ih =>
    intro s h
    simp only [List.foldl_cons]
    refine ih _ ?_
    obtain ⟨n1, m1, k1, p1⟩ := h
    refine ⟨n1, fun p hp => m1 p ?_, fun p hpn x hx => k1 p hpn x ?_, fun p hpn => ?_⟩
    · by_cases hpc : p = c
      · subst hpc
        simpa only [State.modifyNode, State.setNode, State.node, Function.update_same] using hp
      · simpa only [State.modifyNode, State.setNode, Function.update_noteq hpc] using hp
    · by_cases hpc : p = c
      · subst hpc
        simpa only [State.modifyNode, State.setNode, State.node, Function.update_same] using hx
      · simpa only [State.modifyNode, State.setNode, Function.update_noteq hpc] using hx
    · by_cases hpc : p = c
      · subst hpc
        right
        simpa only [State.modifyNode, State.setNode, State.node, Function.update_same] using hq
      · simp only [State.modifyNode, State.setNode, Function.update_noteq hpc]
        exact p1 p hpn

theorem Pruning.fr_removeChild (s : State) (self child : Ptr) :
    Pruning s (removeChildFromUnflattenedTree s self child) :=
  Pruning.of_nodes (by rw [(removeChildFromUnflattenedTree_next s self child).1]) (fun p => by
    have := removeChildFromUnflattenedTree_node s self child p
    simp only [State.node] at this
    rw [this]
    refine ⟨rfl, fun c hc => ?_, rfl⟩
    simp only at hc
    split at hc
    · exact (eraseLastWithTag_sublist _ _ _).subset hc
    · exact hc)

theorem Pruning.fr_removeChildren (node : Ptr) : ∀ (tbr : List Ptr) (s : State),
    Pruning s (tbr.foldl (fun acc sub => removeChildFromUnflattenedTree acc node sub) s) := by
  intro tbr
  induction tbr with
  | nil => intro s; exact Pruning.fr_refl s
  | cons c cs ih =>
    intro s
    simp only [List.foldl_cons]
    exact (Pruning.fr_removeChild s node c).fr_trans (ih _)

theorem Pruning.fr_cancel (s : State) (tag : Tag) : Pruning s (maybeCancelAnimation s tag) :=
  Pruning.fr_of_heap (maybeCancelAnimation_heap s tag) (maybeCancelAnimation_next s tag).1

/-- A pruning step from a well-typed state keeps the height bounds of the allocated
nodes. -/
theorem HtLe.ht_pruning {s s1 : State} (ht : Typed s) (hf : Pruning s s1) :
    ∀ (k : Nat) (p : Ptr), p < s.next → HtLe s.heap k p → HtLe s1.heap k p := by
  intro k
  induction k with
  | zero => intro p _ hp; exact hp
  | succ k ih =>
    intro p hpn hp c hc
    have hc0 : c ∈ (s.heap p).unflattenedChildren := hf.2.2.1 p hpn c hc
    have hcn : c < s.next := by
      by_contra hge
      have := ht.unalloc c (Nat.le_of_not_lt hge)
      rw [ht.kids p c hc0] at this
      exact absurd this (by simp)
    exact ih c hcn (hp c hc0)

theorem Typed.plain_of_ge {s : State} (ht : Typed s) {s1 : State} (hf : Pruning s s1) (p : Ptr)
    (hp : s.next ≤ p) : (s1.heap p).isMutation = false := by
  cases h : (s1.heap p).isMutation with
  | false => rfl
  | true =>
    have := hf.2.1 p h
    rw [ht.unalloc p hp] at this
    exact absurd this (by simp)

/-- A pruning step from a well-typed state keeps the bounds on the chains of
ancestors. -/
theorem UpLe.up_pruning {s s1 : State} (ht : Typed s) (hf : Pruning s s1) :
    ∀ (k : Nat) (p : Ptr), UpLe s.heap k p → UpLe s1.heap k p := by
  intro k
  induction k with
  | zero => intro p hp; exact hp
  | succ k ih =>
    intro p hp
    cases hm : (s1.heap p).isMutation with
    | false => exact Or.inl hm
    | true =>
      right
      have hms : (s.heap p).isMutation = true := hf.2.1 p hm
      have hpn : p < s.next := by
        by_contra hge
        have := ht.unalloc p (Nat.le_of_not_lt hge)
        rw [hms] at this
        exact absurd this (by simp)
      rcases hp with h | h
      · rw [hms] at h; exact absurd h (by simp)
      · rcases hf.2.2.2 p hpn with e | e
        · rw [e]; exact ih _ h
        · cases k with
          | zero => exact absurd h (by simp [UpLe])
          | succ k => exact Or.inl (ht.plain_of_ge hf _ e)

/-- The bound on the chain above the parent of an allocated node is kept as well. -/
theorem UpLe.up_parent {s s1 : State} (ht : Typed s) (hf : Pruning s s1) (k : Nat) (p : Ptr)
    (hpn : p < s.next) (h : UpLe s.heap k (s.heap p).unflattenedParent) :
    UpLe s1.heap k (s1.heap p).unflattenedParent := by
  rcases hf.2.2.2 p hpn with e | e
  · rw [e]; exact UpLe.up_pruning ht hf k _ h
  · cases k with
    | zero => exact absurd h (by simp [UpLe])
    | succ k => exact Or.inl (ht.plain_of_ge hf _ e)

theorem endAnimationsRecursively_pruning (fuel : Nat) (node : Ptr) (w w1 : Work)
    (h : endAnimationsRecursively fuel node w = some w1) : Pruning w.1 w1.1 := by
  obtain ⟨⟨f1, _, _⟩, _, _⟩ := endAnimationsRecursively_finalizes fuel node w w1 h
  obtain ⟨_, g2, _, _, _⟩ := endAnimationsRecursively_footprint fuel node w w1 h (fun p => rfl)
  have hfield : ∀ z, w1.1.heap z = { w.1.heap z with state := (w1.1.heap z).state } := f1
  exact Pruning.of_nodes (by rw [g2]) (fun p => by
    rw [hfield p]
    exact ⟨rfl, fun _ h => h, rfl⟩)
theorem startFinish_pruning (node : Ptr) (he : Bool) (l : StartLoop) :
    Pruning l.s (startFinish node he l).2.1 := by
  obtain ⟨S, hS⟩ : ∃ S, S = l.toBeRemoved.foldl
      (fun acc subNode => removeChildFromUnflattenedTree acc node subNode) l.s := ⟨_, rfl⟩
  have hg1 : Pruning l.s S := by rw [hS]; exact Pruning.fr_removeChildren node _ _
  unfold startFinish
  simp only [← hS]
  split
  · have ha : Pruning S (S.alloc (replacementNode (S.node node))).2 :=
      Pruning.fr_alloc S _ rfl
    have hb := Pruning.fr_foldl_modify (fun _ x => { x with parent := S.next })
      (fun _ _ => ⟨rfl, fun _ h => h, rfl⟩) (S.node node).children
      (S.alloc (replacementNode (S.node node))).2
    have hc := Pruning.fr_reparent S.next (le_refl S.next) (S.node node).unflattenedChildren
      ((S.node node).children.foldl
        (fun acc sub => acc.modifyNode sub (fun x => { x with parent := S.next }))
        (S.alloc (replacementNode (S.node node))).2) (ha.fr_trans hb)
    exact hg1.fr_trans (hc.fr_trans (Pruning.fr_of_heap rfl rfl))
  · split
    · exact hg1.fr_trans ((Pruning.fr_modify S node (fun x => { x with state := .ANIMATING })
        (fun _ => ⟨rfl, fun _ h => h, rfl⟩)).fr_trans (Pruning.fr_of_heap rfl rfl))
    · exact hg1.fr_trans (Pruning.fr_of_heap rfl rfl)

theorem startLoopStep_pruning (endRec : Ptr → Work → Option Work)
    (startRec : Ptr → Work → Option (Bool × Work)) (a b : Bool)
    (hend : ∀ c w w1, endRec c w = some w1 → Pruning w.1 w1.1)
    (hstart : ∀ c w r, startRec c w = some r → Pruning w.1 r.2.1)
    (l l1 : StartLoop) (c : Ptr)
    (h : startLoopStep endRec startRec a b (some l) c = some l1) :
    Pruning l.s l1.s := by
  unfold startLoopStep at h
  simp only at h
  split at h
  · split at h
    · simp only [Option.some.injEq] at h; rw [← h]; exact Pruning.fr_refl _
    · split at h
      · exact absurd h (by simp)
      · rename_i s1 m1 he
        simp only [Option.some.injEq] at h
        rw [← h]
        exact hend _ _ _ he
  · split at h
    · exact absurd h (by simp)
    · rename_i s1 m1 he
      simp only [Option.some.injEq] at h
      rw [← h]
      exact hstart _ _ _ he
    · rename_i s1 m1 he
      have h0 : Pruning l.s s1 := hstart _ _ _ he
      split at h
      · simp only [Option.some.injEq] at h; rw [← h]; exact h0
      · split at h
        · simp only [Option.some.injEq] at h
          rw [← h]
          exact h0.fr_trans ((Pruning.fr_cancel s1 _).fr_trans
            ((Pruning.fr_modify _ c (fun x => { x with state := .DELETED })
              (fun _ => ⟨rfl, fun _ h => h, rfl⟩)).fr_trans (Pruning.fr_of_heap rfl rfl)))
        · simp only [Option.some.injEq] at h
          rw [← h]
          exact h0.fr_trans (Pruning.fr_modify _ c (fun x => { x with state := .WAITING })
            (fun _ => ⟨rfl, fun _ h => h, rfl⟩))

theorem startAnimationsRecursively_pruning (mgr : Manager) :
    ∀ (fuel : Nat) (node : Ptr) (a b c : Bool) (w : Work) (r : Bool × Work),
      startAnimationsRecursively mgr fuel node a b c w = some r → Pruning w.1 r.2.1 := by
  intro fuel
  induction fuel with
  | zero => intro node a b c w r h; simp [startAnimationsRecursively] at h
  | succ fuel ih =>
    intro node a b c w r h
    obtain ⟨s, m⟩ := w
    unfold startAnimationsRecursively at h
    simp only at h
    split at h
    · exact absurd h (by simp)
    · rename_i l hfold
      simp only [Option.some.injEq] at h
      have hloop : Pruning s l.s := by
        refine foldl_some_invariant _ ?_
          (fun (x y : StartLoop) => Pruning x.s y.s) (fun _ => Pruning.fr_refl _)
          (fun x y z h1 h2 => h1.fr_trans h2) _ ?_ _ _ hfold
        · intro _; rfl
        · intro c1 _ x y hg
          exact startLoopStep_pruning _ _ _ _
            (fun c w w1 he => endAnimationsRecursively_pruning fuel c w w1 he)
            (fun c w r he => ih c _ _ _ w r he) x y c1 hg
      rw [← h]
      exact hloop.fr_trans (startFinish_pruning node _ l)

theorem handleRoots_pruning (mgr : Manager) (fuel : Nat) (roots : List Ptr) (w w1 : Work)
    (h : handleRoots mgr fuel roots w = some w1) : Pruning w.1 w1.1 := by
  unfold handleRoots at h
  refine foldl_some_invariant _ ?_ (fun (x y : Work) => Pruning x.1 y.1)
    (fun _ => Pruning.fr_refl _) (fun x y z h1 h2 => h1.fr_trans h2) _ ?_ _ _ h
  · intro _; rfl
  · intro c _ x y hg
    simp only at hg
    split at hg
    · exact absurd hg (by simp)
    · rename_i w2 he
      simp only [Option.some.injEq] at hg
      rw [← hg]
      exact startAnimationsRecursively_pruning mgr fuel c _ _ _ x _ he
    · rename_i s2 m2 he
      have h0 : Pruning x.1 s2 := startAnimationsRecursively_pruning mgr fuel c _ _ _ x _ he
      split at hg
      · simp only [Option.some.injEq] at hg
        rw [← hg]
        exact h0.fr_trans ((Pruning.fr_removeChild _ _ _).fr_trans
          ((Pruning.fr_cancel _ _).fr_trans (Pruning.fr_of_heap rfl rfl)))
      · simp only [Option.some.injEq] at hg
        rw [← hg]
        exact h0.fr_trans (Pruning.fr_removeChild _ _ _)

theorem maybeDropAncestors_pruning : ∀ (fuel : Nat) (parent child : Ptr) (w w1 : Work),
    maybeDropAncestors fuel parent child w = some w1 → Pruning w.1 w1.1 := by
  intro fuel
  induction fuel with
  | zero => intro p c w w1 h; simp [maybeDropAncestors] at h
  | succ fuel ih =>
    intro p c w w1 h
    obtain ⟨s, m⟩ := w
    unfold maybeDropAncestors at h
    simp only at h
    split at h
    · simp only [Option.some.injEq] at h; rw [← h]; exact Pruning.fr_removeChild _ _ _
    · split at h
      · have := ih _ _ _ _ h
        refine (Pruning.fr_removeChild s p c).fr_trans (Pruning.fr_trans ?_ this)
        exact Pruning.fr_of_heap (maybeCancelAnimation_heap _ _) (maybeCancelAnimation_next _ _).1
      · simp only [Option.some.injEq] at h; rw [← h]; exact Pruning.fr_removeChild _ _ _
theorem Typed.lt_of_mutation {s : State} (ht : Typed s) {p : Ptr}
    (hp : (s.heap p).isMutation = true) : p < s.next := by
  by_contra hge
  have := ht.unalloc p (Nat.le_of_not_lt hge)
  rw [hp] at this
  exact absurd this (by simp)

/-- In a well-typed state, with a budget above the height of the subtree,
`startAnimationsRecursively` returns. -/
theorem startAnimationsRecursively_returns (mgr : Manager) :
    ∀ (fuel : Nat) (node : Ptr) (a b c : Bool) (s : State) (m : ShadowViewMutationList),
      Typed s → HtLe s.heap fuel node →
      ∃ r, startAnimationsRecursively mgr fuel node a b c (s, m) = some r := by
  intro fuel
  induction fuel with
  | zero => intro node a b c s m _ h; exact absurd h (by simp [HtLe])
  | succ fuel ih =>
    intro node a b c s m ht hht
    have hfold : ∀ (sa sr sp : Bool) (cs : List Ptr) (l : StartLoop),
        Typed l.s →
        (∀ d ∈ cs, (l.s.heap d).isMutation = true ∧ HtLe l.s.heap fuel d) →
        ∃ l1, cs.foldl (startLoopStep (endAnimationsRecursively fuel)
          (fun subNode w => startAnimationsRecursively mgr fuel subNode sr sa sp w)
          sa sr) (some l) = some l1 := by
      intro sa sr sp cs
      induction cs with
      | nil => intro l _ _; exact ⟨l, rfl⟩
      | cons d cs ihc =>
        intro l hl hcs
        obtain ⟨hd2, hd3⟩ := hcs d (List.mem_cons_self _ _)
        obtain ⟨l1, hl1⟩ := startLoopStep_some (endAnimationsRecursively fuel)
          (fun subNode w => startAnimationsRecursively mgr fuel subNode sr sa sp w)
          sa sr l d (endAnimationsRecursively_some fuel d (l.s, l.mutations) hd3)
          (ih d sr sa sp l.s l.mutations hl hd3)
        have hgrow : Grow l.s l1.s := (startLoopStep_typed (endAnimationsRecursively fuel)
          (fun subNode w => startAnimationsRecursively mgr fuel subNode sr sa sp w) sa sr [d]
          (fun c w w1 he => endAnimationsRecursively_typed fuel c w w1 he)
          (fun c w r he => startAnimationsRecursively_typed mgr fuel c _ _ _ w r he)
          l l1 d (List.mem_singleton.mpr rfl) hl1).1
        have hpr : Pruning l.s l1.s := startLoopStep_pruning (endAnimationsRecursively fuel)
          (fun subNode w => startAnimationsRecursively mgr fuel subNode sr sa sp w) sa sr
          (fun c w w1 he => endAnimationsRecursively_pruning fuel c w w1 he)
          (fun c w r he => startAnimationsRecursively_pruning mgr fuel c _ _ _ w r he)
          l l1 d hl1
        obtain ⟨hl1t, hstay⟩ := hl.grow hgrow
        simp only [List.foldl_cons, hl1]
        refine ihc l1 hl1t (fun e he => ?_)
        obtain ⟨he2, he3⟩ := hcs e (List.mem_cons_of_mem _ he)
        exact ⟨hstay e he2, HtLe.ht_pruning hl hpr fuel e (hl.lt_of_mutation he2) he3⟩
    unfold startAnimationsRecursively
    simp only [State.node]
    obtain ⟨l1, hl1⟩ := hfold
      (!(if mgr.isRNSScreen (s.heap node).mutation.oldChildShadowView.componentName = true
          then true else c) &&
        mgr.shouldAnimateExiting s.managerLog (s.heap node).tag b)
      (a && (!(!(if mgr.isRNSScreen (s.heap node).mutation.oldChildShadowView.componentName
            = true then true else c) &&
          mgr.shouldAnimateExiting s.managerLog (s.heap node).tag b &&
          mgr.hasLayoutAnimation s.managerLog (s.heap node).tag .EXITING) ||
        decide ((s.heap node).state = .MOVED)))
      (if mgr.isRNSScreen (s.heap node).mutation.oldChildShadowView.componentName = true
          then true else c)
      (s.heap node).unflattenedChildren.reverse
      { hasAnimatedChildren := false, toBeRemoved := [], s := s, mutations := m } ht
      (fun d hd => ⟨ht.kids node d (List.mem_reverse.mp hd), hht d (List.mem_reverse.mp hd)⟩)
    rw [hl1]
    exact ⟨_, rfl⟩

/-- In a well-typed state, with a budget above the height of every root, the loop
over the roots returns. -/
theorem handleRoots_returns (mgr : Manager) (fuel : Nat) :
    ∀ (roots : List Ptr) (s : State) (m : ShadowViewMutationList),
      Typed s →
      (∀ p ∈ roots, (s.heap p).isMutation = true ∧ HtLe s.heap fuel p) →
      ∃ w1, handleRoots mgr fuel roots (s, m) = some w1 := by
  have hstep : ∀ (c : Ptr) (s : State) (m : ShadowViewMutationList),
      Typed s → HtLe s.heap fuel c →
      ∃ w1, handleRoots mgr fuel [c] (s, m) = some w1 := by
    intro c s m ht hht
    obtain ⟨⟨r, s1, m1⟩, hr⟩ :=
      startAnimationsRecursively_returns mgr fuel c true true false s m ht hht
    unfold handleRoots
    simp only [List.reverse_cons, List.reverse_nil, List.nil_append, List.foldl_cons,
      List.foldl_nil, hr]
    cases r <;> simp only <;> (repeat' split) <;> exact ⟨_, rfl⟩
  have hfold : ∀ (cs : List Ptr) (s : State) (m : ShadowViewMutationList),
      Typed s →
      (∀ p ∈ cs, (s.heap p).isMutation = true ∧ HtLe s.heap fuel p) →
      ∃ w1, handleRoots mgr fuel cs.reverse (s, m) = some w1 := by
    intro cs
    induction cs with
    | nil => intro s m _ _; exact ⟨(s, m), rfl⟩
    | cons c cs ih =>
      intro s m ht hcs
      obtain ⟨hc2, hc3⟩ := hcs c (List.mem_cons_self _ _)
      obtain ⟨⟨s1, m1⟩, hw1⟩ := hstep c s m ht hc3
      have hg : Grow s s1 := (handleRoots_typed mgr fuel [c] _ _ hw1).1
      have hp : Pruning s s1 := handleRoots_pruning mgr fuel [c] _ _ hw1
      obtain ⟨ht1, hstay⟩ := ht.grow hg
      obtain ⟨w2, hw2⟩ := ih s1 m1 ht1 (fun e he => by
        obtain ⟨he2, he3⟩ := hcs e (List.mem_cons_of_mem _ he)
        exact ⟨hstay e he2, HtLe.ht_pruning ht hp fuel e (ht.lt_of_mutation he2) he3⟩)
      refine ⟨w2, ?_⟩
      unfold handleRoots at hw1 hw2 ⊢
      rw [List.reverse_reverse] at hw2 ⊢
      rw [List.reverse_cons, List.reverse_nil, List.nil_append, List.foldl_cons,
        List.foldl_nil] at hw1
      rw [List.foldl_cons, hw1]
      exact hw2
  intro roots s m ht hroots
  have := hfold roots.reverse s m ht (fun p hp => hroots p (List.mem_reverse.mp hp))
  rwa [List.reverse_reverse] at this

/-- In a well-typed state, with a budget above the number of mutation nodes that
lie above the parent, `maybeDropAncestors` returns. -/
theorem maybeDropAncestors_returns : ∀ (fuel : Nat) (parent child : Ptr) (w : Work),
    Typed w.1 → UpLe w.1.heap fuel parent →
    ∃ w1, maybeDropAncestors fuel parent child w = some w1 := by
  intro fuel
  induction fuel with
  | zero => intro p c w _ h; exact absurd h (by simp [UpLe])
  | succ fuel ih =>
    intro p c w ht hup
    obtain ⟨s, m⟩ := w
    obtain ⟨s1, hs1⟩ : ∃ s1, s1 = removeChildFromUnflattenedTree s p c := ⟨_, rfl⟩
    have hnode := removeChildFromUnflattenedTree_node s p c p
    rw [← hs1] at hnode
    have hmut : (s1.node p).isMutation = (s.heap p).isMutation := by rw [hnode]; rfl
    have hpar : (s1.node p).unflattenedParent = (s.heap p).unflattenedParent := by
      rw [hnode]; rfl
    have hg1 : Grow s s1 := by rw [hs1]; exact Grow.removeChild s p c
    have hp1 : Pruning s s1 := by rw [hs1]; exact Pruning.fr_removeChild s p c
    have hg2 : Grow s1 (maybeCancelAnimation
        { s1 with nodeForTag := Function.update s1.nodeForTag (s1.node p).tag none }
        (s1.node p).tag) :=
      Grow.of_heap (maybeCancelAnimation_heap _ _) (maybeCancelAnimation_next _ _).1
        (maybeCancelAnimation_next _ _).2
    have hp2 : Pruning s1 (maybeCancelAnimation
        { s1 with nodeForTag := Function.update s1.nodeForTag (s1.node p).tag none }
        (s1.node p).tag) :=
      Pruning.fr_of_heap (maybeCancelAnimation_heap _ _) (maybeCancelAnimation_next _ _).1
    unfold maybeDropAncestors
    simp only [← hs1]
    split
    · exact ⟨_, rfl⟩
    · rename_i hm
      split
      · refine ih _ _ _ ((ht.grow hg1).1.grow hg2).1 ?_
        have hms : (s.heap p).isMutation = true := by
          rw [← hmut]
          simpa using hm
        rcases hup with h | h
        · rw [hms] at h; exact absurd h (by simp)
        · rw [hpar]
          exact UpLe.up_pruning ht (hp1.fr_trans hp2) fuel _ h
      · exact ⟨_, rfl⟩

theorem handleDeadNodes_pruning (fuel : Nat) (dead : List Ptr) (w w1 : Work)
    (h : handleDeadNodes fuel dead w = some w1) : Pruning w.1 w1.1 := by
  unfold handleDeadNodes at h
  refine foldl_some_invariant _ ?_ (fun (x y : Work) => Pruning x.1 y.1)
    (fun _ => Pruning.fr_refl _) (fun x y z h1 h2 => h1.fr_trans h2) _ ?_ _ _ h
  · intro _; rfl
  · intro c _ x y hg
    simp only at hg
    split at hg
    · split at hg
      · exact absurd hg (by simp)
      · rename_i w2 he
        exact (endAnimationsRecursively_pruning _ _ _ _ he).fr_trans
          (maybeDropAncestors_pruning _ _ _ _ _ hg)
    · simp only [Option.some.injEq] at hg
      rw [← hg]
      exact Pruning.fr_refl _

/-- In a well-typed state, with a budget above the height of every dead node and
above the number of mutation nodes over it, the loop over the dead nodes
returns. -/
theorem handleDeadNodes_returns (fuel : Nat) : ∀ (dead : List Ptr) (w : Work),
    Typed w.1 →
    (∀ d ∈ dead, (w.1.heap d).isMutation = true ∧ HtLe w.1.heap fuel d ∧
      UpLe w.1.heap fuel (w.1.heap d).unflattenedParent) →
    ∃ w1, handleDeadNodes fuel dead w = some w1 := by
  intro dead
  induction dead with
  | nil => intro w _ _; exact ⟨w, rfl⟩
  | cons d ds ih =>
    intro w ht hd
    obtain ⟨hd1, hd2, hd3⟩ := hd d (List.mem_cons_self _ _)
    have hstep : ∃ w2, handleDeadNodes fuel [d] w = some w2 := by
      unfold handleDeadNodes
      simp only [List.foldl_cons, List.foldl_nil]
      by_cases hst : (w.1.node d).state ≠ .DELETED
      · obtain ⟨w1, hw1⟩ := endAnimationsRecursively_some fuel d w hd2
        rw [if_pos hst, hw1]
        simp only
        have hg := (endAnimationsRecursively_typed fuel d w w1 hw1).1
        have hp := endAnimationsRecursively_pruning fuel d w w1 hw1
        exact maybeDropAncestors_returns fuel _ d w1 (ht.grow hg).1
          (UpLe.up_parent ht hp fuel d (ht.lt_of_mutation hd1) hd3)
      · rw [if_neg hst]
        exact ⟨_, rfl⟩
    obtain ⟨w2, hw2⟩ := hstep
    have hg : Grow w.1 w2.1 := (handleDeadNodes_typed fuel [d] w w2 hw2).1
    have hp : Pruning w.1 w2.1 := handleDeadNodes_pruning fuel [d] w w2 hw2
    obtain ⟨ht2, hstay⟩ := ht.grow hg
    obtain ⟨w3, hw3⟩ := ih w2 ht2 (fun e he => by
      obtain ⟨e1, e2, e3⟩ := hd e (List.mem_cons_of_mem _ he)
      exact ⟨hstay e e1, HtLe.ht_pruning ht hp fuel e (ht.lt_of_mutation e1) e2,
        UpLe.up_parent ht hp fuel e (ht.lt_of_mutation e1) e3⟩)
    refine ⟨w3, ?_⟩
    unfold handleDeadNodes at hw2 hw3 ⊢
    simp only [List.foldl_cons, List.foldl_nil] at hw2
    rw [List.foldl_cons]
    simp only [hw2]
    exact hw3

/-- In a well-typed state, with a budget that covers the roots and the queued
dead nodes, `handleRemovals` returns. -/
theorem handleRemovals_returns (mgr : Manager) (fuel : Nat) (roots : List Ptr)
    (s : State) (m : ShadowViewMutationList) (ht : Typed s)
    (hroots : ∀ p ∈ roots, (s.heap p).isMutation = true ∧ HtLe s.heap fuel p)
    (hdead : ∀ d ∈ s.deadNodes, HtLe s.heap fuel d ∧
      UpLe s.heap fuel (s.heap d).unflattenedParent) :
    ∃ w1, handleRemovals mgr fuel roots (s, m) = some w1 := by
  obtain ⟨⟨s1, m1⟩, hw1⟩ := handleRoots_returns mgr fuel roots s m ht hroots
  have hg : Grow s s1 := (handleRoots_typed mgr fuel roots _ _ hw1).1
  have hp : Pruning s s1 := handleRoots_pruning mgr fuel roots _ _ hw1
  obtain ⟨ht1, hstay⟩ := ht.grow hg
  obtain ⟨⟨s2, m2⟩, hw2⟩ := handleDeadNodes_returns fuel
    (visitOrder mgr.deadKey s1.deadNodes) (s1, m1) ht1 (fun d hd => by
      have hd0 : d ∈ s.deadNodes := hg.dead d (mem_visitOrder.mp hd)
      have hm := ht.dead d hd0
      obtain ⟨e2, e3⟩ := hdead d hd0
      exact ⟨hstay d hm, HtLe.ht_pruning ht hp fuel d (ht.lt_of_mutation hm) e2,
        UpLe.up_parent ht hp fuel d (ht.lt_of_mutation hm) e3⟩)
  unfold handleRemovals
  simp only [hw1, hw2]
  exact ⟨_, rfl⟩

/-- In a well-typed state, with a budget that covers the tree built by the
parse, `pullTransaction` returns. -/
theorem pullTransaction_returns (mgr : Manager) (fuel : Nat) (s : State) (sid : SurfaceId)
    (batch : ShadowViewMutationList) (ht : Typed s)
    (hb : WithinBudget fuel (parseRemoveMutations s batch)) :
    ∃ w, pullTransaction mgr fuel s sid batch = some w := by
  obtain ⟨htp, hroots⟩ := parseRemoveMutations_typed s batch ht
  obtain ⟨w1, hw1⟩ := handleRemovals_returns mgr fuel _ _ [] htp
    (fun p hp => ⟨hroots p hp, hb.1 p hp⟩) hb.2
  unfold pullTransaction
  simp only [hw1]
  exact ⟨_, rfl⟩

/-- In every reachable state the heap is well typed. -/
theorem Reachable.sound {s : State} (h : Reachable s) : Typed s := by
  induction h with
  | fresh => exact typed_fresh
  | pull mgr fuel s sid batch w _ hw ih =>
    unfold pullTransaction at hw
    simp only at hw
    split at hw
    · exact absurd hw (by simp)
    · rename_i w1 h1
      simp only [Option.some.injEq] at hw
      obtain ⟨hp1, hp2⟩ := parseRemoveMutations_typed s batch ih
      obtain ⟨ht1, _⟩ := handleRemovals_typed mgr fuel _ _ _ hp1 hp2 h1
      have hg := (handleUpdatesAndEnterings_grow mgr
        (parseRemoveMutations s batch).movedViews sid batch w1).grow_trans
        (addOngoingAnimations_grow sid _)
      rw [← hw]
      exact (ht1.grow hg).1
  | run s _ ih => exact (ih.grow (runScheduled_grow s)).1
  | other s s1 _ hh hn _ hd ih => exact ih.typed_of_heap hh hn hd
  | endAnimation s tag sr _ hsr ih =>
    cases sr with
    | true => exact endLayoutAnimation_typed s tag true ih (hsr rfl)
    | false =>
      have hheap : (endLayoutAnimation s tag false).2.heap = s.heap ∧
          (endLayoutAnimation s tag false).2.next = s.next ∧
          (endLayoutAnimation s tag false).2.deadNodes = s.deadNodes := by
        unfold endLayoutAnimation
        split
        · exact ⟨rfl, rfl, rfl⟩
        · split
          · exact ⟨rfl, rfl, rfl⟩
          · exact ⟨rfl, rfl, rfl⟩
      exact ih.typed_of_heap hheap.1 hheap.2.1 hheap.2.2

theorem pendingExitState_reachable : Reachable pendingExitState := by
  unfold pendingExitState
  split
  · rename_i w hw
    exact Reachable.run _ (Reachable.pull _ _ _ _ _ w Reachable.fresh hw)
  · exact Reachable.fresh

theorem deadExitState_reachable : Reachable deadExitState :=
  Reachable.endAnimation pendingExitState 7 true pendingExitState_reachable
    (fun _ => by decide)

/-- C27: in every well-typed engine state (what the engine handles as a
`MutationNode` is a mutation node holding a Remove), which every state reached
from the fresh engine is, and for every input batch, `pullTransaction` returns
once its recursion budget covers the tree built by the parse, and in the
filtered batch each Delete comes immediately after a Remove and is the host
Delete of the view that this Remove carries (same tag, same old view), so no
Delete is forwarded by itself; the engine state stays well typed.  The same
holds of whatever `pullTransaction` returns with any other budget.  The fresh
engine is well typed; running the scheduled closures keeps a state well
typed, and so does `endLayoutAnimation` when the lookup table holds a mutation
node for its tag. -/
theorem pullTransaction_deletes_paired (mgr : Manager) (fuel : Nat) (s : State)
    (sid : SurfaceId) (batch : ShadowViewMutationList) (hs : Typed s)
    (hfuel : WithinBudget fuel (parseRemoveMutations s batch)) :
    (∃ w, pullTransaction mgr fuel s sid batch = some w ∧ DeletesPaired w.2 ∧ Typed w.1) ∧
    (∀ fuel1 w, pullTransaction mgr fuel1 s sid batch = some w →
      DeletesPaired w.2 ∧ Typed w.1) ∧
    (∀ s0, Reachable s0 → Typed s0) ∧
    Typed (runScheduled s) ∧
    (∀ tag shouldRemove,
      (∀ p, s.nodeForTag tag = some p → (s.heap p).isMutation = true) →
      Typed (endLayoutAnimation s tag shouldRemove).2) := by
  have hany : ∀ fuel1 w, pullTransaction mgr fuel1 s sid batch = some w →
      DeletesPaired w.2 ∧ Typed w.1 := by
    intro fuel1 w hw
    unfold pullTransaction at hw
    simp only at hw
    split at hw
    · exact absurd hw (by simp)
    · rename_i w1 h1
      simp only [Option.some.injEq] at hw
      obtain ⟨hp1, hp2⟩ := parseRemoveMutations_typed s batch hs
      obtain ⟨ht1, X, hX, hXb⟩ := handleRemovals_typed mgr fuel1 _ _ _ hp1 hp2 h1
      obtain ⟨_, _, Y, hY, hYd⟩ := handleUpdatesAndEnterings_nodes mgr
        (parseRemoveMutations s batch).movedViews sid batch w1
      obtain ⟨Z, hZ, hZd⟩ := addOngoingAnimations_noDelete sid
        (handleUpdatesAndEnterings mgr (parseRemoveMutations s batch).movedViews sid batch w1)
      have hg := (handleUpdatesAndEnterings_grow mgr
        (parseRemoveMutations s batch).movedViews sid batch w1).grow_trans
        (addOngoingAnimations_grow sid _)
      rw [← hw]
      refine ⟨?_, (ht1.grow hg).1⟩
      have hout : (addOngoingAnimations sid (handleUpdatesAndEnterings mgr
          (parseRemoveMutations s batch).movedViews sid batch w1)).2 = X ++ (Y ++ Z) := by
        rw [hZ, hY, hX]
        simp
      rw [hout]
      exact (hXb.blocks_append (Blocks.of_noDelete _ (fun x hx => by
        rcases List.mem_append.mp hx with h | h
        · exact (hYd x h).1
        · exact hZd x h))).paired
  obtain ⟨w, hw⟩ := pullTransaction_returns mgr fuel s sid batch hs hfuel
  exact ⟨⟨w, hw, hany fuel w hw⟩, hany, fun s0 h0 => h0.sound,
    (hs.grow (runScheduled_grow s)).1,
    fun tag sr hnode => endLayoutAnimation_typed s tag sr hs hnode⟩

/-- Witness of C27: in the engine where the exit animation of view 7 has ended
and its node is queued as dead, a transaction removes and deletes view 5. -/
theorem pullTransaction_deletes_paired_witness :
    deadExitState.deadNodes ≠ [] ∧
    ∃ w, pullTransaction noAnimations 2 deadExitState 1
        [RemoveMutation 1 (sampleView 5) 0, DeleteMutation (sampleView 5)] = some w ∧
      DeletesPaired w.2 ∧ Typed w.1 :=
  ⟨by decide,
    (pullTransaction_deletes_paired noAnimations 2 deadExitState 1
      [RemoveMutation 1 (sampleView 5) 0, DeleteMutation (sampleView 5)]
      deadExitState_reachable.sound (by decide)).1⟩

/-- The loop body of `handleUpdatesAndEnterings` on an Insert of a tag that is
not moved and has an entering animation: the Insert, with the index that
`updateIndexForMutation` computes, and the Update to opacity 0 are appended. -/
theorem handleMutation_entering_exact (mgr : Manager) (mv : Tag → Option Tag)
    (sid : SurfaceId) (l : UpdLoop) (m : ShadowViewMutation) (hm : m.type = .Insert)
    (hmoved : mv m.newChildShadowView.tag = none)
    (henter : ∀ log, mgr.hasLayoutAnimation log m.newChildShadowView.tag .ENTERING = true) :
    (handleMutation mgr mv sid l m).filteredMutations = l.filteredMutations ++
      [updateIndexForMutation l.s m,
       UpdateMutation m.newChildShadowView
        { m.newChildShadowView with props := { m.newChildShadowView.props with opacity := 0 } }
        m.parentTag] := by
  have hf := updateIndexForMutation_fields l.s m
  have hidx := updateIndexForMutation_window l.s m m sid
  unfold handleMutation
  simp only [hm, handleInsert, hmoved, henter, true_or, or_true, if_true, hidx]
  generalize updateIndexForMutation l.s m = m1 at hf ⊢
  have hnew : m1.newChildShadowView = m.newChildShadowView := by rw [hf]
  have hpar : m1.parentTag = m.parentTag := by rw [hf]
  simp only [Bool.not_true, Bool.false_eq_true, if_false, cloneViewWithoutOpacity, hnew, hpar]

/-- C6: in a well-typed engine state, for a batch that holds an Insert of a tag
that is not in the moved-views map and has an entering animation configured,
`pullTransaction` returns once its recursion budget covers the tree built by
the parse, and the filtered batch consists of what the removals and the
mutations before the Insert have produced, then that Insert immediately
followed by an Update whose old view is the inserted view and whose new view is
the inserted view with opacity 0, whatever opacity the inserted view
declares, then the rest.  The Insert is forwarded with all its fields but
possibly the index: it is the Insert of the batch itself when its index is -1
or when its parent is not in the lookup table at that point; otherwise, the
pending children of the parent having strictly increasing indices and the
values being in the range of `int`, its index is `r = i + k`, `k` the number
of pending children with an index below `r`. -/
theorem pullTransaction_entering_opacity_masked (mgr : Manager) (fuel : Nat) (s : State)
    (sid : SurfaceId) (pre post : ShadowViewMutationList) (m : ShadowViewMutation)
    (hs : Typed s)
    (hfuel : WithinBudget fuel (parseRemoveMutations s (pre ++ m :: post)))
    (hm : m.type = .Insert)
    (hmoved : (parseRemoveMutations s (pre ++ m :: post)).movedViews m.newChildShadowView.tag
      = none)
    (henter : ∀ log, mgr.hasLayoutAnimation log m.newChildShadowView.tag .ENTERING = true) :
    ∃ s1 out wr B ins,
      pullTransaction mgr fuel s sid (pre ++ m :: post) = some (s1, out) ∧
      handleRemovals mgr fuel (parseRemoveMutations s (pre ++ m :: post)).roots
        ((parseRemoveMutations s (pre ++ m :: post)).s, []) = some wr ∧
      out = (handleUpdatesAndEnterings mgr
          (parseRemoveMutations s (pre ++ m :: post)).movedViews sid pre wr).2 ++
        [ins, UpdateMutation m.newChildShadowView
          { m.newChildShadowView with
            props := { m.newChildShadowView.props with opacity := 0 } }
          m.parentTag] ++ B ∧
      ins = { m with index := ins.index } ∧
      (m.index = -1 → ins = m) ∧
      ((handleUpdatesAndEnterings mgr (parseRemoveMutations s (pre ++ m :: post)).movedViews
          sid pre wr).1.nodeForTag m.parentTag = none → ins = m) ∧
      (∀ parent, m.index ≠ -1 →
        (handleUpdatesAndEnterings mgr (parseRemoveMutations s (pre ++ m :: post)).movedViews
          sid pre wr).1.nodeForTag m.parentTag = some parent →
        (pendingIndices (handleUpdatesAndEnterings mgr
          (parseRemoveMutations s (pre ++ m :: post)).movedViews sid pre wr).1
            parent).Pairwise (fun a b => a < b) →
        (∀ k ∈ pendingIndices (handleUpdatesAndEnterings mgr
          (parseRemoveMutations s (pre ++ m :: post)).movedViews sid pre wr).1 parent,
          -2147483648 ≤ k ∧ k ≤ 2147483647) →
        -2147483648 ≤ m.index →
        (pendingIndices (handleUpdatesAndEnterings mgr
          (parseRemoveMutations s (pre ++ m :: post)).movedViews sid pre wr).1
            parent).length ≤ 2147483647 →
        m.index + (pendingIndices (handleUpdatesAndEnterings mgr
          (parseRemoveMutations s (pre ++ m :: post)).movedViews sid pre wr).1
            parent).length ≤ 2147483647 →
        ins.index = m.index + (((pendingIndices (handleUpdatesAndEnterings mgr
          (parseRemoveMutations s (pre ++ m :: post)).movedViews sid pre wr).1 parent).filter
            (fun k => k < ins.index)).length : Int)) := by
  obtain ⟨⟨s1, out⟩, hpull⟩ := pullTransaction_returns mgr fuel s sid (pre ++ m :: post) hs hfuel
  have hpull0 := hpull
  unfold pullTransaction at hpull
  simp only at hpull
  split at hpull
  · exact absurd hpull (by simp)
  · rename_i wr hw
    simp only [Option.some.injEq] at hpull
    obtain ⟨X3, h3⟩ := addOngoingAnimations_appends sid
      (handleUpdatesAndEnterings mgr (parseRemoveMutations s (pre ++ m :: post)).movedViews sid
        (pre ++ m :: post) wr)
    rw [hpull] at h3
    simp only at h3
    obtain ⟨L, hL⟩ : ∃ L, L = List.foldl
        (handleMutation mgr (parseRemoveMutations s (pre ++ m :: post)).movedViews sid)
        { s := wr.1, filteredMutations := wr.2, oldShadowViewsForReparentings := fun _ => none }
        pre := ⟨_, rfl⟩
    have hpre : handleUpdatesAndEnterings mgr
        (parseRemoveMutations s (pre ++ m :: post)).movedViews sid pre wr
        = (L.s, L.filteredMutations) := by
      rw [hL]; rfl
    obtain ⟨X2, h2⟩ := foldl_handleMutation_appends mgr
      (parseRemoveMutations s (pre ++ m :: post)).movedViews sid post
      (handleMutation mgr (parseRemoveMutations s (pre ++ m :: post)).movedViews sid L m)
    have h1 := handleMutation_entering_exact mgr
      (parseRemoveMutations s (pre ++ m :: post)).movedViews sid L m hm hmoved henter
    have hall : (handleUpdatesAndEnterings mgr
        (parseRemoveMutations s (pre ++ m :: post)).movedViews sid (pre ++ m :: post) wr).2
        = L.filteredMutations ++ [updateIndexForMutation L.s m,
          UpdateMutation m.newChildShadowView
            { m.newChildShadowView with
              props := { m.newChildShadowView.props with opacity := 0 } }
            m.parentTag] ++ X2 := by
      unfold handleUpdatesAndEnterings
      simp only [List.foldl_append, List.foldl_cons, ← hL]
      rw [h2, h1]
    refine ⟨s1, out, wr, X2 ++ X3, updateIndexForMutation L.s m, hpull0, hw, ?_,
      updateIndexForMutation_fields L.s m, ?_, ?_, ?_⟩
    · rw [h3, hall, hpre]
      simp only [List.append_assoc]
    · intro hi
      simp [updateIndexForMutation, hi]
    · rw [hpre]
      intro hn
      simp only at hn
      simp [updateIndexForMutation, hn]
    · rw [hpre]
      intro parent hidx hparent hsorted hrange hlow hlen hfit
      exact (updateIndexForMutation_spec L.s m parent hidx hparent hsorted hrange hlow hlen
        hfit).1

/-- Witness of C6: with view 7 pending at index 1 under parent 1, view 8, which
has an entering animation and the declared opacity 1, is created and inserted
under parent 1 at index 1: the Insert is forwarded at index 2, past the
pending view, and is followed by the Update to opacity 0. -/
theorem pullTransaction_entering_opacity_masked_witness :
    filtered (pullTransaction (enteringFor 8) 1 pendingExitState 1
      [CreateMutation (sampleView 8), InsertMutation 1 (sampleView 8) 1]) =
      some [CreateMutation (sampleView 8), InsertMutation 1 (sampleView 8) 2,
        UpdateMutation (sampleView 8)
          { sampleView 8 with props := { (sampleView 8).props with opacity := 0 } } 1] ∧
    ∃ s1 out wr B ins, pullTransaction (enteringFor 8) 1 pendingExitState 1
        ([CreateMutation (sampleView 8)] ++ InsertMutation 1 (sampleView 8) 1 :: []) =
        some (s1, out) ∧
      out = (handleUpdatesAndEnterings (enteringFor 8)
          (parseRemoveMutations pendingExitState ([CreateMutation (sampleView 8)] ++
            InsertMutation 1 (sampleView 8) 1 :: [])).movedViews 1
          [CreateMutation (sampleView 8)] wr).2 ++
        [ins, UpdateMutation (sampleView 8)
          { sampleView 8 with props := { (sampleView 8).props with opacity := 0 } } 1]
        ++ B :=
  ⟨by decide,
    let ⟨s1, out, wr, B, ins, h1, _, h3, _⟩ :=
      pullTransaction_entering_opacity_masked (enteringFor 8) 1 pendingExitState 1
        [CreateMutation (sampleView 8)] [] (InsertMutation 1 (sampleView 8) 1)
        pendingExitState_reachable.sound (by decide) rfl (by decide) (fun _ => rfl)
    ⟨s1, out, wr, B, ins, h1, h3⟩⟩
/-- C13: in a well-typed engine state whose update table of the surface has one
entry per tag, `pullTransaction` returns once its recursion budget covers the
tree built by the parse; the table of that surface is empty afterwards, and
the filtered batch ends with the Updates of the merge: after what the removals
and the mutations of the batch have produced come, in the order of the table,
exactly one Update for every entry whose tag has a tracked animation when the
merge runs, from the tracked current view to the view built from the final
view and the reported values, and nothing for an entry whose tag has no
tracked animation.  The new view of each Update becomes the tracked current
view of its tag; the animations of tags outside the table are as before the
merge. -/
theorem pullTransaction_merges_ongoing (mgr : Manager) (fuel : Nat) (s : State)
    (sid : SurfaceId) (batch : ShadowViewMutationList) (hs : Typed s)
    (hfuel : WithinBudget fuel (parseRemoveMutations s batch))
    (hkeys : ((s.updateMap sid).map Prod.fst).Nodup) :
    ∃ s1 out wr w, pullTransaction mgr fuel s sid batch = some (s1, out) ∧
      handleRemovals mgr fuel (parseRemoveMutations s batch).roots
        ((parseRemoveMutations s batch).s, []) = some wr ∧
      w = handleUpdatesAndEnterings mgr (parseRemoveMutations s batch).movedViews sid
        batch wr ∧
      s1.updateMap sid = [] ∧
      out = w.2 ++ (s.updateMap sid).filterMap (ongoingUpdate w.1.layoutAnimations) ∧
      (∀ e ∈ s.updateMap sid, w.1.layoutAnimations e.1 = none →
        ongoingUpdate w.1.layoutAnimations e = none ∧ s1.layoutAnimations e.1 = none) ∧
      (∀ e ∈ s.updateMap sid, ∀ la, w.1.layoutAnimations e.1 = some la →
        ongoingUpdate w.1.layoutAnimations e
          = some (UpdateMutation la.currentView (ongoingView la e.2) la.parentTag) ∧
        s1.layoutAnimations e.1 = some { la with currentView := ongoingView la e.2 }) ∧
      (∀ t, (∀ e ∈ s.updateMap sid, e.1 ≠ t) →
        s1.layoutAnimations t = w.1.layoutAnimations t) := by
  obtain ⟨htp, hroots⟩ := parseRemoveMutations_typed s batch hs
  obtain ⟨wr, hrem⟩ := handleRemovals_returns mgr fuel _ _ [] htp
    (fun p hp => ⟨hroots p hp, hfuel.1 p hp⟩) hfuel.2
  obtain ⟨s1, out, h1, h2, h3, h4, h5, h6⟩ :=
    pullTransaction_merges_core mgr fuel s sid batch wr _ hrem rfl hkeys
  exact ⟨s1, out, wr, _, h1, hrem, rfl, h2, h3, h4, h5, h6⟩

/-- Witness of C13: an empty batch pulled for surface 1 of the engine
`ongoingState`, which tracks an animation of view 7 and whose table holds the
frame reported for it: the table is emptied and the one Update of view 7, from
the tracked current view to the view at x = 10, is emitted. -/
theorem pullTransaction_merges_ongoing_witness :
    ongoingState.updateMap 1 ≠ [] ∧
    filtered (pullTransaction noAnimations 1 ongoingState 1 []) =
      some [UpdateMutation (sampleView 7)
        { sampleView 7 with layoutMetrics := { (sampleView 7).layoutMetrics with x := 10 } } 1] ∧
    ∃ s1 out, pullTransaction noAnimations 1 ongoingState 1 [] = some (s1, out) ∧
      s1.updateMap 1 = [] :=
  ⟨by decide, by decide,
    let ⟨s1, out, _, _, h1, _, _, h2, _⟩ :=
      pullTransaction_merges_ongoing noAnimations 1 ongoingState 1 []
        (typed_fresh.typed_of_heap rfl rfl rfl) (by decide) (by decide)
    ⟨s1, out, h1, h2⟩⟩

theorem parseRemove_states (a : ParseAcc) (m m1 : ShadowViewMutation)
    (hm1 : m1 = updateIndexForMutation a.s m) :
    (∀ z, z < a.s.next → ((parseRemove a m).s.heap z).state = (a.s.heap z).state) ∧
    ((parseRemove a m).s.heap a.s.next).state =
      (if m1.oldChildShadowView.tag ∈ a.deletedViews then .UNDEFINED else .MOVED) := by
  obtain ⟨mv, hmv⟩ : ∃ mv : Bool, mv = !a.deletedViews.contains m1.oldChildShadowView.tag :=
    ⟨_, rfl⟩
  obtain ⟨k1, k2, k3, k4, k5, _, _, k8, _⟩ :=
    makeMutationNode_spec a.s m1 (a.s.nodeForTag m1.oldChildShadowView.tag)
  obtain ⟨mk, hmk⟩ : ∃ mk, mk = makeMutationNode a.s m1
      (a.s.nodeForTag m1.oldChildShadowView.tag) := ⟨_, rfl⟩
  rw [← hmk] at k1 k2 k3 k4 k5 k8
  obtain ⟨tg, htg⟩ : ∃ tg, tg = m1.oldChildShadowView.tag := ⟨_, rfl⟩
  obtain ⟨S1, hS1⟩ : ∃ S1 : State, S1 = if mv = true then
      mk.2.modifyNode a.s.next (fun x => { x with state := .MOVED }) else mk.2 := ⟨_, rfl⟩
  have hS1next : S1.next = mk.2.next := by rw [hS1]; split <;> rfl
  have hS1old : ∀ z, z < a.s.next → (S1.heap z).state = (a.s.heap z).state := by
    intro z hz
    rw [← (k5 z (Nat.ne_of_lt hz)).2.2.2.1, hS1]
    split
    · have := modifyNode_node_of_ne mk.2 a.s.next z (fun x => { x with state := .MOVED })
        (Nat.ne_of_lt hz)
      simp only [State.node] at this
      rw [this]
    · rfl
  have hS1new : (S1.heap a.s.next).state =
      (if m1.oldChildShadowView.tag ∈ a.deletedViews then .UNDEFINED else .MOVED) := by
    rw [hS1]
    by_cases hd : m1.oldChildShadowView.tag ∈ a.deletedViews
    · have : mv = false := by rw [hmv]; simp [hd]
      rw [this, if_pos hd]
      simp only [Bool.false_eq_true, if_false]
      exact k8
    · have : mv = true := by rw [hmv]; simp [hd]
      rw [this, if_neg hd]
      simp only [if_true]
      have := modifyNode_node_self mk.2 a.s.next (fun x => { x with state := .MOVED })
      simp only [State.node] at this
      rw [this]
  obtain ⟨tab, htabdef0⟩ : ∃ tab, tab = Function.update S1.nodeForTag tg (some a.s.next) :=
    ⟨_, rfl⟩
  obtain ⟨S2, hS2⟩ : ∃ S2 : State, S2 = { S1 with nodeForTag := tab } := ⟨_, rfl⟩
  have hS2heap : S2.heap = S1.heap := by rw [hS2]
  have hS2next : S2.next = a.s.next + 1 := by rw [hS2]; exact hS1next.trans k2
  have hmod : ∀ (S : State) (q : Ptr) (z : Ptr),
      ((S.modifyNode a.s.next
        (fun x => { x with parent := q, unflattenedParent := q })).heap z).state =
      (S.heap z).state := fun S q z =>
    modifyNode_state S a.s.next z (fun x => { x with parent := q, unflattenedParent := q })
      (fun _ => rfl)
  cases hpar : a.s.nodeForTag m1.parentTag with
  | some p1 =>
    have hR : (parseRemove a m).s = S2.modifyNode a.s.next
        (fun x => { x with parent := p1, unflattenedParent := p1 }) := by
      rw [hS2, htabdef0, hS1, hmv, htg]
      simp only [parseRemove, ← hm1, ← hmk, k1, hpar]
      try rfl
    rw [hR]
    refine ⟨fun z hz => ?_, ?_⟩
    · rw [hmod, hS2heap]; exact hS1old z hz
    · rw [hmod, hS2heap]; exact hS1new
  | none =>
    obtain ⟨al, hal⟩ : ∃ al, al = S2.alloc (plainNode m1.parentTag) := ⟨_, rfl⟩
    obtain ⟨tab2, htab2⟩ : ∃ tab2, tab2 = Function.update al.2.nodeForTag m1.parentTag
        (some al.1) := ⟨_, rfl⟩
    obtain ⟨S2b, hS2b⟩ : ∃ S2b : State, S2b = { al.2 with nodeForTag := tab2 } := ⟨_, rfl⟩
    have hR : (parseRemove a m).s = S2b.modifyNode a.s.next
        (fun x => { x with parent := al.1, unflattenedParent := al.1 }) := by
      rw [hS2b, htab2, hal, hS2, htabdef0, hS1, hmv, htg]
      simp only [parseRemove, ← hm1, ← hmk, k1, hpar]
      try rfl
    have hheap : ∀ z, z ≠ a.s.next + 1 → S2b.heap z = S1.heap z := by
      intro z hz
      rw [hS2b, hal, ← hS2heap]
      simp only [State.alloc, hS2next, Function.update_noteq hz]
    rw [hR]
    refine ⟨fun z hz => ?_, ?_⟩
    · rw [hmod, hheap z (by delta Ptr at *; omega)]; exact hS1old z hz
    · rw [hmod, hheap _ (by delta Ptr at *; omega)]; exact hS1new

/-- What the body of the reverse scan does to the kind and the recorded mutation of
the nodes when it handles a Remove: the old nodes keep them, the built node is
a mutation node that records the Remove, and a parent allocated after it is a
plain node. -/
theorem parseRemove_kinds (a : ParseAcc) (m : ShadowViewMutation) :
    (∀ z, z < a.s.next → ((parseRemove a m).s.heap z).isMutation = (a.s.heap z).isMutation ∧
      ((parseRemove a m).s.heap z).mutation = (a.s.heap z).mutation) ∧
    ((parseRemove a m).s.heap a.s.next).isMutation = true ∧
    ((parseRemove a m).s.heap a.s.next).mutation.oldChildShadowView = m.oldChildShadowView ∧
    (a.s.next + 1 < (parseRemove a m).s.next →
      ((parseRemove a m).s.heap (a.s.next + 1)).isMutation = false) := by
  obtain ⟨_, _, _, _, _, g6, _, g8⟩ := parseRemove_gen a m _ rfl
  obtain ⟨_, _, _, _, k5, k6, k7, _⟩ := makeMutationNode_spec a.s (updateIndexForMutation a.s m)
    (a.s.nodeForTag (updateIndexForMutation a.s m).oldChildShadowView.tag)
  refine ⟨fun z hz => ?_, ?_, ?_, fun hlt => ?_⟩
  · have h := g8 z
    rw [if_neg (fun hc => by delta Ptr at *; omega)] at h
    exact ⟨h.1.trans (k5 z (Nat.ne_of_lt hz)).1, h.2.1.trans (k5 z (Nat.ne_of_lt hz)).2.1⟩
  · have h := g8 a.s.next
    rw [if_neg (fun hc => by delta Ptr at *; omega)] at h
    exact h.1.trans k6
  · have h := g8 a.s.next
    rw [if_neg (fun hc => by delta Ptr at *; omega)] at h
    rw [h.2.1, k7, updateIndexForMutation_old]
  · have h := g8 (a.s.next + 1)
    rw [g6] at hlt
    have hnone : a.s.nodeForTag (updateIndexForMutation a.s m).parentTag = none := by
      cases hp : a.s.nodeForTag (updateIndexForMutation a.s m).parentTag with
      | none => rfl
      | some p => rw [hp] at hlt; simp at hlt
    rw [if_pos ⟨rfl, hnone⟩] at h
    exact h.1

/-- What a step of the reverse scan does for an Update: a node changes only when
the view was recorded as moved, it is then the node the table gives for the
tag of the view, and it records the old view of the Update from then on. -/
theorem parseStep_update_cases (a : ParseAcc) (m : ShadowViewMutation) (h : m.type = .Update) :
    (parseStep a m).movedViews = a.movedViews ∧ (parseStep a m).deletedViews = a.deletedViews ∧
    ∀ z, (parseStep a m).s.heap z = a.s.heap z ∨
      ((a.movedViews m.newChildShadowView.tag).isSome = true ∧
        a.s.nodeForTag m.newChildShadowView.tag = some z ∧
        ((parseStep a m).s.heap z).mutation.oldChildShadowView = m.oldChildShadowView) := by
  obtain ⟨h1, h2⟩ := parseStep_maps a m
  refine ⟨?_, ?_, fun z => ?_⟩
  · rw [h1, if_neg (fun hc => by rw [h] at hc; exact absurd hc.1 (by simp))]
  · rw [h2, if_neg (by rw [h]; simp)]
  · simp only [parseStep, h]
    simp only [reduceCtorEq, if_false, true_and]
    by_cases hmv : (a.movedViews m.newChildShadowView.tag).isSome = true
    · rw [if_pos hmv]
      cases hn : a.s.nodeForTag m.newChildShadowView.tag with
      | none => exact Or.inl rfl
      | some p =>
        by_cases hz : z = p
        · subst hz
          refine Or.inr ⟨hmv, rfl, ?_⟩
          simp [State.modifyNode, State.setNode, State.node]
        · left
          simp [State.modifyNode, State.setNode, State.node, Function.update_noteq hz]
    · rw [if_neg hmv]
      exact Or.inl rfl

/-- One step of the reverse scan keeps `ScanT`. -/
theorem parseStep_scanT {t : Tag} {n0 : Nat} (a : ParseAcc) (m : ShadowViewMutation)
    (hS : ScanT t n0 a)
    (c1 : m.type = .Delete → m.oldChildShadowView.tag ≠ t)
    (c2 : m.type = .Update → m.oldChildShadowView.tag = m.newChildShadowView.tag) :
    ScanT t n0 (parseStep a m) ∧
    (∀ z ∈ a.mutationNodes, z ∈ (parseStep a m).mutationNodes ∧
      ((parseStep a m).s.heap z).mutation.oldChildShadowView.tag =
        (a.s.heap z).mutation.oldChildShadowView.tag) ∧
    (m.type = .Remove → ∃ p ∈ (parseStep a m).mutationNodes,
      ((parseStep a m).s.heap p).mutation.oldChildShadowView.tag = m.oldChildShadowView.tag) := by
  have hquiet : parseStep a m = a →
      ScanT t n0 (parseStep a m) ∧
      (∀ z ∈ a.mutationNodes, z ∈ (parseStep a m).mutationNodes ∧
        ((parseStep a m).s.heap z).mutation.oldChildShadowView.tag =
          (a.s.heap z).mutation.oldChildShadowView.tag) := by
    intro h
    rw [h]
    exact ⟨hS, fun z hz => ⟨hz, rfl⟩⟩
  cases hty : m.type with
  | Create =>
    have h : parseStep a m = a := by simp [parseStep, hty]
    exact ⟨(hquiet h).1, (hquiet h).2, fun hc => absurd hc (by simp)⟩
  | Insert =>
    have h : parseStep a m = a := by simp [parseStep, hty]
    exact ⟨(hquiet h).1, (hquiet h).2, fun hc => absurd hc (by simp)⟩
  | Delete =>
    have h := parseStep_delete_fields a m hty
    rw [h]
    refine ⟨⟨hS.built, hS.fresh, hS.entry, ?_, hS.le⟩, fun z hz => ⟨hz, rfl⟩,
      fun hc => absurd hc (by simp)⟩
    intro hc
    rcases List.mem_cons.mp hc with h1 | h1
    · exact c1 hty h1.symm
    · exact hS.del h1
  | Update =>
    obtain ⟨u1, u2, u3⟩ := parseStep_update_cases a m hty
    obtain ⟨o1, _, _, o4, o5, _, o7⟩ := parseStep_other a m (by rw [hty]; simp)
    have hF : ∀ z, ((parseStep a m).s.heap z).isMutation = (a.s.heap z).isMutation ∧
        ((parseStep a m).s.heap z).state = (a.s.heap z).state := by
      intro z
      have := o7 z
      unfold SameButOld at this
      rw [this]
      exact ⟨rfl, rfl⟩
    have hrec : ∀ z ∈ a.mutationNodes,
        ((parseStep a m).s.heap z).mutation.oldChildShadowView.tag =
          (a.s.heap z).mutation.oldChildShadowView.tag := by
      intro z hz
      rcases u3 z with h | ⟨h1, h2, h3⟩
      · rw [h]
      · obtain ⟨p, hp1, _, hp3⟩ := hS.entry _ h1
        rw [h2] at hp1
        have hpz : z = p := Option.some.inj hp1
        subst hpz
        rw [h3, c2 hty]
        exact (hp3 hz).symm
    refine ⟨⟨?_, ?_, ?_, by rw [u2]; exact hS.del, by rw [o5]; exact hS.le⟩, ?_,
      fun hc => absurd hc (by simp)⟩
    · intro z hz
      rw [o1] at hz
      obtain ⟨b1, b2, b3, b4⟩ := hS.built z hz
      rw [o5, (hF z).1, (hF z).2, hrec z hz]
      exact ⟨b1, b2, b3, b4⟩
    · intro z h1 h2 h3
      rw [o1]
      rw [o5] at h2
      rw [(hF z).1] at h3
      exact hS.fresh z h1 h2 h3
    · intro k hk
      rw [u1] at hk
      obtain ⟨p, hp1, hp2, hp3⟩ := hS.entry k hk
      refine ⟨p, by rw [o4]; exact hp1, by rw [o5]; exact hp2, fun hp => ?_⟩
      rw [o1] at hp
      rw [hrec p hp]
      exact hp3 hp
    · intro z hz
      exact ⟨by rw [o1]; exact hz, hrec z hz⟩
  | Remove =>
    rw [parseStep_remove a m hty]
    obtain ⟨g1, _, _, g4, _, g6, g7, _⟩ := parseRemove_gen a m _ rfl
    obtain ⟨s1, s2⟩ := parseRemove_states a m _ rfl
    obtain ⟨q1, q2, q3, q4⟩ := parseRemove_kinds a m
    have hmv := (parseStep_maps a m).1
    rw [parseStep_remove a m hty] at hmv
    rw [updateIndexForMutation_old] at s2 g7
    have hnext : a.s.next + 1 ≤ (parseRemove a m).s.next := by
      rw [g6]; split <;> (delta Ptr at *; omega)
    have hnext2 : (parseRemove a m).s.next ≤ a.s.next + 2 := by
      rw [g6]; split <;> (delta Ptr at *; omega)
    have hold : ∀ z ∈ a.mutationNodes, z < a.s.next := fun z hz => (hS.built z hz).2.1
    refine ⟨⟨?_, ?_, ?_, by rw [g4]; exact hS.del, Nat.le_trans hS.le (by delta Ptr at *; omega)⟩, ?_, ?_⟩
    · intro z hz
      rw [g1] at hz
      rcases List.mem_append.mp hz with hz | hz
      · obtain ⟨b1, b2, b3, b4⟩ := hS.built z hz
        rw [(q1 z b2).1, (q1 z b2).2, s1 z b2]
        exact ⟨b1, by delta Ptr at *; omega, b3, b4⟩
      · rw [List.mem_singleton] at hz
        subst hz
        refine ⟨hS.le, by delta Ptr at *; omega, q2, fun ht => ?_⟩
        rw [s2, if_neg]
        rw [q3] at ht
        rw [ht]
        exact hS.del
    · intro z h1 h2 h3
      rw [g1]
      rcases Nat.lt_trichotomy z a.s.next with hlt | heq | hgt
      · rw [(q1 z hlt).1] at h3
        exact List.mem_append_left _ (hS.fresh z h1 hlt h3)
      · rw [heq]; simp
      · have hz : z = a.s.next + 1 :=
          Nat.le_antisymm (Nat.lt_succ_iff.mp (Nat.lt_of_lt_of_le h2 hnext2)) hgt
        rw [hz] at h3 h2
        rw [q4 h2] at h3
        exact absurd h3 (by simp)
    · intro k hk
      rw [hmv] at hk
      by_cases hkt : k = m.oldChildShadowView.tag
      · -- the entry of the removed view
        by_cases hpar : (a.s.nodeForTag (updateIndexForMutation a.s m).parentTag).isSome = true
        · rw [g7, if_pos hpar, hkt, Function.update_same]
          exact ⟨_, rfl, by delta Ptr at *; omega, fun _ => by rw [q3]⟩
        · rw [g7, if_neg hpar]
          by_cases hpk : (updateIndexForMutation a.s m).parentTag = m.oldChildShadowView.tag
          · rw [hkt, ← hpk, Function.update_same]
            have h2 : (parseRemove a m).s.next = a.s.next + 2 := by rw [g6, if_neg hpar]
            refine ⟨_, rfl, by delta Ptr at *; omega, fun hp => ?_⟩
            rw [g1] at hp
            rcases List.mem_append.mp hp with hp | hp
            · exact absurd (hold _ hp) (by delta Ptr at *; omega)
            · rw [List.mem_singleton] at hp
              delta Ptr at *; omega
          · rw [hkt, Function.update_noteq (Ne.symm hpk), Function.update_same]
            exact ⟨_, rfl, by delta Ptr at *; omega, fun _ => by rw [q3]⟩
      · have hk0 : (a.movedViews k).isSome = true := by
          by_cases hc : m.type = .Remove ∧ m.oldChildShadowView.tag ∉ a.deletedViews
          · rw [if_pos hc, Function.update_noteq hkt] at hk; exact hk
          · rw [if_neg hc] at hk; exact hk
        obtain ⟨p, hp1, hp2, hp3⟩ := hS.entry k hk0
        have htab : (parseRemove a m).s.nodeForTag k = some p := by
          rw [g7]
          by_cases hpar : (a.s.nodeForTag (updateIndexForMutation a.s m).parentTag).isSome = true
          · rw [if_pos hpar, Function.update_noteq hkt]; exact hp1
          · rw [if_neg hpar]
            have hkp : k ≠ (updateIndexForMutation a.s m).parentTag := by
              intro hc
              rw [← hc, hp1] at hpar
              exact hpar rfl
            rw [Function.update_noteq hkp, Function.update_noteq hkt]; exact hp1
        refine ⟨p, htab, by delta Ptr at *; omega, fun hp => ?_⟩
        rw [g1] at hp
        rcases List.mem_append.mp hp with hp | hp
        · rw [(q1 p hp2).2]; exact hp3 hp
        · rw [List.mem_singleton] at hp
          delta Ptr at *; omega
    · intro z hz
      refine ⟨by rw [g1]; exact List.mem_append_left _ hz, ?_⟩
      rw [(q1 z (hold z hz)).2]
    · intro _
      exact ⟨a.s.next, by rw [g1]; simp, by rw [q3]⟩

/-- The reverse scan of a batch without Delete of `t` whose Updates keep their
tag, from any engine state: `ScanT` holds and every scanned Remove has a built
node that records its view. -/
theorem scanResult_scanT {t : Tag} (s : State) : ∀ sc : ShadowViewMutationList,
    (∀ m ∈ sc, m.type = .Delete → m.oldChildShadowView.tag ≠ t) →
    (∀ m ∈ sc, m.type = .Update → m.oldChildShadowView.tag = m.newChildShadowView.tag) →
    ScanT t s.next (scanResult s sc) ∧
    ∀ m ∈ sc, m.type = .Remove → ∃ p ∈ (scanResult s sc).mutationNodes,
      ((scanResult s sc).s.heap p).mutation.oldChildShadowView.tag = m.oldChildShadowView.tag := by
  intro sc
  induction sc with
  | nil =>
    intro _ _
    refine ⟨⟨?_, ?_, ?_, ?_, Nat.le_refl _⟩, fun m hm => absurd hm (by simp)⟩
    · intro z hz; exact absurd hz (by simp [scanResult])
    · intro z h1 h2 _
      simp only [scanResult, List.reverse_nil, List.foldl_nil] at h2
      exact absurd h2 (Nat.not_lt.mpr h1)
    · intro k hk; exact absurd hk (by simp [scanResult])
    · simp [scanResult]
  | cons m sc ih =>
    intro hdel hupd
    obtain ⟨hS, hex⟩ := ih (fun x hx => hdel x (List.mem_cons_of_mem _ hx))
      (fun x hx => hupd x (List.mem_cons_of_mem _ hx))
    rw [scanResult_cons]
    obtain ⟨r1, r2, r3⟩ := parseStep_scanT (scanResult s sc) m hS
      (hdel m (List.mem_cons_self _ _)) (hupd m (List.mem_cons_self _ _))
    refine ⟨r1, fun x hx hty => ?_⟩
    rcases List.mem_cons.mp hx with h | h
    · rw [h]; exact r3 (h ▸ hty)
    · obtain ⟨p, hp1, hp2⟩ := hex x h hty
      exact ⟨p, (r2 p hp1).1, by rw [(r2 p hp1).2]; exact hp2⟩

/-- The parse of a batch without Delete of `t` whose Updates keep their tag, from
any engine state: every Remove has a built node that records its view, the
built nodes are new mutation nodes and those that record `t` are MOVED, and
every new mutation node is a built node. -/
theorem parseRemoveMutations_built {t : Tag} (s : State) (batch : ShadowViewMutationList)
    (hdel : ∀ m ∈ batch, m.type = .Delete → m.oldChildShadowView.tag ≠ t)
    (hupd : ∀ m ∈ batch, m.type = .Update →
      m.oldChildShadowView.tag = m.newChildShadowView.tag) :
    (∀ m ∈ batch, m.type = .Remove → ∃ p ∈ (parseRemoveMutations s batch).mutationNodes,
      ((parseRemoveMutations s batch).s.heap p).mutation.oldChildShadowView.tag =
        m.oldChildShadowView.tag) ∧
    (∀ p ∈ (parseRemoveMutations s batch).mutationNodes,
      s.next ≤ p ∧ p < (parseRemoveMutations s batch).s.next ∧
      ((parseRemoveMutations s batch).s.heap p).isMutation = true ∧
      (((parseRemoveMutations s batch).s.heap p).mutation.oldChildShadowView.tag = t →
        ((parseRemoveMutations s batch).s.heap p).state = .MOVED)) ∧
    (∀ z, s.next ≤ z → z < (parseRemoveMutations s batch).s.next →
      ((parseRemoveMutations s batch).s.heap z).isMutation = true →
      z ∈ (parseRemoveMutations s batch).mutationNodes) := by
  obtain ⟨hS, hex⟩ := @scanResult_scanT t s batch hdel hupd
  obtain ⟨a1, _, a3⟩ := attachChildren_F4 (scanResult s batch).childrenForTag (scanResult s batch).s
  obtain ⟨b1, _, b3⟩ := attachUnflattenedChildren_F4 (scanResult s batch).unflattenedChildrenForTag
    (attachChildren (scanResult s batch).s (scanResult s batch).childrenForTag)
  have hs : (parseRemoveMutations s batch).s = attachUnflattenedChildren
      (attachChildren (scanResult s batch).s (scanResult s batch).childrenForTag)
      (scanResult s batch).unflattenedChildrenForTag := rfl
  have hn : (parseRemoveMutations s batch).mutationNodes = (scanResult s batch).mutationNodes :=
    rfl
  have hF : ∀ z, F4eq ((parseRemoveMutations s batch).s.heap z) ((scanResult s batch).s.heap z) :=
    fun z => by rw [hs]; exact (b1 z).trans4 (a1 z)
  have hnext : (parseRemoveMutations s batch).s.next = (scanResult s batch).s.next := by
    rw [hs, b3, a3]
  refine ⟨fun m hm hty => ?_, fun p hp => ?_, fun z h1 h2 h3 => ?_⟩
  · obtain ⟨p, hp1, hp2⟩ := hex m hm hty
    exact ⟨p, by rw [hn]; exact hp1, by rw [(hF p).2.1]; exact hp2⟩
  · rw [hn] at hp
    obtain ⟨c1, c2, c3, c4⟩ := hS.built p hp
    rw [hnext, (hF p).1, (hF p).2.1, (hF p).2.2.1]
    exact ⟨c1, c2, c3, c4⟩
  · rw [hn]
    rw [hnext] at h2
    rw [(hF z).1] at h3
    exact hS.fresh z h1 h2 h3
theorem SameUp.su_refl (s : State) : SameUp s s := fun _ => ⟨rfl, rfl, rfl⟩

theorem SameUp.su_trans {a b c : State} (h1 : SameUp a b) (h2 : SameUp b c) : SameUp a c :=
  fun z => ⟨(h2 z).1.trans (h1 z).1, (h2 z).2.1.trans (h1 z).2.1,
    (h2 z).2.2.trans (h1 z).2.2⟩

theorem SameUp.su_of_heap {s s1 : State} (hh : s1.heap = s.heap) : SameUp s s1 :=
  fun z => by rw [hh]; exact ⟨rfl, rfl, rfl⟩

theorem SameUp.su_removeChild (s : State) (self child : Ptr) :
    SameUp s (removeChildFromUnflattenedTree s self child) := fun z => by
  have := removeChildFromUnflattenedTree_node s self child z
  simp only [State.node] at this
  rw [this]
  exact ⟨rfl, rfl, rfl⟩

theorem UpFree.uf_of_same {t : Tag} {s s1 : State} (hs : SameUp s s1) :
    ∀ (k : Nat) (p : Ptr), UpFree t s.heap k p → UpFree t s1.heap k p := by
  intro k
  induction k with
  | zero => intro p hp; exact hp
  | succ k ih =>
    intro p hp
    rcases hp with h | ⟨h1, h2⟩
    · exact Or.inl (by rw [(hs p).1]; exact h)
    · exact Or.inr ⟨by rw [(hs p).2.1]; exact h1, by rw [(hs p).2.2]; exact ih _ h2⟩

/-- A chain without a node of tag `t` is in particular a bounded chain. -/
theorem UpFree.upLe {t : Tag} {h : Ptr → Node} :
    ∀ (k : Nat) (p : Ptr), UpFree t h k p → UpLe h k p := by
  intro k
  induction k with
  | zero => intro p hp; exact hp
  | succ k ih =>
    intro p hp
    rcases hp with h1 | ⟨_, h2⟩
    · exact Or.inl h1
    · exact Or.inr (ih _ h2)

/-- A pruning step from a well-typed state that keeps the mutations of the
allocated nodes keeps the chains above the allocated nodes free of tag `t`. -/
theorem UpFree.free_parent {t : Tag} {s s1 : State} (ht : Typed s) (hf : Pruning s s1)
    (hm : ∀ p, p < s.next → (s1.heap p).mutation = (s.heap p).mutation) :
    ∀ (k : Nat) (p : Ptr), p < s.next → UpFree t s.heap k (s.heap p).unflattenedParent →
      UpFree t s1.heap k (s1.heap p).unflattenedParent := by
  have hall : ∀ (k : Nat) (p : Ptr), UpFree t s.heap k p → UpFree t s1.heap k p := by
    intro k
    induction k with
    | zero => intro p hp; exact hp
    | succ k ih =>
      intro p hp
      cases hmut : (s1.heap p).isMutation with
      | false => exact Or.inl hmut
      | true =>
        right
        have hms : (s.heap p).isMutation = true := hf.2.1 p hmut
        have hpn : p < s.next := ht.lt_of_mutation hms
        rcases hp with h | ⟨h1, h2⟩
        · rw [hms] at h; exact absurd h (by simp)
        · refine ⟨by rw [hm p hpn]; exact h1, ?_⟩
          rcases hf.2.2.2 p hpn with e | e
          · rw [e]; exact ih _ h2
          · cases k with
            | zero => exact absurd h2 (by simp [UpFree])
            | succ k => exact Or.inl (ht.plain_of_ge hf _ e)
  intro k p hpn h
  rcases hf.2.2.2 p hpn with e | e
  · rw [e]; exact hall k _ h
  · cases k with
    | zero => exact absurd h (by simp [UpFree])
    | succ k => exact Or.inl (ht.plain_of_ge hf _ e)

theorem NoDel.pair_of_tag {t : Tag} {n : Node} (ht : n.mutation.oldChildShadowView.tag ≠ t) :
    NoDel t [n.mutation, DeleteMutation n.mutation.oldChildShadowView] := by
  intro x hx _
  simp only [List.mem_cons, List.mem_singleton, List.not_mem_nil, or_false] at hx
  rcases hx with rfl | rfl
  · exact ht
  · exact ht

/-- The function `maybeDropAncestors` keeps the invariant of the removal pass and
emits no Delete of tag `t` when no node above the parent records tag `t`. -/
theorem maybeDropAncestors_noDel {t : Tag} : ∀ (fuel : Nat) (parent child : Ptr)
    (s s1 : State) (m m1 : ShadowViewMutationList),
    RemInv t s.heap s.next → UpFree t s.heap fuel parent →
    maybeDropAncestors fuel parent child (s, m) = some (s1, m1) →
    Keeps t s s1 ∧ SameUp s s1 ∧ ∃ X, m1 = m ++ X ∧ NoDel t X := by
  intro fuel
  induction fuel with
  | zero => intro p c s s1 m m1 _ _ h; simp [maybeDropAncestors] at h
  | succ fuel ih =>
    intro p c s s1 m m1 hinv hup h
    obtain ⟨S, hS⟩ : ∃ S, S = removeChildFromUnflattenedTree s p c := ⟨_, rfl⟩
    have hk1 : Keeps t s S := by
      rw [hS]
      exact Keeps.removeFold hinv p [c]
    have hu1 : SameUp s S := by rw [hS]; exact SameUp.su_removeChild s p c
    unfold maybeDropAncestors at h
    simp only [← hS] at h
    split at h
    · simp only [Option.some.injEq, Prod.mk.injEq] at h
      rw [← h.1, ← h.2]
      exact ⟨hk1, hu1, [], by simp, fun x hx => absurd hx (List.not_mem_nil _)⟩
    · rename_i hmut
      split at h
      · obtain ⟨S3, hS3⟩ : ∃ S3, S3 = maybeCancelAnimation
            { S with nodeForTag := Function.update S.nodeForTag (S.node p).tag none }
            (S.node p).tag := ⟨_, rfl⟩
        have hheap : S3.heap = S.heap := by rw [hS3]; exact maybeCancelAnimation_heap _ _
        have hk2 : Keeps t S S3 := Keeps.of_heap_eq hk1.1 hheap
          (by rw [hS3]; exact (maybeCancelAnimation_next _ _).1)
          (by rw [hS3]; exact (maybeCancelAnimation_next _ _).2)
        have hu2 : SameUp S S3 := SameUp.su_of_heap hheap
        rw [← hS3] at h
        have hms : (s.heap p).isMutation = true := by
          rw [← (hu1 p).1]
          simpa [State.node] using hmut
        have hup1 : (s.heap p).mutation.oldChildShadowView.tag ≠ t ∧
            UpFree t s.heap fuel (s.heap p).unflattenedParent := by
          rcases hup with h0 | h0
          · rw [hms] at h0; exact absurd h0 (by simp)
          · exact h0
        have hmS : (S.node p).mutation = (s.heap p).mutation := (hu1 p).2.1
        have hpS : (S.node p).unflattenedParent = (s.heap p).unflattenedParent := (hu1 p).2.2
        obtain ⟨r1, r2, X, r3, r4⟩ := ih _ _ S3 s1 _ m1 hk2.1
          (by rw [hpS]; exact UpFree.uf_of_same (hu1.su_trans hu2) fuel _ hup1.2) h
        refine ⟨(hk1.keeps_trans hk2).keeps_trans r1, (hu1.su_trans hu2).su_trans r2,
          [(S.node p).mutation, DeleteMutation (S.node p).mutation.oldChildShadowView] ++ X,
          by rw [r3, List.append_assoc], NoDel.append ?_ r4⟩
        exact NoDel.pair_of_tag (by rw [hmS]; exact hup1.1)
      · simp only [Option.some.injEq, Prod.mk.injEq] at h
        rw [← h.1, ← h.2]
        exact ⟨hk1, hu1, [], by simp, fun x hx => absurd hx (List.not_mem_nil _)⟩

theorem endAnimationsRecursively_sameUp (fuel : Nat) (node : Ptr) (w w1 : Work)
    (h : endAnimationsRecursively fuel node w = some w1) : SameUp w.1 w1.1 := by
  obtain ⟨⟨f1, _, _⟩, _, _⟩ := endAnimationsRecursively_finalizes fuel node w w1 h
  have hfield : ∀ z, w1.1.heap z = { w.1.heap z with state := (w1.1.heap z).state } := f1
  intro z
  rw [hfield z]
  exact ⟨rfl, rfl, rfl⟩

/-- The loop of `handleRemovals` over the dead nodes emits no Delete of tag `t`
when no node of tag `t` lies below or above a dead node. -/
theorem handleDeadNodes_noDel {t : Tag} (fuel : Nat) : ∀ (dead : List Ptr) (s s1 : State)
    (m m1 : ShadowViewMutationList),
    RemInv t s.heap s.next →
    (∀ d ∈ dead, d < s.next ∧ (s.heap d).isMutation = true ∧ Clean t s.heap d ∧
      UpFree t s.heap fuel (s.heap d).unflattenedParent) →
    handleDeadNodes fuel dead (s, m) = some (s1, m1) →
    ∃ X, m1 = m ++ X ∧ NoDel t X := by
  intro dead
  induction dead with
  | nil =>
    intro s s1 m m1 _ _ h
    simp only [handleDeadNodes, List.foldl_nil, Option.some.injEq, Prod.mk.injEq] at h
    exact ⟨[], by rw [← h.2]; simp, fun x hx => absurd hx (List.not_mem_nil _)⟩
  | cons d ds ih =>
    intro s s1 m m1 hinv hd h
    obtain ⟨d1, d2, d3, d4⟩ := hd d (List.mem_cons_self _ _)
    unfold handleDeadNodes at h
    rw [List.foldl_cons] at h
    by_cases hst : (s.node d).state ≠ .DELETED
    · simp only [if_pos hst] at h
      cases he : endAnimationsRecursively fuel d (s, m) with
      | none =>
        rw [he] at h
        simp only at h
        rw [foldl_none_of_step _ (fun _ => rfl)] at h
        exact absurd h (by simp)
      | some w2 =>
        obtain ⟨s2, m2⟩ := w2
        rw [he] at h
        simp only at h
        obtain ⟨i1, i2, i3, X, i4, i5⟩ :=
          endAnimationsRecursively_inv fuel d s s2 m m2 hinv d1 d2 d3 he
        have hu2 : SameUp s s2 := endAnimationsRecursively_sameUp fuel d (s, m) (s2, m2) he
        cases hmd : maybeDropAncestors fuel (s2.node d).unflattenedParent d (s2, m2) with
        | none =>
          rw [hmd, foldl_none_of_step _ (fun _ => rfl)] at h
          exact absurd h (by simp)
        | some w3 =>
          obtain ⟨s3, m3⟩ := w3
          rw [hmd] at h
          have hpd : (s2.node d).unflattenedParent = (s.heap d).unflattenedParent :=
            (hu2 d).2.2
          obtain ⟨j1, j2, Y, j3, j4⟩ := maybeDropAncestors_noDel fuel _ d s2 s3 m2 m3 i1
            (by rw [hpd]; exact UpFree.uf_of_same hu2 fuel _ d4) hmd
          have hk : Keeps t s s3 := Keeps.keeps_trans ⟨i1, i2, i3⟩ j1
          have hu : SameUp s s3 := hu2.su_trans j2
          obtain ⟨Z, k1, k2⟩ := ih s3 s1 m3 m1 hk.1 (fun e he1 => by
            obtain ⟨e1, e2, e3, e4⟩ := hd e (List.mem_cons_of_mem _ he1)
            refine ⟨lt_of_lt_of_le e1 hk.2.1.next, by rw [(hu e).1]; exact e2,
              Clean.clean_ext hinv hk.2.1 e1 e3, ?_⟩
            rw [(hu e).2.2]
            exact UpFree.uf_of_same hu fuel _ e4) h
          exact ⟨X ++ (Y ++ Z), by rw [k1, j3, i4]; simp only [List.append_assoc],
            NoDel.append i5 (NoDel.append j4 k2)⟩
    · simp only [if_neg hst] at h
      exact ih s s1 m m1 hinv (fun e he1 => hd e (List.mem_cons_of_mem _ he1)) h
/-- The removal pass in any well-typed state: when the invariant for tag `t` holds
and no node of tag `t` lies below or above a queued dead node, what
`handleRemovals` returns holds no Delete of `t`. -/
theorem handleRemovals_noDel_gen {t : Tag} (mgr : Manager) (fuel : Nat) (roots : List Ptr)
    (s s1 : State) (m1 : ShadowViewMutationList) (hinv : RemInv t s.heap s.next)
    (ht : Typed s)
    (hroots : ∀ p ∈ roots, p < s.next ∧ (s.heap p).isMutation = true)
    (hdead : ∀ d ∈ s.deadNodes, Clean t s.heap d ∧
      UpFree t s.heap fuel (s.heap d).unflattenedParent)
    (h : handleRemovals mgr fuel roots (s, []) = some (s1, m1)) : NoDel t m1 := by
  unfold handleRemovals at h
  cases hr : handleRoots mgr fuel roots (s, []) with
  | none => rw [hr] at h; exact absurd h (by simp)
  | some w1 =>
    obtain ⟨s2, m2⟩ := w1
    obtain ⟨hk, X, hX, hXd⟩ := handleRoots_inv mgr fuel roots s s2 [] m2 hinv hroots hr
    have hpr : Pruning s s2 := handleRoots_pruning mgr fuel roots (s, []) (s2, m2) hr
    rw [hr] at h
    simp only at h
    cases hd : handleDeadNodes fuel (visitOrder mgr.deadKey s2.deadNodes) (s2, m2) with
    | none => rw [hd] at h; exact absurd h (by simp)
    | some w3 =>
      obtain ⟨s3, m3⟩ := w3
      rw [hd] at h
      simp only [Option.some.injEq, Prod.mk.injEq] at h
      obtain ⟨Y, hY, hYd⟩ := handleDeadNodes_noDel fuel (visitOrder mgr.deadKey s2.deadNodes)
        s2 s3 m2 m3 hk.1 (fun d hdm => by
          have hds : d ∈ s.deadNodes := by
            rw [← hk.2.2]; exact mem_visitOrder.mp hdm
          have hmut := ht.dead d hds
          have hlt := ht.lt_of_mutation hmut
          obtain ⟨c1, c2⟩ := hdead d hds
          exact ⟨Nat.lt_of_lt_of_le hlt hk.2.1.next,
            by rw [(hk.2.1.shape d hlt).1]; exact hmut,
            Clean.clean_ext hinv hk.2.1 hlt c1,
            UpFree.free_parent ht hpr (fun p hp => (hk.2.1.shape p hp).2.1) fuel d hlt c2⟩) hd
      rw [← h.2, hY, hX]
      intro x hx
      simp only [List.nil_append, List.mem_append] at hx
      rcases hx with hx | hx
      · exact hXd x hx
      · exact hYd x hx

/-- A node without unflattened children that does not record tag `t` has no node
of tag `t` below it. -/
theorem Clean.of_leaves {t : Tag} {h : Ptr → Node} {n : Nat} {C : Ptr → Prop}
    (H : ∀ p, p < n → C p → (h p).unflattenedChildren = [] ∧
      ¬ ((h p).isMutation = true ∧ (h p).mutation.oldChildShadowView.tag = t)) :
    ∀ p, p < n → C p → Clean t h p := by
  intro p hp hc z hz
  obtain ⟨h1, h2⟩ := H p hp hc
  cases hz with
  | refl => exact h2
  | step hmem _ => rw [h1] at hmem; exact absurd hmem (by simp)

/-- C3 (amended): in every well-typed engine state, for every batch whose Updates
keep the tag of their view and every tag `t` such that the batch contains a
Remove of `t` and, at a later position, an Insert of `t`, and no Delete of
`t`: a node is built for `t` and every node built for `t` is classified MOVED.
When moreover, once the batch is parsed, every mutation node carries the tag
of the view it records, the nodes left by earlier transactions that record `t`
are MOVED, no node for `t` lies below a node whose exit was settled or that is
queued as dead, and no node for `t` lies on the chain of ancestors of a queued
dead node (which ends at a plain node within the budget), then with a budget
that covers the parsed tree `pullTransaction` returns and the filtered batch
it returns contains no Delete mutation for `t`. -/
theorem pullTransaction_moved_no_delete (mgr : Manager) (fuel : Nat) (s : State)
    (sid : SurfaceId) (batch : ShadowViewMutationList) (t : Tag)
    (hmove : ∃ (i j : Nat) (r ins : ShadowViewMutation), i < j ∧ batch[i]? = some r ∧
      r.type = .Remove ∧ r.oldChildShadowView.tag = t ∧ batch[j]? = some ins ∧
      ins.type = .Insert ∧ ins.newChildShadowView.tag = t)
    (hdel : ∀ m ∈ batch, m.type = .Delete → m.oldChildShadowView.tag ≠ t)
    (hupd : ∀ m ∈ batch, m.type = .Update →
      m.oldChildShadowView.tag = m.newChildShadowView.tag) :
    (∃ p ∈ (parseRemoveMutations s batch).mutationNodes,
      ((parseRemoveMutations s batch).s.node p).mutation.oldChildShadowView.tag = t) ∧
    (∀ p ∈ (parseRemoveMutations s batch).mutationNodes,
      ((parseRemoveMutations s batch).s.node p).mutation.oldChildShadowView.tag = t →
      ((parseRemoveMutations s batch).s.node p).state = .MOVED) ∧
    (Typed s → WithinBudget fuel (parseRemoveMutations s batch) →
      (∀ p, p < (parseRemoveMutations s batch).s.next →
        ((parseRemoveMutations s batch).s.node p).isMutation = true →
        ((parseRemoveMutations s batch).s.node p).tag =
          ((parseRemoveMutations s batch).s.node p).mutation.oldChildShadowView.tag) →
      (∀ p, p < s.next → ((parseRemoveMutations s batch).s.node p).isMutation = true →
        ((parseRemoveMutations s batch).s.node p).mutation.oldChildShadowView.tag = t →
        ((parseRemoveMutations s batch).s.node p).state = .MOVED) →
      (∀ p, p < (parseRemoveMutations s batch).s.next →
        (Classified ((parseRemoveMutations s batch).s.node p).state ∨
          p ∈ (parseRemoveMutations s batch).s.deadNodes) →
        Clean t (parseRemoveMutations s batch).s.heap p) →
      (∀ d ∈ (parseRemoveMutations s batch).s.deadNodes,
        UpFree t (parseRemoveMutations s batch).s.heap fuel
          ((parseRemoveMutations s batch).s.node d).unflattenedParent) →
      ∃ w, pullTransaction mgr fuel s sid batch = some w ∧
        ∀ m ∈ w.2, m.type = .Delete → m.oldChildShadowView.tag ≠ t) := by
  obtain ⟨hex, hbuilt, hfresh⟩ := @parseRemoveMutations_built t s batch hdel hupd
  obtain ⟨i, j, r, ins, _, hr, hrty, hrtag, _⟩ := hmove
  have hrmem : r ∈ batch := List.getElem?_mem hr
  refine ⟨?_, ?_, ?_⟩
  · obtain ⟨p, hp, hptag⟩ := hex r hrmem hrty
    exact ⟨p, hp, by rw [State.node, hptag, hrtag]⟩
  · intro p hp hptag
    exact (hbuilt p hp).2.2.2 hptag
  · intro hs hfuel htags hold hclean hup
    simp only [State.node] at htags hold hclean hup
    obtain ⟨hty, hrootsMut⟩ := parseRemoveMutations_typed s batch hs
    have hinv : RemInv t (parseRemoveMutations s batch).s.heap
        (parseRemoveMutations s batch).s.next := by
      refine ⟨fun p _ hm => hty.typ p hm, fun p hp hT => ?_, htags,
        fun p _ c hc => ⟨hty.kids p c hc, hty.lt_of_mutation (hty.kids p c hc)⟩,
        fun p hp hc => hclean p hp (Or.inl hc)⟩
      by_cases hlt : p < s.next
      · exact hold p hlt hT.1 hT.2
      · exact (hbuilt p (hfresh p (Nat.le_of_not_lt hlt) hp hT.1)).2.2.2 hT.2
    obtain ⟨w, hw⟩ := pullTransaction_returns mgr fuel s sid batch hs hfuel
    refine ⟨w, hw, fun m hm hmty => ?_⟩
    unfold pullTransaction at hw
    simp only at hw
    cases hrem : handleRemovals mgr fuel (parseRemoveMutations s batch).roots
        ((parseRemoveMutations s batch).s, []) with
    | none => rw [hrem] at hw; exact absurd hw (by simp)
    | some w1 =>
      obtain ⟨s1, m1⟩ := w1
      have hnd := handleRemovals_noDel_gen mgr fuel _ _ s1 m1 hinv hty
        (fun p hp => ⟨hty.lt_of_mutation (hrootsMut p hp), hrootsMut p hp⟩)
        (fun d hd => ⟨hclean d (hty.lt_of_mutation (hty.dead d hd)) (Or.inr hd), hup d hd⟩) hrem
      rw [hrem] at hw
      simp only [Option.some.injEq] at hw
      obtain ⟨Y, hY, hYd⟩ := foldl_handleMutation_noDelete mgr
        (parseRemoveMutations s batch).movedViews sid batch
        { s := s1, filteredMutations := m1, oldShadowViewsForReparentings := fun _ => none }
      obtain ⟨Z, hZ, hZd⟩ := addOngoingAnimations_noDelete sid
        (handleUpdatesAndEnterings mgr (parseRemoveMutations s batch).movedViews
          sid batch (s1, m1))
      rw [← hw, hZ] at hm
      simp only [handleUpdatesAndEnterings] at hm
      rw [hY] at hm
      rcases List.mem_append.mp hm with h | h
      · rcases List.mem_append.mp h with h | h
        · exact hnd m h hmty
        · exact absurd hmty (hYd m h)
      · exact absurd hmty (hZd m h)
theorem pullTransaction_moved_no_delete_witness :
    (∃ p ∈ (parseRemoveMutations deadExitState
        [RemoveMutation 1 (sampleView 5) 0, InsertMutation 2 (sampleView 5) 0]).mutationNodes,
      ((parseRemoveMutations deadExitState
        [RemoveMutation 1 (sampleView 5) 0, InsertMutation 2 (sampleView 5) 0]).s.node
          p).mutation.oldChildShadowView.tag = 5) ∧
    (∀ p ∈ (parseRemoveMutations deadExitState
        [RemoveMutation 1 (sampleView 5) 0, InsertMutation 2 (sampleView 5) 0]).mutationNodes,
      ((parseRemoveMutations deadExitState
        [RemoveMutation 1 (sampleView 5) 0, InsertMutation 2 (sampleView 5) 0]).s.node
          p).mutation.oldChildShadowView.tag = 5 →
      ((parseRemoveMutations deadExitState
        [RemoveMutation 1 (sampleView 5) 0, InsertMutation 2 (sampleView 5) 0]).s.node p).state
        = .MOVED) ∧
    (parseRemoveMutations deadExitState
      [RemoveMutation 1 (sampleView 5) 0, InsertMutation 2 (sampleView 5) 0]).s.deadNodes ≠ [] ∧
    ∃ w, pullTransaction noAnimations 2 deadExitState 1
        [RemoveMutation 1 (sampleView 5) 0, InsertMutation 2 (sampleView 5) 0] = some w ∧
      ∀ m ∈ w.2, m.type = .Delete → m.oldChildShadowView.tag ≠ 5 :=
  have h := pullTransaction_moved_no_delete noAnimations 2 deadExitState 1
    [RemoveMutation 1 (sampleView 5) 0, InsertMutation 2 (sampleView 5) 0] 5
    ⟨0, 1, RemoveMutation 1 (sampleView 5) 0, InsertMutation 2 (sampleView 5) 0,
      by decide, rfl, rfl, rfl, rfl, rfl, rfl⟩
    (by decide) (by decide)
  ⟨h.1, h.2.1, by decide,
    h.2.2 deadExitState_reachable.sound (by decide) (by decide) (by decide)
      (Clean.of_leaves (by decide)) (by decide)⟩

/-- C3 (counterexample): a Remove of a tag followed by an Insert of the same tag
does not keep the Delete of that tag out of the filtered batch.  In a fresh
engine the batch [Remove(5), Delete(5), Insert(5)] leaves the node built for
tag 5 unclassified and not MOVED, and the Delete of tag 5 is forwarded.  In
the engine whose view 7 is dead and queued, the batch [Remove(7), Insert(7)]
finalizes the queued node of tag 7 with a Delete of tag 7, and the batch
[Remove(5 from 7), Insert(5)] puts the node built for tag 5 below the dead
node, which is finalized with its subtree: the Delete of tag 5 is emitted. -/
theorem pullTransaction_reinserted_deleted :
    ((parseRemoveMutations State.fresh
      [RemoveMutation 1 (sampleView 5) 0, DeleteMutation (sampleView 5),
        InsertMutation 2 (sampleView 5) 0]).mutationNodes = [1] ∧
     ((parseRemoveMutations State.fresh
      [RemoveMutation 1 (sampleView 5) 0, DeleteMutation (sampleView 5),
        InsertMutation 2 (sampleView 5) 0]).s.node 1).tag = 5 ∧
     ((parseRemoveMutations State.fresh
      [RemoveMutation 1 (sampleView 5) 0, DeleteMutation (sampleView 5),
        InsertMutation 2 (sampleView 5) 0]).s.node 1).state ≠ .MOVED) ∧
    filtered (pullTransaction noAnimations 4 State.fresh 1
      [RemoveMutation 1 (sampleView 5) 0, DeleteMutation (sampleView 5),
        InsertMutation 2 (sampleView 5) 0])
      = some [RemoveMutation 1 (sampleView 5) 0, DeleteMutation (sampleView 5),
        InsertMutation 2 (sampleView 5) 0] ∧
    (∃ w, pullTransaction noAnimations 4 deadExitState 1
        [RemoveMutation 1 (sampleView 7) 0, InsertMutation 2 (sampleView 7) 0] = some w ∧
      DeleteMutation (sampleView 7) ∈ w.2) ∧
    (∃ w, pullTransaction noAnimations 4 deadExitState 1
        [RemoveMutation 7 (sampleView 5) 0, InsertMutation 2 (sampleView 5) 0] = some w ∧
      DeleteMutation (sampleView 5) ∈ w.2) := by
  refine ⟨by decide, by decide, ?_, ?_⟩
  · exact ⟨_, rfl, by decide⟩
  · exact ⟨_, rfl, by decide⟩

end reanimated
